import Mathlib

/-!
# Incremental bidirectional shortest-path search (pr_bgl)

A shallow embedding of `pr_bgl/inc_bi.h` and `pr_bgl/lifelong_planning_astar.h`.

* Vertices are natural numbers; `vertex_index_map` is the identity and
  `vertex(i, g)` is `i`.
* An arc carries its source, its target and the value of `edge_index_map`.
* The weight type is instantiated with the natural numbers extended by a
  largest element `inf`; `combine` is addition, `zero` is `0`.
* The property maps are total functions updated with `Function.update`.
* A queue operation outside its contract makes the enclosing call fail
  (`none`); the unbounded loop of `compute_shortest_path` is run with fuel.
-/

set_option linter.constructorNameAsVariable false
set_option linter.unnecessarySeqFocus false
set_option autoImplicit false

namespace pr_bgl

/-! ## Weights -/

/-- Weight values: a finite natural number or the sentinel `inf`. -/
inductive Weight where
  | fin (n : Nat)
  | inf
  deriving DecidableEq, Repr

namespace Weight

/-- The `zero` argument of the engine. -/
def zero : Weight := fin 0

/-- The `combine` argument of the engine: addition, absorbing at `inf`. -/
def combine : Weight → Weight → Weight
  | fin a, fin b => fin (a + b)
  | _, _ => inf

/-- The comparison `a < b` of the weight type. -/
def lt : Weight → Weight → Bool
  | fin a, fin b => decide (a < b)
  | fin _, inf => true
  | inf, _ => false

/-- The comparison `a > b` of the weight type. -/
def gt (a b : Weight) : Bool := lt b a

/-- The comparison `a <= b` of the weight type. -/
def le (a b : Weight) : Bool := !(lt b a)

/-- The function `std::min(a, b)`, which returns `b` when `b < a` and `a` otherwise. -/
def min (a b : Weight) : Weight := if lt b a then b else a

end Weight

/-! ## The indexed priority queue -/

/-- Modelled from the spec: the class `HeapIndexed` of `pr_bgl/heap_indexed.h`, which is
not among the sources. The queue holds at most one key per index. `entries` lists the
present indices with their keys in insertion order. Which of several entries with a
minimal key is reported by `top_idx` is left open by the spec: it is chosen by the
oracle `tie`, consulted at the number `clock` of modifications made so far. -/
structure HeapIndexed (K : Type) where
  entries : List (Nat × K)
  clock : Nat
  tie : Nat → Nat

namespace HeapIndexed

variable {K : Type}

/-- The empty queue, as built by the default constructor. -/
def empty (tie : Nat → Nat) : HeapIndexed K := ⟨[], 0, tie⟩

/-- The method `size()`. -/
def size (h : HeapIndexed K) : Nat := h.entries.length

/-- The method `contains(idx)`. -/
def contains (h : HeapIndexed K) (i : Nat) : Bool := h.entries.any (fun e => e.1 == i)

/-- The key stored for an index, when the index is present. -/
def key_of (h : HeapIndexed K) (i : Nat) : Option K :=
  (h.entries.find? (fun e => e.1 == i)).map Prod.snd

/-- The method `insert(idx, key)`: the index must not be present. -/
def insert (h : HeapIndexed K) (i : Nat) (k : K) : Option (HeapIndexed K) :=
  if h.contains i then none
  else some ⟨h.entries ++ [(i, k)], h.clock + 1, h.tie⟩

/-- The method `update(idx, key)`: the index must be present. -/
def update (h : HeapIndexed K) (i : Nat) (k : K) : Option (HeapIndexed K) :=
  if h.contains i then
    some ⟨h.entries.map (fun e => if e.1 == i then (i, k) else e), h.clock + 1, h.tie⟩
  else none

/-- The method `remove(idx)`: the index must be present. -/
def remove (h : HeapIndexed K) (i : Nat) : Option (HeapIndexed K) :=
  if h.contains i then
    some ⟨h.entries.filter (fun e => !(e.1 == i)), h.clock + 1, h.tie⟩
  else none

/-- The entries whose key is minimal: no present key is smaller. -/
def minimal (lt : K → K → Bool) (h : HeapIndexed K) : List (Nat × K) :=
  h.entries.filter (fun e => h.entries.all (fun e' => !(lt e'.2 e.2)))

/-- The entry at the top of the queue; `none` when the queue is empty. -/
def top (lt : K → K → Bool) (h : HeapIndexed K) : Option (Nat × K) :=
  (minimal lt h)[h.tie h.clock % (minimal lt h).length]?

/-- The method `top_idx()`: the queue must be non-empty. -/
def top_idx (lt : K → K → Bool) (h : HeapIndexed K) : Option Nat :=
  (top lt h).map Prod.fst

/-- The method `top_key()`: the queue must be non-empty. -/
def top_key (lt : K → K → Bool) (h : HeapIndexed K) : Option K :=
  (top lt h).map Prod.snd

/-- The method `remove_min()`: the queue must be non-empty. -/
def remove_min (lt : K → K → Bool) (h : HeapIndexed K) : Option (HeapIndexed K) :=
  match top lt h with
  | none => none
  | some e => remove h e.1

end HeapIndexed

/-! ## Graphs -/

/-- An arc of the graph: an edge descriptor with its source, its target and its
value under `edge_index_map`. -/
structure Arc where
  src : Nat
  tgt : Nat
  idx : Nat
  deriving DecidableEq, Repr

/-- A graph: the vertices are `0, ..., nv - 1`, the arcs are listed in iteration order. -/
structure Graph where
  nv : Nat
  arcs : List Arc

/-- The range `vertices(g)`. -/
def vertices (g : Graph) : List Nat := List.range g.nv

/-- The range `out_edges(u, g)`. -/
def out_edges (u : Nat) (g : Graph) : List Arc := g.arcs.filter (fun e => e.src == u)

/-- The range `in_edges(u, g)`. -/
def in_edges (u : Nat) (g : Graph) : List Arc := g.arcs.filter (fun e => e.tgt == u)

/-- The result of running a loop with fuel: `done a` when the call returned, `fault`
when a queue was used outside its contract, `out_of_fuel` when the fuel ran out first. -/
inductive Run (α : Type) where
  | done (a : α)
  | fault
  | out_of_fuel

/-! ## The bidirectional engine `inc_bi` -/

/-- The key type `inc_bi::conn_key`. -/
structure conn_key where
  path_length : Weight
  start_dist : Weight
  goal_dist : Weight
  deriving DecidableEq, Repr

/-- The operator `conn_key::operator<`, which compares the path lengths only. -/
def conn_key.lt (a b : conn_key) : Bool := Weight.lt a.path_length b.path_length

/-- The data members of the class `inc_bi`. -/
structure inc_bi where
  g : Graph
  v_start : Nat
  v_goal : Nat
  start_predecessor : Nat → Nat
  start_distance : Nat → Weight
  start_distance_lookahead : Nat → Weight
  goal_predecessor : Nat → Nat
  goal_distance : Nat → Weight
  goal_distance_lookahead : Nat → Weight
  weight : Arc → Weight
  goal_margin : Weight
  start_queue : HeapIndexed Weight
  goal_queue : HeapIndexed Weight
  conn_queue : HeapIndexed conn_key

namespace inc_bi

/-- The body of the vertex loop of the constructor. -/
def construct_vertex (s : inc_bi) (v : Nat) : inc_bi :=
  { s with
    start_distance_lookahead := Function.update s.start_distance_lookahead v Weight.inf
    start_distance := Function.update s.start_distance v Weight.inf
    goal_distance_lookahead := Function.update s.goal_distance_lookahead v Weight.inf
    goal_distance := Function.update s.goal_distance v Weight.inf }

/-- The member initialiser list of the constructor: the property maps are handed in by
the caller; the three queues start empty, each with its tie-breaking oracle. -/
def members (g : Graph) (v_start v_goal : Nat)
    (start_predecessor : Nat → Nat)
    (start_distance start_distance_lookahead : Nat → Weight)
    (goal_predecessor : Nat → Nat)
    (goal_distance goal_distance_lookahead : Nat → Weight)
    (weight : Arc → Weight) (goal_margin : Weight)
    (tie_start tie_goal tie_conn : Nat → Nat) : inc_bi :=
  { g := g, v_start := v_start, v_goal := v_goal,
    start_predecessor := start_predecessor,
    start_distance := start_distance,
    start_distance_lookahead := start_distance_lookahead,
    goal_predecessor := goal_predecessor,
    goal_distance := goal_distance,
    goal_distance_lookahead := goal_distance_lookahead,
    weight := weight, goal_margin := goal_margin,
    start_queue := HeapIndexed.empty tie_start,
    goal_queue := HeapIndexed.empty tie_goal,
    conn_queue := HeapIndexed.empty tie_conn }

/-- The constructor `inc_bi::inc_bi`. -/
def construct (g : Graph) (v_start v_goal : Nat)
    (start_predecessor : Nat → Nat)
    (start_distance start_distance_lookahead : Nat → Weight)
    (goal_predecessor : Nat → Nat)
    (goal_distance goal_distance_lookahead : Nat → Weight)
    (weight : Arc → Weight) (goal_margin : Weight)
    (tie_start tie_goal tie_conn : Nat → Nat) : Option inc_bi :=
  let s0 := members g v_start v_goal start_predecessor start_distance
    start_distance_lookahead goal_predecessor goal_distance goal_distance_lookahead
    weight goal_margin tie_start tie_goal tie_conn
  let s1 := (vertices g).foldl construct_vertex s0
  let s2 : inc_bi :=
    { s1 with
      start_distance_lookahead := Function.update s1.start_distance_lookahead v_start Weight.zero }
  let s3 : inc_bi :=
    { s2 with
      goal_distance_lookahead := Function.update s2.goal_distance_lookahead v_goal Weight.zero }
  (s3.start_queue.insert v_start Weight.zero).bind fun sq =>
  (s3.goal_queue.insert v_goal Weight.zero).bind fun gq =>
  some { s3 with start_queue := sq, goal_queue := gq }

/-- The method `start_calculate_key`. -/
def start_calculate_key (s : inc_bi) (u : Nat) : Weight :=
  Weight.min (s.start_distance u) (s.start_distance_lookahead u)

/-- The method `goal_calculate_key`. -/
def goal_calculate_key (s : inc_bi) (u : Nat) : Weight :=
  Weight.min (s.goal_distance u) (s.goal_distance_lookahead u)

/-- The validity test of `update_edge` (the `do ... while (0)` block). -/
def edge_is_valid (s : inc_bi) (e : Arc) : Bool :=
  if s.weight e = Weight.inf then false
  else if s.start_queue.contains e.src then false
  else if s.goal_queue.contains e.tgt then false
  else if s.start_distance e.src = Weight.inf then false
  else if s.goal_distance e.tgt = Weight.inf then false
  else true

/-- The method `update_edge`. -/
def update_edge (s : inc_bi) (e : Arc) : Option inc_bi :=
  let eidx := e.idx
  let elen := s.weight e
  let va := e.src
  let vb := e.tgt
  if !(edge_is_valid s e) then
    if s.conn_queue.contains eidx then
      (s.conn_queue.remove eidx).map fun q => { s with conn_queue := q }
    else some s
  else
    let pathlen := Weight.combine (Weight.combine (s.start_distance va) elen) (s.goal_distance vb)
    let new_key : conn_key := ⟨pathlen, s.start_distance va, s.goal_distance vb⟩
    if s.conn_queue.contains eidx then
      (s.conn_queue.update eidx new_key).map fun q => { s with conn_queue := q }
    else
      (s.conn_queue.insert eidx new_key).map fun q => { s with conn_queue := q }

/-- One pass of the in-edge loop of `start_update_vertex`: `acc` holds the running
`rhs` and the predecessor map. -/
def start_rhs_step (s : inc_bi) (u : Nat) (acc : Weight × (Nat → Nat)) (e : Arc) :
    Weight × (Nat → Nat) :=
  let val := Weight.combine (s.start_distance e.src) (s.weight e)
  if Weight.lt val acc.1 then (val, Function.update acc.2 u e.src) else acc

/-- The in-edge loop of `start_update_vertex`: the final `rhs` and predecessor map. -/
def start_rhs_loop (s : inc_bi) (u : Nat) : Weight × (Nat → Nat) :=
  (in_edges u s.g).foldl (start_rhs_step s u) (Weight.inf, s.start_predecessor)

/-- The first block of `start_update_vertex`: the lookahead of `u` is recomputed from
the in-edges unless `u` is the start vertex. -/
def start_recompute (s : inc_bi) (u : Nat) : inc_bi :=
  if u ≠ s.v_start then
    let r := start_rhs_loop s u
    { s with
      start_predecessor := r.2
      start_distance_lookahead := Function.update s.start_distance_lookahead u r.1 }
  else s

/-- One pass of the out-edge loop of `start_update_vertex` for a newly consistent `u`. -/
def start_open_step (u_dist : Weight) (s : inc_bi) (e : Arc) : Option inc_bi :=
  let v_target := e.tgt
  let goaldist_target := s.goal_distance v_target
  if !(s.goal_queue.contains v_target) && goaldist_target ≠ Weight.inf then
    let new_key : conn_key :=
      ⟨Weight.combine (Weight.combine u_dist (s.weight e)) goaldist_target,
        u_dist, goaldist_target⟩
    (s.conn_queue.insert e.idx new_key).map fun q => { s with conn_queue := q }
  else some s

/-- One pass of the loops that drop the connection edges of a newly inconsistent vertex. -/
def conn_drop_step (s : inc_bi) (e : Arc) : Option inc_bi :=
  if s.conn_queue.contains e.idx then
    (s.conn_queue.remove e.idx).map fun q => { s with conn_queue := q }
  else some s

/-- The method `start_update_vertex`. -/
def start_update_vertex (s : inc_bi) (u : Nat) : Option inc_bi :=
  let u_idx := u
  let s1 := start_recompute s u
  let u_dist := s1.start_distance u
  let is_consistent : Bool := u_dist = s1.start_distance_lookahead u
  if is_consistent then
    if s1.start_queue.contains u_idx then
      (s1.start_queue.remove u_idx).bind fun q =>
        let s2 : inc_bi := { s1 with start_queue := q }
        if u_dist ≠ Weight.inf then
          (out_edges u s2.g).foldlM (start_open_step u_dist) s2
        else some s2
    else some s1
  else
    if s1.start_queue.contains u_idx then
      (s1.start_queue.update u_idx (start_calculate_key s1 u)).map fun q =>
        { s1 with start_queue := q }
    else
      (s1.start_queue.insert u_idx (start_calculate_key s1 u)).bind fun q =>
        let s2 : inc_bi := { s1 with start_queue := q }
        (out_edges u s2.g).foldlM conn_drop_step s2

/-- One pass of the in-edge loop of `goal_update_vertex`. -/
def goal_rhs_step (s : inc_bi) (u : Nat) (acc : Weight × (Nat → Nat)) (e : Arc) :
    Weight × (Nat → Nat) :=
  let val := Weight.combine (s.goal_distance e.src) (s.weight e)
  if Weight.lt val acc.1 then (val, Function.update acc.2 u e.src) else acc

/-- The in-edge loop of `goal_update_vertex`: the final `rhs` and predecessor map. -/
def goal_rhs_loop (s : inc_bi) (u : Nat) : Weight × (Nat → Nat) :=
  (in_edges u s.g).foldl (goal_rhs_step s u) (Weight.inf, s.goal_predecessor)

/-- The first block of `goal_update_vertex`: the lookahead of `u` is recomputed from
the in-edges unless `u` is the goal vertex. -/
def goal_recompute (s : inc_bi) (u : Nat) : inc_bi :=
  if u ≠ s.v_goal then
    let r := goal_rhs_loop s u
    { s with
      goal_predecessor := r.2
      goal_distance_lookahead := Function.update s.goal_distance_lookahead u r.1 }
  else s

/-- One pass of the in-edge loop of `goal_update_vertex` for a newly consistent `u`. -/
def goal_open_step (u_dist : Weight) (s : inc_bi) (e : Arc) : Option inc_bi :=
  let v_source := e.src
  let startdist_source := s.start_distance v_source
  if !(s.start_queue.contains v_source) && startdist_source ≠ Weight.inf then
    let new_key : conn_key :=
      ⟨Weight.combine (Weight.combine startdist_source (s.weight e)) u_dist,
        startdist_source, u_dist⟩
    (s.conn_queue.insert e.idx new_key).map fun q => { s with conn_queue := q }
  else some s

/-- The method `goal_update_vertex`. -/
def goal_update_vertex (s : inc_bi) (u : Nat) : Option inc_bi :=
  let u_idx := u
  let s1 := goal_recompute s u
  let u_dist := s1.goal_distance u
  let is_consistent : Bool := u_dist = s1.goal_distance_lookahead u
  if is_consistent then
    if s1.goal_queue.contains u_idx then
      (s1.goal_queue.remove u_idx).bind fun q =>
        let s2 : inc_bi := { s1 with goal_queue := q }
        if u_dist ≠ Weight.inf then
          (in_edges u s2.g).foldlM (goal_open_step u_dist) s2
        else some s2
    else some s1
  else
    if s1.goal_queue.contains u_idx then
      (s1.goal_queue.update u_idx (goal_calculate_key s1 u)).map fun q =>
        { s1 with goal_queue := q }
    else
      (s1.goal_queue.insert u_idx (goal_calculate_key s1 u)).bind fun q =>
        let s2 : inc_bi := { s1 with goal_queue := q }
        (in_edges u s2.g).foldlM conn_drop_step s2

/-- The value `start_top` read at the head of an iteration of `compute_shortest_path`. -/
def start_top (s : inc_bi) : Option Weight :=
  if s.start_queue.size ≠ 0 then s.start_queue.top_key Weight.lt else some Weight.inf

/-- The value `goal_top` read at the head of an iteration of `compute_shortest_path`. -/
def goal_top (s : inc_bi) : Option Weight :=
  if s.goal_queue.size ≠ 0 then s.goal_queue.top_key Weight.lt else some Weight.inf

/-- The termination test of `compute_shortest_path` (the `do ... while (0)` block):
`some (some i)` when the loop returns `(i, true)`, `some none` when the block is left
by `break`, `none` when a queue is read outside its contract. -/
def termination_test (s : inc_bi) (start_top goal_top : Weight) : Option (Option Nat) :=
  if s.conn_queue.size = 0 then some none
  else
    (s.conn_queue.top_key conn_key.lt).bind fun k =>
      if Weight.gt (Weight.combine k.path_length s.goal_margin)
          (Weight.combine start_top goal_top) then some none
      else if Weight.gt (Weight.combine k.start_dist s.goal_margin) start_top then some none
      else if Weight.gt (Weight.combine k.goal_dist s.goal_margin) goal_top then some none
      else (s.conn_queue.top_idx conn_key.lt).map some

/-- One pass of the out-edge loop that follows the settling of `u` on the start side. -/
def start_lower_step (u_dist : Weight) (s : inc_bi) (e : Arc) : Option inc_bi :=
  let v_target := e.tgt
  (start_update_vertex s v_target).bind fun s1 =>
    let goaldist_target := s1.goal_distance v_target
    if u_dist ≠ Weight.inf && !(s1.goal_queue.contains v_target)
        && goaldist_target ≠ Weight.inf then
      let new_key : conn_key :=
        ⟨Weight.combine (Weight.combine u_dist (s1.weight e)) goaldist_target,
          u_dist, goaldist_target⟩
      (s1.conn_queue.insert e.idx new_key).map fun q => { s1 with conn_queue := q }
    else some s1

/-- The branch of `compute_shortest_path` taken when `start_top < goal_top`. -/
def expand_start (s : inc_bi) : Option inc_bi :=
  (s.start_queue.top_idx Weight.lt).bind fun u =>
  (s.start_queue.remove_min Weight.lt).bind fun q =>
    let s1 : inc_bi := { s with start_queue := q }
    if Weight.gt (s1.start_distance u) (s1.start_distance_lookahead u) then
      let u_dist := s1.start_distance_lookahead u
      let s2 : inc_bi := { s1 with start_distance := Function.update s1.start_distance u u_dist }
      (out_edges u s2.g).foldlM (start_lower_step u_dist) s2
    else
      let s2 : inc_bi :=
        { s1 with start_distance := Function.update s1.start_distance u Weight.inf }
      (start_update_vertex s2 u).bind fun s3 =>
        (out_edges u s3.g).foldlM (fun st e => start_update_vertex st e.tgt) s3

/-- One pass of the in-edge loop that follows the settling of `u` on the goal side. -/
def goal_lower_step (u_dist : Weight) (s : inc_bi) (e : Arc) : Option inc_bi :=
  let v_source := e.src
  (goal_update_vertex s v_source).bind fun s1 =>
    let startdist_source := s1.start_distance v_source
    if u_dist ≠ Weight.inf && !(s1.start_queue.contains v_source)
        && startdist_source ≠ Weight.inf then
      let new_key : conn_key :=
        ⟨Weight.combine (Weight.combine startdist_source (s1.weight e)) u_dist,
          startdist_source, u_dist⟩
      (s1.conn_queue.insert e.idx new_key).map fun q => { s1 with conn_queue := q }
    else some s1

/-- The branch of `compute_shortest_path` taken when `start_top < goal_top` fails. -/
def expand_goal (s : inc_bi) : Option inc_bi :=
  (s.goal_queue.top_idx Weight.lt).bind fun u =>
  (s.goal_queue.remove_min Weight.lt).bind fun q =>
    let s1 : inc_bi := { s with goal_queue := q }
    if Weight.gt (s1.goal_distance u) (s1.goal_distance_lookahead u) then
      let u_dist := s1.goal_distance_lookahead u
      let s2 : inc_bi := { s1 with goal_distance := Function.update s1.goal_distance u u_dist }
      (in_edges u s2.g).foldlM (goal_lower_step u_dist) s2
    else
      let s2 : inc_bi :=
        { s1 with goal_distance := Function.update s1.goal_distance u Weight.inf }
      (goal_update_vertex s2 u).bind fun s3 =>
        (out_edges u s3.g).foldlM (fun st e => goal_update_vertex st e.tgt) s3

/-- The outcome of one iteration of the loop of `compute_shortest_path`. -/
inductive Iter where
  | ret (r : Nat × Bool)
  | next (s : inc_bi)

/-- One iteration of the `for (;;)` loop of `compute_shortest_path`; `none` when a queue
is used outside its contract. -/
def iteration (s : inc_bi) : Option Iter :=
  (start_top s).bind fun st =>
  (goal_top s).bind fun gt =>
    if st = Weight.inf ∧ gt = Weight.inf then some (Iter.ret (0, false))
    else
      (termination_test s st gt).bind fun t =>
        match t with
        | some i => some (Iter.ret (i, true))
        | none =>
          if Weight.lt st gt then (expand_start s).map Iter.next
          else (expand_goal s).map Iter.next

/-- The method `compute_shortest_path`, run for at most `fuel` iterations of its loop.
`done (r, s)` gives the returned pair and the state left behind. -/
def compute_shortest_path : Nat → inc_bi → Run ((Nat × Bool) × inc_bi)
  | 0, _ => Run.out_of_fuel
  | fuel + 1, s =>
    match iteration s with
    | none => Run.fault
    | some (Iter.ret r) => Run.done (r, s)
    | some (Iter.next s1) => compute_shortest_path fuel s1

/-- The states an engine can be in: it is constructed, the caller may change the weight
map between calls, and each public method that returns leads to a further state. -/
inductive Reachable : inc_bi → Prop where
  | construct (g : Graph) (v_start v_goal : Nat) (sp : Nat → Nat) (sd sl : Nat → Weight)
      (gp : Nat → Nat) (gd gl : Nat → Weight) (w : Arc → Weight) (m : Weight)
      (t1 t2 t3 : Nat → Nat) (s : inc_bi)
      (h : inc_bi.construct g v_start v_goal sp sd sl gp gd gl w m t1 t2 t3 = some s) :
      Reachable s
  | set_weight (s : inc_bi) (w : Arc → Weight) (hs : Reachable s) :
      Reachable { s with weight := w }
  | update_edge (s s1 : inc_bi) (e : Arc) (hs : Reachable s)
      (h : inc_bi.update_edge s e = some s1) : Reachable s1
  | start_update_vertex (s s1 : inc_bi) (u : Nat) (hs : Reachable s)
      (h : inc_bi.start_update_vertex s u = some s1) : Reachable s1
  | goal_update_vertex (s s1 : inc_bi) (u : Nat) (hs : Reachable s)
      (h : inc_bi.goal_update_vertex s u = some s1) : Reachable s1
  | compute_shortest_path (s s1 : inc_bi) (fuel : Nat) (r : Nat × Bool) (hs : Reachable s)
      (h : inc_bi.compute_shortest_path fuel s = Run.done (r, s1)) : Reachable s1

end inc_bi

/-! ## The unidirectional engine `lifelong_planning_astar` -/

/-- The width of `unsigned int`. -/
def UINT : Nat := 2 ^ 32

/-- The operator `<` of `std::pair<unsigned int, unsigned int>`. -/
def pair_lt (a b : Nat × Nat) : Bool :=
  decide (a.1 < b.1) || (!(decide (b.1 < a.1)) && decide (a.2 < b.2))

/-- The data members of the class `lifelong_planning_astar`. The value type of the
distance maps and of the weight map is `unsigned int`; `h`, `combine`, `inf` and `zero`
are the arguments of the same names. The visitor does nothing. -/
structure lifelong_planning_astar where
  g : Graph
  v_start : Nat
  v_goal : Nat
  h : Nat → Nat
  predecessor : Nat → Nat
  distance : Nat → Nat
  distance_lookahead : Nat → Nat
  weight : Arc → Nat
  combine : Nat → Nat → Nat
  inf : Nat
  zero : Nat
  queue : HeapIndexed (Nat × Nat)

namespace lifelong_planning_astar

/-- The body of the vertex loop of the constructor. -/
def construct_vertex (s : lifelong_planning_astar) (v : Nat) : lifelong_planning_astar :=
  { s with
    distance_lookahead := Function.update s.distance_lookahead v s.inf
    distance := Function.update s.distance v s.inf }

/-- The constructor `lifelong_planning_astar::lifelong_planning_astar`. -/
def construct (g : Graph) (v_start v_goal : Nat) (h : Nat → Nat)
    (predecessor : Nat → Nat) (distance distance_lookahead : Nat → Nat)
    (weight : Arc → Nat) (combine : Nat → Nat → Nat) (inf zero : Nat)
    (tie : Nat → Nat) : Option lifelong_planning_astar :=
  let s0 : lifelong_planning_astar :=
    { g := g, v_start := v_start, v_goal := v_goal, h := h,
      predecessor := predecessor, distance := distance,
      distance_lookahead := distance_lookahead,
      weight := weight, combine := combine, inf := inf, zero := zero,
      queue := HeapIndexed.empty tie }
  let s1 := (vertices g).foldl construct_vertex s0
  let s2 : lifelong_planning_astar :=
    { s1 with
      predecessor := Function.update s1.predecessor v_start v_start
      distance_lookahead := Function.update s1.distance_lookahead v_start zero }
  (s2.queue.insert v_start (h v_start % UINT, 0)).map fun q => { s2 with queue := q }

/-- The method `calculate_key`. -/
def calculate_key (s : lifelong_planning_astar) (u : Nat) : Nat × Nat :=
  let minval := Nat.min (s.distance u) (s.distance_lookahead u) % UINT
  ((minval + s.h u) % UINT, minval)

/-- One pass of the in-edge loop of `update_vertex`. -/
def rhs_step (s : lifelong_planning_astar) (u : Nat) (acc : Nat × (Nat → Nat)) (e : Arc) :
    Nat × (Nat → Nat) :=
  let val := s.combine (s.distance e.src) (s.weight e) % UINT
  if val < acc.1 then (val, Function.update acc.2 u e.src) else acc

/-- The method `update_vertex`. -/
def update_vertex (s : lifelong_planning_astar) (u : Nat) : Option lifelong_planning_astar :=
  let u_idx := u
  let s1 : lifelong_planning_astar :=
    if u ≠ s.v_start then
      let r := (in_edges u s.g).foldl (rhs_step s u) (s.inf % UINT, s.predecessor)
      { s with
        predecessor := r.2
        distance_lookahead := Function.update s.distance_lookahead u r.1 }
    else s
  (if s1.queue.contains u_idx then s1.queue.remove u_idx else some s1.queue).bind fun q1 =>
  (if s1.distance u ≠ s1.distance_lookahead u then q1.insert u_idx (calculate_key s1 u)
   else some q1).map fun q2 =>
    { s1 with queue := q2 }

/-- The loop body of `compute_shortest_path`. -/
def expand (s : lifelong_planning_astar) : Option lifelong_planning_astar :=
  (s.queue.top_idx pair_lt).bind fun u =>
  (s.queue.remove_min pair_lt).bind fun q =>
    let s1 : lifelong_planning_astar := { s with queue := q }
    if s1.distance u > s1.distance_lookahead u then
      let s2 : lifelong_planning_astar :=
        { s1 with distance := Function.update s1.distance u (s1.distance_lookahead u) }
      (out_edges u s2.g).foldlM (fun st e => update_vertex st e.tgt) s2
    else
      let s2 : lifelong_planning_astar :=
        { s1 with distance := Function.update s1.distance u s1.inf }
      (update_vertex s2 u).bind fun s3 =>
        (out_edges u s3.g).foldlM (fun st e => update_vertex st e.tgt) s3

/-- The method `compute_shortest_path`, run for at most `fuel` evaluations of the loop
condition. -/
def compute_shortest_path : Nat → lifelong_planning_astar → Run lifelong_planning_astar
  | 0, _ => Run.out_of_fuel
  | fuel + 1, s =>
    match s.queue.top_key pair_lt with
    | none => Run.fault
    | some k =>
      if pair_lt k (calculate_key s s.v_goal)
          || decide (s.distance_lookahead s.v_goal ≠ s.distance s.v_goal) then
        match expand s with
        | none => Run.fault
        | some s1 => compute_shortest_path fuel s1
      else Run.done s

/-- The states the engine can be in: it is constructed, the caller may change the weight
map between calls, and each public method that returns leads to a further state. -/
inductive Reachable : lifelong_planning_astar → Prop where
  | construct (g : Graph) (v_start v_goal : Nat) (h : Nat → Nat) (p : Nat → Nat)
      (d l : Nat → Nat) (w : Arc → Nat) (c : Nat → Nat → Nat) (inf zero : Nat)
      (t : Nat → Nat) (s : lifelong_planning_astar)
      (hc : lifelong_planning_astar.construct g v_start v_goal h p d l w c inf zero t = some s) :
      Reachable s
  | set_weight (s : lifelong_planning_astar) (w : Arc → Nat) (hs : Reachable s) :
      Reachable { s with weight := w }
  | update_vertex (s s1 : lifelong_planning_astar) (u : Nat) (hs : Reachable s)
      (hu : lifelong_planning_astar.update_vertex s u = some s1) : Reachable s1
  | compute_shortest_path (s s1 : lifelong_planning_astar) (fuel : Nat) (hs : Reachable s)
      (hc : lifelong_planning_astar.compute_shortest_path fuel s = Run.done s1) : Reachable s1

end lifelong_planning_astar

end pr_bgl

namespace ompl_lemur

/-! ## The roadmap generator `RoadmapRGGDensConst` -/

/-- The width of `std::size_t`. -/
def SIZE : Nat := 2 ^ 64

/-- The part of a `RoadmapRGGDensConst` that `generate()` reads and writes: the parameter
`_num_per_batch`, the counter `num_batches_generated` of the base class, and the graph
with its vertex maps. Vertices are numbered in the order of `add_vertex`; `edges` lists
the pairs handed to `add_edge`, in order, each with the batch put into `edge_batch_map`.
The sampled states and the distances put into `distance_map` are left out. -/
structure RoadmapRGGDensConst where
  num_per_batch : Nat
  num_batches_generated : Nat
  num_vertices : Nat
  edges : List (Nat × Nat × Nat)
  vertex_batch_map : Nat → Nat
  is_shadow_map : Nat → Bool

namespace RoadmapRGGDensConst

/-- One pass of the loop over `vs_near` in `generate()`: the new vertex itself is skipped,
any other entry gets an edge from `v_new`. -/
def generate_edge (v_new : Nat) (s : RoadmapRGGDensConst) (v_near : Nat) :
    RoadmapRGGDensConst :=
  if v_near = v_new then s
  else { s with edges := s.edges ++ [(v_new, v_near, s.num_batches_generated)] }

/-- One pass of the loop over `v_index` in `generate()`: a vertex is added and its maps
are set, then `nearestR` is asked for its neighbours and the edges are added. What
`nearestR` returns for the new vertex is given by the function `nearestR`. -/
def generate_vertex (nearestR : Nat → List Nat) (s : RoadmapRGGDensConst) (_v_index : Nat) :
    RoadmapRGGDensConst :=
  let v_new := s.num_vertices
  let s1 : RoadmapRGGDensConst :=
    { s with
      num_vertices := s.num_vertices + 1
      vertex_batch_map := Function.update s.vertex_batch_map v_new s.num_batches_generated
      is_shadow_map := Function.update s.is_shadow_map v_new false }
  (nearestR v_new).foldl (generate_edge v_new) s1

/-- The method `generate()`. The bound `n` and the counter are `std::size_t` values. -/
def generate (nearestR : Nat → List Nat) (s : RoadmapRGGDensConst) : RoadmapRGGDensConst :=
  let n := ((s.num_batches_generated + 1) % SIZE * s.num_per_batch) % SIZE
  let s1 := (List.range' s.num_vertices (n - s.num_vertices)).foldl
    (generate_vertex nearestR) s
  { s1 with num_batches_generated := (s1.num_batches_generated + 1) % SIZE }

end RoadmapRGGDensConst

/-! ## The parameters of `RoadmapRGGDensConst` -/

/-- The values of the type `double` as far as the operator `==` tells them apart: a NaN,
a zero of either sign, or another value, finite or infinite, given by a code. -/
inductive Double where
  | nan
  | zero (negative : Bool)
  | other (code : Int)
  deriving DecidableEq, Repr

/-- The operator `==` of `double`: a NaN is equal to nothing, not even to itself, and the
two zeros are equal. -/
def Double.eq : Double → Double → Bool
  | Double.zero _, Double.zero _ => true
  | Double.other a, Double.other b => decide (a = b)
  | _, _ => false

namespace RoadmapRGGDensConst

/-- The parameter members `_num_per_batch`, `_radius`, `_seed` and `_seed_set` of a
`RoadmapRGGDensConst` and the flag `initialized` of its base class `Roadmap`: what the
setters, the getters and `initialize()` read and write. -/
structure Params where
  num_per_batch : Nat
  radius : Double
  seed : Nat
  seed_set : Bool
  initialized : Bool
  deriving DecidableEq, Repr

/-- The outcome of a call of a method that may throw: the state the object is left in,
and the message of the `std::runtime_error` when one is thrown. -/
structure Outcome where
  state : Params
  thrown : Option String
  deriving DecidableEq, Repr

/-- The members as the constructors of `Roadmap` and `RoadmapRGGDensConst` leave them,
when the constructor does not throw. -/
def construct : Params :=
  { num_per_batch := 0, radius := Double.zero false, seed := 0, seed_set := false,
    initialized := false }

/-- The method `setNumPerBatch`. -/
def setNumPerBatch (s : Params) (num_per_batch : Nat) : Outcome :=
  if num_per_batch = s.num_per_batch then ⟨s, none⟩
  else if s.initialized then ⟨s, some "cannot set num_per_batch, already initialized!"⟩
  else ⟨{ s with num_per_batch := num_per_batch }, none⟩

/-- The method `getNumPerBatch`. -/
def getNumPerBatch (s : Params) : Nat := s.num_per_batch

/-- The method `setRadius`. -/
def setRadius (s : Params) (radius : Double) : Outcome :=
  if Double.eq radius s.radius then ⟨s, none⟩
  else if s.initialized then ⟨s, some "cannot set radius, already initialized!"⟩
  else ⟨{ s with radius := radius }, none⟩

/-- The method `getRadius`. -/
def getRadius (s : Params) : Double := s.radius

/-- The method `setSeed`. -/
def setSeed (s : Params) (seed : Nat) : Outcome :=
  if s.seed_set && decide (seed = s.seed) then ⟨s, none⟩
  else if s.initialized then ⟨s, some "cannot set seed, already initialized!"⟩
  else ⟨{ s with seed := seed, seed_set := true }, none⟩

/-- The method `getSeed`. -/
def getSeed (s : Params) : Nat := s.seed

/-- The method `initialize()`: the list `missings` is filled by `push_back`, the message
is built by `str += " " + missings[ui]`. The seeding of the sampler is left out. -/
def initialize_roadmap (s : Params) : Outcome :=
  let missings : List String := []
  let missings := if s.num_per_batch = 0 then missings ++ ["num_per_batch"] else missings
  let missings :=
    if Double.eq s.radius (Double.zero false) then missings ++ ["radius"] else missings
  let missings := if !s.seed_set then missings ++ ["seed"] else missings
  if missings.length ≠ 0 then
    ⟨s, some (missings.foldl (fun str m => str ++ (" " ++ m))
      "Cannot initialize, parameters not set:")⟩
  else ⟨{ s with initialized := true }, none⟩

/-- A call of a method on the object: one of the three setters, `initialize()`, or another
method (a getter, `root_radius`, `generate`, `serialize`, `deserialize`), none of which
writes the parameter members or `initialized`. -/
inductive Call where
  | setNumPerBatch (num_per_batch : Nat)
  | setRadius (radius : Double)
  | setSeed (seed : Nat)
  | initialize_roadmap
  | other
  deriving DecidableEq, Repr

/-- The outcome of a call on the parameter members. -/
def step (s : Params) : Call → Outcome
  | Call.setNumPerBatch v => setNumPerBatch s v
  | Call.setRadius v => setRadius s v
  | Call.setSeed v => setSeed s v
  | Call.initialize_roadmap => initialize_roadmap s
  | Call.other => ⟨s, none⟩

/-- The parameter members after the constructor and the calls `cs` in order; a call that
throws leaves the object as it is at the throw. -/
def after (cs : List Call) : Params := cs.foldl (fun s c => (step s c).state) construct

end RoadmapRGGDensConst

end ompl_lemur

namespace pr_bgl

/-! ## Auxiliary predicates -/

namespace inc_bi

/-- Two states that differ at most in the connection queue. -/
def ConnOnly (s s1 : inc_bi) : Prop := ∃ q, s1 = { s with conn_queue := q }

/-- The open-queue invariant of the start frontier at the vertex `v`. -/
def StartInv (s : inc_bi) (v : Nat) : Prop :=
  s.start_queue.contains v = true ↔ s.start_distance v ≠ s.start_distance_lookahead v

/-- The open-queue invariant of the goal frontier at the vertex `v`. -/
def GoalInv (s : inc_bi) (v : Nat) : Prop :=
  s.goal_queue.contains v = true ↔ s.goal_distance v ≠ s.goal_distance_lookahead v

/-- The part of the state that the methods of the start frontier leave alone, and the
open-queue invariant they keep. -/
structure StartFrame (s s1 : inc_bi) : Prop where
  g : s1.g = s.g
  v_start : s1.v_start = s.v_start
  v_goal : s1.v_goal = s.v_goal
  weight : s1.weight = s.weight
  goal_margin : s1.goal_margin = s.goal_margin
  goal_predecessor : s1.goal_predecessor = s.goal_predecessor
  goal_distance : s1.goal_distance = s.goal_distance
  goal_distance_lookahead : s1.goal_distance_lookahead = s.goal_distance_lookahead
  goal_queue : s1.goal_queue = s.goal_queue
  lookahead_start : s1.start_distance_lookahead s.v_start = s.start_distance_lookahead s.v_start
  inv : ∀ v, StartInv s v → StartInv s1 v

/-- The part of the state that the methods of the goal frontier leave alone, and the
open-queue invariant they keep. -/
structure GoalFrame (s s1 : inc_bi) : Prop where
  g : s1.g = s.g
  v_start : s1.v_start = s.v_start
  v_goal : s1.v_goal = s.v_goal
  weight : s1.weight = s.weight
  goal_margin : s1.goal_margin = s.goal_margin
  start_predecessor : s1.start_predecessor = s.start_predecessor
  start_distance : s1.start_distance = s.start_distance
  start_distance_lookahead : s1.start_distance_lookahead = s.start_distance_lookahead
  start_queue : s1.start_queue = s.start_queue
  lookahead_goal : s1.goal_distance_lookahead s.v_goal = s.goal_distance_lookahead s.v_goal
  inv : ∀ v, GoalInv s v → GoalInv s1 v

end inc_bi

/-- The condition under which an iteration of `compute_shortest_path` reports the arc
index `i` as found: the connection queue is non-empty, `i` is the index of its top entry
`k`, whose key no present key is below, the two top keys `st` and `gt` (`inf` for an empty
queue) are not both `inf`, and the three comparisons with the margin hold. -/
def inc_bi.found_condition (s : inc_bi) (i : Nat) : Prop :=
  s.conn_queue.size ≠ 0 ∧
  ∃ k st gt, HeapIndexed.top conn_key.lt s.conn_queue = some (i, k) ∧
    (∀ e ∈ s.conn_queue.entries, conn_key.lt e.2 k = false) ∧
    inc_bi.start_top s = some st ∧ inc_bi.goal_top s = some gt ∧
    ¬ (st = Weight.inf ∧ gt = Weight.inf) ∧
    Weight.le (Weight.combine k.path_length s.goal_margin) (Weight.combine st gt) = true ∧
    Weight.le (Weight.combine k.start_dist s.goal_margin) st = true ∧
    Weight.le (Weight.combine k.goal_dist s.goal_margin) gt = true

/-! ## Walks, distances and the reference computation -/

/-- A well-formed graph: every arc joins two vertices of the graph and `edge_index_map`
gives different arcs different indices. -/
def Graph.WellFormed (g : Graph) : Prop :=
  (∀ e ∈ g.arcs, e.src < g.nv ∧ e.tgt < g.nv) ∧ (g.arcs.map Arc.idx).Nodup

instance (g : Graph) : Decidable g.WellFormed := by
  unfold Graph.WellFormed
  infer_instance

/-- The arcs come in mirrored pairs with equal weights: every arc `a -> b` has an arc
`b -> a` of the same weight. -/
def Mirrored (g : Graph) (w : Arc → Weight) : Prop :=
  ∀ e ∈ g.arcs, ∃ e1 ∈ g.arcs, e1.src = e.tgt ∧ e1.tgt = e.src ∧ w e1 = w e

instance (g : Graph) (w : Arc → Weight) : Decidable (Mirrored g w) := by
  unfold Mirrored
  infer_instance

/-- The list `p` of arcs is a walk of the graph from `a` to `b`. -/
def IsWalk (g : Graph) : Nat → Nat → List Arc → Prop
  | a, b, [] => a = b
  | a, b, e :: p => e ∈ g.arcs ∧ e.src = a ∧ IsWalk g e.tgt b p

/-- The weights of the arcs of a walk combined. -/
def walk_len (w : Arc → Weight) : List Arc → Weight
  | [] => Weight.zero
  | e :: p => Weight.combine (w e) (walk_len w p)

/-- The weight `d` is the shortest distance from `a` to `b`: it is `inf` or the length
of a walk from `a` to `b`, and no walk from `a` to `b` is shorter. -/
def IsDist (g : Graph) (w : Arc → Weight) (a b : Nat) (d : Weight) : Prop :=
  (d = Weight.inf ∨ ∃ p, IsWalk g a b p ∧ walk_len w p = d) ∧
    ∀ p, IsWalk g a b p → Weight.le d (walk_len w p) = true

/-- The state of the reference computation: the tentative distances and the vertices
that are done. -/
structure dijkstra_state where
  dist : Nat → Weight
  done : List Nat

/-- One step of the search for the next vertex: `best` is kept unless `v` is not done
and has a smaller tentative distance. -/
def dijkstra_pick_step (s : dijkstra_state) (best : Option Nat) (v : Nat) : Option Nat :=
  if v ∈ s.done then best
  else
    match best with
    | none => some v
    | some b => if Weight.lt (s.dist v) (s.dist b) then some v else some b

/-- The vertex that is not done and has the smallest tentative distance, if any. -/
def dijkstra_pick (g : Graph) (s : dijkstra_state) : Option Nat :=
  (vertices g).foldl (dijkstra_pick_step s) none

/-- The relaxation of the arc `e` that leaves the vertex `u`. -/
def dijkstra_relax (w : Arc → Weight) (u : Nat) (d : Nat → Weight) (e : Arc) :
    Nat → Weight :=
  if Weight.lt (Weight.combine (d u) (w e)) (d e.tgt) then
    Function.update d e.tgt (Weight.combine (d u) (w e))
  else d

/-- At most `n` rounds of the reference computation: the closest vertex that is not done
is marked done and the arcs that leave it are relaxed. -/
def dijkstra_loop (g : Graph) (w : Arc → Weight) : Nat → dijkstra_state → dijkstra_state
  | 0, s => s
  | n + 1, s =>
    match dijkstra_pick g s with
    | none => s
    | some u =>
      dijkstra_loop g w n ⟨(out_edges u g).foldl (dijkstra_relax w u) s.dist, u :: s.done⟩

/-- The reference from-scratch Dijkstra: the distance from `start` to `goal` computed on
the whole graph. -/
def dijkstra (g : Graph) (w : Arc → Weight) (start goal : Nat) : Weight :=
  (dijkstra_loop g w g.nv ⟨Function.update (fun _ => Weight.inf) start Weight.zero, []⟩).dist
    goal

/-- The state of one frontier during a search on a static graph, started from scratch at
`src`: `dist` and `rhs` are the distance and lookahead maps, `q` the open queue. A
vertex with a distance other than `inf` is settled at its shortest distance; the lookahead
of a vertex is the least `combine(dist(x), weight(x, v))` over its in-arcs, up to the
arcs `pend` whose target still awaits its update; the queue holds the inconsistent
vertices under their lookahead, none of them settled. -/
structure SideInv (g : Graph) (w : Arc → Weight) (src : Nat) (dist rhs : Nat → Weight)
    (q : HeapIndexed Weight) (pend : Arc → Prop) : Prop where
  settled : ∀ v, v < g.nv → dist v ≠ Weight.inf → IsDist g w src v (dist v)
  rhs_src : rhs src = Weight.zero
  rhs_le : ∀ e ∈ g.arcs, e.tgt ≠ src → ¬ pend e →
    Weight.le (rhs e.tgt) (Weight.combine (dist e.src) (w e)) = true
  rhs_attained : ∀ v, v < g.nv → v ≠ src →
    rhs v = Weight.inf ∨ ∃ e ∈ g.arcs, e.tgt = v ∧ rhs v = Weight.combine (dist e.src) (w e)
  queue_iff : ∀ v, v < g.nv → (q.contains v = true ↔ dist v ≠ rhs v)
  queue_key : ∀ v k, (v, k) ∈ q.entries → v < g.nv ∧ k = rhs v ∧ dist v = Weight.inf
  first : dist src = Weight.inf → ∀ v, v < g.nv → dist v = Weight.inf

/-- The state of the engine during a search from scratch on the static graph `g` with
the weights `w`, from `vs` to `vg`: both frontiers are in order,
every entry of the connection queue is the arc of its index, joins a vertex settled from
the start to a vertex settled from the goal and carries the key computed from the maps,
and every such arc is in the connection queue, up to the arcs `pendC` that still await
their insertion. -/
structure inc_bi.FreshInv (g : Graph) (w : Arc → Weight) (vs vg : Nat) (s : inc_bi)
    (pendS pendG pendC : Arc → Prop) : Prop where
  g_eq : s.g = g
  weight_eq : s.weight = w
  v_start_eq : s.v_start = vs
  v_goal_eq : s.v_goal = vg
  start : SideInv g w vs s.start_distance s.start_distance_lookahead s.start_queue pendS
  goal : SideInv g w vg s.goal_distance s.goal_distance_lookahead s.goal_queue pendG
  conn_nodup : (s.conn_queue.entries.map Prod.fst).Nodup
  conn_sound : ∀ i k, (i, k) ∈ s.conn_queue.entries → ∃ e ∈ g.arcs, e.idx = i ∧
    s.start_distance e.src ≠ Weight.inf ∧ s.goal_distance e.tgt ≠ Weight.inf ∧
    k = ⟨Weight.combine (Weight.combine (s.start_distance e.src) (w e))
          (s.goal_distance e.tgt), s.start_distance e.src, s.goal_distance e.tgt⟩
  conn_complete : ∀ e ∈ g.arcs, s.start_distance e.src ≠ Weight.inf →
    s.goal_distance e.tgt ≠ Weight.inf → ¬ pendC e → s.conn_queue.contains e.idx = true

/-- The state of the reference computation is in order: the start is at distance zero,
every tentative distance is `inf` or the length of a walk from the start, every arc that
leaves a done vertex is relaxed, the done vertices are no farther than the others, and
the done vertices are distinct vertices of the graph. -/
structure DijkstraInv (g : Graph) (w : Arc → Weight) (start : Nat) (s : dijkstra_state) :
    Prop where
  dist_start : s.dist start = Weight.zero
  attained : ∀ v, s.dist v = Weight.inf ∨ ∃ p, IsWalk g start v p ∧ walk_len w p = s.dist v
  relaxed : ∀ e ∈ g.arcs, e.src ∈ s.done →
    Weight.le (s.dist e.tgt) (Weight.combine (s.dist e.src) (w e)) = true
  closer : ∀ u ∈ s.done, ∀ v, v < g.nv → v ∉ s.done →
    Weight.le (s.dist u) (s.dist v) = true
  done_lt : ∀ u ∈ s.done, u < g.nv
  done_nodup : s.done.Nodup

/-! ## The lookahead of `update_vertex`, as the spec words it -/

namespace lifelong_planning_astar

/-- The value `val` that the loop of `update_vertex` computes for the in-arc `e`: the
result of `combine(distance(source), weight)`, held in an `unsigned int`. -/
def candidate (s : lifelong_planning_astar) (e : Arc) : Nat :=
  s.combine (s.distance e.src) (s.weight e) % UINT

/-- The lookahead of `u` in the words of the spec: the minimum over the in-arcs of `u` of
their values, and `inf` when there is no in-arc or no value below `inf`. -/
def min_candidate (s : lifelong_planning_astar) (u : Nat) : Nat :=
  ((in_edges u s.g).map (candidate s)).foldl Nat.min (s.inf % UINT)

/-- The first in-arc of `u`, in iteration order, whose value is `m`. -/
def first_attaining (s : lifelong_planning_astar) (u m : Nat) : Option Arc :=
  (in_edges u s.g).find? (fun e => candidate s e = m)

/-- The queue step of `update_vertex` in the words of the spec: a consistent vertex is
removed if present, an inconsistent one is inserted or updated with the fresh key. -/
def queue_step_spec (q : HeapIndexed (Nat × Nat)) (u : Nat) (consistent : Bool)
    (key : Nat × Nat) : Option (HeapIndexed (Nat × Nat)) :=
  if consistent then
    if q.contains u then q.remove u else some q
  else
    if q.contains u then q.update u key else q.insert u key

end lifelong_planning_astar

/-- The number of vertices of the graph whose start distance is `inf`, plus the number of
those whose goal distance is `inf`: the vertices that an engine started from scratch has
still to settle. -/
def inc_bi.unsettled (s : inc_bi) : Nat :=
  ((vertices s.g).filter (fun v => decide (s.start_distance v = Weight.inf))).length +
    ((vertices s.g).filter (fun v => decide (s.goal_distance v = Weight.inf))).length

/-- The states that an engine reaches on the graph `g` with the weight map `w`, from `vs`
to `vg`, when the weights stay as they were at construction: the engine is constructed,
and each call of `update_edge` on an arc of the graph, of `start_update_vertex` or
`goal_update_vertex` on a vertex of the graph, or of `compute_shortest_path`, that
returns, leads to a further state. -/
inductive inc_bi.ReachableStatic (g : Graph) (w : Arc → Weight) (vs vg : Nat) :
    inc_bi → Prop where
  | construct (sp : Nat → Nat) (sd sl : Nat → Weight) (gp : Nat → Nat) (gd gl : Nat → Weight)
      (m : Weight) (t1 t2 t3 : Nat → Nat) (s : inc_bi)
      (h : inc_bi.construct g vs vg sp sd sl gp gd gl w m t1 t2 t3 = some s) :
      ReachableStatic g w vs vg s
  | update_edge (s s1 : inc_bi) (e : Arc) (he : e ∈ g.arcs)
      (hs : ReachableStatic g w vs vg s) (h : inc_bi.update_edge s e = some s1) :
      ReachableStatic g w vs vg s1
  | start_update_vertex (s s1 : inc_bi) (u : Nat) (hu : u < g.nv)
      (hs : ReachableStatic g w vs vg s) (h : inc_bi.start_update_vertex s u = some s1) :
      ReachableStatic g w vs vg s1
  | goal_update_vertex (s s1 : inc_bi) (u : Nat) (hu : u < g.nv)
      (hs : ReachableStatic g w vs vg s) (h : inc_bi.goal_update_vertex s u = some s1) :
      ReachableStatic g w vs vg s1
  | compute_shortest_path (s s1 : inc_bi) (fuel : Nat) (r : Nat × Bool)
      (hs : ReachableStatic g w vs vg s)
      (h : inc_bi.compute_shortest_path fuel s = Run.done (r, s1)) :
      ReachableStatic g w vs vg s1

/-- The predecessor of a vertex of the graph, other than the start, whose start lookahead
is not `inf` is the source of an in-arc that attains the lookahead. -/
def inc_bi.StartPred (s : inc_bi) : Prop :=
  ∀ v, v < s.g.nv → v ≠ s.v_start → s.start_distance_lookahead v ≠ Weight.inf →
    ∃ e ∈ s.g.arcs, e.tgt = v ∧ e.src = s.start_predecessor v ∧
      s.start_distance_lookahead v = Weight.combine (s.start_distance e.src) (s.weight e)

/-- The predecessor of a vertex of the graph, other than the goal, whose goal lookahead is
not `inf` is the source of an in-arc that attains the lookahead. -/
def inc_bi.GoalPred (s : inc_bi) : Prop :=
  ∀ v, v < s.g.nv → v ≠ s.v_goal → s.goal_distance_lookahead v ≠ Weight.inf →
    ∃ e ∈ s.g.arcs, e.tgt = v ∧ e.src = s.goal_predecessor v ∧
      s.goal_distance_lookahead v = Weight.combine (s.goal_distance e.src) (s.weight e)

/-- The queue `h` read with the tie-breaking oracle `t` in place of its own. -/
def HeapIndexed.retie {K : Type} (h : HeapIndexed K) (t : Nat → Nat) : HeapIndexed K :=
  ⟨h.entries, h.clock, t⟩

/-- The tie that `h` leaves open at its next reading of the top: when more than one
entry is minimal, the clock, the number of minimal entries and the position that the
oracle of `h` chooses among them. -/
def HeapIndexed.tie_point {K : Type} (lt : K → K → Bool) (h : HeapIndexed K) :
    List (Nat × Nat × Nat) :=
  if 1 < (HeapIndexed.minimal lt h).length then
    [(h.clock, (HeapIndexed.minimal lt h).length,
      h.tie h.clock % (HeapIndexed.minimal lt h).length)]
  else []

/-- The oracle `t` chooses the top of `h` as the oracle of `h` does. -/
def HeapIndexed.Agrees {K : Type} (lt : K → K → Bool) (h : HeapIndexed K) (t : Nat → Nat) :
    Prop :=
  ∀ p ∈ HeapIndexed.tie_point lt h, t p.1 % p.2.1 = p.2.2

/-- The state `s` with the tie-breaking oracles `t1`, `t2`, `t3` in its three queues. -/
def inc_bi.retie (s : inc_bi) (t1 t2 t3 : Nat → Nat) : inc_bi :=
  { s with
    start_queue := s.start_queue.retie t1
    goal_queue := s.goal_queue.retie t2
    conn_queue := s.conn_queue.retie t3 }

/-- The outcome of an iteration with other tie-breaking oracles in the state it leaves. -/
def inc_bi.Iter.retie (t1 t2 t3 : Nat → Nat) : inc_bi.Iter → inc_bi.Iter
  | inc_bi.Iter.ret r => inc_bi.Iter.ret r
  | inc_bi.Iter.next s => inc_bi.Iter.next (s.retie t1 t2 t3)

/-- The ties met by a run of `compute_shortest_path` of at most `fuel` iterations: at the
head of each iteration the ties left open by the start queue (numbered 0), the goal queue
(numbered 1) and the connection queue (numbered 2). -/
def inc_bi.tie_points : Nat → inc_bi → List (Nat × Nat × Nat × Nat)
  | 0, _ => []
  | fuel + 1, s =>
    (HeapIndexed.tie_point Weight.lt s.start_queue).map (fun p => (0, p)) ++
    ((HeapIndexed.tie_point Weight.lt s.goal_queue).map (fun p => (1, p)) ++
    ((HeapIndexed.tie_point conn_key.lt s.conn_queue).map (fun p => (2, p)) ++
    match inc_bi.iteration s with
    | some (inc_bi.Iter.next s1) => inc_bi.tie_points fuel s1
    | _ => []))

/-- The oracles `t1`, `t2`, `t3` of the three queues make the choices listed in `l`. -/
def ties_agree (t1 t2 t3 : Nat → Nat) (l : List (Nat × Nat × Nat × Nat)) : Prop :=
  ∀ p ∈ l, (if p.1 = 0 then t1 else if p.1 = 1 then t2 else t3) p.2.1 % p.2.2.1 = p.2.2.2

/-- The state `s` with the margin `m` in place of its own. -/
def inc_bi.remargin (s : inc_bi) (m : Weight) : inc_bi := { s with goal_margin := m }

/-- The outcome of an iteration with another margin in the state it leaves. -/
def inc_bi.Iter.remargin (m : Weight) : inc_bi.Iter → inc_bi.Iter
  | inc_bi.Iter.ret r => inc_bi.Iter.ret r
  | inc_bi.Iter.next s => inc_bi.Iter.next (s.remargin m)

/-- The arcs of `g` carry pairwise distinct edge indices. -/
def Graph.DistinctIdx (g : Graph) : Prop := (g.arcs.map Arc.idx).Nodup

instance (g : Graph) : Decidable g.DistinctIdx := by
  unfold Graph.DistinctIdx
  infer_instance

/-- No arc of `g` joins a vertex to itself. -/
def Graph.NoSelfLoop (g : Graph) : Prop := ∀ e ∈ g.arcs, e.src ≠ e.tgt

instance (g : Graph) : Decidable g.NoSelfLoop := by
  unfold Graph.NoSelfLoop
  infer_instance

/-- The arc `e` joins a vertex settled from the start to a vertex settled from the goal:
its source is not in the start queue and has a start distance other than `inf`, its
target is not in the goal queue and has a goal distance other than `inf`. -/
structure inc_bi.ConnOk (s : inc_bi) (e : Arc) : Prop where
  start_absent : s.start_queue.contains e.src = false
  start_finite : s.start_distance e.src ≠ Weight.inf
  goal_absent : s.goal_queue.contains e.tgt = false
  goal_finite : s.goal_distance e.tgt ≠ Weight.inf

/-- The engine works on the graph `g`, and every entry of its connection queue is the
index of an arc of `g` that joins the two settled regions. -/
def inc_bi.ConnInv (g : Graph) (s : inc_bi) : Prop :=
  s.g = g ∧ ∀ x ∈ s.conn_queue.entries, ∃ e ∈ g.arcs, e.idx = x.1 ∧ s.ConnOk e

/-- The states an engine on the graph `g` can be in: it is constructed on `g`, the caller
may change the weight map between calls, and each public method that returns leads to a
further state; `update_edge` is called on arcs of `g`. -/
inductive inc_bi.ReachableOn (g : Graph) : inc_bi → Prop where
  | construct (v_start v_goal : Nat) (sp : Nat → Nat) (sd sl : Nat → Weight)
      (gp : Nat → Nat) (gd gl : Nat → Weight) (w : Arc → Weight) (m : Weight)
      (t1 t2 t3 : Nat → Nat) (s : inc_bi)
      (h : inc_bi.construct g v_start v_goal sp sd sl gp gd gl w m t1 t2 t3 = some s) :
      ReachableOn g s
  | set_weight (s : inc_bi) (w : Arc → Weight) (hs : ReachableOn g s) :
      ReachableOn g { s with weight := w }
  | update_edge (s s1 : inc_bi) (e : Arc) (he : e ∈ g.arcs) (hs : ReachableOn g s)
      (h : inc_bi.update_edge s e = some s1) : ReachableOn g s1
  | start_update_vertex (s s1 : inc_bi) (u : Nat) (hs : ReachableOn g s)
      (h : inc_bi.start_update_vertex s u = some s1) : ReachableOn g s1
  | goal_update_vertex (s s1 : inc_bi) (u : Nat) (hs : ReachableOn g s)
      (h : inc_bi.goal_update_vertex s u = some s1) : ReachableOn g s1
  | compute_shortest_path (s s1 : inc_bi) (fuel : Nat) (r : Nat × Bool)
      (hs : ReachableOn g s)
      (h : inc_bi.compute_shortest_path fuel s = Run.done (r, s1)) : ReachableOn g s1

/-- Every entry of the start queue carries the current key of its vertex, the smaller of
the start distance and the start lookahead, and that key is not `inf`. -/
def inc_bi.StartKeys (s : inc_bi) : Prop :=
  ∀ x ∈ s.start_queue.entries, x.2 = s.start_calculate_key x.1 ∧ x.2 ≠ Weight.inf

/-- Every entry of the goal queue carries the current key of its vertex, the smaller of
the goal distance and the goal lookahead, and that key is not `inf`. -/
def inc_bi.GoalKeys (s : inc_bi) : Prop :=
  ∀ x ∈ s.goal_queue.entries, x.2 = s.goal_calculate_key x.1 ∧ x.2 ≠ Weight.inf

/-- The key that `update_edge` and the expansion loops compute for the arc `e` from the
current maps: the path length `combine(combine(start_distance(a), weight(e)),
goal_distance(b))`, the start distance of the source `a` and the goal distance of the
target `b`. -/
def inc_bi.conn_key_of (s : inc_bi) (e : Arc) : conn_key :=
  ⟨Weight.combine (Weight.combine (s.start_distance e.src) (s.weight e))
      (s.goal_distance e.tgt),
    s.start_distance e.src, s.goal_distance e.tgt⟩

/-- Every entry of the connection queue is the index of an arc of `g` and carries the key
of that arc computed from the current maps. -/
def inc_bi.ConnKeys (g : Graph) (s : inc_bi) : Prop :=
  ∀ x ∈ s.conn_queue.entries, ∃ e ∈ g.arcs, e.idx = x.1 ∧ x.2 = s.conn_key_of e

/-- The states an engine on the graph `g` can be in when the weights change only together
with a call of `update_edge` on the changed arc: it is constructed on `g`, each public
method that returns leads to a further state, `update_edge` is called on arcs of `g`, and
the caller may install a weight map that differs from the current one at the arc `e` at
most and call `update_edge(e)` at once. -/
inductive inc_bi.ReachableUpd (g : Graph) : inc_bi → Prop where
  | construct (v_start v_goal : Nat) (sp : Nat → Nat) (sd sl : Nat → Weight)
      (gp : Nat → Nat) (gd gl : Nat → Weight) (w : Arc → Weight) (m : Weight)
      (t1 t2 t3 : Nat → Nat) (s : inc_bi)
      (h : inc_bi.construct g v_start v_goal sp sd sl gp gd gl w m t1 t2 t3 = some s) :
      ReachableUpd g s
  | update_edge (s s1 : inc_bi) (e : Arc) (he : e ∈ g.arcs) (hs : ReachableUpd g s)
      (h : inc_bi.update_edge s e = some s1) : ReachableUpd g s1
  | change_weight (s s1 : inc_bi) (w : Arc → Weight) (e : Arc) (he : e ∈ g.arcs)
      (hw : ∀ a ∈ g.arcs, a ≠ e → w a = s.weight a) (hs : ReachableUpd g s)
      (h : inc_bi.update_edge { s with weight := w } e = some s1) : ReachableUpd g s1
  | start_update_vertex (s s1 : inc_bi) (u : Nat) (hs : ReachableUpd g s)
      (h : inc_bi.start_update_vertex s u = some s1) : ReachableUpd g s1
  | goal_update_vertex (s s1 : inc_bi) (u : Nat) (hs : ReachableUpd g s)
      (h : inc_bi.goal_update_vertex s u = some s1) : ReachableUpd g s1
  | compute_shortest_path (s s1 : inc_bi) (fuel : Nat) (r : Nat × Bool)
      (hs : ReachableUpd g s)
      (h : inc_bi.compute_shortest_path fuel s = Run.done (r, s1)) : ReachableUpd g s1

/-! ## Example inputs -/

/-- The value `done a` of a run as an option. -/
def Run.result {α : Type} : Run α → Option α
  | Run.done a => some a
  | _ => none

/-- The cycle A-B-C-D-A on the vertices 0, 1, 2, 3, each edge given as two arcs. -/
def cycle4 : Graph :=
  ⟨4, [⟨0, 1, 0⟩, ⟨1, 0, 1⟩, ⟨1, 2, 2⟩, ⟨2, 1, 3⟩, ⟨2, 3, 4⟩, ⟨3, 2, 5⟩, ⟨3, 0, 6⟩, ⟨0, 3, 7⟩]⟩

/-- The weights AB = 1, BC = 1, CD = 1, DA = 5 of the cycle. -/
def cycle4_weight (e : Arc) : Weight :=
  if e.idx / 2 = 3 then Weight.fin 5 else Weight.fin 1

/-- A freshly constructed engine; the maps handed to the constructor hold zeros and every
queue reports the first of its minimal entries. -/
def inc_bi.fresh (g : Graph) (v_start v_goal : Nat) (weight : Arc → Weight)
    (goal_margin : Weight) : Option inc_bi :=
  inc_bi.construct g v_start v_goal (fun _ => 0) (fun _ => Weight.zero)
    (fun _ => Weight.zero) (fun _ => 0) (fun _ => Weight.zero) (fun _ => Weight.zero)
    weight goal_margin (fun _ => 0) (fun _ => 0) (fun _ => 0)

/-- The weights of the cycle as `unsigned int` values. -/
def cycle4_weight_uint (e : Arc) : Nat := if e.idx / 2 = 3 then 5 else 1

/-- The addition that is closed at `inf`, in the manner of `boost::closed_plus`. -/
def closed_plus (inf a b : Nat) : Nat :=
  if a = inf then inf else if b = inf then inf else a + b

/-- A freshly constructed unidirectional engine with the zero heuristic, `combine` the
addition closed at `inf`, `inf` the largest `unsigned int` and `zero` the number 0. -/
def lifelong_planning_astar.fresh (g : Graph) (v_start v_goal : Nat) (weight : Arc → Nat) :
    Option lifelong_planning_astar :=
  lifelong_planning_astar.construct g v_start v_goal (fun _ => 0) (fun _ => 0)
    (fun _ => 0) (fun _ => 0) weight (closed_plus (UINT - 1)) (UINT - 1) 0 (fun _ => 0)

/-- Two vertices 0 and 1 joined by one edge, given as the arcs 0 -> 1 and 1 -> 0. -/
def two_vertices : Graph := ⟨2, [⟨0, 1, 0⟩, ⟨1, 0, 1⟩]⟩

/-- The path 1 - 0 - 2 on three vertices: the edge 0 - 2 is given by the arcs of index 0
and 1, the edge 0 - 1 by the arcs of index 2 and 3. -/
def path3 : Graph := ⟨3, [⟨0, 2, 0⟩, ⟨2, 0, 1⟩, ⟨0, 1, 2⟩, ⟨1, 0, 3⟩]⟩

/-- The weights of `path3` in which the edge 0 - 2 weighs `w` and the edge 0 - 1 weighs 0. -/
def path3_weight (w : Nat) (e : Arc) : Weight :=
  if e.idx / 2 = 0 then Weight.fin w else Weight.fin 0

/-- The calls a caller owes after changing the weight of the edge given by the arcs `e`
and `e1`: the new weight map is installed, `update_edge` is called on both arcs, then
`start_update_vertex` and `goal_update_vertex` on both endpoints. -/
def inc_bi.change_weight (s : inc_bi) (weight : Arc → Weight) (e e1 : Arc) :
    Option inc_bi :=
  (inc_bi.update_edge { s with weight := weight } e).bind fun s1 =>
  (inc_bi.update_edge s1 e1).bind fun s2 =>
  (inc_bi.start_update_vertex s2 e.src).bind fun s3 =>
  (inc_bi.start_update_vertex s3 e.tgt).bind fun s4 =>
  (inc_bi.goal_update_vertex s4 e.src).bind fun s5 =>
  inc_bi.goal_update_vertex s5 e.tgt

/-- The pair returned by a run together with the path length stored in the connection
queue for the returned index. -/
def inc_bi.report (x : (Nat × Bool) × inc_bi) : (Nat × Bool) × Option Weight :=
  (x.1, (x.2.conn_queue.key_of x.1.1).map conn_key.path_length)

/-- The weights of `path3` in which the edge 0 - 2 weighs 1 and the edge 0 - 1 is
unreachable. -/
def path3_weight_cut (e : Arc) : Weight :=
  if e.idx / 2 = 0 then Weight.fin 1 else Weight.inf

/-- Two components: the edge 0 - 1 and the edge 2 - 3, each given as two arcs. -/
def two_components : Graph := ⟨4, [⟨0, 1, 0⟩, ⟨1, 0, 1⟩, ⟨2, 3, 2⟩, ⟨3, 2, 3⟩]⟩

/-- The path 0 - 1 - 2 - 3 with its middle edge first in the list of arcs: the edge 1 - 2
is given by the arcs of index 0 and 1, the edge 0 - 1 by the arcs of index 2 and 3, the
edge 2 - 3 by the arcs of index 4 and 5. -/
def path4 : Graph :=
  ⟨4, [⟨1, 2, 0⟩, ⟨2, 1, 1⟩, ⟨0, 1, 2⟩, ⟨1, 0, 3⟩, ⟨2, 3, 4⟩, ⟨3, 2, 5⟩]⟩

/-- The weights of `path4` in which the edge 1 - 2 weighs 0, the edge 0 - 1 weighs 1 and
the edge 2 - 3 weighs 3. -/
def path4_weight (e : Arc) : Weight :=
  if e.idx / 2 = 0 then Weight.fin 0 else if e.idx / 2 = 1 then Weight.fin 1 else Weight.fin 3

/-- A freshly constructed engine whose queues break ties by the oracles `t1`, `t2`, `t3`;
the maps handed to the constructor hold zeros. -/
def inc_bi.fresh_tie (g : Graph) (v_start v_goal : Nat) (weight : Arc → Weight)
    (goal_margin : Weight) (t1 t2 t3 : Nat → Nat) : Option inc_bi :=
  inc_bi.construct g v_start v_goal (fun _ => 0) (fun _ => Weight.zero)
    (fun _ => Weight.zero) (fun _ => 0) (fun _ => Weight.zero) (fun _ => Weight.zero)
    weight goal_margin t1 t2 t3

/-- The weights of the cycle after the edge AB has been set to unreachable. -/
def cycle4_weight_cut (e : Arc) : Weight :=
  if e.idx / 2 = 0 then Weight.inf else cycle4_weight e

/-- Scenario A: a fresh engine on the cycle, from A to C with margin 0, and one call of
`compute_shortest_path`. -/
def scenario_A (t1 t2 t3 : Nat → Nat) : Option ((Nat × Bool) × inc_bi) :=
  (inc_bi.fresh_tie cycle4 0 2 cycle4_weight Weight.zero t1 t2 t3).bind fun s =>
    (inc_bi.compute_shortest_path 10 s).result

/-- The calls of Scenario B on the state `s` left by Scenario A: the weight of both arcs
of AB is set to unreachable, `update_edge` is called on both arcs and nothing else, then
`compute_shortest_path` is called. -/
def scenario_B (s : inc_bi) : Option ((Nat × Bool) × inc_bi) :=
  (inc_bi.update_edge { s with weight := cycle4_weight_cut } ⟨0, 1, 0⟩).bind fun s2 =>
  (inc_bi.update_edge s2 ⟨1, 0, 1⟩).bind fun s3 =>
    (inc_bi.compute_shortest_path 10 s3).result

/-- Whether a run broke a queue contract. -/
def Run.faulted {α : Type} : Run α → Bool
  | Run.fault => true
  | _ => false

/-- Whether a run ran out of fuel. -/
def Run.unfinished {α : Type} : Run α → Bool
  | Run.out_of_fuel => true
  | _ => false

/-- The weight that the `unsigned int` value `n` stands for when the value `i` stands for
`inf`. -/
def Weight.ofNat (i n : Nat) : Weight := if n = i then Weight.inf else Weight.fin n

/-- The state `t` of the unidirectional engine corresponds to the start frontier of the
state `s` of `inc_bi`: the same graph and start vertex, the zero heuristic, `combine` the
addition closed at `inf`, and the same weights, distances, lookaheads, predecessors and
set of queued vertices, the values of `t` being `unsigned int` values up to `inf`. -/
structure lifelong_planning_astar.Corresponds (t : lifelong_planning_astar) (s : inc_bi) :
    Prop where
  g : t.g = s.g
  v_start : t.v_start = s.v_start
  inf_lt : t.inf < UINT
  combine : t.combine = closed_plus t.inf
  h : ∀ v, t.h v = 0
  weight : ∀ e, t.weight e ≤ t.inf ∧ Weight.ofNat t.inf (t.weight e) = s.weight e
  distance : ∀ v, t.distance v ≤ t.inf ∧
    Weight.ofNat t.inf (t.distance v) = s.start_distance v
  lookahead : ∀ v, t.distance_lookahead v ≤ t.inf ∧
    Weight.ofNat t.inf (t.distance_lookahead v) = s.start_distance_lookahead v
  predecessor : t.predecessor = s.start_predecessor
  queue : ∀ v, t.queue.contains v = s.start_queue.contains v

/-- No candidate of the unidirectional engine overflows: the distance of the source of an
arc from `vs`, when there is one, and the weight of the arc add up to less than `inf`. -/
def NoOverflow (g : Graph) (w : Arc → Nat) (vs inf : Nat) : Prop :=
  ∀ e ∈ g.arcs, ∀ n, IsDist g (fun a => Weight.ofNat inf (w a)) vs e.src (Weight.fin n) →
    n + w e < inf

/-- The state `t` of the unidirectional engine during a search from scratch on the graph
`g` with the weights `w`: it corresponds to a state of `inc_bi` whose start frontier is in
order, up to the arcs `pend` that still await their update, and every queued vertex
carries its current key. -/
def lifelong_planning_astar.LpaInv (g : Graph) (w : Arc → Nat) (inf vs vg : Nat)
    (pend : Arc → Prop) (t : lifelong_planning_astar) : Prop :=
  t.weight = w ∧ t.inf = inf ∧ ∃ s : inc_bi, t.Corresponds s ∧
    inc_bi.FreshInv g (fun a => Weight.ofNat inf (w a)) vs vg s pend (fun _ => False)
      (fun _ => True) ∧
    ∀ x ∈ t.queue.entries, x.2 = t.calculate_key x.1

/-- The triangle 0 - 1 - 2 with a further vertex 3 joined to 0: the edge 0 - 1 is given by
the arcs of index 0 and 1, the edge 1 - 2 by the arcs of index 2 and 3, the edge 0 - 2 by
the arcs of index 4 and 5, the edge 0 - 3 by the arcs of index 6 and 7. -/
def kite4 : Graph :=
  ⟨4, [⟨0, 1, 0⟩, ⟨1, 0, 1⟩, ⟨1, 2, 2⟩, ⟨2, 1, 3⟩, ⟨0, 2, 4⟩, ⟨2, 0, 5⟩, ⟨0, 3, 6⟩,
    ⟨3, 0, 7⟩]⟩

/-- The weights of `kite4`: the edge 0 - 1 weighs `2 ^ 31`, the edge 1 - 2 weighs
`2 ^ 31 + 3`, the edge 0 - 2 weighs `2 ^ 31 + 100` and the edge 0 - 3 weighs
`2 ^ 31 + 200`. -/
def kite4_weight (e : Arc) : Nat :=
  if e.idx / 2 = 0 then 2 ^ 31
  else if e.idx / 2 = 1 then 2 ^ 31 + 3
  else if e.idx / 2 = 2 then 2 ^ 31 + 100
  else 2 ^ 31 + 200

/-- Two vertices 0 and 1 joined by the arcs 0 -> 1 and 1 -> 0, both of which carry the
edge index 0. -/
def shared_index : Graph := ⟨2, [⟨0, 1, 0⟩, ⟨1, 0, 0⟩]⟩

/-! ## The measure of a run -/

/-- The order of the weight type: `a <= b` and `a < b` are the comparisons `Weight.le` and
`Weight.lt`, and the smaller of two weights is `Weight.min`. -/
instance : LinearOrder Weight where
  le a b := Weight.le a b = true
  lt a b := Weight.lt a b = true
  le_refl a := by cases a <;> simp [Weight.le, Weight.lt]
  le_trans a b c := by
    cases a <;> cases b <;> cases c <;> simp [Weight.le, Weight.lt] <;> omega
  lt_iff_le_not_le a b := by
    cases a <;> cases b <;> simp [Weight.le, Weight.lt] <;> omega
  le_antisymm a b := by
    cases a <;> cases b <;> simp [Weight.le, Weight.lt] <;> omega
  le_total a b := by
    cases a <;> cases b <;> simp [Weight.le, Weight.lt] <;> omega
  decidableLE a b := inferInstanceAs (Decidable (Weight.le a b = true))
  decidableLT a b := inferInstanceAs (Decidable (Weight.lt a b = true))
  decidableEq := inferInstance
  min a b := Weight.min a b
  max a b := if Weight.le a b = true then b else a
  min_def a b := by
    cases a <;> cases b <;> simp [Weight.min, Weight.le, Weight.lt]
    rename_i x y
    by_cases h : y < x
    · simp [h, Nat.not_le.mpr h]
    · simp [h, Nat.not_lt.mp h]
  max_def a b := rfl

/-- The lookahead that `start_update_vertex` and `goal_update_vertex` compute for the
vertex `t` from the distances `d`: the least `combine(d(source), weight)` over the in-arcs
of `t`, taken in iteration order, and `inf` when there is none. -/
def lookahead_of (g : Graph) (w : Arc → Weight) (d : Nat → Weight) (t : Nat) : Weight :=
  (in_edges t g).foldl
    (fun r e =>
      if Weight.lt (Weight.combine (d e.src) (w e)) r then Weight.combine (d e.src) (w e)
      else r)
    Weight.inf

/-- The lookahead of the vertex `v` is current: `v` is the source of the frontier, whose
lookahead is never recomputed, or its lookahead `rhs v` is the value that the update of `v`
would compute from the distances `d`. -/
def fresh_at (g : Graph) (w : Arc → Weight) (src : Nat) (d rhs : Nat → Weight) (v : Nat) :
    Prop :=
  v = src ∨ rhs v = lookahead_of g w d v

instance (g : Graph) (w : Arc → Weight) (src : Nat) (d rhs : Nat → Weight) (v : Nat) :
    Decidable (fresh_at g w src d rhs v) := by
  unfold fresh_at
  infer_instance

/-- The vertex `v` is settled: it is consistent, and its distance is no larger than the
key of any inconsistent vertex among the first `n`. -/
def settled_at (n : Nat) (d rhs : Nat → Weight) (v : Nat) : Prop :=
  d v = rhs v ∧
    ∀ x, x < n → d x ≠ rhs x → Weight.le (d v) (Weight.min (d x) (rhs x)) = true

instance (n : Nat) (d rhs : Nat → Weight) (v : Nat) : Decidable (settled_at n d rhs v) := by
  unfold settled_at
  infer_instance

/-- What the vertex `v` adds to the first part of the measure of a frontier: nothing when
its lookahead is current, 1 when it is out of date and `v` is consistent, 2 when it is out
of date and `v` is inconsistent. -/
def staleness (g : Graph) (w : Arc → Weight) (src : Nat) (d rhs : Nat → Weight) (v : Nat) :
    Nat :=
  if fresh_at g w src d rhs v then 0 else if d v = rhs v then 1 else 2

/-- What the vertex `v` adds to the second part of the measure of a frontier: nothing when
it is settled, 1 when it is not and its distance is `inf`, 2 otherwise. -/
def openness (n : Nat) (d rhs : Nat → Weight) (v : Nat) : Nat :=
  if settled_at n d rhs v then 0 else if d v = Weight.inf then 1 else 2

/-- The measure of a frontier with the distances `d` and the lookaheads `rhs`, which every
expansion of the frontier lowers: the vertices with a lookahead out of date count first,
the vertices that are not settled second. -/
def side_measure (g : Graph) (w : Arc → Weight) (src : Nat) (d rhs : Nat → Weight) : Nat :=
  Finset.sum (Finset.range g.nv) (staleness g w src d rhs) * (2 * g.nv + 1) +
    Finset.sum (Finset.range g.nv) (openness g.nv d rhs)

/-- The vertices whose lookahead an expansion of the vertex `u` recomputes: the targets of
the arcs leaving `u`, and `u` itself when its distance was raised and not lowered. -/
def touched_by (g : Graph) (u : Nat) (lowered : Bool) (t : Nat) : Prop :=
  (∃ e ∈ g.arcs, e.src = u ∧ e.tgt = t) ∨ (t = u ∧ lowered = false)

/-- One expansion of a frontier, seen on its distances and lookaheads: the inconsistent
vertex `u` of least key is taken; its distance is lowered to its lookahead when that is
smaller and raised to `inf` otherwise; the targets of the arcs leaving `u`, and `u` itself
when it was raised, get their lookahead recomputed from the new distances, the source of
the frontier excepted; no other lookahead changes. -/
structure SideStep (g : Graph) (w : Arc → Weight) (src : Nat) (d rhs d1 rhs1 : Nat → Weight)
    (u : Nat) : Prop where
  lt_nv : u < g.nv
  queued : d u ≠ rhs u
  minimal : ∀ v, v < g.nv → d v ≠ rhs v →
    Weight.le (Weight.min (d u) (rhs u)) (Weight.min (d v) (rhs v)) = true
  dist : d1 = Function.update d u (if Weight.lt (rhs u) (d u) then rhs u else Weight.inf)
  rhs_src : rhs1 src = rhs src
  rhs_touched : ∀ t, t ≠ src → touched_by g u (Weight.lt (rhs u) (d u)) t →
    rhs1 t = lookahead_of g w d1 t
  rhs_kept : ∀ t, ¬ touched_by g u (Weight.lt (rhs u) (d u)) t → rhs1 t = rhs t

/-- The start lookahead of the vertex `v` is current in the state `s`. -/
def inc_bi.StartFresh (s : inc_bi) (v : Nat) : Prop :=
  fresh_at s.g s.weight s.v_start s.start_distance s.start_distance_lookahead v

/-- The goal lookahead of the vertex `v` is current in the state `s`. -/
def inc_bi.GoalFresh (s : inc_bi) (v : Nat) : Prop :=
  fresh_at s.g s.weight s.v_goal s.goal_distance s.goal_distance_lookahead v

/-- What a run of `compute_shortest_path` on the graph `g` keeps in order, whatever the
weights and the other lookaheads are: the invariant of the connection queue, the
open-queue invariant and the current keys of both frontiers, queues that hold vertices of
the graph only, the lookahead zero of both sources, weights that are equal on mirrored
arcs, and current lookaheads of the vertices that have an arc to themselves. -/
structure inc_bi.RunInv (g : Graph) (s : inc_bi) : Prop where
  conn : inc_bi.ConnInv g s
  open_queue : ∀ v, v < g.nv → inc_bi.StartInv s v ∧ inc_bi.GoalInv s v
  start_keys : inc_bi.StartKeys s
  goal_keys : inc_bi.GoalKeys s
  start_bound : ∀ v, s.start_queue.contains v = true → v < g.nv
  goal_bound : ∀ v, s.goal_queue.contains v = true → v < g.nv
  start_source : s.start_distance_lookahead s.v_start = Weight.zero
  goal_source : s.goal_distance_lookahead s.v_goal = Weight.zero
  mirrored : Mirrored g s.weight
  self_loops : ∀ e ∈ g.arcs, e.src = e.tgt →
    inc_bi.StartFresh s e.src ∧ inc_bi.GoalFresh s e.src

/-- The measure of a state of the engine, which every iteration of the loop of
`compute_shortest_path` that does not return lowers: the measures of both frontiers. -/
def inc_bi.run_measure (s : inc_bi) : Nat :=
  side_measure s.g s.weight s.v_start s.start_distance s.start_distance_lookahead +
    side_measure s.g s.weight s.v_goal s.goal_distance s.goal_distance_lookahead

/-- The number of iterations within which `compute_shortest_path` returns on a graph with
`n` vertices. -/
def inc_bi.run_bound (n : Nat) : Nat := 2 * (2 * n * (2 * n + 1) + 2 * n) + 1

/-! ## The engine maintained as it expects -/

/-- The predecessor of the vertex `v` in the start frontier is in order: when `v` is a
vertex of the graph other than the start whose start lookahead is not `inf`, its
predecessor is the source of an in-arc that attains the lookahead. -/
def inc_bi.StartPredAt (s : inc_bi) (v : Nat) : Prop :=
  v < s.g.nv → v ≠ s.v_start → s.start_distance_lookahead v ≠ Weight.inf →
    ∃ e ∈ s.g.arcs, e.tgt = v ∧ e.src = s.start_predecessor v ∧
      s.start_distance_lookahead v = Weight.combine (s.start_distance e.src) (s.weight e)

/-- The predecessor of the vertex `v` in the goal frontier is in order: when `v` is a
vertex of the graph other than the goal whose goal lookahead is not `inf`, its
predecessor is the source of an in-arc that attains the lookahead. -/
def inc_bi.GoalPredAt (s : inc_bi) (v : Nat) : Prop :=
  v < s.g.nv → v ≠ s.v_goal → s.goal_distance_lookahead v ≠ Weight.inf →
    ∃ e ∈ s.g.arcs, e.tgt = v ∧ e.src = s.goal_predecessor v ∧
      s.goal_distance_lookahead v = Weight.combine (s.goal_distance e.src) (s.weight e)

/-- The states an engine on the graph `g` can be in when the caller maintains it as the
engine expects: it is constructed on `g`, each public method that returns leads to a
further state, `update_edge` is called on arcs of `g`, and the weight of an edge, given by
an arc `e` and its mirrored arc `e1`, changes only together with the calls of
`change_weight`: `update_edge` on both arcs, then `start_update_vertex` and
`goal_update_vertex` on both endpoints. -/
inductive inc_bi.ReachableMaint (g : Graph) : inc_bi → Prop where
  | construct (v_start v_goal : Nat) (sp : Nat → Nat) (sd sl : Nat → Weight)
      (gp : Nat → Nat) (gd gl : Nat → Weight) (w : Arc → Weight) (m : Weight)
      (t1 t2 t3 : Nat → Nat) (s : inc_bi)
      (h : inc_bi.construct g v_start v_goal sp sd sl gp gd gl w m t1 t2 t3 = some s) :
      ReachableMaint g s
  | update_edge (s s1 : inc_bi) (e : Arc) (he : e ∈ g.arcs) (hs : ReachableMaint g s)
      (h : inc_bi.update_edge s e = some s1) : ReachableMaint g s1
  | change_weight (s s1 : inc_bi) (w : Arc → Weight) (e e1 : Arc) (he : e ∈ g.arcs)
      (he1 : e1 ∈ g.arcs) (hrev : e1.src = e.tgt ∧ e1.tgt = e.src)
      (hw : ∀ a ∈ g.arcs, a ≠ e → a ≠ e1 → w a = s.weight a) (hs : ReachableMaint g s)
      (h : inc_bi.change_weight s w e e1 = some s1) : ReachableMaint g s1
  | start_update_vertex (s s1 : inc_bi) (u : Nat) (hs : ReachableMaint g s)
      (h : inc_bi.start_update_vertex s u = some s1) : ReachableMaint g s1
  | goal_update_vertex (s s1 : inc_bi) (u : Nat) (hs : ReachableMaint g s)
      (h : inc_bi.goal_update_vertex s u = some s1) : ReachableMaint g s1
  | compute_shortest_path (s s1 : inc_bi) (fuel : Nat) (r : Nat × Bool)
      (hs : ReachableMaint g s)
      (h : inc_bi.compute_shortest_path fuel s = Run.done (r, s1)) : ReachableMaint g s1

/-- The path 0 - 1 - 2 with an edge from the vertex 1 to itself: the edges 0 - 1 and 1 - 2
are given as two arcs each, the edge 1 - 1 as the one arc of index 4. -/
def lasso : Graph := ⟨3, [⟨0, 1, 0⟩, ⟨1, 0, 1⟩, ⟨1, 2, 2⟩, ⟨2, 1, 3⟩, ⟨1, 1, 4⟩]⟩

/-- The weights of `lasso` in which the edge 0 - 1 weighs `w` and every other edge 1. -/
def lasso_weight (w : Nat) (e : Arc) : Weight :=
  if e.idx / 2 = 0 then Weight.fin w else Weight.fin 1

/-- Two vertices joined by the edge 0 - 1, given as the arcs of index 2 and 3, each with
an arc to itself: 1 -> 1 of index 0 and 0 -> 0 of index 1. -/
def two_loops : Graph := ⟨2, [⟨1, 1, 0⟩, ⟨0, 0, 1⟩, ⟨0, 1, 2⟩, ⟨1, 0, 3⟩]⟩

/-- The weights of `two_loops` in which the edge 0 - 1 weighs `w`, the arc 1 -> 1 weighs 2
and the arc 0 -> 0 is unreachable. -/
def two_loops_weight (w : Weight) (e : Arc) : Weight :=
  if e.idx = 0 then Weight.fin 2 else if e.idx = 1 then Weight.inf else w

/-! # Theorems -/

/-! ## Loops that may fail -/

theorem foldlM_inv {σ α : Type} (P : σ → Prop) (f : σ → α → Option σ)
    (hf : ∀ s a s1, P s → f s a = some s1 → P s1) :
    ∀ (l : List α) (s s1 : σ), P s → l.foldlM f s = some s1 → P s1 := by
  intro l
  induction l with
  | nil =>
    intro s s1 hP h
    simp only [List.foldlM, pure, Option.some.injEq] at h
    exact h ▸ hP
  | cons a l ih =>
    intro s s1 hP h
    simp only [List.foldlM, bind, Option.bind_eq_some] at h
    obtain ⟨s2, h2, h3⟩ := h
    exact ih s2 s1 (hf s a s2 hP h2) h3

theorem foldlM_rel {σ α : Type} (R : σ → σ → Prop) (hrefl : ∀ s, R s s)
    (htrans : ∀ a b c, R a b → R b c → R a c) (f : σ → α → Option σ)
    (hf : ∀ s a s1, f s a = some s1 → R s s1) (l : List α) (s s1 : σ)
    (h : l.foldlM f s = some s1) : R s s1 :=
  foldlM_inv (fun t => R s t) f (fun t a t1 hP ht => htrans s t t1 hP (hf t a t1 ht))
    l s s1 (hrefl s) h

theorem foldlM_inv_list {σ α : Type} (P : List α → σ → Prop) (f : σ → α → Option σ)
    (hf : ∀ a l s s1, P (a :: l) s → f s a = some s1 → P l s1) :
    ∀ (l : List α) (s s1 : σ), P l s → l.foldlM f s = some s1 → P [] s1 := by
  intro l
  induction l with
  | nil =>
    intro s s1 hP h
    simp only [List.foldlM, pure, Option.some.injEq] at h
    exact h ▸ hP
  | cons a l ih =>
    intro s s1 hP h
    simp only [List.foldlM, bind, Option.bind_eq_some] at h
    obtain ⟨s2, h2, h3⟩ := h
    exact ih s2 s1 (hf a l s s2 hP h2) h3

theorem run_result_eq_some {α : Type} {r : Run α} {a : α} (h : r.result = some a) :
    r = Run.done a := by
  cases r with
  | done b =>
    simp only [Run.result, Option.some.injEq] at h
    rw [h]
  | fault => simp [Run.result] at h
  | out_of_fuel => simp [Run.result] at h

/-! ## The indexed priority queue -/

namespace HeapIndexed

variable {K : Type}

theorem contains_iff (h : HeapIndexed K) (j : Nat) :
    h.contains j = true ↔ ∃ k, (j, k) ∈ h.entries := by
  simp only [contains, List.any_eq_true, beq_iff_eq]
  constructor
  · rintro ⟨⟨a, k⟩, hm, rfl⟩
    exact ⟨k, hm⟩
  · rintro ⟨k, hm⟩
    exact ⟨(j, k), hm, rfl⟩

theorem insert_eq_some {h h1 : HeapIndexed K} {i : Nat} {k : K}
    (hi : h.insert i k = some h1) :
    h.contains i = false ∧ h1 = ⟨h.entries ++ [(i, k)], h.clock + 1, h.tie⟩ := by
  unfold insert at hi
  split at hi
  · exact absurd hi (by simp)
  · next hc =>
    simp only [Option.some.injEq] at hi
    exact ⟨by simpa using hc, hi.symm⟩

theorem update_eq_some {h h1 : HeapIndexed K} {i : Nat} {k : K}
    (hi : h.update i k = some h1) :
    h.contains i = true ∧
      h1 = ⟨h.entries.map (fun e => if e.1 == i then (i, k) else e), h.clock + 1, h.tie⟩ := by
  unfold update at hi
  split at hi
  · next hc =>
    simp only [Option.some.injEq] at hi
    exact ⟨hc, hi.symm⟩
  · exact absurd hi (by simp)

theorem remove_eq_some {h h1 : HeapIndexed K} {i : Nat}
    (hi : h.remove i = some h1) :
    h.contains i = true ∧
      h1 = ⟨h.entries.filter (fun e => !(e.1 == i)), h.clock + 1, h.tie⟩ := by
  unfold remove at hi
  split at hi
  · next hc =>
    simp only [Option.some.injEq] at hi
    exact ⟨hc, hi.symm⟩
  · exact absurd hi (by simp)

theorem contains_insert {h h1 : HeapIndexed K} {i : Nat} {k : K}
    (hi : h.insert i k = some h1) (j : Nat) :
    h1.contains j = (h.contains j || decide (i = j)) := by
  obtain ⟨-, rfl⟩ := insert_eq_some hi
  rw [Bool.eq_iff_iff]
  simp only [Bool.or_eq_true, decide_eq_true_eq, contains_iff, List.mem_append,
    List.mem_singleton, Prod.mk.injEq]
  constructor
  · rintro ⟨k1, hk | ⟨rfl, -⟩⟩
    · exact Or.inl ⟨k1, hk⟩
    · exact Or.inr rfl
  · rintro (⟨k1, hk⟩ | rfl)
    · exact ⟨k1, Or.inl hk⟩
    · exact ⟨k, Or.inr ⟨rfl, rfl⟩⟩

theorem contains_update {h h1 : HeapIndexed K} {i : Nat} {k : K}
    (hi : h.update i k = some h1) (j : Nat) : h1.contains j = h.contains j := by
  obtain ⟨-, rfl⟩ := update_eq_some hi
  rw [Bool.eq_iff_iff]
  simp only [contains_iff, List.mem_map]
  constructor
  · rintro ⟨k1, ⟨a, k2⟩, hm, he⟩
    by_cases ha : a = i
    · subst ha
      simp only [beq_self_eq_true, if_true, Prod.mk.injEq] at he
      exact ⟨k2, he.1 ▸ hm⟩
    · have : (a == i) = false := by simpa using ha
      simp only [this, Bool.false_eq_true, if_false, Prod.mk.injEq] at he
      exact ⟨k2, he.1 ▸ hm⟩
  · rintro ⟨k1, hm⟩
    by_cases hj : j = i
    · subst hj
      exact ⟨k, (j, k1), hm, by simp⟩
    · have : (j == i) = false := by simpa using hj
      exact ⟨k1, (j, k1), hm, by simp [this]⟩

theorem contains_remove {h h1 : HeapIndexed K} {i : Nat}
    (hi : h.remove i = some h1) (j : Nat) :
    h1.contains j = (h.contains j && !decide (i = j)) := by
  obtain ⟨-, rfl⟩ := remove_eq_some hi
  rw [Bool.eq_iff_iff]
  simp only [Bool.and_eq_true, Bool.not_eq_true', decide_eq_false_iff_not, contains_iff,
    List.mem_filter, beq_eq_false_iff_ne, ne_eq]
  constructor
  · rintro ⟨k1, hm, hne⟩
    exact ⟨⟨k1, hm⟩, fun h2 => hne h2.symm⟩
  · rintro ⟨⟨k1, hm⟩, hne⟩
    exact ⟨k1, hm, fun h2 => hne h2.symm⟩

theorem top_mem {lt : K → K → Bool} {h : HeapIndexed K} {e : Nat × K}
    (ht : top lt h = some e) : e ∈ h.entries := by
  unfold top at ht
  have hm : e ∈ minimal lt h := List.getElem?_mem ht
  exact (List.mem_filter.mp hm).1

theorem top_contains {lt : K → K → Bool} {h : HeapIndexed K} {e : Nat × K}
    (ht : top lt h = some e) : h.contains e.1 = true :=
  (contains_iff h e.1).mpr ⟨e.2, top_mem ht⟩

theorem remove_min_eq_some {lt : K → K → Bool} {h h1 : HeapIndexed K}
    (hr : remove_min lt h = some h1) :
    ∃ e, top lt h = some e ∧ remove h e.1 = some h1 := by
  unfold remove_min at hr
  split at hr
  · exact absurd hr (by simp)
  · next e he => exact ⟨e, he, hr⟩

end HeapIndexed

/-! ## Frame lemmas of `inc_bi` -/

namespace inc_bi

theorem connOnly_refl (s : inc_bi) : ConnOnly s s := ⟨s.conn_queue, rfl⟩

theorem connOnly_trans {a b c : inc_bi} (h1 : ConnOnly a b) (h2 : ConnOnly b c) :
    ConnOnly a c := by
  obtain ⟨q1, rfl⟩ := h1
  obtain ⟨q2, rfl⟩ := h2
  exact ⟨q2, rfl⟩

theorem start_open_step_connOnly {d : Weight} {s s1 : inc_bi} {e : Arc}
    (h : start_open_step d s e = some s1) : ConnOnly s s1 := by
  unfold start_open_step at h
  dsimp only at h
  split at h
  · simp only [Option.map_eq_some'] at h
    obtain ⟨q, -, rfl⟩ := h
    exact ⟨q, rfl⟩
  · simp only [Option.some.injEq] at h
    exact h ▸ connOnly_refl s

theorem goal_open_step_connOnly {d : Weight} {s s1 : inc_bi} {e : Arc}
    (h : goal_open_step d s e = some s1) : ConnOnly s s1 := by
  unfold goal_open_step at h
  dsimp only at h
  split at h
  · simp only [Option.map_eq_some'] at h
    obtain ⟨q, -, rfl⟩ := h
    exact ⟨q, rfl⟩
  · simp only [Option.some.injEq] at h
    exact h ▸ connOnly_refl s

theorem conn_drop_step_connOnly {s s1 : inc_bi} {e : Arc}
    (h : conn_drop_step s e = some s1) : ConnOnly s s1 := by
  unfold conn_drop_step at h
  split at h
  · simp only [Option.map_eq_some'] at h
    obtain ⟨q, -, rfl⟩ := h
    exact ⟨q, rfl⟩
  · simp only [Option.some.injEq] at h
    exact h ▸ connOnly_refl s

theorem update_edge_connOnly {s s1 : inc_bi} {e : Arc}
    (h : update_edge s e = some s1) : ConnOnly s s1 := by
  unfold update_edge at h
  simp only at h
  split at h
  · split at h
    · simp only [Option.map_eq_some'] at h
      obtain ⟨q, -, rfl⟩ := h
      exact ⟨q, rfl⟩
    · simp only [Option.some.injEq] at h
      exact h ▸ connOnly_refl s
  · split at h
    · simp only [Option.map_eq_some'] at h
      obtain ⟨q, -, rfl⟩ := h
      exact ⟨q, rfl⟩
    · simp only [Option.map_eq_some'] at h
      obtain ⟨q, -, rfl⟩ := h
      exact ⟨q, rfl⟩

theorem foldlM_connOnly {f : inc_bi → Arc → Option inc_bi}
    (hf : ∀ s e s1, f s e = some s1 → ConnOnly s s1) {l : List Arc} {s s1 : inc_bi}
    (h : l.foldlM f s = some s1) : ConnOnly s s1 :=
  foldlM_rel ConnOnly connOnly_refl (fun _ _ _ => connOnly_trans) f hf l s s1 h

/-! ### The start frontier -/

theorem start_recompute_eq (s : inc_bi) (u : Nat) :
    ∃ p l, start_recompute s u =
        { s with start_predecessor := p, start_distance_lookahead := l } ∧
      (∀ v, v ≠ u → l v = s.start_distance_lookahead v) ∧
      (u = s.v_start → l = s.start_distance_lookahead) := by
  unfold start_recompute
  by_cases hu : u = s.v_start
  · refine ⟨s.start_predecessor, s.start_distance_lookahead, ?_, fun _ _ => rfl, fun _ => rfl⟩
    simp [hu]
  · refine ⟨(start_rhs_loop s u).2,
      Function.update s.start_distance_lookahead u (start_rhs_loop s u).1, ?_, ?_,
      fun h => absurd h hu⟩
    · simp only [ne_eq, hu, not_false_eq_true, if_true]
    · intro v hv
      simp [Function.update, hv]

theorem start_update_vertex_spec {s s1 : inc_bi} {u : Nat}
    (h : start_update_vertex s u = some s1) :
    ∃ q, ConnOnly { start_recompute s u with start_queue := q } s1 ∧
      (∀ v, v ≠ u → q.contains v = s.start_queue.contains v) ∧
      (q.contains u = true ↔
        s.start_distance u ≠ (start_recompute s u).start_distance_lookahead u) := by
  obtain ⟨p, l, hr, -, -⟩ := start_recompute_eq s u
  unfold start_update_vertex at h
  rw [hr] at h ⊢
  dsimp only at h ⊢
  by_cases hc : s.start_distance u = l u
  · simp only [hc, decide_True, if_true] at h
    by_cases hq : s.start_queue.contains u = true
    · simp only [hq, if_true, Option.bind_eq_some] at h
      obtain ⟨q, hq1, h⟩ := h
      refine ⟨q, ?_, fun v hv => ?_, ?_⟩
      · split at h
        · exact foldlM_connOnly (fun _ _ _ => start_open_step_connOnly) h
        · simp only [Option.some.injEq] at h
          exact h ▸ connOnly_refl _
      · rw [HeapIndexed.contains_remove hq1 v]
        simp [Ne.symm hv]
      · rw [HeapIndexed.contains_remove hq1 u]
        simp [hc]
    · simp only [hq, Bool.false_eq_true, if_false, Option.some.injEq] at h
      refine ⟨s.start_queue, h ▸ connOnly_refl _, fun _ _ => rfl, ?_⟩
      simp [hq, hc]
  · simp only [hc, decide_False, Bool.false_eq_true, if_false] at h
    by_cases hq : s.start_queue.contains u = true
    · simp only [hq, if_true, Option.map_eq_some'] at h
      obtain ⟨q, hq1, rfl⟩ := h
      refine ⟨q, connOnly_refl _, fun v _ => HeapIndexed.contains_update hq1 v, ?_⟩
      rw [HeapIndexed.contains_update hq1 u]
      simp [hq, hc]
    · simp only [hq, Bool.false_eq_true, if_false, Option.bind_eq_some] at h
      obtain ⟨q, hq1, h⟩ := h
      refine ⟨q, foldlM_connOnly (fun _ _ _ => conn_drop_step_connOnly) h, fun v hv => ?_, ?_⟩
      · rw [HeapIndexed.contains_insert hq1 v]
        simp [Ne.symm hv]
      · rw [HeapIndexed.contains_insert hq1 u]
        simp [hc]

/-! ### The goal frontier -/

theorem goal_recompute_eq (s : inc_bi) (u : Nat) :
    ∃ p l, goal_recompute s u =
        { s with goal_predecessor := p, goal_distance_lookahead := l } ∧
      (∀ v, v ≠ u → l v = s.goal_distance_lookahead v) ∧
      (u = s.v_goal → l = s.goal_distance_lookahead) := by
  unfold goal_recompute
  by_cases hu : u = s.v_goal
  · refine ⟨s.goal_predecessor, s.goal_distance_lookahead, ?_, fun _ _ => rfl, fun _ => rfl⟩
    simp [hu]
  · refine ⟨(goal_rhs_loop s u).2,
      Function.update s.goal_distance_lookahead u (goal_rhs_loop s u).1, ?_, ?_,
      fun h => absurd h hu⟩
    · simp only [ne_eq, hu, not_false_eq_true, if_true]
    · intro v hv
      simp [Function.update, hv]

theorem goal_update_vertex_spec {s s1 : inc_bi} {u : Nat}
    (h : goal_update_vertex s u = some s1) :
    ∃ q, ConnOnly { goal_recompute s u with goal_queue := q } s1 ∧
      (∀ v, v ≠ u → q.contains v = s.goal_queue.contains v) ∧
      (q.contains u = true ↔
        s.goal_distance u ≠ (goal_recompute s u).goal_distance_lookahead u) := by
  obtain ⟨p, l, hr, -, -⟩ := goal_recompute_eq s u
  unfold goal_update_vertex at h
  rw [hr] at h ⊢
  dsimp only at h ⊢
  by_cases hc : s.goal_distance u = l u
  · simp only [hc, decide_True, if_true] at h
    by_cases hq : s.goal_queue.contains u = true
    · simp only [hq, if_true, Option.bind_eq_some] at h
      obtain ⟨q, hq1, h⟩ := h
      refine ⟨q, ?_, fun v hv => ?_, ?_⟩
      · split at h
        · exact foldlM_connOnly (fun _ _ _ => goal_open_step_connOnly) h
        · simp only [Option.some.injEq] at h
          exact h ▸ connOnly_refl _
      · rw [HeapIndexed.contains_remove hq1 v]
        simp [Ne.symm hv]
      · rw [HeapIndexed.contains_remove hq1 u]
        simp [hc]
    · simp only [hq, Bool.false_eq_true, if_false, Option.some.injEq] at h
      refine ⟨s.goal_queue, h ▸ connOnly_refl _, fun _ _ => rfl, ?_⟩
      simp [hq, hc]
  · simp only [hc, decide_False, Bool.false_eq_true, if_false] at h
    by_cases hq : s.goal_queue.contains u = true
    · simp only [hq, if_true, Option.map_eq_some'] at h
      obtain ⟨q, hq1, rfl⟩ := h
      refine ⟨q, connOnly_refl _, fun v _ => HeapIndexed.contains_update hq1 v, ?_⟩
      rw [HeapIndexed.contains_update hq1 u]
      simp [hq, hc]
    · simp only [hq, Bool.false_eq_true, if_false, Option.bind_eq_some] at h
      obtain ⟨q, hq1, h⟩ := h
      refine ⟨q, foldlM_connOnly (fun _ _ _ => conn_drop_step_connOnly) h, fun v hv => ?_, ?_⟩
      · rw [HeapIndexed.contains_insert hq1 v]
        simp [Ne.symm hv]
      · rw [HeapIndexed.contains_insert hq1 u]
        simp [hc]


/-! ### Frames of the start frontier -/

theorem startFrame_refl (s : inc_bi) : StartFrame s s :=
  ⟨rfl, rfl, rfl, rfl, rfl, rfl, rfl, rfl, rfl, rfl, fun _ h => h⟩

theorem startFrame_trans {a b c : inc_bi} (h1 : StartFrame a b) (h2 : StartFrame b c) :
    StartFrame a c where
  g := h2.g.trans h1.g
  v_start := h2.v_start.trans h1.v_start
  v_goal := h2.v_goal.trans h1.v_goal
  weight := h2.weight.trans h1.weight
  goal_margin := h2.goal_margin.trans h1.goal_margin
  goal_predecessor := h2.goal_predecessor.trans h1.goal_predecessor
  goal_distance := h2.goal_distance.trans h1.goal_distance
  goal_distance_lookahead := h2.goal_distance_lookahead.trans h1.goal_distance_lookahead
  goal_queue := h2.goal_queue.trans h1.goal_queue
  lookahead_start := by
    have := h2.lookahead_start
    rw [h1.v_start] at this
    exact this.trans h1.lookahead_start
  inv := fun v h => h2.inv v (h1.inv v h)

theorem connOnly_startFrame {s s1 : inc_bi} (h : ConnOnly s s1) : StartFrame s s1 := by
  obtain ⟨q, rfl⟩ := h
  exact ⟨rfl, rfl, rfl, rfl, rfl, rfl, rfl, rfl, rfl, rfl, fun _ h => h⟩

theorem start_update_vertex_frame {s s1 : inc_bi} {u : Nat}
    (h : start_update_vertex s u = some s1) :
    StartFrame s s1 ∧ s1.start_distance = s.start_distance ∧ StartInv s1 u ∧
      (∀ v, v ≠ u → s1.start_distance_lookahead v = s.start_distance_lookahead v) ∧
      (∀ v, v ≠ u → s1.start_queue.contains v = s.start_queue.contains v) := by
  obtain ⟨q, hc, hq1, hq2⟩ := start_update_vertex_spec h
  obtain ⟨p, l, hr, hl1, hl2⟩ := start_recompute_eq s u
  rw [hr] at hc hq2
  obtain ⟨cq, rfl⟩ := hc
  dsimp only at hq2
  refine ⟨⟨rfl, rfl, rfl, rfl, rfl, rfl, rfl, rfl, rfl, ?_, ?_⟩, rfl, hq2, hl1, hq1⟩
  · dsimp only
    by_cases hu : u = s.v_start
    · rw [hl2 hu]
    · exact hl1 _ (Ne.symm hu)
  · intro v hv
    unfold StartInv at hv ⊢
    dsimp only
    by_cases hvu : v = u
    · subst hvu
      exact hq2
    · rw [hq1 v hvu, hl1 v hvu]
      exact hv

theorem start_lower_step_frame {d : Weight} {s s1 : inc_bi} {e : Arc}
    (h : start_lower_step d s e = some s1) :
    StartFrame s s1 ∧ s1.start_distance = s.start_distance := by
  unfold start_lower_step at h
  simp only [Option.bind_eq_some] at h
  obtain ⟨s2, h2, h3⟩ := h
  obtain ⟨hf, hd, -⟩ := start_update_vertex_frame h2
  have hc : ConnOnly s2 s1 := by
    split at h3
    · simp only [Option.map_eq_some'] at h3
      obtain ⟨q, -, rfl⟩ := h3
      exact ⟨q, rfl⟩
    · simp only [Option.some.injEq] at h3
      exact h3 ▸ connOnly_refl s2
  refine ⟨startFrame_trans hf (connOnly_startFrame hc), ?_⟩
  obtain ⟨q, rfl⟩ := hc
  exact hd

theorem foldlM_startFrame {f : inc_bi → Arc → Option inc_bi}
    (hf : ∀ s e s1, f s e = some s1 →
      StartFrame s s1 ∧ s1.start_distance = s.start_distance)
    {l : List Arc} {s s1 : inc_bi} (h : l.foldlM f s = some s1) :
    StartFrame s s1 ∧ s1.start_distance = s.start_distance :=
  foldlM_rel (fun a b => StartFrame a b ∧ b.start_distance = a.start_distance)
    (fun a => ⟨startFrame_refl a, rfl⟩)
    (fun _ _ _ h1 h2 => ⟨startFrame_trans h1.1 h2.1, h2.2.trans h1.2⟩) f hf l s s1 h

theorem expand_start_frame {s s1 : inc_bi} (h : expand_start s = some s1) :
    StartFrame s s1 ∧
      ∀ v, s1.start_distance v = s.start_distance v ∨
        s1.start_distance v = s.start_distance_lookahead v ∨
        s1.start_distance v = Weight.inf := by
  unfold expand_start at h
  simp only [Option.bind_eq_some] at h
  obtain ⟨u, hu, q, hq, h⟩ := h
  obtain ⟨e, he, hrem⟩ := HeapIndexed.remove_min_eq_some hq
  have hue : e.1 = u := by
    simp only [HeapIndexed.top_idx, he, Option.map_some', Option.some.injEq] at hu
    exact hu
  rw [hue] at hrem
  have hqu : q.contains u = false := by
    rw [HeapIndexed.contains_remove hrem u]
    simp
  have hqv : ∀ v, v ≠ u → q.contains v = s.start_queue.contains v := by
    intro v hv
    rw [HeapIndexed.contains_remove hrem v]
    simp [Ne.symm hv]
  split at h
  · -- the vertex is settled
    obtain ⟨hf, hd⟩ := foldlM_startFrame (fun _ _ _ => start_lower_step_frame) h
    have hf0 : StartFrame s { s with
        start_queue := q
        start_distance :=
          Function.update s.start_distance u (s.start_distance_lookahead u) } := by
      refine ⟨rfl, rfl, rfl, rfl, rfl, rfl, rfl, rfl, rfl, rfl, ?_⟩
      intro v hv
      unfold StartInv at hv ⊢
      by_cases hvu : v = u
      · subst hvu
        simp [hqu]
      · simp only [hqv v hvu, Function.update_noteq hvu]
        exact hv
    refine ⟨startFrame_trans hf0 hf, ?_⟩
    intro v
    rw [hd]
    by_cases hvu : v = u
    · subst hvu
      right; left
      simp
    · left
      simp only [Function.update_noteq hvu]
  · -- the vertex is invalidated
    simp only [Option.bind_eq_some] at h
    obtain ⟨s3, h3, h⟩ := h
    obtain ⟨hf3, hd3, hi3, hl3, hc3⟩ := start_update_vertex_frame h3
    obtain ⟨hf, hd⟩ := foldlM_startFrame
      (fun _ _ _ h => let r := start_update_vertex_frame h; ⟨r.1, r.2.1⟩) h
    have hf0 : StartFrame s s3 :=
      { g := hf3.g, v_start := hf3.v_start, v_goal := hf3.v_goal, weight := hf3.weight,
        goal_margin := hf3.goal_margin, goal_predecessor := hf3.goal_predecessor,
        goal_distance := hf3.goal_distance,
        goal_distance_lookahead := hf3.goal_distance_lookahead,
        goal_queue := hf3.goal_queue, lookahead_start := hf3.lookahead_start,
        inv := by
          intro v hv
          by_cases hvu : v = u
          · subst hvu
            exact hi3
          · unfold StartInv at hv ⊢
            rw [hc3 v hvu, hl3 v hvu, hd3]
            simp only [hqv v hvu, Function.update_noteq hvu]
            exact hv }
    refine ⟨startFrame_trans hf0 hf, ?_⟩
    intro v
    rw [hd, hd3]
    by_cases hvu : v = u
    · subst hvu
      right; right
      simp
    · left
      simp only [Function.update_noteq hvu]

/-! ### Frames of the goal frontier -/

theorem goalFrame_refl (s : inc_bi) : GoalFrame s s :=
  ⟨rfl, rfl, rfl, rfl, rfl, rfl, rfl, rfl, rfl, rfl, fun _ h => h⟩

theorem goalFrame_trans {a b c : inc_bi} (h1 : GoalFrame a b) (h2 : GoalFrame b c) :
    GoalFrame a c where
  g := h2.g.trans h1.g
  v_goal := h2.v_goal.trans h1.v_goal
  v_start := h2.v_start.trans h1.v_start
  weight := h2.weight.trans h1.weight
  goal_margin := h2.goal_margin.trans h1.goal_margin
  start_predecessor := h2.start_predecessor.trans h1.start_predecessor
  start_distance := h2.start_distance.trans h1.start_distance
  start_distance_lookahead := h2.start_distance_lookahead.trans h1.start_distance_lookahead
  start_queue := h2.start_queue.trans h1.start_queue
  lookahead_goal := by
    have := h2.lookahead_goal
    rw [h1.v_goal] at this
    exact this.trans h1.lookahead_goal
  inv := fun v h => h2.inv v (h1.inv v h)

theorem connOnly_goalFrame {s s1 : inc_bi} (h : ConnOnly s s1) : GoalFrame s s1 := by
  obtain ⟨q, rfl⟩ := h
  exact ⟨rfl, rfl, rfl, rfl, rfl, rfl, rfl, rfl, rfl, rfl, fun _ h => h⟩

theorem goal_update_vertex_frame {s s1 : inc_bi} {u : Nat}
    (h : goal_update_vertex s u = some s1) :
    GoalFrame s s1 ∧ s1.goal_distance = s.goal_distance ∧ GoalInv s1 u ∧
      (∀ v, v ≠ u → s1.goal_distance_lookahead v = s.goal_distance_lookahead v) ∧
      (∀ v, v ≠ u → s1.goal_queue.contains v = s.goal_queue.contains v) := by
  obtain ⟨q, hc, hq1, hq2⟩ := goal_update_vertex_spec h
  obtain ⟨p, l, hr, hl1, hl2⟩ := goal_recompute_eq s u
  rw [hr] at hc hq2
  obtain ⟨cq, rfl⟩ := hc
  dsimp only at hq2
  refine ⟨⟨rfl, rfl, rfl, rfl, rfl, rfl, rfl, rfl, rfl, ?_, ?_⟩, rfl, hq2, hl1, hq1⟩
  · dsimp only
    by_cases hu : u = s.v_goal
    · rw [hl2 hu]
    · exact hl1 _ (Ne.symm hu)
  · intro v hv
    unfold GoalInv at hv ⊢
    dsimp only
    by_cases hvu : v = u
    · subst hvu
      exact hq2
    · rw [hq1 v hvu, hl1 v hvu]
      exact hv

theorem goal_lower_step_frame {d : Weight} {s s1 : inc_bi} {e : Arc}
    (h : goal_lower_step d s e = some s1) :
    GoalFrame s s1 ∧ s1.goal_distance = s.goal_distance := by
  unfold goal_lower_step at h
  simp only [Option.bind_eq_some] at h
  obtain ⟨s2, h2, h3⟩ := h
  obtain ⟨hf, hd, -⟩ := goal_update_vertex_frame h2
  have hc : ConnOnly s2 s1 := by
    split at h3
    · simp only [Option.map_eq_some'] at h3
      obtain ⟨q, -, rfl⟩ := h3
      exact ⟨q, rfl⟩
    · simp only [Option.some.injEq] at h3
      exact h3 ▸ connOnly_refl s2
  refine ⟨goalFrame_trans hf (connOnly_goalFrame hc), ?_⟩
  obtain ⟨q, rfl⟩ := hc
  exact hd

theorem foldlM_goalFrame {f : inc_bi → Arc → Option inc_bi}
    (hf : ∀ s e s1, f s e = some s1 →
      GoalFrame s s1 ∧ s1.goal_distance = s.goal_distance)
    {l : List Arc} {s s1 : inc_bi} (h : l.foldlM f s = some s1) :
    GoalFrame s s1 ∧ s1.goal_distance = s.goal_distance :=
  foldlM_rel (fun a b => GoalFrame a b ∧ b.goal_distance = a.goal_distance)
    (fun a => ⟨goalFrame_refl a, rfl⟩)
    (fun _ _ _ h1 h2 => ⟨goalFrame_trans h1.1 h2.1, h2.2.trans h1.2⟩) f hf l s s1 h

theorem expand_goal_frame {s s1 : inc_bi} (h : expand_goal s = some s1) :
    GoalFrame s s1 ∧
      ∀ v, s1.goal_distance v = s.goal_distance v ∨
        s1.goal_distance v = s.goal_distance_lookahead v ∨
        s1.goal_distance v = Weight.inf := by
  unfold expand_goal at h
  simp only [Option.bind_eq_some] at h
  obtain ⟨u, hu, q, hq, h⟩ := h
  obtain ⟨e, he, hrem⟩ := HeapIndexed.remove_min_eq_some hq
  have hue : e.1 = u := by
    simp only [HeapIndexed.top_idx, he, Option.map_some', Option.some.injEq] at hu
    exact hu
  rw [hue] at hrem
  have hqu : q.contains u = false := by
    rw [HeapIndexed.contains_remove hrem u]
    simp
  have hqv : ∀ v, v ≠ u → q.contains v = s.goal_queue.contains v := by
    intro v hv
    rw [HeapIndexed.contains_remove hrem v]
    simp [Ne.symm hv]
  split at h
  · -- the vertex is settled
    obtain ⟨hf, hd⟩ := foldlM_goalFrame (fun _ _ _ => goal_lower_step_frame) h
    have hf0 : GoalFrame s { s with
        goal_queue := q
        goal_distance :=
          Function.update s.goal_distance u (s.goal_distance_lookahead u) } := by
      refine ⟨rfl, rfl, rfl, rfl, rfl, rfl, rfl, rfl, rfl, rfl, ?_⟩
      intro v hv
      unfold GoalInv at hv ⊢
      by_cases hvu : v = u
      · subst hvu
        simp [hqu]
      · simp only [hqv v hvu, Function.update_noteq hvu]
        exact hv
    refine ⟨goalFrame_trans hf0 hf, ?_⟩
    intro v
    rw [hd]
    by_cases hvu : v = u
    · subst hvu
      right; left
      simp
    · left
      simp only [Function.update_noteq hvu]
  · -- the vertex is invalidated
    simp only [Option.bind_eq_some] at h
    obtain ⟨s3, h3, h⟩ := h
    obtain ⟨hf3, hd3, hi3, hl3, hc3⟩ := goal_update_vertex_frame h3
    obtain ⟨hf, hd⟩ := foldlM_goalFrame
      (fun _ _ _ h => let r := goal_update_vertex_frame h; ⟨r.1, r.2.1⟩) h
    have hf0 : GoalFrame s s3 :=
      { g := hf3.g, v_goal := hf3.v_goal, v_start := hf3.v_start, weight := hf3.weight,
        goal_margin := hf3.goal_margin, start_predecessor := hf3.start_predecessor,
        start_distance := hf3.start_distance,
        start_distance_lookahead := hf3.start_distance_lookahead,
        start_queue := hf3.start_queue, lookahead_goal := hf3.lookahead_goal,
        inv := by
          intro v hv
          by_cases hvu : v = u
          · subst hvu
            exact hi3
          · unfold GoalInv at hv ⊢
            rw [hc3 v hvu, hl3 v hvu, hd3]
            simp only [hqv v hvu, Function.update_noteq hvu]
            exact hv }
    refine ⟨goalFrame_trans hf0 hf, ?_⟩
    intro v
    rw [hd, hd3]
    by_cases hvu : v = u
    · subst hvu
      right; right
      simp
    · left
      simp only [Function.update_noteq hvu]


/-! ### The constructor -/

theorem foldl_construct_vertex (l : List Nat) (s : inc_bi) :
    ∃ sd sl gd gl, l.foldl construct_vertex s =
        { s with start_distance := sd, start_distance_lookahead := sl,
                 goal_distance := gd, goal_distance_lookahead := gl } ∧
      (∀ v, sd v = if v ∈ l then Weight.inf else s.start_distance v) ∧
      (∀ v, sl v = if v ∈ l then Weight.inf else s.start_distance_lookahead v) ∧
      (∀ v, gd v = if v ∈ l then Weight.inf else s.goal_distance v) ∧
      (∀ v, gl v = if v ∈ l then Weight.inf else s.goal_distance_lookahead v) := by
  induction l generalizing s with
  | nil => exact ⟨_, _, _, _, rfl, by simp, by simp, by simp, by simp⟩
  | cons a l ih =>
    obtain ⟨sd, sl, gd, gl, he, h1, h2, h3, h4⟩ := ih (construct_vertex s a)
    refine ⟨sd, sl, gd, gl, ?_, ?_, ?_, ?_, ?_⟩
    · rw [List.foldl_cons, he]
      rfl
    all_goals
      intro v
      first | rw [h1 v] | rw [h2 v] | rw [h3 v] | rw [h4 v]
      by_cases hv : v ∈ l
      · simp [hv]
      · by_cases hva : v = a
        · subst hva
          simp [construct_vertex]
        · simp [hv, hva, construct_vertex, Function.update_noteq hva]

theorem construct_spec {g : Graph} {v_start v_goal : Nat} {sp : Nat → Nat}
    {sd sl : Nat → Weight} {gp : Nat → Nat} {gd gl : Nat → Weight} {w : Arc → Weight}
    {m : Weight} {t1 t2 t3 : Nat → Nat} {s : inc_bi}
    (h : construct g v_start v_goal sp sd sl gp gd gl w m t1 t2 t3 = some s) :
    s.g = g ∧ s.v_start = v_start ∧ s.v_goal = v_goal ∧ s.weight = w ∧ s.goal_margin = m ∧
      s.start_predecessor = sp ∧ s.goal_predecessor = gp ∧
      (∀ v, s.start_distance v = if v < g.nv then Weight.inf else sd v) ∧
      (∀ v, s.start_distance_lookahead v =
        if v = v_start then Weight.zero else if v < g.nv then Weight.inf else sl v) ∧
      (∀ v, s.goal_distance v = if v < g.nv then Weight.inf else gd v) ∧
      (∀ v, s.goal_distance_lookahead v =
        if v = v_goal then Weight.zero else if v < g.nv then Weight.inf else gl v) ∧
      s.start_queue = ⟨[(v_start, Weight.zero)], 1, t1⟩ ∧
      s.goal_queue = ⟨[(v_goal, Weight.zero)], 1, t2⟩ ∧
      s.conn_queue = ⟨[], 0, t3⟩ := by
  unfold construct at h
  dsimp only at h
  obtain ⟨fd, fl, hd, hl, he, h1, h2, h3, h4⟩ := foldl_construct_vertex (vertices g)
    (members g v_start v_goal sp sd sl gp gd gl w m t1 t2 t3)
  rw [he] at h
  simp only [members, HeapIndexed.insert, HeapIndexed.contains, HeapIndexed.empty, List.any_nil,
    Bool.false_eq_true, if_false, Option.some_bind, Option.some.injEq, List.nil_append,
    Nat.zero_add] at h
  subst h
  simp only [vertices, List.mem_range] at h1 h2 h3 h4
  refine ⟨rfl, rfl, rfl, rfl, rfl, rfl, rfl, h1, ?_, h3, ?_, rfl, rfl, rfl⟩
  · intro v
    by_cases hv : v = v_start
    · subst hv
      simp
    · simp only [Function.update_noteq hv, hv, if_false]
      exact h2 v
  · intro v
    by_cases hv : v = v_goal
    · subst hv
      simp
    · simp only [Function.update_noteq hv, hv, if_false]
      exact h4 v

theorem construct_isSome (g : Graph) (v_start v_goal : Nat) (sp : Nat → Nat)
    (sd sl : Nat → Weight) (gp : Nat → Nat) (gd gl : Nat → Weight) (w : Arc → Weight)
    (m : Weight) (t1 t2 t3 : Nat → Nat) :
    ∃ s, construct g v_start v_goal sp sd sl gp gd gl w m t1 t2 t3 = some s := by
  unfold construct
  dsimp only
  obtain ⟨fd, fl, hd, hl, he, -⟩ := foldl_construct_vertex (vertices g)
    (members g v_start v_goal sp sd sl gp gd gl w m t1 t2 t3)
  rw [he]
  simp [members, HeapIndexed.insert, HeapIndexed.contains, HeapIndexed.empty]

/-! ### The loop of `compute_shortest_path` -/

theorem iteration_next {s s1 : inc_bi} (h : iteration s = some (Iter.next s1)) :
    expand_start s = some s1 ∨ expand_goal s = some s1 := by
  unfold iteration at h
  simp only [Option.bind_eq_some] at h
  obtain ⟨st, -, gt, -, h⟩ := h
  split at h
  · simp at h
  · simp only [Option.bind_eq_some] at h
    obtain ⟨t, -, h⟩ := h
    split at h
    · simp at h
    · split at h
      · simp only [Option.map_eq_some', Iter.next.injEq] at h
        obtain ⟨a, ha, rfl⟩ := h
        exact Or.inl ha
      · simp only [Option.map_eq_some', Iter.next.injEq] at h
        obtain ⟨a, ha, rfl⟩ := h
        exact Or.inr ha

theorem compute_shortest_path_inv (P : inc_bi → Prop)
    (hS : ∀ s s1, P s → expand_start s = some s1 → P s1)
    (hG : ∀ s s1, P s → expand_goal s = some s1 → P s1) :
    ∀ (fuel : Nat) (s : inc_bi) (r : Nat × Bool) (s1 : inc_bi), P s →
      compute_shortest_path fuel s = Run.done (r, s1) → P s1 := by
  intro fuel
  induction fuel with
  | zero =>
    intro s r s1 _ h
    simp [compute_shortest_path] at h
  | succ n ih =>
    intro s r s1 hP h
    unfold compute_shortest_path at h
    split at h
    · simp at h
    · simp only [Run.done.injEq, Prod.mk.injEq] at h
      exact h.2 ▸ hP
    · next s2 hi =>
      rcases iteration_next hi with h2 | h2
      · exact ih s2 r s1 (hS s s2 hP h2) h
      · exact ih s2 r s1 (hG s s2 hP h2) h

theorem compute_shortest_path_done {fuel : Nat} {s s1 : inc_bi} {r : Nat × Bool}
    (h : compute_shortest_path fuel s = Run.done (r, s1)) :
    iteration s1 = some (Iter.ret r) := by
  induction fuel generalizing s with
  | zero => simp [compute_shortest_path] at h
  | succ n ih =>
    unfold compute_shortest_path at h
    split at h
    · simp at h
    · next r2 hi =>
      simp only [Run.done.injEq, Prod.mk.injEq] at h
      rw [← h.1, ← h.2]
      exact hi
    · exact ih h

/-! ### Invariants of the reachable states -/

theorem startFrame_goalInv {s s1 : inc_bi} (h : StartFrame s s1) (v : Nat)
    (hv : GoalInv s v) : GoalInv s1 v := by
  unfold GoalInv at hv ⊢
  rw [h.goal_queue, h.goal_distance, h.goal_distance_lookahead]
  exact hv

theorem goalFrame_startInv {s s1 : inc_bi} (h : GoalFrame s s1) (v : Nat)
    (hv : StartInv s v) : StartInv s1 v := by
  unfold StartInv at hv ⊢
  rw [h.start_queue, h.start_distance, h.start_distance_lookahead]
  exact hv

theorem connOnly_startInv {s s1 : inc_bi} (h : ConnOnly s s1) (v : Nat)
    (hv : StartInv s v) : StartInv s1 v := by
  obtain ⟨q, rfl⟩ := h
  exact hv

theorem connOnly_goalInv {s s1 : inc_bi} (h : ConnOnly s s1) (v : Nat)
    (hv : GoalInv s v) : GoalInv s1 v := by
  obtain ⟨q, rfl⟩ := h
  exact hv

theorem connOnly_g {s s1 : inc_bi} (h : ConnOnly s s1) : s1.g = s.g := by
  obtain ⟨q, rfl⟩ := h
  rfl

theorem compute_shortest_path_g {fuel : Nat} {s s1 : inc_bi} {r : Nat × Bool}
    (h : compute_shortest_path fuel s = Run.done (r, s1)) : s1.g = s.g :=
  compute_shortest_path_inv (fun t => t.g = s.g)
    (fun _ _ hP ht => (expand_start_frame ht).1.g.trans hP)
    (fun _ _ hP ht => (expand_goal_frame ht).1.g.trans hP) fuel s r s1 rfl h

theorem compute_shortest_path_margin {fuel : Nat} {s s1 : inc_bi} {r : Nat × Bool}
    (h : compute_shortest_path fuel s = Run.done (r, s1)) : s1.goal_margin = s.goal_margin :=
  compute_shortest_path_inv (fun t => t.goal_margin = s.goal_margin)
    (fun _ _ hP ht => (expand_start_frame ht).1.goal_margin.trans hP)
    (fun _ _ hP ht => (expand_goal_frame ht).1.goal_margin.trans hP) fuel s r s1 rfl h

theorem reachable_open_queue {s : inc_bi} (hs : Reachable s) :
    ∀ v, v < s.g.nv → StartInv s v ∧ GoalInv s v := by
  induction hs with
  | construct g v_start v_goal sp sd sl gp gd gl w m t1 t2 t3 s h =>
    obtain ⟨hg, -, -, -, -, -, -, h1, h2, h3, h4, hq1, hq2, -⟩ := construct_spec h
    intro v hv
    rw [hg] at hv
    unfold StartInv GoalInv
    rw [hq1, hq2, h1, h2, h3, h4]
    simp only [hv, if_true, HeapIndexed.contains, List.any_cons, List.any_nil, Bool.or_false,
      beq_iff_eq]
    constructor
    · by_cases hvs : v = v_start
      · simp [hvs, Weight.zero]
      · simp [hvs, Ne.symm hvs]
    · by_cases hvs : v = v_goal
      · simp [hvs, Weight.zero]
      · simp [hvs, Ne.symm hvs]
  | set_weight s w _ ih => exact ih
  | update_edge s s1 e _ h ih =>
    have hc := update_edge_connOnly h
    intro v hv
    rw [connOnly_g hc] at hv
    exact ⟨connOnly_startInv hc v (ih v hv).1, connOnly_goalInv hc v (ih v hv).2⟩
  | start_update_vertex s s1 u _ h ih =>
    have hf := (start_update_vertex_frame h).1
    intro v hv
    rw [hf.g] at hv
    exact ⟨hf.inv v (ih v hv).1, startFrame_goalInv hf v (ih v hv).2⟩
  | goal_update_vertex s s1 u _ h ih =>
    have hf := (goal_update_vertex_frame h).1
    intro v hv
    rw [hf.g] at hv
    exact ⟨goalFrame_startInv hf v (ih v hv).1, hf.inv v (ih v hv).2⟩
  | compute_shortest_path s s1 fuel r _ h ih =>
    intro v hv
    rw [compute_shortest_path_g h] at hv
    exact compute_shortest_path_inv (fun t => StartInv t v ∧ GoalInv t v)
      (fun _ _ hP ht =>
        ⟨(expand_start_frame ht).1.inv v hP.1,
          startFrame_goalInv (expand_start_frame ht).1 v hP.2⟩)
      (fun _ _ hP ht =>
        ⟨goalFrame_startInv (expand_goal_frame ht).1 v hP.1,
          (expand_goal_frame ht).1.inv v hP.2⟩)
      fuel s r s1 (ih v hv) h

end inc_bi

/-- Claim C3: after the constructor and after every call of `update_edge`,
`start_update_vertex`, `goal_update_vertex` or `compute_shortest_path`, a vertex is in
the start queue exactly when its start distance differs from its start lookahead, and
in the goal queue exactly when its goal distance differs from its goal lookahead. -/
theorem C3_open_queue_iff_inconsistent (s : inc_bi) (hs : inc_bi.Reachable s) (v : Nat)
    (hv : v < s.g.nv) :
    (s.start_queue.contains v = true ↔
        s.start_distance v ≠ s.start_distance_lookahead v) ∧
      (s.goal_queue.contains v = true ↔
        s.goal_distance v ≠ s.goal_distance_lookahead v) :=
  inc_bi.reachable_open_queue hs v hv

/-- The invariant of claim C3 at the vertex B of the cycle, in the state left behind by
`compute_shortest_path` on a freshly constructed engine. -/
theorem C3_open_queue_iff_inconsistent_witness :
    ∃ s r s1, inc_bi.fresh cycle4 0 2 cycle4_weight Weight.zero = some s ∧
      inc_bi.compute_shortest_path 10 s = Run.done (r, s1) ∧ 1 < s1.g.nv ∧
      (s1.start_queue.contains 1 = true ↔
        s1.start_distance 1 ≠ s1.start_distance_lookahead 1) ∧
      (s1.goal_queue.contains 1 = true ↔
        s1.goal_distance 1 ≠ s1.goal_distance_lookahead 1) := by
  obtain ⟨s, hs⟩ := inc_bi.construct_isSome cycle4 0 2 (fun _ => 0) (fun _ => Weight.zero)
    (fun _ => Weight.zero) (fun _ => 0) (fun _ => Weight.zero) (fun _ => Weight.zero)
    cycle4_weight Weight.zero (fun _ => 0) (fun _ => 0) (fun _ => 0)
  have hd : ((inc_bi.fresh cycle4 0 2 cycle4_weight Weight.zero).bind
      (fun s => (inc_bi.compute_shortest_path 10 s).result)).isSome = true := by decide
  have hs2 : inc_bi.fresh cycle4 0 2 cycle4_weight Weight.zero = some s := hs
  rw [hs2, Option.some_bind] at hd
  cases hc : inc_bi.compute_shortest_path 10 s with
  | fault => simp [hc, Run.result] at hd
  | out_of_fuel => simp [hc, Run.result] at hd
  | done a =>
    obtain ⟨r, s1⟩ := a
    have hr : inc_bi.Reachable s1 :=
      inc_bi.Reachable.compute_shortest_path s s1 10 r
        (inc_bi.Reachable.construct _ _ _ _ _ _ _ _ _ _ _ _ _ _ s hs) hc
    have hg : s1.g = cycle4 :=
      (inc_bi.compute_shortest_path_g hc).trans (inc_bi.construct_spec hs).1
    have hv : 1 < s1.g.nv := by
      rw [hg]
      decide
    exact ⟨s, r, s1, hs2, hc, hv, C3_open_queue_iff_inconsistent s1 hr 1 hv⟩

namespace inc_bi

theorem reachable_source_lookahead {s : inc_bi} (hs : Reachable s) :
    s.start_distance_lookahead s.v_start = Weight.zero ∧
      s.goal_distance_lookahead s.v_goal = Weight.zero := by
  induction hs with
  | construct g v_start v_goal sp sd sl gp gd gl w m t1 t2 t3 s h =>
    obtain ⟨-, hvs, hvg, -, -, -, -, -, h2, -, h4, -⟩ := construct_spec h
    rw [hvs, hvg, h2, h4]
    simp
  | set_weight s w _ ih => exact ih
  | update_edge s s1 e _ h ih =>
    obtain ⟨q, rfl⟩ := update_edge_connOnly h
    exact ih
  | start_update_vertex s s1 u _ h ih =>
    have hf := (start_update_vertex_frame h).1
    rw [hf.v_start, hf.v_goal, hf.lookahead_start, hf.goal_distance_lookahead]
    exact ih
  | goal_update_vertex s s1 u _ h ih =>
    have hf := (goal_update_vertex_frame h).1
    rw [hf.v_start, hf.v_goal, hf.lookahead_goal, hf.start_distance_lookahead]
    exact ih
  | compute_shortest_path s s1 fuel r _ h ih =>
    refine compute_shortest_path_inv (fun t => t.start_distance_lookahead t.v_start =
        Weight.zero ∧ t.goal_distance_lookahead t.v_goal = Weight.zero) ?_ ?_ fuel s r s1 ih h
    · intro a b hP hab
      have hf := (expand_start_frame hab).1
      rw [hf.v_start, hf.v_goal, hf.lookahead_start, hf.goal_distance_lookahead]
      exact hP
    · intro a b hP hab
      have hf := (expand_goal_frame hab).1
      rw [hf.v_start, hf.v_goal, hf.lookahead_goal, hf.start_distance_lookahead]
      exact hP

end inc_bi

/-- Claim C5: in every state reachable from construction through `update_edge`,
`start_update_vertex`, `goal_update_vertex` and `compute_shortest_path`, at any vertex
and with any weight changes in between, the start lookahead of the start vertex and the
goal lookahead of the goal vertex are zero. -/
theorem C5_source_lookahead_zero (s : inc_bi) (hs : inc_bi.Reachable s) :
    s.start_distance_lookahead s.v_start = Weight.zero ∧
      s.goal_distance_lookahead s.v_goal = Weight.zero :=
  inc_bi.reachable_source_lookahead hs

/-- The statement of claim C5 in the state reached on the cycle by
`compute_shortest_path` followed by `start_update_vertex` and `goal_update_vertex` on the
start vertex and on the goal vertex themselves. -/
theorem C5_source_lookahead_zero_witness :
    ∃ s, (((inc_bi.fresh cycle4 0 2 cycle4_weight Weight.zero).bind
        (fun s0 => (inc_bi.compute_shortest_path 10 s0).result)).bind
        (fun x => (inc_bi.start_update_vertex x.2 0).bind
          (fun s1 => inc_bi.goal_update_vertex s1 2))) = some s ∧
      s.start_distance_lookahead s.v_start = Weight.zero ∧
      s.goal_distance_lookahead s.v_goal = Weight.zero := by
  have hd : (((inc_bi.fresh cycle4 0 2 cycle4_weight Weight.zero).bind
        (fun s0 => (inc_bi.compute_shortest_path 10 s0).result)).bind
        (fun x => (inc_bi.start_update_vertex x.2 0).bind
          (fun s1 => inc_bi.goal_update_vertex s1 2))).isSome = true := by decide
  obtain ⟨s, hs⟩ := Option.isSome_iff_exists.mp hd
  refine ⟨s, hs, C5_source_lookahead_zero s ?_⟩
  simp only [Option.bind_eq_some] at hs
  obtain ⟨⟨r, s2⟩, ⟨s0, h0, hc⟩, s1, h1, h2⟩ := hs
  have hc2 : inc_bi.compute_shortest_path 10 s0 = Run.done (r, s2) := by
    cases hrun : inc_bi.compute_shortest_path 10 s0 with
    | done a =>
      rw [hrun] at hc
      simp only [Run.result, Option.some.injEq] at hc
      rw [hc]
    | fault => simp [hrun, Run.result] at hc
    | out_of_fuel => simp [hrun, Run.result] at hc
  exact inc_bi.Reachable.goal_update_vertex s1 s 2
    (inc_bi.Reachable.start_update_vertex s2 s1 0
      (inc_bi.Reachable.compute_shortest_path s0 s2 10 r
        (inc_bi.Reachable.construct _ _ _ _ _ _ _ _ _ _ _ _ _ _ s0 h0) hc2) h1) h2

namespace inc_bi
theorem reachable_source_distance {s : inc_bi} (hs : Reachable s) :
    (s.v_start < s.g.nv →
        s.start_distance s.v_start = Weight.inf ∨ s.start_distance s.v_start = Weight.zero) ∧
      (s.v_goal < s.g.nv →
        s.goal_distance s.v_goal = Weight.inf ∨ s.goal_distance s.v_goal = Weight.zero) := by
  induction hs with
  | construct g v_start v_goal sp sd sl gp gd gl w m t1 t2 t3 s h =>
    obtain ⟨hg, hvs, hvg, -, -, -, -, h1, -, h3, -⟩ := construct_spec h
    rw [hg, hvs, hvg, h1, h3]
    exact ⟨fun h => Or.inl (by simp [h]), fun h => Or.inl (by simp [h])⟩
  | set_weight s w _ ih => exact ih
  | update_edge s s1 e _ h ih =>
    obtain ⟨q, rfl⟩ := update_edge_connOnly h
    exact ih
  | start_update_vertex s s1 u _ h ih =>
    obtain ⟨hf, hd, -⟩ := start_update_vertex_frame h
    rw [hf.v_start, hf.v_goal, hf.g, hd, hf.goal_distance]
    exact ih
  | goal_update_vertex s s1 u _ h ih =>
    obtain ⟨hf, hd, -⟩ := goal_update_vertex_frame h
    rw [hf.v_start, hf.v_goal, hf.g, hd, hf.start_distance]
    exact ih
  | compute_shortest_path s s1 fuel r hs h ih =>
    have hl := reachable_source_lookahead hs
    have key := compute_shortest_path_inv (fun t =>
        (t.start_distance_lookahead t.v_start = Weight.zero ∧
          t.goal_distance_lookahead t.v_goal = Weight.zero) ∧
        (t.v_start < t.g.nv → t.start_distance t.v_start = Weight.inf ∨
          t.start_distance t.v_start = Weight.zero) ∧
        (t.v_goal < t.g.nv → t.goal_distance t.v_goal = Weight.inf ∨
          t.goal_distance t.v_goal = Weight.zero)) ?_ ?_ fuel s r s1 ⟨hl, ih⟩ h
    · exact key.2
    · intro a b hP hab
      obtain ⟨hf, hd⟩ := expand_start_frame hab
      rw [hf.v_start, hf.v_goal, hf.g, hf.lookahead_start, hf.goal_distance_lookahead,
        hf.goal_distance]
      refine ⟨hP.1, fun hv => ?_, hP.2.2⟩
      rcases hd a.v_start with h1 | h1 | h1
      · rw [h1]
        exact hP.2.1 hv
      · rw [h1, hP.1.1]
        exact Or.inr rfl
      · exact Or.inl h1
    · intro a b hP hab
      obtain ⟨hf, hd⟩ := expand_goal_frame hab
      rw [hf.v_start, hf.v_goal, hf.g, hf.lookahead_goal, hf.start_distance_lookahead,
        hf.start_distance]
      refine ⟨hP.1, hP.2.1, fun hv => ?_⟩
      rcases hd a.v_goal with h1 | h1 | h1
      · rw [h1]
        exact hP.2.2 hv
      · rw [h1, hP.1.2]
        exact Or.inr rfl
      · exact Or.inl h1

end inc_bi

/-! ## Frame lemmas of `lifelong_planning_astar` -/

namespace lifelong_planning_astar

theorem lpa_foldl_construct_vertex (l : List Nat) (s : lifelong_planning_astar) :
    ∃ d dl, l.foldl construct_vertex s =
        { s with distance := d, distance_lookahead := dl } ∧
      (∀ v, d v = if v ∈ l then s.inf else s.distance v) ∧
      (∀ v, dl v = if v ∈ l then s.inf else s.distance_lookahead v) := by
  induction l generalizing s with
  | nil => exact ⟨_, _, rfl, by simp, by simp⟩
  | cons a l ih =>
    obtain ⟨d, dl, he, h1, h2⟩ := ih (construct_vertex s a)
    refine ⟨d, dl, ?_, ?_, ?_⟩
    · rw [List.foldl_cons, he]
      rfl
    all_goals
      intro v
      first | rw [h1 v] | rw [h2 v]
      by_cases hv : v ∈ l
      · simp [hv, construct_vertex]
      · by_cases hva : v = a
        · subst hva
          simp [construct_vertex]
        · simp [hv, hva, construct_vertex, Function.update_noteq hva]

theorem lpa_construct_spec {g : Graph} {v_start v_goal : Nat} {h p : Nat → Nat}
    {d l : Nat → Nat} {w : Arc → Nat} {c : Nat → Nat → Nat} {inf zero : Nat}
    {t : Nat → Nat} {s : lifelong_planning_astar}
    (hc : construct g v_start v_goal h p d l w c inf zero t = some s) :
    s.g = g ∧ s.v_start = v_start ∧ s.v_goal = v_goal ∧ s.h = h ∧ s.weight = w ∧
      s.combine = c ∧ s.inf = inf ∧ s.zero = zero ∧
      s.predecessor = Function.update p v_start v_start ∧
      (∀ v, s.distance v = if v < g.nv then inf else d v) ∧
      (∀ v, s.distance_lookahead v =
        if v = v_start then zero else if v < g.nv then inf else l v) ∧
      s.queue = ⟨[(v_start, (h v_start % UINT, 0))], 1, t⟩ := by
  unfold construct at hc
  dsimp only at hc
  generalize hs0 : (lifelong_planning_astar.mk g v_start v_goal h p d l w c inf zero
    (HeapIndexed.empty t)) = s0 at hc
  obtain ⟨fd, fl, he, h1, h2⟩ := lpa_foldl_construct_vertex (vertices g) s0
  rw [he] at hc
  subst hs0
  simp only [HeapIndexed.insert, HeapIndexed.contains, HeapIndexed.empty, List.any_nil,
    Bool.false_eq_true, if_false, Option.map_some', Option.some.injEq, List.nil_append,
    Nat.zero_add] at hc
  subst hc
  simp only [vertices, List.mem_range] at h1 h2
  refine ⟨rfl, rfl, rfl, rfl, rfl, rfl, rfl, rfl, rfl, h1, ?_, rfl⟩
  intro v
  by_cases hv : v = v_start
  · subst hv
    simp
  · simp only [Function.update_noteq hv, hv, if_false]
    exact h2 v

theorem lpa_construct_isSome (g : Graph) (v_start v_goal : Nat) (h p : Nat → Nat)
    (d l : Nat → Nat) (w : Arc → Nat) (c : Nat → Nat → Nat) (inf zero : Nat)
    (t : Nat → Nat) :
    ∃ s, construct g v_start v_goal h p d l w c inf zero t = some s := by
  unfold construct
  dsimp only
  generalize hs0 : (lifelong_planning_astar.mk g v_start v_goal h p d l w c inf zero
    (HeapIndexed.empty t)) = s0
  obtain ⟨fd, fl, he, -⟩ := lpa_foldl_construct_vertex (vertices g) s0
  rw [he]
  subst hs0
  simp [HeapIndexed.insert, HeapIndexed.contains, HeapIndexed.empty]

theorem lpa_update_vertex_frame {s s1 : lifelong_planning_astar} {u : Nat}
    (h : update_vertex s u = some s1) :
    s1.g = s.g ∧ s1.v_start = s.v_start ∧ s1.inf = s.inf ∧ s1.zero = s.zero ∧
      s1.distance = s.distance ∧
      s1.distance_lookahead s.v_start = s.distance_lookahead s.v_start := by
  unfold update_vertex at h
  simp only [Option.bind_eq_some, Option.map_eq_some'] at h
  obtain ⟨q1, -, q2, -, rfl⟩ := h
  by_cases hu : u = s.v_start
  · simp [hu]
  · simp [hu, Function.update_noteq (Ne.symm hu)]

theorem lpa_foldlM_update_vertex {l : List Arc} {s s1 : lifelong_planning_astar}
    (h : l.foldlM (fun st e => update_vertex st e.tgt) s = some s1) :
    s1.g = s.g ∧ s1.v_start = s.v_start ∧ s1.inf = s.inf ∧ s1.zero = s.zero ∧
      s1.distance = s.distance ∧
      s1.distance_lookahead s.v_start = s.distance_lookahead s.v_start :=
  foldlM_rel (fun a b => b.g = a.g ∧ b.v_start = a.v_start ∧ b.inf = a.inf ∧
      b.zero = a.zero ∧ b.distance = a.distance ∧
      b.distance_lookahead a.v_start = a.distance_lookahead a.v_start)
    (fun a => ⟨rfl, rfl, rfl, rfl, rfl, rfl⟩)
    (by
      intro a b c h1 h2
      obtain ⟨a1, a2, a3, a4, a5, a6⟩ := h1
      obtain ⟨b1, b2, b3, b4, b5, b6⟩ := h2
      rw [a2] at b6
      exact ⟨b1.trans a1, b2.trans a2, b3.trans a3, b4.trans a4, b5.trans a5, b6.trans a6⟩)
    _ (fun _ _ _ h => lpa_update_vertex_frame h) l s s1 h

theorem lpa_expand_frame {s s1 : lifelong_planning_astar} (h : expand s = some s1) :
    s1.g = s.g ∧ s1.v_start = s.v_start ∧ s1.inf = s.inf ∧ s1.zero = s.zero ∧
      s1.distance_lookahead s.v_start = s.distance_lookahead s.v_start ∧
      ∀ v, s1.distance v = s.distance v ∨ s1.distance v = s.distance_lookahead v ∨
        s1.distance v = s.inf := by
  unfold expand at h
  simp only [Option.bind_eq_some] at h
  obtain ⟨u, -, q, -, h⟩ := h
  split at h
  · obtain ⟨h1, h2, h3, h4, h5, h6⟩ := lpa_foldlM_update_vertex h
    refine ⟨h1, h2, h3, h4, h6, fun v => ?_⟩
    rw [h5]
    by_cases hvu : v = u
    · subst hvu
      right; left
      simp
    · left
      simp only [Function.update_noteq hvu]
  · simp only [Option.bind_eq_some] at h
    obtain ⟨s3, hs3, h⟩ := h
    obtain ⟨a1, a2, a3, a4, a5, a6⟩ := lpa_update_vertex_frame hs3
    obtain ⟨h1, h2, h3, h4, h5, h6⟩ := lpa_foldlM_update_vertex h
    refine ⟨h1.trans a1, h2.trans a2, h3.trans a3, h4.trans a4, ?_, fun v => ?_⟩
    · have := h6
      rw [a2] at this
      exact this.trans a6
    · rw [h5, a5]
      by_cases hvu : v = u
      · subst hvu
        right; right
        simp
      · left
        simp only [Function.update_noteq hvu]

theorem lpa_compute_shortest_path_inv (P : lifelong_planning_astar → Prop)
    (hE : ∀ s s1, P s → expand s = some s1 → P s1) :
    ∀ (fuel : Nat) (s s1 : lifelong_planning_astar), P s →
      compute_shortest_path fuel s = Run.done s1 → P s1 := by
  intro fuel
  induction fuel with
  | zero =>
    intro s s1 _ h
    simp [compute_shortest_path] at h
  | succ n ih =>
    intro s s1 hP h
    unfold compute_shortest_path at h
    split at h
    · simp at h
    · split at h
      · split at h
        · simp at h
        · next s2 he => exact ih s2 s1 (hE s s2 hP he) h
      · simp only [Run.done.injEq] at h
        exact h ▸ hP

theorem lpa_reachable_source {s : lifelong_planning_astar} (hs : Reachable s) :
    s.distance_lookahead s.v_start = s.zero ∧
      (s.v_start < s.g.nv →
        s.distance s.v_start = s.inf ∨ s.distance s.v_start = s.zero) := by
  induction hs with
  | construct g v_start v_goal h p d l w c inf zero t s hc =>
    obtain ⟨hg, hvs, -, -, -, -, hinf, hzero, -, h1, h2, -⟩ := lpa_construct_spec hc
    rw [hg, hvs, hinf, hzero, h1, h2]
    exact ⟨by simp, fun h => Or.inl (by simp [h])⟩
  | set_weight s w _ ih => exact ih
  | update_vertex s s1 u _ hu ih =>
    obtain ⟨h1, h2, h3, h4, h5, h6⟩ := lpa_update_vertex_frame hu
    rw [h1, h2, h3, h4, h5, h6]
    exact ih
  | compute_shortest_path s s1 fuel _ hc ih =>
    refine lpa_compute_shortest_path_inv (fun t =>
      t.distance_lookahead t.v_start = t.zero ∧
      (t.v_start < t.g.nv → t.distance t.v_start = t.inf ∨ t.distance t.v_start = t.zero))
      ?_ fuel s s1 ih hc
    intro a b hP hab
    obtain ⟨h1, h2, h3, h4, h5, h6⟩ := lpa_expand_frame hab
    rw [h1, h2, h3, h4, h5]
    refine ⟨hP.1, fun hv => ?_⟩
    rcases h6 a.v_start with h7 | h7 | h7
    · rw [h7]
      exact hP.2 hv
    · rw [h7, hP.1]
      exact Or.inr rfl
    · exact Or.inl h7

end lifelong_planning_astar

/-- Claim C4 as stated fails: immediately after construction the start distance of the
start vertex and the goal distance of the goal vertex are `inf`, not zero, and so is the
distance of the start vertex in `lifelong_planning_astar`. -/
theorem C4_counterexample :
    (inc_bi.fresh cycle4 0 2 cycle4_weight Weight.zero).map
        (fun s => (s.start_distance s.v_start, s.goal_distance s.v_goal))
        = some (Weight.inf, Weight.inf) ∧
      Weight.inf ≠ Weight.zero ∧
      (lifelong_planning_astar.fresh cycle4 0 2 cycle4_weight_uint).map
        (fun t => (t.distance t.v_start, t.inf, t.zero)) = some (4294967295, 4294967295, 0) := by
  decide

/-- Claim C4 as amended: in every reachable state the distance of each frontier's source
is either `inf` or zero, for the start and the goal frontier of `inc_bi` and for
`lifelong_planning_astar`, the start and the goal being vertices of the graph. -/
theorem C4_source_distance_inf_or_zero (s : inc_bi) (t : lifelong_planning_astar)
    (hs : inc_bi.Reachable s) (ht : lifelong_planning_astar.Reachable t)
    (h1 : s.v_start < s.g.nv) (h2 : s.v_goal < s.g.nv) (h3 : t.v_start < t.g.nv) :
    (s.start_distance s.v_start = Weight.inf ∨ s.start_distance s.v_start = Weight.zero) ∧
      (s.goal_distance s.v_goal = Weight.inf ∨ s.goal_distance s.v_goal = Weight.zero) ∧
      (t.distance t.v_start = t.inf ∨ t.distance t.v_start = t.zero) :=
  ⟨(inc_bi.reachable_source_distance hs).1 h1, (inc_bi.reachable_source_distance hs).2 h2,
    (lifelong_planning_astar.lpa_reachable_source ht).2 h3⟩

set_option maxRecDepth 100000 in
/-- The amended claim C4 on the cycle: for `inc_bi` in the state left behind by
`compute_shortest_path`, for `lifelong_planning_astar` after its own
`compute_shortest_path`. -/
theorem C4_source_distance_inf_or_zero_witness :
    ∃ s t, (inc_bi.fresh cycle4 0 2 cycle4_weight Weight.zero).bind
        (fun s0 => (inc_bi.compute_shortest_path 10 s0).result) = some s ∧
      (lifelong_planning_astar.fresh cycle4 0 2 cycle4_weight_uint).bind
        (fun t0 => (lifelong_planning_astar.compute_shortest_path 10 t0).result) = some t ∧
      (s.2.start_distance s.2.v_start = Weight.inf ∨
        s.2.start_distance s.2.v_start = Weight.zero) ∧
      (s.2.goal_distance s.2.v_goal = Weight.inf ∨
        s.2.goal_distance s.2.v_goal = Weight.zero) ∧
      (t.distance t.v_start = t.inf ∨ t.distance t.v_start = t.zero) := by
  have hd : ((inc_bi.fresh cycle4 0 2 cycle4_weight Weight.zero).bind
      (fun s0 => (inc_bi.compute_shortest_path 10 s0).result)).map
      (fun s => decide (s.2.v_start < s.2.g.nv ∧ s.2.v_goal < s.2.g.nv)) = some true := by
    decide
  have hd2 : ((lifelong_planning_astar.fresh cycle4 0 2 cycle4_weight_uint).bind
      (fun t0 => (lifelong_planning_astar.compute_shortest_path 10 t0).result)).map
      (fun t => decide (t.v_start < t.g.nv)) = some true := by decide
  simp only [Option.map_eq_some', decide_eq_true_eq] at hd hd2
  obtain ⟨⟨r, s⟩, hs, hv1, hv2⟩ := hd
  obtain ⟨t, ht, hv3⟩ := hd2
  refine ⟨(r, s), t, hs, ht, ?_⟩
  simp only [Option.bind_eq_some] at hs ht
  obtain ⟨s0, hs0, hc⟩ := hs
  obtain ⟨t0, ht0, hc2⟩ := ht
  exact C4_source_distance_inf_or_zero s t
    (inc_bi.Reachable.compute_shortest_path s0 s 10 r
      (inc_bi.Reachable.construct _ _ _ _ _ _ _ _ _ _ _ _ _ _ s0 hs0) (run_result_eq_some hc))
    (lifelong_planning_astar.Reachable.compute_shortest_path t0 t 10
      (lifelong_planning_astar.Reachable.construct _ _ _ _ _ _ _ _ _ _ _ _ t0 ht0)
      (run_result_eq_some hc2))
    hv1 hv2 hv3

namespace inc_bi

/-! ### The return of `compute_shortest_path` -/

theorem compute_shortest_path_of_ret {s : inc_bi} {r : Nat × Bool}
    (h : iteration s = some (Iter.ret r)) (fuel : Nat) :
    compute_shortest_path (fuel + 1) s = Run.done (r, s) := by
  unfold compute_shortest_path
  rw [h]

theorem top_minimal {K : Type} {lt : K → K → Bool} {h : HeapIndexed K} {e : Nat × K}
    (ht : HeapIndexed.top lt h = some e) : ∀ e1 ∈ h.entries, lt e1.2 e.2 = false := by
  unfold HeapIndexed.top at ht
  have hm : e ∈ HeapIndexed.minimal lt h := List.getElem?_mem ht
  have := (List.mem_filter.mp hm).2
  simp only [List.all_eq_true, Bool.not_eq_true'] at this
  exact this

theorem termination_test_found {s : inc_bi} {st gt : Weight} {i : Nat}
    (h : termination_test s st gt = some (some i)) :
    s.conn_queue.size ≠ 0 ∧ ∃ k, HeapIndexed.top conn_key.lt s.conn_queue = some (i, k) ∧
      Weight.le (Weight.combine k.path_length s.goal_margin) (Weight.combine st gt) = true ∧
      Weight.le (Weight.combine k.start_dist s.goal_margin) st = true ∧
      Weight.le (Weight.combine k.goal_dist s.goal_margin) gt = true := by
  unfold termination_test at h
  split at h
  · simp at h
  · next hsz =>
    simp only [Option.bind_eq_some] at h
    obtain ⟨k, hk, h⟩ := h
    simp only [HeapIndexed.top_key, Option.map_eq_some'] at hk
    obtain ⟨⟨j, k1⟩, htop, hk1⟩ := hk
    simp only at hk1
    subst hk1
    split at h
    · simp at h
    · next h1 =>
      split at h
      · simp at h
      · next h2 =>
        split at h
        · simp at h
        · next h3 =>
          simp only [HeapIndexed.top_idx, htop, Option.map_some', Option.some.injEq] at h
          subst h
          refine ⟨hsz, k1, htop, ?_, ?_, ?_⟩
          · simpa [Weight.le, Weight.gt] using h1
          · simpa [Weight.le, Weight.gt] using h2
          · simpa [Weight.le, Weight.gt] using h3

theorem iteration_found_iff (s : inc_bi) (i : Nat) :
    iteration s = some (Iter.ret (i, true)) ↔ found_condition s i := by
  unfold found_condition
  constructor
  · intro h
    unfold iteration at h
    simp only [Option.bind_eq_some] at h
    obtain ⟨st, hst, gt, hgt, h⟩ := h
    split at h
    · simp at h
    · next hinf =>
      simp only [Option.bind_eq_some] at h
      obtain ⟨t, ht, h⟩ := h
      cases t with
      | none =>
        exfalso
        simp only at h
        split at h <;> simp at h
      | some j =>
        simp only [Option.some.injEq, Iter.ret.injEq, Prod.mk.injEq, and_true] at h
        subst h
        obtain ⟨hsz, k, htop, h1, h2, h3⟩ := termination_test_found ht
        exact ⟨hsz, k, st, gt, htop, top_minimal htop, hst, hgt, hinf, h1, h2, h3⟩
  · rintro ⟨hsz, k, st, gt, htop, -, hst, hgt, hinf, h1, h2, h3⟩
    simp only [Weight.le, Bool.not_eq_true'] at h1 h2 h3
    unfold iteration termination_test
    simp only [hst, hgt, Option.some_bind, hinf, if_false, hsz, HeapIndexed.top_key, htop,
      Option.map_some', Weight.gt, h1, h2, h3, Bool.false_eq_true, HeapIndexed.top_idx]

end inc_bi

/-- Claim C6: `compute_shortest_path` is idempotent. When a call returns `r` and leaves
the state `s`, a second call made in `s` returns the same `r` and leaves `s` as it is: no
queue and no map is changed. -/
theorem C6_compute_shortest_path_idempotent (fuel : Nat) (s0 s : inc_bi) (r : Nat × Bool)
    (h : inc_bi.compute_shortest_path fuel s0 = Run.done (r, s)) (fuel2 : Nat) :
    inc_bi.compute_shortest_path (fuel2 + 1) s = Run.done (r, s) :=
  inc_bi.compute_shortest_path_of_ret (inc_bi.compute_shortest_path_done h) fuel2

/-- Claim C6 on the cycle: the second call of `compute_shortest_path` returns what the
first call returned and leaves the state of the first call. -/
theorem C6_compute_shortest_path_idempotent_witness :
    ∃ r s, (inc_bi.fresh cycle4 0 2 cycle4_weight Weight.zero).bind
        (fun s0 => (inc_bi.compute_shortest_path 10 s0).result) = some (r, s) ∧
      inc_bi.compute_shortest_path 1 s = Run.done (r, s) := by
  have hd : ((inc_bi.fresh cycle4 0 2 cycle4_weight Weight.zero).bind
      (fun s0 => (inc_bi.compute_shortest_path 10 s0).result)).isSome = true := by decide
  obtain ⟨⟨r, s⟩, hs⟩ := Option.isSome_iff_exists.mp hd
  refine ⟨r, s, hs, ?_⟩
  simp only [Option.bind_eq_some] at hs
  obtain ⟨s0, -, hc⟩ := hs
  exact C6_compute_shortest_path_idempotent 10 s0 s r (run_result_eq_some hc) 0

/-- Claim C9: `compute_shortest_path` returns `(i, true)` only from a state in which the
connection queue is non-empty, `i` is the index of its minimum entry and the three
comparisons of the termination test hold with the top keys of the two open queues, not
both `inf`; and an iteration that starts in such a state returns `(i, true)` and leaves
the state as it is. -/
theorem C9_found_iff_termination_test (s : inc_bi) (i : Nat) :
    (∀ fuel s0, inc_bi.compute_shortest_path fuel s0 = Run.done ((i, true), s) →
        inc_bi.found_condition s i) ∧
      (inc_bi.found_condition s i →
        inc_bi.iteration s = some (inc_bi.Iter.ret (i, true)) ∧
        ∀ fuel, inc_bi.compute_shortest_path (fuel + 1) s = Run.done ((i, true), s)) :=
  ⟨fun _ _ h => (inc_bi.iteration_found_iff s i).mp (inc_bi.compute_shortest_path_done h),
    fun h => ⟨(inc_bi.iteration_found_iff s i).mpr h,
      inc_bi.compute_shortest_path_of_ret ((inc_bi.iteration_found_iff s i).mpr h)⟩⟩

namespace HeapIndexed

variable {K : Type}

theorem find_none_of_not_contains {h : HeapIndexed K} {i : Nat}
    (hc : h.contains i = false) : h.entries.find? (fun e => e.1 == i) = none := by
  rw [List.find?_eq_none]
  intro e he
  have := (contains_iff h i).not.mp (by simp [hc])
  simp only [beq_iff_eq]
  intro hei
  exact this ⟨e.2, by rw [← hei]; exact he⟩

theorem key_of_insert {h h1 : HeapIndexed K} {i : Nat} {k : K}
    (hi : h.insert i k = some h1) (j : Nat) :
    h1.key_of j = if j = i then some k else h.key_of j := by
  obtain ⟨hc, rfl⟩ := insert_eq_some hi
  unfold key_of
  simp only [List.find?_append]
  by_cases hj : j = i
  · subst hj
    simp [find_none_of_not_contains hc]
  · have hne : ¬ i = j := fun h => hj h.symm
    simp only [hj, if_false]
    cases hf : h.entries.find? (fun e => e.1 == j) with
    | none => simp [hne]
    | some e => simp

theorem key_of_update {h h1 : HeapIndexed K} {i : Nat} {k : K}
    (hi : h.update i k = some h1) (j : Nat) :
    h1.key_of j = if j = i then some k else h.key_of j := by
  obtain ⟨hc, rfl⟩ := update_eq_some hi
  unfold key_of
  by_cases hj : j = i
  · subst hj
    simp only [if_true]
    obtain ⟨k0, hk0⟩ := (contains_iff h j).mp hc
    clear hi hc
    generalize h.entries = l at hk0
    induction l with
    | nil => simp at hk0
    | cons e l ih =>
      by_cases he : e.1 = j
      · simp [List.find?_cons, he]
      · have hk1 : (j, k0) ∈ l := by
          rcases List.mem_cons.mp hk0 with h1 | h1
          · exact absurd (by rw [← h1]) he
          · exact h1
        have h2 : (e.1 == j) = false := by simpa using he
        simp only [List.map_cons, List.find?_cons, h2, Bool.false_eq_true, if_false]
        exact ih hk1
  · simp only [hj, if_false]
    clear hi hc
    induction h.entries with
    | nil => simp
    | cons e l ih =>
      simp only [List.map_cons, List.find?_cons]
      by_cases he : e.1 = i
      · have h1 : (e.1 == i) = true := by simpa using he
        have h2 : (e.1 == j) = false := by
          simp only [beq_eq_false_iff_ne, ne_eq, he]
          exact fun h => hj h.symm
        have h3 : (i == j) = false := by
          simp only [beq_eq_false_iff_ne, ne_eq]
          exact fun h => hj h.symm
        simp only [h1, if_true, h2, h3]
        exact ih
      · have h1 : (e.1 == i) = false := by simpa using he
        simp only [h1, Bool.false_eq_true, if_false]
        cases hej : (e.1 == j) with
        | true => rfl
        | false => exact ih

theorem key_of_remove {h h1 : HeapIndexed K} {i : Nat}
    (hi : h.remove i = some h1) (j : Nat) :
    h1.key_of j = if j = i then none else h.key_of j := by
  obtain ⟨hc, rfl⟩ := remove_eq_some hi
  unfold key_of
  clear hi hc
  induction h.entries with
  | nil => simp
  | cons e l ih =>
    by_cases he : e.1 = i
    · have h1 : (e.1 == i) = true := by simpa using he
      simp only [List.filter_cons, h1, Bool.not_true, Bool.false_eq_true, if_false,
        List.find?_cons]
      rw [ih]
      by_cases hj : j = i
      · simp [hj, he]
      · have h2 : (e.1 == j) = false := by
          simp only [beq_eq_false_iff_ne, ne_eq, he]
          exact fun h => hj h.symm
        simp [hj, h2]
    · have h1 : (e.1 == i) = false := by simpa using he
      simp only [List.filter_cons, h1, Bool.not_false, if_true, List.find?_cons]
      cases hej : (e.1 == j) with
      | true =>
        have : j ≠ i := by
          simp only [beq_iff_eq] at hej
          exact fun h => he (hej.trans h)
        simp [this]
      | false => exact ih

end HeapIndexed

namespace inc_bi

theorem edge_is_valid_iff (s : inc_bi) (e : Arc) :
    edge_is_valid s e = true ↔
      s.weight e ≠ Weight.inf ∧ s.start_queue.contains e.src = false ∧
        s.goal_queue.contains e.tgt = false ∧ s.start_distance e.src ≠ Weight.inf ∧
        s.goal_distance e.tgt ≠ Weight.inf := by
  unfold edge_is_valid
  by_cases h1 : s.weight e = Weight.inf
  · simp [h1]
  by_cases h2 : s.start_queue.contains e.src = true
  · simp [h1, h2]
  by_cases h3 : s.goal_queue.contains e.tgt = true
  · simp [h1, h2, h3]
  by_cases h4 : s.start_distance e.src = Weight.inf
  · simp [h1, h2, h3, h4]
  by_cases h5 : s.goal_distance e.tgt = Weight.inf
  · simp [h1, h2, h3, h4, h5]
  simp [h1, h2, h3, h4, h5]

theorem update_edge_spec (s : inc_bi) (e : Arc) :
    ∃ s1, update_edge s e = some s1 ∧ ConnOnly s s1 ∧
      (s1.conn_queue.contains e.idx = edge_is_valid s e) ∧
      (edge_is_valid s e = true → s1.conn_queue.key_of e.idx = some
        ⟨Weight.combine (Weight.combine (s.start_distance e.src) (s.weight e))
          (s.goal_distance e.tgt), s.start_distance e.src, s.goal_distance e.tgt⟩) ∧
      (∀ j, j ≠ e.idx → s1.conn_queue.contains j = s.conn_queue.contains j ∧
        s1.conn_queue.key_of j = s.conn_queue.key_of j) := by
  unfold update_edge
  dsimp only
  by_cases hv : edge_is_valid s e = true
  · simp only [hv, Bool.not_true, Bool.false_eq_true, if_false]
    by_cases hc : s.conn_queue.contains e.idx = true
    · simp only [hc, if_true]
      have hu : ∃ q, s.conn_queue.update e.idx
          ⟨Weight.combine (Weight.combine (s.start_distance e.src) (s.weight e))
            (s.goal_distance e.tgt), s.start_distance e.src, s.goal_distance e.tgt⟩
          = some q := by
        simp [HeapIndexed.update, hc]
      obtain ⟨q, hq⟩ := hu
      rw [hq]
      refine ⟨_, rfl, ⟨q, rfl⟩, ?_, fun _ => ?_, fun j hj => ⟨?_, ?_⟩⟩
      · simp only [HeapIndexed.contains_update hq, hc]
      · simp only [HeapIndexed.key_of_update hq, if_true]
      · simp only [HeapIndexed.contains_update hq]
      · simp only [HeapIndexed.key_of_update hq, hj, if_false]
    · simp only [hc, Bool.false_eq_true, if_false]
      have hu : ∃ q, s.conn_queue.insert e.idx
          ⟨Weight.combine (Weight.combine (s.start_distance e.src) (s.weight e))
            (s.goal_distance e.tgt), s.start_distance e.src, s.goal_distance e.tgt⟩
          = some q := by
        simp [HeapIndexed.insert, hc]
      obtain ⟨q, hq⟩ := hu
      rw [hq]
      refine ⟨_, rfl, ⟨q, rfl⟩, ?_, fun _ => ?_, fun j hj => ⟨?_, ?_⟩⟩
      · simp [HeapIndexed.contains_insert hq]
      · simp only [HeapIndexed.key_of_insert hq, if_true]
      · simp [HeapIndexed.contains_insert hq, Ne.symm hj]
      · simp only [HeapIndexed.key_of_insert hq, hj, if_false]
  · have hv2 : edge_is_valid s e = false := by simpa using hv
    simp only [hv2, Bool.not_false, if_true]
    by_cases hc : s.conn_queue.contains e.idx = true
    · simp only [hc, if_true]
      have hu : ∃ q, s.conn_queue.remove e.idx = some q := by
        simp [HeapIndexed.remove, hc]
      obtain ⟨q, hq⟩ := hu
      rw [hq]
      refine ⟨_, rfl, ⟨q, rfl⟩, ?_, fun h => absurd h (by simp), fun j hj => ⟨?_, ?_⟩⟩
      · simp [HeapIndexed.contains_remove hq]
      · simp [HeapIndexed.contains_remove hq, Ne.symm hj]
      · simp only [HeapIndexed.key_of_remove hq, hj, if_false]
    · have hc2 : s.conn_queue.contains e.idx = false := by simpa using hc
      simp only [hc2, Bool.false_eq_true, if_false]
      exact ⟨s, rfl, connOnly_refl s, hc2, fun h => absurd h (by simp),
        fun j _ => ⟨rfl, rfl⟩⟩

end inc_bi

/-- Claim C8: for every engine state and every arc `e = (a, b)`, the call
`update_edge(e)` returns, and after it `e` is in the connection queue exactly when its
weight is not `inf`, `a` is not in the start queue, `b` is not in the goal queue and the
start distance of `a` and the goal distance of `b` are not `inf`; when present its key is
`(combine(combine(start_distance(a), weight(e)), goal_distance(b)), start_distance(a),
goal_distance(b))`; membership and key of every other arc index are unchanged. -/
theorem C8_update_edge_postcondition (s : inc_bi) (e : Arc) :
    ∃ s1, inc_bi.update_edge s e = some s1 ∧
      (s1.conn_queue.contains e.idx = true ↔
        s1.weight e ≠ Weight.inf ∧ s1.start_queue.contains e.src = false ∧
          s1.goal_queue.contains e.tgt = false ∧ s1.start_distance e.src ≠ Weight.inf ∧
          s1.goal_distance e.tgt ≠ Weight.inf) ∧
      (s1.conn_queue.contains e.idx = true → s1.conn_queue.key_of e.idx = some
        ⟨Weight.combine (Weight.combine (s1.start_distance e.src) (s1.weight e))
          (s1.goal_distance e.tgt), s1.start_distance e.src, s1.goal_distance e.tgt⟩) ∧
      (∀ j, j ≠ e.idx → s1.conn_queue.contains j = s.conn_queue.contains j ∧
        s1.conn_queue.key_of j = s.conn_queue.key_of j) := by
  obtain ⟨s1, h1, ⟨q, rfl⟩, h3, h4, h5⟩ := inc_bi.update_edge_spec s e
  refine ⟨_, h1, ?_, ?_, h5⟩
  · rw [h3]
    exact inc_bi.edge_is_valid_iff s e
  · intro h
    rw [h3] at h
    exact h4 h

/-- Claim C7 fails on the code: on two vertices joined by an edge of weight `inf`, a
freshly constructed engine ends `compute_shortest_path` with the arc 0 -> 1 in the
connection queue, under the key `(inf, 0, 0)`, although the weight of the arc is `inf`. -/
theorem C7_unreachable_arc_in_conn_queue :
    ((inc_bi.fresh two_vertices 0 1 (fun _ => Weight.inf) Weight.zero).bind
        (fun s => (inc_bi.compute_shortest_path 10 s).result)).map
        (fun x => (x.1, x.2.conn_queue.contains 0, x.2.weight ⟨0, 1, 0⟩,
          x.2.conn_queue.key_of 0))
      = some ((0, false), true, Weight.inf,
          some ⟨Weight.inf, Weight.fin 0, Weight.fin 0⟩) := by
  decide

/-- Claim C10 fails on the code: on two vertices joined by an edge of weight 1, with
`goal_margin` 2, a freshly constructed engine returns `found = false`, and the arc
0 -> 1, a path from the start to the goal, lies in the connection queue with path
length 1. -/
theorem C10_not_found_although_path :
    ((inc_bi.fresh two_vertices 0 1 (fun _ => Weight.fin 1) (Weight.fin 2)).bind
        (fun s => (inc_bi.compute_shortest_path 10 s).result)).map
        (fun x => (x.1, x.2.weight ⟨0, 1, 0⟩, x.2.conn_queue.key_of 0))
      = some ((0, false), Weight.fin 1,
          some ⟨Weight.fin 1, Weight.fin 0, Weight.fin 0⟩) := by
  decide

/-- Claim C2 fails on the code: on the path 1 - 0 - 2 with both weights 0, start 0 and
goal 2, after a first `compute_shortest_path` the weight of the edge 0 - 2 is raised to
1 and the owed update calls are made. The next `compute_shortest_path` returns the arc
0 -> 1 with path length 0, while a freshly constructed engine on the changed graph
returns the arc 0 -> 2 with path length 1. -/
theorem C2_incremental_differs_from_fresh :
    ((((inc_bi.fresh path3 0 2 (path3_weight 0) Weight.zero).bind
        (fun s => (inc_bi.compute_shortest_path 10 s).result)).bind
        (fun x => inc_bi.change_weight x.2 (path3_weight 1) ⟨0, 2, 0⟩ ⟨2, 0, 1⟩)).bind
        (fun s => (inc_bi.compute_shortest_path 10 s).result)).map inc_bi.report
      = some ((2, true), some (Weight.fin 0)) ∧
    ((inc_bi.fresh path3 0 2 (path3_weight 1) Weight.zero).bind
        (fun s => (inc_bi.compute_shortest_path 10 s).result)).map inc_bi.report
      = some ((0, true), some (Weight.fin 1)) := by
  decide

/-! ## The order of the weights -/

namespace Weight

theorem le_refl (a : Weight) : le a a = true := by
  cases a <;> simp [le, lt]

theorem le_trans {a b c : Weight} (h1 : le a b = true) (h2 : le b c = true) :
    le a c = true := by
  cases a <;> cases b <;> cases c <;> simp [le, lt] at * <;> omega

theorem le_antisymm {a b : Weight} (h1 : le a b = true) (h2 : le b a = true) : a = b := by
  cases a <;> cases b <;> simp [le, lt] at * <;> omega

theorem le_inf (a : Weight) : le a inf = true := by
  cases a <;> simp [le, lt]

theorem zero_le (a : Weight) : le zero a = true := by
  cases a <;> simp [le, lt, zero]

theorem le_zero {a : Weight} (h : le a zero = true) : a = zero := by
  cases a <;> simp [le, lt, zero] at * <;> omega

theorem inf_le {a : Weight} (h : le inf a = true) : a = inf := by
  cases a <;> simp [le, lt] at *

theorem lt_false_iff_le (a b : Weight) : lt a b = false ↔ le b a = true := by
  simp [le]

theorem lt_iff_not_le (a b : Weight) : lt a b = true ↔ le b a = false := by
  simp [le]

theorem le_total (a b : Weight) : le a b = true ∨ le b a = true := by
  cases a <;> cases b <;> simp [le, lt] <;> omega

theorem le_of_lt {a b : Weight} (h : lt a b = true) : le a b = true := by
  cases a <;> cases b <;> simp [le, lt] at * <;> omega

theorem lt_ne_inf {a b : Weight} (h : lt a b = true) : a ≠ inf := by
  cases a <;> cases b <;> simp [lt] at *

theorem lt_inf_of_ne {a : Weight} (h : a ≠ inf) : lt a inf = true := by
  cases a <;> simp [lt] at *

theorem combine_zero (a : Weight) : combine a zero = a := by
  cases a <;> simp [combine, zero]

theorem zero_combine (a : Weight) : combine zero a = a := by
  cases a <;> simp [combine, zero]

theorem combine_inf (a : Weight) : combine a inf = inf := by
  cases a <;> simp [combine]

theorem inf_combine (a : Weight) : combine inf a = inf := by
  cases a <;> simp [combine]

theorem combine_assoc (a b c : Weight) :
    combine (combine a b) c = combine a (combine b c) := by
  cases a <;> cases b <;> cases c <;> simp [combine] <;> omega

theorem combine_comm (a b : Weight) : combine a b = combine b a := by
  cases a <;> cases b <;> simp [combine] <;> omega

theorem combine_le_combine {a b c d : Weight} (h1 : le a b = true) (h2 : le c d = true) :
    le (combine a c) (combine b d) = true := by
  cases a <;> cases b <;> cases c <;> cases d <;> simp [le, lt, combine] at * <;> omega

theorem le_combine_right (a b : Weight) : le a (combine a b) = true := by
  cases a <;> cases b <;> simp [le, lt, combine]

theorem le_combine_left (a b : Weight) : le b (combine a b) = true := by
  cases a <;> cases b <;> simp [le, lt, combine]

theorem combine_ne_inf {a b : Weight} (h : combine a b ≠ inf) : a ≠ inf ∧ b ≠ inf := by
  cases a <;> cases b <;> simp [combine] at *

theorem min_eq_right_of_inf (a : Weight) : min inf a = a := by
  cases a <;> simp [min, lt]

end Weight

/-! ## Walks and distances -/

theorem isWalk_append {g : Graph} {a b c : Nat} {p q : List Arc}
    (h1 : IsWalk g a b p) (h2 : IsWalk g b c q) : IsWalk g a c (p ++ q) := by
  induction p generalizing a with
  | nil =>
    simp only [IsWalk] at h1
    subst h1
    exact h2
  | cons e p ih =>
    obtain ⟨he, hs, hp⟩ := h1
    exact ⟨he, hs, ih hp⟩

theorem walk_len_append (w : Arc → Weight) (p q : List Arc) :
    walk_len w (p ++ q) = Weight.combine (walk_len w p) (walk_len w q) := by
  induction p with
  | nil => simp [walk_len, Weight.zero_combine]
  | cons e p ih => simp [walk_len, ih, Weight.combine_assoc]

theorem isWalk_snoc {g : Graph} {a b : Nat} {p : List Arc} {e : Arc}
    (h1 : IsWalk g a b p) (he : e ∈ g.arcs) (hs : e.src = b) :
    IsWalk g a e.tgt (p ++ [e]) :=
  isWalk_append h1 ⟨he, hs, rfl⟩

theorem walk_len_snoc (w : Arc → Weight) (p : List Arc) (e : Arc) :
    walk_len w (p ++ [e]) = Weight.combine (walk_len w p) (w e) := by
  rw [walk_len_append]
  simp [walk_len, Weight.combine_zero]

theorem isWalk_snoc_inv {g : Graph} {a c : Nat} {p : List Arc} {e : Arc}
    (h : IsWalk g a c (p ++ [e])) :
    ∃ b, IsWalk g a b p ∧ e ∈ g.arcs ∧ e.src = b ∧ e.tgt = c := by
  induction p generalizing a with
  | nil =>
    obtain ⟨he, hs, ht⟩ := h
    exact ⟨a, rfl, he, hs, ht⟩
  | cons e1 p ih =>
    obtain ⟨he1, hs1, hp⟩ := h
    obtain ⟨b, hb, he, hs, ht⟩ := ih hp
    exact ⟨b, ⟨he1, hs1, hb⟩, he, hs, ht⟩

theorem isWalk_lt {g : Graph} (hg : g.WellFormed) {a b : Nat} {p : List Arc}
    (ha : a < g.nv) (h : IsWalk g a b p) : b < g.nv := by
  induction p generalizing a with
  | nil =>
    simp only [IsWalk] at h
    exact h ▸ ha
  | cons e p ih =>
    obtain ⟨he, -, hp⟩ := h
    exact ih (hg.1 e he).2 hp

theorem isWalk_reverse {g : Graph} {w : Arc → Weight} (hm : Mirrored g w) {a b : Nat}
    {p : List Arc} (h : IsWalk g a b p) :
    ∃ q, IsWalk g b a q ∧ walk_len w q = walk_len w p := by
  induction p generalizing a with
  | nil =>
    simp only [IsWalk] at h
    exact ⟨[], h.symm, rfl⟩
  | cons e p ih =>
    obtain ⟨he, hs, hp⟩ := h
    obtain ⟨q, hq, hl⟩ := ih hp
    obtain ⟨e1, he1, hs1, ht1, hw1⟩ := hm e he
    refine ⟨q ++ [e1], ?_, ?_⟩
    · have := isWalk_snoc hq he1 hs1
      rw [ht1, hs] at this
      exact this
    · rw [walk_len_snoc, hl, hw1, Weight.combine_comm]
      rfl

theorem isDist_unique {g : Graph} {w : Arc → Weight} {a b : Nat} {d1 d2 : Weight}
    (h1 : IsDist g w a b d1) (h2 : IsDist g w a b d2) : d1 = d2 := by
  have key : ∀ {x y : Weight}, IsDist g w a b x → IsDist g w a b y →
      Weight.le x y = true := by
    intro x y hx hy
    rcases hy.1 with hy1 | ⟨p, hp, hl⟩
    · rw [hy1]
      exact Weight.le_inf x
    · rw [← hl]
      exact hx.2 p hp
  exact Weight.le_antisymm (key h1 h2) (key h2 h1)

theorem isDist_self {g : Graph} {w : Arc → Weight} {a : Nat} {d : Weight}
    (h : IsDist g w a a d) : d = Weight.zero :=
  Weight.le_zero (h.2 [] rfl)

theorem isDist_walk {g : Graph} {w : Arc → Weight} {a b : Nat} {d : Weight}
    (h : IsDist g w a b d) (hd : d ≠ Weight.inf) :
    ∃ p, IsWalk g a b p ∧ walk_len w p = d := by
  rcases h.1 with h1 | h1
  · exact absurd h1 hd
  · exact h1

/-! ## One frontier of a search from scratch -/

theorem side_lower_bound {g : Graph} {w : Arc → Weight} {src : Nat}
    {dist rhs : Nat → Weight} {q : HeapIndexed Weight} (hg : g.WellFormed)
    (hsrc : src < g.nv) (h : SideInv g w src dist rhs q (fun _ => False)) (bound : Weight)
    (hb : ∀ v k, (v, k) ∈ q.entries → Weight.le bound k = true) :
    ∀ p v, IsWalk g src v p →
      (dist v ≠ Weight.inf → Weight.le (dist v) (walk_len w p) = true) ∧
      (dist v = Weight.inf → Weight.le bound (walk_len w p) = true) := by
  intro p
  induction p using List.reverseRecOn with
  | nil =>
    intro v hv
    simp only [IsWalk] at hv
    subst hv
    refine ⟨fun hd => (h.settled src hsrc hd).2 [] rfl, fun hd => ?_⟩
    have hc : q.contains src = true := by
      rw [h.queue_iff src hsrc, hd, h.rhs_src]
      simp [Weight.zero]
    obtain ⟨k, hk⟩ := (HeapIndexed.contains_iff q src).mp hc
    have hk2 := (h.queue_key src k hk).2.1
    rw [h.rhs_src] at hk2
    rw [walk_len, ← hk2]
    exact hb src k hk
  | append_singleton p e ih =>
    intro v hv
    have hv2 : v < g.nv := isWalk_lt hg hsrc hv
    refine ⟨fun hd => (h.settled v hv2 hd).2 _ hv, fun hd => ?_⟩
    obtain ⟨b, hb1, he, hs, ht⟩ := isWalk_snoc_inv hv
    rw [walk_len_snoc]
    by_cases hdb : dist b = Weight.inf
    · exact Weight.le_trans ((ih b hb1).2 hdb) (Weight.le_combine_right _ _)
    · have hvs : v ≠ src := by
        intro hvs
        rw [hvs] at hd
        exact hdb (h.first hd b (isWalk_lt hg hsrc hb1))
      have h1 := h.rhs_le e he (by rw [ht]; exact hvs) (fun hf => hf)
      rw [ht, hs] at h1
      have h2 : Weight.le (Weight.combine (dist b) (w e))
          (Weight.combine (walk_len w p) (w e)) = true :=
        Weight.combine_le_combine ((ih b hb1).1 hdb) (Weight.le_refl _)
      have h3 := Weight.le_trans h1 h2
      by_cases hr : rhs v = Weight.inf
      · rw [hr] at h3
        rw [Weight.inf_le h3]
        exact Weight.le_inf _
      · have hc : q.contains v = true := by
          rw [h.queue_iff v hv2, hd]
          exact fun h4 => hr h4.symm
        obtain ⟨k, hk⟩ := (HeapIndexed.contains_iff q v).mp hc
        have hk2 := (h.queue_key v k hk).2.1
        have h4 := hb v k hk
        rw [hk2] at h4
        exact Weight.le_trans h4 h3

theorem side_settle {g : Graph} {w : Arc → Weight} {src : Nat}
    {dist rhs : Nat → Weight} {q : HeapIndexed Weight} (hg : g.WellFormed)
    (hsrc : src < g.nv) (h : SideInv g w src dist rhs q (fun _ => False)) {u : Nat}
    {k : Weight} (hu : (u, k) ∈ q.entries)
    (hmin : ∀ v k1, (v, k1) ∈ q.entries → Weight.le k k1 = true) :
    IsDist g w src u (rhs u) := by
  obtain ⟨hu1, hu2, hu3⟩ := h.queue_key u k hu
  constructor
  · by_cases hus : u = src
    · right
      refine ⟨[], hus.symm, ?_⟩
      rw [hus, h.rhs_src]
      rfl
    · rcases h.rhs_attained u hu1 hus with h1 | ⟨e, he, het, her⟩
      · exact Or.inl h1
      · by_cases hinf : rhs u = Weight.inf
        · exact Or.inl hinf
        · right
          rw [her] at hinf
          have hdx := (Weight.combine_ne_inf hinf).1
          obtain ⟨p, hp, hl⟩ := isDist_walk (h.settled e.src (hg.1 e he).1 hdx) hdx
          refine ⟨p ++ [e], ?_, ?_⟩
          · have := isWalk_snoc hp he rfl
            rw [het] at this
            exact this
          · rw [walk_len_snoc, hl, her]
  · intro p hp
    have := (side_lower_bound hg hsrc h k hmin p u hp).2 hu3
    rw [hu2] at this
    exact this

namespace HeapIndexed

variable {K : Type}

theorem mem_entries_insert {h h1 : HeapIndexed K} {i : Nat} {k : K}
    (hi : h.insert i k = some h1) (e : Nat × K) :
    e ∈ h1.entries ↔ e ∈ h.entries ∨ e = (i, k) := by
  obtain ⟨-, rfl⟩ := insert_eq_some hi
  simp

theorem mem_entries_remove {h h1 : HeapIndexed K} {i : Nat}
    (hi : h.remove i = some h1) (e : Nat × K) :
    e ∈ h1.entries ↔ e ∈ h.entries ∧ e.1 ≠ i := by
  obtain ⟨-, rfl⟩ := remove_eq_some hi
  simp [List.mem_filter]

theorem mem_entries_update {h h1 : HeapIndexed K} {i : Nat} {k : K}
    (hi : h.update i k = some h1) (e : Nat × K) (he : e ∈ h1.entries) :
    (e ∈ h.entries ∧ e.1 ≠ i) ∨ e = (i, k) := by
  obtain ⟨-, rfl⟩ := update_eq_some hi
  simp only [List.mem_map] at he
  obtain ⟨a, ha, hae⟩ := he
  by_cases hai : a.1 = i
  · right
    simp only [hai, beq_self_eq_true, if_true] at hae
    exact hae.symm
  · left
    have : (a.1 == i) = false := by simpa using hai
    simp only [this, Bool.false_eq_true, if_false] at hae
    subst hae
    exact ⟨ha, hai⟩

theorem nodup_insert {h h1 : HeapIndexed K} {i : Nat} {k : K}
    (hi : h.insert i k = some h1) (hn : (h.entries.map Prod.fst).Nodup) :
    (h1.entries.map Prod.fst).Nodup := by
  obtain ⟨hc, rfl⟩ := insert_eq_some hi
  simp only [List.map_append, List.map_cons, List.map_nil]
  rw [List.nodup_append]
  refine ⟨hn, List.nodup_singleton i, ?_⟩
  intro a ha hb
  simp only [List.mem_singleton] at hb
  subst hb
  simp only [List.mem_map] at ha
  obtain ⟨e, he, hea⟩ := ha
  have : h.contains a = true := (contains_iff h a).mpr ⟨e.2, by rw [← hea]; exact he⟩
  rw [hc] at this
  exact absurd this (by simp)

theorem nodup_remove {h h1 : HeapIndexed K} {i : Nat}
    (hi : h.remove i = some h1) (hn : (h.entries.map Prod.fst).Nodup) :
    (h1.entries.map Prod.fst).Nodup := by
  obtain ⟨-, rfl⟩ := remove_eq_some hi
  exact (List.filter_sublist _).map Prod.fst |>.nodup hn

theorem key_of_eq_of_mem {h : HeapIndexed K} (hn : (h.entries.map Prod.fst).Nodup)
    {i : Nat} {k : K} (hm : (i, k) ∈ h.entries) : h.key_of i = some k := by
  unfold key_of
  generalize h.entries = l at hn hm
  induction l with
  | nil => simp at hm
  | cons e l ih =>
    simp only [List.map_cons, List.nodup_cons] at hn
    rcases List.mem_cons.mp hm with h1 | h1
    · subst h1
      simp [List.find?_cons]
    · have hne : e.1 ≠ i := by
        intro hei
        apply hn.1
        rw [hei]
        exact List.mem_map.mpr ⟨(i, k), h1, rfl⟩
      have : (e.1 == i) = false := by simpa using hne
      simp only [List.find?_cons, this]
      exact ih hn.2 h1

end HeapIndexed

namespace inc_bi

theorem start_rhs_fold (s : inc_bi) (u : Nat) (l : List Arc) (acc : Weight × (Nat → Nat)) :
    Weight.le (l.foldl (start_rhs_step s u) acc).1 acc.1 = true ∧
      (∀ e ∈ l, Weight.le (l.foldl (start_rhs_step s u) acc).1
        (Weight.combine (s.start_distance e.src) (s.weight e)) = true) ∧
      ((l.foldl (start_rhs_step s u) acc).1 = acc.1 ∨
        ∃ e ∈ l, (l.foldl (start_rhs_step s u) acc).1 =
          Weight.combine (s.start_distance e.src) (s.weight e)) := by
  induction l generalizing acc with
  | nil => exact ⟨Weight.le_refl _, by simp, Or.inl rfl⟩
  | cons a l ih =>
    obtain ⟨h1, h2, h3⟩ := ih (start_rhs_step s u acc a)
    simp only [List.foldl_cons]
    have hstep : Weight.le (start_rhs_step s u acc a).1 acc.1 = true ∧
        Weight.le (start_rhs_step s u acc a).1
          (Weight.combine (s.start_distance a.src) (s.weight a)) = true ∧
        ((start_rhs_step s u acc a).1 = acc.1 ∨ (start_rhs_step s u acc a).1 =
          Weight.combine (s.start_distance a.src) (s.weight a)) := by
      unfold start_rhs_step
      dsimp only
      split
      · next hlt => exact ⟨Weight.le_of_lt hlt, Weight.le_refl _, Or.inr rfl⟩
      · next hlt =>
        refine ⟨Weight.le_refl _, ?_, Or.inl rfl⟩
        simpa [Weight.le] using hlt
    refine ⟨Weight.le_trans h1 hstep.1, ?_, ?_⟩
    · intro e he
      rcases List.mem_cons.mp he with h4 | h4
      · subst h4
        exact Weight.le_trans h1 hstep.2.1
      · exact h2 e h4
    · rcases h3 with h4 | ⟨e, he, h4⟩
      · rcases hstep.2.2 with h5 | h5
        · exact Or.inl (h4.trans h5)
        · exact Or.inr ⟨a, List.mem_cons_self _ _, h4.trans h5⟩
      · exact Or.inr ⟨e, List.mem_cons_of_mem _ he, h4⟩

theorem start_recompute_rhs (s : inc_bi) (u : Nat) (hu : u ≠ s.v_start) :
    (∀ e ∈ s.g.arcs, e.tgt = u →
        Weight.le ((start_recompute s u).start_distance_lookahead u)
          (Weight.combine (s.start_distance e.src) (s.weight e)) = true) ∧
      ((start_recompute s u).start_distance_lookahead u = Weight.inf ∨
        ∃ e ∈ s.g.arcs, e.tgt = u ∧ (start_recompute s u).start_distance_lookahead u =
          Weight.combine (s.start_distance e.src) (s.weight e)) := by
  obtain ⟨-, h2, h3⟩ := start_rhs_fold s u (in_edges u s.g) (Weight.inf, s.start_predecessor)
  have hr : (start_recompute s u).start_distance_lookahead u = (start_rhs_loop s u).1 := by
    unfold start_recompute
    simp [hu]
  rw [hr]
  unfold start_rhs_loop
  constructor
  · intro e he het
    apply h2 e
    unfold in_edges
    simp [List.mem_filter, he, het]
  · rcases h3 with h4 | ⟨e, he, h4⟩
    · exact Or.inl h4
    · unfold in_edges at he
      simp only [List.mem_filter, beq_iff_eq] at he
      exact Or.inr ⟨e, he.1, he.2, h4⟩

theorem start_update_vertex_cases {s s1 : inc_bi} {u : Nat}
    (h : start_update_vertex s u = some s1) :
    (s.start_distance u = (start_recompute s u).start_distance_lookahead u ∧
        s.start_queue.contains u = true ∧ ∃ q, s.start_queue.remove u = some q ∧
        ((s.start_distance u ≠ Weight.inf ∧
            (out_edges u s.g).foldlM (start_open_step (s.start_distance u))
              { start_recompute s u with start_queue := q } = some s1) ∨
          (s.start_distance u = Weight.inf ∧
            s1 = { start_recompute s u with start_queue := q }))) ∨
      (s.start_distance u = (start_recompute s u).start_distance_lookahead u ∧
        s.start_queue.contains u = false ∧ s1 = start_recompute s u) ∨
      (s.start_distance u ≠ (start_recompute s u).start_distance_lookahead u ∧
        s.start_queue.contains u = true ∧
        ∃ q, s.start_queue.update u (start_calculate_key (start_recompute s u) u) = some q ∧
          s1 = { start_recompute s u with start_queue := q }) ∨
      (s.start_distance u ≠ (start_recompute s u).start_distance_lookahead u ∧
        s.start_queue.contains u = false ∧
        ∃ q, s.start_queue.insert u (start_calculate_key (start_recompute s u) u) = some q ∧
          (out_edges u s.g).foldlM conn_drop_step
            { start_recompute s u with start_queue := q } = some s1) := by
  obtain ⟨p, l, hr, -, -⟩ := start_recompute_eq s u
  unfold start_update_vertex at h
  rw [hr] at h ⊢
  dsimp only at h ⊢
  by_cases hc : s.start_distance u = l u
  · simp only [hc, decide_True, if_true] at h
    by_cases hq : s.start_queue.contains u = true
    · simp only [hq, if_true, Option.bind_eq_some] at h
      obtain ⟨q, hq1, h⟩ := h
      left
      refine ⟨hc, hq, q, hq1, ?_⟩
      by_cases hinf : l u = Weight.inf
      · right
        simp only [hinf, ne_eq, not_true_eq_false, if_false, Option.some.injEq] at h
        exact ⟨hc.trans hinf, h.symm⟩
      · left
        simp only [ne_eq, hinf, not_false_eq_true, if_true] at h
        refine ⟨fun h2 => hinf (hc.symm.trans h2), ?_⟩
        rw [hc]
        exact h
    · simp only [hq, Bool.false_eq_true, if_false, Option.some.injEq] at h
      right; left
      exact ⟨hc, by simpa using hq, h.symm⟩
  · simp only [hc, decide_False, Bool.false_eq_true, if_false] at h
    by_cases hq : s.start_queue.contains u = true
    · simp only [hq, if_true, Option.map_eq_some'] at h
      obtain ⟨q, hq1, rfl⟩ := h
      right; right; left
      exact ⟨hc, hq, q, hq1, rfl⟩
    · simp only [hq, Bool.false_eq_true, if_false, Option.bind_eq_some] at h
      obtain ⟨q, hq1, h⟩ := h
      right; right; right
      exact ⟨hc, by simpa using hq, q, hq1, h⟩

theorem goal_rhs_fold (s : inc_bi) (u : Nat) (l : List Arc) (acc : Weight × (Nat → Nat)) :
    Weight.le (l.foldl (goal_rhs_step s u) acc).1 acc.1 = true ∧
      (∀ e ∈ l, Weight.le (l.foldl (goal_rhs_step s u) acc).1
        (Weight.combine (s.goal_distance e.src) (s.weight e)) = true) ∧
      ((l.foldl (goal_rhs_step s u) acc).1 = acc.1 ∨
        ∃ e ∈ l, (l.foldl (goal_rhs_step s u) acc).1 =
          Weight.combine (s.goal_distance e.src) (s.weight e)) := by
  induction l generalizing acc with
  | nil => exact ⟨Weight.le_refl _, by simp, Or.inl rfl⟩
  | cons a l ih =>
    obtain ⟨h1, h2, h3⟩ := ih (goal_rhs_step s u acc a)
    simp only [List.foldl_cons]
    have hstep : Weight.le (goal_rhs_step s u acc a).1 acc.1 = true ∧
        Weight.le (goal_rhs_step s u acc a).1
          (Weight.combine (s.goal_distance a.src) (s.weight a)) = true ∧
        ((goal_rhs_step s u acc a).1 = acc.1 ∨ (goal_rhs_step s u acc a).1 =
          Weight.combine (s.goal_distance a.src) (s.weight a)) := by
      unfold goal_rhs_step
      dsimp only
      split
      · next hlt => exact ⟨Weight.le_of_lt hlt, Weight.le_refl _, Or.inr rfl⟩
      · next hlt =>
        refine ⟨Weight.le_refl _, ?_, Or.inl rfl⟩
        simpa [Weight.le] using hlt
    refine ⟨Weight.le_trans h1 hstep.1, ?_, ?_⟩
    · intro e he
      rcases List.mem_cons.mp he with h4 | h4
      · subst h4
        exact Weight.le_trans h1 hstep.2.1
      · exact h2 e h4
    · rcases h3 with h4 | ⟨e, he, h4⟩
      · rcases hstep.2.2 with h5 | h5
        · exact Or.inl (h4.trans h5)
        · exact Or.inr ⟨a, List.mem_cons_self _ _, h4.trans h5⟩
      · exact Or.inr ⟨e, List.mem_cons_of_mem _ he, h4⟩

theorem goal_recompute_rhs (s : inc_bi) (u : Nat) (hu : u ≠ s.v_goal) :
    (∀ e ∈ s.g.arcs, e.tgt = u →
        Weight.le ((goal_recompute s u).goal_distance_lookahead u)
          (Weight.combine (s.goal_distance e.src) (s.weight e)) = true) ∧
      ((goal_recompute s u).goal_distance_lookahead u = Weight.inf ∨
        ∃ e ∈ s.g.arcs, e.tgt = u ∧ (goal_recompute s u).goal_distance_lookahead u =
          Weight.combine (s.goal_distance e.src) (s.weight e)) := by
  obtain ⟨-, h2, h3⟩ := goal_rhs_fold s u (in_edges u s.g) (Weight.inf, s.goal_predecessor)
  have hr : (goal_recompute s u).goal_distance_lookahead u = (goal_rhs_loop s u).1 := by
    unfold goal_recompute
    simp [hu]
  rw [hr]
  unfold goal_rhs_loop
  constructor
  · intro e he het
    apply h2 e
    unfold in_edges
    simp [List.mem_filter, he, het]
  · rcases h3 with h4 | ⟨e, he, h4⟩
    · exact Or.inl h4
    · unfold in_edges at he
      simp only [List.mem_filter, beq_iff_eq] at he
      exact Or.inr ⟨e, he.1, he.2, h4⟩

theorem goal_update_vertex_cases {s s1 : inc_bi} {u : Nat}
    (h : goal_update_vertex s u = some s1) :
    (s.goal_distance u = (goal_recompute s u).goal_distance_lookahead u ∧
        s.goal_queue.contains u = true ∧ ∃ q, s.goal_queue.remove u = some q ∧
        ((s.goal_distance u ≠ Weight.inf ∧
            (in_edges u s.g).foldlM (goal_open_step (s.goal_distance u))
              { goal_recompute s u with goal_queue := q } = some s1) ∨
          (s.goal_distance u = Weight.inf ∧
            s1 = { goal_recompute s u with goal_queue := q }))) ∨
      (s.goal_distance u = (goal_recompute s u).goal_distance_lookahead u ∧
        s.goal_queue.contains u = false ∧ s1 = goal_recompute s u) ∨
      (s.goal_distance u ≠ (goal_recompute s u).goal_distance_lookahead u ∧
        s.goal_queue.contains u = true ∧
        ∃ q, s.goal_queue.update u (goal_calculate_key (goal_recompute s u) u) = some q ∧
          s1 = { goal_recompute s u with goal_queue := q }) ∨
      (s.goal_distance u ≠ (goal_recompute s u).goal_distance_lookahead u ∧
        s.goal_queue.contains u = false ∧
        ∃ q, s.goal_queue.insert u (goal_calculate_key (goal_recompute s u) u) = some q ∧
          (in_edges u s.g).foldlM conn_drop_step
            { goal_recompute s u with goal_queue := q } = some s1) := by
  obtain ⟨p, l, hr, -, -⟩ := goal_recompute_eq s u
  unfold goal_update_vertex at h
  rw [hr] at h ⊢
  dsimp only at h ⊢
  by_cases hc : s.goal_distance u = l u
  · simp only [hc, decide_True, if_true] at h
    by_cases hq : s.goal_queue.contains u = true
    · simp only [hq, if_true, Option.bind_eq_some] at h
      obtain ⟨q, hq1, h⟩ := h
      left
      refine ⟨hc, hq, q, hq1, ?_⟩
      by_cases hinf : l u = Weight.inf
      · right
        simp only [hinf, ne_eq, not_true_eq_false, if_false, Option.some.injEq] at h
        exact ⟨hc.trans hinf, h.symm⟩
      · left
        simp only [ne_eq, hinf, not_false_eq_true, if_true] at h
        refine ⟨fun h2 => hinf (hc.symm.trans h2), ?_⟩
        rw [hc]
        exact h
    · simp only [hq, Bool.false_eq_true, if_false, Option.some.injEq] at h
      right; left
      exact ⟨hc, by simpa using hq, h.symm⟩
  · simp only [hc, decide_False, Bool.false_eq_true, if_false] at h
    by_cases hq : s.goal_queue.contains u = true
    · simp only [hq, if_true, Option.map_eq_some'] at h
      obtain ⟨q, hq1, rfl⟩ := h
      right; right; left
      exact ⟨hc, hq, q, hq1, rfl⟩
    · simp only [hq, Bool.false_eq_true, if_false, Option.bind_eq_some] at h
      obtain ⟨q, hq1, h⟩ := h
      right; right; right
      exact ⟨hc, by simpa using hq, q, hq1, h⟩

end inc_bi

theorem sideInv_mono {g : Graph} {w : Arc → Weight} {src : Nat} {d r : Nat → Weight}
    {q : HeapIndexed Weight} {pend pend2 : Arc → Prop}
    (h : SideInv g w src d r q pend) (hp : ∀ e, pend e → pend2 e) :
    SideInv g w src d r q pend2 :=
  { settled := h.settled, rhs_src := h.rhs_src,
    rhs_le := fun e he ht hn => h.rhs_le e he ht (fun hpe => hn (hp e hpe)),
    rhs_attained := h.rhs_attained, queue_iff := h.queue_iff, queue_key := h.queue_key,
    first := h.first }

theorem side_not_queued {g : Graph} {w : Arc → Weight} {src : Nat} {d r : Nat → Weight}
    {q : HeapIndexed Weight} {pend : Arc → Prop} (h : SideInv g w src d r q pend)
    {v : Nat} (hd : d v ≠ Weight.inf) : q.contains v = false := by
  cases hc : q.contains v with
  | false => rfl
  | true =>
    obtain ⟨k, hk⟩ := (HeapIndexed.contains_iff q v).mp hc
    exact absurd (h.queue_key v k hk).2.2 hd

theorem side_settled_consistent {g : Graph} {w : Arc → Weight} {src : Nat}
    {d r : Nat → Weight} {q : HeapIndexed Weight} {pend : Arc → Prop}
    (h : SideInv g w src d r q pend) {v : Nat} (hv : v < g.nv) (hd : d v ≠ Weight.inf) :
    d v = r v := by
  by_contra hne
  have := (h.queue_iff v hv).mpr hne
  rw [side_not_queued h hd] at this
  exact absurd this (by simp)

/-- A settled vertex keeps its lookahead when the lookahead is computed anew. -/
theorem recompute_settled {g : Graph} {w : Arc → Weight} {src : Nat} {d r : Nat → Weight}
    {q : HeapIndexed Weight} {pend : Arc → Prop} (hg : g.WellFormed)
    (h : SideInv g w src d r q pend) {v0 : Nat} {l : Nat → Weight} (hv0 : v0 < g.nv)
    (hl2 : v0 = src → l = r)
    (hl3 : v0 ≠ src →
      (∀ e ∈ g.arcs, e.tgt = v0 → Weight.le (l v0) (Weight.combine (d e.src) (w e)) = true) ∧
      (l v0 = Weight.inf ∨ ∃ e ∈ g.arcs, e.tgt = v0 ∧ l v0 = Weight.combine (d e.src) (w e)))
    (hd : d v0 ≠ Weight.inf) : l v0 = d v0 := by
  have hcons := side_settled_consistent h hv0 hd
  by_cases hs : v0 = src
  · rw [hl2 hs, hcons]
  · obtain ⟨h1, h2⟩ := hl3 hs
    have hdist := h.settled v0 hv0 hd
    apply Weight.le_antisymm
    · rcases h.rhs_attained v0 hv0 hs with h3 | ⟨e, he, het, her⟩
      · rw [← hcons] at h3
        exact absurd h3 hd
      · rw [hcons, her]
        exact h1 e he het
    · rcases h2 with h3 | ⟨e, he, het, hel⟩
      · rw [h3]
        exact Weight.le_inf _
      · by_cases hinf : l v0 = Weight.inf
        · rw [hinf]
          exact Weight.le_inf _
        · rw [hel] at hinf ⊢
          have hdx := (Weight.combine_ne_inf hinf).1
          obtain ⟨p, hp, hlen⟩ := isDist_walk (h.settled e.src (hg.1 e he).1 hdx) hdx
          have hw := isWalk_snoc hp he rfl
          rw [het] at hw
          have := hdist.2 _ hw
          rw [walk_len_snoc, hlen] at this
          exact this

/-- The effect of `update_vertex` on one frontier of a search from scratch: the lookahead
of `v0` is computed anew as `l v0` and the queue `q1` results from the insertion, update
or removal of `v0`. No arc into `v0` awaits an update any more. -/
theorem side_after_update {g : Graph} {w : Arc → Weight} {src : Nat} {d r : Nat → Weight}
    {q : HeapIndexed Weight} {pend : Arc → Prop} (hg : g.WellFormed)
    (h : SideInv g w src d r q pend) {v0 : Nat} {l : Nat → Weight} (hv0 : v0 < g.nv)
    (hl1 : ∀ v, v ≠ v0 → l v = r v) (hl2 : v0 = src → l = r)
    (hl3 : v0 ≠ src →
      (∀ e ∈ g.arcs, e.tgt = v0 → Weight.le (l v0) (Weight.combine (d e.src) (w e)) = true) ∧
      (l v0 = Weight.inf ∨ ∃ e ∈ g.arcs, e.tgt = v0 ∧ l v0 = Weight.combine (d e.src) (w e)))
    {q1 : HeapIndexed Weight}
    (hq : (d v0 = l v0 ∧ ((q.contains v0 = true ∧ q.remove v0 = some q1) ∨
            (q.contains v0 = false ∧ q1 = q))) ∨
          (d v0 ≠ l v0 ∧ ((q.contains v0 = true ∧
              q.update v0 (Weight.min (d v0) (l v0)) = some q1) ∨
            (q.contains v0 = false ∧ q.insert v0 (Weight.min (d v0) (l v0)) = some q1)))) :
    SideInv g w src d l q1 (fun e => pend e ∧ e.tgt ≠ v0) ∧
      (d v0 ≠ l v0 → d v0 = Weight.inf) := by
  have hK : d v0 ≠ l v0 → d v0 = Weight.inf := by
    intro hne
    by_contra hd
    exact hne (recompute_settled hg h hv0 hl2 hl3 hd).symm
  have hlsrc : l src = Weight.zero := by
    by_cases hs : v0 = src
    · rw [hl2 hs]
      exact h.rhs_src
    · rw [hl1 src (Ne.symm hs)]
      exact h.rhs_src
  have hqi : ∀ v, v < g.nv → (q1.contains v = true ↔ d v ≠ l v) := by
    intro v hv
    by_cases hvv : v = v0
    · subst hvv
      rcases hq with ⟨hc, ⟨-, hrem⟩ | ⟨hnc, rfl⟩⟩ | ⟨hc, ⟨hcq, hupd⟩ | ⟨-, hins⟩⟩
      · rw [HeapIndexed.contains_remove hrem]
        simp [hc]
      · simp [hnc, hc]
      · rw [HeapIndexed.contains_update hupd, hcq]
        simp [hc]
      · rw [HeapIndexed.contains_insert hins]
        simp [hc]
    · have hold := h.queue_iff v hv
      rw [hl1 v hvv]
      rcases hq with ⟨-, ⟨-, hrem⟩ | ⟨-, rfl⟩⟩ | ⟨-, ⟨-, hupd⟩ | ⟨-, hins⟩⟩
      · rw [HeapIndexed.contains_remove hrem]
        simpa [Ne.symm hvv] using hold
      · exact hold
      · rw [HeapIndexed.contains_update hupd]
        exact hold
      · rw [HeapIndexed.contains_insert hins]
        simpa [Ne.symm hvv] using hold
  have hqk : ∀ v k, (v, k) ∈ q1.entries → v < g.nv ∧ k = l v ∧ d v = Weight.inf := by
    intro v k hm
    have hold : (v, k) ∈ q.entries → v ≠ v0 → v < g.nv ∧ k = l v ∧ d v = Weight.inf := by
      intro hm2 hvv
      rw [hl1 v hvv]
      exact h.queue_key v k hm2
    have hnew : d v0 ≠ l v0 → (v, k) = (v0, Weight.min (d v0) (l v0)) →
        v < g.nv ∧ k = l v ∧ d v = Weight.inf := by
      intro hne heq
      simp only [Prod.mk.injEq] at heq
      obtain ⟨rfl, rfl⟩ := heq
      refine ⟨hv0, ?_, hK hne⟩
      rw [hK hne]
      exact Weight.min_eq_right_of_inf _
    rcases hq with ⟨hc, ⟨-, hrem⟩ | ⟨hnc, rfl⟩⟩ | ⟨hc, ⟨-, hupd⟩ | ⟨-, hins⟩⟩
    · obtain ⟨h1, h2⟩ := (HeapIndexed.mem_entries_remove hrem (v, k)).mp hm
      exact hold h1 h2
    · refine hold hm ?_
      intro hvv
      have : q1.contains v0 = true := (HeapIndexed.contains_iff q1 v0).mpr ⟨k, hvv ▸ hm⟩
      rw [hnc] at this
      exact absurd this (by simp)
    · rcases HeapIndexed.mem_entries_update hupd (v, k) hm with ⟨h1, h2⟩ | h1
      · exact hold h1 h2
      · exact hnew hc h1
    · rcases (HeapIndexed.mem_entries_insert hins (v, k)).mp hm with h1 | h1
      · refine hold h1 ?_
        intro hvv
        have hcq := (HeapIndexed.insert_eq_some hins).1
        have : q.contains v0 = true := (HeapIndexed.contains_iff q v0).mpr ⟨k, hvv ▸ h1⟩
        rw [hcq] at this
        exact absurd this (by simp)
      · exact hnew hc h1
  refine ⟨⟨h.settled, hlsrc, ?_, ?_, hqi, hqk, h.first⟩, hK⟩
  · intro e he ht hn
    by_cases hev : e.tgt = v0
    · rw [hev]
      exact (hl3 (by rw [← hev]; exact ht)).1 e he hev
    · rw [hl1 _ hev]
      exact h.rhs_le e he ht (fun hp => hn ⟨hp, hev⟩)
  · intro v hv hvs
    by_cases hvv : v = v0
    · subst hvv
      exact (hl3 hvs).2
    · rw [hl1 v hvv]
      exact h.rhs_attained v hv hvs

theorem idx_inj {g : Graph} (hg : g.WellFormed) {e e1 : Arc} (he : e ∈ g.arcs)
    (he1 : e1 ∈ g.arcs) (h : e.idx = e1.idx) : e = e1 :=
  List.inj_on_of_nodup_map hg.2 he he1 h

theorem mem_out_edges {g : Graph} {u : Nat} {e : Arc} :
    e ∈ out_edges u g ↔ e ∈ g.arcs ∧ e.src = u := by
  simp [out_edges, List.mem_filter]

theorem mem_in_edges {g : Graph} {u : Nat} {e : Arc} :
    e ∈ in_edges u g ↔ e ∈ g.arcs ∧ e.tgt = u := by
  simp [in_edges, List.mem_filter]

namespace inc_bi

theorem conn_drop_fold {l : List Arc} {s s1 : inc_bi}
    (h : l.foldlM conn_drop_step s = some s1) :
    ∃ cq, s1 = { s with conn_queue := cq } ∧
      ((s.conn_queue.entries.map Prod.fst).Nodup → (cq.entries.map Prod.fst).Nodup) ∧
      (∀ e ∈ cq.entries, e ∈ s.conn_queue.entries) ∧
      (∀ j, j ∉ l.map Arc.idx → cq.contains j = s.conn_queue.contains j) := by
  induction l generalizing s with
  | nil =>
    simp only [List.foldlM, pure, Option.some.injEq] at h
    subst h
    exact ⟨s.conn_queue, rfl, fun hn => hn, fun _ he => he, fun _ _ => rfl⟩
  | cons a l ih =>
    simp only [List.foldlM, bind, Option.bind_eq_some] at h
    obtain ⟨s2, h2, h3⟩ := h
    obtain ⟨cq, rfl, hn, hsub, hc⟩ := ih h3
    unfold conn_drop_step at h2
    split at h2
    · simp only [Option.map_eq_some'] at h2
      obtain ⟨q, hq, rfl⟩ := h2
      refine ⟨cq, rfl, fun hn0 => hn (HeapIndexed.nodup_remove hq hn0), ?_, ?_⟩
      · intro e he
        exact ((HeapIndexed.mem_entries_remove hq e).mp (hsub e he)).1
      · intro j hj
        simp only [List.map_cons, List.mem_cons, not_or] at hj
        rw [hc j hj.2]
        simp only [HeapIndexed.contains_remove hq]
        simp [Ne.symm hj.1]
    · simp only [Option.some.injEq] at h2
      subst h2
      refine ⟨cq, rfl, hn, hsub, ?_⟩
      intro j hj
      simp only [List.map_cons, List.mem_cons, not_or] at hj
      exact hc j hj.2

end inc_bi

namespace inc_bi

theorem start_update_vertex_fresh {g : Graph} {w : Arc → Weight} {vs vg : Nat}
    (hg : g.WellFormed) {s s1 : inc_bi} {pendS pendG pendC : Arc → Prop}
    (hI : FreshInv g w vs vg s pendS pendG pendC) {v0 : Nat} (hv0 : v0 < g.nv)
    (h : start_update_vertex s v0 = some s1) :
    FreshInv g w vs vg s1 (fun e => pendS e ∧ e.tgt ≠ v0) pendG pendC ∧
      s1.start_distance = s.start_distance := by
  obtain ⟨p, l, hr, hl1, hl2⟩ := start_recompute_eq s v0
  have hl3 : v0 ≠ vs →
      (∀ e ∈ g.arcs, e.tgt = v0 →
        Weight.le (l v0) (Weight.combine (s.start_distance e.src) (w e)) = true) ∧
      (l v0 = Weight.inf ∨ ∃ e ∈ g.arcs, e.tgt = v0 ∧
        l v0 = Weight.combine (s.start_distance e.src) (w e)) := by
    intro hne
    have := start_recompute_rhs s v0 (by rw [hI.v_start_eq]; exact hne)
    rw [hr, hI.g_eq, hI.weight_eq] at this
    exact this
  have hl2v : v0 = vs → l = s.start_distance_lookahead :=
    fun h => hl2 (by rw [hI.v_start_eq]; exact h)
  have hkey : start_calculate_key (start_recompute s v0) v0
      = Weight.min (s.start_distance v0) (l v0) := by
    rw [hr]
    rfl
  have build : ∀ (q : HeapIndexed Weight) (cq : HeapIndexed conn_key),
      SideInv g w vs s.start_distance l q (fun e => pendS e ∧ e.tgt ≠ v0) →
      (cq.entries.map Prod.fst).Nodup →
      (∀ e ∈ cq.entries, e ∈ s.conn_queue.entries) →
      (∀ e ∈ g.arcs, s.start_distance e.src ≠ Weight.inf →
        s.goal_distance e.tgt ≠ Weight.inf → ¬ pendC e → cq.contains e.idx = true) →
      FreshInv g w vs vg
        { s with start_predecessor := p, start_distance_lookahead := l,
                 start_queue := q, conn_queue := cq }
        (fun e => pendS e ∧ e.tgt ≠ v0) pendG pendC :=
    fun q cq hside hn hsub hcomp =>
      { g_eq := hI.g_eq, weight_eq := hI.weight_eq, v_start_eq := hI.v_start_eq,
        v_goal_eq := hI.v_goal_eq, start := hside,
        goal := hI.goal, conn_nodup := hn,
        conn_sound := fun i k hm => hI.conn_sound i k (hsub _ hm),
        conn_complete := hcomp }
  rcases start_update_vertex_cases h with
    ⟨hc, hq, q, hrem, hbr⟩ | ⟨hc, hq, hs1⟩ | ⟨hc, hq, q, hupd, hs1⟩ | ⟨hc, hq, q, hins, hfold⟩
  · have hdinf : s.start_distance v0 = Weight.inf := by
      by_contra hd
      have := side_not_queued hI.start hd
      rw [hq] at this
      exact absurd this (by simp)
    rcases hbr with ⟨hd, -⟩ | ⟨-, hs1⟩
    · exact absurd hdinf hd
    · rw [hr] at hc hs1
      subst hs1
      refine ⟨build q s.conn_queue ?_ hI.conn_nodup (fun _ he => he) hI.conn_complete, rfl⟩
      exact (side_after_update hg hI.start hv0 hl1 hl2v hl3
        (Or.inl ⟨hc, Or.inl ⟨hq, hrem⟩⟩)).1
  · rw [hr] at hc hs1
    subst hs1
    refine ⟨build s.start_queue s.conn_queue ?_ hI.conn_nodup (fun _ he => he)
      hI.conn_complete, rfl⟩
    exact (side_after_update hg hI.start hv0 hl1 hl2v hl3
      (Or.inl ⟨hc, Or.inr ⟨hq, rfl⟩⟩)).1
  · rw [hkey] at hupd
    rw [hr] at hc hs1
    subst hs1
    refine ⟨build q s.conn_queue ?_ hI.conn_nodup (fun _ he => he) hI.conn_complete, rfl⟩
    exact (side_after_update hg hI.start hv0 hl1 hl2v hl3
      (Or.inr ⟨hc, Or.inl ⟨hq, hupd⟩⟩)).1
  · rw [hkey] at hins
    rw [hr] at hc hfold
    obtain ⟨hside, hK⟩ := side_after_update hg hI.start hv0 hl1 hl2v hl3
      (Or.inr ⟨hc, Or.inr ⟨hq, hins⟩⟩)
    obtain ⟨cq, rfl, hn, hsub, hcont⟩ := conn_drop_fold hfold
    refine ⟨build q cq hside (hn hI.conn_nodup) hsub ?_, rfl⟩
    intro e he hds hdg hpc
    rw [hcont]
    · exact hI.conn_complete e he hds hdg hpc
    · intro hmem
      simp only [List.mem_map] at hmem
      obtain ⟨e0, he0, hidx⟩ := hmem
      rw [hI.g_eq] at he0
      obtain ⟨he0a, he0s⟩ := mem_out_edges.mp he0
      have : e0 = e := idx_inj hg he0a he hidx
      rw [this] at he0s
      rw [he0s] at hds
      exact hds (hK hc)

end inc_bi

namespace inc_bi

theorem goal_update_vertex_fresh {g : Graph} {w : Arc → Weight} {vs vg : Nat}
    (hg : g.WellFormed) {s s1 : inc_bi} {pendS pendG pendC : Arc → Prop}
    (hI : FreshInv g w vs vg s pendS pendG pendC) {v0 : Nat} (hv0 : v0 < g.nv)
    (h : goal_update_vertex s v0 = some s1) :
    FreshInv g w vs vg s1 pendS (fun e => pendG e ∧ e.tgt ≠ v0) pendC ∧
      s1.goal_distance = s.goal_distance := by
  obtain ⟨p, l, hr, hl1, hl2⟩ := goal_recompute_eq s v0
  have hl3 : v0 ≠ vg →
      (∀ e ∈ g.arcs, e.tgt = v0 →
        Weight.le (l v0) (Weight.combine (s.goal_distance e.src) (w e)) = true) ∧
      (l v0 = Weight.inf ∨ ∃ e ∈ g.arcs, e.tgt = v0 ∧
        l v0 = Weight.combine (s.goal_distance e.src) (w e)) := by
    intro hne
    have := goal_recompute_rhs s v0 (by rw [hI.v_goal_eq]; exact hne)
    rw [hr, hI.g_eq, hI.weight_eq] at this
    exact this
  have hl2v : v0 = vg → l = s.goal_distance_lookahead :=
    fun h => hl2 (by rw [hI.v_goal_eq]; exact h)
  have hkey : goal_calculate_key (goal_recompute s v0) v0
      = Weight.min (s.goal_distance v0) (l v0) := by
    rw [hr]
    rfl
  have build : ∀ (q : HeapIndexed Weight) (cq : HeapIndexed conn_key),
      SideInv g w vg s.goal_distance l q (fun e => pendG e ∧ e.tgt ≠ v0) →
      (cq.entries.map Prod.fst).Nodup →
      (∀ e ∈ cq.entries, e ∈ s.conn_queue.entries) →
      (∀ e ∈ g.arcs, s.start_distance e.src ≠ Weight.inf →
        s.goal_distance e.tgt ≠ Weight.inf → ¬ pendC e → cq.contains e.idx = true) →
      FreshInv g w vs vg
        { s with goal_predecessor := p, goal_distance_lookahead := l,
                 goal_queue := q, conn_queue := cq }
        pendS (fun e => pendG e ∧ e.tgt ≠ v0) pendC :=
    fun q cq hside hn hsub hcomp =>
      { g_eq := hI.g_eq, weight_eq := hI.weight_eq, v_goal_eq := hI.v_goal_eq,
        v_start_eq := hI.v_start_eq, goal := hside,
        start := hI.start, conn_nodup := hn,
        conn_sound := fun i k hm => hI.conn_sound i k (hsub _ hm),
        conn_complete := hcomp }
  rcases goal_update_vertex_cases h with
    ⟨hc, hq, q, hrem, hbr⟩ | ⟨hc, hq, hs1⟩ | ⟨hc, hq, q, hupd, hs1⟩ | ⟨hc, hq, q, hins, hfold⟩
  · have hdinf : s.goal_distance v0 = Weight.inf := by
      by_contra hd
      have := side_not_queued hI.goal hd
      rw [hq] at this
      exact absurd this (by simp)
    rcases hbr with ⟨hd, -⟩ | ⟨-, hs1⟩
    · exact absurd hdinf hd
    · rw [hr] at hc hs1
      subst hs1
      refine ⟨build q s.conn_queue ?_ hI.conn_nodup (fun _ he => he) hI.conn_complete, rfl⟩
      exact (side_after_update hg hI.goal hv0 hl1 hl2v hl3
        (Or.inl ⟨hc, Or.inl ⟨hq, hrem⟩⟩)).1
  · rw [hr] at hc hs1
    subst hs1
    refine ⟨build s.goal_queue s.conn_queue ?_ hI.conn_nodup (fun _ he => he)
      hI.conn_complete, rfl⟩
    exact (side_after_update hg hI.goal hv0 hl1 hl2v hl3
      (Or.inl ⟨hc, Or.inr ⟨hq, rfl⟩⟩)).1
  · rw [hkey] at hupd
    rw [hr] at hc hs1
    subst hs1
    refine ⟨build q s.conn_queue ?_ hI.conn_nodup (fun _ he => he) hI.conn_complete, rfl⟩
    exact (side_after_update hg hI.goal hv0 hl1 hl2v hl3
      (Or.inr ⟨hc, Or.inl ⟨hq, hupd⟩⟩)).1
  · rw [hkey] at hins
    rw [hr] at hc hfold
    obtain ⟨hside, hK⟩ := side_after_update hg hI.goal hv0 hl1 hl2v hl3
      (Or.inr ⟨hc, Or.inr ⟨hq, hins⟩⟩)
    obtain ⟨cq, rfl, hn, hsub, hcont⟩ := conn_drop_fold hfold
    refine ⟨build q cq hside (hn hI.conn_nodup) hsub ?_, rfl⟩
    intro e he hds hdg hpc
    rw [hcont]
    · exact hI.conn_complete e he hds hdg hpc
    · intro hmem
      simp only [List.mem_map] at hmem
      obtain ⟨e0, he0, hidx⟩ := hmem
      rw [hI.g_eq] at he0
      obtain ⟨he0a, he0s⟩ := mem_in_edges.mp he0
      have : e0 = e := idx_inj hg he0a he hidx
      rw [this] at he0s
      rw [he0s] at hdg
      exact hdg (hK hc)

end inc_bi

namespace inc_bi

theorem start_lower_step_fresh {g : Graph} {w : Arc → Weight} {vs vg : Nat}
    (hg : g.WellFormed) {pc : Arc → Prop} {u : Nat} {u_dist : Weight} (hud : u_dist ≠ Weight.inf)
    (e0 : Arc) (l : List Arc) (s s1 : inc_bi)
    (hP : FreshInv g w vs vg s (fun e => e.src = u ∧ e.tgt ∈ (e0 :: l).map Arc.tgt)
        (fun _ => False) (fun e => pc e ∨ (e.src = u ∧ e ∈ e0 :: l)) ∧
      s.start_distance u = u_dist ∧ ∀ e ∈ e0 :: l, e ∈ g.arcs ∧ e.src = u)
    (h : start_lower_step u_dist s e0 = some s1) :
    FreshInv g w vs vg s1 (fun e => e.src = u ∧ e.tgt ∈ l.map Arc.tgt)
        (fun _ => False) (fun e => pc e ∨ (e.src = u ∧ e ∈ l)) ∧
      s1.start_distance u = u_dist ∧ ∀ e ∈ l, e ∈ g.arcs ∧ e.src = u := by
  obtain ⟨hI, hdu, hl⟩ := hP
  obtain ⟨he0, he0s⟩ := hl e0 (List.mem_cons_self _ _)
  unfold start_lower_step at h
  simp only [Option.bind_eq_some] at h
  obtain ⟨s2, h2, h3⟩ := h
  obtain ⟨hI2, hd2⟩ := start_update_vertex_fresh hg hI (hg.1 e0 he0).2 h2
  have hI3 : FreshInv g w vs vg s2 (fun e => e.src = u ∧ e.tgt ∈ l.map Arc.tgt)
      (fun _ => False) (fun e => pc e ∨ (e.src = u ∧ e ∈ e0 :: l)) :=
    { hI2 with
      start := sideInv_mono hI2.start (by
        rintro e ⟨⟨h1, h2⟩, h3⟩
        simp only [List.map_cons, List.mem_cons] at h2
        exact ⟨h1, h2.resolve_left h3⟩) }
  have hdu2 : s2.start_distance u = u_dist := by rw [hd2, hdu]
  refine ⟨?_, ?_, fun e he => hl e (List.mem_cons_of_mem _ he)⟩
  · split at h3
    · next hguard =>
      simp only [Bool.and_eq_true, decide_eq_true_eq, Bool.not_eq_true'] at hguard
      simp only [Option.map_eq_some'] at h3
      obtain ⟨cq, hcq, rfl⟩ := h3
      exact
        { g_eq := hI3.g_eq, weight_eq := hI3.weight_eq, v_start_eq := hI3.v_start_eq,
          v_goal_eq := hI3.v_goal_eq, start := hI3.start,
          goal := hI3.goal, conn_nodup := HeapIndexed.nodup_insert hcq hI3.conn_nodup,
          conn_sound := by
            intro i k hm
            rcases (HeapIndexed.mem_entries_insert hcq (i, k)).mp hm with h4 | h4
            · exact hI3.conn_sound i k h4
            · simp only [Prod.mk.injEq] at h4
              obtain ⟨rfl, rfl⟩ := h4
              refine ⟨e0, he0, rfl, ?_, hguard.2, ?_⟩
              · show s2.start_distance e0.src ≠ Weight.inf
                rw [he0s, hdu2]
                exact hud
              · show _ = conn_key.mk _ (s2.start_distance e0.src) _
                rw [he0s, hdu2, hI3.weight_eq]
          conn_complete := by
            intro e he hds hdg hpc
            show cq.contains e.idx = true
            rw [HeapIndexed.contains_insert hcq]
            by_cases hee : e = e0
            · subst hee
              simp
            · have := hI3.conn_complete e he hds hdg (by
                rintro (h8 | ⟨h5, h6⟩)
                · exact hpc (Or.inl h8)
                · rcases List.mem_cons.mp h6 with h7 | h7
                  · exact hee h7
                  · exact hpc (Or.inr ⟨h5, h7⟩))
              simp [this] }
    · next hguard =>
      simp only [Option.some.injEq] at h3
      subst h3
      exact
        { hI3 with
          conn_complete := by
            intro e he hds hdg hpc
            apply hI3.conn_complete e he hds hdg
            rintro (h8 | ⟨h5, h6⟩)
            · exact hpc (Or.inl h8)
            · rcases List.mem_cons.mp h6 with h7 | h7
              · subst h7
                apply hguard
                have hnq := side_not_queued hI3.goal hdg
                simp [hud, hnq, hdg]
              · exact hpc (Or.inr ⟨h5, h7⟩) }
  · split at h3
    · simp only [Option.map_eq_some'] at h3
      obtain ⟨cq, -, rfl⟩ := h3
      exact hdu2
    · simp only [Option.some.injEq] at h3
      subst h3
      exact hdu2

end inc_bi

namespace inc_bi

theorem start_settle_fresh {g : Graph} {w : Arc → Weight} {vs vg : Nat}
    (hg : g.WellFormed) {pc : Arc → Prop} (hvs : vs < g.nv) {s : inc_bi}
    (hI : FreshInv g w vs vg s (fun _ => False) (fun _ => False) pc)
    {u : Nat} {k : Weight} {q : HeapIndexed Weight}
    (hmem : (u, k) ∈ s.start_queue.entries)
    (hmin : ∀ v k1, (v, k1) ∈ s.start_queue.entries → Weight.le k k1 = true)
    (hrem : s.start_queue.remove u = some q) :
    u < g.nv ∧ s.start_distance u = Weight.inf ∧
      s.start_distance_lookahead u ≠ Weight.inf ∧
      FreshInv g w vs vg
          { s with start_queue := q,
                   start_distance :=
                     Function.update s.start_distance u (s.start_distance_lookahead u) }
          (fun e1 => e1.src = u ∧ e1.tgt ∈ (out_edges u s.g).map Arc.tgt) (fun _ => False)
          (fun e1 => pc e1 ∨ (e1.src = u ∧ e1 ∈ out_edges u s.g)) := by
  obtain ⟨hunv, hk, hdu⟩ := hI.start.queue_key u k hmem
  have hru : s.start_distance_lookahead u ≠ Weight.inf := by
    have := (hI.start.queue_iff u hunv).mp ((HeapIndexed.contains_iff _ u).mpr ⟨k, hmem⟩)
    rw [hdu] at this
    exact fun h2 => this h2.symm
  have hdist : IsDist g w vs u (s.start_distance_lookahead u) :=
    side_settle hg hvs hI.start hmem hmin
  have hqu : q.contains u = false := by
    rw [HeapIndexed.contains_remove hrem u]
    simp
  have hqv : ∀ v, v ≠ u → q.contains v = s.start_queue.contains v := by
    intro v hv
    rw [HeapIndexed.contains_remove hrem v]
    simp [Ne.symm hv]
  have hne_src : ∀ e1 ∈ g.arcs, s.start_distance e1.src ≠ Weight.inf → e1.src ≠ u := by
    intro e1 _ hd1 heq
    rw [heq] at hd1
    exact hd1 hdu
  have hP0 : FreshInv g w vs vg
      { s with start_queue := q,
               start_distance :=
                 Function.update s.start_distance u (s.start_distance_lookahead u) }
      (fun e1 => e1.src = u ∧ e1.tgt ∈ (out_edges u s.g).map Arc.tgt) (fun _ => False)
      (fun e1 => pc e1 ∨ (e1.src = u ∧ e1 ∈ out_edges u s.g)) :=
    { g_eq := hI.g_eq, weight_eq := hI.weight_eq, v_start_eq := hI.v_start_eq,
      v_goal_eq := hI.v_goal_eq,
      start :=
        { settled := by
            intro v hv hd
            by_cases hvu : v = u
            · subst hvu
              simp only [Function.update_same]
              exact hdist
            · simp only [Function.update_noteq hvu] at hd ⊢
              exact hI.start.settled v hv hd
          rhs_src := hI.start.rhs_src
          rhs_le := by
            intro e1 he1 ht hn
            have hsrc : e1.src ≠ u := by
              intro heq
              apply hn
              refine ⟨heq, List.mem_map.mpr ⟨e1, ?_, rfl⟩⟩
              rw [hI.g_eq]
              exact mem_out_edges.mpr ⟨he1, heq⟩
            simp only [Function.update_noteq hsrc]
            exact hI.start.rhs_le e1 he1 ht (fun hf => hf)
          rhs_attained := by
            intro v hv hvs2
            rcases hI.start.rhs_attained v hv hvs2 with h1 | ⟨e1, he1, het, her⟩
            · exact Or.inl h1
            · by_cases hsrc : e1.src = u
              · left
                rw [her, hsrc, hdu]
                exact Weight.inf_combine _
              · right
                refine ⟨e1, he1, het, ?_⟩
                simp only [Function.update_noteq hsrc]
                exact her
          queue_iff := by
            intro v hv
            by_cases hvu : v = u
            · subst hvu
              simp [hqu]
            · simp only [hqv v hvu, Function.update_noteq hvu]
              exact hI.start.queue_iff v hv
          queue_key := by
            intro v k1 hm
            obtain ⟨hm1, hm2⟩ := (HeapIndexed.mem_entries_remove hrem (v, k1)).mp hm
            simp only [Function.update_noteq hm2]
            exact hI.start.queue_key v k1 hm1
          first := by
            intro hd
            exfalso
            have hvsu : vs ≠ u := by
              intro heq
              rw [heq] at hd
              simp only [Function.update_same] at hd
              exact hru hd
            simp only [Function.update_noteq hvsu] at hd
            rcases hI.start.rhs_attained u hunv (Ne.symm hvsu) with h1 | ⟨e1, he1, -, her⟩
            · exact hru h1
            · apply hru
              rw [her, hI.start.first hd e1.src (hg.1 e1 he1).1]
              exact Weight.inf_combine _ }
      goal := hI.goal
      conn_nodup := hI.conn_nodup
      conn_sound := by
        intro i k hm
        obtain ⟨e1, he1, hi, hds, hdg, hkk⟩ := hI.conn_sound i k hm
        have hsrc := hne_src e1 he1 hds
        refine ⟨e1, he1, hi, ?_, hdg, ?_⟩
        · simp only [Function.update_noteq hsrc]
          exact hds
        · simp only [Function.update_noteq hsrc]
          exact hkk
      conn_complete := by
        intro e1 he1 hds hdg hpc
        have hsrc : e1.src ≠ u := by
          intro heq
          apply hpc
          refine Or.inr ⟨heq, ?_⟩
          rw [hI.g_eq]
          exact mem_out_edges.mpr ⟨he1, heq⟩
        simp only [Function.update_noteq hsrc] at hds
        exact hI.conn_complete e1 he1 hds hdg (fun hf => hpc (Or.inl hf)) }
  exact ⟨hunv, hdu, hru, hP0⟩

theorem expand_start_fresh {g : Graph} {w : Arc → Weight} {vs vg : Nat}
    (hg : g.WellFormed) {pc : Arc → Prop} (hvs : vs < g.nv) {s s1 : inc_bi}
    (hI : FreshInv g w vs vg s (fun _ => False) (fun _ => False) pc)
    (h : expand_start s = some s1) :
    FreshInv g w vs vg s1 (fun _ => False) (fun _ => False) pc := by
  unfold expand_start at h
  simp only [Option.bind_eq_some] at h
  obtain ⟨u, hu, q, hq, h⟩ := h
  obtain ⟨e, he, hrem⟩ := HeapIndexed.remove_min_eq_some hq
  have hue : e.1 = u := by
    simp only [HeapIndexed.top_idx, he, Option.map_some', Option.some.injEq] at hu
    exact hu
  have hmem : (u, e.2) ∈ s.start_queue.entries := by
    rw [← hue]
    exact HeapIndexed.top_mem he
  rw [hue] at hrem
  have hmin : ∀ v k1, (v, k1) ∈ s.start_queue.entries → Weight.le e.2 k1 = true := by
    intro v k1 hm
    have := top_minimal he (v, k1) hm
    simpa [Weight.le] using this
  obtain ⟨hunv, hdu, hru, hP0⟩ := start_settle_fresh hg hvs hI hmem hmin hrem
  have hcond : Weight.gt (s.start_distance u) (s.start_distance_lookahead u) = true := by
    rw [hdu]
    exact Weight.lt_inf_of_ne hru
  simp only [hcond, if_true] at h
  have hfin := foldlM_inv_list
    (fun l t => FreshInv g w vs vg t (fun e1 => e1.src = u ∧ e1.tgt ∈ l.map Arc.tgt)
        (fun _ => False) (fun e1 => pc e1 ∨ (e1.src = u ∧ e1 ∈ l)) ∧
      t.start_distance u = s.start_distance_lookahead u ∧ ∀ e1 ∈ l, e1 ∈ g.arcs ∧ e1.src = u)
    (start_lower_step (s.start_distance_lookahead u))
    (fun a l t t1 hP ht => start_lower_step_fresh hg hru a l t t1 hP ht)
    (out_edges u s.g) _ s1 ⟨hP0, by simp, by
      intro e1 he1
      rw [hI.g_eq] at he1
      exact mem_out_edges.mp he1⟩ h
  exact
    { hfin.1 with
      start := sideInv_mono hfin.1.start (by
        rintro e1 ⟨-, h2⟩
        simp at h2)
      conn_complete := by
        intro e1 he1 hds hdg hpc
        apply hfin.1.conn_complete e1 he1 hds hdg
        rintro (h1 | ⟨-, h2⟩)
        · exact hpc h1
        · simp at h2 }

end inc_bi

namespace inc_bi

theorem goal_lower_step_fresh {g : Graph} {w : Arc → Weight} {vs vg : Nat}
    (hg : g.WellFormed) {pc : Arc → Prop} {u : Nat} {u_dist : Weight} (hud : u_dist ≠ Weight.inf)
    (e0 : Arc) (l : List Arc) (s s1 : inc_bi)
    (hP : FreshInv g w vs vg s (fun _ => False)
        (fun e => e.src = u ∧ e.tgt ∈ (e0 :: l).map Arc.src)
        (fun e => pc e ∨ (e.tgt = u ∧ e ∈ e0 :: l)) ∧
      s.goal_distance u = u_dist ∧ ∀ e ∈ e0 :: l, e ∈ g.arcs ∧ e.tgt = u)
    (h : goal_lower_step u_dist s e0 = some s1) :
    FreshInv g w vs vg s1 (fun _ => False) (fun e => e.src = u ∧ e.tgt ∈ l.map Arc.src)
        (fun e => pc e ∨ (e.tgt = u ∧ e ∈ l)) ∧
      s1.goal_distance u = u_dist ∧ ∀ e ∈ l, e ∈ g.arcs ∧ e.tgt = u := by
  obtain ⟨hI, hdu, hl⟩ := hP
  obtain ⟨he0, he0t⟩ := hl e0 (List.mem_cons_self _ _)
  unfold goal_lower_step at h
  simp only [Option.bind_eq_some] at h
  obtain ⟨s2, h2, h3⟩ := h
  obtain ⟨hI2, hd2⟩ := goal_update_vertex_fresh hg hI (hg.1 e0 he0).1 h2
  have hI3 : FreshInv g w vs vg s2 (fun _ => False)
      (fun e => e.src = u ∧ e.tgt ∈ l.map Arc.src) (fun e => pc e ∨ (e.tgt = u ∧ e ∈ e0 :: l)) :=
    { hI2 with
      goal := sideInv_mono hI2.goal (by
        rintro e ⟨⟨h1, h2⟩, h3⟩
        simp only [List.map_cons, List.mem_cons] at h2
        exact ⟨h1, h2.resolve_left h3⟩) }
  have hdu2 : s2.goal_distance u = u_dist := by rw [hd2, hdu]
  refine ⟨?_, ?_, fun e he => hl e (List.mem_cons_of_mem _ he)⟩
  · split at h3
    · next hguard =>
      simp only [Bool.and_eq_true, decide_eq_true_eq, Bool.not_eq_true'] at hguard
      simp only [Option.map_eq_some'] at h3
      obtain ⟨cq, hcq, rfl⟩ := h3
      exact
        { g_eq := hI3.g_eq, weight_eq := hI3.weight_eq, v_goal_eq := hI3.v_goal_eq,
          v_start_eq := hI3.v_start_eq, goal := hI3.goal,
          start := hI3.start, conn_nodup := HeapIndexed.nodup_insert hcq hI3.conn_nodup,
          conn_sound := by
            intro i k hm
            rcases (HeapIndexed.mem_entries_insert hcq (i, k)).mp hm with h4 | h4
            · exact hI3.conn_sound i k h4
            · simp only [Prod.mk.injEq] at h4
              obtain ⟨rfl, rfl⟩ := h4
              refine ⟨e0, he0, rfl, hguard.2, ?_, ?_⟩
              · show s2.goal_distance e0.tgt ≠ Weight.inf
                rw [he0t, hdu2]
                exact hud
              · show _ = conn_key.mk _ _ (s2.goal_distance e0.tgt)
                rw [he0t, hdu2, hI3.weight_eq]
          conn_complete := by
            intro e he hds hdg hpc
            show cq.contains e.idx = true
            rw [HeapIndexed.contains_insert hcq]
            by_cases hee : e = e0
            · subst hee
              simp
            · have := hI3.conn_complete e he hds hdg (by
                rintro (h8 | ⟨h5, h6⟩)
                · exact hpc (Or.inl h8)
                · rcases List.mem_cons.mp h6 with h7 | h7
                  · exact hee h7
                  · exact hpc (Or.inr ⟨h5, h7⟩))
              simp [this] }
    · next hguard =>
      simp only [Option.some.injEq] at h3
      subst h3
      exact
        { hI3 with
          conn_complete := by
            intro e he hds hdg hpc
            apply hI3.conn_complete e he hds hdg
            rintro (h8 | ⟨h5, h6⟩)
            · exact hpc (Or.inl h8)
            · rcases List.mem_cons.mp h6 with h7 | h7
              · subst h7
                apply hguard
                have hnq := side_not_queued hI3.start hds
                simp [hud, hnq, hds]
              · exact hpc (Or.inr ⟨h5, h7⟩) }
  · split at h3
    · simp only [Option.map_eq_some'] at h3
      obtain ⟨cq, -, rfl⟩ := h3
      exact hdu2
    · simp only [Option.some.injEq] at h3
      subst h3
      exact hdu2

end inc_bi

namespace inc_bi

theorem goal_settle_fresh {g : Graph} {w : Arc → Weight} {vs vg : Nat}
    (hg : g.WellFormed) {pc : Arc → Prop} (hmir : Mirrored g w) (hvs : vg < g.nv) {s : inc_bi}
    (hI : FreshInv g w vs vg s (fun _ => False) (fun _ => False) pc)
    {u : Nat} {k : Weight} {q : HeapIndexed Weight}
    (hmem : (u, k) ∈ s.goal_queue.entries)
    (hmin : ∀ v k1, (v, k1) ∈ s.goal_queue.entries → Weight.le k k1 = true)
    (hrem : s.goal_queue.remove u = some q) :
    u < g.nv ∧ s.goal_distance u = Weight.inf ∧
      s.goal_distance_lookahead u ≠ Weight.inf ∧
      FreshInv g w vs vg
          { s with goal_queue := q,
                   goal_distance :=
                     Function.update s.goal_distance u (s.goal_distance_lookahead u) }
          (fun _ => False) (fun e1 => e1.src = u ∧ e1.tgt ∈ (in_edges u s.g).map Arc.src)
          (fun e1 => pc e1 ∨ (e1.tgt = u ∧ e1 ∈ in_edges u s.g)) := by
  obtain ⟨hunv, hk, hdu⟩ := hI.goal.queue_key u k hmem
  have hru : s.goal_distance_lookahead u ≠ Weight.inf := by
    have := (hI.goal.queue_iff u hunv).mp ((HeapIndexed.contains_iff _ u).mpr ⟨k, hmem⟩)
    rw [hdu] at this
    exact fun h2 => this h2.symm
  have hdist : IsDist g w vg u (s.goal_distance_lookahead u) :=
    side_settle hg hvs hI.goal hmem hmin
  have hqu : q.contains u = false := by
    rw [HeapIndexed.contains_remove hrem u]
    simp
  have hqv : ∀ v, v ≠ u → q.contains v = s.goal_queue.contains v := by
    intro v hv
    rw [HeapIndexed.contains_remove hrem v]
    simp [Ne.symm hv]
  have hne_tgt : ∀ e1 ∈ g.arcs, s.goal_distance e1.tgt ≠ Weight.inf → e1.tgt ≠ u := by
    intro e1 _ hd1 heq
    rw [heq] at hd1
    exact hd1 hdu
  have hP0 : FreshInv g w vs vg
      { s with goal_queue := q,
               goal_distance :=
                 Function.update s.goal_distance u (s.goal_distance_lookahead u) }
      (fun _ => False) (fun e1 => e1.src = u ∧ e1.tgt ∈ (in_edges u s.g).map Arc.src)
      (fun e1 => pc e1 ∨ (e1.tgt = u ∧ e1 ∈ in_edges u s.g)) :=
    { g_eq := hI.g_eq, weight_eq := hI.weight_eq, v_goal_eq := hI.v_goal_eq,
      v_start_eq := hI.v_start_eq,
      goal :=
        { settled := by
            intro v hv hd
            by_cases hvu : v = u
            · subst hvu
              simp only [Function.update_same]
              exact hdist
            · simp only [Function.update_noteq hvu] at hd ⊢
              exact hI.goal.settled v hv hd
          rhs_src := hI.goal.rhs_src
          rhs_le := by
            intro e1 he1 ht hn
            have hsrc : e1.src ≠ u := by
              intro heq
              apply hn
              obtain ⟨e2, he2, hs2, ht2, -⟩ := hmir e1 he1
              refine ⟨heq, List.mem_map.mpr ⟨e2, ?_, hs2⟩⟩
              rw [hI.g_eq]
              exact mem_in_edges.mpr ⟨he2, ht2.trans heq⟩
            simp only [Function.update_noteq hsrc]
            exact hI.goal.rhs_le e1 he1 ht (fun hf => hf)
          rhs_attained := by
            intro v hv hvs2
            rcases hI.goal.rhs_attained v hv hvs2 with h1 | ⟨e1, he1, het, her⟩
            · exact Or.inl h1
            · by_cases hsrc : e1.src = u
              · left
                rw [her, hsrc, hdu]
                exact Weight.inf_combine _
              · right
                refine ⟨e1, he1, het, ?_⟩
                simp only [Function.update_noteq hsrc]
                exact her
          queue_iff := by
            intro v hv
            by_cases hvu : v = u
            · subst hvu
              simp [hqu]
            · simp only [hqv v hvu, Function.update_noteq hvu]
              exact hI.goal.queue_iff v hv
          queue_key := by
            intro v k1 hm
            obtain ⟨hm1, hm2⟩ := (HeapIndexed.mem_entries_remove hrem (v, k1)).mp hm
            simp only [Function.update_noteq hm2]
            exact hI.goal.queue_key v k1 hm1
          first := by
            intro hd
            exfalso
            have hvsu : vg ≠ u := by
              intro heq
              rw [heq] at hd
              simp only [Function.update_same] at hd
              exact hru hd
            simp only [Function.update_noteq hvsu] at hd
            rcases hI.goal.rhs_attained u hunv (Ne.symm hvsu) with h1 | ⟨e1, he1, -, her⟩
            · exact hru h1
            · apply hru
              rw [her, hI.goal.first hd e1.src (hg.1 e1 he1).1]
              exact Weight.inf_combine _ }
      start := hI.start
      conn_nodup := hI.conn_nodup
      conn_sound := by
        intro i k hm
        obtain ⟨e1, he1, hi, hds, hdg, hkk⟩ := hI.conn_sound i k hm
        have htgt := hne_tgt e1 he1 hdg
        refine ⟨e1, he1, hi, hds, ?_, ?_⟩
        · simp only [Function.update_noteq htgt]
          exact hdg
        · simp only [Function.update_noteq htgt]
          exact hkk
      conn_complete := by
        intro e1 he1 hds hdg hpc
        have htgt : e1.tgt ≠ u := by
          intro heq
          apply hpc
          refine Or.inr ⟨heq, ?_⟩
          rw [hI.g_eq]
          exact mem_in_edges.mpr ⟨he1, heq⟩
        simp only [Function.update_noteq htgt] at hdg
        exact hI.conn_complete e1 he1 hds hdg (fun hf => hpc (Or.inl hf)) }
  exact ⟨hunv, hdu, hru, hP0⟩

theorem expand_goal_fresh {g : Graph} {w : Arc → Weight} {vs vg : Nat}
    (hg : g.WellFormed) {pc : Arc → Prop} (hmir : Mirrored g w) (hvs : vg < g.nv) {s s1 : inc_bi}
    (hI : FreshInv g w vs vg s (fun _ => False) (fun _ => False) pc)
    (h : expand_goal s = some s1) :
    FreshInv g w vs vg s1 (fun _ => False) (fun _ => False) pc := by
  unfold expand_goal at h
  simp only [Option.bind_eq_some] at h
  obtain ⟨u, hu, q, hq, h⟩ := h
  obtain ⟨e, he, hrem⟩ := HeapIndexed.remove_min_eq_some hq
  have hue : e.1 = u := by
    simp only [HeapIndexed.top_idx, he, Option.map_some', Option.some.injEq] at hu
    exact hu
  have hmem : (u, e.2) ∈ s.goal_queue.entries := by
    rw [← hue]
    exact HeapIndexed.top_mem he
  rw [hue] at hrem
  have hmin : ∀ v k1, (v, k1) ∈ s.goal_queue.entries → Weight.le e.2 k1 = true := by
    intro v k1 hm
    have := top_minimal he (v, k1) hm
    simpa [Weight.le] using this
  obtain ⟨hunv, hdu, hru, hP0⟩ := goal_settle_fresh hg hmir hvs hI hmem hmin hrem
  have hcond : Weight.gt (s.goal_distance u) (s.goal_distance_lookahead u) = true := by
    rw [hdu]
    exact Weight.lt_inf_of_ne hru
  simp only [hcond, if_true] at h
  have hfin := foldlM_inv_list
    (fun l t => FreshInv g w vs vg t (fun _ => False)
        (fun e1 => e1.src = u ∧ e1.tgt ∈ l.map Arc.src) (fun e1 => pc e1 ∨ (e1.tgt = u ∧ e1 ∈ l)) ∧
      t.goal_distance u = s.goal_distance_lookahead u ∧ ∀ e1 ∈ l, e1 ∈ g.arcs ∧ e1.tgt = u)
    (goal_lower_step (s.goal_distance_lookahead u))
    (fun a l t t1 hP ht => goal_lower_step_fresh hg hru a l t t1 hP ht)
    (in_edges u s.g) _ s1 ⟨hP0, by simp, by
      intro e1 he1
      rw [hI.g_eq] at he1
      exact mem_in_edges.mp he1⟩ h
  exact
    { hfin.1 with
      goal := sideInv_mono hfin.1.goal (by
        rintro e1 ⟨-, h2⟩
        simp at h2)
      conn_complete := by
        intro e1 he1 hds hdg hpc
        apply hfin.1.conn_complete e1 he1 hds hdg
        rintro (h1 | ⟨-, h2⟩)
        · exact hpc h1
        · simp at h2 }

end inc_bi

namespace inc_bi

theorem start_top_le {s : inc_bi} {st : Weight} (h : start_top s = some st) :
    ∀ v k1, (v, k1) ∈ s.start_queue.entries → Weight.le st k1 = true := by
  intro v k1 hm
  unfold start_top at h
  split at h
  · simp only [HeapIndexed.top_key, Option.map_eq_some'] at h
    obtain ⟨e, he, rfl⟩ := h
    have := top_minimal he (v, k1) hm
    simpa [Weight.le] using this
  · next hsz =>
    simp only [HeapIndexed.size, ne_eq, Decidable.not_not, List.length_eq_zero] at hsz
    rw [hsz] at hm
    simp at hm

theorem goal_top_le {s : inc_bi} {st : Weight} (h : goal_top s = some st) :
    ∀ v k1, (v, k1) ∈ s.goal_queue.entries → Weight.le st k1 = true := by
  intro v k1 hm
  unfold goal_top at h
  split at h
  · simp only [HeapIndexed.top_key, Option.map_eq_some'] at h
    obtain ⟨e, he, rfl⟩ := h
    have := top_minimal he (v, k1) hm
    simpa [Weight.le] using this
  · next hsz =>
    simp only [HeapIndexed.size, ne_eq, Decidable.not_not, List.length_eq_zero] at hsz
    rw [hsz] at hm
    simp at hm

theorem construct_fresh {g : Graph} {vs vg : Nat} {sp : Nat → Nat} {sd sl : Nat → Weight}
    {gp : Nat → Nat} {gd gl : Nat → Weight} {w : Arc → Weight} {m : Weight}
    {t1 t2 t3 : Nat → Nat}
    {s : inc_bi} (hg : g.WellFormed) (hvs : vs < g.nv) (hvg : vg < g.nv)
    (h : construct g vs vg sp sd sl gp gd gl w m t1 t2 t3 = some s) :
    FreshInv g w vs vg s (fun _ => False) (fun _ => False) (fun _ => False) := by
  have hopen := reachable_open_queue (Reachable.construct _ _ _ _ _ _ _ _ _ _ _ _ _ _ s h)
  obtain ⟨hg1, h1, h2, h3, -, -, -, h5, h6, h7, h8, h9, h10, h11⟩ := construct_spec h
  rw [hg1] at hopen
  have hside : ∀ (src : Nat) (d r : Nat → Weight) (q : HeapIndexed Weight) (t : Nat → Nat),
      src < g.nv → (∀ v, d v = if v < g.nv then Weight.inf else d v) →
      (∀ v, v < g.nv → r v = if v = src then Weight.zero else Weight.inf) →
      q = ⟨[(src, Weight.zero)], 1, t⟩ →
      (∀ v, v < g.nv → (q.contains v = true ↔ d v ≠ r v)) →
      SideInv g w src d r q (fun _ => False) := by
    intro src d r q t hsrc hd hr hq hiff
    have hdinf : ∀ v, v < g.nv → d v = Weight.inf := by
      intro v hv
      rw [hd v]
      simp [hv]
    refine ⟨?_, ?_, ?_, ?_, hiff, ?_, fun _ => hdinf⟩
    · intro v hv hdv
      exact absurd (hdinf v hv) hdv
    · rw [hr src hsrc]
      simp
    · intro e he _ _
      rw [hdinf e.src (hg.1 e he).1, Weight.inf_combine]
      exact Weight.le_inf _
    · intro v hv hvs2
      left
      rw [hr v hv]
      simp [hvs2]
    · intro v k hm
      rw [hq] at hm
      simp only [List.mem_singleton, Prod.mk.injEq] at hm
      obtain ⟨rfl, rfl⟩ := hm
      refine ⟨hsrc, ?_, hdinf v hsrc⟩
      rw [hr v hsrc]
      simp
  refine
    { g_eq := hg1, weight_eq := h3, v_start_eq := h1, v_goal_eq := h2,
      start := hside vs _ _ _ t1 hvs ?_ ?_ h9 (fun v hv => (hopen v hv).1),
      goal := hside vg _ _ _ t2 hvg ?_ ?_ h10 (fun v hv => (hopen v hv).2),
      conn_nodup := by rw [h11]; simp,
      conn_sound := by
        intro i k hm
        rw [h11] at hm
        simp at hm,
      conn_complete := by
        intro e he hds
        rw [h5 e.src] at hds
        simp [(hg.1 e he).1] at hds }
  · intro v
    rw [h5 v]
    by_cases hv : v < g.nv <;> simp [hv]
  · intro v hv
    rw [h6 v]
    simp [hv]
  · intro v
    rw [h7 v]
    by_cases hv : v < g.nv <;> simp [hv]
  · intro v hv
    rw [h8 v]
    simp [hv]

end inc_bi

namespace inc_bi

/-- In a search from scratch the arc reported as found carries the shortest distance
from the start to the goal as its path length. -/
theorem fresh_found_dist {g : Graph} {w : Arc → Weight} {vs vg : Nat} (hg : g.WellFormed)
    (hmir : Mirrored g w) (hvs : vs < g.nv) (hvg : vg < g.nv) (hne : vs ≠ vg) {s : inc_bi}
    (hI : FreshInv g w vs vg s (fun _ => False) (fun _ => False) (fun _ => False))
    (hm : s.goal_margin = Weight.zero) {i : Nat} (hf : found_condition s i) :
    ∃ k, s.conn_queue.key_of i = some k ∧ IsDist g w vs vg k.path_length := by
  obtain ⟨-, k, st, gt, htop, hmin, hst, hgt, -, hL, -, -⟩ := hf
  rw [hm, Weight.combine_zero] at hL
  have hmem := HeapIndexed.top_mem htop
  refine ⟨k, HeapIndexed.key_of_eq_of_mem hI.conn_nodup hmem, ?_⟩
  obtain ⟨e, he, -, hda, hdb, hk⟩ := hI.conn_sound i k hmem
  have hkL : k.path_length = Weight.combine (Weight.combine (s.start_distance e.src) (w e))
      (s.goal_distance e.tgt) := by rw [hk]
  have hanv := (hg.1 e he).1
  have hbnv := (hg.1 e he).2
  -- the sources are settled at distance zero
  have hdvs : s.start_distance vs ≠ Weight.inf :=
    fun h => hda (hI.start.first h e.src hanv)
  have hdvg : s.goal_distance vg ≠ Weight.inf :=
    fun h => hdb (hI.goal.first h e.tgt hbnv)
  have hzs : s.start_distance vs = Weight.zero := isDist_self (hI.start.settled vs hvs hdvs)
  have hzg : s.goal_distance vg = Weight.zero := isDist_self (hI.goal.settled vg hvg hdvg)
  -- every connecting arc is at least as long as the reported one
  have hH : ∀ e1 ∈ g.arcs, s.start_distance e1.src ≠ Weight.inf →
      s.goal_distance e1.tgt ≠ Weight.inf →
      Weight.le k.path_length (Weight.combine
        (Weight.combine (s.start_distance e1.src) (w e1)) (s.goal_distance e1.tgt)) = true := by
    intro e1 he1 h1 h2
    have hc := hI.conn_complete e1 he1 h1 h2 (fun hf => hf)
    obtain ⟨k1, hk1⟩ := (HeapIndexed.contains_iff _ _).mp hc
    obtain ⟨e2, he2, hidx, -, -, hk2⟩ := hI.conn_sound _ _ hk1
    have hee : e2 = e1 := idx_inj hg he2 he1 hidx
    subst hee
    have := hmin _ hk1
    simp only [conn_key.lt] at this
    rw [hk2] at this
    simpa [Weight.le] using this
  have hLBs := side_lower_bound hg hvs hI.start st (start_top_le hst)
  have hLBg := side_lower_bound hg hvg hI.goal gt (goal_top_le hgt)
  constructor
  · right
    obtain ⟨p1, hp1, hl1⟩ := isDist_walk (hI.start.settled _ hanv hda) hda
    obtain ⟨p2, hp2, hl2⟩ := isDist_walk (hI.goal.settled _ hbnv hdb) hdb
    obtain ⟨q2, hq2, hlq⟩ := isWalk_reverse hmir hp2
    refine ⟨(p1 ++ [e]) ++ q2, isWalk_append (isWalk_snoc hp1 he rfl) hq2, ?_⟩
    rw [walk_len_append, walk_len_snoc, hl1, hlq, hl2, hkL]
  · have hM : ∀ p x, x < g.nv → s.start_distance x ≠ Weight.inf → IsWalk g x vg p →
        Weight.le k.path_length (Weight.combine (s.start_distance x) (walk_len w p)) = true := by
      intro p
      induction p with
      | nil =>
        intro x hx hdx hw
        simp only [IsWalk] at hw
        subst hw
        rw [walk_len, Weight.combine_zero]
        have hcons := side_settled_consistent hI.start hx hdx
        rcases hI.start.rhs_attained x hx (Ne.symm hne) with h1 | ⟨e1, he1, het, her⟩
        · rw [← hcons] at h1
          exact absurd h1 hdx
        · have hinf : Weight.combine (s.start_distance e1.src) (w e1) ≠ Weight.inf := by
            rw [← her, ← hcons]
            exact hdx
          have := hH e1 he1 (Weight.combine_ne_inf hinf).1 (by rw [het]; exact hdvg)
          rw [het, hzg, Weight.combine_zero, ← her, ← hcons] at this
          exact this
      | cons e1 p ih =>
        intro x hx hdx hw
        obtain ⟨he1, hs1, hp⟩ := hw
        have hy := (hg.1 e1 he1).2
        obtain ⟨px, hpx, hlx⟩ := isDist_walk (hI.start.settled x hx hdx) hdx
        have hwy : IsWalk g vs e1.tgt (px ++ [e1]) := isWalk_snoc hpx he1 hs1
        have hly : walk_len w (px ++ [e1]) = Weight.combine (s.start_distance x) (w e1) := by
          rw [walk_len_snoc, hlx]
        rw [walk_len, ← Weight.combine_assoc]
        by_cases hdy : s.start_distance e1.tgt = Weight.inf
        · obtain ⟨q, hq, hlq⟩ := isWalk_reverse hmir hp
          by_cases hgy : s.goal_distance e1.tgt = Weight.inf
          · have h1 := (hLBs _ _ hwy).2 hdy
            have h2 := (hLBg _ _ hq).2 hgy
            rw [hly] at h1
            rw [hlq] at h2
            exact Weight.le_trans hL (Weight.combine_le_combine h1 h2)
          · have h1 := hH e1 he1 (by rw [hs1]; exact hdx) hgy
            have h2 := (hLBg _ _ hq).1 hgy
            rw [hlq] at h2
            rw [hs1] at h1
            exact Weight.le_trans h1 (Weight.combine_le_combine (Weight.le_refl _) h2)
        · have h1 := ih e1.tgt hy hdy hp
          have h2 := (hLBs _ _ hwy).1 hdy
          rw [hly] at h2
          exact Weight.le_trans h1 (Weight.combine_le_combine h2 (Weight.le_refl _))
    intro p hp
    have := hM p vs hvs hdvs hp
    rw [hzs, Weight.zero_combine] at this
    exact this

end inc_bi

/-! ## The reference computation -/

theorem dijkstra_pick_fold (s : dijkstra_state) (l : List Nat) :
    (l.foldl (dijkstra_pick_step s) none = none → ∀ v ∈ l, v ∈ s.done) ∧
    (∀ u, l.foldl (dijkstra_pick_step s) none = some u → u ∈ l ∧ u ∉ s.done ∧
      ∀ v ∈ l, v ∉ s.done → Weight.le (s.dist u) (s.dist v) = true) := by
  induction l using List.reverseRecOn with
  | nil => simp
  | append_singleton l v ih =>
    rw [List.foldl_append]
    simp only [List.foldl_cons, List.foldl_nil]
    generalize l.foldl (dijkstra_pick_step s) none = best at ih
    obtain ⟨ih1, ih2⟩ := ih
    unfold dijkstra_pick_step
    by_cases hv : v ∈ s.done
    · rw [if_pos hv]
      refine ⟨fun h x hx => ?_, fun u hu => ?_⟩
      · rcases List.mem_append.mp hx with hx | hx
        · exact ih1 h x hx
        · rw [List.mem_singleton.mp hx]
          exact hv
      · obtain ⟨h1, h2, h3⟩ := ih2 u hu
        refine ⟨List.mem_append_left _ h1, h2, fun x hx hxd => ?_⟩
        rcases List.mem_append.mp hx with hx | hx
        · exact h3 x hx hxd
        · rw [List.mem_singleton.mp hx] at hxd
          exact absurd hv hxd
    · rw [if_neg hv]
      cases best with
      | none =>
        refine ⟨fun h => by simp at h, fun u hu => ?_⟩
        simp only [Option.some.injEq] at hu
        subst hu
        refine ⟨by simp, hv, fun x hx hxd => ?_⟩
        rcases List.mem_append.mp hx with hx | hx
        · exact absurd (ih1 rfl x hx) hxd
        · rw [List.mem_singleton.mp hx]
          exact Weight.le_refl _
      | some b =>
        obtain ⟨h1, h2, h3⟩ := ih2 b rfl
        dsimp only
        by_cases hlt : Weight.lt (s.dist v) (s.dist b) = true
        · rw [if_pos hlt]
          refine ⟨fun h => by simp at h, fun u hu => ?_⟩
          simp only [Option.some.injEq] at hu
          subst hu
          refine ⟨by simp, hv, fun x hx hxd => ?_⟩
          rcases List.mem_append.mp hx with hx | hx
          · exact Weight.le_trans (Weight.le_of_lt hlt) (h3 x hx hxd)
          · rw [List.mem_singleton.mp hx]
            exact Weight.le_refl _
        · rw [if_neg hlt]
          refine ⟨fun h => by simp at h, fun u hu => ?_⟩
          simp only [Option.some.injEq] at hu
          subst hu
          refine ⟨List.mem_append_left _ h1, h2, fun x hx hxd => ?_⟩
          rcases List.mem_append.mp hx with hx | hx
          · exact h3 x hx hxd
          · rw [List.mem_singleton.mp hx]
            exact (Weight.lt_false_iff_le _ _).mp (by simpa using hlt)

theorem dijkstra_relax_step (w : Arc → Weight) (u : Nat) (d0 : Nat → Weight) (e : Arc) :
    dijkstra_relax w u d0 e u = d0 u ∧
    (∀ v, Weight.le (dijkstra_relax w u d0 e v) (d0 v) = true) ∧
    (∀ v, dijkstra_relax w u d0 e v = d0 v ∨
      (e.tgt = v ∧ dijkstra_relax w u d0 e v = Weight.combine (d0 u) (w e))) ∧
    Weight.le (dijkstra_relax w u d0 e e.tgt) (Weight.combine (d0 u) (w e)) = true := by
  unfold dijkstra_relax
  by_cases hlt : Weight.lt (Weight.combine (d0 u) (w e)) (d0 e.tgt) = true
  · rw [if_pos hlt]
    have hne : u ≠ e.tgt := by
      intro h
      rw [← h] at hlt
      have h1 := (Weight.lt_false_iff_le _ _).mpr (Weight.le_combine_right (d0 u) (w e))
      rw [h1] at hlt
      exact Bool.noConfusion hlt
    refine ⟨Function.update_noteq hne _ _, fun v => ?_, fun v => ?_, ?_⟩
    · by_cases hv : v = e.tgt
      · rw [hv, Function.update_same]
        exact Weight.le_of_lt hlt
      · rw [Function.update_noteq hv]
        exact Weight.le_refl _
    · by_cases hv : v = e.tgt
      · right
        rw [hv]
        exact ⟨rfl, Function.update_same _ _ _⟩
      · left
        exact Function.update_noteq hv _ _
    · rw [Function.update_same]
      exact Weight.le_refl _
  · rw [if_neg hlt]
    refine ⟨rfl, fun v => Weight.le_refl _, fun v => Or.inl rfl, ?_⟩
    exact (Weight.lt_false_iff_le _ _).mp (by simpa using hlt)

theorem dijkstra_relax_fold (w : Arc → Weight) (u : Nat) (l : List Arc) :
    ∀ d0 : Nat → Weight,
      l.foldl (dijkstra_relax w u) d0 u = d0 u ∧
      (∀ v, Weight.le (l.foldl (dijkstra_relax w u) d0 v) (d0 v) = true) ∧
      (∀ v, l.foldl (dijkstra_relax w u) d0 v = d0 v ∨
        ∃ e ∈ l, e.tgt = v ∧
          l.foldl (dijkstra_relax w u) d0 v = Weight.combine (d0 u) (w e)) ∧
      (∀ e ∈ l, Weight.le (l.foldl (dijkstra_relax w u) d0 e.tgt)
        (Weight.combine (d0 u) (w e)) = true) := by
  induction l with
  | nil =>
    intro d0
    simp [Weight.le_refl]
  | cons e l ih =>
    intro d0
    rw [List.foldl_cons]
    obtain ⟨s1, s2, s3, s4⟩ := dijkstra_relax_step w u d0 e
    obtain ⟨i1, i2, i3, i4⟩ := ih (dijkstra_relax w u d0 e)
    rw [s1] at i1 i3 i4
    refine ⟨i1, fun v => Weight.le_trans (i2 v) (s2 v), fun v => ?_, fun e1 he1 => ?_⟩
    · rcases i3 v with h | ⟨e1, he1, ht, h⟩
      · rcases s3 v with h1 | ⟨ht, h1⟩
        · left
          rw [h, h1]
        · right
          exact ⟨e, List.mem_cons_self _ _, ht, by rw [h, h1]⟩
      · right
        exact ⟨e1, List.mem_cons_of_mem _ he1, ht, h⟩
    · rcases List.mem_cons.mp he1 with h | h
      · rw [h]
        exact Weight.le_trans (i2 _) s4
      · exact i4 e1 h

theorem dijkstra_init (g : Graph) (w : Arc → Weight) (start : Nat) :
    DijkstraInv g w start ⟨Function.update (fun _ => Weight.inf) start Weight.zero, []⟩ where
  dist_start := by
    dsimp only
    exact Function.update_same _ _ _
  attained := by
    intro v
    by_cases hv : v = start
    · right
      refine ⟨[], hv.symm, ?_⟩
      rw [hv]
      dsimp only
      rw [Function.update_same, walk_len]
    · left
      dsimp only
      exact Function.update_noteq hv _ _
  relaxed := by
    intro e _ h
    simp at h
  closer := by
    intro u h
    simp at h
  done_lt := by
    intro u h
    simp at h
  done_nodup := List.nodup_nil

theorem dijkstra_round {g : Graph} {w : Arc → Weight} {start : Nat} {s : dijkstra_state}
    {u : Nat} (hI : DijkstraInv g w start s) (hu : dijkstra_pick g s = some u) :
    DijkstraInv g w start
      ⟨(out_edges u g).foldl (dijkstra_relax w u) s.dist, u :: s.done⟩ := by
  obtain ⟨hu1, hu2, hu3⟩ := (dijkstra_pick_fold s (vertices g)).2 u hu
  have hunv : u < g.nv := List.mem_range.mp hu1
  have hmin : ∀ v, v < g.nv → v ∉ s.done → Weight.le (s.dist u) (s.dist v) = true :=
    fun v hv hvd => hu3 v (List.mem_range.mpr hv) hvd
  obtain ⟨f1, f2, f3, f4⟩ := dijkstra_relax_fold w u (out_edges u g) s.dist
  generalize (out_edges u g).foldl (dijkstra_relax w u) s.dist = d1 at f1 f2 f3 f4
  have hkeep : ∀ x ∈ s.done, d1 x = s.dist x := by
    intro x hx
    rcases f3 x with h | ⟨e, _, _, h⟩
    · exact h
    · apply Weight.le_antisymm (f2 x)
      rw [h]
      exact Weight.le_trans (hI.closer x hx u hunv hu2) (Weight.le_combine_right _ _)
  refine ⟨?_, ?_, ?_, ?_, ?_, ?_⟩
  · have h := f2 start
    rw [hI.dist_start] at h
    exact Weight.le_zero h
  · intro v
    dsimp only
    rcases f3 v with h | ⟨e, he, ht, h⟩
    · rw [h]
      exact hI.attained v
    · by_cases hdu : s.dist u = Weight.inf
      · left
        rw [h, hdu, Weight.inf_combine]
      · rcases hI.attained u with hinf | ⟨p, hp, hl⟩
        · exact absurd hinf hdu
        · right
          refine ⟨p ++ [e], ?_, ?_⟩
          · rw [← ht]
            exact isWalk_snoc hp (mem_out_edges.mp he).1 (mem_out_edges.mp he).2
          · rw [walk_len_snoc, hl, h]
  · intro e he hsrc
    dsimp only at hsrc ⊢
    rcases List.mem_cons.mp hsrc with h | h
    · have h1 := f4 e (mem_out_edges.mpr ⟨he, h⟩)
      rw [h, f1]
      exact h1
    · rw [hkeep _ h]
      exact Weight.le_trans (f2 _) (hI.relaxed e he h)
  · intro x hx v hv hvd
    dsimp only at hx hvd ⊢
    have hvd1 : v ∉ s.done := fun h => hvd (List.mem_cons_of_mem _ h)
    have hx1 : Weight.le (d1 x) (s.dist u) = true ∧ Weight.le (d1 x) (s.dist v) = true := by
      rcases List.mem_cons.mp hx with h | h
      · rw [h, f1]
        exact ⟨Weight.le_refl _, hmin v hv hvd1⟩
      · rw [hkeep x h]
        exact ⟨hI.closer x h u hunv hu2, hI.closer x h v hv hvd1⟩
    rcases f3 v with h | ⟨e, _, _, h⟩
    · rw [h]
      exact hx1.2
    · rw [h]
      exact Weight.le_trans hx1.1 (Weight.le_combine_right _ _)
  · intro x hx
    rcases List.mem_cons.mp hx with h | h
    · rw [h]
      exact hunv
    · exact hI.done_lt x h
  · exact List.nodup_cons.mpr ⟨hu2, hI.done_nodup⟩

theorem dijkstra_loop_inv {g : Graph} {w : Arc → Weight} {start : Nat} :
    ∀ (n : Nat) (s : dijkstra_state), DijkstraInv g w start s →
      DijkstraInv g w start (dijkstra_loop g w n s) ∧
      ((∀ v, v < g.nv → v ∈ (dijkstra_loop g w n s).done) ∨
        (dijkstra_loop g w n s).done.length = s.done.length + n) := by
  intro n
  induction n with
  | zero =>
    intro s hI
    exact ⟨hI, Or.inr rfl⟩
  | succ n ih =>
    intro s hI
    cases hp : dijkstra_pick g s with
    | none =>
      have hl : dijkstra_loop g w (n + 1) s = s := by
        simp only [dijkstra_loop, hp]
      rw [hl]
      exact ⟨hI, Or.inl fun v hv =>
        (dijkstra_pick_fold s (vertices g)).1 hp v (List.mem_range.mpr hv)⟩
    | some u =>
      have hl : dijkstra_loop g w (n + 1) s = dijkstra_loop g w n
          ⟨(out_edges u g).foldl (dijkstra_relax w u) s.dist, u :: s.done⟩ := by
        simp only [dijkstra_loop, hp]
      rw [hl]
      obtain ⟨h1, h2⟩ := ih _ (dijkstra_round hI hp)
      refine ⟨h1, ?_⟩
      rcases h2 with h2 | h2
      · exact Or.inl h2
      · right
        rw [h2, List.length_cons]
        omega

theorem dijkstra_all_done {g : Graph} {w : Arc → Weight} {start : Nat} {s : dijkstra_state}
    (hg : g.WellFormed) (hs : start < g.nv) (hI : DijkstraInv g w start s)
    (hall : ∀ v, v < g.nv → v ∈ s.done) :
    ∀ p x, IsWalk g start x p → Weight.le (s.dist x) (walk_len w p) = true := by
  intro p
  induction p using List.reverseRecOn with
  | nil =>
    intro x hx
    simp only [IsWalk] at hx
    subst hx
    rw [hI.dist_start]
    exact Weight.zero_le _
  | append_singleton p e ih =>
    intro x hx
    obtain ⟨b, hb1, he, hsrc, ht⟩ := isWalk_snoc_inv hx
    have hb : b ∈ s.done := hall b (isWalk_lt hg hs hb1)
    have h1 := hI.relaxed e he (by rw [hsrc]; exact hb)
    rw [ht, hsrc] at h1
    rw [walk_len_snoc]
    exact Weight.le_trans h1 (Weight.combine_le_combine (ih b hb1) (Weight.le_refl _))

/-- The reference computation returns the shortest distance from the start to the goal. -/
theorem dijkstra_isDist {g : Graph} {w : Arc → Weight} {start goal : Nat}
    (hg : g.WellFormed) (hs : start < g.nv) :
    IsDist g w start goal (dijkstra g w start goal) := by
  unfold dijkstra
  obtain ⟨hI, hall⟩ := dijkstra_loop_inv g.nv _ (dijkstra_init g w start)
  generalize dijkstra_loop g w g.nv
    ⟨Function.update (fun _ => Weight.inf) start Weight.zero, []⟩ = s at hI hall
  have hall1 : ∀ v, v < g.nv → v ∈ s.done := by
    rcases hall with h | h
    · exact h
    · intro v hv
      have hsub : s.done ⊆ List.range g.nv := fun x hx => List.mem_range.mpr (hI.done_lt x hx)
      have hperm := (List.subperm_of_subset hI.done_nodup hsub).perm_of_length_le
        (by simp [h])
      exact hperm.mem_iff.mpr (List.mem_range.mpr hv)
  exact ⟨hI.attained goal, fun p hp => dijkstra_all_done hg hs hI hall1 p goal hp⟩

/-! ## The engine against the reference computation -/

/-- Claim C1 as stated fails: on two vertices joined by an edge of weight 1, a graph
whose arcs come in mirrored pairs, with the vertex 0 as start and as goal and
`goal_margin` zero, a freshly constructed engine returns `(0, true)` and the connection
queue holds the path length 2 for the arc 0, while the reference computation gives the
distance 0 from the vertex 0 to itself. -/
theorem C1_counterexample :
    Graph.WellFormed two_vertices ∧ Mirrored two_vertices (fun _ => Weight.fin 1) ∧
    ((inc_bi.fresh two_vertices 0 0 (fun _ => Weight.fin 1) Weight.zero).bind
        (fun s => (inc_bi.compute_shortest_path 10 s).result)).map inc_bi.report
      = some ((0, true), some (Weight.fin 2)) ∧
    dijkstra two_vertices (fun _ => Weight.fin 1) 0 0 = Weight.fin 0 := by
  decide

/-- Claim C1 as amended: on a graph whose arcs join vertices of the graph, carry distinct
indices and come in mirrored pairs with equal weights, for every pair of distinct vertices
`vs` and `vg`, when a freshly constructed engine with `goal_margin` zero returns
`(e, true)` from `compute_shortest_path`, the path length of the connection-queue entry of
`e` is the value computed by the reference Dijkstra from scratch, and that value is the
shortest distance from `vs` to `vg`. -/
theorem C1_fresh_run_reports_shortest_distance (g : Graph) (w : Arc → Weight) (vs vg : Nat)
    (sp : Nat → Nat) (sd sl : Nat → Weight) (gp : Nat → Nat) (gd gl : Nat → Weight)
    (t1 t2 t3 : Nat → Nat) (fuel : Nat) (s0 s1 : inc_bi) (e : Nat)
    (hg : g.WellFormed) (hmir : Mirrored g w) (hvs : vs < g.nv) (hvg : vg < g.nv)
    (hne : vs ≠ vg)
    (hc : inc_bi.construct g vs vg sp sd sl gp gd gl w Weight.zero t1 t2 t3 = some s0)
    (hr : inc_bi.compute_shortest_path fuel s0 = Run.done ((e, true), s1)) :
    (s1.conn_queue.key_of e).map conn_key.path_length = some (dijkstra g w vs vg) ∧
      IsDist g w vs vg (dijkstra g w vs vg) := by
  have hI0 := inc_bi.construct_fresh hg hvs hvg hc
  have hI1 := inc_bi.compute_shortest_path_inv
    (fun s => inc_bi.FreshInv g w vs vg s (fun _ => False) (fun _ => False) (fun _ => False))
    (fun s s2 h he => inc_bi.expand_start_fresh hg hvs h he)
    (fun s s2 h he => inc_bi.expand_goal_fresh hg hmir hvg h he) fuel s0 (e, true) s1 hI0 hr
  have hf := (inc_bi.iteration_found_iff s1 e).mp (inc_bi.compute_shortest_path_done hr)
  have hm : s1.goal_margin = Weight.zero :=
    (inc_bi.compute_shortest_path_margin hr).trans (inc_bi.construct_spec hc).2.2.2.2.1
  obtain ⟨k, hk, hd⟩ := inc_bi.fresh_found_dist hg hmir hvs hvg hne hI1 hm hf
  have hD : IsDist g w vs vg (dijkstra g w vs vg) := dijkstra_isDist hg hvs
  refine ⟨?_, hD⟩
  rw [hk, Option.map_some', isDist_unique hd hD]

/-- Claim C1 on the cycle: from the vertex 0 to the vertex 2 a freshly constructed engine
returns `(0, true)` and the path length of the arc 0 in the connection queue is the value
of the reference computation. -/
theorem C1_fresh_run_reports_shortest_distance_witness :
    ∃ s0 s1, inc_bi.fresh cycle4 0 2 cycle4_weight Weight.zero = some s0 ∧
      inc_bi.compute_shortest_path 10 s0 = Run.done ((0, true), s1) ∧
      (s1.conn_queue.key_of 0).map conn_key.path_length
        = some (dijkstra cycle4 cycle4_weight 0 2) ∧
      IsDist cycle4 cycle4_weight 0 2 (dijkstra cycle4 cycle4_weight 0 2) := by
  have hd : ((inc_bi.fresh cycle4 0 2 cycle4_weight Weight.zero).bind
      (fun s0 => (inc_bi.compute_shortest_path 10 s0).result)).map Prod.fst
        = some (0, true) := by decide
  obtain ⟨x, hx, hr⟩ := Option.map_eq_some'.mp hd
  obtain ⟨s0, hs0, hc⟩ := Option.bind_eq_some.mp hx
  have hrun : inc_bi.compute_shortest_path 10 s0 = Run.done ((0, true), x.2) := by
    rw [run_result_eq_some hc, ← hr]
  exact ⟨s0, x.2, hs0, hrun,
    C1_fresh_run_reports_shortest_distance cycle4 cycle4_weight 0 2 _ _ _ _ _ _ _ _ _ 10 s0
      x.2 0 (by decide) (by decide) (by decide) (by decide) (by decide) hs0 hrun⟩

/-! ## The constructor and `update_vertex` of `lifelong_planning_astar` -/

/-- Claim C18: the constructor of `lifelong_planning_astar`, called with the zero of the
`unsigned int` weights (the number 0) as its `zero` argument, returns, on any graph, a
state in which every vertex has the distance `inf`, every vertex other than `v_start` has
the lookahead `inf`, the lookahead of `v_start` is `zero`, the predecessor of `v_start` is
`v_start`, and the queue holds exactly `v_start`, under the key `(h(v_start), 0)` taken as
`unsigned int` values, which is `calculate_key(v_start)`. -/
theorem C18_constructor_state (g : Graph) (v_start v_goal : Nat) (h p : Nat → Nat)
    (d l : Nat → Nat) (w : Arc → Nat) (c : Nat → Nat → Nat) (inf : Nat) (t : Nat → Nat) :
    ∃ s, lifelong_planning_astar.construct g v_start v_goal h p d l w c inf 0 t = some s ∧
      (∀ v, v < g.nv → s.distance v = inf) ∧
      (∀ v, v < g.nv → v ≠ v_start → s.distance_lookahead v = inf) ∧
      s.distance_lookahead v_start = 0 ∧
      s.predecessor v_start = v_start ∧
      s.queue.entries = [(v_start, (h v_start % UINT, 0))] ∧
      lifelong_planning_astar.calculate_key s v_start = (h v_start % UINT, 0) := by
  obtain ⟨s, hs⟩ := lifelong_planning_astar.lpa_construct_isSome g v_start v_goal h p d l w
    c inf 0 t
  obtain ⟨-, -, -, hh, -, -, -, -, hp, hd, hl, hq⟩ :=
    lifelong_planning_astar.lpa_construct_spec hs
  have hl0 : s.distance_lookahead v_start = 0 := by
    rw [hl v_start]
    simp
  refine ⟨s, hs, ?_, ?_, hl0, ?_, ?_, ?_⟩
  · intro v hv
    rw [hd v]
    simp [hv]
  · intro v hv hne
    rw [hl v]
    simp [hv, hne]
  · rw [hp]
    simp
  · rw [hq]
  · unfold lifelong_planning_astar.calculate_key
    have hm : Nat.min (s.distance v_start) (s.distance_lookahead v_start) = 0 := by
      rw [hl0]
      exact Nat.min_zero _
    simp only [hm, hh, Nat.zero_mod, Nat.zero_add]

namespace lifelong_planning_astar

theorem lpa_rhs_fold (s : lifelong_planning_astar) (u : Nat) (l : List Arc) :
    ∀ acc : Nat × (Nat → Nat),
      (l.foldl (rhs_step s u) acc).1 = (l.map (candidate s)).foldl Nat.min acc.1 ∧
      (l.foldl (rhs_step s u) acc).1 ≤ acc.1 ∧
      ((l.foldl (rhs_step s u) acc).1 = acc.1 → (l.foldl (rhs_step s u) acc).2 = acc.2) ∧
      ((l.foldl (rhs_step s u) acc).1 < acc.1 →
        ∃ e, l.find? (fun e => candidate s e = (l.foldl (rhs_step s u) acc).1) = some e ∧
          (l.foldl (rhs_step s u) acc).2 = Function.update acc.2 u e.src) := by
  have hmin : ∀ a b : Nat, Nat.min a b = min a b := fun _ _ => rfl
  induction l with
  | nil =>
    intro acc
    exact ⟨rfl, Nat.le_refl _, fun _ => rfl, fun h => absurd h (Nat.lt_irrefl _)⟩
  | cons e l ih =>
    intro acc
    simp only [List.foldl_cons, List.map_cons]
    by_cases hlt : candidate s e < acc.1
    · have hacc : rhs_step s u acc e = (candidate s e, Function.update acc.2 u e.src) := by
        unfold rhs_step
        unfold candidate at hlt
        simp only [hlt, if_true]
        rfl
      simp only [hacc]
      obtain ⟨i1, i2, i3, i4⟩ := ih (candidate s e, Function.update acc.2 u e.src)
      simp only at i1 i2 i3 i4
      have hm : Nat.min acc.1 (candidate s e) = candidate s e := by
        rw [hmin]
        exact Nat.min_eq_right (Nat.le_of_lt hlt)
      refine ⟨by rw [i1, hm], Nat.le_trans i2 (Nat.le_of_lt hlt), fun h => ?_, fun _ => ?_⟩
      · exfalso
        omega
      · rcases Nat.lt_or_eq_of_le i2 with h5 | h5
        · obtain ⟨e1, he1, hp⟩ := i4 h5
          refine ⟨e1, ?_, ?_⟩
          · have hne : ¬ candidate s e = (List.foldl (rhs_step s u)
                (candidate s e, Function.update acc.2 u e.src) l).1 := by omega
            simp only [List.find?_cons, hne, decide_False]
            exact he1
          · rw [hp, Function.update_idem]
        · refine ⟨e, ?_, i3 h5⟩
          simp only [List.find?_cons, h5, decide_True]
    · have hacc : rhs_step s u acc e = acc := by
        unfold rhs_step
        unfold candidate at hlt
        simp only [hlt, if_false]
      simp only [hacc]
      obtain ⟨i1, i2, i3, i4⟩ := ih acc
      have hm : Nat.min acc.1 (candidate s e) = acc.1 := by
        rw [hmin]
        exact Nat.min_eq_left (Nat.le_of_not_lt hlt)
      refine ⟨by rw [i1, hm], i2, i3, fun h => ?_⟩
      obtain ⟨e1, he1, hp⟩ := i4 h
      refine ⟨e1, ?_, hp⟩
      have hne : ¬ candidate s e = (List.foldl (rhs_step s u) acc l).1 := by omega
      simp only [List.find?_cons, hne, decide_False]
      exact he1

end lifelong_planning_astar

namespace HeapIndexed

variable {K : Type}

theorem key_of_eq_none {h : HeapIndexed K} {i : Nat} (hc : h.contains i = false) :
    h.key_of i = none := by
  unfold key_of
  rw [find_none_of_not_contains hc]
  rfl

/-- The queue step of `update_vertex`: the index `u` is removed when present and inserted
anew under `key` when `P` holds. The step cannot fail; afterwards `u` is present exactly
when `P` holds, then under `key`, and no other index is touched. -/
theorem remove_insert_spec (q : HeapIndexed K) (u : Nat) (P : Prop) [Decidable P] (key : K) :
    ∃ q2, ((if q.contains u then q.remove u else some q).bind fun q1 =>
        if P then q1.insert u key else some q1) = some q2 ∧
      (q2.contains u = true ↔ P) ∧ (P → q2.key_of u = some key) ∧
      (∀ j, j ≠ u → q2.contains j = q.contains j ∧ q2.key_of j = q.key_of j) := by
  have h1 : ∃ q1, (if q.contains u then q.remove u else some q) = some q1 ∧
      q1.contains u = false ∧
      (∀ j, j ≠ u → q1.contains j = q.contains j ∧ q1.key_of j = q.key_of j) := by
    by_cases hc : q.contains u = true
    · have hr : ∃ q1, q.remove u = some q1 := by
        unfold remove
        simp [hc]
      obtain ⟨q1, hq1⟩ := hr
      refine ⟨q1, by simp [hc, hq1], ?_, fun j hj => ⟨?_, ?_⟩⟩
      · rw [contains_remove hq1]
        simp
      · rw [contains_remove hq1]
        simp [Ne.symm hj]
      · rw [key_of_remove hq1]
        simp [hj]
    · have hc2 : q.contains u = false := by simpa using hc
      exact ⟨q, by simp [hc2], hc2, fun j _ => ⟨rfl, rfl⟩⟩
  obtain ⟨q1, e1, hn, hother⟩ := h1
  rw [e1]
  simp only [Option.some_bind]
  by_cases hP : P
  · have hi : ∃ q2, q1.insert u key = some q2 := by
      unfold insert
      simp [hn]
    obtain ⟨q2, hq2⟩ := hi
    refine ⟨q2, by simp [hP, hq2], ?_, fun _ => ?_, fun j hj => ⟨?_, ?_⟩⟩
    · rw [contains_insert hq2]
      simp [hP]
    · rw [key_of_insert hq2]
      simp
    · rw [contains_insert hq2, (hother j hj).1]
      simp [Ne.symm hj]
    · rw [key_of_insert hq2, ← (hother j hj).2]
      simp [hj]
  · refine ⟨q1, by simp [hP], ?_, fun h => absurd h hP, hother⟩
    simp [hn, hP]

/-- The queue step in the words of the spec cannot fail either, and has the same effect. -/
theorem queue_step_spec_total (q : HeapIndexed (Nat × Nat)) (u : Nat) (c : Bool)
    (key : Nat × Nat) :
    ∃ q2, lifelong_planning_astar.queue_step_spec q u c key = some q2 ∧
      (q2.contains u = true ↔ c = false) ∧ (c = false → q2.key_of u = some key) ∧
      (∀ j, j ≠ u → q2.contains j = q.contains j ∧ q2.key_of j = q.key_of j) := by
  unfold lifelong_planning_astar.queue_step_spec
  cases c with
  | true =>
    by_cases hc : q.contains u = true
    · have hr : ∃ q1, q.remove u = some q1 := by
        unfold remove
        simp [hc]
      obtain ⟨q1, hq1⟩ := hr
      refine ⟨q1, by simp [hc, hq1], ?_, fun h => by simp at h, fun j hj => ⟨?_, ?_⟩⟩
      · rw [contains_remove hq1]
        simp
      · rw [contains_remove hq1]
        simp [Ne.symm hj]
      · rw [key_of_remove hq1]
        simp [hj]
    · have hc2 : q.contains u = false := by simpa using hc
      exact ⟨q, by simp [hc2], by simp [hc2], fun h => by simp at h, fun j _ => ⟨rfl, rfl⟩⟩
  | false =>
    by_cases hc : q.contains u = true
    · have hr : ∃ q1, q.update u key = some q1 := by
        unfold update
        simp [hc]
      obtain ⟨q1, hq1⟩ := hr
      refine ⟨q1, by simp [hc, hq1], ?_, fun _ => ?_, fun j hj => ⟨?_, ?_⟩⟩
      · rw [contains_update hq1]
        simp [hc]
      · rw [key_of_update hq1]
        simp
      · rw [contains_update hq1]
      · rw [key_of_update hq1]
        simp [hj]
    · have hc2 : q.contains u = false := by simpa using hc
      have hr : ∃ q1, q.insert u key = some q1 := by
        unfold insert
        simp [hc2]
      obtain ⟨q1, hq1⟩ := hr
      refine ⟨q1, by simp [hc2, hq1], ?_, fun _ => ?_, fun j hj => ⟨?_, ?_⟩⟩
      · rw [contains_insert hq1]
        simp
      · rw [key_of_insert hq1]
        simp
      · rw [contains_insert hq1]
        simp [Ne.symm hj]
      · rw [key_of_insert hq1]
        simp [hj]

end HeapIndexed

namespace lifelong_planning_astar

/-- The method `update_vertex` cannot fail. It leaves the distances alone, sets the
lookahead and the predecessor of `u` by the in-edge loop unless `u` is the start vertex,
and then removes `u` from the queue and inserts it anew when it is inconsistent. -/
theorem lpa_update_vertex_eq (s : lifelong_planning_astar) (u : Nat) :
    ∃ s1, update_vertex s u = some s1 ∧ s1.distance = s.distance ∧ s1.h = s.h ∧
      (u ≠ s.v_start →
        s1.predecessor =
          ((in_edges u s.g).foldl (rhs_step s u) (s.inf % UINT, s.predecessor)).2 ∧
        s1.distance_lookahead = Function.update s.distance_lookahead u
          ((in_edges u s.g).foldl (rhs_step s u) (s.inf % UINT, s.predecessor)).1) ∧
      (u = s.v_start →
        s1.predecessor = s.predecessor ∧ s1.distance_lookahead = s.distance_lookahead) ∧
      ((if s.queue.contains u then s.queue.remove u else some s.queue).bind fun q1 =>
        if s1.distance u ≠ s1.distance_lookahead u then q1.insert u (calculate_key s1 u)
        else some q1) = some s1.queue := by
  by_cases hu : u = s.v_start
  · obtain ⟨q2, hq2, -⟩ := HeapIndexed.remove_insert_spec s.queue u
      (s.distance u ≠ s.distance_lookahead u) (calculate_key s u)
    refine ⟨{ s with queue := q2 }, ?_, rfl, rfl, fun h => absurd hu h, fun _ => ⟨rfl, rfl⟩,
      hq2⟩
    unfold update_vertex
    simp only [hu, ne_eq, not_true_eq_false, if_false]
    rw [hu] at hq2
    simp only [ne_eq] at hq2
    obtain ⟨q1, h1, h2⟩ := Option.bind_eq_some.mp hq2
    rw [h1]
    simp only [Option.some_bind]
    rw [h2]
    rfl
  · obtain ⟨q2, hq2, -⟩ := HeapIndexed.remove_insert_spec s.queue u
      (s.distance u ≠ (Function.update s.distance_lookahead u
        ((in_edges u s.g).foldl (rhs_step s u) (s.inf % UINT, s.predecessor)).1) u)
      (calculate_key
        { s with
          predecessor :=
            ((in_edges u s.g).foldl (rhs_step s u) (s.inf % UINT, s.predecessor)).2
          distance_lookahead := Function.update s.distance_lookahead u
            ((in_edges u s.g).foldl (rhs_step s u) (s.inf % UINT, s.predecessor)).1 } u)
    refine ⟨{ s with
        predecessor :=
          ((in_edges u s.g).foldl (rhs_step s u) (s.inf % UINT, s.predecessor)).2
        distance_lookahead := Function.update s.distance_lookahead u
          ((in_edges u s.g).foldl (rhs_step s u) (s.inf % UINT, s.predecessor)).1
        queue := q2 }, ?_, rfl, rfl, fun _ => ⟨rfl, rfl⟩, fun h => absurd h hu, hq2⟩
    unfold update_vertex
    simp only [ne_eq, hu, not_false_eq_true, if_true]
    simp only [ne_eq] at hq2
    obtain ⟨q1, h1, h2⟩ := Option.bind_eq_some.mp hq2
    rw [h1]
    simp only [Option.some_bind]
    rw [h2]
    rfl

end lifelong_planning_astar

/-- Claim C19: `update_vertex(u)` of `lifelong_planning_astar` returns in every state. For
`u` other than `v_start` it sets `distance_lookahead(u)` to the minimum over the in-arcs
`(v, u)` of `combine(distance(v), weight(v, u))`, which is `inf` when there is no in-arc
or no value is below `inf`; when the minimum is below `inf` it sets `predecessor(u)` to
the source of the first in-arc, in iteration order, that attains it, and when the minimum
is `inf` it leaves `predecessor(u)` as it was. For `u = v_start` it changes neither map.
The values are those held in the `unsigned int` variables of the loop. -/
theorem C19_update_vertex_lookahead (s : lifelong_planning_astar) (u : Nat) :
    ∃ s1, lifelong_planning_astar.update_vertex s u = some s1 ∧
      (u ≠ s.v_start →
        s1.distance_lookahead u = lifelong_planning_astar.min_candidate s u ∧
        lifelong_planning_astar.min_candidate s u ≤ s.inf % UINT ∧
        (lifelong_planning_astar.min_candidate s u < s.inf % UINT →
          ∃ e, lifelong_planning_astar.first_attaining s u
              (lifelong_planning_astar.min_candidate s u) = some e ∧
            s1.predecessor u = e.src) ∧
        (lifelong_planning_astar.min_candidate s u = s.inf % UINT →
          s1.predecessor u = s.predecessor u)) ∧
      (u = s.v_start →
        s1.distance_lookahead = s.distance_lookahead ∧ s1.predecessor = s.predecessor) := by
  obtain ⟨s1, h, -, -, h1, h2, -⟩ := lifelong_planning_astar.lpa_update_vertex_eq s u
  obtain ⟨f1, f2, f3, f4⟩ := lifelong_planning_astar.lpa_rhs_fold s u (in_edges u s.g)
    (s.inf % UINT, s.predecessor)
  simp only at f1 f2 f3 f4
  refine ⟨s1, h, fun hu => ?_, fun hu => ⟨(h2 hu).2, (h2 hu).1⟩⟩
  obtain ⟨hp, hl⟩ := h1 hu
  have hm : lifelong_planning_astar.min_candidate s u =
      ((in_edges u s.g).foldl (lifelong_planning_astar.rhs_step s u)
        (s.inf % UINT, s.predecessor)).1 := f1.symm
  refine ⟨?_, ?_, ?_, ?_⟩
  · rw [hl, Function.update_same, hm]
  · rw [hm]
    exact f2
  · intro hlt
    rw [hm] at hlt
    obtain ⟨e, he, hpe⟩ := f4 hlt
    refine ⟨e, ?_, ?_⟩
    · unfold lifelong_planning_astar.first_attaining
      rw [hm]
      exact he
    · rw [hp, hpe, Function.update_same]
  · intro heq
    rw [hm] at heq
    rw [hp, f3 heq]

/-- Claim C20: `update_vertex(u)` of `lifelong_planning_astar` returns in every state and
for every `u`. Afterwards `u` is in the queue if and only if `distance(u)` and
`distance_lookahead(u)` differ, and then its key is `(m + h(u), m)` with `m` the smaller
of the two, in `unsigned int` arithmetic; the membership and the keys of all other
vertices are as before. The queue step written in the code, remove then insert, gives
every index the membership and key that the step of the spec gives it, which removes a
consistent vertex and inserts or updates an inconsistent one. -/
theorem C20_update_vertex_queue (s : lifelong_planning_astar) (u : Nat) :
    ∃ s1, lifelong_planning_astar.update_vertex s u = some s1 ∧
      (s1.queue.contains u = true ↔ s1.distance u ≠ s1.distance_lookahead u) ∧
      (s1.queue.contains u = true →
        s1.queue.key_of u = some (lifelong_planning_astar.calculate_key s1 u)) ∧
      lifelong_planning_astar.calculate_key s1 u =
        ((Nat.min (s1.distance u) (s1.distance_lookahead u) % UINT + s1.h u) % UINT,
          Nat.min (s1.distance u) (s1.distance_lookahead u) % UINT) ∧
      (∀ j, j ≠ u → s1.queue.contains j = s.queue.contains j ∧
        s1.queue.key_of j = s.queue.key_of j) ∧
      ∃ q, lifelong_planning_astar.queue_step_spec s.queue u
          (decide (s1.distance u = s1.distance_lookahead u))
          (lifelong_planning_astar.calculate_key s1 u) = some q ∧
        ∀ j, s1.queue.contains j = q.contains j ∧ s1.queue.key_of j = q.key_of j := by
  obtain ⟨s1, h, -, -, -, -, hq⟩ := lifelong_planning_astar.lpa_update_vertex_eq s u
  obtain ⟨q2, hq2, c1, c2, c3⟩ := HeapIndexed.remove_insert_spec s.queue u
    (s1.distance u ≠ s1.distance_lookahead u) (lifelong_planning_astar.calculate_key s1 u)
  have hqq : q2 = s1.queue := by
    rw [hq] at hq2
    exact (Option.some.inj hq2).symm
  subst hqq
  obtain ⟨q, hq3, d1, d2, d3⟩ := HeapIndexed.queue_step_spec_total s.queue u
    (decide (s1.distance u = s1.distance_lookahead u))
    (lifelong_planning_astar.calculate_key s1 u)
  have d1b : q.contains u = true ↔ s1.distance u ≠ s1.distance_lookahead u := by
    rw [d1]
    simp
  refine ⟨s1, h, c1, fun hc => c2 (c1.mp hc), rfl, c3, q, hq3, fun j => ?_⟩
  by_cases hj : j = u
  · subst hj
    have hcont : s1.queue.contains j = q.contains j := by
      rw [Bool.eq_iff_iff, c1, d1b]
    refine ⟨hcont, ?_⟩
    by_cases hP : s1.distance j ≠ s1.distance_lookahead j
    · rw [c2 hP, d2 (by simpa using hP)]
    · have hn1 : s1.queue.contains j = false := by
        cases hb : s1.queue.contains j with
        | false => rfl
        | true => exact absurd (c1.mp hb) hP
      rw [HeapIndexed.key_of_eq_none hn1, HeapIndexed.key_of_eq_none (hcont ▸ hn1)]
  · exact ⟨(c3 j hj).1.trans (d3 j hj).1.symm, (c3 j hj).2.trans (d3 j hj).2.symm⟩

namespace inc_bi

/-! ### The choice of the frontier -/

theorem iteration_next_cases {s s1 : inc_bi} {st gt : Weight}
    (hst : start_top s = some st) (hgt : goal_top s = some gt)
    (h : iteration s = some (Iter.next s1)) :
    ¬ (st = Weight.inf ∧ gt = Weight.inf) ∧
      ((Weight.lt st gt = true ∧ expand_start s = some s1) ∨
        (Weight.lt st gt = false ∧ expand_goal s = some s1)) := by
  unfold iteration at h
  rw [hst, hgt] at h
  simp only [Option.some_bind] at h
  split at h
  · simp at h
  · next hinf =>
    refine ⟨hinf, ?_⟩
    simp only [Option.bind_eq_some] at h
    obtain ⟨t, -, h⟩ := h
    cases t with
    | some i => simp at h
    | none =>
      simp only at h
      split at h
      · next hlt =>
        left
        simp only [Option.map_eq_some', Option.some.injEq, Iter.next.injEq] at h
        obtain ⟨a, ha, rfl⟩ := h
        exact ⟨hlt, ha⟩
      · next hlt =>
        right
        simp only [Option.map_eq_some', Option.some.injEq, Iter.next.injEq] at h
        obtain ⟨a, ha, rfl⟩ := h
        exact ⟨by simpa using hlt, ha⟩

theorem start_top_entry {s : inc_bi} {st : Weight} (h : start_top s = some st)
    (hne : st ≠ Weight.inf) :
    ∃ u, HeapIndexed.top Weight.lt s.start_queue = some (u, st) := by
  unfold start_top at h
  split at h
  · simp only [HeapIndexed.top_key, Option.map_eq_some'] at h
    obtain ⟨e, he, rfl⟩ := h
    exact ⟨e.1, he⟩
  · simp only [Option.some.injEq] at h
    exact absurd h.symm hne

theorem goal_top_entry {s : inc_bi} {gt : Weight} (h : goal_top s = some gt)
    (hne : gt ≠ Weight.inf) :
    ∃ u, HeapIndexed.top Weight.lt s.goal_queue = some (u, gt) := by
  unfold goal_top at h
  split at h
  · simp only [HeapIndexed.top_key, Option.map_eq_some'] at h
    obtain ⟨e, he, rfl⟩ := h
    exact ⟨e.1, he⟩
  · simp only [Option.some.injEq] at h
    exact absurd h.symm hne

end inc_bi

/-- Claim C15 as stated fails: on the cycle, freshly constructed from the vertex 0 to the
vertex 2, the first iteration reads `start_top = goal_top = 0` and does not return.
Afterwards the start vertex is still in the start queue with the distance `inf`, while the
goal vertex has left the goal queue and has the distance 0: on equal top keys the goal
frontier is expanded. -/
theorem C15_counterexample :
    (inc_bi.fresh cycle4 0 2 cycle4_weight Weight.zero).bind (fun s =>
        (inc_bi.iteration s).bind (fun it =>
          match it with
          | inc_bi.Iter.next s1 =>
            some (inc_bi.start_top s, inc_bi.goal_top s, s1.start_queue.contains 0,
              s1.start_distance 0, s1.goal_queue.contains 2, s1.goal_distance 2)
          | inc_bi.Iter.ret _ => none))
      = some (some (Weight.fin 0), some (Weight.fin 0), true, Weight.inf, false,
          Weight.fin 0) := by
  decide

/-- Claim C15 as amended: in every iteration of `compute_shortest_path` that does not
return, the start frontier is expanded if and only if `start_top < goal_top`, so that on
equal top keys the goal frontier is expanded; the vertex expanded is the top of the queue
of that frontier, whose key is the top key read at the head of the iteration and is
minimal in that queue. -/
theorem C15_start_expanded_iff_lt (s s1 : inc_bi) (st gt : Weight)
    (hst : inc_bi.start_top s = some st) (hgt : inc_bi.goal_top s = some gt)
    (hit : inc_bi.iteration s = some (inc_bi.Iter.next s1)) :
    (Weight.lt st gt = true →
      inc_bi.expand_start s = some s1 ∧
      ∃ u, HeapIndexed.top Weight.lt s.start_queue = some (u, st) ∧
        s.start_queue.top_idx Weight.lt = some u ∧
        ∀ e ∈ s.start_queue.entries, Weight.lt e.2 st = false) ∧
    (Weight.lt st gt = false →
      inc_bi.expand_goal s = some s1 ∧
      ∃ u, HeapIndexed.top Weight.lt s.goal_queue = some (u, gt) ∧
        s.goal_queue.top_idx Weight.lt = some u ∧
        ∀ e ∈ s.goal_queue.entries, Weight.lt e.2 gt = false) := by
  obtain ⟨hinf, hc⟩ := inc_bi.iteration_next_cases hst hgt hit
  constructor
  · intro hlt
    rcases hc with ⟨-, he⟩ | ⟨hf, -⟩
    · refine ⟨he, ?_⟩
      obtain ⟨u, hu⟩ := inc_bi.start_top_entry hst (Weight.lt_ne_inf hlt)
      exact ⟨u, hu, by simp [HeapIndexed.top_idx, hu], inc_bi.top_minimal hu⟩
    · rw [hlt] at hf
      exact absurd hf (by simp)
  · intro hlt
    rcases hc with ⟨hf, -⟩ | ⟨-, he⟩
    · rw [hlt] at hf
      exact absurd hf (by simp)
    · refine ⟨he, ?_⟩
      have hgne : gt ≠ Weight.inf := by
        intro hg
        apply hinf
        refine ⟨?_, hg⟩
        by_contra hs
        rw [hg, Weight.lt_inf_of_ne hs] at hlt
        exact absurd hlt (by simp)
      obtain ⟨u, hu⟩ := inc_bi.goal_top_entry hgt hgne
      exact ⟨u, hu, by simp [HeapIndexed.top_idx, hu], inc_bi.top_minimal hu⟩

/-- Claim C15 on the cycle: the first iteration of a freshly constructed engine reads
equal top keys and expands the goal frontier. -/
theorem C15_start_expanded_iff_lt_witness :
    ∃ s s1, inc_bi.fresh cycle4 0 2 cycle4_weight Weight.zero = some s ∧
      inc_bi.iteration s = some (inc_bi.Iter.next s1) ∧
      inc_bi.expand_goal s = some s1 := by
  have hd : ((inc_bi.fresh cycle4 0 2 cycle4_weight Weight.zero).bind (fun s =>
      (inc_bi.iteration s).bind (fun it =>
        match it with
        | inc_bi.Iter.next _ => some (inc_bi.start_top s, inc_bi.goal_top s)
        | inc_bi.Iter.ret _ => none)))
      = some (some (Weight.fin 0), some (Weight.fin 0)) := by decide
  obtain ⟨s, hs, h1⟩ := Option.bind_eq_some.mp hd
  obtain ⟨it, hit, h2⟩ := Option.bind_eq_some.mp h1
  cases it with
  | ret r => simp at h2
  | next s1 =>
    simp only [Option.some.injEq, Prod.mk.injEq] at h2
    exact ⟨s, s1, hs, hit,
      ((C15_start_expanded_iff_lt s s1 (Weight.fin 0) (Weight.fin 0) h2.1 h2.2 hit).2
        (by decide)).1⟩

/-- Claim C11 fails on the code: on the path 1 - 0 - 2 whose edge 0 - 1 weighs `inf` and
whose edge 0 - 2 weighs 1, no path of finite weight leads from the vertex 1 to the
vertex 0, and a freshly constructed engine from 1 to 0 returns `(3, true)`: the arc
1 -> 0 of index 3 has the weight `inf` and lies in the connection queue under the path
length `inf`. -/
theorem C11_found_with_unreachable_arc :
    ((inc_bi.fresh path3 1 0 path3_weight_cut Weight.zero).bind
        (fun s => (inc_bi.compute_shortest_path 10 s).result)).map
        (fun x => (x.1, x.2.conn_queue.key_of x.1.1, x.2.weight ⟨1, 0, 3⟩,
          dijkstra path3 path3_weight_cut 1 0))
      = some ((3, true), some ⟨Weight.inf, Weight.fin 0, Weight.fin 0⟩, Weight.inf,
          Weight.inf) := by
  decide

/-! ## Calls that cannot leave the queue contracts -/

theorem foldlM_isSome {σ α : Type} (f : σ → α → Option σ)
    (hf : ∀ s a, ∃ s1, f s a = some s1) :
    ∀ (l : List α) (s : σ), ∃ s1, l.foldlM f s = some s1 := by
  intro l
  induction l with
  | nil =>
    intro s
    exact ⟨s, rfl⟩
  | cons a l ih =>
    intro s
    obtain ⟨s1, h1⟩ := hf s a
    obtain ⟨s2, h2⟩ := ih s1
    refine ⟨s2, ?_⟩
    simp only [List.foldlM, bind, Option.bind_eq_some]
    exact ⟨s1, h1, h2⟩

theorem foldlM_total_list {σ α : Type} (P : List α → σ → Prop) (f : σ → α → Option σ)
    (hf : ∀ a l s, P (a :: l) s → ∃ s1, f s a = some s1 ∧ P l s1) :
    ∀ (l : List α) (s : σ), P l s → ∃ s1, l.foldlM f s = some s1 ∧ P [] s1 := by
  intro l
  induction l with
  | nil =>
    intro s hP
    exact ⟨s, rfl, hP⟩
  | cons a l ih =>
    intro s hP
    obtain ⟨s1, h1, hP1⟩ := hf a l s hP
    obtain ⟨s2, h2, hP2⟩ := ih s1 hP1
    refine ⟨s2, ?_, hP2⟩
    simp only [List.foldlM, bind, Option.bind_eq_some]
    exact ⟨s1, h1, h2⟩

theorem exists_min_rank {α : Type} (r : α → Weight) :
    ∀ l : List α, l ≠ [] → ∃ a ∈ l, ∀ b ∈ l, Weight.le (r a) (r b) = true := by
  intro l
  induction l with
  | nil =>
    intro h
    exact absurd rfl h
  | cons a l ih =>
    intro _
    by_cases hl : l = []
    · subst hl
      refine ⟨a, List.mem_cons_self _ _, fun b hb => ?_⟩
      rw [List.mem_singleton.mp hb]
      exact Weight.le_refl _
    · obtain ⟨m, hm, hmin⟩ := ih hl
      rcases Weight.le_total (r a) (r m) with h1 | h1
      · refine ⟨a, List.mem_cons_self _ _, fun b hb => ?_⟩
        rcases List.mem_cons.mp hb with h2 | h2
        · rw [h2]
          exact Weight.le_refl _
        · exact Weight.le_trans h1 (hmin b h2)
      · refine ⟨m, List.mem_cons_of_mem _ hm, fun b hb => ?_⟩
        rcases List.mem_cons.mp hb with h2 | h2
        · rw [h2]
          exact h1
        · exact hmin b h2

namespace HeapIndexed

variable {K : Type}

theorem remove_isSome {h : HeapIndexed K} {i : Nat} (hc : h.contains i = true) :
    ∃ h1, h.remove i = some h1 := by
  unfold remove
  simp [hc]

theorem update_isSome {h : HeapIndexed K} {i : Nat} (k : K) (hc : h.contains i = true) :
    ∃ h1, h.update i k = some h1 := by
  unfold update
  simp [hc]

theorem insert_isSome {h : HeapIndexed K} {i : Nat} (k : K) (hc : h.contains i = false) :
    ∃ h1, h.insert i k = some h1 := by
  unfold insert
  simp [hc]

/-- A queue that is not empty has a top entry, when its order is the order of the weights
of a rank of the keys. -/
theorem top_isSome {lt : K → K → Bool} (r : K → Weight)
    (hlt : ∀ a b, lt a b = Weight.lt (r a) (r b)) {h : HeapIndexed K}
    (hne : h.size ≠ 0) : ∃ e, top lt h = some e := by
  have hl : h.entries ≠ [] := by
    intro h0
    apply hne
    simp [size, h0]
  obtain ⟨a, ha, hmin⟩ := exists_min_rank (fun e : Nat × K => r e.2) h.entries hl
  have hmem : a ∈ minimal lt h := by
    unfold minimal
    refine List.mem_filter.mpr ⟨ha, ?_⟩
    simp only [List.all_eq_true, Bool.not_eq_true']
    intro b hb
    rw [hlt]
    have := hmin b hb
    simpa [Weight.le] using this
  have hpos : 0 < (minimal lt h).length := List.length_pos_of_mem hmem
  unfold top
  have hlt2 : h.tie h.clock % (minimal lt h).length < (minimal lt h).length :=
    Nat.mod_lt _ hpos
  exact ⟨(minimal lt h)[h.tie h.clock % (minimal lt h).length], List.getElem?_eq_getElem hlt2⟩

end HeapIndexed

namespace inc_bi

theorem conn_drop_step_isSome (s : inc_bi) (e : Arc) : ∃ s1, conn_drop_step s e = some s1 := by
  unfold conn_drop_step
  by_cases hc : s.conn_queue.contains e.idx = true
  · obtain ⟨q, hq⟩ := HeapIndexed.remove_isSome hc
    refine ⟨{ s with conn_queue := q }, ?_⟩
    simp [hc, hq]
  · exact ⟨s, by simp [hc]⟩

/-- The method `start_update_vertex` returns when no vertex of the start queue has a
distance other than `inf`, and it adds nothing to the connection queue then. -/
theorem start_update_vertex_isSome {s : inc_bi} {u : Nat}
    (hq : s.start_queue.contains u = true → s.start_distance u = Weight.inf) :
    ∃ s1, start_update_vertex s u = some s1 ∧
      ∀ e ∈ s1.conn_queue.entries, e ∈ s.conn_queue.entries := by
  obtain ⟨p, l, hr, -, -⟩ := start_recompute_eq s u
  unfold start_update_vertex
  rw [hr]
  dsimp only
  by_cases hc : s.start_distance u = l u
  · simp only [hc, decide_True, if_true]
    by_cases hqc : s.start_queue.contains u = true
    · obtain ⟨q, hq1⟩ := HeapIndexed.remove_isSome hqc
      have hinf : l u = Weight.inf := by
        rw [← hc]
        exact hq hqc
      simp only [hqc, if_true, hq1, Option.some_bind, hinf, ne_eq, not_true_eq_false,
        if_false]
      exact ⟨_, rfl, fun e he => he⟩
    · simp only [hqc, Bool.false_eq_true, if_false]
      exact ⟨_, rfl, fun e he => he⟩
  · simp only [hc, decide_False, Bool.false_eq_true, if_false]
    by_cases hqc : s.start_queue.contains u = true
    · obtain ⟨q, hq1⟩ := HeapIndexed.update_isSome
        (start_calculate_key { s with start_predecessor := p, start_distance_lookahead := l } u)
        hqc
      simp only [hqc, if_true, hq1, Option.map_some']
      exact ⟨_, rfl, fun e he => he⟩
    · have hqc2 : s.start_queue.contains u = false := by simpa using hqc
      obtain ⟨q, hq1⟩ := HeapIndexed.insert_isSome
        (start_calculate_key { s with start_predecessor := p, start_distance_lookahead := l } u)
        hqc2
      simp only [hqc2, Bool.false_eq_true, if_false, hq1, Option.some_bind]
      obtain ⟨s1, hs1⟩ := foldlM_isSome conn_drop_step conn_drop_step_isSome (out_edges u s.g)
        { s with start_predecessor := p, start_distance_lookahead := l, start_queue := q }
      refine ⟨s1, hs1, ?_⟩
      obtain ⟨cq, rfl, -, hsub, -⟩ := conn_drop_fold hs1
      exact hsub

/-- One pass of the loop that follows a settling on the start side returns when the start
queue holds vertices of distance `inf` only and the arc is not in the connection queue;
the connection queue gains the arc at most. -/
theorem start_lower_step_isSome {s : inc_bi} {e0 : Arc} (u_dist : Weight)
    (hq : s.start_queue.contains e0.tgt = true → s.start_distance e0.tgt = Weight.inf)
    (hnc : s.conn_queue.contains e0.idx = false) :
    ∃ s1, start_lower_step u_dist s e0 = some s1 ∧
      ∀ j, s1.conn_queue.contains j = true → s.conn_queue.contains j = true ∨ j = e0.idx := by
  obtain ⟨s2, h2, hsub⟩ := start_update_vertex_isSome hq
  have hsub2 : ∀ j, s2.conn_queue.contains j = true → s.conn_queue.contains j = true := by
    intro j hj
    obtain ⟨k, hk⟩ := (HeapIndexed.contains_iff _ j).mp hj
    exact (HeapIndexed.contains_iff _ j).mpr ⟨k, hsub _ hk⟩
  have hnc2 : s2.conn_queue.contains e0.idx = false := by
    cases hb : s2.conn_queue.contains e0.idx with
    | false => rfl
    | true =>
      rw [hsub2 _ hb] at hnc
      exact absurd hnc (by simp)
  unfold start_lower_step
  simp only [h2, Option.some_bind]
  split
  · obtain ⟨cq, hcq⟩ := HeapIndexed.insert_isSome
      (conn_key.mk (Weight.combine (Weight.combine u_dist (s2.weight e0))
        (s2.goal_distance e0.tgt)) u_dist (s2.goal_distance e0.tgt)) hnc2
    refine ⟨{ s2 with conn_queue := cq }, by simp [hcq], ?_⟩
    intro j hj
    simp only [HeapIndexed.contains_insert hcq, Bool.or_eq_true, decide_eq_true_eq] at hj
    rcases hj with h5 | h5
    · exact Or.inl (hsub2 j h5)
    · exact Or.inr h5.symm
  · exact ⟨s2, rfl, fun j hj => Or.inl (hsub2 j hj)⟩

end inc_bi

namespace inc_bi

/-- An expansion of the start frontier in a search from scratch returns: it settles the
top vertex of the start queue, whose distance was `inf`, at its lookahead, and leaves
every other distance as it was. -/
theorem expand_start_total {g : Graph} {w : Arc → Weight} {vs vg : Nat}
    (hg : g.WellFormed) {pc : Arc → Prop} (hvs : vs < g.nv) {s : inc_bi}
    (hI : FreshInv g w vs vg s (fun _ => False) (fun _ => False) pc)
    (hne : s.start_queue.size ≠ 0) :
    ∃ s1 u, expand_start s = some s1 ∧ u < g.nv ∧ s.start_distance u = Weight.inf ∧
      s.start_distance_lookahead u ≠ Weight.inf ∧
      s1.start_distance =
        Function.update s.start_distance u (s.start_distance_lookahead u) ∧
      s1.goal_distance = s.goal_distance := by
  obtain ⟨e, he⟩ := HeapIndexed.top_isSome (fun k : Weight => k) (fun _ _ => rfl) hne
  rcases e with ⟨u, k⟩
  have hmem : (u, k) ∈ s.start_queue.entries := HeapIndexed.top_mem he
  obtain ⟨q, hrem⟩ := HeapIndexed.remove_isSome (HeapIndexed.top_contains he)
  have hmin : ∀ v k1, (v, k1) ∈ s.start_queue.entries → Weight.le k k1 = true := by
    intro v k1 hm
    have := top_minimal he (v, k1) hm
    simpa [Weight.le] using this
  obtain ⟨hunv, hdu, hru, hP0⟩ := start_settle_fresh hg hvs hI hmem hmin hrem
  have hcond : Weight.gt (s.start_distance u) (s.start_distance_lookahead u) = true := by
    rw [hdu]
    exact Weight.lt_inf_of_ne hru
  have hnd : ((out_edges u s.g).map Arc.idx).Nodup := by
    rw [hI.g_eq]
    exact (List.Sublist.map _ (List.filter_sublist _)).nodup hg.2
  obtain ⟨s1, hs1, -, -, -, -, -, hD, hG⟩ := foldlM_total_list
    (fun l t => FreshInv g w vs vg t (fun e1 => e1.src = u ∧ e1.tgt ∈ l.map Arc.tgt)
        (fun _ => False) (fun e1 => pc e1 ∨ (e1.src = u ∧ e1 ∈ l)) ∧
      t.start_distance u = s.start_distance_lookahead u ∧
      (∀ e1 ∈ l, e1 ∈ g.arcs ∧ e1.src = u) ∧
      (∀ e1 ∈ l, t.conn_queue.contains e1.idx = false) ∧ (l.map Arc.idx).Nodup ∧
      t.start_distance = Function.update s.start_distance u (s.start_distance_lookahead u) ∧
      t.goal_distance = s.goal_distance)
    (start_lower_step (s.start_distance_lookahead u))
    (by
      rintro a l t ⟨hF, hd, harcs, hcont, hnd1, hD, hG⟩
      have hq : t.start_queue.contains a.tgt = true → t.start_distance a.tgt = Weight.inf := by
        intro hc
        by_contra hd1
        rw [side_not_queued hF.start hd1] at hc
        exact absurd hc (by simp)
      obtain ⟨t1, ht1, hsub⟩ := start_lower_step_isSome (s.start_distance_lookahead u) hq
        (hcont a (List.mem_cons_self _ _))
      obtain ⟨hf1, hf2, hf3⟩ := start_lower_step_fresh hg hru a l t t1 ⟨hF, hd, harcs⟩ ht1
      obtain ⟨hfr, hD1⟩ := start_lower_step_frame ht1
      simp only [List.map_cons, List.nodup_cons] at hnd1
      refine ⟨t1, ht1, hf1, hf2, hf3, ?_, hnd1.2, hD1.trans hD, hfr.goal_distance.trans hG⟩
      intro e1 he1
      cases hb : t1.conn_queue.contains e1.idx with
      | false => rfl
      | true =>
        exfalso
        rcases hsub _ hb with h5 | h5
        · rw [hcont e1 (List.mem_cons_of_mem _ he1)] at h5
          exact absurd h5 (by simp)
        · exact hnd1.1 (List.mem_map.mpr ⟨e1, he1, h5⟩))
    (out_edges u s.g)
    { s with start_queue := q,
             start_distance :=
               Function.update s.start_distance u (s.start_distance_lookahead u) }
    ⟨hP0, by simp, by
      intro e1 he1
      rw [hI.g_eq] at he1
      exact mem_out_edges.mp he1, by
      intro e1 he1
      rw [hI.g_eq] at he1
      obtain ⟨he1a, he1s⟩ := mem_out_edges.mp he1
      cases hb : s.conn_queue.contains e1.idx with
      | false => rfl
      | true =>
        exfalso
        obtain ⟨k2, hk2⟩ := (HeapIndexed.contains_iff _ _).mp hb
        obtain ⟨e2, he2, hidx, hds, -⟩ := hI.conn_sound _ _ hk2
        have hee : e2 = e1 := idx_inj hg he2 he1a hidx
        rw [hee, he1s] at hds
        exact hds hdu, hnd, rfl, rfl⟩
  refine ⟨s1, u, ?_, hunv, hdu, hru, hD, hG⟩
  unfold expand_start
  simp only [HeapIndexed.top_idx, HeapIndexed.remove_min, he, Option.map_some',
    Option.some_bind, hrem, hcond, if_true]
  exact hs1

end inc_bi

namespace inc_bi

/-- The method `goal_update_vertex` returns when no vertex of the goal queue has a
distance other than `inf`, and it adds nothing to the connection queue then. -/
theorem goal_update_vertex_isSome {s : inc_bi} {u : Nat}
    (hq : s.goal_queue.contains u = true → s.goal_distance u = Weight.inf) :
    ∃ s1, goal_update_vertex s u = some s1 ∧
      ∀ e ∈ s1.conn_queue.entries, e ∈ s.conn_queue.entries := by
  obtain ⟨p, l, hr, -, -⟩ := goal_recompute_eq s u
  unfold goal_update_vertex
  rw [hr]
  dsimp only
  by_cases hc : s.goal_distance u = l u
  · simp only [hc, decide_True, if_true]
    by_cases hqc : s.goal_queue.contains u = true
    · obtain ⟨q, hq1⟩ := HeapIndexed.remove_isSome hqc
      have hinf : l u = Weight.inf := by
        rw [← hc]
        exact hq hqc
      simp only [hqc, if_true, hq1, Option.some_bind, hinf, ne_eq, not_true_eq_false,
        if_false]
      exact ⟨_, rfl, fun e he => he⟩
    · simp only [hqc, Bool.false_eq_true, if_false]
      exact ⟨_, rfl, fun e he => he⟩
  · simp only [hc, decide_False, Bool.false_eq_true, if_false]
    by_cases hqc : s.goal_queue.contains u = true
    · obtain ⟨q, hq1⟩ := HeapIndexed.update_isSome
        (goal_calculate_key { s with goal_predecessor := p, goal_distance_lookahead := l } u)
        hqc
      simp only [hqc, if_true, hq1, Option.map_some']
      exact ⟨_, rfl, fun e he => he⟩
    · have hqc2 : s.goal_queue.contains u = false := by simpa using hqc
      obtain ⟨q, hq1⟩ := HeapIndexed.insert_isSome
        (goal_calculate_key { s with goal_predecessor := p, goal_distance_lookahead := l } u)
        hqc2
      simp only [hqc2, Bool.false_eq_true, if_false, hq1, Option.some_bind]
      obtain ⟨s1, hs1⟩ := foldlM_isSome conn_drop_step conn_drop_step_isSome (in_edges u s.g)
        { s with goal_predecessor := p, goal_distance_lookahead := l, goal_queue := q }
      refine ⟨s1, hs1, ?_⟩
      obtain ⟨cq, rfl, -, hsub, -⟩ := conn_drop_fold hs1
      exact hsub

/-- One pass of the loop that follows a settling on the goal side returns when the goal
queue holds vertices of distance `inf` only and the arc is not in the connection queue;
the connection queue gains the arc at most. -/
theorem goal_lower_step_isSome {s : inc_bi} {e0 : Arc} (u_dist : Weight)
    (hq : s.goal_queue.contains e0.src = true → s.goal_distance e0.src = Weight.inf)
    (hnc : s.conn_queue.contains e0.idx = false) :
    ∃ s1, goal_lower_step u_dist s e0 = some s1 ∧
      ∀ j, s1.conn_queue.contains j = true → s.conn_queue.contains j = true ∨ j = e0.idx := by
  obtain ⟨s2, h2, hsub⟩ := goal_update_vertex_isSome hq
  have hsub2 : ∀ j, s2.conn_queue.contains j = true → s.conn_queue.contains j = true := by
    intro j hj
    obtain ⟨k, hk⟩ := (HeapIndexed.contains_iff _ j).mp hj
    exact (HeapIndexed.contains_iff _ j).mpr ⟨k, hsub _ hk⟩
  have hnc2 : s2.conn_queue.contains e0.idx = false := by
    cases hb : s2.conn_queue.contains e0.idx with
    | false => rfl
    | true =>
      rw [hsub2 _ hb] at hnc
      exact absurd hnc (by simp)
  unfold goal_lower_step
  simp only [h2, Option.some_bind]
  split
  · obtain ⟨cq, hcq⟩ := HeapIndexed.insert_isSome
      (conn_key.mk (Weight.combine (Weight.combine (s2.start_distance e0.src) (s2.weight e0))
        u_dist) (s2.start_distance e0.src) u_dist) hnc2
    refine ⟨{ s2 with conn_queue := cq }, by simp [hcq], ?_⟩
    intro j hj
    simp only [HeapIndexed.contains_insert hcq, Bool.or_eq_true, decide_eq_true_eq] at hj
    rcases hj with h5 | h5
    · exact Or.inl (hsub2 j h5)
    · exact Or.inr h5.symm
  · exact ⟨s2, rfl, fun j hj => Or.inl (hsub2 j hj)⟩

/-- An expansion of the goal frontier in a search from scratch returns: it settles the
top vertex of the goal queue, whose distance was `inf`, at its lookahead, and leaves
every other distance as it was. -/
theorem expand_goal_total {g : Graph} {w : Arc → Weight} {vs vg : Nat}
    (hg : g.WellFormed) {pc : Arc → Prop} (hmir : Mirrored g w) (hvs : vg < g.nv) {s : inc_bi}
    (hI : FreshInv g w vs vg s (fun _ => False) (fun _ => False) pc)
    (hne : s.goal_queue.size ≠ 0) :
    ∃ s1 u, expand_goal s = some s1 ∧ u < g.nv ∧ s.goal_distance u = Weight.inf ∧
      s.goal_distance_lookahead u ≠ Weight.inf ∧
      s1.goal_distance =
        Function.update s.goal_distance u (s.goal_distance_lookahead u) ∧
      s1.start_distance = s.start_distance := by
  obtain ⟨e, he⟩ := HeapIndexed.top_isSome (fun k : Weight => k) (fun _ _ => rfl) hne
  rcases e with ⟨u, k⟩
  have hmem : (u, k) ∈ s.goal_queue.entries := HeapIndexed.top_mem he
  obtain ⟨q, hrem⟩ := HeapIndexed.remove_isSome (HeapIndexed.top_contains he)
  have hmin : ∀ v k1, (v, k1) ∈ s.goal_queue.entries → Weight.le k k1 = true := by
    intro v k1 hm
    have := top_minimal he (v, k1) hm
    simpa [Weight.le] using this
  obtain ⟨hunv, hdu, hru, hP0⟩ := goal_settle_fresh hg hmir hvs hI hmem hmin hrem
  have hcond : Weight.gt (s.goal_distance u) (s.goal_distance_lookahead u) = true := by
    rw [hdu]
    exact Weight.lt_inf_of_ne hru
  have hnd : ((in_edges u s.g).map Arc.idx).Nodup := by
    rw [hI.g_eq]
    exact (List.Sublist.map _ (List.filter_sublist _)).nodup hg.2
  obtain ⟨s1, hs1, -, -, -, -, -, hD, hG⟩ := foldlM_total_list
    (fun l t => FreshInv g w vs vg t (fun _ => False)
        (fun e1 => e1.src = u ∧ e1.tgt ∈ l.map Arc.src)
        (fun e1 => pc e1 ∨ (e1.tgt = u ∧ e1 ∈ l)) ∧
      t.goal_distance u = s.goal_distance_lookahead u ∧
      (∀ e1 ∈ l, e1 ∈ g.arcs ∧ e1.tgt = u) ∧
      (∀ e1 ∈ l, t.conn_queue.contains e1.idx = false) ∧ (l.map Arc.idx).Nodup ∧
      t.goal_distance = Function.update s.goal_distance u (s.goal_distance_lookahead u) ∧
      t.start_distance = s.start_distance)
    (goal_lower_step (s.goal_distance_lookahead u))
    (by
      rintro a l t ⟨hF, hd, harcs, hcont, hnd1, hD, hG⟩
      have hq : t.goal_queue.contains a.src = true → t.goal_distance a.src = Weight.inf := by
        intro hc
        by_contra hd1
        rw [side_not_queued hF.goal hd1] at hc
        exact absurd hc (by simp)
      obtain ⟨t1, ht1, hsub⟩ := goal_lower_step_isSome (s.goal_distance_lookahead u) hq
        (hcont a (List.mem_cons_self _ _))
      obtain ⟨hf1, hf2, hf3⟩ := goal_lower_step_fresh hg hru a l t t1 ⟨hF, hd, harcs⟩ ht1
      obtain ⟨hfr, hD1⟩ := goal_lower_step_frame ht1
      simp only [List.map_cons, List.nodup_cons] at hnd1
      refine ⟨t1, ht1, hf1, hf2, hf3, ?_, hnd1.2, hD1.trans hD, hfr.start_distance.trans hG⟩
      intro e1 he1
      cases hb : t1.conn_queue.contains e1.idx with
      | false => rfl
      | true =>
        exfalso
        rcases hsub _ hb with h5 | h5
        · rw [hcont e1 (List.mem_cons_of_mem _ he1)] at h5
          exact absurd h5 (by simp)
        · exact hnd1.1 (List.mem_map.mpr ⟨e1, he1, h5⟩))
    (in_edges u s.g)
    { s with goal_queue := q,
             goal_distance :=
               Function.update s.goal_distance u (s.goal_distance_lookahead u) }
    ⟨hP0, by simp, by
      intro e1 he1
      rw [hI.g_eq] at he1
      exact mem_in_edges.mp he1, by
      intro e1 he1
      rw [hI.g_eq] at he1
      obtain ⟨he1a, he1s⟩ := mem_in_edges.mp he1
      cases hb : s.conn_queue.contains e1.idx with
      | false => rfl
      | true =>
        exfalso
        obtain ⟨k2, hk2⟩ := (HeapIndexed.contains_iff _ _).mp hb
        obtain ⟨e2, he2, hidx, -, hdg, -⟩ := hI.conn_sound _ _ hk2
        have hee : e2 = e1 := idx_inj hg he2 he1a hidx
        rw [hee, he1s] at hdg
        exact hdg hdu, hnd, rfl, rfl⟩
  refine ⟨s1, u, ?_, hunv, hdu, hru, hD, hG⟩
  unfold expand_goal
  simp only [HeapIndexed.top_idx, HeapIndexed.remove_min, he, Option.map_some',
    Option.some_bind, hrem, hcond, if_true]
  exact hs1

end inc_bi

/-! ## Termination of a search from scratch -/

theorem countP_lt_of_witness {α : Type} (p q : α → Bool) :
    ∀ (l : List α), (∀ a ∈ l, q a = true → p a = true) →
      ∀ u ∈ l, p u = true → q u = false → l.countP q < l.countP p := by
  intro l
  induction l with
  | nil =>
    intro _ u hu
    simp at hu
  | cons a l ih =>
    intro hpq u hu hp hq
    have hmono : l.countP q ≤ l.countP p :=
      List.countP_mono_left (fun x hx hqx => hpq x (List.mem_cons_of_mem _ hx) hqx)
    by_cases hau : u = a
    · subst hau
      rw [List.countP_cons_of_pos _ _ hp, List.countP_cons_of_neg _ _ (by simp [hq])]
      omega
    · have hul : u ∈ l := by
        rcases List.mem_cons.mp hu with h1 | h1
        · exact absurd h1 hau
        · exact h1
      have hlt := ih (fun x hx hqx => hpq x (List.mem_cons_of_mem _ hx) hqx) u hul hp hq
      by_cases hqa : q a = true
      · rw [List.countP_cons_of_pos _ _ hqa,
          List.countP_cons_of_pos _ _ (hpq a (List.mem_cons_self _ _) hqa)]
        omega
      · rw [List.countP_cons_of_neg _ _ hqa]
        by_cases hpa : p a = true
        · rw [List.countP_cons_of_pos _ _ hpa]
          omega
        · rw [List.countP_cons_of_neg _ _ hpa]
          exact hlt

/-- Settling one vertex of the graph lowers the number of vertices of distance `inf`. -/
theorem filter_update_lt (n : Nat) (d : Nat → Weight) (u : Nat) (x : Weight) (hu : u < n)
    (hdu : d u = Weight.inf) (hx : x ≠ Weight.inf) :
    ((List.range n).filter (fun v => decide (Function.update d u x v = Weight.inf))).length <
      ((List.range n).filter (fun v => decide (d v = Weight.inf))).length := by
  rw [← List.countP_eq_length_filter, ← List.countP_eq_length_filter]
  apply countP_lt_of_witness _ _ _ _ u (List.mem_range.mpr hu)
  · simp [hdu]
  · simp [hx]
  · intro a _ ha
    simp only [decide_eq_true_eq] at ha ⊢
    by_cases hau : a = u
    · rw [hau]
      exact hdu
    · rw [Function.update_noteq hau] at ha
      exact ha

namespace inc_bi

theorem start_top_isSome (s : inc_bi) : ∃ st, start_top s = some st := by
  unfold start_top
  by_cases hsz : s.start_queue.size ≠ 0
  · obtain ⟨e, he⟩ := HeapIndexed.top_isSome (fun k : Weight => k) (fun _ _ => rfl) hsz
    exact ⟨e.2, by simp [hsz, HeapIndexed.top_key, he]⟩
  · exact ⟨Weight.inf, by simp [hsz]⟩

theorem goal_top_isSome (s : inc_bi) : ∃ gt, goal_top s = some gt := by
  unfold goal_top
  by_cases hsz : s.goal_queue.size ≠ 0
  · obtain ⟨e, he⟩ := HeapIndexed.top_isSome (fun k : Weight => k) (fun _ _ => rfl) hsz
    exact ⟨e.2, by simp [hsz, HeapIndexed.top_key, he]⟩
  · exact ⟨Weight.inf, by simp [hsz]⟩

theorem start_queue_nonempty {s : inc_bi} {st : Weight} (h : start_top s = some st)
    (hne : st ≠ Weight.inf) : s.start_queue.size ≠ 0 := by
  intro hsz
  unfold start_top at h
  simp only [hsz, ne_eq, not_true_eq_false, if_false, Option.some.injEq] at h
  exact hne h.symm

theorem goal_queue_nonempty {s : inc_bi} {gt : Weight} (h : goal_top s = some gt)
    (hne : gt ≠ Weight.inf) : s.goal_queue.size ≠ 0 := by
  intro hsz
  unfold goal_top at h
  simp only [hsz, ne_eq, not_true_eq_false, if_false, Option.some.injEq] at h
  exact hne h.symm

theorem termination_test_isSome (s : inc_bi) (st gt : Weight) :
    ∃ t, termination_test s st gt = some t := by
  unfold termination_test
  by_cases hsz : s.conn_queue.size = 0
  · exact ⟨none, by simp [hsz]⟩
  · have hex : ∃ e, HeapIndexed.top conn_key.lt s.conn_queue = some e :=
      HeapIndexed.top_isSome (fun k : conn_key => k.path_length) (fun _ _ => rfl) hsz
    obtain ⟨e, he⟩ := hex
    simp only [hsz, if_false, HeapIndexed.top_key, he, Option.map_some', Option.some_bind,
      HeapIndexed.top_idx]
    split
    · exact ⟨_, rfl⟩
    · split
      · exact ⟨_, rfl⟩
      · split
        · exact ⟨_, rfl⟩
        · exact ⟨_, rfl⟩

/-- An iteration that returns reports `(0, false)` or a found arc. -/
theorem iteration_ret_cases {s : inc_bi} {r : Nat × Bool}
    (h : iteration s = some (Iter.ret r)) : r = (0, false) ∨ ∃ i, r = (i, true) := by
  unfold iteration at h
  simp only [Option.bind_eq_some] at h
  obtain ⟨st, -, gt, -, h⟩ := h
  split at h
  · simp only [Option.some.injEq, Iter.ret.injEq] at h
    exact Or.inl h.symm
  · simp only [Option.bind_eq_some] at h
    obtain ⟨t, -, h⟩ := h
    cases t with
    | some i =>
      simp only [Option.some.injEq, Iter.ret.injEq] at h
      exact Or.inr ⟨i, h.symm⟩
    | none =>
      simp only at h
      split at h <;> simp at h

end inc_bi

namespace inc_bi

/-- An iteration of a search from scratch cannot leave the queue contracts: it returns,
or it expands a frontier, which keeps the state in order and settles one more vertex. -/
theorem iteration_total {g : Graph} {w : Arc → Weight} {vs vg : Nat}
    (hg : g.WellFormed) {pc : Arc → Prop} (hmir : Mirrored g w) (hvs : vs < g.nv)
    (hvg : vg < g.nv) {s : inc_bi}
    (hI : FreshInv g w vs vg s (fun _ => False) (fun _ => False) pc) :
    (∃ r, iteration s = some (Iter.ret r)) ∨
      ∃ s1, iteration s = some (Iter.next s1) ∧
        FreshInv g w vs vg s1 (fun _ => False) (fun _ => False) pc ∧
        s1.unsettled < s.unsettled := by
  obtain ⟨st, hst⟩ := start_top_isSome s
  obtain ⟨gt, hgt⟩ := goal_top_isSome s
  obtain ⟨t, ht⟩ := termination_test_isSome s st gt
  by_cases hinf : st = Weight.inf ∧ gt = Weight.inf
  · left
    refine ⟨(0, false), ?_⟩
    unfold iteration
    simp only [hst, hgt, Option.some_bind, hinf, and_self, if_true]
  · cases t with
    | some i =>
      left
      refine ⟨(i, true), ?_⟩
      unfold iteration
      simp only [hst, hgt, Option.some_bind, hinf, if_false, ht]
    | none =>
      right
      have hit : iteration s =
          if Weight.lt st gt then (expand_start s).map Iter.next
          else (expand_goal s).map Iter.next := by
        unfold iteration
        simp only [hst, hgt, Option.some_bind, hinf, if_false, ht]
      rw [hit]
      by_cases hlt : Weight.lt st gt = true
      · have hne := start_queue_nonempty hst (Weight.lt_ne_inf hlt)
        obtain ⟨s1, u, he, hu, hdu, hru, hD, hG⟩ := expand_start_total hg hvs hI hne
        have hI1 := expand_start_fresh hg hvs hI he
        refine ⟨s1, by simp [hlt, he], hI1, ?_⟩
        unfold unsettled
        rw [hI1.g_eq, hI.g_eq, hD, hG]
        have := filter_update_lt g.nv s.start_distance u (s.start_distance_lookahead u) hu
          hdu hru
        unfold vertices
        omega
      · have hgne : gt ≠ Weight.inf := by
          intro hg1
          apply hinf
          refine ⟨?_, hg1⟩
          by_contra hs
          rw [hg1, Weight.lt_inf_of_ne hs] at hlt
          exact hlt rfl
        have hne := goal_queue_nonempty hgt hgne
        obtain ⟨s1, u, he, hu, hdu, hru, hD, hG⟩ := expand_goal_total hg hmir hvg hI hne
        have hI1 := expand_goal_fresh hg hmir hvg hI he
        refine ⟨s1, by simp [hlt, he], hI1, ?_⟩
        unfold unsettled
        rw [hI1.g_eq, hI.g_eq, hD, hG]
        have := filter_update_lt g.nv s.goal_distance u (s.goal_distance_lookahead u) hu
          hdu hru
        unfold vertices
        omega

/-- With one unit of fuel more than there are vertices to settle, a search from scratch
returns. -/
theorem fresh_run_total {g : Graph} {w : Arc → Weight} {vs vg : Nat}
    (hg : g.WellFormed) {pc : Arc → Prop} (hmir : Mirrored g w) (hvs : vs < g.nv)
    (hvg : vg < g.nv) :
    ∀ (n : Nat) (s : inc_bi), FreshInv g w vs vg s (fun _ => False) (fun _ => False) pc →
      s.unsettled ≤ n → ∃ r s1, compute_shortest_path (n + 1) s = Run.done (r, s1) := by
  intro n
  induction n with
  | zero =>
    intro s hI hn
    rcases iteration_total hg hmir hvs hvg hI with ⟨r, hr⟩ | ⟨s1, -, -, hlt⟩
    · exact ⟨r, s, compute_shortest_path_of_ret hr 0⟩
    · omega
  | succ n ih =>
    intro s hI hn
    rcases iteration_total hg hmir hvs hvg hI with ⟨r, hr⟩ | ⟨s1, hit, hI1, hlt⟩
    · exact ⟨r, s, compute_shortest_path_of_ret hr (n + 1)⟩
    · obtain ⟨r, s2, h2⟩ := ih s1 hI1 (by omega)
      refine ⟨r, s2, ?_⟩
      rw [← h2]
      show compute_shortest_path (n + 1 + 1) s = _
      conv_lhs => unfold compute_shortest_path
      simp only [hit]

theorem unsettled_le {g : Graph} {s : inc_bi} (hg : s.g = g) : s.unsettled ≤ 2 * g.nv := by
  unfold unsettled vertices
  rw [hg]
  have h1 := List.length_filter_le (fun v => decide (s.start_distance v = Weight.inf))
    (List.range g.nv)
  have h2 := List.length_filter_le (fun v => decide (s.goal_distance v = Weight.inf))
    (List.range g.nv)
  rw [List.length_range] at h1 h2
  omega

/-- More fuel does not change the result of a call that returned. -/
theorem compute_shortest_path_fuel {s : inc_bi} {x : (Nat × Bool) × inc_bi} :
    ∀ (n : Nat), compute_shortest_path n s = Run.done x →
      ∀ k, compute_shortest_path (n + k) s = Run.done x := by
  intro n
  induction n generalizing s with
  | zero =>
    intro h
    simp [compute_shortest_path] at h
  | succ n ih =>
    intro h k
    have hnk : n + 1 + k = (n + k) + 1 := by omega
    rw [hnk]
    unfold compute_shortest_path at h ⊢
    cases hit : iteration s with
    | none =>
      rw [hit] at h
      simp at h
    | some it =>
      cases it with
      | ret r =>
        rw [hit] at h
        exact h
      | next s1 =>
        rw [hit] at h
        simp only at h ⊢
        exact ih h k

end inc_bi

/-- No walk leaves a set of vertices that no arc leaves. -/
theorem no_walk_of_closed {g : Graph} (C : Nat → Prop)
    (hC : ∀ e ∈ g.arcs, C e.src → C e.tgt) {a b : Nat} (ha : C a) (hb : ¬ C b) :
    ¬ ∃ p, IsWalk g a b p := by
  rintro ⟨p, hp⟩
  induction p generalizing a with
  | nil =>
    simp only [IsWalk] at hp
    exact hb (hp ▸ ha)
  | cons e p ih =>
    obtain ⟨he, hs, hp2⟩ := hp
    exact ih (hC e he (hs ▸ ha)) hp2

namespace inc_bi

/-- The state left by a search from scratch that returned is in order. -/
theorem fresh_run_inv {g : Graph} {w : Arc → Weight} {vs vg : Nat}
    (hg : g.WellFormed) {pc : Arc → Prop} (hmir : Mirrored g w) (hvs : vs < g.nv)
    (hvg : vg < g.nv) {fuel : Nat} {s s1 : inc_bi} {r : Nat × Bool}
    (hI : FreshInv g w vs vg s (fun _ => False) (fun _ => False) pc)
    (h : compute_shortest_path fuel s = Run.done (r, s1)) :
    FreshInv g w vs vg s1 (fun _ => False) (fun _ => False) pc :=
  compute_shortest_path_inv
    (fun t => FreshInv g w vs vg t (fun _ => False) (fun _ => False) pc)
    (fun _ _ hP he => expand_start_fresh hg hvs hP he)
    (fun _ _ hP he => expand_goal_fresh hg hmir hvg hP he) fuel s r s1 hI h

/-- An arc in the connection queue of a search from scratch lies on a walk from the start
to the goal. -/
theorem fresh_conn_walk {g : Graph} {w : Arc → Weight} {vs vg : Nat}
    (hg : g.WellFormed) {pc : Arc → Prop} (hmir : Mirrored g w) {s : inc_bi}
    (hI : FreshInv g w vs vg s (fun _ => False) (fun _ => False) pc)
    {i : Nat} {k : conn_key} (hm : (i, k) ∈ s.conn_queue.entries) :
    ∃ p, IsWalk g vs vg p := by
  obtain ⟨e, he, -, hds, hdg, -⟩ := hI.conn_sound i k hm
  obtain ⟨p1, hp1, -⟩ := isDist_walk (hI.start.settled _ (hg.1 e he).1 hds) hds
  obtain ⟨p2, hp2, -⟩ := isDist_walk (hI.goal.settled _ (hg.1 e he).2 hdg) hdg
  obtain ⟨q2, hq2, -⟩ := isWalk_reverse hmir hp2
  exact ⟨(p1 ++ [e]) ++ q2, isWalk_append (isWalk_snoc hp1 he rfl) hq2⟩

end inc_bi

/-- Claim C12: on a graph whose arcs join vertices of the graph, carry distinct indices and
come in mirrored pairs with equal weights, when no walk leads from the start vertex to the
goal vertex, a freshly constructed engine, with any `goal_margin` and any tie-breaking of
the queues, returns from `compute_shortest_path` within `2 * nv + 1` iterations, and it
returns `(0, false)`. -/
theorem C12_disconnected_not_found (g : Graph) (w : Arc → Weight) (vs vg : Nat)
    (sp : Nat → Nat) (sd sl : Nat → Weight) (gp : Nat → Nat) (gd gl : Nat → Weight)
    (m : Weight) (t1 t2 t3 : Nat → Nat)
    (hg : g.WellFormed) (hmir : Mirrored g w) (hvs : vs < g.nv) (hvg : vg < g.nv)
    (hdis : ¬ ∃ p, IsWalk g vs vg p) :
    ∃ s0 s1, inc_bi.construct g vs vg sp sd sl gp gd gl w m t1 t2 t3 = some s0 ∧
      ∀ k, inc_bi.compute_shortest_path (2 * g.nv + 1 + k) s0 = Run.done ((0, false), s1) := by
  obtain ⟨s0, hs0⟩ := inc_bi.construct_isSome g vs vg sp sd sl gp gd gl w m t1 t2 t3
  have hI0 := inc_bi.construct_fresh hg hvs hvg hs0
  obtain ⟨r, s1, hrun⟩ := inc_bi.fresh_run_total hg hmir hvs hvg (2 * g.nv) s0 hI0
    (inc_bi.unsettled_le hI0.g_eq)
  have hI1 := inc_bi.fresh_run_inv hg hmir hvs hvg hI0 hrun
  have hr : r = (0, false) := by
    rcases inc_bi.iteration_ret_cases (inc_bi.compute_shortest_path_done hrun) with h | ⟨i, h⟩
    · exact h
    · exfalso
      rw [h] at hrun
      obtain ⟨-, k, -, -, htop, -⟩ :=
        (inc_bi.iteration_found_iff s1 i).mp (inc_bi.compute_shortest_path_done hrun)
      exact hdis (inc_bi.fresh_conn_walk hg hmir hI1 (HeapIndexed.top_mem htop))
  rw [hr] at hrun
  exact ⟨s0, s1, hs0, inc_bi.compute_shortest_path_fuel _ hrun⟩

/-- Claim C12 on two components: from the vertex 0 of the edge 0 - 1 to the vertex 2 of
the edge 2 - 3 a freshly constructed engine returns `(0, false)`. -/
theorem C12_disconnected_not_found_witness :
    ∃ s0 s1, inc_bi.fresh two_components 0 2 (fun _ => Weight.fin 1) Weight.zero = some s0 ∧
      ∀ k, inc_bi.compute_shortest_path (2 * two_components.nv + 1 + k) s0
        = Run.done ((0, false), s1) :=
  C12_disconnected_not_found two_components (fun _ => Weight.fin 1) 0 2 _ _ _ _ _ _ _ _ _ _
    (by decide) (by decide) (by decide) (by decide)
    (no_walk_of_closed (fun v => v < 2) (by decide) (by decide) (by decide))

/-! ## The states reached while the weights stay the same -/

theorem HeapIndexed.nodup_update {K : Type} {h h1 : HeapIndexed K} {i : Nat} {k : K}
    (hi : h.update i k = some h1) (hn : (h.entries.map Prod.fst).Nodup) :
    (h1.entries.map Prod.fst).Nodup := by
  obtain ⟨-, rfl⟩ := HeapIndexed.update_eq_some hi
  have hmap : (h.entries.map (fun e => if e.1 == i then (i, k) else e)).map Prod.fst
      = h.entries.map Prod.fst := by
    rw [List.map_map]
    apply List.map_congr_left
    intro e _
    simp only [Function.comp]
    by_cases hei : e.1 = i
    · simp [hei]
    · have : (e.1 == i) = false := by simpa using hei
      simp [this]
  show ((h.entries.map (fun e => if e.1 == i then (i, k) else e)).map Prod.fst).Nodup
  rw [hmap]
  exact hn

namespace inc_bi

theorem freshInv_weaken {g : Graph} {w : Arc → Weight} {vs vg : Nat} {s : inc_bi}
    {pS pG pC pS2 pG2 pC2 : Arc → Prop} (hI : FreshInv g w vs vg s pS pG pC)
    (hS : ∀ e, pS e → pS2 e) (hG : ∀ e, pG e → pG2 e) (hC : ∀ e, pC e → pC2 e) :
    FreshInv g w vs vg s pS2 pG2 pC2 :=
  { g_eq := hI.g_eq, weight_eq := hI.weight_eq, v_start_eq := hI.v_start_eq,
    v_goal_eq := hI.v_goal_eq, start := sideInv_mono hI.start hS,
    goal := sideInv_mono hI.goal hG, conn_nodup := hI.conn_nodup,
    conn_sound := hI.conn_sound,
    conn_complete := fun e he hds hdg hpc =>
      hI.conn_complete e he hds hdg (fun hp => hpc (hC e hp)) }

/-- A call of `update_edge` on an arc of the graph keeps a search from scratch in order,
up to the completeness of the connection queue. -/
theorem update_edge_fresh {g : Graph} {w : Arc → Weight} {vs vg : Nat} {s s1 : inc_bi}
    {pS pG : Arc → Prop} {e : Arc} (he : e ∈ g.arcs)
    (hI : FreshInv g w vs vg s pS pG (fun _ => True)) (h : update_edge s e = some s1) :
    FreshInv g w vs vg s1 pS pG (fun _ => True) := by
  have build : ∀ cq : HeapIndexed conn_key, (cq.entries.map Prod.fst).Nodup →
      (∀ i k, (i, k) ∈ cq.entries → (i, k) ∈ s.conn_queue.entries ∨
        (edge_is_valid s e = true ∧ (i, k) = (e.idx,
          conn_key.mk (Weight.combine (Weight.combine (s.start_distance e.src) (s.weight e))
            (s.goal_distance e.tgt)) (s.start_distance e.src) (s.goal_distance e.tgt)))) →
      FreshInv g w vs vg { s with conn_queue := cq } pS pG (fun _ => True) :=
    fun cq hn hsub =>
      { g_eq := hI.g_eq, weight_eq := hI.weight_eq, v_start_eq := hI.v_start_eq,
        v_goal_eq := hI.v_goal_eq, start := hI.start, goal := hI.goal, conn_nodup := hn,
        conn_sound := by
          intro i k hm
          rcases hsub i k hm with h1 | ⟨hv, h1⟩
          · exact hI.conn_sound i k h1
          · obtain ⟨-, -, -, h4, h5⟩ := (edge_is_valid_iff s e).mp hv
            simp only [Prod.mk.injEq] at h1
            obtain ⟨rfl, rfl⟩ := h1
            exact ⟨e, he, rfl, h4, h5, by rw [hI.weight_eq]⟩
        conn_complete := fun _ _ _ _ hpc => absurd trivial hpc }
  unfold update_edge at h
  dsimp only at h
  by_cases hv : edge_is_valid s e = true
  · simp only [hv, Bool.not_true, Bool.false_eq_true, if_false] at h
    by_cases hc : s.conn_queue.contains e.idx = true
    · simp only [hc, if_true, Option.map_eq_some'] at h
      obtain ⟨q, hq, rfl⟩ := h
      refine build q (HeapIndexed.nodup_update hq hI.conn_nodup) ?_
      intro i k hm
      rcases HeapIndexed.mem_entries_update hq (i, k) hm with ⟨h1, -⟩ | h1
      · exact Or.inl h1
      · exact Or.inr ⟨hv, h1⟩
    · simp only [hc, Bool.false_eq_true, if_false, Option.map_eq_some'] at h
      obtain ⟨q, hq, rfl⟩ := h
      refine build q (HeapIndexed.nodup_insert hq hI.conn_nodup) ?_
      intro i k hm
      rcases (HeapIndexed.mem_entries_insert hq (i, k)).mp hm with h1 | h1
      · exact Or.inl h1
      · exact Or.inr ⟨hv, h1⟩
  · have hv2 : edge_is_valid s e = false := by simpa using hv
    simp only [hv2, Bool.not_false, if_true] at h
    by_cases hc : s.conn_queue.contains e.idx = true
    · simp only [hc, if_true, Option.map_eq_some'] at h
      obtain ⟨q, hq, rfl⟩ := h
      refine build q (HeapIndexed.nodup_remove hq hI.conn_nodup) ?_
      intro i k hm
      exact Or.inl ((HeapIndexed.mem_entries_remove hq (i, k)).mp hm).1
    · simp only [hc, Bool.false_eq_true, if_false, Option.some.injEq] at h
      subst h
      exact hI

/-- Every state reached while the weights stay the same is a state of a search from
scratch, up to the completeness of the connection queue. -/
theorem reachableStatic_fresh {g : Graph} {w : Arc → Weight} {vs vg : Nat}
    (hg : g.WellFormed) (hmir : Mirrored g w) (hvs : vs < g.nv) (hvg : vg < g.nv)
    {s : inc_bi} (hs : ReachableStatic g w vs vg s) :
    FreshInv g w vs vg s (fun _ => False) (fun _ => False) (fun _ => True) := by
  induction hs with
  | construct sp sd sl gp gd gl m t1 t2 t3 s h =>
    exact freshInv_weaken (construct_fresh hg hvs hvg h) (fun _ hp => hp) (fun _ hp => hp)
      (fun _ _ => trivial)
  | update_edge s s1 e he _ h ih => exact update_edge_fresh he ih h
  | start_update_vertex s s1 u hu _ h ih =>
    exact freshInv_weaken (start_update_vertex_fresh hg ih hu h).1 (fun _ hp => hp.1)
      (fun _ hp => hp) (fun _ hp => hp)
  | goal_update_vertex s s1 u hu _ h ih =>
    exact freshInv_weaken (goal_update_vertex_fresh hg ih hu h).1 (fun _ hp => hp)
      (fun _ hp => hp.1) (fun _ hp => hp)
  | compute_shortest_path s s1 fuel r _ h ih =>
    exact fresh_run_inv hg hmir hvs hvg ih h

end inc_bi

namespace inc_bi

theorem start_rhs_fold_pred (s : inc_bi) (u : Nat) (l : List Arc) :
    ∀ acc : Weight × (Nat → Nat),
      (∀ v, v ≠ u → (l.foldl (start_rhs_step s u) acc).2 v = acc.2 v) ∧
      ((l.foldl (start_rhs_step s u) acc).1 = acc.1 ∨
        ∃ e ∈ l, (l.foldl (start_rhs_step s u) acc).1 =
            Weight.combine (s.start_distance e.src) (s.weight e) ∧
          (l.foldl (start_rhs_step s u) acc).2 u = e.src) := by
  induction l with
  | nil =>
    intro acc
    exact ⟨fun _ _ => rfl, Or.inl rfl⟩
  | cons a l ih =>
    intro acc
    simp only [List.foldl_cons]
    obtain ⟨i1, i2⟩ := ih (start_rhs_step s u acc a)
    have hstep : (∀ v, v ≠ u → (start_rhs_step s u acc a).2 v = acc.2 v) ∧
        ((start_rhs_step s u acc a).1 = acc.1 ∨
          ((start_rhs_step s u acc a).1 =
              Weight.combine (s.start_distance a.src) (s.weight a) ∧
            (start_rhs_step s u acc a).2 u = a.src)) := by
      unfold start_rhs_step
      dsimp only
      split
      · exact ⟨fun v hv => Function.update_noteq hv _ _,
          Or.inr ⟨rfl, Function.update_same _ _ _⟩⟩
      · exact ⟨fun _ _ => rfl, Or.inl rfl⟩
    refine ⟨fun v hv => (i1 v hv).trans (hstep.1 v hv), ?_⟩
    rcases i2 with h1 | ⟨e, he, h1, h2⟩
    · rcases hstep.2 with h3 | ⟨h3, h4⟩
      · exact Or.inl (h1.trans h3)
      · refine Or.inr ⟨a, List.mem_cons_self _ _, h1.trans h3, ?_⟩
        have hkeep : ∀ (l2 : List Arc) (acc2 : Weight × (Nat → Nat)),
            (l2.foldl (start_rhs_step s u) acc2).1 = acc2.1 →
            (l2.foldl (start_rhs_step s u) acc2).2 = acc2.2 := by
          intro l2
          induction l2 with
          | nil =>
            intro acc2 _
            rfl
          | cons b l2 ih2 =>
            intro acc2 h5
            simp only [List.foldl_cons] at h5 ⊢
            obtain ⟨m1, -, -⟩ := start_rhs_fold s u l2 (start_rhs_step s u acc2 b)
            have hb : start_rhs_step s u acc2 b = acc2 := by
              unfold start_rhs_step at m1 h5 ⊢
              dsimp only at m1 h5 ⊢
              split
              · next hlt =>
                exfalso
                simp only [hlt, if_true] at m1 h5
                rw [h5] at m1
                have h6 := (Weight.lt_iff_not_le _ _).mp hlt
                rw [m1] at h6
                exact absurd h6 (by simp)
              · rfl
            rw [hb] at h5 ⊢
            exact ih2 acc2 h5
        rw [hkeep l _ h1]
        exact h4
    · exact Or.inr ⟨e, List.mem_cons_of_mem _ he, h1, h2⟩

end inc_bi

namespace inc_bi

theorem start_recompute_pred {s : inc_bi} (u : Nat) (h : StartPred s) :
    StartPred (start_recompute s u) := by
  unfold start_recompute
  by_cases hu : u = s.v_start
  · simp only [hu, ne_eq, not_true_eq_false, if_false]
    exact h
  · simp only [ne_eq, hu, not_false_eq_true, if_true]
    intro v hv hvs hrhs
    dsimp only at hv hvs hrhs ⊢
    obtain ⟨f1, f2⟩ := start_rhs_fold_pred s u (in_edges u s.g) (Weight.inf, s.start_predecessor)
    by_cases hvu : v = u
    · subst hvu
      rw [Function.update_same] at hrhs ⊢
      rcases f2 with h1 | ⟨e, he, h1, h2⟩
      · exact absurd h1 hrhs
      · exact ⟨e, (mem_in_edges.mp he).1, (mem_in_edges.mp he).2, h2.symm, h1⟩
    · rw [Function.update_noteq hvu] at hrhs ⊢
      obtain ⟨e, he, h1, h2, h3⟩ := h v hv hvs hrhs
      refine ⟨e, he, h1, ?_, h3⟩
      rw [h2]
      exact (f1 v hvu).symm

theorem start_update_vertex_pred {s s1 : inc_bi} {u : Nat} (h : StartPred s)
    (hu : start_update_vertex s u = some s1) : StartPred s1 := by
  obtain ⟨q, ⟨cq, rfl⟩, -, -⟩ := start_update_vertex_spec hu
  intro v hv hvs hrhs
  exact start_recompute_pred u h v hv hvs hrhs

theorem start_lower_step_pred {d : Weight} {s s1 : inc_bi} {e : Arc} (h : StartPred s)
    (hs : start_lower_step d s e = some s1) : StartPred s1 := by
  unfold start_lower_step at hs
  simp only [Option.bind_eq_some] at hs
  obtain ⟨s2, h2, h3⟩ := hs
  have hp2 := start_update_vertex_pred h h2
  split at h3
  · simp only [Option.map_eq_some'] at h3
    obtain ⟨q, -, rfl⟩ := h3
    intro v hv hvs hrhs
    exact hp2 v hv hvs hrhs
  · simp only [Option.some.injEq] at h3
    exact h3 ▸ hp2

theorem startPred_of_goalFrame {s s1 : inc_bi} (hf : GoalFrame s s1) (h : StartPred s) :
    StartPred s1 := by
  intro v hv hvs hrhs
  rw [hf.g] at hv
  rw [hf.v_start] at hvs
  rw [hf.start_distance_lookahead] at hrhs
  obtain ⟨e, he, h1, h2, h3⟩ := h v hv hvs hrhs
  refine ⟨e, hf.g ▸ he, h1, ?_, ?_⟩
  · rw [hf.start_predecessor]
    exact h2
  · rw [hf.start_distance_lookahead, hf.start_distance, hf.weight]
    exact h3

theorem expand_start_pred {g : Graph} {w : Arc → Weight} {vs vg : Nat}
    (hg : g.WellFormed) {pc : Arc → Prop} (hvs : vs < g.nv) {s s1 : inc_bi}
    (hI : FreshInv g w vs vg s (fun _ => False) (fun _ => False) pc)
    (hp : StartPred s) (h : expand_start s = some s1) : StartPred s1 := by
  unfold expand_start at h
  simp only [Option.bind_eq_some] at h
  obtain ⟨u, hu, q, hq, h⟩ := h
  obtain ⟨e, he, hrem⟩ := HeapIndexed.remove_min_eq_some hq
  have hue : e.1 = u := by
    simp only [HeapIndexed.top_idx, he, Option.map_some', Option.some.injEq] at hu
    exact hu
  have hmem : (u, e.2) ∈ s.start_queue.entries := by
    rw [← hue]
    exact HeapIndexed.top_mem he
  rw [hue] at hrem
  have hmin : ∀ v k1, (v, k1) ∈ s.start_queue.entries → Weight.le e.2 k1 = true := by
    intro v k1 hm
    have := top_minimal he (v, k1) hm
    simpa [Weight.le] using this
  obtain ⟨-, hdu, hru, -⟩ := start_settle_fresh hg hvs hI hmem hmin hrem
  have hcond : Weight.gt (s.start_distance u) (s.start_distance_lookahead u) = true := by
    rw [hdu]
    exact Weight.lt_inf_of_ne hru
  simp only [hcond, if_true] at h
  refine foldlM_inv StartPred (start_lower_step (s.start_distance_lookahead u))
    (fun t a t1 hP ht => start_lower_step_pred hP ht) _ _ s1 ?_ h
  intro v hv hvs1 hrhs
  obtain ⟨e1, he1, h1, h2, h3⟩ := hp v hv hvs1 hrhs
  refine ⟨e1, he1, h1, h2, ?_⟩
  dsimp only at hrhs ⊢
  have hsrc : e1.src ≠ u := by
    intro heq
    rw [h3, heq, hdu] at hrhs
    exact hrhs (by simp [Weight.combine])
  rw [Function.update_noteq hsrc]
  exact h3

end inc_bi

namespace inc_bi

theorem goal_rhs_fold_pred (s : inc_bi) (u : Nat) (l : List Arc) :
    ∀ acc : Weight × (Nat → Nat),
      (∀ v, v ≠ u → (l.foldl (goal_rhs_step s u) acc).2 v = acc.2 v) ∧
      ((l.foldl (goal_rhs_step s u) acc).1 = acc.1 ∨
        ∃ e ∈ l, (l.foldl (goal_rhs_step s u) acc).1 =
            Weight.combine (s.goal_distance e.src) (s.weight e) ∧
          (l.foldl (goal_rhs_step s u) acc).2 u = e.src) := by
  induction l with
  | nil =>
    intro acc
    exact ⟨fun _ _ => rfl, Or.inl rfl⟩
  | cons a l ih =>
    intro acc
    simp only [List.foldl_cons]
    obtain ⟨i1, i2⟩ := ih (goal_rhs_step s u acc a)
    have hstep : (∀ v, v ≠ u → (goal_rhs_step s u acc a).2 v = acc.2 v) ∧
        ((goal_rhs_step s u acc a).1 = acc.1 ∨
          ((goal_rhs_step s u acc a).1 =
              Weight.combine (s.goal_distance a.src) (s.weight a) ∧
            (goal_rhs_step s u acc a).2 u = a.src)) := by
      unfold goal_rhs_step
      dsimp only
      split
      · exact ⟨fun v hv => Function.update_noteq hv _ _,
          Or.inr ⟨rfl, Function.update_same _ _ _⟩⟩
      · exact ⟨fun _ _ => rfl, Or.inl rfl⟩
    refine ⟨fun v hv => (i1 v hv).trans (hstep.1 v hv), ?_⟩
    rcases i2 with h1 | ⟨e, he, h1, h2⟩
    · rcases hstep.2 with h3 | ⟨h3, h4⟩
      · exact Or.inl (h1.trans h3)
      · refine Or.inr ⟨a, List.mem_cons_self _ _, h1.trans h3, ?_⟩
        have hkeep : ∀ (l2 : List Arc) (acc2 : Weight × (Nat → Nat)),
            (l2.foldl (goal_rhs_step s u) acc2).1 = acc2.1 →
            (l2.foldl (goal_rhs_step s u) acc2).2 = acc2.2 := by
          intro l2
          induction l2 with
          | nil =>
            intro acc2 _
            rfl
          | cons b l2 ih2 =>
            intro acc2 h5
            simp only [List.foldl_cons] at h5 ⊢
            obtain ⟨m1, -, -⟩ := goal_rhs_fold s u l2 (goal_rhs_step s u acc2 b)
            have hb : goal_rhs_step s u acc2 b = acc2 := by
              unfold goal_rhs_step at m1 h5 ⊢
              dsimp only at m1 h5 ⊢
              split
              · next hlt =>
                exfalso
                simp only [hlt, if_true] at m1 h5
                rw [h5] at m1
                have h6 := (Weight.lt_iff_not_le _ _).mp hlt
                rw [m1] at h6
                exact absurd h6 (by simp)
              · rfl
            rw [hb] at h5 ⊢
            exact ih2 acc2 h5
        rw [hkeep l _ h1]
        exact h4
    · exact Or.inr ⟨e, List.mem_cons_of_mem _ he, h1, h2⟩

theorem goal_recompute_pred {s : inc_bi} (u : Nat) (h : GoalPred s) :
    GoalPred (goal_recompute s u) := by
  unfold goal_recompute
  by_cases hu : u = s.v_goal
  · simp only [hu, ne_eq, not_true_eq_false, if_false]
    exact h
  · simp only [ne_eq, hu, not_false_eq_true, if_true]
    intro v hv hvs hrhs
    dsimp only at hv hvs hrhs ⊢
    obtain ⟨f1, f2⟩ := goal_rhs_fold_pred s u (in_edges u s.g) (Weight.inf, s.goal_predecessor)
    by_cases hvu : v = u
    · subst hvu
      rw [Function.update_same] at hrhs ⊢
      rcases f2 with h1 | ⟨e, he, h1, h2⟩
      · exact absurd h1 hrhs
      · exact ⟨e, (mem_in_edges.mp he).1, (mem_in_edges.mp he).2, h2.symm, h1⟩
    · rw [Function.update_noteq hvu] at hrhs ⊢
      obtain ⟨e, he, h1, h2, h3⟩ := h v hv hvs hrhs
      refine ⟨e, he, h1, ?_, h3⟩
      rw [h2]
      exact (f1 v hvu).symm

theorem goal_update_vertex_pred {s s1 : inc_bi} {u : Nat} (h : GoalPred s)
    (hu : goal_update_vertex s u = some s1) : GoalPred s1 := by
  obtain ⟨q, ⟨cq, rfl⟩, -, -⟩ := goal_update_vertex_spec hu
  intro v hv hvs hrhs
  exact goal_recompute_pred u h v hv hvs hrhs

theorem goal_lower_step_pred {d : Weight} {s s1 : inc_bi} {e : Arc} (h : GoalPred s)
    (hs : goal_lower_step d s e = some s1) : GoalPred s1 := by
  unfold goal_lower_step at hs
  simp only [Option.bind_eq_some] at hs
  obtain ⟨s2, h2, h3⟩ := hs
  have hp2 := goal_update_vertex_pred h h2
  split at h3
  · simp only [Option.map_eq_some'] at h3
    obtain ⟨q, -, rfl⟩ := h3
    intro v hv hvs hrhs
    exact hp2 v hv hvs hrhs
  · simp only [Option.some.injEq] at h3
    exact h3 ▸ hp2

theorem goalPred_of_startFrame {s s1 : inc_bi} (hf : StartFrame s s1) (h : GoalPred s) :
    GoalPred s1 := by
  intro v hv hvs hrhs
  rw [hf.g] at hv
  rw [hf.v_goal] at hvs
  rw [hf.goal_distance_lookahead] at hrhs
  obtain ⟨e, he, h1, h2, h3⟩ := h v hv hvs hrhs
  refine ⟨e, hf.g ▸ he, h1, ?_, ?_⟩
  · rw [hf.goal_predecessor]
    exact h2
  · rw [hf.goal_distance_lookahead, hf.goal_distance, hf.weight]
    exact h3

theorem expand_goal_pred {g : Graph} {w : Arc → Weight} {vs vg : Nat}
    (hg : g.WellFormed) {pc : Arc → Prop} (hmir : Mirrored g w) (hvg : vg < g.nv)
    {s s1 : inc_bi} (hI : FreshInv g w vs vg s (fun _ => False) (fun _ => False) pc)
    (hp : GoalPred s) (h : expand_goal s = some s1) : GoalPred s1 := by
  unfold expand_goal at h
  simp only [Option.bind_eq_some] at h
  obtain ⟨u, hu, q, hq, h⟩ := h
  obtain ⟨e, he, hrem⟩ := HeapIndexed.remove_min_eq_some hq
  have hue : e.1 = u := by
    simp only [HeapIndexed.top_idx, he, Option.map_some', Option.some.injEq] at hu
    exact hu
  have hmem : (u, e.2) ∈ s.goal_queue.entries := by
    rw [← hue]
    exact HeapIndexed.top_mem he
  rw [hue] at hrem
  have hmin : ∀ v k1, (v, k1) ∈ s.goal_queue.entries → Weight.le e.2 k1 = true := by
    intro v k1 hm
    have := top_minimal he (v, k1) hm
    simpa [Weight.le] using this
  obtain ⟨-, hdu, hru, -⟩ := goal_settle_fresh hg hmir hvg hI hmem hmin hrem
  have hcond : Weight.gt (s.goal_distance u) (s.goal_distance_lookahead u) = true := by
    rw [hdu]
    exact Weight.lt_inf_of_ne hru
  simp only [hcond, if_true] at h
  refine foldlM_inv GoalPred (goal_lower_step (s.goal_distance_lookahead u))
    (fun t a t1 hP ht => goal_lower_step_pred hP ht) _ _ s1 ?_ h
  intro v hv hvs1 hrhs
  obtain ⟨e1, he1, h1, h2, h3⟩ := hp v hv hvs1 hrhs
  refine ⟨e1, he1, h1, h2, ?_⟩
  dsimp only at hrhs ⊢
  have hsrc : e1.src ≠ u := by
    intro heq
    rw [h3, heq, hdu] at hrhs
    exact hrhs (by simp [Weight.combine])
  rw [Function.update_noteq hsrc]
  exact h3

end inc_bi

/-- On strictly positive weights the predecessors of a settled vertex lead back to the
source of the frontier along arcs whose weights add up to its distance. -/
theorem pred_chain {g : Graph} {w : Arc → Weight} {src : Nat} {d r : Nat → Weight}
    {q : HeapIndexed Weight} {pend : Arc → Prop} {pred : Nat → Nat}
    (hg : g.WellFormed) (hsrc : src < g.nv) (hI : SideInv g w src d r q pend)
    (hpos : ∀ e ∈ g.arcs, w e ≠ Weight.zero)
    (hpred : ∀ v, v < g.nv → v ≠ src → r v ≠ Weight.inf →
      ∃ e ∈ g.arcs, e.tgt = v ∧ e.src = pred v ∧ r v = Weight.combine (d e.src) (w e)) :
    ∀ n v, v < g.nv → d v = Weight.fin n →
      ∃ p, IsWalk g src v p ∧ walk_len w p = d v ∧ (∀ e ∈ p, pred e.tgt = e.src) ∧
        (pred^[p.length]) v = src := by
  intro n
  induction n using Nat.strong_induction_on with
  | _ n ih =>
    intro v hv hdv
    have hdne : d v ≠ Weight.inf := by
      rw [hdv]
      exact fun h => Weight.noConfusion h
    by_cases hvs : v = src
    · subst hvs
      refine ⟨[], rfl, ?_, by simp, rfl⟩
      rw [isDist_self (hI.settled v hv hdne)]
      rfl
    · have hcons := side_settled_consistent hI hv hdne
      obtain ⟨e, he, het, hes, her⟩ := hpred v hv hvs (hcons ▸ hdne)
      rw [← hcons, hdv] at her
      have hwe := hpos e he
      obtain ⟨m, k, hm, hk, hmk, hk0⟩ : ∃ m k, d e.src = Weight.fin m ∧ w e = Weight.fin k ∧
          m + k = n ∧ k ≠ 0 := by
        cases hd1 : d e.src with
        | inf =>
          rw [hd1] at her
          simp [Weight.combine] at her
        | fin m =>
          cases hw1 : w e with
          | inf =>
            rw [hd1, hw1] at her
            simp [Weight.combine] at her
          | fin k =>
            rw [hd1, hw1] at her
            simp only [Weight.combine, Weight.fin.injEq] at her
            refine ⟨m, k, rfl, rfl, her.symm, ?_⟩
            intro hk0
            rw [hw1, hk0] at hwe
            exact hwe rfl
      obtain ⟨p, hp, hl, hpp, hit⟩ := ih m (by omega) e.src (hg.1 e he).1 hm
      refine ⟨p ++ [e], ?_, ?_, ?_, ?_⟩
      · have := isWalk_snoc hp he rfl
        rw [het] at this
        exact this
      · rw [walk_len_snoc, hl, hm, hk, hdv, ← hmk]
        rfl
      · intro x hx
        rcases List.mem_append.mp hx with h1 | h1
        · exact hpp x h1
        · simp only [List.mem_singleton] at h1
          rw [h1, het, hes]
      · rw [List.length_append, List.length_singleton, Function.iterate_succ_apply, ← hes]
        exact hit

/-- A walk along predecessor arcs, walked backwards along the mirrored arcs. -/
theorem isWalk_reverse_pred {g : Graph} {w : Arc → Weight} (hm : Mirrored g w)
    (pred : Nat → Nat) {a b : Nat} {p : List Arc} (h : IsWalk g a b p)
    (hp : ∀ e ∈ p, pred e.tgt = e.src) :
    ∃ q, IsWalk g b a q ∧ walk_len w q = walk_len w p ∧ (∀ e ∈ q, pred e.src = e.tgt) ∧
      q.length = p.length := by
  induction p generalizing a with
  | nil =>
    simp only [IsWalk] at h
    exact ⟨[], h.symm, rfl, by simp, rfl⟩
  | cons e p ih =>
    obtain ⟨he, hs, hw⟩ := h
    obtain ⟨q, hq, hl, hqp, hlen⟩ := ih hw (fun x hx => hp x (List.mem_cons_of_mem _ hx))
    obtain ⟨e1, he1, hs1, ht1, hw1⟩ := hm e he
    refine ⟨q ++ [e1], ?_, ?_, ?_, ?_⟩
    · have := isWalk_snoc hq he1 hs1
      rw [ht1, hs] at this
      exact this
    · rw [walk_len_snoc, hl, hw1, Weight.combine_comm]
      rfl
    · intro x hx
      rcases List.mem_append.mp hx with h1 | h1
      · exact hqp x h1
      · simp only [List.mem_singleton] at h1
        rw [h1, hs1, ht1]
        exact hp e (List.mem_cons_self _ _)
    · simp [hlen]

namespace inc_bi

theorem construct_pred {g : Graph} {vs vg : Nat} {sp : Nat → Nat} {sd sl : Nat → Weight}
    {gp : Nat → Nat} {gd gl : Nat → Weight} {w : Arc → Weight} {m : Weight}
    {t1 t2 t3 : Nat → Nat} {s : inc_bi}
    (h : construct g vs vg sp sd sl gp gd gl w m t1 t2 t3 = some s) :
    StartPred s ∧ GoalPred s := by
  obtain ⟨h1, h2, h3, -, -, -, -, -, h9, -, h11, -⟩ := construct_spec h
  constructor
  · intro v hv hvs hrhs
    rw [h1] at hv
    rw [h2] at hvs
    rw [h9 v] at hrhs
    simp [hvs, hv] at hrhs
  · intro v hv hvg hrhs
    rw [h1] at hv
    rw [h3] at hvg
    rw [h11 v] at hrhs
    simp [hvg, hv] at hrhs

theorem run_pred {g : Graph} {w : Arc → Weight} {vs vg : Nat}
    (hg : g.WellFormed) {pc : Arc → Prop} (hmir : Mirrored g w) (hvs : vs < g.nv)
    (hvg : vg < g.nv) {fuel : Nat} {s s1 : inc_bi} {r : Nat × Bool}
    (hI : FreshInv g w vs vg s (fun _ => False) (fun _ => False) pc)
    (hp : StartPred s ∧ GoalPred s)
    (h : compute_shortest_path fuel s = Run.done (r, s1)) :
    StartPred s1 ∧ GoalPred s1 :=
  (compute_shortest_path_inv
    (fun t => FreshInv g w vs vg t (fun _ => False) (fun _ => False) pc ∧
      StartPred t ∧ GoalPred t)
    (fun _ _ hP he => ⟨expand_start_fresh hg hvs hP.1 he,
      expand_start_pred hg hvs hP.1 hP.2.1 he,
      goalPred_of_startFrame (expand_start_frame he).1 hP.2.2⟩)
    (fun _ _ hP he => ⟨expand_goal_fresh hg hmir hvg hP.1 he,
      startPred_of_goalFrame (expand_goal_frame he).1 hP.2.1,
      expand_goal_pred hg hmir hvg hP.1 hP.2.2 he⟩) fuel s r s1 ⟨hI, hp⟩ h).2

theorem reachableStatic_pred {g : Graph} {w : Arc → Weight} {vs vg : Nat}
    (hg : g.WellFormed) (hmir : Mirrored g w) (hvs : vs < g.nv) (hvg : vg < g.nv)
    {s : inc_bi} (hs : ReachableStatic g w vs vg s) : StartPred s ∧ GoalPred s := by
  induction hs with
  | construct sp sd sl gp gd gl m t1 t2 t3 s h => exact construct_pred h
  | update_edge s s1 e he _ h ih =>
    obtain ⟨q, rfl⟩ := update_edge_connOnly h
    exact ⟨fun v hv hvs1 hrhs => ih.1 v hv hvs1 hrhs, fun v hv hvg1 hrhs => ih.2 v hv hvg1 hrhs⟩
  | start_update_vertex s s1 u hu _ h ih =>
    exact ⟨start_update_vertex_pred ih.1 h,
      goalPred_of_startFrame (start_update_vertex_frame h).1 ih.2⟩
  | goal_update_vertex s s1 u hu _ h ih =>
    exact ⟨startPred_of_goalFrame (goal_update_vertex_frame h).1 ih.1,
      goal_update_vertex_pred ih.2 h⟩
  | compute_shortest_path s s1 fuel r hs0 h ih =>
    exact run_pred hg hmir hvs hvg (reachableStatic_fresh hg hmir hvs hvg hs0) ih h

/-- The arc reported as found joins two predecessor chains: one leads from its source
back to the start, the other from its target on to the goal, and the weights along the
two chains and the arc add up to the path length of its key. -/
theorem found_chains {g : Graph} {w : Arc → Weight} {vs vg : Nat} (hg : g.WellFormed)
    (hmir : Mirrored g w) (hvs : vs < g.nv) (hvg : vg < g.nv)
    (hpos : ∀ a ∈ g.arcs, w a ≠ Weight.zero) {pc : Arc → Prop} {s : inc_bi}
    (hI : FreshInv g w vs vg s (fun _ => False) (fun _ => False) pc)
    (hp : StartPred s ∧ GoalPred s) {i : Nat} (hf : found_condition s i) :
    ∃ a ∈ g.arcs, a.idx = i ∧ ∃ k, s.conn_queue.key_of i = some k ∧ ∃ p1 p2,
      IsWalk g vs a.src p1 ∧ (∀ x ∈ p1, s.start_predecessor x.tgt = x.src) ∧
      (s.start_predecessor^[p1.length]) a.src = vs ∧
      IsWalk g a.tgt vg p2 ∧ (∀ x ∈ p2, s.goal_predecessor x.src = x.tgt) ∧
      (s.goal_predecessor^[p2.length]) a.tgt = vg ∧
      walk_len w (p1 ++ a :: p2) = k.path_length := by
  obtain ⟨-, k, st, gt, htop, -⟩ := hf
  have hmem := HeapIndexed.top_mem htop
  obtain ⟨a, ha, hidx, hda, hdb, hk⟩ := hI.conn_sound i k hmem
  refine ⟨a, ha, hidx, k, HeapIndexed.key_of_eq_of_mem hI.conn_nodup hmem, ?_⟩
  have hanv := (hg.1 a ha).1
  have hbnv := (hg.1 a ha).2
  have hps : ∀ v, v < g.nv → v ≠ vs → s.start_distance_lookahead v ≠ Weight.inf →
      ∃ e ∈ g.arcs, e.tgt = v ∧ e.src = s.start_predecessor v ∧
        s.start_distance_lookahead v = Weight.combine (s.start_distance e.src) (w e) := by
    intro v hv hne hr
    have := hp.1 v (hI.g_eq ▸ hv) (hI.v_start_eq ▸ hne) hr
    rw [hI.g_eq, hI.weight_eq] at this
    exact this
  have hpg : ∀ v, v < g.nv → v ≠ vg → s.goal_distance_lookahead v ≠ Weight.inf →
      ∃ e ∈ g.arcs, e.tgt = v ∧ e.src = s.goal_predecessor v ∧
        s.goal_distance_lookahead v = Weight.combine (s.goal_distance e.src) (w e) := by
    intro v hv hne hr
    have := hp.2 v (hI.g_eq ▸ hv) (hI.v_goal_eq ▸ hne) hr
    rw [hI.g_eq, hI.weight_eq] at this
    exact this
  obtain ⟨n1, hn1⟩ : ∃ n, s.start_distance a.src = Weight.fin n := by
    cases h : s.start_distance a.src with
    | inf => exact absurd h hda
    | fin n => exact ⟨n, rfl⟩
  obtain ⟨n2, hn2⟩ : ∃ n, s.goal_distance a.tgt = Weight.fin n := by
    cases h : s.goal_distance a.tgt with
    | inf => exact absurd h hdb
    | fin n => exact ⟨n, rfl⟩
  obtain ⟨p1, hw1, hl1, hpp1, hit1⟩ := pred_chain hg hvs hI.start hpos hps n1 a.src hanv hn1
  obtain ⟨p2, hw2, hl2, hpp2, hit2⟩ := pred_chain hg hvg hI.goal hpos hpg n2 a.tgt hbnv hn2
  obtain ⟨q2, hq2, hlq, hqp, hlen⟩ := isWalk_reverse_pred hmir s.goal_predecessor hw2 hpp2
  refine ⟨p1, q2, hw1, hpp1, hit1, hq2, hqp, hlen ▸ hit2, ?_⟩
  rw [walk_len_append, hk]
  simp only [walk_len]
  rw [hl1, hlq, hl2, Weight.combine_assoc]

end inc_bi

/-! ## The part played by the tie-breaking oracles -/

namespace HeapIndexed

variable {K : Type}

theorem retie_insert (h : HeapIndexed K) (t : Nat → Nat) (i : Nat) (k : K) :
    (h.retie t).insert i k = (h.insert i k).map (fun q => q.retie t) := by
  unfold insert
  by_cases hc : h.contains i = true
  · have : (h.retie t).contains i = true := hc
    simp [hc, this]
  · have : ¬ (h.retie t).contains i = true := hc
    simp only [hc, this, if_false, Option.map_some']
    rfl

theorem retie_update (h : HeapIndexed K) (t : Nat → Nat) (i : Nat) (k : K) :
    (h.retie t).update i k = (h.update i k).map (fun q => q.retie t) := by
  unfold update
  by_cases hc : h.contains i = true
  · have : (h.retie t).contains i = true := hc
    simp only [hc, this, if_true, Option.map_some']
    rfl
  · have : ¬ (h.retie t).contains i = true := hc
    simp [hc, this]

theorem retie_remove (h : HeapIndexed K) (t : Nat → Nat) (i : Nat) :
    (h.retie t).remove i = (h.remove i).map (fun q => q.retie t) := by
  unfold remove
  by_cases hc : h.contains i = true
  · have : (h.retie t).contains i = true := hc
    simp only [hc, this, if_true, Option.map_some']
    rfl
  · have : ¬ (h.retie t).contains i = true := hc
    simp [hc, this]

theorem retie_top (lt : K → K → Bool) (h : HeapIndexed K) (t : Nat → Nat)
    (ha : Agrees lt h t) : top lt (h.retie t) = top lt h := by
  unfold top
  show (minimal lt h)[t h.clock % (minimal lt h).length]?
    = (minimal lt h)[h.tie h.clock % (minimal lt h).length]?
  by_cases hl : 1 < (minimal lt h).length
  · have := ha (h.clock, (minimal lt h).length, h.tie h.clock % (minimal lt h).length)
      (by simp [tie_point, hl])
    dsimp only at this
    rw [this]
  · have hl1 : (minimal lt h).length = 0 ∨ (minimal lt h).length = 1 := by omega
    rcases hl1 with h0 | h1
    · rw [List.length_eq_zero.mp h0]
      rfl
    · rw [h1, Nat.mod_one, Nat.mod_one]

theorem retie_remove_min (lt : K → K → Bool) (h : HeapIndexed K) (t : Nat → Nat)
    (ha : Agrees lt h t) :
    remove_min lt (h.retie t) = (remove_min lt h).map (fun q => q.retie t) := by
  unfold remove_min
  rw [retie_top lt h t ha]
  cases top lt h with
  | none => rfl
  | some e => exact retie_remove h t e.1

end HeapIndexed

theorem foldlM_retie {σ α : Type} (r : σ → σ) (f : σ → α → Option σ)
    (hf : ∀ s a, f (r s) a = (f s a).map r) :
    ∀ (l : List α) (s : σ), l.foldlM f (r s) = (l.foldlM f s).map r := by
  intro l
  induction l with
  | nil =>
    intro s
    rfl
  | cons a l ih =>
    intro s
    simp only [List.foldlM, bind]
    rw [hf]
    cases f s a with
    | none => rfl
    | some s1 => exact ih s1

namespace inc_bi

theorem retie_g (t1 t2 t3 : Nat → Nat) (s : inc_bi) :
    (s.retie t1 t2 t3).g = s.g := rfl

theorem retie_v_start (t1 t2 t3 : Nat → Nat) (s : inc_bi) :
    (s.retie t1 t2 t3).v_start = s.v_start := rfl

theorem retie_v_goal (t1 t2 t3 : Nat → Nat) (s : inc_bi) :
    (s.retie t1 t2 t3).v_goal = s.v_goal := rfl

theorem retie_start_predecessor (t1 t2 t3 : Nat → Nat) (s : inc_bi) :
    (s.retie t1 t2 t3).start_predecessor = s.start_predecessor := rfl

theorem retie_start_distance (t1 t2 t3 : Nat → Nat) (s : inc_bi) :
    (s.retie t1 t2 t3).start_distance = s.start_distance := rfl

theorem retie_start_distance_lookahead (t1 t2 t3 : Nat → Nat) (s : inc_bi) :
    (s.retie t1 t2 t3).start_distance_lookahead = s.start_distance_lookahead := rfl

theorem retie_goal_predecessor (t1 t2 t3 : Nat → Nat) (s : inc_bi) :
    (s.retie t1 t2 t3).goal_predecessor = s.goal_predecessor := rfl

theorem retie_goal_distance (t1 t2 t3 : Nat → Nat) (s : inc_bi) :
    (s.retie t1 t2 t3).goal_distance = s.goal_distance := rfl

theorem retie_goal_distance_lookahead (t1 t2 t3 : Nat → Nat) (s : inc_bi) :
    (s.retie t1 t2 t3).goal_distance_lookahead = s.goal_distance_lookahead := rfl

theorem retie_weight (t1 t2 t3 : Nat → Nat) (s : inc_bi) :
    (s.retie t1 t2 t3).weight = s.weight := rfl

theorem retie_goal_margin (t1 t2 t3 : Nat → Nat) (s : inc_bi) :
    (s.retie t1 t2 t3).goal_margin = s.goal_margin := rfl

theorem retie_start_queue (t1 t2 t3 : Nat → Nat) (s : inc_bi) :
    (s.retie t1 t2 t3).start_queue = s.start_queue.retie t1 := rfl

theorem retie_goal_queue (t1 t2 t3 : Nat → Nat) (s : inc_bi) :
    (s.retie t1 t2 t3).goal_queue = s.goal_queue.retie t2 := rfl

theorem retie_conn_queue (t1 t2 t3 : Nat → Nat) (s : inc_bi) :
    (s.retie t1 t2 t3).conn_queue = s.conn_queue.retie t3 := rfl

theorem retie_set_start_queue (t1 t2 t3 : Nat → Nat) (s : inc_bi) (q : HeapIndexed Weight) :
    ({ s.retie t1 t2 t3 with start_queue := q.retie t1 } : inc_bi)
      = ({ s with start_queue := q } : inc_bi).retie t1 t2 t3 := rfl

theorem retie_set_goal_queue (t1 t2 t3 : Nat → Nat) (s : inc_bi) (q : HeapIndexed Weight) :
    ({ s.retie t1 t2 t3 with goal_queue := q.retie t2 } : inc_bi)
      = ({ s with goal_queue := q } : inc_bi).retie t1 t2 t3 := rfl

theorem retie_set_conn_queue (t1 t2 t3 : Nat → Nat) (s : inc_bi) (q : HeapIndexed conn_key) :
    ({ s.retie t1 t2 t3 with conn_queue := q.retie t3 } : inc_bi)
      = ({ s with conn_queue := q } : inc_bi).retie t1 t2 t3 := rfl

end inc_bi

theorem HeapIndexed.retie_contains {K : Type} (h : HeapIndexed K) (t : Nat → Nat) (i : Nat) :
    (h.retie t).contains i = h.contains i := rfl

theorem HeapIndexed.retie_size {K : Type} (h : HeapIndexed K) (t : Nat → Nat) :
    (h.retie t).size = h.size := rfl

theorem HeapIndexed.retie_key_of {K : Type} (h : HeapIndexed K) (t : Nat → Nat) (i : Nat) :
    (h.retie t).key_of i = h.key_of i := rfl

namespace inc_bi

theorem start_recompute_retie (t1 t2 t3 : Nat → Nat) (s : inc_bi) (u : Nat) :
    start_recompute (s.retie t1 t2 t3) u = (start_recompute s u).retie t1 t2 t3 := by
  unfold start_recompute
  by_cases hu : u = s.v_start
  · have h1 : ¬ u ≠ (s.retie t1 t2 t3).v_start := fun h => h hu
    have h2 : ¬ u ≠ s.v_start := fun h => h hu
    rw [if_neg h1, if_neg h2]
  · have h1 : u ≠ (s.retie t1 t2 t3).v_start := hu
    rw [if_pos h1, if_pos hu]
    rfl

theorem start_open_step_retie (t1 t2 t3 : Nat → Nat) (d : Weight) (s : inc_bi) (e : Arc) :
    start_open_step d (s.retie t1 t2 t3) e = (start_open_step d s e).map
      (fun x => x.retie t1 t2 t3) := by
  unfold start_open_step
  simp only [retie_goal_queue, retie_goal_distance, retie_weight, retie_conn_queue,
    HeapIndexed.retie_contains, HeapIndexed.retie_insert]
  split
  · cases s.conn_queue.insert e.idx
        ⟨Weight.combine (Weight.combine d (s.weight e)) (s.goal_distance e.tgt), d,
          s.goal_distance e.tgt⟩ with
    | none => rfl
    | some q => rfl
  · rfl

theorem conn_drop_step_retie (t1 t2 t3 : Nat → Nat) (s : inc_bi) (e : Arc) :
    conn_drop_step (s.retie t1 t2 t3) e = (conn_drop_step s e).map
      (fun x => x.retie t1 t2 t3) := by
  unfold conn_drop_step
  simp only [retie_conn_queue, HeapIndexed.retie_contains, HeapIndexed.retie_remove]
  split
  · cases s.conn_queue.remove e.idx with
    | none => rfl
    | some q => rfl
  · rfl

theorem update_edge_retie (t1 t2 t3 : Nat → Nat) (s : inc_bi) (e : Arc) :
    update_edge (s.retie t1 t2 t3) e = (update_edge s e).map (fun x => x.retie t1 t2 t3) := by
  unfold update_edge
  have hv : edge_is_valid (s.retie t1 t2 t3) e = edge_is_valid s e := rfl
  simp only [hv, retie_conn_queue, retie_start_distance, retie_goal_distance, retie_weight,
    HeapIndexed.retie_contains, HeapIndexed.retie_remove, HeapIndexed.retie_update,
    HeapIndexed.retie_insert]
  split
  · split
    · cases s.conn_queue.remove e.idx with
      | none => rfl
      | some q => rfl
    · rfl
  · split
    · cases s.conn_queue.update e.idx
          ⟨Weight.combine (Weight.combine (s.start_distance e.src) (s.weight e))
            (s.goal_distance e.tgt), s.start_distance e.src, s.goal_distance e.tgt⟩ with
      | none => rfl
      | some q => rfl
    · cases s.conn_queue.insert e.idx
          ⟨Weight.combine (Weight.combine (s.start_distance e.src) (s.weight e))
            (s.goal_distance e.tgt), s.start_distance e.src, s.goal_distance e.tgt⟩ with
      | none => rfl
      | some q => rfl

end inc_bi

namespace inc_bi

theorem start_calculate_key_retie (t1 t2 t3 : Nat → Nat) (s : inc_bi) (u : Nat) :
    start_calculate_key (s.retie t1 t2 t3) u = start_calculate_key s u := rfl

theorem start_update_vertex_retie (t1 t2 t3 : Nat → Nat) (s : inc_bi) (u : Nat) :
    start_update_vertex (s.retie t1 t2 t3) u = (start_update_vertex s u).map
      (fun x => x.retie t1 t2 t3) := by
  unfold start_update_vertex
  simp only [start_recompute_retie, start_calculate_key_retie, retie_start_distance,
    retie_start_distance_lookahead, retie_start_queue, retie_g, HeapIndexed.retie_contains,
    HeapIndexed.retie_remove, HeapIndexed.retie_update, HeapIndexed.retie_insert]
  split
  · split
    · cases hq : (start_recompute s u).start_queue.remove u with
      | none => rfl
      | some q =>
        simp only [Option.map_some', Option.some_bind]
        split
        · exact foldlM_retie (fun x => x.retie t1 t2 t3) (start_open_step _)
            (start_open_step_retie t1 t2 t3 _) _
            { start_recompute s u with start_queue := q }
        · rfl
    · rfl
  · split
    · cases hq : (start_recompute s u).start_queue.update u
          (start_calculate_key (start_recompute s u) u) with
      | none => rfl
      | some q => rfl
    · cases hq : (start_recompute s u).start_queue.insert u
          (start_calculate_key (start_recompute s u) u) with
      | none => rfl
      | some q =>
        simp only [Option.map_some', Option.some_bind]
        exact foldlM_retie (fun x => x.retie t1 t2 t3) conn_drop_step
          (conn_drop_step_retie t1 t2 t3) _ { start_recompute s u with start_queue := q }

theorem start_lower_step_retie (t1 t2 t3 : Nat → Nat) (d : Weight) (s : inc_bi) (e : Arc) :
    start_lower_step d (s.retie t1 t2 t3) e = (start_lower_step d s e).map
      (fun x => x.retie t1 t2 t3) := by
  unfold start_lower_step
  simp only [start_update_vertex_retie]
  cases hs : start_update_vertex s e.tgt with
  | none => rfl
  | some s1 =>
    simp only [Option.map_some', Option.some_bind, retie_goal_queue, retie_goal_distance,
      retie_weight, retie_conn_queue, HeapIndexed.retie_contains, HeapIndexed.retie_insert]
    split
    · cases hq : s1.conn_queue.insert e.idx
          ⟨Weight.combine (Weight.combine d (s1.weight e)) (s1.goal_distance e.tgt), d,
            s1.goal_distance e.tgt⟩ with
      | none => rfl
      | some q => rfl
    · rfl

theorem expand_start_retie (t1 t2 t3 : Nat → Nat) (s : inc_bi)
    (ha : HeapIndexed.Agrees Weight.lt s.start_queue t1) :
    expand_start (s.retie t1 t2 t3) = (expand_start s).map (fun x => x.retie t1 t2 t3) := by
  unfold expand_start
  have htop : HeapIndexed.top_idx Weight.lt (s.start_queue.retie t1)
      = HeapIndexed.top_idx Weight.lt s.start_queue := by
    unfold HeapIndexed.top_idx
    rw [HeapIndexed.retie_top _ _ _ ha]
  simp only [retie_start_queue, htop, HeapIndexed.retie_remove_min _ _ _ ha,
    retie_start_distance, retie_start_distance_lookahead, retie_g]
  cases hu : HeapIndexed.top_idx Weight.lt s.start_queue with
  | none => rfl
  | some u =>
    simp only [Option.some_bind]
    cases hq : HeapIndexed.remove_min Weight.lt s.start_queue with
    | none => rfl
    | some q =>
      simp only [Option.map_some', Option.some_bind]
      split
      · exact foldlM_retie (fun x => x.retie t1 t2 t3) (start_lower_step _)
          (start_lower_step_retie t1 t2 t3 _) _
          { s with start_queue := q,
                   start_distance :=
                     Function.update s.start_distance u (s.start_distance_lookahead u) }
      · have h1 := start_update_vertex_retie t1 t2 t3
          { s with start_queue := q,
                   start_distance := Function.update s.start_distance u Weight.inf } u
        refine Eq.trans (congrArg (fun o => Option.bind o _) h1) ?_
        cases h3 : start_update_vertex
            { s with start_queue := q,
                     start_distance := Function.update s.start_distance u Weight.inf } u with
        | none => rfl
        | some s3 =>
          simp only [Option.map_some', Option.some_bind]
          exact foldlM_retie (fun x => x.retie t1 t2 t3)
            (fun (st : inc_bi) (e : Arc) => start_update_vertex st e.tgt)
            (fun (st : inc_bi) (e : Arc) => start_update_vertex_retie t1 t2 t3 st e.tgt) _ s3

end inc_bi

namespace inc_bi

theorem goal_recompute_retie (t1 t2 t3 : Nat → Nat) (s : inc_bi) (u : Nat) :
    goal_recompute (s.retie t1 t2 t3) u = (goal_recompute s u).retie t1 t2 t3 := by
  unfold goal_recompute
  by_cases hu : u = s.v_goal
  · have h1 : ¬ u ≠ (s.retie t1 t2 t3).v_goal := fun h => h hu
    have h2 : ¬ u ≠ s.v_goal := fun h => h hu
    rw [if_neg h1, if_neg h2]
  · have h1 : u ≠ (s.retie t1 t2 t3).v_goal := hu
    rw [if_pos h1, if_pos hu]
    rfl

theorem goal_open_step_retie (t1 t2 t3 : Nat → Nat) (d : Weight) (s : inc_bi) (e : Arc) :
    goal_open_step d (s.retie t1 t2 t3) e = (goal_open_step d s e).map
      (fun x => x.retie t1 t2 t3) := by
  unfold goal_open_step
  simp only [retie_start_queue, retie_start_distance, retie_weight, retie_conn_queue,
    HeapIndexed.retie_contains, HeapIndexed.retie_insert]
  split
  · cases s.conn_queue.insert e.idx _ with
    | none => rfl
    | some q => rfl
  · rfl

theorem goal_calculate_key_retie (t1 t2 t3 : Nat → Nat) (s : inc_bi) (u : Nat) :
    goal_calculate_key (s.retie t1 t2 t3) u = goal_calculate_key s u := rfl

theorem goal_update_vertex_retie (t1 t2 t3 : Nat → Nat) (s : inc_bi) (u : Nat) :
    goal_update_vertex (s.retie t1 t2 t3) u = (goal_update_vertex s u).map
      (fun x => x.retie t1 t2 t3) := by
  unfold goal_update_vertex
  simp only [goal_recompute_retie, goal_calculate_key_retie, retie_goal_distance,
    retie_goal_distance_lookahead, retie_goal_queue, retie_g, HeapIndexed.retie_contains,
    HeapIndexed.retie_remove, HeapIndexed.retie_update, HeapIndexed.retie_insert]
  split
  · split
    · cases hq : (goal_recompute s u).goal_queue.remove u with
      | none => rfl
      | some q =>
        simp only [Option.map_some', Option.some_bind]
        split
        · exact foldlM_retie (fun x => x.retie t1 t2 t3) (goal_open_step _)
            (goal_open_step_retie t1 t2 t3 _) _
            { goal_recompute s u with goal_queue := q }
        · rfl
    · rfl
  · split
    · cases hq : (goal_recompute s u).goal_queue.update u
          (goal_calculate_key (goal_recompute s u) u) with
      | none => rfl
      | some q => rfl
    · cases hq : (goal_recompute s u).goal_queue.insert u
          (goal_calculate_key (goal_recompute s u) u) with
      | none => rfl
      | some q =>
        simp only [Option.map_some', Option.some_bind]
        exact foldlM_retie (fun x => x.retie t1 t2 t3) conn_drop_step
          (conn_drop_step_retie t1 t2 t3) _ { goal_recompute s u with goal_queue := q }

theorem goal_lower_step_retie (t1 t2 t3 : Nat → Nat) (d : Weight) (s : inc_bi) (e : Arc) :
    goal_lower_step d (s.retie t1 t2 t3) e = (goal_lower_step d s e).map
      (fun x => x.retie t1 t2 t3) := by
  unfold goal_lower_step
  simp only [goal_update_vertex_retie]
  cases hs : goal_update_vertex s e.src with
  | none => rfl
  | some s1 =>
    simp only [Option.map_some', Option.some_bind, retie_start_queue, retie_start_distance,
      retie_weight, retie_conn_queue, HeapIndexed.retie_contains, HeapIndexed.retie_insert]
    split
    · cases hq : s1.conn_queue.insert e.idx _ with
      | none => rfl
      | some q => rfl
    · rfl

theorem expand_goal_retie (t1 t2 t3 : Nat → Nat) (s : inc_bi)
    (ha : HeapIndexed.Agrees Weight.lt s.goal_queue t2) :
    expand_goal (s.retie t1 t2 t3) = (expand_goal s).map (fun x => x.retie t1 t2 t3) := by
  unfold expand_goal
  have htop : HeapIndexed.top_idx Weight.lt (s.goal_queue.retie t2)
      = HeapIndexed.top_idx Weight.lt s.goal_queue := by
    unfold HeapIndexed.top_idx
    rw [HeapIndexed.retie_top _ _ _ ha]
  simp only [retie_goal_queue, htop, HeapIndexed.retie_remove_min _ _ _ ha,
    retie_goal_distance, retie_goal_distance_lookahead, retie_g]
  cases hu : HeapIndexed.top_idx Weight.lt s.goal_queue with
  | none => rfl
  | some u =>
    simp only [Option.some_bind]
    cases hq : HeapIndexed.remove_min Weight.lt s.goal_queue with
    | none => rfl
    | some q =>
      simp only [Option.map_some', Option.some_bind]
      split
      · exact foldlM_retie (fun x => x.retie t1 t2 t3) (goal_lower_step _)
          (goal_lower_step_retie t1 t2 t3 _) _
          { s with goal_queue := q,
                   goal_distance :=
                     Function.update s.goal_distance u (s.goal_distance_lookahead u) }
      · have h1 := goal_update_vertex_retie t1 t2 t3
          { s with goal_queue := q,
                   goal_distance := Function.update s.goal_distance u Weight.inf } u
        refine Eq.trans (congrArg (fun o => Option.bind o _) h1) ?_
        cases h3 : goal_update_vertex
            { s with goal_queue := q,
                     goal_distance := Function.update s.goal_distance u Weight.inf } u with
        | none => rfl
        | some s3 =>
          simp only [Option.map_some', Option.some_bind]
          exact foldlM_retie (fun x => x.retie t1 t2 t3)
            (fun (st : inc_bi) (e : Arc) => goal_update_vertex st e.tgt)
            (fun (st : inc_bi) (e : Arc) => goal_update_vertex_retie t1 t2 t3 st e.tgt) _ s3

end inc_bi

namespace inc_bi

theorem start_top_retie (t1 t2 t3 : Nat → Nat) (s : inc_bi)
    (ha : HeapIndexed.Agrees Weight.lt s.start_queue t1) :
    start_top (s.retie t1 t2 t3) = start_top s := by
  unfold start_top HeapIndexed.top_key
  simp only [retie_start_queue, HeapIndexed.retie_size, HeapIndexed.retie_top _ _ _ ha]

theorem goal_top_retie (t1 t2 t3 : Nat → Nat) (s : inc_bi)
    (ha : HeapIndexed.Agrees Weight.lt s.goal_queue t2) :
    goal_top (s.retie t1 t2 t3) = goal_top s := by
  unfold goal_top HeapIndexed.top_key
  simp only [retie_goal_queue, HeapIndexed.retie_size, HeapIndexed.retie_top _ _ _ ha]

theorem termination_test_retie (t1 t2 t3 : Nat → Nat) (s : inc_bi) (st gt : Weight)
    (ha : HeapIndexed.Agrees conn_key.lt s.conn_queue t3) :
    termination_test (s.retie t1 t2 t3) st gt = termination_test s st gt := by
  unfold termination_test HeapIndexed.top_key HeapIndexed.top_idx
  simp only [retie_conn_queue, retie_goal_margin, HeapIndexed.retie_size,
    HeapIndexed.retie_top _ _ _ ha]

theorem iteration_retie (t1 t2 t3 : Nat → Nat) (s : inc_bi)
    (h1 : HeapIndexed.Agrees Weight.lt s.start_queue t1)
    (h2 : HeapIndexed.Agrees Weight.lt s.goal_queue t2)
    (h3 : HeapIndexed.Agrees conn_key.lt s.conn_queue t3) :
    iteration (s.retie t1 t2 t3) = (iteration s).map (Iter.retie t1 t2 t3) := by
  unfold iteration
  rw [start_top_retie t1 t2 t3 s h1, goal_top_retie t1 t2 t3 s h2]
  cases start_top s with
  | none => rfl
  | some st =>
    cases goal_top s with
    | none => rfl
    | some gt =>
      simp only [Option.some_bind]
      split
      · rfl
      · rw [termination_test_retie t1 t2 t3 s st gt h3]
        cases termination_test s st gt with
        | none => rfl
        | some t =>
          cases t with
          | some i => rfl
          | none =>
            simp only [Option.some_bind]
            split
            · rw [expand_start_retie t1 t2 t3 s h1]
              cases expand_start s with
              | none => rfl
              | some s1 => rfl
            · rw [expand_goal_retie t1 t2 t3 s h2]
              cases expand_goal s with
              | none => rfl
              | some s1 => rfl

theorem ties_agree_head {t1 t2 t3 : Nat → Nat} {fuel : Nat} {s : inc_bi}
    (h : ties_agree t1 t2 t3 (tie_points (fuel + 1) s)) :
    HeapIndexed.Agrees Weight.lt s.start_queue t1 ∧
      HeapIndexed.Agrees Weight.lt s.goal_queue t2 ∧
      HeapIndexed.Agrees conn_key.lt s.conn_queue t3 ∧
      ∀ s1, iteration s = some (Iter.next s1) → ties_agree t1 t2 t3 (tie_points fuel s1) := by
  unfold tie_points at h
  refine ⟨?_, ?_, ?_, ?_⟩
  · intro p hp
    exact h (0, p) (List.mem_append_left _ (List.mem_map.mpr ⟨p, hp, rfl⟩))
  · intro p hp
    exact h (1, p) (List.mem_append_right _
      (List.mem_append_left _ (List.mem_map.mpr ⟨p, hp, rfl⟩)))
  · intro p hp
    exact h (2, p) (List.mem_append_right _ (List.mem_append_right _
      (List.mem_append_left _ (List.mem_map.mpr ⟨p, hp, rfl⟩))))
  · intro s1 hs1 p hp
    apply h p
    rw [hs1]
    exact List.mem_append_right _ (List.mem_append_right _ (List.mem_append_right _ hp))

/-- A run of `compute_shortest_path` depends on the tie-breaking oracles only through
the choices they make at the ties it meets. -/
theorem compute_shortest_path_retie (t1 t2 t3 : Nat → Nat) :
    ∀ (fuel : Nat) (s s1 : inc_bi) (r : Nat × Bool),
      ties_agree t1 t2 t3 (tie_points fuel s) →
      compute_shortest_path fuel s = Run.done (r, s1) →
      compute_shortest_path fuel (s.retie t1 t2 t3) = Run.done (r, s1.retie t1 t2 t3) := by
  intro fuel
  induction fuel with
  | zero =>
    intro s s1 r _ h
    simp [compute_shortest_path] at h
  | succ n ih =>
    intro s s1 r ha h
    obtain ⟨h1, h2, h3, h4⟩ := ties_agree_head ha
    unfold compute_shortest_path at h ⊢
    rw [iteration_retie t1 t2 t3 s h1 h2 h3]
    cases hi : iteration s with
    | none =>
      rw [hi] at h
      simp at h
    | some it =>
      rw [hi] at h
      cases it with
      | ret r1 =>
        simp only [Run.done.injEq, Prod.mk.injEq] at h
        simp only [Option.map_some', Iter.retie]
        rw [h.1, h.2]
      | next s2 =>
        simp only [Option.map_some', Iter.retie]
        exact ih s2 s1 r (h4 s2 hi) h

theorem construct_vertex_fold_retie (t1 t2 t3 : Nat → Nat) (l : List Nat) :
    ∀ s : inc_bi, l.foldl construct_vertex (s.retie t1 t2 t3)
      = (l.foldl construct_vertex s).retie t1 t2 t3 := by
  induction l with
  | nil =>
    intro s
    rfl
  | cons v l ih =>
    intro s
    exact ih (construct_vertex s v)

/-- The constructor hands the oracles to the queues and does not consult them. -/
theorem construct_retie (g : Graph) (vs vg : Nat) (sp : Nat → Nat) (sd sl : Nat → Weight)
    (gp : Nat → Nat) (gd gl : Nat → Weight) (w : Arc → Weight) (m : Weight)
    (c1 c2 c3 t1 t2 t3 : Nat → Nat) :
    construct g vs vg sp sd sl gp gd gl w m t1 t2 t3
      = (construct g vs vg sp sd sl gp gd gl w m c1 c2 c3).map
          (fun x => x.retie t1 t2 t3) := by
  unfold construct
  have hm : members g vs vg sp sd sl gp gd gl w m t1 t2 t3
      = (members g vs vg sp sd sl gp gd gl w m c1 c2 c3).retie t1 t2 t3 := rfl
  simp only [hm, construct_vertex_fold_retie, retie_start_queue, retie_goal_queue,
    retie_start_distance_lookahead, retie_goal_distance_lookahead,
    HeapIndexed.retie_insert]
  cases hq1 : ((vertices g).foldl construct_vertex
      (members g vs vg sp sd sl gp gd gl w m c1 c2 c3)).start_queue.insert vs Weight.zero with
  | none => rfl
  | some q1 =>
    simp only [Option.map_some', Option.some_bind]
    cases hq2 : ((vertices g).foldl construct_vertex
        (members g vs vg sp sd sl gp gd gl w m c1 c2 c3)).goal_queue.insert vg Weight.zero with
    | none => rfl
    | some q2 => rfl

end inc_bi

/-! ## The two scenarios on the cycle -/

theorem scenario_A_retie (c1 c2 c3 t1 t2 t3 : Nat → Nat) (x : (Nat × Bool) × inc_bi)
    (l : List (Nat × Nat × Nat × Nat)) (hA : scenario_A c1 c2 c3 = some x)
    (hl : (inc_bi.fresh_tie cycle4 0 2 cycle4_weight Weight.zero c1 c2 c3).map
      (inc_bi.tie_points 10) = some l)
    (ha : ties_agree t1 t2 t3 l) :
    scenario_A t1 t2 t3 = some (x.1, x.2.retie t1 t2 t3) := by
  unfold scenario_A at hA ⊢
  unfold inc_bi.fresh_tie at hA hl ⊢
  rw [inc_bi.construct_retie _ _ _ _ _ _ _ _ _ _ _ c1 c2 c3 t1 t2 t3]
  obtain ⟨s0, hs0, hx⟩ := Option.bind_eq_some.mp hA
  rw [hs0] at hl ⊢
  simp only [Option.map_some', Option.some.injEq] at hl
  have hr : inc_bi.compute_shortest_path 10 s0 = Run.done (x.1, x.2) := run_result_eq_some hx
  simp only [Option.map_some', Option.some_bind]
  rw [inc_bi.compute_shortest_path_retie t1 t2 t3 10 s0 x.2 x.1 (hl ▸ ha) hr]
  rfl

theorem scenario_B_retie (t1 t2 t3 : Nat → Nat) (s : inc_bi) (y : (Nat × Bool) × inc_bi)
    (hB : scenario_B s = some y)
    (hl : ((inc_bi.update_edge { s with weight := cycle4_weight_cut } ⟨0, 1, 0⟩).bind
      fun s2 => inc_bi.update_edge s2 ⟨1, 0, 1⟩).map (inc_bi.tie_points 10) = some []) :
    scenario_B (s.retie t1 t2 t3) = some (y.1, y.2.retie t1 t2 t3) := by
  unfold scenario_B at hB ⊢
  have h0 : ({ s.retie t1 t2 t3 with weight := cycle4_weight_cut } : inc_bi)
      = ({ s with weight := cycle4_weight_cut } : inc_bi).retie t1 t2 t3 := rfl
  rw [h0, inc_bi.update_edge_retie]
  obtain ⟨s2, hs2, hB⟩ := Option.bind_eq_some.mp hB
  obtain ⟨s3, hs3, hy⟩ := Option.bind_eq_some.mp hB
  rw [hs2] at hl ⊢
  simp only [Option.map_some', Option.some_bind] at hl ⊢
  rw [hs3] at hl
  rw [inc_bi.update_edge_retie, hs3]
  simp only [Option.map_some', Option.some_bind, Option.some.injEq] at hl ⊢
  have hr : inc_bi.compute_shortest_path 10 s3 = Run.done (y.1, y.2) := run_result_eq_some hy
  have ha : ties_agree t1 t2 t3 (inc_bi.tie_points 10 s3) := by
    rw [hl]
    intro p hp
    simp at hp
  rw [inc_bi.compute_shortest_path_retie t1 t2 t3 10 s3 y.2 y.1 ha hr]
  rfl

/-- Scenario A meets one tie: the goal queue holds B and D with the key 1 when its clock
stands at 4. The run under any oracles is the run under the constant oracles that make
the same choice there. -/
theorem scenario_A_tie (t1 t2 t3 : Nat → Nat) :
    ∃ j x, (j = 0 ∨ j = 1) ∧
      scenario_A (fun _ => 0) (fun _ => j) (fun _ => 0) = some x ∧
      scenario_A t1 t2 t3 = some (x.1, x.2.retie t1 t2 t3) := by
  rcases Nat.mod_two_eq_zero_or_one (t2 4) with h | h
  · have hs : (scenario_A (fun _ => 0) (fun _ => 0) (fun _ => 0)).isSome = true := by decide
    obtain ⟨x, hx⟩ := Option.isSome_iff_exists.mp hs
    have hl : (inc_bi.fresh_tie cycle4 0 2 cycle4_weight Weight.zero (fun _ => 0) (fun _ => 0)
        (fun _ => 0)).map (inc_bi.tie_points 10) = some [(1, 4, 2, 0), (1, 4, 2, 0)] := by
      decide
    refine ⟨0, x, Or.inl rfl, hx, scenario_A_retie _ _ _ t1 t2 t3 x _ hx hl ?_⟩
    intro p hp
    simp only [List.mem_cons, List.mem_singleton, List.not_mem_nil, or_false, or_self] at hp
    subst hp
    exact h
  · have hs : (scenario_A (fun _ => 0) (fun _ => 1) (fun _ => 0)).isSome = true := by decide
    obtain ⟨x, hx⟩ := Option.isSome_iff_exists.mp hs
    have hl : (inc_bi.fresh_tie cycle4 0 2 cycle4_weight Weight.zero (fun _ => 0) (fun _ => 1)
        (fun _ => 0)).map (inc_bi.tie_points 10) = some [(1, 4, 2, 1), (1, 4, 2, 1)] := by
      decide
    refine ⟨1, x, Or.inr rfl, hx, scenario_A_retie _ _ _ t1 t2 t3 x _ hx hl ?_⟩
    intro p hp
    simp only [List.mem_cons, List.mem_singleton, List.not_mem_nil, or_false, or_self] at hp
    subst hp
    exact h

/-- C13: Scenario A. On the cycle A-B-C-D-A given as mirrored arc pairs with the weights
AB = 1, BC = 1, CD = 1, DA = 5, a freshly constructed engine with start A, goal C and
margin 0 returns `(0, true)` from `compute_shortest_path`, whatever the tie-breaking of
its queues: arc 0 is the arc A -> B of the path A-B-C, its key has path length 2, its
source A is the start vertex, and the goal predecessor of its target B is the goal C. -/
theorem C13_scenario_A_length_two (t1 t2 t3 : Nat → Nat) :
    ∃ s0 s1 k, inc_bi.fresh_tie cycle4 0 2 cycle4_weight Weight.zero t1 t2 t3 = some s0 ∧
      inc_bi.compute_shortest_path 10 s0 = Run.done ((0, true), s1) ∧
      s1.conn_queue.key_of 0 = some k ∧ k.path_length = Weight.fin 2 ∧
      (⟨0, 1, 0⟩ : Arc) ∈ cycle4.arcs ∧ s1.v_start = 0 ∧ s1.v_goal = 2 ∧
      s1.goal_predecessor 1 = 2 ∧
      walk_len cycle4_weight [⟨0, 1, 0⟩, ⟨1, 2, 2⟩] = k.path_length := by
  obtain ⟨j, x, hj, hx, hA⟩ := scenario_A_tie t1 t2 t3
  have hf : x.1 = (0, true) ∧ x.2.conn_queue.key_of 0 = some ⟨Weight.fin 2, Weight.fin 0,
      Weight.fin 1⟩ ∧ x.2.v_start = 0 ∧ x.2.v_goal = 2 ∧ x.2.goal_predecessor 1 = 2 := by
    rcases hj with rfl | rfl
    · have hd : (scenario_A (fun _ => 0) (fun _ => 0) (fun _ => 0)).map
          (fun x => (x.1, x.2.conn_queue.key_of 0, x.2.v_start, x.2.v_goal,
            x.2.goal_predecessor 1))
          = some ((0, true), some ⟨Weight.fin 2, Weight.fin 0, Weight.fin 1⟩, 0, 2, 2) := by
        decide
      rw [hx] at hd
      simpa using hd
    · have hd : (scenario_A (fun _ => 0) (fun _ => 1) (fun _ => 0)).map
          (fun x => (x.1, x.2.conn_queue.key_of 0, x.2.v_start, x.2.v_goal,
            x.2.goal_predecessor 1))
          = some ((0, true), some ⟨Weight.fin 2, Weight.fin 0, Weight.fin 1⟩, 0, 2, 2) := by
        decide
      rw [hx] at hd
      simpa using hd
  obtain ⟨h1, h2, h3, h4, h5⟩ := hf
  unfold scenario_A at hA
  obtain ⟨s0, hs0, hrun⟩ := Option.bind_eq_some.mp hA
  have hr := run_result_eq_some hrun
  rw [h1] at hr
  exact ⟨s0, x.2.retie t1 t2 t3, _, hs0, hr, h2, rfl, by decide, h3, h4, h5, by decide⟩

/-- C14 (counterexample): Scenario B after a first run in which the goal queue popped D
before B. With the weight of AB set to unreachable and `update_edge` called on both arcs
of AB and nothing else, the next `compute_shortest_path` returns `(2, true)`: arc 2 is the
arc B -> C, its key has path length 2, and the start predecessor of B is still A, although
the arc A -> B weighs `inf` and the distance from A to C is 6. -/
theorem C14_counterexample :
    ((scenario_A (fun _ => 0) (fun _ => 1) (fun _ => 0)).bind fun x => scenario_B x.2).map
        (fun y => (y.1, (y.2.conn_queue.key_of y.1.1).map conn_key.path_length,
          y.2.weight ⟨0, 1, 0⟩, y.2.start_predecessor 1,
          dijkstra cycle4 cycle4_weight_cut 0 2))
      = some ((2, true), some (Weight.fin 2), Weight.inf, 0, Weight.fin 6) := by
  decide

/-- C14 (amended): Scenario B. Continuing from the state left by Scenario A, with the
weight of AB set to unreachable and `update_edge` called on both arcs of AB and nothing
else, the next `compute_shortest_path` returns found = true, whatever the tie-breaking of
the queues. If the first run popped B before D from the goal queue, so that it returned
with D not yet settled from the goal, the result is the arc A -> D of index 7 with path
length 6, and the goal predecessor of D is C: the path A-D-C. If the first run popped D
first, the result is the arc B -> C of index 2 with the stale path length 2. -/
theorem C14_scenario_B_depends_on_tie (t1 t2 t3 : Nat → Nat) :
    ∃ x y, scenario_A t1 t2 t3 = some x ∧ scenario_B x.2 = some y ∧
      (x.2.goal_distance 3 = Weight.inf →
        y.1 = (7, true) ∧
        (y.2.conn_queue.key_of 7).map conn_key.path_length = some (Weight.fin 6) ∧
        (⟨0, 3, 7⟩ : Arc) ∈ cycle4.arcs ∧ y.2.v_start = 0 ∧ y.2.goal_predecessor 3 = 2 ∧
        y.2.v_goal = 2) ∧
      (x.2.goal_distance 3 ≠ Weight.inf →
        y.1 = (2, true) ∧
        (y.2.conn_queue.key_of 2).map conn_key.path_length = some (Weight.fin 2) ∧
        (⟨1, 2, 2⟩ : Arc) ∈ cycle4.arcs ∧ y.2.start_predecessor 1 = 0 ∧
        y.2.weight ⟨0, 1, 0⟩ = Weight.inf) := by
  obtain ⟨j, x, hj, hx, hA⟩ := scenario_A_tie t1 t2 t3
  rcases hj with rfl | rfl
  · have hd : ((scenario_A (fun _ => 0) (fun _ => 0) (fun _ => 0)).bind fun x =>
        (scenario_B x.2).map fun y => (x.2.goal_distance 3, y.1,
          (y.2.conn_queue.key_of 7).map conn_key.path_length, y.2.v_start,
          y.2.goal_predecessor 3, y.2.v_goal))
        = some (Weight.inf, (7, true), some (Weight.fin 6), 0, 2, 2) := by decide
    have hl : ((scenario_A (fun _ => 0) (fun _ => 0) (fun _ => 0)).bind fun x =>
        ((inc_bi.update_edge { x.2 with weight := cycle4_weight_cut } ⟨0, 1, 0⟩).bind
          fun s2 => inc_bi.update_edge s2 ⟨1, 0, 1⟩).map (inc_bi.tie_points 10))
        = some [] := by decide
    rw [hx] at hd hl
    simp only [Option.some_bind] at hd hl
    obtain ⟨y, hy, hval⟩ := Option.map_eq_some'.mp hd
    simp only [Prod.mk.injEq] at hval
    obtain ⟨v1, v2, v3, v4, v5, v6⟩ := hval
    refine ⟨_, _, hA, scenario_B_retie t1 t2 t3 x.2 y hy hl, ?_, ?_⟩
    · intro _
      exact ⟨v2, v3, by decide, v4, v5, v6⟩
    · intro hne
      exact absurd v1 hne
  · have hd : ((scenario_A (fun _ => 0) (fun _ => 1) (fun _ => 0)).bind fun x =>
        (scenario_B x.2).map fun y => (x.2.goal_distance 3, y.1,
          (y.2.conn_queue.key_of 2).map conn_key.path_length, y.2.start_predecessor 1,
          y.2.weight ⟨0, 1, 0⟩))
        = some (Weight.fin 1, (2, true), some (Weight.fin 2), 0, Weight.inf) := by decide
    have hl : ((scenario_A (fun _ => 0) (fun _ => 1) (fun _ => 0)).bind fun x =>
        ((inc_bi.update_edge { x.2 with weight := cycle4_weight_cut } ⟨0, 1, 0⟩).bind
          fun s2 => inc_bi.update_edge s2 ⟨1, 0, 1⟩).map (inc_bi.tie_points 10))
        = some [] := by decide
    rw [hx] at hd hl
    simp only [Option.some_bind] at hd hl
    obtain ⟨y, hy, hval⟩ := Option.map_eq_some'.mp hd
    simp only [Prod.mk.injEq] at hval
    obtain ⟨v1, v2, v3, v4, v5⟩ := hval
    refine ⟨_, _, hA, scenario_B_retie t1 t2 t3 x.2 y hy hl, ?_, ?_⟩
    · intro hinf
      have h1 : x.2.goal_distance 3 = Weight.inf := hinf
      rw [v1] at h1
      exact Weight.noConfusion h1
    · intro _
      exact ⟨v2, v3, by decide, v4, v5⟩

/-! ## Frame of the vertex updates, constructor state, guarded top reads -/

/-- C24: `start_update_vertex(u)` leaves the graph, the endpoints, the weights, the
margin and the goal frontier (distance, lookahead, predecessor, queue) as they are, and
`goal_update_vertex(u)` does the same for the start frontier: each writes its own maps,
its own queue and the connection queue only. -/
theorem C24_update_vertex_frame (s : inc_bi) (u : Nat) :
    (∀ s1, inc_bi.start_update_vertex s u = some s1 →
      s1.goal_distance = s.goal_distance ∧
      s1.goal_distance_lookahead = s.goal_distance_lookahead ∧
      s1.goal_predecessor = s.goal_predecessor ∧ s1.goal_queue = s.goal_queue ∧
      s1.g = s.g ∧ s1.v_start = s.v_start ∧ s1.v_goal = s.v_goal ∧ s1.weight = s.weight ∧
      s1.goal_margin = s.goal_margin) ∧
    (∀ s1, inc_bi.goal_update_vertex s u = some s1 →
      s1.start_distance = s.start_distance ∧
      s1.start_distance_lookahead = s.start_distance_lookahead ∧
      s1.start_predecessor = s.start_predecessor ∧ s1.start_queue = s.start_queue ∧
      s1.g = s.g ∧ s1.v_start = s.v_start ∧ s1.v_goal = s.v_goal ∧ s1.weight = s.weight ∧
      s1.goal_margin = s.goal_margin) := by
  constructor
  · intro s1 h
    have hf := (inc_bi.start_update_vertex_frame h).1
    exact ⟨hf.goal_distance, hf.goal_distance_lookahead, hf.goal_predecessor, hf.goal_queue,
      hf.g, hf.v_start, hf.v_goal, hf.weight, hf.goal_margin⟩
  · intro s1 h
    have hf := (inc_bi.goal_update_vertex_frame h).1
    exact ⟨hf.start_distance, hf.start_distance_lookahead, hf.start_predecessor,
      hf.start_queue, hf.g, hf.v_start, hf.v_goal, hf.weight, hf.goal_margin⟩

/-- C27: the constructor of `inc_bi` returns on any graph, and immediately afterwards the
four maps `start_distance`, `goal_distance`, `start_distance_lookahead` and
`goal_distance_lookahead` are `inf` at every vertex, except that the start lookahead of
`v_start` and the goal lookahead of `v_goal` are `zero`; the start queue holds exactly
`v_start` with key `zero`, the goal queue exactly `v_goal` with key `zero`, and the
connection queue is empty. -/
theorem C27_constructor_state (g : Graph) (v_start v_goal : Nat) (sp : Nat → Nat)
    (sd sl : Nat → Weight) (gp : Nat → Nat) (gd gl : Nat → Weight) (w : Arc → Weight)
    (m : Weight) (t1 t2 t3 : Nat → Nat) :
    ∃ s, inc_bi.construct g v_start v_goal sp sd sl gp gd gl w m t1 t2 t3 = some s ∧
      (∀ v, v < g.nv → s.start_distance v = Weight.inf ∧ s.goal_distance v = Weight.inf ∧
        (v ≠ v_start → s.start_distance_lookahead v = Weight.inf) ∧
        (v ≠ v_goal → s.goal_distance_lookahead v = Weight.inf)) ∧
      s.start_distance_lookahead v_start = Weight.zero ∧
      s.goal_distance_lookahead v_goal = Weight.zero ∧
      s.start_queue.entries = [(v_start, Weight.zero)] ∧
      s.goal_queue.entries = [(v_goal, Weight.zero)] ∧
      s.conn_queue.entries = [] := by
  obtain ⟨s, hs⟩ := inc_bi.construct_isSome g v_start v_goal sp sd sl gp gd gl w m t1 t2 t3
  obtain ⟨-, -, -, -, -, -, -, h8, h9, h10, h11, h12, h13, h14⟩ := inc_bi.construct_spec hs
  refine ⟨s, hs, ?_, ?_, ?_, ?_, ?_, ?_⟩
  · intro v hv
    refine ⟨?_, ?_, ?_, ?_⟩
    · rw [h8 v, if_pos hv]
    · rw [h10 v, if_pos hv]
    · intro hne
      rw [h9 v, if_neg hne, if_pos hv]
    · intro hne
      rw [h11 v, if_neg hne, if_pos hv]
  · rw [h9 v_start, if_pos rfl]
  · rw [h11 v_goal, if_pos rfl]
  · rw [h12]
  · rw [h13]
  · rw [h14]

theorem HeapIndexed.remove_min_isSome {K : Type} {lt : K → K → Bool} (r : K → Weight)
    (hlt : ∀ a b, lt a b = Weight.lt (r a) (r b)) {h : HeapIndexed K} (hne : h.size ≠ 0) :
    ∃ u q, HeapIndexed.top_idx lt h = some u ∧ HeapIndexed.remove_min lt h = some q := by
  obtain ⟨e, he⟩ := HeapIndexed.top_isSome r hlt hne
  obtain ⟨q, hq⟩ := HeapIndexed.remove_isSome (HeapIndexed.top_contains he)
  refine ⟨e.1, q, ?_, ?_⟩
  · simp [HeapIndexed.top_idx, he]
  · simp [HeapIndexed.remove_min, he, hq]

/-- C26: in every state the reads of `compute_shortest_path` stay within the queue
contracts. The two top keys are read behind their size tests and so is the top of the
connection queue in the termination test; when the loop goes on, the start queue is
non-empty if `start_top < goal_top`, and its `top_idx` and `remove_min` return; otherwise
the goal queue is non-empty, and its `top_idx` and `remove_min` return. -/
theorem C26_top_reads_guarded (s : inc_bi) :
    ∃ st gt t, inc_bi.start_top s = some st ∧ inc_bi.goal_top s = some gt ∧
      inc_bi.termination_test s st gt = some t ∧
      (s.start_queue.size = 0 → st = Weight.inf) ∧
      (s.goal_queue.size = 0 → gt = Weight.inf) ∧
      (s.conn_queue.size = 0 → t = none) ∧
      (¬ (st = Weight.inf ∧ gt = Weight.inf) →
        (Weight.lt st gt = true → s.start_queue.size ≠ 0 ∧
          ∃ u q, HeapIndexed.top_idx Weight.lt s.start_queue = some u ∧
            HeapIndexed.remove_min Weight.lt s.start_queue = some q) ∧
        (Weight.lt st gt = false → s.goal_queue.size ≠ 0 ∧
          ∃ u q, HeapIndexed.top_idx Weight.lt s.goal_queue = some u ∧
            HeapIndexed.remove_min Weight.lt s.goal_queue = some q)) := by
  obtain ⟨st, hst⟩ := inc_bi.start_top_isSome s
  obtain ⟨gt, hgt⟩ := inc_bi.goal_top_isSome s
  obtain ⟨t, ht⟩ := inc_bi.termination_test_isSome s st gt
  refine ⟨st, gt, t, hst, hgt, ht, ?_, ?_, ?_, ?_⟩
  · intro h0
    simp [inc_bi.start_top, h0] at hst
    exact hst.symm
  · intro h0
    simp [inc_bi.goal_top, h0] at hgt
    exact hgt.symm
  · intro h0
    simp [inc_bi.termination_test, h0] at ht
    exact ht.symm
  · intro hne
    constructor
    · intro hlt
      have h1 := inc_bi.start_queue_nonempty hst (Weight.lt_ne_inf hlt)
      exact ⟨h1, HeapIndexed.remove_min_isSome (fun k => k) (fun _ _ => rfl) h1⟩
    · intro hlt
      have hg : gt ≠ Weight.inf := by
        intro hgi
        apply hne
        refine ⟨?_, hgi⟩
        by_contra hsi
        rw [hgi, Weight.lt_inf_of_ne hsi] at hlt
        exact absurd hlt (by simp)
      have h1 := inc_bi.goal_queue_nonempty hgt hg
      exact ⟨h1, HeapIndexed.remove_min_isSome (fun k => k) (fun _ _ => rfl) h1⟩

/-! ## The part played by the margin -/

namespace inc_bi

theorem remargin_g (m : Weight) (s : inc_bi) :
    (s.remargin m).g = s.g := rfl

theorem remargin_v_start (m : Weight) (s : inc_bi) :
    (s.remargin m).v_start = s.v_start := rfl

theorem remargin_v_goal (m : Weight) (s : inc_bi) :
    (s.remargin m).v_goal = s.v_goal := rfl

theorem remargin_start_predecessor (m : Weight) (s : inc_bi) :
    (s.remargin m).start_predecessor = s.start_predecessor := rfl

theorem remargin_start_distance (m : Weight) (s : inc_bi) :
    (s.remargin m).start_distance = s.start_distance := rfl

theorem remargin_start_distance_lookahead (m : Weight) (s : inc_bi) :
    (s.remargin m).start_distance_lookahead = s.start_distance_lookahead := rfl

theorem remargin_goal_predecessor (m : Weight) (s : inc_bi) :
    (s.remargin m).goal_predecessor = s.goal_predecessor := rfl

theorem remargin_goal_distance (m : Weight) (s : inc_bi) :
    (s.remargin m).goal_distance = s.goal_distance := rfl

theorem remargin_goal_distance_lookahead (m : Weight) (s : inc_bi) :
    (s.remargin m).goal_distance_lookahead = s.goal_distance_lookahead := rfl

theorem remargin_weight (m : Weight) (s : inc_bi) :
    (s.remargin m).weight = s.weight := rfl

theorem remargin_start_queue (m : Weight) (s : inc_bi) :
    (s.remargin m).start_queue = s.start_queue := rfl

theorem remargin_goal_queue (m : Weight) (s : inc_bi) :
    (s.remargin m).goal_queue = s.goal_queue := rfl

theorem remargin_conn_queue (m : Weight) (s : inc_bi) :
    (s.remargin m).conn_queue = s.conn_queue := rfl

theorem start_recompute_remargin (m : Weight) (s : inc_bi) (u : Nat) :
    start_recompute (s.remargin m) u = (start_recompute s u).remargin m := by
  unfold start_recompute
  by_cases hu : u = s.v_start
  · have h1 : ¬ u ≠ (s.remargin m).v_start := fun h => h hu
    have h2 : ¬ u ≠ s.v_start := fun h => h hu
    rw [if_neg h1, if_neg h2]
  · have h1 : u ≠ (s.remargin m).v_start := hu
    rw [if_pos h1, if_pos hu]
    rfl

theorem start_open_step_remargin (m : Weight) (d : Weight) (s : inc_bi) (e : Arc) :
    start_open_step d (s.remargin m) e = (start_open_step d s e).map
      (fun x => x.remargin m) := by
  unfold start_open_step
  simp only [remargin_goal_queue, remargin_goal_distance, remargin_weight, remargin_conn_queue]
  split
  · cases s.conn_queue.insert e.idx
        ⟨Weight.combine (Weight.combine d (s.weight e)) (s.goal_distance e.tgt), d,
          s.goal_distance e.tgt⟩ with
    | none => rfl
    | some q => rfl
  · rfl

theorem conn_drop_step_remargin (m : Weight) (s : inc_bi) (e : Arc) :
    conn_drop_step (s.remargin m) e = (conn_drop_step s e).map
      (fun x => x.remargin m) := by
  unfold conn_drop_step
  simp only [remargin_conn_queue]
  split
  · cases s.conn_queue.remove e.idx with
    | none => rfl
    | some q => rfl
  · rfl

theorem start_calculate_key_remargin (m : Weight) (s : inc_bi) (u : Nat) :
    start_calculate_key (s.remargin m) u = start_calculate_key s u := rfl

theorem start_update_vertex_remargin (m : Weight) (s : inc_bi) (u : Nat) :
    start_update_vertex (s.remargin m) u = (start_update_vertex s u).map
      (fun x => x.remargin m) := by
  unfold start_update_vertex
  simp only [start_recompute_remargin, start_calculate_key_remargin, remargin_start_distance,
    remargin_start_distance_lookahead, remargin_start_queue, remargin_g]
  split
  · split
    · cases hq : (start_recompute s u).start_queue.remove u with
      | none => rfl
      | some q =>
        simp only [Option.map_some', Option.some_bind]
        split
        · exact foldlM_retie (fun x => x.remargin m) (start_open_step _)
            (start_open_step_remargin m _) _
            { start_recompute s u with start_queue := q }
        · rfl
    · rfl
  · split
    · cases hq : (start_recompute s u).start_queue.update u
          (start_calculate_key (start_recompute s u) u) with
      | none => rfl
      | some q => rfl
    · cases hq : (start_recompute s u).start_queue.insert u
          (start_calculate_key (start_recompute s u) u) with
      | none => rfl
      | some q =>
        simp only [Option.map_some', Option.some_bind]
        exact foldlM_retie (fun x => x.remargin m) conn_drop_step
          (conn_drop_step_remargin m) _ { start_recompute s u with start_queue := q }

theorem start_lower_step_remargin (m : Weight) (d : Weight) (s : inc_bi) (e : Arc) :
    start_lower_step d (s.remargin m) e = (start_lower_step d s e).map
      (fun x => x.remargin m) := by
  unfold start_lower_step
  simp only [start_update_vertex_remargin]
  cases hs : start_update_vertex s e.tgt with
  | none => rfl
  | some s1 =>
    simp only [Option.map_some', Option.some_bind, remargin_goal_queue, remargin_goal_distance,
      remargin_weight, remargin_conn_queue]
    split
    · cases hq : s1.conn_queue.insert e.idx
          ⟨Weight.combine (Weight.combine d (s1.weight e)) (s1.goal_distance e.tgt), d,
            s1.goal_distance e.tgt⟩ with
      | none => rfl
      | some q => rfl
    · rfl

theorem expand_start_remargin (m : Weight) (s : inc_bi) :
    expand_start (s.remargin m) = (expand_start s).map (fun x => x.remargin m) := by
  unfold expand_start
  simp only [remargin_start_queue, remargin_start_distance, remargin_start_distance_lookahead, remargin_g]
  cases hu : HeapIndexed.top_idx Weight.lt s.start_queue with
  | none => rfl
  | some u =>
    simp only [Option.some_bind]
    cases hq : HeapIndexed.remove_min Weight.lt s.start_queue with
    | none => rfl
    | some q =>
      simp only [Option.map_some', Option.some_bind]
      split
      · exact foldlM_retie (fun x => x.remargin m) (start_lower_step _)
          (start_lower_step_remargin m _) _
          { s with start_queue := q,
                   start_distance :=
                     Function.update s.start_distance u (s.start_distance_lookahead u) }
      · have h1 := start_update_vertex_remargin m
          { s with start_queue := q,
                   start_distance := Function.update s.start_distance u Weight.inf } u
        refine Eq.trans (congrArg (fun o => Option.bind o _) h1) ?_
        cases h3 : start_update_vertex
            { s with start_queue := q,
                     start_distance := Function.update s.start_distance u Weight.inf } u with
        | none => rfl
        | some s3 =>
          simp only [Option.map_some', Option.some_bind]
          exact foldlM_retie (fun x => x.remargin m)
            (fun (st : inc_bi) (e : Arc) => start_update_vertex st e.tgt)
            (fun (st : inc_bi) (e : Arc) => start_update_vertex_remargin m st e.tgt) _ s3

theorem goal_recompute_remargin (m : Weight) (s : inc_bi) (u : Nat) :
    goal_recompute (s.remargin m) u = (goal_recompute s u).remargin m := by
  unfold goal_recompute
  by_cases hu : u = s.v_goal
  · have h1 : ¬ u ≠ (s.remargin m).v_goal := fun h => h hu
    have h2 : ¬ u ≠ s.v_goal := fun h => h hu
    rw [if_neg h1, if_neg h2]
  · have h1 : u ≠ (s.remargin m).v_goal := hu
    rw [if_pos h1, if_pos hu]
    rfl

theorem goal_open_step_remargin (m : Weight) (d : Weight) (s : inc_bi) (e : Arc) :
    goal_open_step d (s.remargin m) e = (goal_open_step d s e).map
      (fun x => x.remargin m) := by
  unfold goal_open_step
  simp only [remargin_start_queue, remargin_start_distance, remargin_weight, remargin_conn_queue]
  split
  · cases s.conn_queue.insert e.idx _ with
    | none => rfl
    | some q => rfl
  · rfl

theorem goal_calculate_key_remargin (m : Weight) (s : inc_bi) (u : Nat) :
    goal_calculate_key (s.remargin m) u = goal_calculate_key s u := rfl

theorem goal_update_vertex_remargin (m : Weight) (s : inc_bi) (u : Nat) :
    goal_update_vertex (s.remargin m) u = (goal_update_vertex s u).map
      (fun x => x.remargin m) := by
  unfold goal_update_vertex
  simp only [goal_recompute_remargin, goal_calculate_key_remargin, remargin_goal_distance,
    remargin_goal_distance_lookahead, remargin_goal_queue, remargin_g]
  split
  · split
    · cases hq : (goal_recompute s u).goal_queue.remove u with
      | none => rfl
      | some q =>
        simp only [Option.map_some', Option.some_bind]
        split
        · exact foldlM_retie (fun x => x.remargin m) (goal_open_step _)
            (goal_open_step_remargin m _) _
            { goal_recompute s u with goal_queue := q }
        · rfl
    · rfl
  · split
    · cases hq : (goal_recompute s u).goal_queue.update u
          (goal_calculate_key (goal_recompute s u) u) with
      | none => rfl
      | some q => rfl
    · cases hq : (goal_recompute s u).goal_queue.insert u
          (goal_calculate_key (goal_recompute s u) u) with
      | none => rfl
      | some q =>
        simp only [Option.map_some', Option.some_bind]
        exact foldlM_retie (fun x => x.remargin m) conn_drop_step
          (conn_drop_step_remargin m) _ { goal_recompute s u with goal_queue := q }

theorem goal_lower_step_remargin (m : Weight) (d : Weight) (s : inc_bi) (e : Arc) :
    goal_lower_step d (s.remargin m) e = (goal_lower_step d s e).map
      (fun x => x.remargin m) := by
  unfold goal_lower_step
  simp only [goal_update_vertex_remargin]
  cases hs : goal_update_vertex s e.src with
  | none => rfl
  | some s1 =>
    simp only [Option.map_some', Option.some_bind, remargin_start_queue, remargin_start_distance,
      remargin_weight, remargin_conn_queue]
    split
    · cases hq : s1.conn_queue.insert e.idx _ with
      | none => rfl
      | some q => rfl
    · rfl

theorem expand_goal_remargin (m : Weight) (s : inc_bi) :
    expand_goal (s.remargin m) = (expand_goal s).map (fun x => x.remargin m) := by
  unfold expand_goal
  simp only [remargin_goal_queue, remargin_goal_distance, remargin_goal_distance_lookahead, remargin_g]
  cases hu : HeapIndexed.top_idx Weight.lt s.goal_queue with
  | none => rfl
  | some u =>
    simp only [Option.some_bind]
    cases hq : HeapIndexed.remove_min Weight.lt s.goal_queue with
    | none => rfl
    | some q =>
      simp only [Option.map_some', Option.some_bind]
      split
      · exact foldlM_retie (fun x => x.remargin m) (goal_lower_step _)
          (goal_lower_step_remargin m _) _
          { s with goal_queue := q,
                   goal_distance :=
                     Function.update s.goal_distance u (s.goal_distance_lookahead u) }
      · have h1 := goal_update_vertex_remargin m
          { s with goal_queue := q,
                   goal_distance := Function.update s.goal_distance u Weight.inf } u
        refine Eq.trans (congrArg (fun o => Option.bind o _) h1) ?_
        cases h3 : goal_update_vertex
            { s with goal_queue := q,
                     goal_distance := Function.update s.goal_distance u Weight.inf } u with
        | none => rfl
        | some s3 =>
          simp only [Option.map_some', Option.some_bind]
          exact foldlM_retie (fun x => x.remargin m)
            (fun (st : inc_bi) (e : Arc) => goal_update_vertex st e.tgt)
            (fun (st : inc_bi) (e : Arc) => goal_update_vertex_remargin m st e.tgt) _ s3

theorem start_top_remargin (m : Weight) (s : inc_bi) :
    start_top (s.remargin m) = start_top s := by
  unfold start_top HeapIndexed.top_key
  simp only [remargin_start_queue]

theorem goal_top_remargin (m : Weight) (s : inc_bi) :
    goal_top (s.remargin m) = goal_top s := by
  unfold goal_top HeapIndexed.top_key
  simp only [remargin_goal_queue]

end inc_bi

namespace inc_bi

theorem termination_test_margin (m : Weight) (s : inc_bi) (st gt : Weight) (i : Nat)
    (h : termination_test (s.remargin m) st gt = some (some i)) :
    termination_test (s.remargin Weight.zero) st gt = some (some i) := by
  have hmono : ∀ x y : Weight, Weight.gt (Weight.combine x m) y = false →
      Weight.gt (Weight.combine x Weight.zero) y = false := by
    intro x y hxy
    rw [Weight.combine_zero]
    have h1 : Weight.le (Weight.combine x m) y = true := by
      simpa [Weight.gt, Weight.le] using hxy
    have h2 := Weight.le_trans (Weight.le_combine_right x m) h1
    simpa [Weight.gt, Weight.le] using h2
  unfold termination_test at h ⊢
  have hq : (s.remargin m).conn_queue = s.conn_queue := rfl
  have hq0 : (s.remargin Weight.zero).conn_queue = s.conn_queue := rfl
  have hm : (s.remargin m).goal_margin = m := rfl
  have hm0 : (s.remargin Weight.zero).goal_margin = Weight.zero := rfl
  rw [hq, hm] at h
  rw [hq0, hm0]
  by_cases hsz : s.conn_queue.size = 0
  · simp [hsz] at h
  · simp only [hsz, if_false] at h ⊢
    cases hk : HeapIndexed.top_key conn_key.lt s.conn_queue with
    | none =>
      rw [hk] at h
      simp at h
    | some k =>
      rw [hk] at h
      simp only [Option.some_bind] at h ⊢
      by_cases h1 : Weight.gt (Weight.combine k.path_length m) (Weight.combine st gt) = true
      · simp [h1] at h
      · have h1f : Weight.gt (Weight.combine k.path_length m) (Weight.combine st gt) = false := by
          simpa using h1
        by_cases h2 : Weight.gt (Weight.combine k.start_dist m) st = true
        · simp [h1f, h2] at h
        · have h2f : Weight.gt (Weight.combine k.start_dist m) st = false := by simpa using h2
          by_cases h3 : Weight.gt (Weight.combine k.goal_dist m) gt = true
          · simp [h1f, h2f, h3] at h
          · have h3f : Weight.gt (Weight.combine k.goal_dist m) gt = false := by simpa using h3
            simp only [h1f, h2f, h3f] at h
            simp only [hmono _ _ h1f, hmono _ _ h2f, hmono _ _ h3f]
            exact h

theorem iteration_remargin (m : Weight) (s : inc_bi) {st gt : Weight}
    (hst : start_top s = some st) (hgt : goal_top s = some gt) {t : Option Nat}
    (ht : termination_test (s.remargin m) st gt = some t) :
    iteration (s.remargin m) =
      if st = Weight.inf ∧ gt = Weight.inf then some (Iter.ret (0, false))
      else t.elim
        (if Weight.lt st gt then (expand_start s).map (fun x => Iter.next (x.remargin m))
          else (expand_goal s).map (fun x => Iter.next (x.remargin m)))
        (fun i => some (Iter.ret (i, true))) := by
  unfold iteration
  rw [start_top_remargin, goal_top_remargin, hst, hgt]
  simp only [Option.some_bind]
  split
  · rfl
  · rw [ht]
    simp only [Option.some_bind]
    cases t with
    | some i => rfl
    | none =>
      simp only [Option.elim]
      rw [expand_start_remargin, expand_goal_remargin]
      split
      · cases expand_start s with
        | none => rfl
        | some x => rfl
      · cases expand_goal s with
        | none => rfl
        | some x => rfl

/-- A run with the margin 0 returns within the number of iterations in which the run with
any other margin returns from the same state. -/
theorem run_margin (m : Weight) :
    ∀ (fuel : Nat) (s s1 : inc_bi) (r : Nat × Bool),
      compute_shortest_path fuel (s.remargin m) = Run.done (r, s1) →
      ∃ r0 s0, compute_shortest_path fuel (s.remargin Weight.zero) = Run.done (r0, s0) := by
  intro fuel
  induction fuel with
  | zero =>
    intro s s1 r h
    simp [compute_shortest_path] at h
  | succ n ih =>
    intro s s1 r h
    obtain ⟨st, hst⟩ := start_top_isSome s
    obtain ⟨gt, hgt⟩ := goal_top_isSome s
    obtain ⟨tm, htm⟩ := termination_test_isSome (s.remargin m) st gt
    obtain ⟨t0, ht0⟩ := termination_test_isSome (s.remargin Weight.zero) st gt
    unfold compute_shortest_path at h ⊢
    rw [iteration_remargin m s hst hgt htm] at h
    rw [iteration_remargin Weight.zero s hst hgt ht0]
    by_cases hinf : st = Weight.inf ∧ gt = Weight.inf
    · rw [if_pos hinf]
      exact ⟨_, _, rfl⟩
    · rw [if_neg hinf] at h ⊢
      cases t0 with
      | some i => exact ⟨_, _, rfl⟩
      | none =>
        cases tm with
        | some i =>
          have := termination_test_margin m s st gt i htm
          rw [ht0] at this
          simp at this
        | none =>
          simp only [Option.elim] at h ⊢
          by_cases hlt : Weight.lt st gt = true
          · rw [if_pos hlt] at h ⊢
            cases hx : expand_start s with
            | none =>
              rw [hx] at h
              simp at h
            | some x =>
              rw [hx] at h
              simp only [Option.map_some'] at h ⊢
              exact ih x s1 r h
          · rw [if_neg hlt] at h ⊢
            cases hx : expand_goal s with
            | none =>
              rw [hx] at h
              simp at h
            | some x =>
              rw [hx] at h
              simp only [Option.map_some'] at h ⊢
              exact ih x s1 r h

end inc_bi

/-- C23 (counterexample): on the fresh cycle from A to C the run with margin 0 returns
`(0, true)` in its fourth iteration: the top keys are 1 and 1, and the termination test
succeeds on the key `(2, 0, 1)`. In the same state with margin 1 the test fails
(`2 + 1 > 1 + 1`), and the run with margin 1 has not returned after four iterations; it
returns in the fifth. -/
theorem C23_counterexample :
    ((inc_bi.fresh cycle4 0 2 cycle4_weight Weight.zero).bind fun s0 =>
        (inc_bi.compute_shortest_path 4 s0).result.map fun x =>
          (x.1, inc_bi.start_top x.2, inc_bi.goal_top x.2))
      = some ((0, true), some (Weight.fin 1), some (Weight.fin 1)) ∧
    ((inc_bi.fresh cycle4 0 2 cycle4_weight Weight.zero).bind fun s0 =>
        (inc_bi.compute_shortest_path 4 s0).result.map fun x =>
          (inc_bi.termination_test x.2 (Weight.fin 1) (Weight.fin 1),
            inc_bi.termination_test (x.2.remargin (Weight.fin 1)) (Weight.fin 1)
              (Weight.fin 1)))
      = some (some (some 0), some none) ∧
    (inc_bi.fresh cycle4 0 2 cycle4_weight Weight.zero).map (fun s0 =>
        ((inc_bi.compute_shortest_path 4 (s0.remargin (Weight.fin 1))).unfinished,
          (inc_bi.compute_shortest_path 5 (s0.remargin (Weight.fin 1))).result.map
            (fun y => y.1)))
      = some (true, some (0, true)) := by
  refine ⟨?_, ?_, ?_⟩ <;> decide

/-- C23 (amended): for every state of the engine and every margin `m`, if the termination
test of `compute_shortest_path` succeeds with the margin `m` then it succeeds, on the same
arc, with the margin 0; and if the run with the margin `m` returns within a number of
iterations then so does the run with the margin 0 from the same state: a positive margin
never saves an expansion. -/
theorem C23_margin_delays_termination (s : inc_bi) (m : Weight) :
    (∀ st gt i, inc_bi.termination_test (s.remargin m) st gt = some (some i) →
      inc_bi.termination_test (s.remargin Weight.zero) st gt = some (some i)) ∧
    (∀ fuel r s1, inc_bi.compute_shortest_path fuel (s.remargin m) = Run.done (r, s1) →
      ∃ r0 s0, inc_bi.compute_shortest_path fuel (s.remargin Weight.zero)
        = Run.done (r0, s0)) :=
  ⟨fun st gt i h => inc_bi.termination_test_margin m s st gt i h,
    fun fuel r s1 h => inc_bi.run_margin m fuel s s1 r h⟩

/-- C22 (violated by the code): on two vertices joined by one edge of weight 1, start 0
and goal 1, the loop of `lifelong_planning_astar::compute_shortest_path` expands 0 and
then 1; after that the queue is empty, the goal is consistent at distance 1, and the third
evaluation of the loop condition reads `top_key()` of the empty queue. -/
theorem C22_top_key_on_empty_queue :
    ((lifelong_planning_astar.fresh two_vertices 0 1 (fun _ => 1)).bind fun s0 =>
        (lifelong_planning_astar.expand s0).bind fun s1 =>
          (lifelong_planning_astar.expand s1).map fun s2 =>
            (s0.queue.entries.map Prod.fst, s1.queue.entries.map Prod.fst, s2.queue.size,
              s2.distance 1, s2.distance_lookahead 1))
      = some ([0], [1], 0, 1, 1) ∧
    (lifelong_planning_astar.fresh two_vertices 0 1 (fun _ => 1)).map (fun s0 =>
        ((lifelong_planning_astar.compute_shortest_path 2 s0).unfinished,
          (lifelong_planning_astar.compute_shortest_path 3 s0).faulted))
      = some (true, true) := by
  refine ⟨?_, ?_⟩ <;> decide

end pr_bgl

namespace ompl_lemur

/-! ## One batch of the roadmap generator -/

namespace RoadmapRGGDensConst

theorem generate_edge_fold (v_new : Nat) (l : List Nat) :
    ∀ s : RoadmapRGGDensConst,
      (l.foldl (generate_edge v_new) s).num_per_batch = s.num_per_batch ∧
      (l.foldl (generate_edge v_new) s).num_batches_generated = s.num_batches_generated ∧
      (l.foldl (generate_edge v_new) s).num_vertices = s.num_vertices ∧
      (l.foldl (generate_edge v_new) s).vertex_batch_map = s.vertex_batch_map ∧
      (l.foldl (generate_edge v_new) s).is_shadow_map = s.is_shadow_map ∧
      ∃ added, (l.foldl (generate_edge v_new) s).edges = s.edges ++ added ∧
        ∀ e ∈ added, e.1 = v_new ∧ e.2.1 ≠ v_new ∧ e.2.1 ∈ l ∧
          e.2.2 = s.num_batches_generated := by
  induction l with
  | nil =>
    intro s
    exact ⟨rfl, rfl, rfl, rfl, rfl, [], by simp, by simp⟩
  | cons a l ih =>
    intro s
    simp only [List.foldl_cons]
    obtain ⟨h1, h2, h3, h4, h5, added, h6, h7⟩ := ih (generate_edge v_new s a)
    by_cases ha : a = v_new
    · have hs : generate_edge v_new s a = s := by simp [generate_edge, ha]
      rw [hs] at h1 h2 h3 h4 h5 h6 h7 ⊢
      refine ⟨h1, h2, h3, h4, h5, added, h6, ?_⟩
      intro e he
      obtain ⟨e1, e2, e3, e4⟩ := h7 e he
      exact ⟨e1, e2, List.mem_cons_of_mem _ e3, e4⟩
    · have hs : generate_edge v_new s a
          = { s with edges := s.edges ++ [(v_new, a, s.num_batches_generated)] } := by
        simp [generate_edge, ha]
      rw [hs] at h1 h2 h3 h4 h5 h6 h7 ⊢
      refine ⟨h1, h2, h3, h4, h5, (v_new, a, s.num_batches_generated) :: added, ?_, ?_⟩
      · rw [h6]
        simp
      · intro e he
        rcases List.mem_cons.mp he with rfl | he
        · exact ⟨rfl, ha, List.mem_cons_self _ _, rfl⟩
        · obtain ⟨e1, e2, e3, e4⟩ := h7 e he
          exact ⟨e1, e2, List.mem_cons_of_mem _ e3, e4⟩

theorem generate_vertex_spec (nearestR : Nat → List Nat) (s : RoadmapRGGDensConst)
    (i : Nat) :
    (generate_vertex nearestR s i).num_per_batch = s.num_per_batch ∧
      (generate_vertex nearestR s i).num_batches_generated = s.num_batches_generated ∧
      (generate_vertex nearestR s i).num_vertices = s.num_vertices + 1 ∧
      (generate_vertex nearestR s i).vertex_batch_map
        = Function.update s.vertex_batch_map s.num_vertices s.num_batches_generated ∧
      (generate_vertex nearestR s i).is_shadow_map
        = Function.update s.is_shadow_map s.num_vertices false ∧
      ∃ added, (generate_vertex nearestR s i).edges = s.edges ++ added ∧
        ∀ e ∈ added, e.1 = s.num_vertices ∧ e.2.1 ≠ s.num_vertices ∧
          e.2.2 = s.num_batches_generated := by
  unfold generate_vertex
  obtain ⟨h1, h2, h3, h4, h5, added, h6, h7⟩ := generate_edge_fold s.num_vertices
    (nearestR s.num_vertices)
    { s with
      num_vertices := s.num_vertices + 1
      vertex_batch_map :=
        Function.update s.vertex_batch_map s.num_vertices s.num_batches_generated
      is_shadow_map := Function.update s.is_shadow_map s.num_vertices false }
  exact ⟨h1, h2, h3, h4, h5, added, h6,
    fun e he => ⟨(h7 e he).1, (h7 e he).2.1, (h7 e he).2.2.2⟩⟩

theorem generate_vertex_fold (nearestR : Nat → List Nat) (l : List Nat) :
    ∀ s : RoadmapRGGDensConst,
      (l.foldl (generate_vertex nearestR) s).num_per_batch = s.num_per_batch ∧
      (l.foldl (generate_vertex nearestR) s).num_batches_generated
        = s.num_batches_generated ∧
      (l.foldl (generate_vertex nearestR) s).num_vertices = s.num_vertices + l.length ∧
      (∀ v, s.num_vertices ≤ v → v < s.num_vertices + l.length →
        (l.foldl (generate_vertex nearestR) s).vertex_batch_map v = s.num_batches_generated ∧
        (l.foldl (generate_vertex nearestR) s).is_shadow_map v = false) ∧
      (∀ v, v < s.num_vertices →
        (l.foldl (generate_vertex nearestR) s).vertex_batch_map v = s.vertex_batch_map v ∧
        (l.foldl (generate_vertex nearestR) s).is_shadow_map v = s.is_shadow_map v) ∧
      ∃ added, (l.foldl (generate_vertex nearestR) s).edges = s.edges ++ added ∧
        ∀ e ∈ added, s.num_vertices ≤ e.1 ∧ e.1 < s.num_vertices + l.length ∧
          e.2.1 ≠ e.1 ∧ e.2.2 = s.num_batches_generated := by
  induction l with
  | nil =>
    intro s
    refine ⟨rfl, rfl, rfl, ?_, fun _ _ => ⟨rfl, rfl⟩, [], by simp, by simp⟩
    intro v h1 h2
    simp at h2
    omega
  | cons a l ih =>
    intro s
    simp only [List.foldl_cons, List.length_cons]
    obtain ⟨g1, g2, g3, g4, g5, add1, g6, g7⟩ := generate_vertex_spec nearestR s a
    obtain ⟨h1, h2, h3, h4, h5, add2, h6, h7⟩ := ih (generate_vertex nearestR s a)
    rw [g1] at h1
    rw [g2] at h2 h4 h7
    rw [g3] at h3 h4 h5 h7
    refine ⟨h1, h2, by omega, ?_, ?_, add1 ++ add2, ?_, ?_⟩
    · intro v hv1 hv2
      by_cases hv : v = s.num_vertices
      · have := h5 v (by omega)
        rw [this.1, this.2, g4, g5, hv]
        simp
      · exact h4 v (by omega) (by omega)
    · intro v hv
      have := h5 v (by omega)
      rw [this.1, this.2, g4, g5]
      have hne : v ≠ s.num_vertices := by omega
      simp [Function.update, hne]
    · rw [h6, g6, List.append_assoc]
    · intro e he
      rcases List.mem_append.mp he with he | he
      · obtain ⟨e1, e2, e3⟩ := g7 e he
        exact ⟨by omega, by omega, by rw [e1]; exact e2, e3⟩
      · obtain ⟨e1, e2, e3, e4⟩ := h7 e he
        exact ⟨by omega, by omega, e3, e4⟩

end RoadmapRGGDensConst

/-- C28: a call of `generate()` on a `RoadmapRGGDensConst`, whatever lists `nearestR`
returns. The counter `num_batches_generated` goes up by one and the graph has
`max(previous vertex count, n)` vertices, where `n` is the bound
`(num_batches_generated + 1) * num_per_batch` computed by the code; both are `std::size_t`
values, and they are the plain numbers as long as the product stays below `2 ^ 64`.
Every vertex added by the call has the previous counter as its `vertex_batch_map` and
`false` as its `is_shadow_map`, the maps of the earlier vertices are as before, and every
added edge leaves an added vertex and ends at another vertex. -/
theorem C28_generate_adds_one_batch (nearestR : Nat → List Nat) (s : RoadmapRGGDensConst) :
    (RoadmapRGGDensConst.generate nearestR s).num_batches_generated
        = (s.num_batches_generated + 1) % SIZE ∧
      (RoadmapRGGDensConst.generate nearestR s).num_vertices
        = max s.num_vertices (((s.num_batches_generated + 1) % SIZE * s.num_per_batch) % SIZE) ∧
      ((s.num_batches_generated + 1) * s.num_per_batch < SIZE →
        s.num_batches_generated + 1 < SIZE →
        (RoadmapRGGDensConst.generate nearestR s).num_batches_generated
          = s.num_batches_generated + 1 ∧
        (RoadmapRGGDensConst.generate nearestR s).num_vertices
          = max s.num_vertices ((s.num_batches_generated + 1) * s.num_per_batch)) ∧
      (∀ v, s.num_vertices ≤ v → v < (RoadmapRGGDensConst.generate nearestR s).num_vertices →
        (RoadmapRGGDensConst.generate nearestR s).vertex_batch_map v
          = s.num_batches_generated ∧
        (RoadmapRGGDensConst.generate nearestR s).is_shadow_map v = false) ∧
      (∀ v, v < s.num_vertices →
        (RoadmapRGGDensConst.generate nearestR s).vertex_batch_map v = s.vertex_batch_map v ∧
        (RoadmapRGGDensConst.generate nearestR s).is_shadow_map v = s.is_shadow_map v) ∧
      ∃ added, (RoadmapRGGDensConst.generate nearestR s).edges = s.edges ++ added ∧
        ∀ e ∈ added, s.num_vertices ≤ e.1 ∧
          e.1 < (RoadmapRGGDensConst.generate nearestR s).num_vertices ∧ e.2.1 ≠ e.1 ∧
          e.2.2 = s.num_batches_generated := by
  obtain ⟨h1, h2, h3, h4, h5, added, h6, h7⟩ :=
    RoadmapRGGDensConst.generate_vertex_fold nearestR
      (List.range' s.num_vertices
        (((s.num_batches_generated + 1) % SIZE * s.num_per_batch) % SIZE - s.num_vertices)) s
  rw [List.length_range'] at h3 h4 h7
  have hnv : (RoadmapRGGDensConst.generate nearestR s).num_vertices
      = max s.num_vertices (((s.num_batches_generated + 1) % SIZE * s.num_per_batch) % SIZE) := by
    show (List.foldl _ s _).num_vertices = _
    rw [h3]
    omega
  have hnb : (RoadmapRGGDensConst.generate nearestR s).num_batches_generated
      = (s.num_batches_generated + 1) % SIZE := by
    show ((List.foldl _ s _).num_batches_generated + 1) % SIZE = _
    rw [h2]
  refine ⟨hnb, hnv, ?_, ?_, h5, added, h6, ?_⟩
  · intro hp hb
    rw [hnb, hnv, Nat.mod_eq_of_lt hb, Nat.mod_eq_of_lt hp]
    exact ⟨rfl, rfl⟩
  · intro v hv1 hv2
    rw [hnv] at hv2
    exact h4 v hv1 (by omega)
  · intro e he
    obtain ⟨e1, e2, e3, e4⟩ := h7 e he
    rw [hnv]
    exact ⟨e1, by omega, e3, e4⟩

end ompl_lemur

namespace pr_bgl

/-! ## The lookahead that an update of a vertex computes -/

namespace Weight

theorem lt_iff_lt (a b : Weight) : Weight.lt a b = true ↔ a < b := Iff.rfl

theorem le_iff_le (a b : Weight) : Weight.le a b = true ↔ a ≤ b := Iff.rfl

theorem gt_iff_lt (a b : Weight) : Weight.gt a b = true ↔ b < a := Iff.rfl

theorem min_eq_min (a b : Weight) : Weight.min a b = min a b := rfl

theorem le_inf_order (a : Weight) : a ≤ Weight.inf := Weight.le_inf a

theorem lt_inf_iff_ne (a : Weight) : a < Weight.inf ↔ a ≠ Weight.inf := by
  show Weight.lt a Weight.inf = true ↔ _
  cases a <;> simp [Weight.lt]

theorem zero_le_order (a : Weight) : Weight.zero ≤ a := Weight.zero_le a

theorem le_combine_order (a b : Weight) : a ≤ Weight.combine a b :=
  Weight.le_combine_right a b

theorem combine_mono_left {a b : Weight} (h : a ≤ b) (c : Weight) :
    Weight.combine a c ≤ Weight.combine b c := by
  have h1 : Weight.le a b = true := h
  show Weight.le _ _ = true
  cases a <;> cases b <;> cases c <;>
    simp [Weight.le, Weight.lt, Weight.combine] at h1 ⊢ <;> omega

theorem combine_le_self {a b : Weight} (h : Weight.combine a b ≤ a) (ha : a ≠ Weight.inf) :
    ∀ c, Weight.combine c b = c := by
  intro c
  have h1 : Weight.le (Weight.combine a b) a = true := h
  cases a <;> cases b <;> cases c <;>
    simp [Weight.le, Weight.lt, Weight.combine] at h1 ha ⊢ <;> omega

end Weight

theorem lookahead_fold (d : Nat → Weight) (w : Arc → Weight) (l : List Arc) :
    ∀ r0 : Weight,
      l.foldl (fun r e =>
        if Weight.lt (Weight.combine (d e.src) (w e)) r then Weight.combine (d e.src) (w e)
        else r) r0 ≤ r0 ∧
      (∀ e ∈ l, l.foldl (fun r e =>
        if Weight.lt (Weight.combine (d e.src) (w e)) r then Weight.combine (d e.src) (w e)
        else r) r0 ≤ Weight.combine (d e.src) (w e)) ∧
      (l.foldl (fun r e =>
        if Weight.lt (Weight.combine (d e.src) (w e)) r then Weight.combine (d e.src) (w e)
        else r) r0 = r0 ∨
        ∃ e ∈ l, l.foldl (fun r e =>
          if Weight.lt (Weight.combine (d e.src) (w e)) r then Weight.combine (d e.src) (w e)
          else r) r0 = Weight.combine (d e.src) (w e)) := by
  induction l with
  | nil =>
    intro r0
    exact ⟨le_refl _, fun _ h => absurd h (List.not_mem_nil _), Or.inl rfl⟩
  | cons a l ih =>
    intro r0
    simp only [List.foldl_cons]
    obtain ⟨h1, h2, h3⟩ := ih (if Weight.lt (Weight.combine (d a.src) (w a)) r0 then
      Weight.combine (d a.src) (w a) else r0)
    have hstep : (if Weight.lt (Weight.combine (d a.src) (w a)) r0 then
        Weight.combine (d a.src) (w a) else r0) ≤ r0 ∧
        (if Weight.lt (Weight.combine (d a.src) (w a)) r0 then
        Weight.combine (d a.src) (w a) else r0) ≤ Weight.combine (d a.src) (w a) := by
      by_cases hc : Weight.lt (Weight.combine (d a.src) (w a)) r0 = true
      · simp only [hc, if_true]
        exact ⟨le_of_lt hc, le_refl _⟩
      · simp only [hc, if_false]
        exact ⟨le_refl _, not_lt.mp hc⟩
    refine ⟨le_trans h1 hstep.1, ?_, ?_⟩
    · intro e he
      rcases List.mem_cons.mp he with rfl | he
      · exact le_trans h1 hstep.2
      · exact h2 e he
    · rcases h3 with h3 | ⟨e, he, h3⟩
      · by_cases hc : Weight.lt (Weight.combine (d a.src) (w a)) r0 = true
        · simp only [hc, if_true] at h3 ⊢
          exact Or.inr ⟨a, List.mem_cons_self _ _, h3⟩
        · simp only [hc, if_false] at h3 ⊢
          exact Or.inl h3
      · exact Or.inr ⟨e, List.mem_cons_of_mem _ he, h3⟩

theorem lookahead_of_le {g : Graph} (w : Arc → Weight) (d : Nat → Weight) {t : Nat}
    {e : Arc} (he : e ∈ g.arcs) (ht : e.tgt = t) :
    lookahead_of g w d t ≤ Weight.combine (d e.src) (w e) :=
  (lookahead_fold d w (in_edges t g) Weight.inf).2.1 e (mem_in_edges.mpr ⟨he, ht⟩)

theorem lookahead_of_attained (g : Graph) (w : Arc → Weight) (d : Nat → Weight) (t : Nat) :
    lookahead_of g w d t = Weight.inf ∨
      ∃ e ∈ g.arcs, e.tgt = t ∧ lookahead_of g w d t = Weight.combine (d e.src) (w e) := by
  rcases (lookahead_fold d w (in_edges t g) Weight.inf).2.2 with h | ⟨e, he, h⟩
  · exact Or.inl h
  · exact Or.inr ⟨e, (mem_in_edges.mp he).1, (mem_in_edges.mp he).2, h⟩

theorem lookahead_of_mono {g : Graph} (w : Arc → Weight) {d d1 : Nat → Weight} {t : Nat}
    (h : ∀ e ∈ g.arcs, e.tgt = t → d e.src ≤ d1 e.src) :
    lookahead_of g w d t ≤ lookahead_of g w d1 t := by
  rcases lookahead_of_attained g w d1 t with h1 | ⟨e, he, ht, h1⟩
  · rw [h1]
    exact Weight.le_inf_order _
  · rw [h1]
    exact le_trans (lookahead_of_le w d he ht) (Weight.combine_mono_left (h e he ht) _)

theorem lookahead_of_congr {g : Graph} (w : Arc → Weight) {d d1 : Nat → Weight} {t : Nat}
    (h : ∀ e ∈ g.arcs, e.tgt = t → d1 e.src = d e.src) :
    lookahead_of g w d1 t = lookahead_of g w d t :=
  le_antisymm (lookahead_of_mono w (fun e he ht => le_of_eq (h e he ht)))
    (lookahead_of_mono w (fun e he ht => le_of_eq (h e he ht).symm))

/-- The lookahead of the vertex `u` stays the same when the distance of `u` is lowered to
it: an arc from `u` to itself offers no less than the lookahead. -/
theorem lookahead_of_lowered {g : Graph} (w : Arc → Weight) {d : Nat → Weight} {u : Nat}
    (hlt : lookahead_of g w d u < d u) :
    lookahead_of g w (Function.update d u (lookahead_of g w d u)) u =
      lookahead_of g w d u := by
  apply le_antisymm
  · apply lookahead_of_mono
    intro e _ _
    by_cases h : e.src = u
    · rw [h, Function.update_same]
      exact le_of_lt hlt
    · rw [Function.update_noteq h]
  · rcases lookahead_of_attained g w (Function.update d u (lookahead_of g w d u)) u with
      h | ⟨e, he, het, h⟩
    · rw [h]
      exact Weight.le_inf_order _
    · rw [h]
      by_cases hs : e.src = u
      · rw [hs, Function.update_same]
        exact Weight.le_combine_order _ _
      · rw [Function.update_noteq hs]
        exact lookahead_of_le w d he het


namespace inc_bi

theorem start_rhs_fold_fst (s : inc_bi) (u : Nat) (l : List Arc) :
    ∀ acc : Weight × (Nat → Nat),
      (l.foldl (start_rhs_step s u) acc).1 =
        l.foldl (fun r e =>
          if Weight.lt (Weight.combine (s.start_distance e.src) (s.weight e)) r then
            Weight.combine (s.start_distance e.src) (s.weight e)
          else r) acc.1 := by
  induction l with
  | nil =>
    intro acc
    rfl
  | cons a l ih =>
    intro acc
    simp only [List.foldl_cons]
    rw [ih]
    congr 1
    unfold start_rhs_step
    dsimp only
    split <;> rfl

theorem start_rhs_loop_fst (s : inc_bi) (u : Nat) :
    (start_rhs_loop s u).1 = lookahead_of s.g s.weight s.start_distance u :=
  start_rhs_fold_fst s u (in_edges u s.g) (Weight.inf, s.start_predecessor)

theorem goal_rhs_fold_fst (s : inc_bi) (u : Nat) (l : List Arc) :
    ∀ acc : Weight × (Nat → Nat),
      (l.foldl (goal_rhs_step s u) acc).1 =
        l.foldl (fun r e =>
          if Weight.lt (Weight.combine (s.goal_distance e.src) (s.weight e)) r then
            Weight.combine (s.goal_distance e.src) (s.weight e)
          else r) acc.1 := by
  induction l with
  | nil =>
    intro acc
    rfl
  | cons a l ih =>
    intro acc
    simp only [List.foldl_cons]
    rw [ih]
    congr 1
    unfold goal_rhs_step
    dsimp only
    split <;> rfl

theorem goal_rhs_loop_fst (s : inc_bi) (u : Nat) :
    (goal_rhs_loop s u).1 = lookahead_of s.g s.weight s.goal_distance u :=
  goal_rhs_fold_fst s u (in_edges u s.g) (Weight.inf, s.goal_predecessor)

/-- The lookahead that `start_update_vertex(u)` stores for `u`. -/
theorem start_recompute_lookahead (s : inc_bi) (u : Nat) :
    (start_recompute s u).start_distance_lookahead u =
      if u = s.v_start then s.start_distance_lookahead u
      else lookahead_of s.g s.weight s.start_distance u := by
  unfold start_recompute
  by_cases h : u = s.v_start
  · simp [h]
  · simp [h, start_rhs_loop_fst]

/-- The lookahead that `start_update_vertex(u)` stores for `u` depends on the graph, the
weights and the start distances only. -/
theorem start_recompute_lookahead_frame {s s1 : inc_bi} (hf : StartFrame s s1)
    (hd : s1.start_distance = s.start_distance) (u : Nat) :
    (start_recompute s1 u).start_distance_lookahead u =
      (start_recompute s u).start_distance_lookahead u := by
  rw [start_recompute_lookahead, start_recompute_lookahead, hf.g, hf.v_start, hf.weight, hd]
  by_cases h : u = s.v_start
  · simp only [h, if_true]
    exact hf.lookahead_start
  · simp only [h, if_false]

/-- The method `start_update_vertex(u)` only recomputes the lookahead of `u` when `u` is
out of the start queue and its distance is the recomputed lookahead. -/
theorem start_update_vertex_settled {s : inc_bi} {u : Nat}
    (hq : s.start_queue.contains u = false)
    (hc : s.start_distance u = (start_recompute s u).start_distance_lookahead u) :
    start_update_vertex s u = some (start_recompute s u) := by
  obtain ⟨p, l, hr, -, -⟩ := start_recompute_eq s u
  have hd : (start_recompute s u).start_distance = s.start_distance := by rw [hr]
  have hqq : (start_recompute s u).start_queue = s.start_queue := by rw [hr]
  unfold start_update_vertex
  simp only [hd, hqq, hq, hc, decide_True, if_true, Bool.false_eq_true, if_false]

/-- The lookahead that `goal_update_vertex(u)` stores for `u`. -/
theorem goal_recompute_lookahead (s : inc_bi) (u : Nat) :
    (goal_recompute s u).goal_distance_lookahead u =
      if u = s.v_goal then s.goal_distance_lookahead u
      else lookahead_of s.g s.weight s.goal_distance u := by
  unfold goal_recompute
  by_cases h : u = s.v_goal
  · simp [h]
  · simp [h, goal_rhs_loop_fst]

/-- The lookahead that `goal_update_vertex(u)` stores for `u` depends on the graph, the
weights and the goal distances only. -/
theorem goal_recompute_lookahead_frame {s s1 : inc_bi} (hf : GoalFrame s s1)
    (hd : s1.goal_distance = s.goal_distance) (u : Nat) :
    (goal_recompute s1 u).goal_distance_lookahead u =
      (goal_recompute s u).goal_distance_lookahead u := by
  rw [goal_recompute_lookahead, goal_recompute_lookahead, hf.g, hf.v_goal, hf.weight, hd]
  by_cases h : u = s.v_goal
  · simp only [h, if_true]
    exact hf.lookahead_goal
  · simp only [h, if_false]

/-- The method `goal_update_vertex(u)` only recomputes the lookahead of `u` when `u` is
out of the goal queue and its distance is the recomputed lookahead. -/
theorem goal_update_vertex_settled {s : inc_bi} {u : Nat}
    (hq : s.goal_queue.contains u = false)
    (hc : s.goal_distance u = (goal_recompute s u).goal_distance_lookahead u) :
    goal_update_vertex s u = some (goal_recompute s u) := by
  obtain ⟨p, l, hr, -, -⟩ := goal_recompute_eq s u
  have hd : (goal_recompute s u).goal_distance = s.goal_distance := by rw [hr]
  have hqq : (goal_recompute s u).goal_queue = s.goal_queue := by rw [hr]
  unfold goal_update_vertex
  simp only [hd, hqq, hq, hc, decide_True, if_true, Bool.false_eq_true, if_false]

end inc_bi

/-! ## The connection queue holds arcs between the settled regions -/

theorem idx_inj_distinct {g : Graph} (hn : g.DistinctIdx) {e e1 : Arc} (he : e ∈ g.arcs)
    (he1 : e1 ∈ g.arcs) (h : e.idx = e1.idx) : e = e1 :=
  List.inj_on_of_nodup_map hn he he1 h

theorem out_edges_nodup {g : Graph} (hn : g.DistinctIdx) (u : Nat) :
    ((out_edges u g).map Arc.idx).Nodup :=
  List.Nodup.sublist (List.Sublist.map _ (List.filter_sublist _)) hn

theorem in_edges_nodup {g : Graph} (hn : g.DistinctIdx) (u : Nat) :
    ((in_edges u g).map Arc.idx).Nodup :=
  List.Nodup.sublist (List.Sublist.map _ (List.filter_sublist _)) hn

theorem noSelfLoop_tgt {g : Graph} (hl : g.NoSelfLoop) {e : Arc} {u : Nat} (he : e ∈ g.arcs)
    (h : e.src = u) : e.tgt ≠ u :=
  fun h2 => hl e he (h.trans h2.symm)

theorem noSelfLoop_src {g : Graph} (hl : g.NoSelfLoop) {e : Arc} {u : Nat} (he : e ∈ g.arcs)
    (h : e.tgt = u) : e.src ≠ u :=
  fun h2 => hl e he (h2.trans h.symm)

namespace inc_bi

theorem conn_absent_of_start_queued {g : Graph} (hn : g.DistinctIdx) {s : inc_bi}
    (hI : ConnInv g s) {e : Arc} (he : e ∈ g.arcs)
    (hq : s.start_queue.contains e.src = true) : s.conn_queue.contains e.idx = false := by
  cases hc : s.conn_queue.contains e.idx with
  | false => rfl
  | true =>
    obtain ⟨k, hk⟩ := (HeapIndexed.contains_iff _ _).mp hc
    obtain ⟨e1, he1, hidx, hok⟩ := hI.2 _ hk
    have : e1 = e := idx_inj_distinct hn he1 he hidx
    subst this
    rw [hok.start_absent] at hq
    exact absurd hq (by simp)

theorem conn_drop_fold_absent {l : List Arc} {s s1 : inc_bi}
    (h : l.foldlM conn_drop_step s = some s1) :
    ∀ e ∈ l, s1.conn_queue.contains e.idx = false := by
  induction l generalizing s with
  | nil =>
    intro e he
    simp at he
  | cons a l ih =>
    simp only [List.foldlM, bind, Option.bind_eq_some] at h
    obtain ⟨s2, h2, h3⟩ := h
    intro e he
    rcases List.mem_cons.mp he with rfl | he
    · have h2c : s2.conn_queue.contains e.idx = false := by
        unfold conn_drop_step at h2
        split at h2
        · simp only [Option.map_eq_some'] at h2
          obtain ⟨q, hq, rfl⟩ := h2
          simp [HeapIndexed.contains_remove hq]
        · next hc =>
          simp only [Option.some.injEq] at h2
          subst h2
          simpa using hc
      obtain ⟨cq, rfl, -, hsub, -⟩ := conn_drop_fold h3
      cases hc : cq.contains e.idx with
      | false => rfl
      | true =>
        obtain ⟨k, hk⟩ := (HeapIndexed.contains_iff _ _).mp hc
        have := (HeapIndexed.contains_iff _ _).mpr ⟨k, hsub _ hk⟩
        rw [h2c] at this
        exact absurd this (by simp)
    · exact ih h3 e he

/-- The loop of `start_update_vertex` that follows the removal of a consistent `u` from
the start queue returns and keeps the connection queue in order, when none of the arcs is
in the connection queue. -/
theorem start_open_fold_conn {g : Graph} {u : Nat} {d : Weight} (hd : d ≠ Weight.inf) :
    ∀ (l : List Arc) (s : inc_bi), ConnInv g s → s.start_queue.contains u = false →
      s.start_distance u = d → (∀ e ∈ l, e ∈ g.arcs ∧ e.src = u) → (l.map Arc.idx).Nodup →
      (∀ e ∈ l, s.conn_queue.contains e.idx = false) →
      ∃ s1, l.foldlM (start_open_step d) s = some s1 ∧ ConnInv g s1 ∧ ConnOnly s s1 ∧
        ∀ j, s1.conn_queue.contains j = true →
          s.conn_queue.contains j = true ∨ ∃ e ∈ l, e.idx = j := by
  intro l
  induction l with
  | nil =>
    intro s hI _ _ _ _ _
    exact ⟨s, rfl, hI, connOnly_refl s, fun j hj => Or.inl hj⟩
  | cons a l ih =>
    intro s hI hq hdu hl hnd hab
    obtain ⟨ha, hau⟩ := hl a (List.mem_cons_self _ _)
    simp only [List.map_cons, List.nodup_cons, List.mem_map, not_exists, not_and] at hnd
    have hstep : ∃ s2, start_open_step d s a = some s2 ∧ ConnInv g s2 ∧ ConnOnly s s2 ∧
        ∀ j, s2.conn_queue.contains j = true → s.conn_queue.contains j = true ∨ a.idx = j := by
      unfold start_open_step
      dsimp only
      split
      · next hguard =>
        simp only [Bool.and_eq_true, Bool.not_eq_true', decide_eq_true_eq] at hguard
        obtain ⟨cq, hcq⟩ := HeapIndexed.insert_isSome
          (conn_key.mk (Weight.combine (Weight.combine d (s.weight a))
            (s.goal_distance a.tgt)) d (s.goal_distance a.tgt))
          (hab a (List.mem_cons_self _ _))
        refine ⟨{ s with conn_queue := cq }, by simp [hcq], ⟨hI.1, ?_⟩, ⟨cq, rfl⟩, ?_⟩
        · intro x hx
          rcases (HeapIndexed.mem_entries_insert hcq x).mp hx with h1 | h1
          · obtain ⟨e, he, hidx, hok⟩ := hI.2 x h1
            exact ⟨e, he, hidx,
              { start_absent := hok.start_absent, start_finite := hok.start_finite,
                goal_absent := hok.goal_absent, goal_finite := hok.goal_finite }⟩
          · refine ⟨a, ha, by rw [h1], ?_⟩
            exact
              { start_absent := by rw [hau]; exact hq
                start_finite := by rw [hau, hdu]; exact hd
                goal_absent := hguard.1
                goal_finite := hguard.2 }
        · intro j hj
          simp only [HeapIndexed.contains_insert hcq, Bool.or_eq_true, decide_eq_true_eq] at hj
          exact hj
      · exact ⟨s, rfl, hI, connOnly_refl s, fun j hj => Or.inl hj⟩
    obtain ⟨s2, h2, hI2, ⟨cq, rfl⟩, hj2⟩ := hstep
    obtain ⟨s1, h1, hI1, hco, hj1⟩ := ih { s with conn_queue := cq } hI2 hq hdu
      (fun e he => hl e (List.mem_cons_of_mem _ he)) hnd.2
      (by
        intro e he
        cases hc : cq.contains e.idx with
        | false => rfl
        | true =>
          rcases hj2 e.idx hc with h3 | h3
          · rw [hab e (List.mem_cons_of_mem _ he)] at h3
            exact absurd h3 (by simp)
          · exact absurd h3.symm (hnd.1 e he))
    refine ⟨s1, ?_, hI1, connOnly_trans ⟨cq, rfl⟩ hco, ?_⟩
    · simp only [List.foldlM, bind, Option.bind_eq_some]
      exact ⟨_, h2, h1⟩
    · intro j hj
      rcases hj1 j hj with h3 | ⟨e, he, h3⟩
      · rcases hj2 j h3 with h4 | h4
        · exact Or.inl h4
        · exact Or.inr ⟨a, List.mem_cons_self _ _, h4⟩
      · exact Or.inr ⟨e, List.mem_cons_of_mem _ he, h3⟩

end inc_bi

namespace inc_bi

/-- The method `start_update_vertex` returns and keeps the connection queue in order; it
leaves the start distances and the membership of the other vertices in the start queue as
they are, and the arcs it brings into the connection queue leave `u`. -/
theorem start_update_vertex_conn {g : Graph} (hn : g.DistinctIdx) {s : inc_bi}
    (hI : ConnInv g s) (u : Nat) :
    ∃ s1, start_update_vertex s u = some s1 ∧ ConnInv g s1 ∧
      s1.start_distance = s.start_distance ∧
      (∀ v, v ≠ u → s1.start_queue.contains v = s.start_queue.contains v) ∧
      (∀ j, s1.conn_queue.contains j = true →
        s.conn_queue.contains j = true ∨ ∃ e ∈ g.arcs, e.src = u ∧ e.idx = j) := by
  obtain ⟨p, l, hr, -, -⟩ := start_recompute_eq s u
  unfold start_update_vertex
  rw [hr]
  dsimp only
  have hg := hI.1
  by_cases hc : s.start_distance u = l u
  · simp only [hc, decide_True, if_true]
    by_cases hqc : s.start_queue.contains u = true
    · obtain ⟨q, hq1⟩ := HeapIndexed.remove_isSome hqc
      simp only [hqc, if_true, hq1, Option.some_bind]
      have hqu : q.contains u = false := by simp [HeapIndexed.contains_remove hq1]
      have hqv : ∀ v, v ≠ u → q.contains v = s.start_queue.contains v := by
        intro v hv
        simp [HeapIndexed.contains_remove hq1, Ne.symm hv]
      have hI2 : ConnInv g
          { s with start_predecessor := p, start_distance_lookahead := l, start_queue := q } := by
        refine ⟨hg, ?_⟩
        intro x hx
        obtain ⟨e, he, hidx, hok⟩ := hI.2 x hx
        refine ⟨e, he, hidx, ?_⟩
        exact
          { start_absent := by
              show q.contains e.src = false
              simp [HeapIndexed.contains_remove hq1, hok.start_absent]
            start_finite := hok.start_finite
            goal_absent := hok.goal_absent
            goal_finite := hok.goal_finite }
      by_cases hinf : l u = Weight.inf
      · simp only [hinf, ne_eq, not_true_eq_false, if_false]
        exact ⟨_, rfl, hI2, rfl, hqv, fun j hj => Or.inl hj⟩
      · simp only [ne_eq, hinf, not_false_eq_true, if_true]
        obtain ⟨s1, h1, hI1, ⟨cq, rfl⟩, hj1⟩ := start_open_fold_conn hinf (out_edges u s.g)
          { s with start_predecessor := p, start_distance_lookahead := l, start_queue := q }
          hI2 hqu hc
          (by
            intro e he
            rw [hg] at he
            exact mem_out_edges.mp he)
          (by
            rw [hg]
            exact out_edges_nodup hn u)
          (by
            intro e he
            rw [hg] at he
            obtain ⟨hea, hes⟩ := mem_out_edges.mp he
            exact conn_absent_of_start_queued hn hI hea (by rw [hes]; exact hqc))
        refine ⟨_, h1, hI1, rfl, hqv, ?_⟩
        intro j hj
        rcases hj1 j hj with h3 | ⟨e, he, h3⟩
        · exact Or.inl h3
        · rw [hg] at he
          exact Or.inr ⟨e, (mem_out_edges.mp he).1, (mem_out_edges.mp he).2, h3⟩
    · simp only [hqc, Bool.false_eq_true, if_false]
      refine ⟨_, rfl, ⟨hg, ?_⟩, rfl, fun _ _ => rfl, fun j hj => Or.inl hj⟩
      intro x hx
      obtain ⟨e, he, hidx, hok⟩ := hI.2 x hx
      exact ⟨e, he, hidx,
        { start_absent := hok.start_absent, start_finite := hok.start_finite,
          goal_absent := hok.goal_absent, goal_finite := hok.goal_finite }⟩
  · simp only [hc, decide_False, Bool.false_eq_true, if_false]
    by_cases hqc : s.start_queue.contains u = true
    · obtain ⟨q, hq1⟩ := HeapIndexed.update_isSome
        (start_calculate_key { s with start_predecessor := p, start_distance_lookahead := l } u)
        hqc
      simp only [hqc, if_true, hq1, Option.map_some']
      refine ⟨_, rfl, ⟨hg, ?_⟩, rfl, fun v _ => HeapIndexed.contains_update hq1 v,
        fun j hj => Or.inl hj⟩
      intro x hx
      obtain ⟨e, he, hidx, hok⟩ := hI.2 x hx
      refine ⟨e, he, hidx, ?_⟩
      exact
        { start_absent := by
            show q.contains e.src = false
            rw [HeapIndexed.contains_update hq1]
            exact hok.start_absent
          start_finite := hok.start_finite
          goal_absent := hok.goal_absent
          goal_finite := hok.goal_finite }
    · have hqc2 : s.start_queue.contains u = false := by simpa using hqc
      obtain ⟨q, hq1⟩ := HeapIndexed.insert_isSome
        (start_calculate_key { s with start_predecessor := p, start_distance_lookahead := l } u)
        hqc2
      simp only [hqc2, Bool.false_eq_true, if_false, hq1, Option.some_bind]
      obtain ⟨s1, hs1⟩ := foldlM_isSome conn_drop_step conn_drop_step_isSome (out_edges u s.g)
        { s with start_predecessor := p, start_distance_lookahead := l, start_queue := q }
      have hab := conn_drop_fold_absent hs1
      obtain ⟨cq, rfl, -, hsub, -⟩ := conn_drop_fold hs1
      refine ⟨_, hs1, ⟨hg, ?_⟩, rfl, ?_, ?_⟩
      · intro x hx
        obtain ⟨e, he, hidx, hok⟩ := hI.2 x (hsub x hx)
        refine ⟨e, he, hidx, ?_⟩
        have hne : e.src ≠ u := by
          intro heq
          have := hab e (by
            rw [hg]
            exact mem_out_edges.mpr ⟨he, heq⟩)
          have hc2 : cq.contains e.idx = true :=
            (HeapIndexed.contains_iff _ _).mpr ⟨x.2, by rw [hidx]; exact hx⟩
          rw [this] at hc2
          exact absurd hc2 (by simp)
        exact
          { start_absent := by
              show q.contains e.src = false
              simp [HeapIndexed.contains_insert hq1, hok.start_absent, Ne.symm hne]
            start_finite := hok.start_finite
            goal_absent := hok.goal_absent
            goal_finite := hok.goal_finite }
      · intro v hv
        show q.contains v = s.start_queue.contains v
        simp [HeapIndexed.contains_insert hq1, Ne.symm hv]
      · intro j hj
        obtain ⟨k, hk⟩ := (HeapIndexed.contains_iff _ j).mp hj
        exact Or.inl ((HeapIndexed.contains_iff _ j).mpr ⟨k, hsub _ hk⟩)

/-- One pass of the loop that follows the settling of `u` on the start side returns and
keeps the connection queue in order, when the arc leaves `u` and is not in the connection
queue, and either leads to another vertex or the update of `u` leaves `u` consistent. -/
theorem start_lower_step_conn {g : Graph} (hn : g.DistinctIdx) {u : Nat} {d : Weight}
    {s : inc_bi} {e0 : Arc} (hI : ConnInv g s) (hq : s.start_queue.contains u = false)
    (hdu : s.start_distance u = d) (he0 : e0 ∈ g.arcs) (hsrc : e0.src = u)
    (hne : e0.tgt = u →
      s.start_distance u = (start_recompute s u).start_distance_lookahead u)
    (hab : s.conn_queue.contains e0.idx = false) :
    ∃ s1, start_lower_step d s e0 = some s1 ∧ ConnInv g s1 ∧
      s1.start_queue.contains u = false ∧ s1.start_distance u = d ∧
      ∀ j, s1.conn_queue.contains j = true → s.conn_queue.contains j = true ∨ j = e0.idx ∨
        (e0.tgt ≠ u ∧ ∃ e ∈ g.arcs, e.src = e0.tgt ∧ e.idx = j) := by
  obtain ⟨s2, h2, hI2, hd2, hq2, hj2⟩ := start_update_vertex_conn hn hI e0.tgt
  have hself : e0.tgt = u →
      s2.start_queue = s.start_queue ∧ s2.conn_queue = s.conn_queue := by
    intro ht
    obtain ⟨p, l, hr, -, -⟩ := start_recompute_eq s u
    rw [ht, start_update_vertex_settled hq (hne ht), hr] at h2
    rw [← Option.some.inj h2]
    exact ⟨rfl, rfl⟩
  have hq3 : s2.start_queue.contains u = false := by
    by_cases ht : e0.tgt = u
    · rw [(hself ht).1]
      exact hq
    · rw [hq2 u (Ne.symm ht)]
      exact hq
  have hd3 : s2.start_distance u = d := by rw [hd2, hdu]
  have hj3 : ∀ j, s2.conn_queue.contains j = true → s.conn_queue.contains j = true ∨
      (e0.tgt ≠ u ∧ ∃ e ∈ g.arcs, e.src = e0.tgt ∧ e.idx = j) := by
    intro j hj
    by_cases ht : e0.tgt = u
    · rw [(hself ht).2] at hj
      exact Or.inl hj
    · rcases hj2 j hj with h3 | h3
      · exact Or.inl h3
      · exact Or.inr ⟨ht, h3⟩
  have hab2 : s2.conn_queue.contains e0.idx = false := by
    cases hc : s2.conn_queue.contains e0.idx with
    | false => rfl
    | true =>
      rcases hj3 _ hc with h3 | ⟨hne1, e, he, hes, hei⟩
      · rw [hab] at h3
        exact absurd h3 (by simp)
      · have : e = e0 := idx_inj_distinct hn he he0 hei
        subst this
        exact absurd (hes.symm.trans hsrc) hne1
  unfold start_lower_step
  simp only [h2, Option.some_bind]
  split
  · next hguard =>
    simp only [Bool.and_eq_true, Bool.not_eq_true', decide_eq_true_eq] at hguard
    obtain ⟨cq, hcq⟩ := HeapIndexed.insert_isSome
      (conn_key.mk (Weight.combine (Weight.combine d (s2.weight e0))
        (s2.goal_distance e0.tgt)) d (s2.goal_distance e0.tgt)) hab2
    refine ⟨{ s2 with conn_queue := cq }, by simp [hcq], ⟨hI2.1, ?_⟩, hq3, hd3, ?_⟩
    · intro x hx
      rcases (HeapIndexed.mem_entries_insert hcq x).mp hx with h1 | h1
      · obtain ⟨e, he, hidx, hok⟩ := hI2.2 x h1
        exact ⟨e, he, hidx,
          { start_absent := hok.start_absent, start_finite := hok.start_finite,
            goal_absent := hok.goal_absent, goal_finite := hok.goal_finite }⟩
      · refine ⟨e0, he0, by rw [h1], ?_⟩
        exact
          { start_absent := by rw [hsrc]; exact hq3
            start_finite := by rw [hsrc, hd3]; exact hguard.1.1
            goal_absent := hguard.1.2
            goal_finite := hguard.2 }
    · intro j hj
      simp only [HeapIndexed.contains_insert hcq, Bool.or_eq_true, decide_eq_true_eq] at hj
      rcases hj with h5 | h5
      · rcases hj3 j h5 with h6 | h6
        · exact Or.inl h6
        · exact Or.inr (Or.inr h6)
      · exact Or.inr (Or.inl h5.symm)
  · refine ⟨s2, rfl, hI2, hq3, hd3, ?_⟩
    intro j hj
    rcases hj3 j hj with h6 | h6
    · exact Or.inl h6
    · exact Or.inr (Or.inr h6)

end inc_bi

namespace inc_bi

/-- An expansion on the start side returns and keeps the connection queue in order, on a
graph with distinct edge indices, when the start queue is not empty and the start
lookahead of every vertex with an arc to itself is current. -/
theorem expand_start_conn_of_fresh {g : Graph} (hn : g.DistinctIdx) {s : inc_bi}
    (hI : ConnInv g s)
    (hsf : ∀ e ∈ g.arcs, e.src = e.tgt →
      fresh_at g s.weight s.v_start s.start_distance s.start_distance_lookahead e.src)
    (hne : s.start_queue.size ≠ 0) :
    ∃ s1, expand_start s = some s1 ∧ ConnInv g s1 := by
  obtain ⟨u, q, hu, hq⟩ := HeapIndexed.remove_min_isSome (fun k : Weight => k)
    (fun _ _ => rfl) hne
  obtain ⟨e, he, hrem⟩ := HeapIndexed.remove_min_eq_some hq
  have hue : e.1 = u := by
    simp only [HeapIndexed.top_idx, he, Option.map_some', Option.some.injEq] at hu
    exact hu
  rw [hue] at hrem
  have hqc : s.start_queue.contains u = true := by
    rw [← hue]
    exact HeapIndexed.top_contains he
  have hqu : q.contains u = false := by simp [HeapIndexed.contains_remove hrem]
  have hg := hI.1
  have hsrc : ∀ x ∈ s.conn_queue.entries, ∃ a ∈ g.arcs, a.idx = x.1 ∧ s.ConnOk a ∧
      a.src ≠ u := by
    intro x hx
    obtain ⟨a, ha, hidx, hok⟩ := hI.2 x hx
    refine ⟨a, ha, hidx, hok, ?_⟩
    intro heq
    have := hok.start_absent
    rw [heq, hqc] at this
    exact absurd this (by simp)
  unfold expand_start
  simp only [hu, hq, Option.some_bind]
  split
  · next hcond =>
    have hru : s.start_distance_lookahead u ≠ Weight.inf := Weight.lt_ne_inf hcond
    have hI2 : ConnInv g
        { s with start_queue := q,
                 start_distance :=
                   Function.update s.start_distance u (s.start_distance_lookahead u) } := by
      refine ⟨hg, ?_⟩
      intro x hx
      obtain ⟨a, ha, hidx, hok, hau⟩ := hsrc x hx
      refine ⟨a, ha, hidx, ?_⟩
      exact
        { start_absent := by
            show q.contains a.src = false
            simp [HeapIndexed.contains_remove hrem, hok.start_absent]
          start_finite := by
            show Function.update s.start_distance u _ a.src ≠ Weight.inf
            rw [Function.update_noteq hau]
            exact hok.start_finite
          goal_absent := hok.goal_absent
          goal_finite := hok.goal_finite }
    have hself : (∃ a ∈ g.arcs, a.src = u ∧ a.tgt = u) →
        s.start_distance_lookahead u =
          (start_recompute
            { s with start_queue := q,
                     start_distance :=
                       Function.update s.start_distance u (s.start_distance_lookahead u) }
            u).start_distance_lookahead u := by
      rintro ⟨a, ha, has, hat⟩
      rw [start_recompute_lookahead]
      dsimp only
      by_cases hvs : u = s.v_start
      · rw [if_pos hvs]
      · rw [if_neg hvs, hg]
        have hf : s.start_distance_lookahead u =
            lookahead_of g s.weight s.start_distance u := by
          rcases hsf a ha (has.trans hat.symm) with h1 | h1
          · exact absurd (has ▸ h1) hvs
          · rw [has] at h1
            exact h1
        have hlt : lookahead_of g s.weight s.start_distance u < s.start_distance u := by
          rw [← hf]
          exact hcond
        rw [hf]
        exact (lookahead_of_lowered s.weight hlt).symm
    obtain ⟨s1, h1, hP⟩ := foldlM_total_list
      (fun l t => ConnInv g t ∧ t.start_queue.contains u = false ∧
        t.start_distance u = s.start_distance_lookahead u ∧
        ((∃ a ∈ g.arcs, a.src = u ∧ a.tgt = u) →
          t.start_distance u = (start_recompute t u).start_distance_lookahead u) ∧
        (∀ a ∈ l, a ∈ g.arcs ∧ a.src = u) ∧ (l.map Arc.idx).Nodup ∧
        ∀ a ∈ l, t.conn_queue.contains a.idx = false)
      (start_lower_step (s.start_distance_lookahead u))
      (by
        rintro a l t ⟨hIt, hqt, hdt, hst, hlt, hnd, hab⟩
        obtain ⟨ha, hau⟩ := hlt a (List.mem_cons_self _ _)
        simp only [List.map_cons, List.nodup_cons, List.mem_map, not_exists, not_and] at hnd
        obtain ⟨t1, ht1, hI1, hq1, hd1, hj1⟩ := start_lower_step_conn hn hIt hqt hdt ha hau
          (fun hat => hst ⟨a, ha, hau, hat⟩) (hab a (List.mem_cons_self _ _))
        obtain ⟨hf1, hd2⟩ := start_lower_step_frame ht1
        refine ⟨t1, ht1, hI1, hq1, hd1, ?_, fun b hb => hlt b (List.mem_cons_of_mem _ hb),
          hnd.2, ?_⟩
        · intro hex
          rw [start_recompute_lookahead_frame hf1 hd2, hd2]
          exact hst hex
        intro b hb
        obtain ⟨hba, hbu⟩ := hlt b (List.mem_cons_of_mem _ hb)
        cases hc : t1.conn_queue.contains b.idx with
        | false => rfl
        | true =>
          rcases hj1 _ hc with h3 | h3 | ⟨hne1, a1, ha1, hs1, hi1⟩
          · rw [hab b (List.mem_cons_of_mem _ hb)] at h3
            exact absurd h3 (by simp)
          · exact absurd h3 (hnd.1 b hb)
          · have : a1 = b := idx_inj_distinct hn ha1 hba hi1
            subst this
            exact absurd (hs1.symm.trans hbu) hne1)
      (out_edges u s.g) _
      ⟨hI2, hqu, by simp, by
        intro hex
        show Function.update s.start_distance u (s.start_distance_lookahead u) u = _
        rw [Function.update_same]
        exact hself hex, by
        intro a ha
        rw [hg] at ha
        exact mem_out_edges.mp ha, by
        rw [hg]
        exact out_edges_nodup hn u, by
        intro a ha
        rw [hg] at ha
        obtain ⟨haa, has⟩ := mem_out_edges.mp ha
        exact conn_absent_of_start_queued hn hI haa (by rw [has]; exact hqc)⟩
    exact ⟨s1, h1, hP.1⟩
  · have hI2 : ConnInv g
        { s with start_queue := q,
                 start_distance := Function.update s.start_distance u Weight.inf } := by
      refine ⟨hg, ?_⟩
      intro x hx
      obtain ⟨a, ha, hidx, hok, hau⟩ := hsrc x hx
      refine ⟨a, ha, hidx, ?_⟩
      exact
        { start_absent := by
            show q.contains a.src = false
            simp [HeapIndexed.contains_remove hrem, hok.start_absent]
          start_finite := by
            show Function.update s.start_distance u _ a.src ≠ Weight.inf
            rw [Function.update_noteq hau]
            exact hok.start_finite
          goal_absent := hok.goal_absent
          goal_finite := hok.goal_finite }
    obtain ⟨s3, h3, hI3, -⟩ := start_update_vertex_conn hn hI2 u
    obtain ⟨s1, h1, hP⟩ := foldlM_total_list (fun (_ : List Arc) t => ConnInv g t)
      (fun (st : inc_bi) (a : Arc) => start_update_vertex st a.tgt)
      (by
        intro a l t hIt
        obtain ⟨t1, ht1, hI1, -⟩ := start_update_vertex_conn hn hIt a.tgt
        exact ⟨t1, ht1, hI1⟩)
      (out_edges u s3.g) s3 hI3
    refine ⟨s1, ?_, hP⟩
    simp only [h3, Option.some_bind]
    exact h1

/-- An expansion on the start side returns and keeps the connection queue in order, on a
graph with distinct edge indices and no self-loop, when the start queue is not empty. -/
theorem expand_start_conn {g : Graph} (hn : g.DistinctIdx) (hl : g.NoSelfLoop) {s : inc_bi}
    (hI : ConnInv g s) (hne : s.start_queue.size ≠ 0) :
    ∃ s1, expand_start s = some s1 ∧ ConnInv g s1 :=
  expand_start_conn_of_fresh hn hI (fun e he h => absurd h (hl e he)) hne

end inc_bi

namespace inc_bi

theorem conn_absent_of_goal_queued {g : Graph} (hn : g.DistinctIdx) {s : inc_bi}
    (hI : ConnInv g s) {e : Arc} (he : e ∈ g.arcs)
    (hq : s.goal_queue.contains e.tgt = true) : s.conn_queue.contains e.idx = false := by
  cases hc : s.conn_queue.contains e.idx with
  | false => rfl
  | true =>
    obtain ⟨k, hk⟩ := (HeapIndexed.contains_iff _ _).mp hc
    obtain ⟨e1, he1, hidx, hok⟩ := hI.2 _ hk
    have : e1 = e := idx_inj_distinct hn he1 he hidx
    subst this
    rw [hok.goal_absent] at hq
    exact absurd hq (by simp)

/-- The loop of `goal_update_vertex` that follows the removal of a consistent `u` from
the goal queue returns and keeps the connection queue in order, when none of the arcs is
in the connection queue. -/
theorem goal_open_fold_conn {g : Graph} {u : Nat} {d : Weight} (hd : d ≠ Weight.inf) :
    ∀ (l : List Arc) (s : inc_bi), ConnInv g s → s.goal_queue.contains u = false →
      s.goal_distance u = d → (∀ e ∈ l, e ∈ g.arcs ∧ e.tgt = u) → (l.map Arc.idx).Nodup →
      (∀ e ∈ l, s.conn_queue.contains e.idx = false) →
      ∃ s1, l.foldlM (goal_open_step d) s = some s1 ∧ ConnInv g s1 ∧ ConnOnly s s1 ∧
        ∀ j, s1.conn_queue.contains j = true →
          s.conn_queue.contains j = true ∨ ∃ e ∈ l, e.idx = j := by
  intro l
  induction l with
  | nil =>
    intro s hI _ _ _ _ _
    exact ⟨s, rfl, hI, connOnly_refl s, fun j hj => Or.inl hj⟩
  | cons a l ih =>
    intro s hI hq hdu hl hnd hab
    obtain ⟨ha, hau⟩ := hl a (List.mem_cons_self _ _)
    simp only [List.map_cons, List.nodup_cons, List.mem_map, not_exists, not_and] at hnd
    have hstep : ∃ s2, goal_open_step d s a = some s2 ∧ ConnInv g s2 ∧ ConnOnly s s2 ∧
        ∀ j, s2.conn_queue.contains j = true → s.conn_queue.contains j = true ∨ a.idx = j := by
      unfold goal_open_step
      dsimp only
      split
      · next hguard =>
        simp only [Bool.and_eq_true, Bool.not_eq_true', decide_eq_true_eq] at hguard
        obtain ⟨cq, hcq⟩ := HeapIndexed.insert_isSome
          (conn_key.mk (Weight.combine (Weight.combine (s.start_distance a.src) (s.weight a)) d)
            (s.start_distance a.src) d)
          (hab a (List.mem_cons_self _ _))
        refine ⟨{ s with conn_queue := cq }, by simp [hcq], ⟨hI.1, ?_⟩, ⟨cq, rfl⟩, ?_⟩
        · intro x hx
          rcases (HeapIndexed.mem_entries_insert hcq x).mp hx with h1 | h1
          · obtain ⟨e, he, hidx, hok⟩ := hI.2 x h1
            exact ⟨e, he, hidx,
              { goal_absent := hok.goal_absent, goal_finite := hok.goal_finite,
                start_absent := hok.start_absent, start_finite := hok.start_finite }⟩
          · refine ⟨a, ha, by rw [h1], ?_⟩
            exact
              { goal_absent := by rw [hau]; exact hq
                goal_finite := by rw [hau, hdu]; exact hd
                start_absent := hguard.1
                start_finite := hguard.2 }
        · intro j hj
          simp only [HeapIndexed.contains_insert hcq, Bool.or_eq_true, decide_eq_true_eq] at hj
          exact hj
      · exact ⟨s, rfl, hI, connOnly_refl s, fun j hj => Or.inl hj⟩
    obtain ⟨s2, h2, hI2, ⟨cq, rfl⟩, hj2⟩ := hstep
    obtain ⟨s1, h1, hI1, hco, hj1⟩ := ih { s with conn_queue := cq } hI2 hq hdu
      (fun e he => hl e (List.mem_cons_of_mem _ he)) hnd.2
      (by
        intro e he
        cases hc : cq.contains e.idx with
        | false => rfl
        | true =>
          rcases hj2 e.idx hc with h3 | h3
          · rw [hab e (List.mem_cons_of_mem _ he)] at h3
            exact absurd h3 (by simp)
          · exact absurd h3.symm (hnd.1 e he))
    refine ⟨s1, ?_, hI1, connOnly_trans ⟨cq, rfl⟩ hco, ?_⟩
    · simp only [List.foldlM, bind, Option.bind_eq_some]
      exact ⟨_, h2, h1⟩
    · intro j hj
      rcases hj1 j hj with h3 | ⟨e, he, h3⟩
      · rcases hj2 j h3 with h4 | h4
        · exact Or.inl h4
        · exact Or.inr ⟨a, List.mem_cons_self _ _, h4⟩
      · exact Or.inr ⟨e, List.mem_cons_of_mem _ he, h3⟩

/-- The method `goal_update_vertex` returns and keeps the connection queue in order; it
leaves the goal distances and the membership of the other vertices in the goal queue as
they are, and the arcs it brings into the connection queue enter `u`. -/
theorem goal_update_vertex_conn {g : Graph} (hn : g.DistinctIdx) {s : inc_bi}
    (hI : ConnInv g s) (u : Nat) :
    ∃ s1, goal_update_vertex s u = some s1 ∧ ConnInv g s1 ∧
      s1.goal_distance = s.goal_distance ∧
      (∀ v, v ≠ u → s1.goal_queue.contains v = s.goal_queue.contains v) ∧
      (∀ j, s1.conn_queue.contains j = true →
        s.conn_queue.contains j = true ∨ ∃ e ∈ g.arcs, e.tgt = u ∧ e.idx = j) := by
  obtain ⟨p, l, hr, -, -⟩ := goal_recompute_eq s u
  unfold goal_update_vertex
  rw [hr]
  dsimp only
  have hg := hI.1
  by_cases hc : s.goal_distance u = l u
  · simp only [hc, decide_True, if_true]
    by_cases hqc : s.goal_queue.contains u = true
    · obtain ⟨q, hq1⟩ := HeapIndexed.remove_isSome hqc
      simp only [hqc, if_true, hq1, Option.some_bind]
      have hqu : q.contains u = false := by simp [HeapIndexed.contains_remove hq1]
      have hqv : ∀ v, v ≠ u → q.contains v = s.goal_queue.contains v := by
        intro v hv
        simp [HeapIndexed.contains_remove hq1, Ne.symm hv]
      have hI2 : ConnInv g
          { s with goal_predecessor := p, goal_distance_lookahead := l, goal_queue := q } := by
        refine ⟨hg, ?_⟩
        intro x hx
        obtain ⟨e, he, hidx, hok⟩ := hI.2 x hx
        refine ⟨e, he, hidx, ?_⟩
        exact
          { goal_absent := by
              show q.contains e.tgt = false
              simp [HeapIndexed.contains_remove hq1, hok.goal_absent]
            goal_finite := hok.goal_finite
            start_absent := hok.start_absent
            start_finite := hok.start_finite }
      by_cases hinf : l u = Weight.inf
      · simp only [hinf, ne_eq, not_true_eq_false, if_false]
        exact ⟨_, rfl, hI2, rfl, hqv, fun j hj => Or.inl hj⟩
      · simp only [ne_eq, hinf, not_false_eq_true, if_true]
        obtain ⟨s1, h1, hI1, ⟨cq, rfl⟩, hj1⟩ := goal_open_fold_conn hinf (in_edges u s.g)
          { s with goal_predecessor := p, goal_distance_lookahead := l, goal_queue := q }
          hI2 hqu hc
          (by
            intro e he
            rw [hg] at he
            exact mem_in_edges.mp he)
          (by
            rw [hg]
            exact in_edges_nodup hn u)
          (by
            intro e he
            rw [hg] at he
            obtain ⟨hea, hes⟩ := mem_in_edges.mp he
            exact conn_absent_of_goal_queued hn hI hea (by rw [hes]; exact hqc))
        refine ⟨_, h1, hI1, rfl, hqv, ?_⟩
        intro j hj
        rcases hj1 j hj with h3 | ⟨e, he, h3⟩
        · exact Or.inl h3
        · rw [hg] at he
          exact Or.inr ⟨e, (mem_in_edges.mp he).1, (mem_in_edges.mp he).2, h3⟩
    · simp only [hqc, Bool.false_eq_true, if_false]
      refine ⟨_, rfl, ⟨hg, ?_⟩, rfl, fun _ _ => rfl, fun j hj => Or.inl hj⟩
      intro x hx
      obtain ⟨e, he, hidx, hok⟩ := hI.2 x hx
      exact ⟨e, he, hidx,
        { goal_absent := hok.goal_absent, goal_finite := hok.goal_finite,
          start_absent := hok.start_absent, start_finite := hok.start_finite }⟩
  · simp only [hc, decide_False, Bool.false_eq_true, if_false]
    by_cases hqc : s.goal_queue.contains u = true
    · obtain ⟨q, hq1⟩ := HeapIndexed.update_isSome
        (goal_calculate_key { s with goal_predecessor := p, goal_distance_lookahead := l } u)
        hqc
      simp only [hqc, if_true, hq1, Option.map_some']
      refine ⟨_, rfl, ⟨hg, ?_⟩, rfl, fun v _ => HeapIndexed.contains_update hq1 v,
        fun j hj => Or.inl hj⟩
      intro x hx
      obtain ⟨e, he, hidx, hok⟩ := hI.2 x hx
      refine ⟨e, he, hidx, ?_⟩
      exact
        { goal_absent := by
            show q.contains e.tgt = false
            rw [HeapIndexed.contains_update hq1]
            exact hok.goal_absent
          goal_finite := hok.goal_finite
          start_absent := hok.start_absent
          start_finite := hok.start_finite }
    · have hqc2 : s.goal_queue.contains u = false := by simpa using hqc
      obtain ⟨q, hq1⟩ := HeapIndexed.insert_isSome
        (goal_calculate_key { s with goal_predecessor := p, goal_distance_lookahead := l } u)
        hqc2
      simp only [hqc2, Bool.false_eq_true, if_false, hq1, Option.some_bind]
      obtain ⟨s1, hs1⟩ := foldlM_isSome conn_drop_step conn_drop_step_isSome (in_edges u s.g)
        { s with goal_predecessor := p, goal_distance_lookahead := l, goal_queue := q }
      have hab := conn_drop_fold_absent hs1
      obtain ⟨cq, rfl, -, hsub, -⟩ := conn_drop_fold hs1
      refine ⟨_, hs1, ⟨hg, ?_⟩, rfl, ?_, ?_⟩
      · intro x hx
        obtain ⟨e, he, hidx, hok⟩ := hI.2 x (hsub x hx)
        refine ⟨e, he, hidx, ?_⟩
        have hne : e.tgt ≠ u := by
          intro heq
          have := hab e (by
            rw [hg]
            exact mem_in_edges.mpr ⟨he, heq⟩)
          have hc2 : cq.contains e.idx = true :=
            (HeapIndexed.contains_iff _ _).mpr ⟨x.2, by rw [hidx]; exact hx⟩
          rw [this] at hc2
          exact absurd hc2 (by simp)
        exact
          { goal_absent := by
              show q.contains e.tgt = false
              simp [HeapIndexed.contains_insert hq1, hok.goal_absent, Ne.symm hne]
            goal_finite := hok.goal_finite
            start_absent := hok.start_absent
            start_finite := hok.start_finite }
      · intro v hv
        show q.contains v = s.goal_queue.contains v
        simp [HeapIndexed.contains_insert hq1, Ne.symm hv]
      · intro j hj
        obtain ⟨k, hk⟩ := (HeapIndexed.contains_iff _ j).mp hj
        exact Or.inl ((HeapIndexed.contains_iff _ j).mpr ⟨k, hsub _ hk⟩)

/-- One pass of the loop that follows the settling of `u` on the goal side returns and
keeps the connection queue in order, when the arc enters `u` and is not in the connection
queue, and either comes from another vertex or the update of `u` leaves `u` consistent. -/
theorem goal_lower_step_conn {g : Graph} (hn : g.DistinctIdx) {u : Nat} {d : Weight}
    {s : inc_bi} {e0 : Arc} (hI : ConnInv g s) (hq : s.goal_queue.contains u = false)
    (hdu : s.goal_distance u = d) (he0 : e0 ∈ g.arcs) (hsrc : e0.tgt = u)
    (hne : e0.src = u →
      s.goal_distance u = (goal_recompute s u).goal_distance_lookahead u)
    (hab : s.conn_queue.contains e0.idx = false) :
    ∃ s1, goal_lower_step d s e0 = some s1 ∧ ConnInv g s1 ∧
      s1.goal_queue.contains u = false ∧ s1.goal_distance u = d ∧
      ∀ j, s1.conn_queue.contains j = true → s.conn_queue.contains j = true ∨ j = e0.idx ∨
        (e0.src ≠ u ∧ ∃ e ∈ g.arcs, e.tgt = e0.src ∧ e.idx = j) := by
  obtain ⟨s2, h2, hI2, hd2, hq2, hj2⟩ := goal_update_vertex_conn hn hI e0.src
  have hself : e0.src = u →
      s2.goal_queue = s.goal_queue ∧ s2.conn_queue = s.conn_queue := by
    intro ht
    obtain ⟨p, l, hr, -, -⟩ := goal_recompute_eq s u
    rw [ht, goal_update_vertex_settled hq (hne ht), hr] at h2
    rw [← Option.some.inj h2]
    exact ⟨rfl, rfl⟩
  have hq3 : s2.goal_queue.contains u = false := by
    by_cases ht : e0.src = u
    · rw [(hself ht).1]
      exact hq
    · rw [hq2 u (Ne.symm ht)]
      exact hq
  have hd3 : s2.goal_distance u = d := by rw [hd2, hdu]
  have hj3 : ∀ j, s2.conn_queue.contains j = true → s.conn_queue.contains j = true ∨
      (e0.src ≠ u ∧ ∃ e ∈ g.arcs, e.tgt = e0.src ∧ e.idx = j) := by
    intro j hj
    by_cases ht : e0.src = u
    · rw [(hself ht).2] at hj
      exact Or.inl hj
    · rcases hj2 j hj with h3 | h3
      · exact Or.inl h3
      · exact Or.inr ⟨ht, h3⟩
  have hab2 : s2.conn_queue.contains e0.idx = false := by
    cases hc : s2.conn_queue.contains e0.idx with
    | false => rfl
    | true =>
      rcases hj3 _ hc with h3 | ⟨hne1, e, he, hes, hei⟩
      · rw [hab] at h3
        exact absurd h3 (by simp)
      · have : e = e0 := idx_inj_distinct hn he he0 hei
        subst this
        exact absurd (hes.symm.trans hsrc) hne1
  unfold goal_lower_step
  simp only [h2, Option.some_bind]
  split
  · next hguard =>
    simp only [Bool.and_eq_true, Bool.not_eq_true', decide_eq_true_eq] at hguard
    obtain ⟨cq, hcq⟩ := HeapIndexed.insert_isSome
      (conn_key.mk (Weight.combine (Weight.combine (s2.start_distance e0.src) (s2.weight e0)) d)
        (s2.start_distance e0.src) d) hab2
    refine ⟨{ s2 with conn_queue := cq }, by simp [hcq], ⟨hI2.1, ?_⟩, hq3, hd3, ?_⟩
    · intro x hx
      rcases (HeapIndexed.mem_entries_insert hcq x).mp hx with h1 | h1
      · obtain ⟨e, he, hidx, hok⟩ := hI2.2 x h1
        exact ⟨e, he, hidx,
          { goal_absent := hok.goal_absent, goal_finite := hok.goal_finite,
            start_absent := hok.start_absent, start_finite := hok.start_finite }⟩
      · refine ⟨e0, he0, by rw [h1], ?_⟩
        exact
          { goal_absent := by rw [hsrc]; exact hq3
            goal_finite := by rw [hsrc, hd3]; exact hguard.1.1
            start_absent := hguard.1.2
            start_finite := hguard.2 }
    · intro j hj
      simp only [HeapIndexed.contains_insert hcq, Bool.or_eq_true, decide_eq_true_eq] at hj
      rcases hj with h5 | h5
      · rcases hj3 j h5 with h6 | h6
        · exact Or.inl h6
        · exact Or.inr (Or.inr h6)
      · exact Or.inr (Or.inl h5.symm)
  · refine ⟨s2, rfl, hI2, hq3, hd3, ?_⟩
    intro j hj
    rcases hj3 j hj with h6 | h6
    · exact Or.inl h6
    · exact Or.inr (Or.inr h6)

/-- An expansion on the goal side returns and keeps the connection queue in order, on a
graph with distinct edge indices, when the goal queue is not empty and the goal lookahead
of every vertex with an arc to itself is current. -/
theorem expand_goal_conn_of_fresh {g : Graph} (hn : g.DistinctIdx) {s : inc_bi}
    (hI : ConnInv g s)
    (hsf : ∀ e ∈ g.arcs, e.src = e.tgt →
      fresh_at g s.weight s.v_goal s.goal_distance s.goal_distance_lookahead e.src)
    (hne : s.goal_queue.size ≠ 0) :
    ∃ s1, expand_goal s = some s1 ∧ ConnInv g s1 := by
  obtain ⟨u, q, hu, hq⟩ := HeapIndexed.remove_min_isSome (fun k : Weight => k)
    (fun _ _ => rfl) hne
  obtain ⟨e, he, hrem⟩ := HeapIndexed.remove_min_eq_some hq
  have hue : e.1 = u := by
    simp only [HeapIndexed.top_idx, he, Option.map_some', Option.some.injEq] at hu
    exact hu
  rw [hue] at hrem
  have hqc : s.goal_queue.contains u = true := by
    rw [← hue]
    exact HeapIndexed.top_contains he
  have hqu : q.contains u = false := by simp [HeapIndexed.contains_remove hrem]
  have hg := hI.1
  have hsrc : ∀ x ∈ s.conn_queue.entries, ∃ a ∈ g.arcs, a.idx = x.1 ∧ s.ConnOk a ∧
      a.tgt ≠ u := by
    intro x hx
    obtain ⟨a, ha, hidx, hok⟩ := hI.2 x hx
    refine ⟨a, ha, hidx, hok, ?_⟩
    intro heq
    have := hok.goal_absent
    rw [heq, hqc] at this
    exact absurd this (by simp)
  unfold expand_goal
  simp only [hu, hq, Option.some_bind]
  split
  · next hcond =>
    have hru : s.goal_distance_lookahead u ≠ Weight.inf := Weight.lt_ne_inf hcond
    have hI2 : ConnInv g
        { s with goal_queue := q,
                 goal_distance :=
                   Function.update s.goal_distance u (s.goal_distance_lookahead u) } := by
      refine ⟨hg, ?_⟩
      intro x hx
      obtain ⟨a, ha, hidx, hok, hau⟩ := hsrc x hx
      refine ⟨a, ha, hidx, ?_⟩
      exact
        { goal_absent := by
            show q.contains a.tgt = false
            simp [HeapIndexed.contains_remove hrem, hok.goal_absent]
          goal_finite := by
            show Function.update s.goal_distance u _ a.tgt ≠ Weight.inf
            rw [Function.update_noteq hau]
            exact hok.goal_finite
          start_absent := hok.start_absent
          start_finite := hok.start_finite }
    have hself : (∃ a ∈ g.arcs, a.tgt = u ∧ a.src = u) →
        s.goal_distance_lookahead u =
          (goal_recompute
            { s with goal_queue := q,
                     goal_distance :=
                       Function.update s.goal_distance u (s.goal_distance_lookahead u) }
            u).goal_distance_lookahead u := by
      rintro ⟨a, ha, has, hat⟩
      rw [goal_recompute_lookahead]
      dsimp only
      by_cases hvs : u = s.v_goal
      · rw [if_pos hvs]
      · rw [if_neg hvs, hg]
        have hf : s.goal_distance_lookahead u =
            lookahead_of g s.weight s.goal_distance u := by
          rcases hsf a ha (hat.trans has.symm) with h1 | h1
          · exact absurd (hat ▸ h1) hvs
          · rw [hat] at h1
            exact h1
        have hlt : lookahead_of g s.weight s.goal_distance u < s.goal_distance u := by
          rw [← hf]
          exact hcond
        rw [hf]
        exact (lookahead_of_lowered s.weight hlt).symm
    obtain ⟨s1, h1, hP⟩ := foldlM_total_list
      (fun l t => ConnInv g t ∧ t.goal_queue.contains u = false ∧
        t.goal_distance u = s.goal_distance_lookahead u ∧
        ((∃ a ∈ g.arcs, a.tgt = u ∧ a.src = u) →
          t.goal_distance u = (goal_recompute t u).goal_distance_lookahead u) ∧
        (∀ a ∈ l, a ∈ g.arcs ∧ a.tgt = u) ∧ (l.map Arc.idx).Nodup ∧
        ∀ a ∈ l, t.conn_queue.contains a.idx = false)
      (goal_lower_step (s.goal_distance_lookahead u))
      (by
        rintro a l t ⟨hIt, hqt, hdt, hst, hlt, hnd, hab⟩
        obtain ⟨ha, hau⟩ := hlt a (List.mem_cons_self _ _)
        simp only [List.map_cons, List.nodup_cons, List.mem_map, not_exists, not_and] at hnd
        obtain ⟨t1, ht1, hI1, hq1, hd1, hj1⟩ := goal_lower_step_conn hn hIt hqt hdt ha hau
          (fun hat => hst ⟨a, ha, hau, hat⟩) (hab a (List.mem_cons_self _ _))
        obtain ⟨hf1, hd2⟩ := goal_lower_step_frame ht1
        refine ⟨t1, ht1, hI1, hq1, hd1, ?_, fun b hb => hlt b (List.mem_cons_of_mem _ hb),
          hnd.2, ?_⟩
        · intro hex
          rw [goal_recompute_lookahead_frame hf1 hd2, hd2]
          exact hst hex
        intro b hb
        obtain ⟨hba, hbu⟩ := hlt b (List.mem_cons_of_mem _ hb)
        cases hc : t1.conn_queue.contains b.idx with
        | false => rfl
        | true =>
          rcases hj1 _ hc with h3 | h3 | ⟨hne1, a1, ha1, hs1, hi1⟩
          · rw [hab b (List.mem_cons_of_mem _ hb)] at h3
            exact absurd h3 (by simp)
          · exact absurd h3 (hnd.1 b hb)
          · have : a1 = b := idx_inj_distinct hn ha1 hba hi1
            subst this
            exact absurd (hs1.symm.trans hbu) hne1)
      (in_edges u s.g) _
      ⟨hI2, hqu, by simp, by
        intro hex
        show Function.update s.goal_distance u (s.goal_distance_lookahead u) u = _
        rw [Function.update_same]
        exact hself hex, by
        intro a ha
        rw [hg] at ha
        exact mem_in_edges.mp ha, by
        rw [hg]
        exact in_edges_nodup hn u, by
        intro a ha
        rw [hg] at ha
        obtain ⟨haa, has⟩ := mem_in_edges.mp ha
        exact conn_absent_of_goal_queued hn hI haa (by rw [has]; exact hqc)⟩
    exact ⟨s1, h1, hP.1⟩
  · have hI2 : ConnInv g
        { s with goal_queue := q,
                 goal_distance := Function.update s.goal_distance u Weight.inf } := by
      refine ⟨hg, ?_⟩
      intro x hx
      obtain ⟨a, ha, hidx, hok, hau⟩ := hsrc x hx
      refine ⟨a, ha, hidx, ?_⟩
      exact
        { goal_absent := by
            show q.contains a.tgt = false
            simp [HeapIndexed.contains_remove hrem, hok.goal_absent]
          goal_finite := by
            show Function.update s.goal_distance u _ a.tgt ≠ Weight.inf
            rw [Function.update_noteq hau]
            exact hok.goal_finite
          start_absent := hok.start_absent
          start_finite := hok.start_finite }
    obtain ⟨s3, h3, hI3, -⟩ := goal_update_vertex_conn hn hI2 u
    obtain ⟨s1, h1, hP⟩ := foldlM_total_list (fun (_ : List Arc) t => ConnInv g t)
      (fun (st : inc_bi) (a : Arc) => goal_update_vertex st a.tgt)
      (by
        intro a l t hIt
        obtain ⟨t1, ht1, hI1, -⟩ := goal_update_vertex_conn hn hIt a.tgt
        exact ⟨t1, ht1, hI1⟩)
      (out_edges u s3.g) s3 hI3
    refine ⟨s1, ?_, hP⟩
    simp only [h3, Option.some_bind]
    exact h1

/-- An expansion on the goal side returns and keeps the connection queue in order, on a
graph with distinct edge indices and no self-loop, when the goal queue is not empty. -/
theorem expand_goal_conn {g : Graph} (hn : g.DistinctIdx) (hl : g.NoSelfLoop) {s : inc_bi}
    (hI : ConnInv g s) (hne : s.goal_queue.size ≠ 0) :
    ∃ s1, expand_goal s = some s1 ∧ ConnInv g s1 :=
  expand_goal_conn_of_fresh hn hI (fun e he h => absurd h (hl e he)) hne

end inc_bi

namespace inc_bi

/-- The method `update_edge` returns on an arc of the graph and keeps the connection
queue in order. -/
theorem update_edge_conn {g : Graph} {s : inc_bi} (hI : ConnInv g s) {e : Arc}
    (he : e ∈ g.arcs) : ∃ s1, update_edge s e = some s1 ∧ ConnInv g s1 := by
  have build : ∀ cq : HeapIndexed conn_key,
      (∀ x ∈ cq.entries, x ∈ s.conn_queue.entries ∨
        (edge_is_valid s e = true ∧ x.1 = e.idx)) →
      ConnInv g { s with conn_queue := cq } := by
    intro cq hsub
    refine ⟨hI.1, ?_⟩
    intro x hx
    rcases hsub x hx with h1 | ⟨hv, h1⟩
    · obtain ⟨a, ha, hidx, hok⟩ := hI.2 x h1
      exact ⟨a, ha, hidx,
        { start_absent := hok.start_absent, start_finite := hok.start_finite,
          goal_absent := hok.goal_absent, goal_finite := hok.goal_finite }⟩
    · obtain ⟨-, h2, h3, h4, h5⟩ := (edge_is_valid_iff s e).mp hv
      exact ⟨e, he, h1.symm,
        { start_absent := h2, start_finite := h4, goal_absent := h3, goal_finite := h5 }⟩
  unfold update_edge
  dsimp only
  by_cases hv : edge_is_valid s e = true
  · simp only [hv, Bool.not_true, Bool.false_eq_true, if_false]
    by_cases hc : s.conn_queue.contains e.idx = true
    · obtain ⟨q, hq⟩ := HeapIndexed.update_isSome
        (conn_key.mk (Weight.combine (Weight.combine (s.start_distance e.src) (s.weight e))
          (s.goal_distance e.tgt)) (s.start_distance e.src) (s.goal_distance e.tgt)) hc
      refine ⟨{ s with conn_queue := q }, by simp [hc, hq], build q ?_⟩
      intro x hx
      rcases HeapIndexed.mem_entries_update hq x hx with ⟨h1, -⟩ | h1
      · exact Or.inl h1
      · exact Or.inr ⟨hv, by rw [h1]⟩
    · have hc2 : s.conn_queue.contains e.idx = false := by simpa using hc
      obtain ⟨q, hq⟩ := HeapIndexed.insert_isSome
        (conn_key.mk (Weight.combine (Weight.combine (s.start_distance e.src) (s.weight e))
          (s.goal_distance e.tgt)) (s.start_distance e.src) (s.goal_distance e.tgt)) hc2
      refine ⟨{ s with conn_queue := q }, by simp [hc2, hq], build q ?_⟩
      intro x hx
      rcases (HeapIndexed.mem_entries_insert hq x).mp hx with h1 | h1
      · exact Or.inl h1
      · exact Or.inr ⟨hv, by rw [h1]⟩
  · have hv2 : edge_is_valid s e = false := by simpa using hv
    simp only [hv2, Bool.not_false, if_true]
    by_cases hc : s.conn_queue.contains e.idx = true
    · obtain ⟨q, hq⟩ := HeapIndexed.remove_isSome hc
      refine ⟨{ s with conn_queue := q }, by simp [hc, hq], build q ?_⟩
      intro x hx
      exact Or.inl ((HeapIndexed.mem_entries_remove hq x).mp hx).1
    · simp only [hc, Bool.false_eq_true, if_false]
      exact ⟨s, rfl, hI⟩

theorem expand_start_nonempty {s s1 : inc_bi} (h : expand_start s = some s1) :
    s.start_queue.size ≠ 0 := by
  unfold expand_start at h
  obtain ⟨u, hu, -⟩ := Option.bind_eq_some.mp h
  simp only [HeapIndexed.top_idx, Option.map_eq_some'] at hu
  obtain ⟨e, he, -⟩ := hu
  have := HeapIndexed.top_mem he
  intro h0
  have hnil : s.start_queue.entries = [] := List.length_eq_zero.mp h0
  rw [hnil] at this
  simp at this

theorem expand_goal_nonempty {s s1 : inc_bi} (h : expand_goal s = some s1) :
    s.goal_queue.size ≠ 0 := by
  unfold expand_goal at h
  obtain ⟨u, hu, -⟩ := Option.bind_eq_some.mp h
  simp only [HeapIndexed.top_idx, Option.map_eq_some'] at hu
  obtain ⟨e, he, -⟩ := hu
  have := HeapIndexed.top_mem he
  intro h0
  have hnil : s.goal_queue.entries = [] := List.length_eq_zero.mp h0
  rw [hnil] at this
  simp at this

/-- An iteration of `compute_shortest_path` stays within the queue contracts and keeps
the connection queue in order. -/
theorem iteration_conn_of_fresh {g : Graph} (hn : g.DistinctIdx) {s : inc_bi}
    (hI : ConnInv g s)
    (hsf : ∀ e ∈ g.arcs, e.src = e.tgt →
      fresh_at g s.weight s.v_start s.start_distance s.start_distance_lookahead e.src ∧
      fresh_at g s.weight s.v_goal s.goal_distance s.goal_distance_lookahead e.src) :
    (∃ r, iteration s = some (Iter.ret r)) ∨
      ∃ s1, iteration s = some (Iter.next s1) ∧ ConnInv g s1 := by
  obtain ⟨st, hst⟩ := start_top_isSome s
  obtain ⟨gt, hgt⟩ := goal_top_isSome s
  obtain ⟨t, ht⟩ := termination_test_isSome s st gt
  by_cases hinf : st = Weight.inf ∧ gt = Weight.inf
  · left
    refine ⟨(0, false), ?_⟩
    unfold iteration
    simp only [hst, hgt, Option.some_bind, hinf, and_self, if_true]
  · cases t with
    | some i =>
      left
      refine ⟨(i, true), ?_⟩
      unfold iteration
      simp only [hst, hgt, Option.some_bind, hinf, if_false, ht]
    | none =>
      right
      have hit : iteration s =
          if Weight.lt st gt then (expand_start s).map Iter.next
          else (expand_goal s).map Iter.next := by
        unfold iteration
        simp only [hst, hgt, Option.some_bind, hinf, if_false, ht]
      rw [hit]
      by_cases hlt : Weight.lt st gt = true
      · have hne := start_queue_nonempty hst (Weight.lt_ne_inf hlt)
        obtain ⟨s1, he, hI1⟩ := expand_start_conn_of_fresh hn hI (fun e he h => (hsf e he h).1) hne
        exact ⟨s1, by simp [hlt, he], hI1⟩
      · have hgne : gt ≠ Weight.inf := by
          intro hg1
          apply hinf
          refine ⟨?_, hg1⟩
          by_contra hs
          rw [hg1, Weight.lt_inf_of_ne hs] at hlt
          exact hlt rfl
        have hne := goal_queue_nonempty hgt hgne
        obtain ⟨s1, he, hI1⟩ := expand_goal_conn_of_fresh hn hI (fun e he h => (hsf e he h).2) hne
        exact ⟨s1, by simp [hlt, he], hI1⟩

theorem iteration_conn {g : Graph} (hn : g.DistinctIdx) (hl : g.NoSelfLoop) {s : inc_bi}
    (hI : ConnInv g s) :
    (∃ r, iteration s = some (Iter.ret r)) ∨
      ∃ s1, iteration s = some (Iter.next s1) ∧ ConnInv g s1 :=
  iteration_conn_of_fresh hn hI (fun e he h => absurd h (hl e he))

/-- A run of `compute_shortest_path` never leaves a queue contract. -/
theorem run_conn_no_fault {g : Graph} (hn : g.DistinctIdx) (hl : g.NoSelfLoop) :
    ∀ (fuel : Nat) (s : inc_bi), ConnInv g s →
      (compute_shortest_path fuel s).faulted = false := by
  intro fuel
  induction fuel with
  | zero =>
    intro s _
    rfl
  | succ n ih =>
    intro s hI
    unfold compute_shortest_path
    rcases iteration_conn hn hl hI with ⟨r, hr⟩ | ⟨s1, h1, hI1⟩
    · rw [hr]
      rfl
    · rw [h1]
      exact ih s1 hI1

theorem run_conn_inv {g : Graph} (hn : g.DistinctIdx) (hl : g.NoSelfLoop) {fuel : Nat}
    {s s1 : inc_bi} {r : Nat × Bool} (hI : ConnInv g s)
    (h : compute_shortest_path fuel s = Run.done (r, s1)) : ConnInv g s1 :=
  compute_shortest_path_inv (fun t => ConnInv g t)
    (fun t t1 hP he => by
      obtain ⟨t2, h2, hI2⟩ := expand_start_conn hn hl hP (expand_start_nonempty he)
      rw [he] at h2
      exact (Option.some.inj h2) ▸ hI2)
    (fun t t1 hP he => by
      obtain ⟨t2, h2, hI2⟩ := expand_goal_conn hn hl hP (expand_goal_nonempty he)
      rw [he] at h2
      exact (Option.some.inj h2) ▸ hI2) fuel s r s1 hI h

theorem reachableOn_conn {g : Graph} (hn : g.DistinctIdx) (hl : g.NoSelfLoop) {s : inc_bi}
    (hs : ReachableOn g s) : ConnInv g s := by
  induction hs with
  | construct vs vg sp sd sl gp gd gl w m t1 t2 t3 s h =>
    obtain ⟨h1, -, -, -, -, -, -, -, -, -, -, -, -, h14⟩ := construct_spec h
    refine ⟨h1, ?_⟩
    intro x hx
    rw [h14] at hx
    simp at hx
  | set_weight s w _ ih =>
    refine ⟨ih.1, ?_⟩
    intro x hx
    obtain ⟨a, ha, hidx, hok⟩ := ih.2 x hx
    exact ⟨a, ha, hidx,
      { start_absent := hok.start_absent, start_finite := hok.start_finite,
        goal_absent := hok.goal_absent, goal_finite := hok.goal_finite }⟩
  | update_edge s s1 e he _ h ih =>
    obtain ⟨s2, h2, hI2⟩ := update_edge_conn ih he
    rw [h] at h2
    exact (Option.some.inj h2) ▸ hI2
  | start_update_vertex s s1 u _ h ih =>
    obtain ⟨s2, h2, hI2, -⟩ := start_update_vertex_conn hn ih u
    rw [h] at h2
    exact (Option.some.inj h2) ▸ hI2
  | goal_update_vertex s s1 u _ h ih =>
    obtain ⟨s2, h2, hI2, -⟩ := goal_update_vertex_conn hn ih u
    rw [h] at h2
    exact (Option.some.inj h2) ▸ hI2
  | compute_shortest_path s s1 fuel r _ h ih => exact run_conn_inv hn hl ih h

end inc_bi

/-- C30 (counterexample): on the graph without self-loops whose two arcs 0 -> 1 and 1 -> 0
share the edge index 0, a fresh engine searching from 0 to 1 returns the index 0 as found;
in the state it leaves, the index 0 is in the connection queue, and the arc 1 -> 0 of that
index has its source 1 in the start queue at the start distance `inf` and its target 0 in
the goal queue at the goal distance `inf`. -/
theorem C30_counterexample :
    shared_index.NoSelfLoop ∧
    ∃ s0 s1, inc_bi.fresh shared_index 0 1 (fun _ => Weight.fin 1) Weight.zero = some s0 ∧
      inc_bi.compute_shortest_path 10 s0 = Run.done ((0, true), s1) ∧
      inc_bi.ReachableOn shared_index s1 ∧
      (⟨1, 0, 0⟩ : Arc) ∈ shared_index.arcs ∧ s1.conn_queue.contains 0 = true ∧
      s1.start_queue.contains 1 = true ∧ s1.start_distance 1 = Weight.inf ∧
      s1.goal_queue.contains 0 = true ∧ s1.goal_distance 0 = Weight.inf := by
  refine ⟨by decide, ?_⟩
  have hd : ((inc_bi.fresh shared_index 0 1 (fun _ => Weight.fin 1) Weight.zero).bind
      (fun s => (inc_bi.compute_shortest_path 10 s).result)).map
      (fun x => (x.1, x.2.conn_queue.contains 0, x.2.start_queue.contains 1,
        x.2.start_distance 1, x.2.goal_queue.contains 0, x.2.goal_distance 0))
      = some ((0, true), true, true, Weight.inf, true, Weight.inf) := by decide
  obtain ⟨x, hx, hval⟩ := Option.map_eq_some'.mp hd
  obtain ⟨s0, hs0, hrun⟩ := Option.bind_eq_some.mp hx
  simp only [Prod.mk.injEq] at hval
  obtain ⟨h1, h2, h3, h4, h5, h6⟩ := hval
  have hr : inc_bi.compute_shortest_path 10 s0 = Run.done ((0, true), x.2) := by
    rw [← h1]
    exact run_result_eq_some hrun
  exact ⟨s0, x.2, hs0, hr,
    inc_bi.ReachableOn.compute_shortest_path s0 x.2 10 (0, true)
      (inc_bi.ReachableOn.construct _ _ _ _ _ _ _ _ _ _ _ _ _ s0 hs0) hr,
    by decide, h2, h3, h4, h5, h6⟩

/-- C30 (amended): on a graph with pairwise distinct edge indices and no self-loop, in
every state reached from construction through `update_edge` (on arcs of the graph),
`start_update_vertex`, `goal_update_vertex` and `compute_shortest_path`, also when the
caller changes weights between the calls, every entry of the connection queue is the
index of an arc `(a, b)` of the graph with `a` absent from the start queue,
`start_distance(a) != inf`, `b` absent from the goal queue and `goal_distance(b) != inf`. -/
theorem C30_conn_queue_arcs_settled (g : Graph) (s : inc_bi) (hn : g.DistinctIdx)
    (hl : g.NoSelfLoop) (hs : inc_bi.ReachableOn g s) :
    ∀ x ∈ s.conn_queue.entries, ∃ e ∈ g.arcs, e.idx = x.1 ∧
      s.start_queue.contains e.src = false ∧ s.start_distance e.src ≠ Weight.inf ∧
      s.goal_queue.contains e.tgt = false ∧ s.goal_distance e.tgt ≠ Weight.inf := by
  intro x hx
  obtain ⟨e, he, hidx, hok⟩ := (inc_bi.reachableOn_conn hn hl hs).2 x hx
  exact ⟨e, he, hidx, hok.start_absent, hok.start_finite, hok.goal_absent, hok.goal_finite⟩

theorem C30_conn_queue_arcs_settled_witness :
    ∃ s0 x, inc_bi.fresh cycle4 0 2 cycle4_weight Weight.zero = some s0 ∧
      inc_bi.compute_shortest_path 10 s0 = Run.done x ∧
      x.2.conn_queue.entries.map Prod.fst = [0] ∧
      ∀ y ∈ x.2.conn_queue.entries, ∃ e ∈ cycle4.arcs, e.idx = y.1 ∧
        x.2.start_queue.contains e.src = false ∧ x.2.start_distance e.src ≠ Weight.inf ∧
        x.2.goal_queue.contains e.tgt = false ∧ x.2.goal_distance e.tgt ≠ Weight.inf := by
  have hd : ((inc_bi.fresh cycle4 0 2 cycle4_weight Weight.zero).bind
      (fun s => (inc_bi.compute_shortest_path 10 s).result)).map
      (fun x => x.2.conn_queue.entries.map Prod.fst) = some [0] := by decide
  obtain ⟨x, hx, hval⟩ := Option.map_eq_some'.mp hd
  obtain ⟨s0, hs0, hrun⟩ := Option.bind_eq_some.mp hx
  have hr : inc_bi.compute_shortest_path 10 s0 = Run.done (x.1, x.2) :=
    run_result_eq_some hrun
  exact ⟨s0, x, hs0, hr, hval,
    C30_conn_queue_arcs_settled cycle4 x.2 (by decide) (by decide)
      (inc_bi.ReachableOn.compute_shortest_path s0 x.2 10 x.1
        (inc_bi.ReachableOn.construct _ _ _ _ _ _ _ _ _ _ _ _ _ s0 hs0) hr)⟩

/-- C21: on a graph with pairwise distinct edge indices and no self-loop, in every state
reached from construction through `update_edge` (on arcs of the graph),
`start_update_vertex`, `goal_update_vertex` and `compute_shortest_path`, also when the
caller changes weights between the calls, every call of `update_edge` on an arc of the
graph, of `start_update_vertex` and of `goal_update_vertex` returns without leaving a
queue contract, and no run of `compute_shortest_path` leaves one: every insert into the
connection queue meets an absent index, and every insert, update and remove on the start
queue and the goal queue meets its presence precondition. -/
theorem C21_queue_operations_within_contract (g : Graph) (s : inc_bi) (hn : g.DistinctIdx)
    (hl : g.NoSelfLoop) (hs : inc_bi.ReachableOn g s) :
    (∀ e ∈ g.arcs, ∃ s1, inc_bi.update_edge s e = some s1) ∧
      (∀ u, ∃ s1, inc_bi.start_update_vertex s u = some s1) ∧
      (∀ u, ∃ s1, inc_bi.goal_update_vertex s u = some s1) ∧
      ∀ fuel, (inc_bi.compute_shortest_path fuel s).faulted = false := by
  have hI := inc_bi.reachableOn_conn hn hl hs
  refine ⟨?_, ?_, ?_, fun fuel => inc_bi.run_conn_no_fault hn hl fuel s hI⟩
  · intro e he
    obtain ⟨s1, h1, -⟩ := inc_bi.update_edge_conn hI he
    exact ⟨s1, h1⟩
  · intro u
    obtain ⟨s1, h1, -⟩ := inc_bi.start_update_vertex_conn hn hI u
    exact ⟨s1, h1⟩
  · intro u
    obtain ⟨s1, h1, -⟩ := inc_bi.goal_update_vertex_conn hn hI u
    exact ⟨s1, h1⟩

theorem C21_queue_operations_within_contract_witness :
    ∃ s0 x, inc_bi.fresh cycle4 0 2 cycle4_weight Weight.zero = some s0 ∧
      inc_bi.compute_shortest_path 10 s0 = Run.done x ∧
      (∀ e ∈ cycle4.arcs,
        ∃ s1, inc_bi.update_edge { x.2 with weight := cycle4_weight_cut } e = some s1) ∧
      (∀ u, ∃ s1,
        inc_bi.start_update_vertex { x.2 with weight := cycle4_weight_cut } u = some s1) ∧
      (∀ u, ∃ s1,
        inc_bi.goal_update_vertex { x.2 with weight := cycle4_weight_cut } u = some s1) ∧
      ∀ fuel, (inc_bi.compute_shortest_path fuel
        { x.2 with weight := cycle4_weight_cut }).faulted = false := by
  have hd : ((inc_bi.fresh cycle4 0 2 cycle4_weight Weight.zero).bind
      (fun s => (inc_bi.compute_shortest_path 10 s).result)).isSome = true := by decide
  obtain ⟨x, hx⟩ := Option.isSome_iff_exists.mp hd
  obtain ⟨s0, hs0, hrun⟩ := Option.bind_eq_some.mp hx
  have hr : inc_bi.compute_shortest_path 10 s0 = Run.done (x.1, x.2) :=
    run_result_eq_some hrun
  exact ⟨s0, x, hs0, hr,
    C21_queue_operations_within_contract cycle4 { x.2 with weight := cycle4_weight_cut }
      (by decide) (by decide)
      (inc_bi.ReachableOn.set_weight x.2 cycle4_weight_cut
        (inc_bi.ReachableOn.compute_shortest_path s0 x.2 10 x.1
          (inc_bi.ReachableOn.construct _ _ _ _ _ _ _ _ _ _ _ _ _ s0 hs0) hr))⟩

/-! ## The start frontier and the unidirectional engine -/

theorem ofNat_lt (i : Nat) {a b : Nat} (ha : a ≤ i) (hb : b ≤ i) :
    Weight.lt (Weight.ofNat i a) (Weight.ofNat i b) = decide (a < b) := by
  unfold Weight.ofNat
  by_cases h1 : a = i
  · by_cases h2 : b = i
    · simp [h1, h2, Weight.lt]
    · simp only [h1, h2, if_true, if_false, Weight.lt]
      symm
      simp only [decide_eq_false_iff_not]
      omega
  · by_cases h2 : b = i
    · simp only [h1, h2, if_true, if_false, Weight.lt]
      symm
      simp only [decide_eq_true_eq]
      omega
    · simp only [h1, h2, if_false, Weight.lt]

theorem ofNat_inj (i : Nat) {a b : Nat} (h : Weight.ofNat i a = Weight.ofNat i b) : a = b := by
  unfold Weight.ofNat at h
  by_cases h1 : a = i
  · by_cases h2 : b = i
    · rw [h1, h2]
    · simp [h1, h2] at h
  · by_cases h2 : b = i
    · simp [h1, h2] at h
    · simp only [h1, h2, if_false, Weight.fin.injEq] at h
      exact h

theorem ofNat_closed_plus {i a b : Nat} (hi : i < UINT) (ha : a ≤ i) (hb : b ≤ i)
    (hov : a < i → b < i → a + b < i) :
    closed_plus i a b % UINT ≤ i ∧
      Weight.ofNat i (closed_plus i a b % UINT)
        = Weight.combine (Weight.ofNat i a) (Weight.ofNat i b) := by
  unfold closed_plus Weight.ofNat
  by_cases h1 : a = i
  · simp [h1, Nat.mod_eq_of_lt hi, Weight.combine]
  · by_cases h2 : b = i
    · simp [h1, h2, Nat.mod_eq_of_lt hi, Weight.combine]
    · have h3 := hov (by omega) (by omega)
      have h4 : (a + b) % UINT = a + b := Nat.mod_eq_of_lt (by omega)
      have h5 : a + b ≠ i := by omega
      simp only [h1, h2, if_false, h4, h5, Weight.combine]
      exact ⟨by omega, trivial⟩

namespace lifelong_planning_astar

/-- The in-edge loops of the two engines compute the same lookahead and the same
predecessors when no candidate reaches `inf`. -/
theorem rhs_fold_corresponds {t : lifelong_planning_astar} {s : inc_bi}
    (hc : t.Corresponds s) (u : Nat) (l : List Arc)
    (hov : ∀ e ∈ l, t.distance e.src < t.inf → t.weight e < t.inf →
      t.distance e.src + t.weight e < t.inf) :
    ∀ (at1 : Nat × (Nat → Nat)) (as1 : Weight × (Nat → Nat)), at1.1 ≤ t.inf →
      Weight.ofNat t.inf at1.1 = as1.1 → at1.2 = as1.2 →
      (l.foldl (rhs_step t u) at1).1 ≤ t.inf ∧
        Weight.ofNat t.inf (l.foldl (rhs_step t u) at1).1
          = (l.foldl (inc_bi.start_rhs_step s u) as1).1 ∧
        (l.foldl (rhs_step t u) at1).2 = (l.foldl (inc_bi.start_rhs_step s u) as1).2 := by
  induction l with
  | nil =>
    intro at1 as1 h1 h2 h3
    exact ⟨h1, h2, h3⟩
  | cons a l ih =>
    intro at1 as1 h1 h2 h3
    simp only [List.foldl_cons]
    have hval := ofNat_closed_plus hc.inf_lt (hc.distance a.src).1 (hc.weight a).1
      (hov a (List.mem_cons_self _ _))
    have hstep : (rhs_step t u at1 a).1 ≤ t.inf ∧
        Weight.ofNat t.inf (rhs_step t u at1 a).1 = (inc_bi.start_rhs_step s u as1 a).1 ∧
        (rhs_step t u at1 a).2 = (inc_bi.start_rhs_step s u as1 a).2 := by
      unfold rhs_step inc_bi.start_rhs_step
      dsimp only
      have hcmp : Weight.lt (Weight.combine (s.start_distance a.src) (s.weight a)) as1.1
          = decide (t.combine (t.distance a.src) (t.weight a) % UINT < at1.1) := by
        rw [← h2, ← (hc.distance a.src).2, ← (hc.weight a).2, ← hval.2, hc.combine]
        exact ofNat_lt t.inf hval.1 h1
      by_cases hlt : t.combine (t.distance a.src) (t.weight a) % UINT < at1.1
      · rw [if_pos hlt, hcmp]
        simp only [hlt, decide_True, if_true]
        refine ⟨?_, ?_, by rw [h3]⟩
        · rw [hc.combine]
          exact hval.1
        · rw [hc.combine, hval.2, (hc.distance a.src).2, (hc.weight a).2]
      · rw [if_neg hlt, hcmp]
        simp only [hlt, decide_False, Bool.false_eq_true, if_false]
        exact ⟨h1, h2, h3⟩
    exact ih (fun e he => hov e (List.mem_cons_of_mem _ he)) _ _ hstep.1 hstep.2.1 hstep.2.2

end lifelong_planning_astar

theorem inc_bi.start_recompute_fields (s : inc_bi) (u : Nat) :
    (inc_bi.start_recompute s u).g = s.g ∧
      (inc_bi.start_recompute s u).v_start = s.v_start ∧
      (inc_bi.start_recompute s u).weight = s.weight ∧
      (inc_bi.start_recompute s u).start_distance = s.start_distance ∧
      (u = s.v_start →
        (inc_bi.start_recompute s u).start_predecessor = s.start_predecessor ∧
        (inc_bi.start_recompute s u).start_distance_lookahead = s.start_distance_lookahead) ∧
      (u ≠ s.v_start →
        (inc_bi.start_recompute s u).start_predecessor = (inc_bi.start_rhs_loop s u).2 ∧
        (inc_bi.start_recompute s u).start_distance_lookahead
          = Function.update s.start_distance_lookahead u (inc_bi.start_rhs_loop s u).1) := by
  unfold inc_bi.start_recompute
  by_cases hu : u = s.v_start
  · simp [hu]
  · simp [hu]

namespace lifelong_planning_astar

theorem lpa_update_vertex_params {s s1 : lifelong_planning_astar} {u : Nat}
    (h : update_vertex s u = some s1) :
    s1.combine = s.combine ∧ s1.weight = s.weight ∧ s1.h = s.h ∧ s1.v_goal = s.v_goal := by
  unfold update_vertex at h
  simp only [Option.bind_eq_some, Option.map_eq_some'] at h
  obtain ⟨q1, -, q2, -, rfl⟩ := h
  by_cases hu : u = s.v_start
  · simp [hu]
  · simp [hu]

/-- From corresponding states, `update_vertex(u)` of the unidirectional engine and
`start_update_vertex(u)` of `inc_bi` lead to corresponding states, when no candidate of
the in-edge loop reaches `inf`. -/
theorem update_vertex_corresponds {t : lifelong_planning_astar} {s s1 : inc_bi}
    (hc : t.Corresponds s) (u : Nat)
    (hov : ∀ e ∈ in_edges u s.g, t.distance e.src < t.inf → t.weight e < t.inf →
      t.distance e.src + t.weight e < t.inf)
    (hs : inc_bi.start_update_vertex s u = some s1) :
    ∃ t1, update_vertex t u = some t1 ∧ t1.Corresponds s1 := by
  obtain ⟨t1, ht1, hd, hh, hne, heq, hq⟩ := lpa_update_vertex_eq t u
  obtain ⟨f1, f2, f3, -, -, -⟩ := lpa_update_vertex_frame ht1
  obtain ⟨p1, p2, -, -⟩ := lpa_update_vertex_params ht1
  obtain ⟨q, ⟨cq, rfl⟩, hqv, hqu⟩ := inc_bi.start_update_vertex_spec hs
  obtain ⟨r1, r2, r3, r4, r5, r6⟩ := inc_bi.start_recompute_fields s u
  have hmod : t.inf % UINT = t.inf := Nat.mod_eq_of_lt hc.inf_lt
  have hinf : Weight.ofNat t.inf t.inf = Weight.inf := by simp [Weight.ofNat]
  have hfold := rhs_fold_corresponds hc u (in_edges u s.g) hov (t.inf % UINT, t.predecessor)
    (Weight.inf, s.start_predecessor) (by rw [hmod]) (by rw [hmod]; exact hinf)
    hc.predecessor
  have hmaps : (∀ v, t1.distance_lookahead v ≤ t.inf ∧
        Weight.ofNat t.inf (t1.distance_lookahead v)
          = (inc_bi.start_recompute s u).start_distance_lookahead v) ∧
      t1.predecessor = (inc_bi.start_recompute s u).start_predecessor := by
    by_cases hu : u = t.v_start
    · have hus : u = s.v_start := hu.trans hc.v_start
      rw [(heq hu).1, (heq hu).2, (r5 hus).1, (r5 hus).2]
      exact ⟨hc.lookahead, hc.predecessor⟩
    · have hus : u ≠ s.v_start := fun h => hu (h.trans hc.v_start.symm)
      rw [(hne hu).1, (hne hu).2, (r6 hus).1, (r6 hus).2, hc.g]
      refine ⟨?_, hfold.2.2⟩
      intro v
      by_cases hv : v = u
      · subst hv
        rw [Function.update_same, Function.update_same]
        exact ⟨hfold.1, hfold.2.1⟩
      · rw [Function.update_noteq hv, Function.update_noteq hv]
        exact hc.lookahead v
  have hcons : t1.distance u ≠ t1.distance_lookahead u ↔
      s.start_distance u ≠ (inc_bi.start_recompute s u).start_distance_lookahead u := by
    rw [hd, ← (hc.distance u).2, ← (hmaps.1 u).2]
    constructor
    · intro h1 h2
      exact h1 (ofNat_inj t.inf h2)
    · intro h1 h2
      exact h1 (by rw [h2])
  obtain ⟨q2, hq2, hq2u, -, hq2v⟩ := HeapIndexed.remove_insert_spec t.queue u
    (t1.distance u ≠ t1.distance_lookahead u) (calculate_key t1 u)
  have hqq : q2 = t1.queue := Option.some.inj (hq2.symm.trans hq)
  refine ⟨t1, ht1, ?_⟩
  exact
    { g := by
        show t1.g = (inc_bi.start_recompute s u).g
        rw [f1, r1, hc.g]
      v_start := by
        show t1.v_start = (inc_bi.start_recompute s u).v_start
        rw [f2, r2, hc.v_start]
      inf_lt := by
        rw [f3]
        exact hc.inf_lt
      combine := by rw [p1, f3, hc.combine]
      h := by
        intro v
        rw [hh]
        exact hc.h v
      weight := by
        intro e
        show t1.weight e ≤ t1.inf ∧ Weight.ofNat t1.inf (t1.weight e)
          = (inc_bi.start_recompute s u).weight e
        rw [p2, f3, r3]
        exact hc.weight e
      distance := by
        intro v
        show t1.distance v ≤ t1.inf ∧ Weight.ofNat t1.inf (t1.distance v)
          = (inc_bi.start_recompute s u).start_distance v
        rw [hd, f3, r4]
        exact hc.distance v
      lookahead := by
        intro v
        show t1.distance_lookahead v ≤ t1.inf ∧ Weight.ofNat t1.inf (t1.distance_lookahead v)
          = (inc_bi.start_recompute s u).start_distance_lookahead v
        rw [f3]
        exact hmaps.1 v
      predecessor := hmaps.2
      queue := by
        intro v
        show t1.queue.contains v = q.contains v
        rw [← hqq]
        by_cases hv : v = u
        · subst hv
          rw [Bool.eq_iff_iff, hq2u, hqu]
          exact hcons
        · rw [(hq2v v hv).1, hqv v hv]
          exact hc.queue v }

end lifelong_planning_astar

theorem ofNat_min (i : Nat) {a b : Nat} (ha : a ≤ i) (hb : b ≤ i) :
    Weight.ofNat i (Nat.min a b) = Weight.min (Weight.ofNat i a) (Weight.ofNat i b) := by
  unfold Weight.min
  rw [ofNat_lt i hb ha]
  by_cases h : b < a
  · simp only [h, decide_True, if_true]
    rw [show Nat.min a b = b from Nat.min_eq_right (Nat.le_of_lt h)]
  · simp only [h, decide_False, Bool.false_eq_true, if_false]
    rw [show Nat.min a b = a from Nat.min_eq_left (by omega)]

theorem pair_lt_diag (m n : Nat) : pair_lt (m, m) (n, n) = decide (m < n) := by
  unfold pair_lt
  by_cases h : m < n
  · simp [h]
  · simp [h]

namespace lifelong_planning_astar

theorem calculate_key_zero {t : lifelong_planning_astar} {s : inc_bi} (hc : t.Corresponds s)
    (a : Nat) :
    calculate_key t a
        = (Nat.min (t.distance a) (t.distance_lookahead a),
            Nat.min (t.distance a) (t.distance_lookahead a)) ∧
      Nat.min (t.distance a) (t.distance_lookahead a) ≤ t.inf ∧
      Weight.ofNat t.inf (Nat.min (t.distance a) (t.distance_lookahead a))
        = inc_bi.start_calculate_key s a := by
  have h1 := (hc.distance a).1
  have h2 := (hc.lookahead a).1
  have hle : Nat.min (t.distance a) (t.distance_lookahead a) ≤ t.inf :=
    Nat.le_trans (Nat.min_le_left _ _) h1
  have hlt : Nat.min (t.distance a) (t.distance_lookahead a) < UINT :=
    Nat.lt_of_le_of_lt hle hc.inf_lt
  refine ⟨?_, hle, ?_⟩
  · unfold calculate_key
    simp only [hc.h a, Nat.add_zero, Nat.mod_eq_of_lt hlt, Nat.mod_mod]
  · unfold inc_bi.start_calculate_key
    rw [ofNat_min t.inf h1 h2, (hc.distance a).2, (hc.lookahead a).2]

end lifelong_planning_astar

/-- C25: the start frontier of `inc_bi` is the unidirectional engine with the zero
heuristic. From corresponding states (the same graph and start, the same weights,
distances, lookaheads, predecessors and set of queued vertices, with `unsigned int` values
up to `inf` on the side of the unidirectional engine and `combine` the addition closed at
`inf`), whenever `start_update_vertex(u)` returns, `update_vertex(u)` returns and the two
states correspond again, provided no candidate of the in-edge loop of `u` reaches `inf`.
The two key orders agree: the key of `a` is below the key of `b` in one engine exactly
when it is in the other, and `(m + 0, m) < (n + 0, n)` exactly when `m < n`. -/
theorem C25_start_frontier_is_lpa (t : lifelong_planning_astar) (s s1 : inc_bi) (u : Nat)
    (hc : t.Corresponds s)
    (hov : ∀ e ∈ in_edges u s.g, t.distance e.src < t.inf → t.weight e < t.inf →
      t.distance e.src + t.weight e < t.inf)
    (hs : inc_bi.start_update_vertex s u = some s1) :
    (∃ t1, lifelong_planning_astar.update_vertex t u = some t1 ∧ t1.Corresponds s1) ∧
      (∀ a b, pair_lt (lifelong_planning_astar.calculate_key t a)
          (lifelong_planning_astar.calculate_key t b)
        = Weight.lt (inc_bi.start_calculate_key s a) (inc_bi.start_calculate_key s b)) ∧
      ∀ m n, m < UINT → n < UINT →
        pair_lt ((m + 0) % UINT, m) ((n + 0) % UINT, n) = decide (m < n) := by
  refine ⟨lifelong_planning_astar.update_vertex_corresponds hc u hov hs, ?_, ?_⟩
  · intro a b
    obtain ⟨ka, la, wa⟩ := lifelong_planning_astar.calculate_key_zero hc a
    obtain ⟨kb, lb, wb⟩ := lifelong_planning_astar.calculate_key_zero hc b
    rw [ka, kb, pair_lt_diag, ← wa, ← wb, ofNat_lt t.inf la lb]
  · intro m n hm hn
    rw [Nat.add_zero, Nat.add_zero, Nat.mod_eq_of_lt hm, Nat.mod_eq_of_lt hn, pair_lt_diag]

theorem C25_start_frontier_is_lpa_witness :
    ∃ t0 s0 s1, lifelong_planning_astar.fresh cycle4 0 2 cycle4_weight_uint = some t0 ∧
      inc_bi.fresh cycle4 0 2 cycle4_weight Weight.zero = some s0 ∧
      inc_bi.start_update_vertex
        { s0 with start_distance := Function.update s0.start_distance 0 Weight.zero } 1
        = some s1 ∧
      s1.start_distance_lookahead 1 = Weight.fin 1 ∧
      (∃ t1, lifelong_planning_astar.update_vertex
          { t0 with distance := Function.update t0.distance 0 0 } 1 = some t1 ∧
        t1.Corresponds s1) ∧
      (∀ a b, pair_lt
          (lifelong_planning_astar.calculate_key
            { t0 with distance := Function.update t0.distance 0 0 } a)
          (lifelong_planning_astar.calculate_key
            { t0 with distance := Function.update t0.distance 0 0 } b)
        = Weight.lt
          (inc_bi.start_calculate_key
            { s0 with start_distance := Function.update s0.start_distance 0 Weight.zero } a)
          (inc_bi.start_calculate_key
            { s0 with start_distance := Function.update s0.start_distance 0 Weight.zero } b)) ∧
      ∀ m n, m < UINT → n < UINT →
        pair_lt ((m + 0) % UINT, m) ((n + 0) % UINT, n) = decide (m < n) := by
  have hd : ((inc_bi.fresh cycle4 0 2 cycle4_weight Weight.zero).bind fun s0 =>
      inc_bi.start_update_vertex
        { s0 with start_distance := Function.update s0.start_distance 0 Weight.zero } 1).map
      (fun s1 => s1.start_distance_lookahead 1) = some (Weight.fin 1) := by decide
  obtain ⟨s1, hx, hval⟩ := Option.map_eq_some'.mp hd
  obtain ⟨s0, hs0, hs1⟩ := Option.bind_eq_some.mp hx
  obtain ⟨t0, ht0⟩ := lifelong_planning_astar.lpa_construct_isSome cycle4 0 2 (fun _ => 0)
    (fun _ => 0) (fun _ => 0) (fun _ => 0) cycle4_weight_uint (closed_plus (UINT - 1))
    (UINT - 1) 0 (fun _ => 0)
  obtain ⟨a1, a2, -, a4, a5, a6, a7, -, a9, a10, a11, a12⟩ :=
    lifelong_planning_astar.lpa_construct_spec ht0
  obtain ⟨b1, b2, -, b4, -, b6, -, b8, b9, -, -, b12, -, -⟩ := inc_bi.construct_spec hs0
  have hinf : t0.inf < UINT := by
    rw [a7]
    decide
  have hnv : cycle4.nv = 4 := rfl
  have hc : lifelong_planning_astar.Corresponds
      { t0 with distance := Function.update t0.distance 0 0 }
      { s0 with start_distance := Function.update s0.start_distance 0 Weight.zero } :=
    { g := a1.trans b1.symm
      v_start := a2.trans b2.symm
      inf_lt := hinf
      combine := by
        show t0.combine = closed_plus t0.inf
        rw [a6, a7]
      h := by
        intro v
        show t0.h v = 0
        rw [a4]
      weight := by
        intro e
        show t0.weight e ≤ t0.inf ∧ Weight.ofNat t0.inf (t0.weight e) = s0.weight e
        rw [a5, a7, b4]
        unfold cycle4_weight_uint cycle4_weight Weight.ofNat
        by_cases h3 : e.idx / 2 = 3
        · simp only [h3, if_true]
          exact ⟨by decide, by decide⟩
        · simp only [h3, if_false]
          exact ⟨by decide, by decide⟩
      distance := by
        intro v
        show Function.update t0.distance 0 0 v ≤ t0.inf ∧
          Weight.ofNat t0.inf (Function.update t0.distance 0 0 v)
            = Function.update s0.start_distance 0 Weight.zero v
        by_cases hv : v = 0
        · subst hv
          rw [Function.update_same, Function.update_same, a7]
          exact ⟨by decide, by decide⟩
        · rw [Function.update_noteq hv, Function.update_noteq hv, a10 v, b8 v, a7, hnv]
          by_cases h4 : v < 4
          · simp only [h4, if_true, Weight.ofNat]
            exact ⟨Nat.le_refl _, trivial⟩
          · simp only [h4, if_false]
            exact ⟨by decide, by decide⟩
      lookahead := by
        intro v
        show t0.distance_lookahead v ≤ t0.inf ∧
          Weight.ofNat t0.inf (t0.distance_lookahead v) = s0.start_distance_lookahead v
        rw [a11 v, b9 v, a7, hnv]
        by_cases hv : v = 0
        · simp only [hv, if_true]
          exact ⟨by decide, by decide⟩
        · simp only [hv, if_false]
          by_cases h4 : v < 4
          · simp only [h4, if_true, Weight.ofNat]
            exact ⟨Nat.le_refl _, trivial⟩
          · simp only [h4, if_false]
            exact ⟨by decide, by decide⟩
      predecessor := by
        show t0.predecessor = s0.start_predecessor
        rw [a9, b6]
        funext v
        by_cases hv : v = 0
        · simp [hv]
        · simp [Function.update, hv]
      queue := by
        intro v
        show t0.queue.contains v = s0.start_queue.contains v
        rw [a12, b12]
        rfl }
  have hov : ∀ e ∈ in_edges 1
        ({ s0 with start_distance := Function.update s0.start_distance 0 Weight.zero } : inc_bi).g,
      Function.update t0.distance 0 0 e.src < t0.inf → t0.weight e < t0.inf →
        Function.update t0.distance 0 0 e.src + t0.weight e < t0.inf := by
    intro e he h1 _
    have he2 : e ∈ in_edges 1 cycle4 := by
      have : ({ s0 with start_distance :=
          Function.update s0.start_distance 0 Weight.zero } : inc_bi).g = cycle4 := b1
      rw [this] at he
      exact he
    have he3 : e = ⟨0, 1, 0⟩ ∨ e = ⟨2, 1, 3⟩ := by
      simpa [in_edges, cycle4] using he2
    rcases he3 with rfl | rfl
    · rw [Function.update_same, a5, a7]
      decide
    · exfalso
      rw [Function.update_noteq (by decide), a10 2, a7] at h1
      simp [hnv] at h1
  exact ⟨t0, s0, s1, ht0, hs0, hs1, hval,
    C25_start_frontier_is_lpa _ _ s1 1 hc hov hs1⟩

/-! ## The unidirectional engine on a search from scratch -/

namespace lifelong_planning_astar

/-- The constructor of the unidirectional engine sets up a search from scratch: with the
zero heuristic, `combine` the addition closed at `inf`, `zero` the number 0 and a weight
map of values below `inf`, the constructed state is in order, no arc awaiting an update. -/
theorem lpa_construct_inv {g : Graph} {vs vg : Nat} {p d l : Nat → Nat} {w : Arc → Nat}
    {inf : Nat} {tie : Nat → Nat} {t : lifelong_planning_astar} (hg : g.WellFormed)
    (hvs : vs < g.nv) (hvg : vg < g.nv) (hinf : inf < UINT) (hw : ∀ e, w e < inf)
    (hd : ∀ v, g.nv ≤ v → d v ≤ inf) (hl : ∀ v, g.nv ≤ v → l v ≤ inf)
    (h : construct g vs vg (fun _ => 0) p d l w (closed_plus inf) inf 0 tie = some t) :
    LpaInv g w inf vs vg (fun _ => False) t := by
  obtain ⟨a1, a2, -, a4, a5, a6, a7, -, a9, a10, a11, a12⟩ := lpa_construct_spec h
  obtain ⟨s, hs⟩ := inc_bi.construct_isSome g vs vg (Function.update p vs vs)
    (fun v => Weight.ofNat inf (d v)) (fun v => Weight.ofNat inf (l v)) (fun _ => 0)
    (fun _ => Weight.inf) (fun _ => Weight.inf) (fun a => Weight.ofNat inf (w a))
    Weight.zero tie tie tie
  obtain ⟨b1, b2, -, b4, -, b6, -, b8, b9, -, -, b12, -, -⟩ := inc_bi.construct_spec hs
  have hF := inc_bi.construct_fresh hg hvs hvg hs
  have hpos : 0 < inf := Nat.lt_of_le_of_lt (Nat.zero_le _) (hw ⟨0, 0, 0⟩)
  have hii : Weight.ofNat inf inf = Weight.inf := by simp [Weight.ofNat]
  have h00 : Weight.ofNat inf 0 = Weight.zero := by
    simp [Weight.ofNat, Weight.zero, Nat.ne_of_lt hpos]
  refine ⟨a5, a7, s, ?_, inc_bi.freshInv_weaken hF (fun _ h => h) (fun _ h => h)
    (fun _ _ => trivial), ?_⟩
  · refine
      { g := a1.trans b1.symm, v_start := a2.trans b2.symm, inf_lt := by rw [a7]; exact hinf,
        combine := by rw [a6, a7], h := fun v => by rw [a4], weight := ?_, distance := ?_,
        lookahead := ?_, predecessor := by rw [a9, b6], queue := ?_ }
    · intro e
      rw [a5, a7, b4]
      exact ⟨Nat.le_of_lt (hw e), rfl⟩
    · intro v
      rw [a10 v, b8 v, a7]
      by_cases hv : v < g.nv
      · simp only [hv, if_true]
        exact ⟨Nat.le_refl _, hii⟩
      · simp only [hv, if_false]
        exact ⟨hd v (by omega), trivial⟩
    · intro v
      rw [a11 v, b9 v, a7]
      by_cases hv : v = vs
      · simp only [hv, if_true]
        exact ⟨Nat.zero_le _, h00⟩
      · simp only [hv, if_false]
        by_cases hv1 : v < g.nv
        · simp only [hv1, if_true]
          exact ⟨Nat.le_refl _, hii⟩
        · simp only [hv1, if_false]
          exact ⟨hl v (by omega), trivial⟩
    · intro v
      rw [a12, b12]
      simp [HeapIndexed.contains]
  · intro x hx
    rw [a12] at hx
    simp only [List.mem_singleton] at hx
    subst hx
    unfold calculate_key
    have e1 : t.distance vs = inf := by
      rw [a10 vs]
      simp [hvs]
    have e2 : t.distance_lookahead vs = 0 := by
      rw [a11 vs]
      simp
    simp only [e1, e2, a4, Nat.min_def]
    simp [Nat.ne_of_gt hpos, Nat.not_le.mpr hpos]

/-- The method `update_vertex` keeps a search from scratch in order when no candidate
overflows: the arcs into the updated vertex no longer await their update, and the
distances stay. -/
theorem lpa_update_vertex_inv {g : Graph} {w : Arc → Nat} {inf vs vg : Nat}
    (hg : g.WellFormed) (hno : NoOverflow g w vs inf) {pend : Arc → Prop}
    {t t1 : lifelong_planning_astar} (hI : LpaInv g w inf vs vg pend t) {v0 : Nat}
    (hv0 : v0 < g.nv) (h : update_vertex t v0 = some t1) :
    LpaInv g w inf vs vg (fun e => pend e ∧ e.tgt ≠ v0) t1 ∧ t1.distance = t.distance := by
  obtain ⟨hw, hinf, s, hc, hF, hk⟩ := hI
  have hq : s.start_queue.contains v0 = true → s.start_distance v0 = Weight.inf := by
    intro hcont
    obtain ⟨k, hm⟩ := (HeapIndexed.contains_iff _ v0).mp hcont
    exact (hF.start.queue_key v0 k hm).2.2
  obtain ⟨s1, hs1, -⟩ := inc_bi.start_update_vertex_isSome hq
  have hov : ∀ e ∈ in_edges v0 s.g, t.distance e.src < t.inf → t.weight e < t.inf →
      t.distance e.src + t.weight e < t.inf := by
    intro e he hd _
    rw [hF.g_eq] at he
    have hea := (mem_in_edges.mp he).1
    have hsrc := (hg.1 e hea).1
    have h1 := (hc.distance e.src).2
    have h2 : Weight.ofNat t.inf (t.distance e.src) = Weight.fin (t.distance e.src) := by
      unfold Weight.ofNat
      simp [Nat.ne_of_lt hd]
    have h3 : s.start_distance e.src ≠ Weight.inf := by
      rw [← h1, h2]
      simp
    have h4 := hF.start.settled e.src hsrc h3
    rw [← h1, h2] at h4
    rw [hw, hinf]
    exact hno e hea _ h4
  obtain ⟨t2, ht2, hc1⟩ := update_vertex_corresponds hc v0 hov hs1
  rw [h] at ht2
  cases ht2
  obtain ⟨hF1, -⟩ := inc_bi.start_update_vertex_fresh hg hF hv0 hs1
  obtain ⟨t3, ht3, hd3, hh3, hne, heq, hq3⟩ := lpa_update_vertex_eq t v0
  rw [h] at ht3
  cases ht3
  obtain ⟨-, -, f3, -, -, -⟩ := lpa_update_vertex_frame h
  obtain ⟨-, p2, -, -⟩ := lpa_update_vertex_params h
  have hkey : ∀ x, x ≠ v0 → calculate_key t1 x = calculate_key t x := by
    intro x hx
    unfold calculate_key
    rw [hd3, hh3]
    by_cases hu : v0 = t.v_start
    · rw [(heq hu).2]
    · rw [(hne hu).2, Function.update_noteq hx]
  refine ⟨⟨p2.trans hw, f3.trans hinf, s1, hc1, hF1, ?_⟩, hd3⟩
  obtain ⟨q1, hq1, hq4⟩ := Option.bind_eq_some.mp hq3
  have hq1e : ∀ x ∈ q1.entries, x ∈ t.queue.entries ∧ x.1 ≠ v0 := by
    intro x hx
    by_cases hcont : t.queue.contains v0 = true
    · simp only [hcont, if_true] at hq1
      exact (HeapIndexed.mem_entries_remove hq1 x).mp hx
    · simp only [hcont, Bool.false_eq_true, if_false, Option.some.injEq] at hq1
      subst hq1
      refine ⟨hx, fun hxv => hcont ?_⟩
      exact (HeapIndexed.contains_iff _ v0).mpr ⟨x.2, by rw [← hxv]; exact hx⟩
  intro x hx
  have hold : x ∈ q1.entries → x.2 = calculate_key t1 x.1 := by
    intro hx1
    obtain ⟨hx2, hx3⟩ := hq1e x hx1
    rw [hkey x.1 hx3]
    exact hk x hx2
  by_cases hcons : t1.distance v0 ≠ t1.distance_lookahead v0
  · simp only [hcons, ne_eq, not_false_eq_true, if_true] at hq4
    rcases (HeapIndexed.mem_entries_insert hq4 x).mp hx with hx1 | hx1
    · exact hold hx1
    · rw [hx1]
  · simp only [hcons, if_false, Option.some.injEq] at hq4
    rw [← hq4] at hx
    exact hold hx

end lifelong_planning_astar

namespace lifelong_planning_astar

theorem lpaInv_weaken {g : Graph} {w : Arc → Nat} {inf vs vg : Nat} {p p2 : Arc → Prop}
    {t : lifelong_planning_astar} (hI : LpaInv g w inf vs vg p t) (hp : ∀ e, p e → p2 e) :
    LpaInv g w inf vs vg p2 t := by
  obtain ⟨hw, hinf, s, hc, hF, hk⟩ := hI
  exact ⟨hw, hinf, s, hc, inc_bi.freshInv_weaken hF hp (fun _ h => h) (fun _ h => h), hk⟩

/-- One pass of the loop of `compute_shortest_path` keeps a search from scratch in order
when no candidate overflows: the vertex at the top of the queue is settled at its
shortest distance and the vertices after it are updated. -/
theorem lpa_expand_inv {g : Graph} {w : Arc → Nat} {inf vs vg : Nat} (hg : g.WellFormed)
    (hvs : vs < g.nv) (hno : NoOverflow g w vs inf) {t t1 : lifelong_planning_astar}
    (hI : LpaInv g w inf vs vg (fun _ => False) t) (h : expand t = some t1) :
    LpaInv g w inf vs vg (fun _ => False) t1 := by
  obtain ⟨hw, hinf, s, hc, hF, hk⟩ := hI
  unfold expand at h
  simp only [Option.bind_eq_some] at h
  obtain ⟨u, hu, q, hq, h⟩ := h
  obtain ⟨e, he, hrem⟩ := HeapIndexed.remove_min_eq_some hq
  have hue : e.1 = u := by
    simp only [HeapIndexed.top_idx, he, Option.map_some', Option.some.injEq] at hu
    exact hu
  have hmemt : e ∈ t.queue.entries := HeapIndexed.top_mem he
  rw [hue] at hrem
  have hcu : s.start_queue.contains u = true := by
    rw [← hc.queue u, ← hue]
    exact HeapIndexed.top_contains he
  obtain ⟨k, hmem⟩ := (HeapIndexed.contains_iff _ u).mp hcu
  obtain ⟨qs, hrems⟩ := HeapIndexed.remove_isSome hcu
  have hkeyw : ∀ v k1, (v, k1) ∈ s.start_queue.entries →
      k1 = inc_bi.start_calculate_key s v := by
    intro v k1 hm
    obtain ⟨-, h1, h2⟩ := hF.start.queue_key v k1 hm
    unfold inc_bi.start_calculate_key
    rw [h2, h1]
    exact (Weight.min_eq_right_of_inf _).symm
  have hmin : ∀ v k1, (v, k1) ∈ s.start_queue.entries → Weight.le k k1 = true := by
    intro v k1 hm
    have hv : t.queue.contains v = true := by
      rw [hc.queue v]
      exact (HeapIndexed.contains_iff _ v).mpr ⟨k1, hm⟩
    obtain ⟨kv, hkv⟩ := (HeapIndexed.contains_iff _ v).mp hv
    have h1 := inc_bi.top_minimal he (v, kv) hkv
    have h2 := hk _ hkv
    have h3 := hk _ hmemt
    simp only at h1 h2
    rw [h2, h3, hue] at h1
    obtain ⟨c1, c2, c3⟩ := calculate_key_zero hc v
    obtain ⟨d1, d2, d3⟩ := calculate_key_zero hc u
    rw [c1, d1, pair_lt_diag] at h1
    rw [hkeyw v k1 hm, hkeyw u k hmem, ← c3, ← d3]
    unfold Weight.le
    rw [ofNat_lt t.inf c2 d2, h1]
    rfl
  obtain ⟨hunv, hdu, hru, hP0⟩ := inc_bi.start_settle_fresh hg hvs hF hmem hmin hrems
  have hii : Weight.ofNat t.inf t.inf = Weight.inf := by simp [Weight.ofNat]
  have hdu1 : t.distance u = t.inf := by
    apply ofNat_inj t.inf
    rw [(hc.distance u).2, hdu, hii]
  have hru1 : t.distance_lookahead u < t.inf := by
    have h1 := (hc.lookahead u).1
    have h2 : t.distance_lookahead u ≠ t.inf := by
      intro h3
      apply hru
      rw [← (hc.lookahead u).2, h3, hii]
    omega
  have hcond : t.distance u > t.distance_lookahead u := by
    rw [hdu1]
    exact hru1
  simp only [hcond, if_true] at h
  have hP : LpaInv g w inf vs vg (fun e1 => e1.src = u ∧ e1.tgt ∈ (out_edges u t.g).map Arc.tgt)
      { t with queue := q,
               distance := Function.update t.distance u (t.distance_lookahead u) } := by
    refine ⟨hw, hinf, _, ?_,
      inc_bi.freshInv_weaken hP0 (fun _ h => ?_) (fun _ h => h) (fun _ _ => trivial), ?_⟩
    · refine
        { g := hc.g, v_start := hc.v_start, inf_lt := hc.inf_lt, combine := hc.combine,
          h := hc.h, weight := hc.weight, distance := ?_, lookahead := hc.lookahead,
          predecessor := hc.predecessor, queue := ?_ }
      · intro v
        by_cases hv : v = u
        · subst hv
          simp only [Function.update_same]
          exact hc.lookahead v
        · simp only [Function.update_noteq hv]
          exact hc.distance v
      · intro v
        simp only
        rw [HeapIndexed.contains_remove hrem v, HeapIndexed.contains_remove hrems v,
          hc.queue v]
    · rw [hc.g]
      exact h
    · intro x hx
      obtain ⟨hx1, hx2⟩ := (HeapIndexed.mem_entries_remove hrem x).mp hx
      rw [hk x hx1]
      unfold calculate_key
      simp only [Function.update_noteq hx2]
  have hfin := foldlM_inv_list
    (fun l t2 => LpaInv g w inf vs vg (fun e1 => e1.src = u ∧ e1.tgt ∈ l.map Arc.tgt) t2 ∧
      ∀ e1 ∈ l, e1 ∈ g.arcs)
    (fun st e => update_vertex st e.tgt)
    (by
      intro a l t2 t3 hPa ht
      obtain ⟨hPa1, hPa2⟩ := hPa
      have ha := hPa2 a (List.mem_cons_self a l)
      obtain ⟨h1, -⟩ := lpa_update_vertex_inv hg hno hPa1 (hg.1 a ha).2 ht
      refine ⟨lpaInv_weaken h1 ?_, fun e1 he1 => hPa2 e1 (List.mem_cons_of_mem a he1)⟩
      rintro e1 ⟨⟨h2, h3⟩, h4⟩
      refine ⟨h2, ?_⟩
      simp only [List.map_cons, List.mem_cons] at h3
      rcases h3 with h3 | h3
      · exact absurd h3 h4
      · exact h3)
    (out_edges u t.g) _ t1 ⟨hP, by
      intro e1 he1
      rw [hc.g, hF.g_eq] at he1
      exact (mem_out_edges.mp he1).1⟩ h
  refine lpaInv_weaken hfin.1 ?_
  rintro e1 ⟨-, h2⟩
  simp at h2

end lifelong_planning_astar

namespace lifelong_planning_astar

theorem lpa_expand_v_goal {s s1 : lifelong_planning_astar} (h : expand s = some s1) :
    s1.v_goal = s.v_goal := by
  have hfold : ∀ (l : List Arc) (a b : lifelong_planning_astar),
      l.foldlM (fun st e => update_vertex st e.tgt) a = some b → b.v_goal = a.v_goal :=
    fun l a b hf =>
      foldlM_rel (fun a b => b.v_goal = a.v_goal) (fun _ => rfl)
        (by
          intro a b c h1 h2
          exact h2.trans h1) _
        (fun _ _ _ h => (lpa_update_vertex_params h).2.2.2) l a b hf
  unfold expand at h
  simp only [Option.bind_eq_some] at h
  obtain ⟨u, -, q, -, h⟩ := h
  split at h
  · have h1 := hfold _ _ _ h
    exact h1
  · simp only [Option.bind_eq_some] at h
    obtain ⟨s3, hs3, h⟩ := h
    have h1 := hfold _ _ _ h
    have h2 := (lpa_update_vertex_params hs3).2.2.2
    exact h1.trans h2

/-- When `compute_shortest_path` returns, the loop condition is false: the queue is not
empty, its top key is not below the key of the goal, and the goal is consistent. -/
theorem lpa_compute_shortest_path_exit :
    ∀ (fuel : Nat) (s s1 : lifelong_planning_astar),
      compute_shortest_path fuel s = Run.done s1 →
      ∃ k, s1.queue.top_key pair_lt = some k ∧
        pair_lt k (calculate_key s1 s1.v_goal) = false ∧
        s1.distance_lookahead s1.v_goal = s1.distance s1.v_goal := by
  intro fuel
  induction fuel with
  | zero =>
    intro s s1 h
    simp [compute_shortest_path] at h
  | succ n ih =>
    intro s s1 h
    unfold compute_shortest_path at h
    split at h
    · simp at h
    · next k hk =>
      split at h
      · split at h
        · simp at h
        · next s2 he => exact ih s2 s1 h
      · next hcond =>
        simp only [Run.done.injEq] at h
        subst h
        simp only [Bool.or_eq_true, decide_eq_true_eq, not_or, Bool.not_eq_true, ne_eq,
          not_not] at hcond
        exact ⟨k, hk, hcond.1, hcond.2⟩

/-- In a search from scratch that is in order, when the loop condition of
`compute_shortest_path` is false the goal is settled at its shortest distance from the
start. -/
theorem lpa_exit_dist {g : Graph} {w : Arc → Nat} {inf vs vg : Nat} (hvg : vg < g.nv)
    (hw : ∀ e, w e < inf) {t : lifelong_planning_astar}
    (hI : LpaInv g w inf vs vg (fun _ => False) t) (hgoal : t.v_goal = vg) {k : Nat × Nat}
    (hk : t.queue.top_key pair_lt = some k)
    (hlt : pair_lt k (calculate_key t t.v_goal) = false)
    (heq : t.distance_lookahead t.v_goal = t.distance t.v_goal) :
    t.distance vg = t.distance_lookahead vg ∧ t.distance vg < inf ∧
      IsDist g (fun e => Weight.fin (w e)) vs vg (Weight.fin (t.distance vg)) := by
  obtain ⟨-, hinf, s, hc, hF, hkeys⟩ := hI
  rw [hgoal] at hlt heq
  unfold HeapIndexed.top_key at hk
  obtain ⟨e, he, hek⟩ := Option.map_eq_some'.mp hk
  have hmem : e ∈ t.queue.entries := HeapIndexed.top_mem he
  have hii : Weight.ofNat t.inf t.inf = Weight.inf := by simp [Weight.ofNat]
  obtain ⟨c1, c2, c3⟩ := calculate_key_zero hc e.1
  obtain ⟨d1, d2, -⟩ := calculate_key_zero hc vg
  have hcs : s.start_queue.contains e.1 = true := by
    rw [← hc.queue e.1]
    exact HeapIndexed.top_contains he
  obtain ⟨k1, hk1⟩ := (HeapIndexed.contains_iff _ e.1).mp hcs
  obtain ⟨hev, hk1r, hde⟩ := hF.start.queue_key e.1 k1 hk1
  have hre : s.start_distance_lookahead e.1 ≠ Weight.inf := by
    have := (hF.start.queue_iff e.1 hev).mp hcs
    rw [hde] at this
    exact fun h2 => this h2.symm
  have hm : Nat.min (t.distance e.1) (t.distance_lookahead e.1) < t.inf := by
    have h1 : Nat.min (t.distance e.1) (t.distance_lookahead e.1) ≠ t.inf := by
      intro h2
      rw [h2, hii] at c3
      unfold inc_bi.start_calculate_key at c3
      rw [hde, Weight.min_eq_right_of_inf] at c3
      exact hre c3.symm
    omega
  have hmm : Nat.min (t.distance vg) (t.distance vg) = t.distance vg := Nat.min_self _
  rw [← hek, hkeys e hmem, c1, d1, pair_lt_diag, heq, hmm] at hlt
  simp only [decide_eq_false_iff_not, Nat.not_lt] at hlt
  have hd : t.distance vg < t.inf := Nat.lt_of_le_of_lt hlt hm
  have hfin : Weight.ofNat t.inf (t.distance vg) = Weight.fin (t.distance vg) := by
    unfold Weight.ofNat
    simp [Nat.ne_of_lt hd]
  have hs : s.start_distance vg ≠ Weight.inf := by
    rw [← (hc.distance vg).2, hfin]
    simp
  have hdist := hF.start.settled vg hvg hs
  rw [← (hc.distance vg).2, hfin] at hdist
  have hww : (fun a => Weight.ofNat inf (w a)) = fun e => Weight.fin (w e) := by
    funext a
    unfold Weight.ofNat
    simp [Nat.ne_of_lt (hw a)]
  rw [hww] at hdist
  exact ⟨heq.symm, hinf ▸ hd, hdist⟩

end lifelong_planning_astar

/-- No candidate overflows when the reference computation says so: for every arc, the
distance of its source from `vs` is `inf` or adds up with the weight of the arc to less
than `inf`. -/
theorem noOverflow_of_dijkstra {g : Graph} {w : Arc → Nat} {vs inf : Nat}
    (hg : g.WellFormed) (hvs : vs < g.nv)
    (h : ∀ e ∈ g.arcs,
      Weight.lt (Weight.combine (dijkstra g (fun a => Weight.ofNat inf (w a)) vs e.src)
        (Weight.fin (w e))) (Weight.fin inf) = true) :
    NoOverflow g w vs inf := by
  intro e he n hd
  have h1 := h e he
  rw [← isDist_unique hd (dijkstra_isDist hg hvs)] at h1
  simpa [Weight.combine, Weight.lt] using h1

/-- Claim C29 as stated fails: on the graph `kite4`, whose arcs come in mirrored pairs
with equal finite weights below `inf`, the shortest distance from the vertex 0 to the
vertex 2 is `2 ^ 31 + 100`, the weight of the edge 0 - 2. A freshly constructed engine
returns from `compute_shortest_path` with the distance and the lookahead of the goal both
3: the candidate of the goal over the vertex 1 is `2 ^ 31 + (2 ^ 31 + 3)`, which
`unsigned int rhs` holds as 3. -/
theorem C29_counterexample :
    Graph.WellFormed kite4 ∧ Mirrored kite4 (fun e => Weight.fin (kite4_weight e)) ∧
    (∀ e ∈ kite4.arcs, kite4_weight e < UINT - 1) ∧
    ((lifelong_planning_astar.fresh kite4 0 2 kite4_weight).bind
        (fun t => (lifelong_planning_astar.compute_shortest_path 10 t).result)).map
      (fun t => (t.distance 2, t.distance_lookahead 2)) = some (3, 3) ∧
    IsDist kite4 (fun e => Weight.fin (kite4_weight e)) 0 2 (Weight.fin (2 ^ 31 + 100)) := by
  refine ⟨by decide, by decide, by decide, by decide, ?_⟩
  have h : IsDist kite4 (fun e => Weight.fin (kite4_weight e)) 0 2
      (dijkstra kite4 (fun e => Weight.fin (kite4_weight e)) 0 2) :=
    dijkstra_isDist (by decide) (by decide)
  have hv : dijkstra kite4 (fun e => Weight.fin (kite4_weight e)) 0 2
      = Weight.fin (2 ^ 31 + 100) := by decide
  rw [hv] at h
  exact h

/-- Claim C29 as amended: on a graph whose arcs join vertices of the graph and carry
distinct indices, with weights below `inf`, the zero heuristic, `combine` the addition
closed at `inf` and `zero` the number 0, when no sum of the shortest distance of a vertex
from `v_start` and the weight of an arc that leaves the vertex reaches `inf`: after the
constructor and a call of `compute_shortest_path` that returns, the distance of the goal
equals its lookahead, is below `inf`, and is the shortest distance from `v_start` to
`v_goal`. The entries of the maps handed to the constructor outside the graph, which the
code never reads, are values up to `inf`. -/
theorem C29_lpa_reports_shortest_distance (g : Graph) (w : Arc → Nat) (vs vg inf : Nat)
    (p d l : Nat → Nat) (tie : Nat → Nat) (fuel : Nat) (t0 t1 : lifelong_planning_astar)
    (hg : g.WellFormed) (hvs : vs < g.nv) (hvg : vg < g.nv) (hinf : inf < UINT)
    (hw : ∀ e, w e < inf) (hd : ∀ v, g.nv ≤ v → d v ≤ inf) (hl : ∀ v, g.nv ≤ v → l v ≤ inf)
    (hno : NoOverflow g w vs inf)
    (hc : lifelong_planning_astar.construct g vs vg (fun _ => 0) p d l w (closed_plus inf)
      inf 0 tie = some t0)
    (hr : lifelong_planning_astar.compute_shortest_path fuel t0 = Run.done t1) :
    t1.distance vg = t1.distance_lookahead vg ∧ t1.distance vg < inf ∧
      IsDist g (fun e => Weight.fin (w e)) vs vg (Weight.fin (t1.distance vg)) := by
  have hI0 := lifelong_planning_astar.lpa_construct_inv hg hvs hvg hinf hw hd hl hc
  have hI1 := lifelong_planning_astar.lpa_compute_shortest_path_inv
    (fun t => lifelong_planning_astar.LpaInv g w inf vs vg (fun _ => False) t ∧ t.v_goal = vg)
    (fun s s1 hP he => ⟨lifelong_planning_astar.lpa_expand_inv hg hvs hno hP.1 he,
      (lifelong_planning_astar.lpa_expand_v_goal he).trans hP.2⟩)
    fuel t0 t1 ⟨hI0, (lifelong_planning_astar.lpa_construct_spec hc).2.2.1⟩ hr
  obtain ⟨k, hk, hlt, heq⟩ :=
    lifelong_planning_astar.lpa_compute_shortest_path_exit fuel t0 t1 hr
  exact lifelong_planning_astar.lpa_exit_dist hvg hw hI1.1 hI1.2 hk hlt heq

/-- Claim C29 on the cycle: from the vertex 0 to the vertex 2 a freshly constructed
engine returns from `compute_shortest_path` with the distance 2 at the goal, which is its
lookahead and the shortest distance. -/
theorem C29_lpa_reports_shortest_distance_witness :
    ∃ t0 t1, lifelong_planning_astar.fresh cycle4 0 2 cycle4_weight_uint = some t0 ∧
      lifelong_planning_astar.compute_shortest_path 10 t0 = Run.done t1 ∧
      t1.distance 2 = 2 ∧
      NoOverflow cycle4 cycle4_weight_uint 0 (UINT - 1) ∧
      t1.distance 2 = t1.distance_lookahead 2 ∧ t1.distance 2 < UINT - 1 ∧
      IsDist cycle4 (fun e => Weight.fin (cycle4_weight_uint e)) 0 2
        (Weight.fin (t1.distance 2)) := by
  have hd : ((lifelong_planning_astar.fresh cycle4 0 2 cycle4_weight_uint).bind
      (fun t0 => (lifelong_planning_astar.compute_shortest_path 10 t0).result)).map
        (fun t => t.distance 2) = some 2 := by decide
  obtain ⟨t1, hx, hval⟩ := Option.map_eq_some'.mp hd
  obtain ⟨t0, ht0, hc⟩ := Option.bind_eq_some.mp hx
  have hrun := run_result_eq_some hc
  have hno : NoOverflow cycle4 cycle4_weight_uint 0 (UINT - 1) :=
    noOverflow_of_dijkstra (by decide) (by decide) (by decide)
  exact ⟨t0, t1, ht0, hrun, hval, hno,
    C29_lpa_reports_shortest_distance cycle4 cycle4_weight_uint 0 2 (UINT - 1) _ _ _ _ 10
      t0 t1 (by decide) (by decide) (by decide) (by decide) (by
        intro e
        unfold cycle4_weight_uint
        split <;> decide) (fun _ _ => Nat.zero_le _) (fun _ _ => Nat.zero_le _) hno ht0
      hrun⟩

/-! ## The keys of the open queues -/

theorem min_ne_inf {a b : Weight} (h : a ≠ b) : Weight.min a b ≠ Weight.inf := by
  cases a with
  | fin m =>
    cases b with
    | fin n =>
      unfold Weight.min
      split <;> simp
    | inf => simp [Weight.min, Weight.lt]
  | inf =>
    cases b with
    | fin n => simp [Weight.min, Weight.lt]
    | inf => exact absurd rfl h

namespace inc_bi

theorem startKeys_connOnly {s s1 : inc_bi} (h : ConnOnly s s1) (hk : StartKeys s) :
    StartKeys s1 := by
  obtain ⟨q, rfl⟩ := h
  exact hk

theorem startKeys_goalFrame {s s1 : inc_bi} (h : GoalFrame s s1) (hk : StartKeys s) :
    StartKeys s1 := by
  intro x hx
  rw [h.start_queue] at hx
  unfold start_calculate_key
  rw [h.start_distance, h.start_distance_lookahead]
  exact hk x hx

/-- The method `start_update_vertex` keeps the keys of the start queue current. -/
theorem start_update_vertex_keys {s s1 : inc_bi} {u : Nat} (hk : StartKeys s)
    (h : start_update_vertex s u = some s1) : StartKeys s1 := by
  obtain ⟨p, l, hr, hl1, -⟩ := start_recompute_eq s u
  have hold : ∀ q : HeapIndexed Weight,
      (∀ x ∈ q.entries, (x ∈ s.start_queue.entries ∧ x.1 ≠ u) ∨
        (x = (u, start_calculate_key (start_recompute s u) u) ∧
          s.start_distance u ≠ (start_recompute s u).start_distance_lookahead u)) →
      StartKeys { start_recompute s u with start_queue := q } := by
    intro q hq x hx
    rcases hq x hx with ⟨h1, h2⟩ | ⟨h1, h2⟩
    · have h3 := hk x h1
      rw [hr]
      unfold start_calculate_key at h3 ⊢
      simp only
      rw [hl1 _ h2]
      exact h3
    · subst h1
      rw [hr] at h2 ⊢
      exact ⟨rfl, min_ne_inf h2⟩
  have hout : s.start_queue.contains u = false → ∀ x ∈ s.start_queue.entries, x.1 ≠ u := by
    intro hq x hx hxu
    have := (HeapIndexed.contains_iff s.start_queue u).mpr ⟨x.2, by rw [← hxu]; exact hx⟩
    rw [hq] at this
    exact absurd this (by simp)
  rcases start_update_vertex_cases h with ⟨-, -, q, hq1, h2⟩ | ⟨-, hq, h2⟩ |
    ⟨hc, -, q, hq1, h2⟩ | ⟨hc, hq, q, hq1, h2⟩
  · have hb := hold q (fun x hx => Or.inl ((HeapIndexed.mem_entries_remove hq1 x).mp hx))
    rcases h2 with ⟨-, h3⟩ | ⟨-, h3⟩
    · exact startKeys_connOnly (foldlM_connOnly (fun _ _ _ => start_open_step_connOnly) h3) hb
    · rw [h3]
      exact hb
  · have hb := hold s.start_queue (fun x hx => Or.inl ⟨hx, hout hq x hx⟩)
    rw [h2]
    rw [hr] at hb ⊢
    exact hb
  · have hb := hold q (fun x hx => by
      rcases HeapIndexed.mem_entries_update hq1 x hx with h3 | h3
      · exact Or.inl h3
      · exact Or.inr ⟨h3, hc⟩)
    rw [h2]
    exact hb
  · have hb := hold q (fun x hx => by
      rcases (HeapIndexed.mem_entries_insert hq1 x).mp hx with h3 | h3
      · exact Or.inl ⟨h3, hout hq x h3⟩
      · exact Or.inr ⟨h3, hc⟩)
    exact startKeys_connOnly (foldlM_connOnly (fun _ _ _ => conn_drop_step_connOnly) h2) hb

theorem start_lower_step_keys {d : Weight} {s s1 : inc_bi} {e : Arc} (hk : StartKeys s)
    (h : start_lower_step d s e = some s1) : StartKeys s1 := by
  unfold start_lower_step at h
  simp only [Option.bind_eq_some] at h
  obtain ⟨s2, h2, h3⟩ := h
  have hk2 := start_update_vertex_keys hk h2
  split at h3
  · simp only [Option.map_eq_some'] at h3
    obtain ⟨q, -, rfl⟩ := h3
    exact hk2
  · simp only [Option.some.injEq] at h3
    exact h3 ▸ hk2

/-- An expansion on the start side keeps the keys of the start queue current. -/
theorem expand_start_keys {s s1 : inc_bi} (hk : StartKeys s)
    (h : expand_start s = some s1) : StartKeys s1 := by
  unfold expand_start at h
  simp only [Option.bind_eq_some] at h
  obtain ⟨u, hu, q, hq, h⟩ := h
  obtain ⟨e, he, hrem⟩ := HeapIndexed.remove_min_eq_some hq
  have hue : e.1 = u := by
    simp only [HeapIndexed.top_idx, he, Option.map_some', Option.some.injEq] at hu
    exact hu
  rw [hue] at hrem
  have hpop : ∀ d : Weight, StartKeys
      { s with start_queue := q, start_distance := Function.update s.start_distance u d } := by
    intro d x hx
    obtain ⟨hx1, hx2⟩ := (HeapIndexed.mem_entries_remove hrem x).mp hx
    have h3 := hk x hx1
    unfold start_calculate_key at h3 ⊢
    simp only [Function.update_noteq hx2]
    exact h3
  split at h
  · exact foldlM_inv StartKeys _ (fun _ _ _ hP hs => start_lower_step_keys hP hs) _ _ _
      (hpop _) h
  · simp only [Option.bind_eq_some] at h
    obtain ⟨s3, hs3, h⟩ := h
    exact foldlM_inv StartKeys _ (fun _ _ _ hP hs => start_update_vertex_keys hP hs) _ _ _
      (start_update_vertex_keys (hpop _) hs3) h

/-- The value `start_top` is `inf` exactly when the start queue is empty, when the keys of
the start queue are current. -/
theorem start_top_inf_iff {s : inc_bi} (hk : StartKeys s) :
    ∃ st, start_top s = some st ∧ (st = Weight.inf ↔ s.start_queue.size = 0) := by
  obtain ⟨st, hst⟩ := start_top_isSome s
  refine ⟨st, hst, ?_, ?_⟩
  · intro hinf
    by_contra hsz
    unfold start_top at hst
    simp only [ne_eq, hsz, not_false_eq_true, if_true, HeapIndexed.top_key,
      Option.map_eq_some'] at hst
    obtain ⟨e, he, hek⟩ := hst
    exact (hk e (HeapIndexed.top_mem he)).2 (hek.trans hinf)
  · intro hsz
    unfold start_top at hst
    simp only [hsz, ne_eq, not_true_eq_false, if_false, Option.some.injEq] at hst
    exact hst.symm

theorem goalKeys_connOnly {s s1 : inc_bi} (h : ConnOnly s s1) (hk : GoalKeys s) :
    GoalKeys s1 := by
  obtain ⟨q, rfl⟩ := h
  exact hk

theorem goalKeys_startFrame {s s1 : inc_bi} (h : StartFrame s s1) (hk : GoalKeys s) :
    GoalKeys s1 := by
  intro x hx
  rw [h.goal_queue] at hx
  unfold goal_calculate_key
  rw [h.goal_distance, h.goal_distance_lookahead]
  exact hk x hx

/-- The method `goal_update_vertex` keeps the keys of the goal queue current. -/
theorem goal_update_vertex_keys {s s1 : inc_bi} {u : Nat} (hk : GoalKeys s)
    (h : goal_update_vertex s u = some s1) : GoalKeys s1 := by
  obtain ⟨p, l, hr, hl1, -⟩ := goal_recompute_eq s u
  have hold : ∀ q : HeapIndexed Weight,
      (∀ x ∈ q.entries, (x ∈ s.goal_queue.entries ∧ x.1 ≠ u) ∨
        (x = (u, goal_calculate_key (goal_recompute s u) u) ∧
          s.goal_distance u ≠ (goal_recompute s u).goal_distance_lookahead u)) →
      GoalKeys { goal_recompute s u with goal_queue := q } := by
    intro q hq x hx
    rcases hq x hx with ⟨h1, h2⟩ | ⟨h1, h2⟩
    · have h3 := hk x h1
      rw [hr]
      unfold goal_calculate_key at h3 ⊢
      simp only
      rw [hl1 _ h2]
      exact h3
    · subst h1
      rw [hr] at h2 ⊢
      exact ⟨rfl, min_ne_inf h2⟩
  have hout : s.goal_queue.contains u = false → ∀ x ∈ s.goal_queue.entries, x.1 ≠ u := by
    intro hq x hx hxu
    have := (HeapIndexed.contains_iff s.goal_queue u).mpr ⟨x.2, by rw [← hxu]; exact hx⟩
    rw [hq] at this
    exact absurd this (by simp)
  rcases goal_update_vertex_cases h with ⟨-, -, q, hq1, h2⟩ | ⟨-, hq, h2⟩ |
    ⟨hc, -, q, hq1, h2⟩ | ⟨hc, hq, q, hq1, h2⟩
  · have hb := hold q (fun x hx => Or.inl ((HeapIndexed.mem_entries_remove hq1 x).mp hx))
    rcases h2 with ⟨-, h3⟩ | ⟨-, h3⟩
    · exact goalKeys_connOnly (foldlM_connOnly (fun _ _ _ => goal_open_step_connOnly) h3) hb
    · rw [h3]
      exact hb
  · have hb := hold s.goal_queue (fun x hx => Or.inl ⟨hx, hout hq x hx⟩)
    rw [h2]
    rw [hr] at hb ⊢
    exact hb
  · have hb := hold q (fun x hx => by
      rcases HeapIndexed.mem_entries_update hq1 x hx with h3 | h3
      · exact Or.inl h3
      · exact Or.inr ⟨h3, hc⟩)
    rw [h2]
    exact hb
  · have hb := hold q (fun x hx => by
      rcases (HeapIndexed.mem_entries_insert hq1 x).mp hx with h3 | h3
      · exact Or.inl ⟨h3, hout hq x h3⟩
      · exact Or.inr ⟨h3, hc⟩)
    exact goalKeys_connOnly (foldlM_connOnly (fun _ _ _ => conn_drop_step_connOnly) h2) hb

theorem goal_lower_step_keys {d : Weight} {s s1 : inc_bi} {e : Arc} (hk : GoalKeys s)
    (h : goal_lower_step d s e = some s1) : GoalKeys s1 := by
  unfold goal_lower_step at h
  simp only [Option.bind_eq_some] at h
  obtain ⟨s2, h2, h3⟩ := h
  have hk2 := goal_update_vertex_keys hk h2
  split at h3
  · simp only [Option.map_eq_some'] at h3
    obtain ⟨q, -, rfl⟩ := h3
    exact hk2
  · simp only [Option.some.injEq] at h3
    exact h3 ▸ hk2

/-- An expansion on the goal side keeps the keys of the goal queue current. -/
theorem expand_goal_keys {s s1 : inc_bi} (hk : GoalKeys s)
    (h : expand_goal s = some s1) : GoalKeys s1 := by
  unfold expand_goal at h
  simp only [Option.bind_eq_some] at h
  obtain ⟨u, hu, q, hq, h⟩ := h
  obtain ⟨e, he, hrem⟩ := HeapIndexed.remove_min_eq_some hq
  have hue : e.1 = u := by
    simp only [HeapIndexed.top_idx, he, Option.map_some', Option.some.injEq] at hu
    exact hu
  rw [hue] at hrem
  have hpop : ∀ d : Weight, GoalKeys
      { s with goal_queue := q, goal_distance := Function.update s.goal_distance u d } := by
    intro d x hx
    obtain ⟨hx1, hx2⟩ := (HeapIndexed.mem_entries_remove hrem x).mp hx
    have h3 := hk x hx1
    unfold goal_calculate_key at h3 ⊢
    simp only [Function.update_noteq hx2]
    exact h3
  split at h
  · exact foldlM_inv GoalKeys _ (fun _ _ _ hP hs => goal_lower_step_keys hP hs) _ _ _
      (hpop _) h
  · simp only [Option.bind_eq_some] at h
    obtain ⟨s3, hs3, h⟩ := h
    exact foldlM_inv GoalKeys _ (fun _ _ _ hP hs => goal_update_vertex_keys hP hs) _ _ _
      (goal_update_vertex_keys (hpop _) hs3) h

/-- The value `goal_top` is `inf` exactly when the goal queue is empty, when the keys of
the goal queue are current. -/
theorem goal_top_inf_iff {s : inc_bi} (hk : GoalKeys s) :
    ∃ st, goal_top s = some st ∧ (st = Weight.inf ↔ s.goal_queue.size = 0) := by
  obtain ⟨st, hst⟩ := goal_top_isSome s
  refine ⟨st, hst, ?_, ?_⟩
  · intro hinf
    by_contra hsz
    unfold goal_top at hst
    simp only [ne_eq, hsz, not_false_eq_true, if_true, HeapIndexed.top_key,
      Option.map_eq_some'] at hst
    obtain ⟨e, he, hek⟩ := hst
    exact (hk e (HeapIndexed.top_mem he)).2 (hek.trans hinf)
  · intro hsz
    unfold goal_top at hst
    simp only [hsz, ne_eq, not_true_eq_false, if_false, Option.some.injEq] at hst
    exact hst.symm

theorem construct_keys {g : Graph} {v_start v_goal : Nat} {sp : Nat → Nat}
    {sd sl : Nat → Weight} {gp : Nat → Nat} {gd gl : Nat → Weight} {w : Arc → Weight}
    {m : Weight} {t1 t2 t3 : Nat → Nat} {s : inc_bi}
    (h : construct g v_start v_goal sp sd sl gp gd gl w m t1 t2 t3 = some s) :
    StartKeys s ∧ GoalKeys s := by
  obtain ⟨-, -, -, -, -, -, -, -, h2, -, h4, hq1, hq2, -⟩ := construct_spec h
  have hmin : ∀ a : Weight, Weight.zero = Weight.min a Weight.zero := by
    intro a
    cases a with
    | fin n =>
      by_cases hn : 0 < n
      · simp [Weight.min, Weight.lt, Weight.zero, hn]
      · have h0 : n = 0 := by omega
        simp [Weight.min, Weight.lt, Weight.zero, h0]
    | inf => simp [Weight.min, Weight.lt, Weight.zero]
  constructor
  · intro x hx
    rw [hq1] at hx
    simp only [List.mem_singleton] at hx
    subst hx
    unfold start_calculate_key
    rw [h2 v_start]
    simp only [if_true]
    exact ⟨hmin _, by simp [Weight.zero]⟩
  · intro x hx
    rw [hq2] at hx
    simp only [List.mem_singleton] at hx
    subst hx
    unfold goal_calculate_key
    rw [h4 v_goal]
    simp only [if_true]
    exact ⟨hmin _, by simp [Weight.zero]⟩

/-- In every reachable state the keys of both open queues are current. -/
theorem reachable_keys {s : inc_bi} (hs : Reachable s) : StartKeys s ∧ GoalKeys s := by
  induction hs with
  | construct g v_start v_goal sp sd sl gp gd gl w m t1 t2 t3 s h => exact construct_keys h
  | set_weight s w _ ih => exact ih
  | update_edge s s1 e _ h ih =>
    have hc := update_edge_connOnly h
    exact ⟨startKeys_connOnly hc ih.1, goalKeys_connOnly hc ih.2⟩
  | start_update_vertex s s1 u _ h ih =>
    exact ⟨start_update_vertex_keys ih.1 h,
      goalKeys_startFrame (start_update_vertex_frame h).1 ih.2⟩
  | goal_update_vertex s s1 u _ h ih =>
    exact ⟨startKeys_goalFrame (goal_update_vertex_frame h).1 ih.1,
      goal_update_vertex_keys ih.2 h⟩
  | compute_shortest_path s s1 fuel r _ h ih =>
    exact compute_shortest_path_inv (fun t => StartKeys t ∧ GoalKeys t)
      (fun _ _ hP ht =>
        ⟨expand_start_keys hP.1 ht, goalKeys_startFrame (expand_start_frame ht).1 hP.2⟩)
      (fun _ _ hP ht =>
        ⟨startKeys_goalFrame (expand_goal_frame ht).1 hP.1, expand_goal_keys hP.2 ht⟩)
      fuel s r s1 ih h

end inc_bi

/-- C35: in every state reachable from the constructor through `update_edge`,
`start_update_vertex`, `goal_update_vertex` and `compute_shortest_path` (the caller may
also change the weight map between calls), every entry of the start queue carries the key
`min(start_distance(v), start_distance_lookahead(v))` of its vertex and every entry of the
goal queue the key `min(goal_distance(v), goal_distance_lookahead(v))`, and these keys are
not `inf`; the values `start_top` and `goal_top` read by `compute_shortest_path` are `inf`
exactly when the queue in question is empty. -/
theorem C35_open_queue_keys_current (s : inc_bi) (hs : inc_bi.Reachable s) :
    (∀ v k, (v, k) ∈ s.start_queue.entries →
      k = Weight.min (s.start_distance v) (s.start_distance_lookahead v) ∧
        k ≠ Weight.inf) ∧
    (∀ v k, (v, k) ∈ s.goal_queue.entries →
      k = Weight.min (s.goal_distance v) (s.goal_distance_lookahead v) ∧
        k ≠ Weight.inf) ∧
    (∃ st, inc_bi.start_top s = some st ∧ (st = Weight.inf ↔ s.start_queue.size = 0)) ∧
    (∃ gt, inc_bi.goal_top s = some gt ∧ (gt = Weight.inf ↔ s.goal_queue.size = 0)) := by
  obtain ⟨h1, h2⟩ := inc_bi.reachable_keys hs
  exact ⟨fun v k hm => h1 (v, k) hm, fun v k hm => h2 (v, k) hm,
    inc_bi.start_top_inf_iff h1, inc_bi.goal_top_inf_iff h2⟩

/-- Claim C35 in the state left behind by `compute_shortest_path` on a freshly constructed
engine on the cycle, from the vertex 0 to the vertex 2: both queues are non-empty there. -/
theorem C35_open_queue_keys_current_witness :
    ∃ s r s1, inc_bi.fresh cycle4 0 2 cycle4_weight Weight.zero = some s ∧
      inc_bi.compute_shortest_path 10 s = Run.done (r, s1) ∧
      s1.start_queue.size ≠ 0 ∧ s1.goal_queue.size ≠ 0 ∧
      (∀ v k, (v, k) ∈ s1.start_queue.entries →
        k = Weight.min (s1.start_distance v) (s1.start_distance_lookahead v) ∧
          k ≠ Weight.inf) ∧
      (∀ v k, (v, k) ∈ s1.goal_queue.entries →
        k = Weight.min (s1.goal_distance v) (s1.goal_distance_lookahead v) ∧
          k ≠ Weight.inf) ∧
      (∃ st, inc_bi.start_top s1 = some st ∧ (st = Weight.inf ↔ s1.start_queue.size = 0)) ∧
      (∃ gt, inc_bi.goal_top s1 = some gt ∧ (gt = Weight.inf ↔ s1.goal_queue.size = 0)) := by
  have hd : ((inc_bi.fresh cycle4 0 2 cycle4_weight Weight.zero).bind
      (fun s => (inc_bi.compute_shortest_path 10 s).result)).map
        (fun x => (decide (x.2.start_queue.size ≠ 0), decide (x.2.goal_queue.size ≠ 0)))
      = some (true, true) := by decide
  obtain ⟨x, hx, hval⟩ := Option.map_eq_some'.mp hd
  obtain ⟨s, hs, hc⟩ := Option.bind_eq_some.mp hx
  have hrun : inc_bi.compute_shortest_path 10 s = Run.done (x.1, x.2) :=
    run_result_eq_some hc
  simp only [Prod.mk.injEq, decide_eq_true_eq] at hval
  exact ⟨s, x.1, x.2, hs, hrun, hval.1, hval.2,
    C35_open_queue_keys_current x.2
      (inc_bi.Reachable.compute_shortest_path s x.2 10 x.1
        (inc_bi.Reachable.construct _ _ _ _ _ _ _ _ _ _ _ _ _ _ s hs) hrun)⟩

/-! ## The frame of `update_edge` -/

/-- C32: for every arc `e` and every state, `update_edge(e)` returns and changes nothing
but `conn_queue`: the graph, the two endpoints of the search, the weight map, the margin,
and the predecessor map, distance map, lookahead map and open queue of either frontier are
as before. In particular the lookaheads of the endpoints of `e` are as before, whatever
the weight of `e` has become. -/
theorem C32_update_edge_frame (s : inc_bi) (e : Arc) :
    ∃ s1, inc_bi.update_edge s e = some s1 ∧
      s1.g = s.g ∧ s1.v_start = s.v_start ∧ s1.v_goal = s.v_goal ∧
      s1.weight = s.weight ∧ s1.goal_margin = s.goal_margin ∧
      s1.start_predecessor = s.start_predecessor ∧
      s1.start_distance = s.start_distance ∧
      s1.start_distance_lookahead = s.start_distance_lookahead ∧
      s1.start_queue = s.start_queue ∧
      s1.goal_predecessor = s.goal_predecessor ∧
      s1.goal_distance = s.goal_distance ∧
      s1.goal_distance_lookahead = s.goal_distance_lookahead ∧
      s1.goal_queue = s.goal_queue ∧
      s1.start_distance_lookahead e.src = s.start_distance_lookahead e.src ∧
      s1.start_distance_lookahead e.tgt = s.start_distance_lookahead e.tgt ∧
      s1.goal_distance_lookahead e.src = s.goal_distance_lookahead e.src ∧
      s1.goal_distance_lookahead e.tgt = s.goal_distance_lookahead e.tgt := by
  obtain ⟨s1, h, ⟨q, rfl⟩, -⟩ := inc_bi.update_edge_spec s e
  exact ⟨_, h, rfl, rfl, rfl, rfl, rfl, rfl, rfl, rfl, rfl, rfl, rfl, rfl, rfl, rfl, rfl, rfl,
    rfl⟩

/-! ## The keys of the connection queue -/

namespace inc_bi

theorem conn_key_of_frame {s s1 : inc_bi} (hd : s1.start_distance = s.start_distance)
    (hgd : s1.goal_distance = s.goal_distance) (hw : s1.weight = s.weight) (e : Arc) :
    s1.conn_key_of e = s.conn_key_of e := by
  unfold conn_key_of
  rw [hd, hgd, hw]

theorem connKeys_of_subset {g : Graph} {s s1 : inc_bi} (hk : ConnKeys g s)
    (hd : s1.start_distance = s.start_distance) (hgd : s1.goal_distance = s.goal_distance)
    (hw : s1.weight = s.weight)
    (hsub : ∀ x ∈ s1.conn_queue.entries, x ∈ s.conn_queue.entries ∨
      ∃ e ∈ g.arcs, e.idx = x.1 ∧ x.2 = s1.conn_key_of e) : ConnKeys g s1 := by
  intro x hx
  rcases hsub x hx with h1 | h1
  · obtain ⟨e, he, hidx, hkey⟩ := hk x h1
    exact ⟨e, he, hidx, by rw [conn_key_of_frame hd hgd hw]; exact hkey⟩
  · exact h1

theorem conn_drop_step_connKeys {g : Graph} {s s1 : inc_bi} {e : Arc} (hk : ConnKeys g s)
    (h : conn_drop_step s e = some s1) : ConnKeys g s1 := by
  unfold conn_drop_step at h
  split at h
  · simp only [Option.map_eq_some'] at h
    obtain ⟨q, hq, rfl⟩ := h
    exact connKeys_of_subset hk rfl rfl rfl
      (fun x hx => Or.inl ((HeapIndexed.mem_entries_remove hq x).mp hx).1)
  · simp only [Option.some.injEq] at h
    exact h ▸ hk

theorem start_open_step_connKeys {g : Graph} {d : Weight} {s s1 : inc_bi} {e : Arc}
    (hk : ConnKeys g s) (he : e ∈ g.arcs) (hd : s.start_distance e.src = d)
    (h : start_open_step d s e = some s1) : ConnKeys g s1 := by
  subst hd
  unfold start_open_step at h
  dsimp only at h
  split at h
  · simp only [Option.map_eq_some'] at h
    obtain ⟨q, hq, rfl⟩ := h
    refine connKeys_of_subset hk rfl rfl rfl ?_
    intro x hx
    rcases (HeapIndexed.mem_entries_insert hq x).mp hx with h1 | h1
    · exact Or.inl h1
    · refine Or.inr ⟨e, he, ?_, ?_⟩
      · rw [h1]
      · rw [h1]
        rfl
  · simp only [Option.some.injEq] at h
    exact h ▸ hk

theorem start_open_fold_connKeys {g : Graph} {u : Nat} {d : Weight} {l : List Arc}
    {s s1 : inc_bi} (hk : ConnKeys g s) (hl : ∀ e ∈ l, e ∈ g.arcs ∧ e.src = u)
    (hd : s.start_distance u = d) (h : l.foldlM (start_open_step d) s = some s1) :
    ConnKeys g s1 := by
  have hfin := foldlM_inv_list
    (fun l t => ConnKeys g t ∧ t.start_distance u = d ∧ ∀ e ∈ l, e ∈ g.arcs ∧ e.src = u)
    (start_open_step d)
    (by
      intro a l t t1 hP ht
      obtain ⟨h1, h2, h3⟩ := hP
      obtain ⟨ha, hau⟩ := h3 a (List.mem_cons_self _ _)
      have hk1 := start_open_step_connKeys h1 ha (by rw [hau]; exact h2) ht
      obtain ⟨q, rfl⟩ := start_open_step_connOnly ht
      exact ⟨hk1, h2, fun e he => h3 e (List.mem_cons_of_mem _ he)⟩)
    l s s1 ⟨hk, hd, hl⟩ h
  exact hfin.1

/-- The method `start_update_vertex` keeps the keys of the connection queue current. -/
theorem start_update_vertex_connKeys {g : Graph} {s s1 : inc_bi} {u : Nat} (hg : s.g = g)
    (hk : ConnKeys g s) (h : start_update_vertex s u = some s1) : ConnKeys g s1 := by
  obtain ⟨p, l, hr, -, -⟩ := start_recompute_eq s u
  have hb : ∀ q : HeapIndexed Weight,
      ConnKeys g { start_recompute s u with start_queue := q } := by
    intro q
    rw [hr]
    exact hk
  have hmem : ∀ e ∈ out_edges u s.g, e ∈ g.arcs ∧ e.src = u := by
    intro e he
    rw [hg] at he
    exact mem_out_edges.mp he
  rcases start_update_vertex_cases h with ⟨-, -, q, -, h2⟩ | ⟨-, -, h2⟩ | ⟨-, -, q, -, h2⟩ |
    ⟨-, -, q, -, h2⟩
  · rcases h2 with ⟨-, h3⟩ | ⟨-, h3⟩
    · exact start_open_fold_connKeys (hb q) hmem (by rw [hr]) h3
    · rw [h3]
      exact hb q
  · rw [h2, hr]
    exact hk
  · rw [h2]
    exact hb q
  · exact foldlM_inv (ConnKeys g) conn_drop_step
      (fun _ _ _ hP hs => conn_drop_step_connKeys hP hs) _ _ _ (hb q) h2

theorem start_lower_step_connKeys {g : Graph} {d : Weight} {s s1 : inc_bi} {e : Arc}
    (hg : s.g = g) (hk : ConnKeys g s) (he : e ∈ g.arcs) (hd : s.start_distance e.src = d)
    (h : start_lower_step d s e = some s1) : ConnKeys g s1 := by
  subst hd
  unfold start_lower_step at h
  simp only [Option.bind_eq_some] at h
  obtain ⟨s2, h2, h3⟩ := h
  have hk2 := start_update_vertex_connKeys hg hk h2
  have hd2 := (start_update_vertex_frame h2).2.1
  split at h3
  · simp only [Option.map_eq_some'] at h3
    obtain ⟨q, hq, rfl⟩ := h3
    refine connKeys_of_subset hk2 rfl rfl rfl ?_
    intro x hx
    rcases (HeapIndexed.mem_entries_insert hq x).mp hx with h1 | h1
    · exact Or.inl h1
    · refine Or.inr ⟨e, he, ?_, ?_⟩
      · rw [h1]
      · rw [h1]
        unfold conn_key_of
        simp only [hd2]
  · simp only [Option.some.injEq] at h3
    exact h3 ▸ hk2

/-- An expansion on the start side keeps the keys of the connection queue current: no
arc of the connection queue leaves the vertex whose start distance changes. -/
theorem expand_start_connKeys {g : Graph} (hn : g.DistinctIdx) {s s1 : inc_bi}
    (hI : ConnInv g s) (hk : ConnKeys g s) (h : expand_start s = some s1) :
    ConnKeys g s1 := by
  unfold expand_start at h
  simp only [Option.bind_eq_some] at h
  obtain ⟨u, hu, q, hq, h⟩ := h
  obtain ⟨e, he, -⟩ := HeapIndexed.remove_min_eq_some hq
  have hue : e.1 = u := by
    simp only [HeapIndexed.top_idx, he, Option.map_some', Option.some.injEq] at hu
    exact hu
  have hqc : s.start_queue.contains u = true := by
    rw [← hue]
    exact HeapIndexed.top_contains he
  have hg := hI.1
  have hpop : ∀ d : Weight, ConnKeys g
      { s with start_queue := q, start_distance := Function.update s.start_distance u d } := by
    intro d x hx
    obtain ⟨a, ha, hidx, hkey⟩ := hk x hx
    obtain ⟨a1, ha1, hidx1, hok⟩ := hI.2 x hx
    have haa : a1 = a := idx_inj_distinct hn ha1 ha (hidx1.trans hidx.symm)
    subst haa
    have hne : a1.src ≠ u := by
      intro h2
      have h3 := hok.start_absent
      rw [h2, hqc] at h3
      exact absurd h3 (by simp)
    refine ⟨a1, ha, hidx, ?_⟩
    rw [hkey]
    unfold conn_key_of
    simp only [Function.update_noteq hne]
  have hmem : ∀ e ∈ out_edges u s.g, e ∈ g.arcs ∧ e.src = u := by
    intro e he
    rw [hg] at he
    exact mem_out_edges.mp he
  split at h
  · have hfin := foldlM_inv_list
      (fun l t => ConnKeys g t ∧ t.g = g ∧
        t.start_distance u = s.start_distance_lookahead u ∧
        ∀ e ∈ l, e ∈ g.arcs ∧ e.src = u)
      (start_lower_step (s.start_distance_lookahead u))
      (by
        intro a l t t1 hP ht
        obtain ⟨h1, h2, h3, h4⟩ := hP
        obtain ⟨ha, hau⟩ := h4 a (List.mem_cons_self _ _)
        obtain ⟨hf, hd⟩ := start_lower_step_frame ht
        exact ⟨start_lower_step_connKeys h2 h1 ha (by rw [hau]; exact h3) ht, hf.g.trans h2,
          by rw [hd]; exact h3, fun e he => h4 e (List.mem_cons_of_mem _ he)⟩)
      _ _ s1 ⟨hpop _, hg, by simp, hmem⟩ h
    exact hfin.1
  · simp only [Option.bind_eq_some] at h
    obtain ⟨s3, hs3, h⟩ := h
    have hk3 := start_update_vertex_connKeys (by exact hg) (hpop _) hs3
    have hg3 : s3.g = g := (start_update_vertex_frame hs3).1.g.trans hg
    exact (foldlM_inv (fun t => ConnKeys g t ∧ t.g = g) _
      (fun t a t1 hP ht => ⟨start_update_vertex_connKeys hP.2 hP.1 ht,
        (start_update_vertex_frame ht).1.g.trans hP.2⟩) _ _ _ ⟨hk3, hg3⟩ h).1

theorem goal_open_step_connKeys {g : Graph} {d : Weight} {s s1 : inc_bi} {e : Arc}
    (hk : ConnKeys g s) (he : e ∈ g.arcs) (hd : s.goal_distance e.tgt = d)
    (h : goal_open_step d s e = some s1) : ConnKeys g s1 := by
  subst hd
  unfold goal_open_step at h
  dsimp only at h
  split at h
  · simp only [Option.map_eq_some'] at h
    obtain ⟨q, hq, rfl⟩ := h
    refine connKeys_of_subset hk rfl rfl rfl ?_
    intro x hx
    rcases (HeapIndexed.mem_entries_insert hq x).mp hx with h1 | h1
    · exact Or.inl h1
    · refine Or.inr ⟨e, he, ?_, ?_⟩
      · rw [h1]
      · rw [h1]
        rfl
  · simp only [Option.some.injEq] at h
    exact h ▸ hk

theorem goal_open_fold_connKeys {g : Graph} {u : Nat} {d : Weight} {l : List Arc}
    {s s1 : inc_bi} (hk : ConnKeys g s) (hl : ∀ e ∈ l, e ∈ g.arcs ∧ e.tgt = u)
    (hd : s.goal_distance u = d) (h : l.foldlM (goal_open_step d) s = some s1) :
    ConnKeys g s1 := by
  have hfin := foldlM_inv_list
    (fun l t => ConnKeys g t ∧ t.goal_distance u = d ∧ ∀ e ∈ l, e ∈ g.arcs ∧ e.tgt = u)
    (goal_open_step d)
    (by
      intro a l t t1 hP ht
      obtain ⟨h1, h2, h3⟩ := hP
      obtain ⟨ha, hau⟩ := h3 a (List.mem_cons_self _ _)
      have hk1 := goal_open_step_connKeys h1 ha (by rw [hau]; exact h2) ht
      obtain ⟨q, rfl⟩ := goal_open_step_connOnly ht
      exact ⟨hk1, h2, fun e he => h3 e (List.mem_cons_of_mem _ he)⟩)
    l s s1 ⟨hk, hd, hl⟩ h
  exact hfin.1

/-- The method `goal_update_vertex` keeps the keys of the connection queue current. -/
theorem goal_update_vertex_connKeys {g : Graph} {s s1 : inc_bi} {u : Nat} (hg : s.g = g)
    (hk : ConnKeys g s) (h : goal_update_vertex s u = some s1) : ConnKeys g s1 := by
  obtain ⟨p, l, hr, -, -⟩ := goal_recompute_eq s u
  have hb : ∀ q : HeapIndexed Weight,
      ConnKeys g { goal_recompute s u with goal_queue := q } := by
    intro q
    rw [hr]
    exact hk
  have hmem : ∀ e ∈ in_edges u s.g, e ∈ g.arcs ∧ e.tgt = u := by
    intro e he
    rw [hg] at he
    exact mem_in_edges.mp he
  rcases goal_update_vertex_cases h with ⟨-, -, q, -, h2⟩ | ⟨-, -, h2⟩ | ⟨-, -, q, -, h2⟩ |
    ⟨-, -, q, -, h2⟩
  · rcases h2 with ⟨-, h3⟩ | ⟨-, h3⟩
    · exact goal_open_fold_connKeys (hb q) hmem (by rw [hr]) h3
    · rw [h3]
      exact hb q
  · rw [h2, hr]
    exact hk
  · rw [h2]
    exact hb q
  · exact foldlM_inv (ConnKeys g) conn_drop_step
      (fun _ _ _ hP hs => conn_drop_step_connKeys hP hs) _ _ _ (hb q) h2

theorem goal_lower_step_connKeys {g : Graph} {d : Weight} {s s1 : inc_bi} {e : Arc}
    (hg : s.g = g) (hk : ConnKeys g s) (he : e ∈ g.arcs) (hd : s.goal_distance e.tgt = d)
    (h : goal_lower_step d s e = some s1) : ConnKeys g s1 := by
  subst hd
  unfold goal_lower_step at h
  simp only [Option.bind_eq_some] at h
  obtain ⟨s2, h2, h3⟩ := h
  have hk2 := goal_update_vertex_connKeys hg hk h2
  have hd2 := (goal_update_vertex_frame h2).2.1
  split at h3
  · simp only [Option.map_eq_some'] at h3
    obtain ⟨q, hq, rfl⟩ := h3
    refine connKeys_of_subset hk2 rfl rfl rfl ?_
    intro x hx
    rcases (HeapIndexed.mem_entries_insert hq x).mp hx with h1 | h1
    · exact Or.inl h1
    · refine Or.inr ⟨e, he, ?_, ?_⟩
      · rw [h1]
      · rw [h1]
        unfold conn_key_of
        simp only [hd2]
  · simp only [Option.some.injEq] at h3
    exact h3 ▸ hk2

/-- An expansion on the goal side keeps the keys of the connection queue current: no
arc of the connection queue enters the vertex whose goal distance changes. -/
theorem expand_goal_connKeys {g : Graph} (hn : g.DistinctIdx) {s s1 : inc_bi}
    (hI : ConnInv g s) (hk : ConnKeys g s) (h : expand_goal s = some s1) :
    ConnKeys g s1 := by
  unfold expand_goal at h
  simp only [Option.bind_eq_some] at h
  obtain ⟨u, hu, q, hq, h⟩ := h
  obtain ⟨e, he, -⟩ := HeapIndexed.remove_min_eq_some hq
  have hue : e.1 = u := by
    simp only [HeapIndexed.top_idx, he, Option.map_some', Option.some.injEq] at hu
    exact hu
  have hqc : s.goal_queue.contains u = true := by
    rw [← hue]
    exact HeapIndexed.top_contains he
  have hg := hI.1
  have hpop : ∀ d : Weight, ConnKeys g
      { s with goal_queue := q, goal_distance := Function.update s.goal_distance u d } := by
    intro d x hx
    obtain ⟨a, ha, hidx, hkey⟩ := hk x hx
    obtain ⟨a1, ha1, hidx1, hok⟩ := hI.2 x hx
    have haa : a1 = a := idx_inj_distinct hn ha1 ha (hidx1.trans hidx.symm)
    subst haa
    have hne : a1.tgt ≠ u := by
      intro h2
      have h3 := hok.goal_absent
      rw [h2, hqc] at h3
      exact absurd h3 (by simp)
    refine ⟨a1, ha, hidx, ?_⟩
    rw [hkey]
    unfold conn_key_of
    simp only [Function.update_noteq hne]
  have hmem : ∀ e ∈ in_edges u s.g, e ∈ g.arcs ∧ e.tgt = u := by
    intro e he
    rw [hg] at he
    exact mem_in_edges.mp he
  split at h
  · have hfin := foldlM_inv_list
      (fun l t => ConnKeys g t ∧ t.g = g ∧
        t.goal_distance u = s.goal_distance_lookahead u ∧
        ∀ e ∈ l, e ∈ g.arcs ∧ e.tgt = u)
      (goal_lower_step (s.goal_distance_lookahead u))
      (by
        intro a l t t1 hP ht
        obtain ⟨h1, h2, h3, h4⟩ := hP
        obtain ⟨ha, hau⟩ := h4 a (List.mem_cons_self _ _)
        obtain ⟨hf, hd⟩ := goal_lower_step_frame ht
        exact ⟨goal_lower_step_connKeys h2 h1 ha (by rw [hau]; exact h3) ht, hf.g.trans h2,
          by rw [hd]; exact h3, fun e he => h4 e (List.mem_cons_of_mem _ he)⟩)
      _ _ s1 ⟨hpop _, hg, by simp, hmem⟩ h
    exact hfin.1
  · simp only [Option.bind_eq_some] at h
    obtain ⟨s3, hs3, h⟩ := h
    have hk3 := goal_update_vertex_connKeys (by exact hg) (hpop _) hs3
    have hg3 : s3.g = g := (goal_update_vertex_frame hs3).1.g.trans hg
    exact (foldlM_inv (fun t => ConnKeys g t ∧ t.g = g) _
      (fun t a t1 hP ht => ⟨goal_update_vertex_connKeys hP.2 hP.1 ht,
        (goal_update_vertex_frame ht).1.g.trans hP.2⟩) _ _ _ ⟨hk3, hg3⟩ h).1

/-- The method `update_edge` on an arc `e` of the graph makes the keys of the connection
queue current when the keys of the other arcs are: the entry of `e` is removed or
rewritten. -/
theorem update_edge_connKeys {g : Graph} {s s1 : inc_bi} {e : Arc} (he : e ∈ g.arcs)
    (hk : ∀ x ∈ s.conn_queue.entries, x.1 ≠ e.idx →
      ∃ a ∈ g.arcs, a.idx = x.1 ∧ x.2 = s.conn_key_of a)
    (h : update_edge s e = some s1) : ConnKeys g s1 := by
  have hout : s.conn_queue.contains e.idx = false →
      ∀ x ∈ s.conn_queue.entries, x.1 ≠ e.idx := by
    intro hq x hx hxu
    have := (HeapIndexed.contains_iff s.conn_queue e.idx).mpr
      ⟨x.2, by rw [← hxu]; exact hx⟩
    rw [hq] at this
    exact absurd this (by simp)
  unfold update_edge at h
  simp only at h
  split at h
  · split at h
    · simp only [Option.map_eq_some'] at h
      obtain ⟨q, hq, rfl⟩ := h
      intro x hx
      obtain ⟨hx1, hx2⟩ := (HeapIndexed.mem_entries_remove hq x).mp hx
      exact hk x hx1 hx2
    · next hc =>
      simp only [Option.some.injEq] at h
      subst h
      intro x hx
      exact hk x hx (hout (by simpa using hc) x hx)
  · split at h
    · simp only [Option.map_eq_some'] at h
      obtain ⟨q, hq, rfl⟩ := h
      intro x hx
      rcases HeapIndexed.mem_entries_update hq x hx with ⟨hx1, hx2⟩ | hx1
      · exact hk x hx1 hx2
      · exact ⟨e, he, by rw [hx1], by rw [hx1]; rfl⟩
    · next hc =>
      simp only [Option.map_eq_some'] at h
      obtain ⟨q, hq, rfl⟩ := h
      intro x hx
      rcases (HeapIndexed.mem_entries_insert hq x).mp hx with hx1 | hx1
      · exact hk x hx1 (hout (by simpa using hc) x hx1)
      · exact ⟨e, he, by rw [hx1], by rw [hx1]; rfl⟩

theorem reachableUpd_on {g : Graph} {s : inc_bi} (hs : ReachableUpd g s) :
    ReachableOn g s := by
  induction hs with
  | construct vs vg sp sd sl gp gd gl w m t1 t2 t3 s h =>
    exact ReachableOn.construct vs vg sp sd sl gp gd gl w m t1 t2 t3 s h
  | update_edge s s1 e he _ h ih => exact ReachableOn.update_edge s s1 e he ih h
  | change_weight s s1 w e he _ _ h ih =>
    exact ReachableOn.update_edge _ s1 e he (ReachableOn.set_weight s w ih) h
  | start_update_vertex s s1 u _ h ih => exact ReachableOn.start_update_vertex s s1 u ih h
  | goal_update_vertex s s1 u _ h ih => exact ReachableOn.goal_update_vertex s s1 u ih h
  | compute_shortest_path s s1 fuel r _ h ih =>
    exact ReachableOn.compute_shortest_path s s1 fuel r ih h

/-- When the weights change only together with `update_edge` on the changed arc, the keys
of the connection queue are current in every reachable state, on a graph with distinct
edge indices and no self-loop. -/
theorem reachableUpd_connKeys {g : Graph} (hn : g.DistinctIdx) (hl : g.NoSelfLoop)
    {s : inc_bi} (hs : ReachableUpd g s) : ConnKeys g s := by
  induction hs with
  | construct vs vg sp sd sl gp gd gl w m t1 t2 t3 s h =>
    obtain ⟨-, -, -, -, -, -, -, -, -, -, -, -, -, h14⟩ := construct_spec h
    intro x hx
    rw [h14] at hx
    simp at hx
  | update_edge s s1 e he _ h ih =>
    exact update_edge_connKeys he (fun x hx _ => ih x hx) h
  | change_weight s s1 w e he hw _ h ih =>
    refine update_edge_connKeys he ?_ h
    intro x hx hne
    obtain ⟨a, ha, hidx, hkey⟩ := ih x hx
    have hae : a ≠ e := fun h2 => hne (by rw [← hidx, h2])
    refine ⟨a, ha, hidx, ?_⟩
    rw [hkey]
    unfold conn_key_of
    simp only [hw a ha hae]
  | start_update_vertex s s1 u hs0 h ih =>
    exact start_update_vertex_connKeys (reachableOn_conn hn hl (reachableUpd_on hs0)).1 ih h
  | goal_update_vertex s s1 u hs0 h ih =>
    exact goal_update_vertex_connKeys (reachableOn_conn hn hl (reachableUpd_on hs0)).1 ih h
  | compute_shortest_path s s1 fuel r hs0 h ih =>
    exact (compute_shortest_path_inv (fun t => ConnInv g t ∧ ConnKeys g t)
      (fun t t1 hP ht => by
        obtain ⟨t2, h2, hI2⟩ := expand_start_conn hn hl hP.1 (expand_start_nonempty ht)
        rw [ht] at h2
        exact ⟨(Option.some.inj h2) ▸ hI2, expand_start_connKeys hn hP.1 hP.2 ht⟩)
      (fun t t1 hP ht => by
        obtain ⟨t2, h2, hI2⟩ := expand_goal_conn hn hl hP.1 (expand_goal_nonempty ht)
        rw [ht] at h2
        exact ⟨(Option.some.inj h2) ▸ hI2, expand_goal_connKeys hn hP.1 hP.2 ht⟩)
      fuel s r s1 ⟨reachableOn_conn hn hl (reachableUpd_on hs0), ih⟩ h).2

end inc_bi

/-- C31 (counterexample): on the graph without self-loops whose two arcs 0 -> 1 and 1 -> 0
share the edge index 0, a fresh engine searching from 0 to 1, with no weight change at
all, returns the index 0 as found; in the state it leaves, the connection queue holds the
index 0 under the key `(1, 0, 0)`, while the key computed from the current maps for the
arc 1 -> 0 of that index is `(inf, inf, inf)`. -/
theorem C31_counterexample :
    shared_index.NoSelfLoop ∧
    ∃ s0 s1, inc_bi.fresh shared_index 0 1 (fun _ => Weight.fin 1) Weight.zero = some s0 ∧
      inc_bi.compute_shortest_path 10 s0 = Run.done ((0, true), s1) ∧
      inc_bi.ReachableUpd shared_index s1 ∧
      (⟨1, 0, 0⟩ : Arc) ∈ shared_index.arcs ∧
      s1.conn_queue.entries = [(0, ⟨Weight.fin 1, Weight.fin 0, Weight.fin 0⟩)] ∧
      s1.conn_key_of ⟨1, 0, 0⟩ = ⟨Weight.inf, Weight.inf, Weight.inf⟩ := by
  refine ⟨by decide, ?_⟩
  have hd : ((inc_bi.fresh shared_index 0 1 (fun _ => Weight.fin 1) Weight.zero).bind
      (fun s => (inc_bi.compute_shortest_path 10 s).result)).map
      (fun x => (x.1, x.2.conn_queue.entries, x.2.conn_key_of ⟨1, 0, 0⟩))
      = some ((0, true), [(0, ⟨Weight.fin 1, Weight.fin 0, Weight.fin 0⟩)],
          ⟨Weight.inf, Weight.inf, Weight.inf⟩) := by decide
  obtain ⟨x, hx, hval⟩ := Option.map_eq_some'.mp hd
  obtain ⟨s0, hs0, hrun⟩ := Option.bind_eq_some.mp hx
  simp only [Prod.mk.injEq] at hval
  obtain ⟨h1, h2, h3⟩ := hval
  have hr : inc_bi.compute_shortest_path 10 s0 = Run.done ((0, true), x.2) := by
    rw [← h1]
    exact run_result_eq_some hrun
  exact ⟨s0, x.2, hs0, hr,
    inc_bi.ReachableUpd.compute_shortest_path s0 x.2 10 (0, true)
      (inc_bi.ReachableUpd.construct _ _ _ _ _ _ _ _ _ _ _ _ _ s0 hs0) hr,
    by decide, h2, h3⟩

/-- C31 (amended): on a graph with distinct edge indices and no self-loop, when the
weights change only together with a call of `update_edge` on the changed arc, in every
reachable state
every entry of `conn_queue` is the index of an arc of the graph, and every arc
`e = (a, b)` present in `conn_queue` carries the key
`(combine(combine(start_distance(a), weight(e)), goal_distance(b)), start_distance(a),
goal_distance(b))` computed from the current maps. -/
theorem C31_conn_keys_current (g : Graph) (s : inc_bi) (hn : g.DistinctIdx)
    (hl : g.NoSelfLoop) (hs : inc_bi.ReachableUpd g s) :
    (∀ x ∈ s.conn_queue.entries, ∃ e ∈ g.arcs, e.idx = x.1) ∧
      ∀ e ∈ g.arcs, ∀ k, (e.idx, k) ∈ s.conn_queue.entries →
        k = ⟨Weight.combine (Weight.combine (s.start_distance e.src) (s.weight e))
              (s.goal_distance e.tgt),
            s.start_distance e.src, s.goal_distance e.tgt⟩ := by
  have hk := inc_bi.reachableUpd_connKeys hn hl hs
  constructor
  · intro x hx
    obtain ⟨e, he, hidx, -⟩ := hk x hx
    exact ⟨e, he, hidx⟩
  · intro e he k hm
    obtain ⟨a, ha, hidx, hkey⟩ := hk (e.idx, k) hm
    have hae : a = e := idx_inj_distinct hn ha he hidx
    subst hae
    exact hkey

/-- Claim C31 on the cycle: after a run from the vertex 0 to the vertex 2 the weight of
the arc 0 -> 1 is changed from 1 to 5 and `update_edge` is called on it; the connection
queue then holds this arc with the path length 6 = 0 + 5 + 1 computed from the current
maps. -/
theorem C31_conn_keys_current_witness :
    ∃ s0 r s1 s2, inc_bi.fresh cycle4 0 2 cycle4_weight Weight.zero = some s0 ∧
      inc_bi.compute_shortest_path 10 s0 = Run.done (r, s1) ∧
      inc_bi.update_edge
        { s1 with weight := Function.update s1.weight ⟨0, 1, 0⟩ (Weight.fin 5) } ⟨0, 1, 0⟩
        = some s2 ∧
      s2.conn_queue.entries = [(0, ⟨Weight.fin 6, Weight.fin 0, Weight.fin 1⟩)] ∧
      (∀ x ∈ s2.conn_queue.entries, ∃ e ∈ cycle4.arcs, e.idx = x.1) ∧
      ∀ e ∈ cycle4.arcs, ∀ k, (e.idx, k) ∈ s2.conn_queue.entries →
        k = ⟨Weight.combine (Weight.combine (s2.start_distance e.src) (s2.weight e))
              (s2.goal_distance e.tgt),
            s2.start_distance e.src, s2.goal_distance e.tgt⟩ := by
  have hd : (((inc_bi.fresh cycle4 0 2 cycle4_weight Weight.zero).bind
      (fun s => (inc_bi.compute_shortest_path 10 s).result)).bind
      (fun x => inc_bi.update_edge
        { x.2 with weight := Function.update x.2.weight ⟨0, 1, 0⟩ (Weight.fin 5) }
        ⟨0, 1, 0⟩)).map (fun s2 => s2.conn_queue.entries)
      = some [(0, ⟨Weight.fin 6, Weight.fin 0, Weight.fin 1⟩)] := by decide
  obtain ⟨s2, hx, hval⟩ := Option.map_eq_some'.mp hd
  obtain ⟨x, hx1, hs2⟩ := Option.bind_eq_some.mp hx
  obtain ⟨s0, hs0, hc⟩ := Option.bind_eq_some.mp hx1
  have hrun : inc_bi.compute_shortest_path 10 s0 = Run.done (x.1, x.2) :=
    run_result_eq_some hc
  exact ⟨s0, x.1, x.2, s2, hs0, hrun, hs2, hval,
    C31_conn_keys_current cycle4 s2 (by decide) (by decide)
      (inc_bi.ReachableUpd.change_weight x.2 s2 _ ⟨0, 1, 0⟩ (by decide)
        (fun a _ hae => Function.update_noteq hae _ _)
        (inc_bi.ReachableUpd.compute_shortest_path s0 x.2 10 x.1
          (inc_bi.ReachableUpd.construct _ _ _ _ _ _ _ _ _ _ _ _ _ s0 hs0) hrun) hs2)⟩


/-! ## Termination of a run when the weights change between the calls -/

theorem staleness_le_two (g : Graph) (w : Arc → Weight) (src : Nat) (d rhs : Nat → Weight)
    (v : Nat) : staleness g w src d rhs v ≤ 2 := by
  unfold staleness
  split
  · omega
  · split <;> omega

theorem openness_le_two (n : Nat) (d rhs : Nat → Weight) (v : Nat) :
    openness n d rhs v ≤ 2 := by
  unfold openness
  split
  · omega
  · split <;> omega

theorem sideStep_dist_other {g : Graph} {w : Arc → Weight} {src : Nat}
    {d rhs d1 rhs1 : Nat → Weight} {u : Nat} (h : SideStep g w src d rhs d1 rhs1 u)
    {v : Nat} (hv : v ≠ u) : d1 v = d v := by
  rw [h.dist]
  exact Function.update_noteq hv _ _

theorem sideStep_untouched_lookahead {g : Graph} {w : Arc → Weight} {src : Nat}
    {d rhs d1 rhs1 : Nat → Weight} {u : Nat} (h : SideStep g w src d rhs d1 rhs1 u)
    {v : Nat} (hv : ¬ touched_by g u (Weight.lt (rhs u) (d u)) v) :
    lookahead_of g w d1 v = lookahead_of g w d v := by
  apply lookahead_of_congr
  intro e he ht
  apply sideStep_dist_other h
  intro hsu
  exact hv (Or.inl ⟨e, he, hsu, ht⟩)

theorem sideStep_fresh {g : Graph} {w : Arc → Weight} {src : Nat}
    {d rhs d1 rhs1 : Nat → Weight} {u : Nat} (h : SideStep g w src d rhs d1 rhs1 u)
    {v : Nat} (hf : fresh_at g w src d rhs v) : fresh_at g w src d1 rhs1 v := by
  rcases hf with hf | hf
  · exact Or.inl hf
  · by_cases hs : v = src
    · exact Or.inl hs
    · by_cases ht : touched_by g u (Weight.lt (rhs u) (d u)) v
      · exact Or.inr (h.rhs_touched v hs ht)
      · right
        rw [h.rhs_kept v ht, hf, sideStep_untouched_lookahead h ht]

theorem sideStep_staleness_le {g : Graph} {w : Arc → Weight} {src : Nat}
    {d rhs d1 rhs1 : Nat → Weight} {u : Nat} (h : SideStep g w src d rhs d1 rhs1 u)
    (v : Nat) : staleness g w src d1 rhs1 v ≤ staleness g w src d rhs v := by
  by_cases hf : fresh_at g w src d rhs v
  · have hf1 := sideStep_fresh h hf
    simp [staleness, hf, hf1]
  · by_cases hf1 : fresh_at g w src d1 rhs1 v
    · simp [staleness, hf1]
    · by_cases hc : d v = rhs v
      · have hvu : v ≠ u := fun hvu => h.queued (hvu ▸ hc)
        have hs : v ≠ src := fun hs => hf1 (Or.inl hs)
        have ht : ¬ touched_by g u (Weight.lt (rhs u) (d u)) v :=
          fun ht => hf1 (Or.inr (h.rhs_touched v hs ht))
        have hc1 : d1 v = rhs1 v := by
          rw [sideStep_dist_other h hvu, h.rhs_kept v ht, hc]
        simp [staleness, hf, hf1, hc, hc1]
      · have := staleness_le_two g w src d1 rhs1 v
        simp only [staleness, hf, hc, if_false]
        exact this


theorem staleness_eq_zero {g : Graph} {w : Arc → Weight} {src : Nat} {d rhs : Nat → Weight}
    {v : Nat} (h : staleness g w src d rhs v = 0) : fresh_at g w src d rhs v := by
  unfold staleness at h
  by_cases hf : fresh_at g w src d rhs v
  · exact hf
  · simp only [hf, if_false] at h
    split at h <;> omega

theorem sideStep_touched_lt {g : Graph} {w : Arc → Weight} {src : Nat}
    {d rhs d1 rhs1 : Nat → Weight} {u : Nat} (h : SideStep g w src d rhs d1 rhs1 u)
    (hg : ∀ e ∈ g.arcs, e.src < g.nv ∧ e.tgt < g.nv) {t : Nat}
    (ht : touched_by g u (Weight.lt (rhs u) (d u)) t) : t < g.nv := by
  rcases ht with ⟨e, he, -, rfl⟩ | ⟨rfl, -⟩
  · exact (hg e he).2
  · exact h.lt_nv

theorem sideStep_touched_fresh {g : Graph} {w : Arc → Weight} {src : Nat}
    {d rhs d1 rhs1 : Nat → Weight} {u : Nat} (h : SideStep g w src d rhs d1 rhs1 u)
    (hg : ∀ e ∈ g.arcs, e.src < g.nv ∧ e.tgt < g.nv)
    (heq : ∀ v, v < g.nv → staleness g w src d1 rhs1 v = staleness g w src d rhs v)
    {t : Nat} (hs : t ≠ src) (ht : touched_by g u (Weight.lt (rhs u) (d u)) t) :
    rhs t = lookahead_of g w d t := by
  have h1 : staleness g w src d1 rhs1 t = 0 := by
    have hf : fresh_at g w src d1 rhs1 t := Or.inr (h.rhs_touched t hs ht)
    simp [staleness, hf]
  rw [heq t (sideStep_touched_lt h hg ht)] at h1
  rcases staleness_eq_zero h1 with h2 | h2
  · exact absurd h2 hs
  · exact h2

theorem sideStep_lowered {g : Graph} {w : Arc → Weight} {src : Nat}
    {d rhs d1 rhs1 : Nat → Weight} {u : Nat} (h : SideStep g w src d rhs d1 rhs1 u)
    (hg : ∀ e ∈ g.arcs, e.src < g.nv ∧ e.tgt < g.nv)
    (heq : ∀ v, v < g.nv → staleness g w src d1 rhs1 v = staleness g w src d rhs v)
    (ho : Weight.lt (rhs u) (d u) = true) :
    d1 u = rhs u ∧ rhs1 u = rhs u ∧ min (d u) (rhs u) = rhs u := by
  have hd1 : d1 = Function.update d u (rhs u) := by
    rw [h.dist]
    simp [ho]
  refine ⟨?_, ?_, ?_⟩
  · rw [hd1]
    simp
  · by_cases hs : u = src
    · rw [hs]
      exact h.rhs_src
    by_cases ht : touched_by g u (Weight.lt (rhs u) (d u)) u
    swap
    · exact h.rhs_kept u ht
    have hf := sideStep_touched_fresh h hg heq hs ht
    have hlt : lookahead_of g w d u < d u := by
      rw [← hf]
      exact ho
    rw [h.rhs_touched u hs ht, hd1, hf]
    exact lookahead_of_lowered w hlt
  · exact min_eq_right (le_of_lt ho)

theorem sideStep_raised {g : Graph} {w : Arc → Weight} {src : Nat}
    {d rhs d1 rhs1 : Nat → Weight} {u : Nat} (h : SideStep g w src d rhs d1 rhs1 u)
    (h0 : rhs src = Weight.zero) (ho : Weight.lt (rhs u) (d u) = false) :
    d1 u = Weight.inf ∧ d u < rhs u ∧ min (d u) (rhs u) = d u ∧ u ≠ src ∧
      d u ≠ Weight.inf := by
  have hle : d u ≤ rhs u := by
    have : ¬ (rhs u < d u) := by
      intro hlt
      have hlt1 : Weight.lt (rhs u) (d u) = true := hlt
      rw [ho] at hlt1
      exact absurd hlt1 (by simp)
    exact not_lt.mp this
  have hlt : d u < rhs u := lt_of_le_of_ne hle h.queued
  refine ⟨?_, hlt, min_eq_left hle, ?_, ?_⟩
  · rw [h.dist]
    simp [ho]
  · intro hs
    rw [hs, h0] at hlt
    exact absurd (Weight.zero_le_order (d src)) (not_le.mpr hlt)
  · intro hi
    rw [hi] at hlt
    exact absurd (Weight.le_inf_order (rhs u)) (not_le.mpr hlt)

theorem sideStep_top_fresh {g : Graph} {w : Arc → Weight} {src : Nat}
    {d rhs d1 rhs1 : Nat → Weight} {u : Nat} (h : SideStep g w src d rhs d1 rhs1 u)
    (hg : ∀ e ∈ g.arcs, e.src < g.nv ∧ e.tgt < g.nv)
    (heq : ∀ v, v < g.nv → staleness g w src d1 rhs1 v = staleness g w src d rhs v)
    (hs : u ≠ src) : rhs u = lookahead_of g w d u := by
  cases ho : Weight.lt (rhs u) (d u) with
  | false => exact sideStep_touched_fresh h hg heq hs (Or.inr ⟨rfl, ho⟩)
  | true =>
    obtain ⟨h1, h2, -⟩ := sideStep_lowered h hg heq ho
    have hc1 : d1 u = rhs1 u := h1.trans h2.symm
    have hle : staleness g w src d1 rhs1 u ≤ 1 := by
      unfold staleness
      split
      · omega
      · simp [hc1]
    rw [heq u h.lt_nv] at hle
    have hf : fresh_at g w src d rhs u := by
      by_cases hf : fresh_at g w src d rhs u
      · exact hf
      · simp [staleness, hf, h.queued] at hle
    rcases hf with hf | hf
    · exact absurd hf hs
    · exact hf

theorem sideStep_dist_top_ge {g : Graph} {w : Arc → Weight} {src : Nat}
    {d rhs d1 rhs1 : Nat → Weight} {u : Nat} (h : SideStep g w src d rhs d1 rhs1 u) :
    min (d u) (rhs u) ≤ d1 u := by
  rw [h.dist]
  simp only [Function.update_same]
  split
  · exact min_le_right _ _
  · exact Weight.le_inf_order _

theorem sideStep_frozen {g : Graph} {w : Arc → Weight} {src : Nat}
    {d rhs d1 rhs1 : Nat → Weight} {u : Nat} (h : SideStep g w src d rhs d1 rhs1 u)
    (hm : Mirrored g w)
    (hg : ∀ e ∈ g.arcs, e.src < g.nv ∧ e.tgt < g.nv) (h0 : rhs src = Weight.zero)
    (heq : ∀ v, v < g.nv → staleness g w src d1 rhs1 v = staleness g w src d rhs v)
    {v : Nat} (hc : d v = rhs v) (hle : d v ≤ min (d u) (rhs u)) :
    d1 v = d v ∧ rhs1 v = rhs v := by
  have hvu : v ≠ u := fun hvu => h.queued (hvu ▸ hc)
  refine ⟨sideStep_dist_other h hvu, ?_⟩
  by_cases hs : v = src
  · rw [hs]
    exact h.rhs_src
  by_cases ht : touched_by g u (Weight.lt (rhs u) (d u)) v
  swap
  · exact h.rhs_kept v ht
  have hf := sideStep_touched_fresh h hg heq hs ht
  rw [h.rhs_touched v hs ht, hf]
  have hK : min (d u) (rhs u) ≠ Weight.inf := min_ne_inf h.queued
  have hfin : lookahead_of g w d v ≠ Weight.inf := by
    intro hi
    rw [← hf, ← hc] at hi
    rw [hi] at hle
    exact hK (le_antisymm (Weight.le_inf_order _) hle)
  obtain ⟨e, he, het, hatt⟩ : ∃ e ∈ g.arcs, e.tgt = v ∧
      lookahead_of g w d v = Weight.combine (d e.src) (w e) := by
    rcases lookahead_of_attained g w d v with h1 | h1
    · exact absurd h1 hfin
    · exact h1
  cases ho : Weight.lt (rhs u) (d u) with
  | true =>
    obtain ⟨h1, -, h3⟩ := sideStep_lowered h hg heq ho
    apply le_antisymm
    · apply lookahead_of_mono
      intro a _ _
      by_cases hau : a.src = u
      · rw [hau, h1]
        exact le_of_lt ho
      · rw [sideStep_dist_other h hau]
    · rcases lookahead_of_attained g w d1 v with h4 | ⟨a, ha, hat, h4⟩
      · rw [h4]
        exact Weight.le_inf_order _
      · rw [h4]
        by_cases hau : a.src = u
        · rw [hau, h1, ← hf, ← hc]
          rw [h3] at hle
          exact le_trans hle (Weight.le_combine_order _ _)
        · rw [sideStep_dist_other h hau]
          exact lookahead_of_le w d ha hat
  | false =>
    obtain ⟨h1, h2, h3, h4, h5⟩ := sideStep_raised h h0 ho
    apply le_antisymm
    · by_cases heu : e.src = u
      · exfalso
        rw [h3] at hle
        rw [hc, hf, hatt, heu] at hle
        have hz := Weight.combine_le_self hle h5
        obtain ⟨e1, he1, hs1, ht1, hw1⟩ := hm e he
        have hfu := sideStep_top_fresh h hg heq h4
        have hle2 : rhs u ≤ Weight.combine (d e1.src) (w e1) := by
          rw [hfu]
          exact lookahead_of_le w d he1 (ht1.trans heu)
        rw [hw1, hz, hs1, het, hc, hf, hatt, heu, hz] at hle2
        exact absurd hle2 (not_le.mpr h2)
      · rw [hatt, ← sideStep_dist_other h heu]
        exact lookahead_of_le w d1 he het
    · apply lookahead_of_mono
      intro a _ _
      by_cases hau : a.src = u
      · rw [hau, h1]
        exact Weight.le_inf_order _
      · rw [sideStep_dist_other h hau]


theorem sideStep_keys_ge {g : Graph} {w : Arc → Weight} {src : Nat}
    {d rhs d1 rhs1 : Nat → Weight} {u : Nat} (h : SideStep g w src d rhs d1 rhs1 u)
    (hm : Mirrored g w)
    (hg : ∀ e ∈ g.arcs, e.src < g.nv ∧ e.tgt < g.nv) (h0 : rhs src = Weight.zero)
    (heq : ∀ v, v < g.nv → staleness g w src d1 rhs1 v = staleness g w src d rhs v)
    {v : Nat} (hv : v < g.nv) (hq1 : d1 v ≠ rhs1 v) :
    min (d u) (rhs u) ≤ min (d1 v) (rhs1 v) := by
  by_cases hvu : v = u
  · subst hvu
    cases ho : Weight.lt (rhs v) (d v) with
    | true =>
      obtain ⟨h1, h2, -⟩ := sideStep_lowered h hg heq ho
      exact absurd (h1.trans h2.symm) hq1
    | false =>
      obtain ⟨h1, h2, h3, h4, -⟩ := sideStep_raised h h0 ho
      have hr : rhs v ≤ rhs1 v := by
        rw [h.rhs_touched v h4 (Or.inr ⟨rfl, ho⟩), sideStep_top_fresh h hg heq h4]
        apply lookahead_of_mono
        intro e _ _
        by_cases hsu : e.src = v
        · rw [hsu, h1]
          exact Weight.le_inf_order _
        · rw [sideStep_dist_other h hsu]
      rw [h1, h3]
      exact le_min (Weight.le_inf_order _) (le_trans (le_of_lt h2) hr)
  · have hdv : d1 v = d v := sideStep_dist_other h hvu
    have hboth : min (d u) (rhs u) ≤ d v ∧ min (d u) (rhs u) ≤ rhs v := by
      by_cases hc : d v = rhs v
      · rcases le_or_lt (d v) (min (d u) (rhs u)) with hle | hlt
        · obtain ⟨h1, h2⟩ := sideStep_frozen h hm hg h0 heq hc hle
          exact absurd (h1.trans (hc.trans h2.symm)) hq1
        · exact ⟨le_of_lt hlt, hc ▸ le_of_lt hlt⟩
      · have hmin : min (d u) (rhs u) ≤ min (d v) (rhs v) := h.minimal v hv hc
        exact ⟨le_trans hmin (min_le_left _ _), le_trans hmin (min_le_right _ _)⟩
    rw [hdv]
    refine le_min hboth.1 ?_
    by_cases hs : v = src
    · rw [hs, h.rhs_src, ← hs]
      exact hboth.2
    by_cases ht : touched_by g u (Weight.lt (rhs u) (d u)) v
    swap
    · rw [h.rhs_kept v ht]
      exact hboth.2
    have hf := sideStep_touched_fresh h hg heq hs ht
    rw [h.rhs_touched v hs ht]
    rcases lookahead_of_attained g w d1 v with h4 | ⟨a, ha, hat, h4⟩
    · rw [h4]
      exact Weight.le_inf_order _
    · rw [h4]
      by_cases hau : a.src = u
      · rw [hau]
        exact le_trans (sideStep_dist_top_ge h) (Weight.le_combine_order _ _)
      · rw [sideStep_dist_other h hau]
        refine le_trans hboth.2 ?_
        rw [hf]
        exact lookahead_of_le w d ha hat

theorem sideStep_settled {g : Graph} {w : Arc → Weight} {src : Nat}
    {d rhs d1 rhs1 : Nat → Weight} {u : Nat} (h : SideStep g w src d rhs d1 rhs1 u)
    (hm : Mirrored g w)
    (hg : ∀ e ∈ g.arcs, e.src < g.nv ∧ e.tgt < g.nv) (h0 : rhs src = Weight.zero)
    (heq : ∀ v, v < g.nv → staleness g w src d1 rhs1 v = staleness g w src d rhs v)
    {v : Nat} (hs : settled_at g.nv d rhs v) : settled_at g.nv d1 rhs1 v := by
  obtain ⟨hc, hall⟩ := hs
  have hle : d v ≤ min (d u) (rhs u) := hall u h.lt_nv h.queued
  obtain ⟨h1, h2⟩ := sideStep_frozen h hm hg h0 heq hc hle
  refine ⟨h1.trans (hc.trans h2.symm), ?_⟩
  intro x hx hq
  have hk := sideStep_keys_ge h hm hg h0 heq hx hq
  have : d1 v ≤ min (d1 x) (rhs1 x) := by
    rw [h1]
    exact le_trans hle hk
  exact this

theorem sideStep_openness_lt {g : Graph} {w : Arc → Weight} {src : Nat}
    {d rhs d1 rhs1 : Nat → Weight} {u : Nat} (h : SideStep g w src d rhs d1 rhs1 u)
    (hm : Mirrored g w)
    (hg : ∀ e ∈ g.arcs, e.src < g.nv ∧ e.tgt < g.nv) (h0 : rhs src = Weight.zero)
    (heq : ∀ v, v < g.nv → staleness g w src d1 rhs1 v = staleness g w src d rhs v) :
    openness g.nv d1 rhs1 u < openness g.nv d rhs u := by
  have hns : ¬ settled_at g.nv d rhs u := fun hs => h.queued hs.1
  cases ho : Weight.lt (rhs u) (d u) with
  | true =>
    obtain ⟨h1, h2, h3⟩ := sideStep_lowered h hg heq ho
    have hs1 : settled_at g.nv d1 rhs1 u := by
      refine ⟨h1.trans h2.symm, ?_⟩
      intro x hx hq
      have hk := sideStep_keys_ge h hm hg h0 heq hx hq
      have : d1 u ≤ min (d1 x) (rhs1 x) := by
        rw [h1, ← h3]
        exact hk
      exact this
    have h4 : openness g.nv d1 rhs1 u = 0 := by simp [openness, hs1]
    rw [h4]
    unfold openness
    simp only [hns, if_false]
    split <;> omega
  | false =>
    obtain ⟨h1, -, -, -, h5⟩ := sideStep_raised h h0 ho
    have h4 : openness g.nv d1 rhs1 u ≤ 1 := by
      unfold openness
      split
      · omega
      · simp [h1]
    have h6 : openness g.nv d rhs u = 2 := by simp [openness, hns, h5]
    omega

theorem sideStep_openness_le {g : Graph} {w : Arc → Weight} {src : Nat}
    {d rhs d1 rhs1 : Nat → Weight} {u : Nat} (h : SideStep g w src d rhs d1 rhs1 u)
    (hm : Mirrored g w)
    (hg : ∀ e ∈ g.arcs, e.src < g.nv ∧ e.tgt < g.nv) (h0 : rhs src = Weight.zero)
    (heq : ∀ v, v < g.nv → staleness g w src d1 rhs1 v = staleness g w src d rhs v)
    (v : Nat) : openness g.nv d1 rhs1 v ≤ openness g.nv d rhs v := by
  by_cases hvu : v = u
  · rw [hvu]
    exact le_of_lt (sideStep_openness_lt h hm hg h0 heq)
  by_cases hs : settled_at g.nv d rhs v
  · have hs1 := sideStep_settled h hm hg h0 heq hs
    simp [openness, hs, hs1]
  · have hdv : d1 v = d v := sideStep_dist_other h hvu
    unfold openness
    simp only [hs, if_false, hdv]
    split
    · omega
    · exact le_refl _

/-- Every expansion of a frontier lowers its measure, on a graph without self-loops whose
arcs come in mirrored pairs of equal weight. -/
theorem side_measure_step {g : Graph} {w : Arc → Weight} {src : Nat}
    {d rhs d1 rhs1 : Nat → Weight} {u : Nat} (hm : Mirrored g w)
    (hg : ∀ e ∈ g.arcs, e.src < g.nv ∧ e.tgt < g.nv) (h0 : rhs src = Weight.zero)
    (h : SideStep g w src d rhs d1 rhs1 u) :
    side_measure g w src d1 rhs1 < side_measure g w src d rhs := by
  unfold side_measure
  have hS1 : Finset.sum (Finset.range g.nv) (staleness g w src d1 rhs1) ≤
      Finset.sum (Finset.range g.nv) (staleness g w src d rhs) :=
    Finset.sum_le_sum (fun v _ => sideStep_staleness_le h v)
  have hb : Finset.sum (Finset.range g.nv) (openness g.nv d1 rhs1) ≤ 2 * g.nv := by
    have := Finset.sum_le_sum (s := Finset.range g.nv)
      (fun v _ => openness_le_two g.nv d1 rhs1 v)
    simpa [Finset.sum_const, Nat.mul_comm] using this
  rcases Nat.lt_or_eq_of_le hS1 with hlt | heq
  · have h1 : (Finset.sum (Finset.range g.nv) (staleness g w src d1 rhs1) + 1) *
        (2 * g.nv + 1) ≤
        Finset.sum (Finset.range g.nv) (staleness g w src d rhs) * (2 * g.nv + 1) :=
      Nat.mul_le_mul_right _ hlt
    rw [Nat.add_mul] at h1
    omega
  · have heq1 : ∀ v, v < g.nv →
        staleness g w src d1 rhs1 v = staleness g w src d rhs v := by
      intro v hv
      exact (Finset.sum_eq_sum_iff_of_le (fun v _ => sideStep_staleness_le h v)).mp heq v
        (Finset.mem_range.mpr hv)
    have hS2 : Finset.sum (Finset.range g.nv) (openness g.nv d1 rhs1) <
        Finset.sum (Finset.range g.nv) (openness g.nv d rhs) :=
      Finset.sum_lt_sum (fun v _ => sideStep_openness_le h hm hg h0 heq1 v)
        ⟨u, Finset.mem_range.mpr h.lt_nv, sideStep_openness_lt h hm hg h0 heq1⟩
    rw [heq]
    omega

theorem side_measure_le (g : Graph) (w : Arc → Weight) (src : Nat) (d rhs : Nat → Weight) :
    side_measure g w src d rhs ≤ 2 * g.nv * (2 * g.nv + 1) + 2 * g.nv := by
  unfold side_measure
  have h1 : Finset.sum (Finset.range g.nv) (staleness g w src d rhs) ≤ 2 * g.nv := by
    have := Finset.sum_le_sum (s := Finset.range g.nv)
      (fun v _ => staleness_le_two g w src d rhs v)
    simpa [Finset.sum_const, Nat.mul_comm] using this
  have h2 : Finset.sum (Finset.range g.nv) (openness g.nv d rhs) ≤ 2 * g.nv := by
    have := Finset.sum_le_sum (s := Finset.range g.nv)
      (fun v _ => openness_le_two g.nv d rhs v)
    simpa [Finset.sum_const, Nat.mul_comm] using this
  have h3 := Nat.mul_le_mul_right (2 * g.nv + 1) h1
  omega

namespace inc_bi

/-- What one call of `start_update_vertex(t)` does to the start frontier: the lookahead of
`t` is recomputed unless `t` is the start vertex, no other lookahead and no distance
changes, and no vertex other than `t` enters or leaves the start queue. -/
theorem start_update_vertex_lookahead {s s1 : inc_bi} {t : Nat}
    (h : start_update_vertex s t = some s1) :
    StartFrame s s1 ∧ s1.start_distance = s.start_distance ∧
      (∀ v, v ≠ t → s1.start_distance_lookahead v = s.start_distance_lookahead v) ∧
      (∀ v, v ≠ t → s1.start_queue.contains v = s.start_queue.contains v) ∧
      (t ≠ s.v_start → s1.start_distance_lookahead t =
        lookahead_of s.g s.weight s.start_distance t) := by
  obtain ⟨hf, hd, -, hl, hq⟩ := start_update_vertex_frame h
  refine ⟨hf, hd, hl, hq, ?_⟩
  intro ht
  obtain ⟨q, hc, -, -⟩ := start_update_vertex_spec h
  obtain ⟨cq, rfl⟩ := hc
  dsimp only
  unfold start_recompute
  simp only [ne_eq, ht, not_false_eq_true, if_true, Function.update_same]
  exact start_rhs_loop_fst s t

theorem start_lower_step_lookahead {x : Weight} {s s1 : inc_bi} {e : Arc}
    (h : start_lower_step x s e = some s1) :
    StartFrame s s1 ∧ s1.start_distance = s.start_distance ∧
      (∀ v, v ≠ e.tgt → s1.start_distance_lookahead v = s.start_distance_lookahead v) ∧
      (∀ v, v ≠ e.tgt → s1.start_queue.contains v = s.start_queue.contains v) ∧
      (e.tgt ≠ s.v_start → s1.start_distance_lookahead e.tgt =
        lookahead_of s.g s.weight s.start_distance e.tgt) := by
  unfold start_lower_step at h
  simp only [Option.bind_eq_some] at h
  obtain ⟨s2, h2, h3⟩ := h
  have hc : ConnOnly s2 s1 := by
    split at h3
    · simp only [Option.map_eq_some'] at h3
      obtain ⟨q, -, rfl⟩ := h3
      exact ⟨q, rfl⟩
    · simp only [Option.some.injEq] at h3
      exact h3 ▸ connOnly_refl s2
  obtain ⟨hf, hd, hl, hq, hr⟩ := start_update_vertex_lookahead h2
  obtain ⟨q, rfl⟩ := hc
  exact ⟨startFrame_trans hf (connOnly_startFrame ⟨q, rfl⟩), hd, hl, hq, hr⟩

/-- A loop of updates of the start frontier, one for the vertex `pick a` of each arc `a`
of the list: the lookaheads of these vertices are recomputed from the distances, which
the loop leaves alone; no other lookahead changes, and only these vertices enter or leave
the start queue. -/
theorem foldlM_start_lookahead (pick : Arc → Nat) (f : inc_bi → Arc → Option inc_bi)
    (hf : ∀ st a st1, f st a = some st1 →
      StartFrame st st1 ∧ st1.start_distance = st.start_distance ∧
      (∀ v, v ≠ pick a → st1.start_distance_lookahead v = st.start_distance_lookahead v) ∧
      (∀ v, v ≠ pick a → st1.start_queue.contains v = st.start_queue.contains v) ∧
      (pick a ≠ st.v_start → st1.start_distance_lookahead (pick a) =
        lookahead_of st.g st.weight st.start_distance (pick a))) :
    ∀ (l : List Arc) (st st1 : inc_bi), l.foldlM f st = some st1 →
      StartFrame st st1 ∧ st1.start_distance = st.start_distance ∧
      (∀ v, (∀ a ∈ l, pick a ≠ v) →
        st1.start_distance_lookahead v = st.start_distance_lookahead v ∧
        st1.start_queue.contains v = st.start_queue.contains v) ∧
      (∀ v, (∃ a ∈ l, pick a = v) → v ≠ st.v_start →
        st1.start_distance_lookahead v = lookahead_of st.g st.weight st.start_distance v) := by
  intro l
  induction l with
  | nil =>
    intro st st1 h
    simp only [List.foldlM, pure, Option.some.injEq] at h
    subst h
    refine ⟨startFrame_refl _, rfl, fun _ _ => ⟨rfl, rfl⟩, ?_⟩
    rintro v ⟨a, ha, -⟩
    exact absurd ha (List.not_mem_nil _)
  | cons b l ih =>
    intro st st1 h
    simp only [List.foldlM, bind, Option.bind_eq_some] at h
    obtain ⟨st2, h2, h3⟩ := h
    obtain ⟨hf1, hd1, hl1, hq1, hr1⟩ := hf st b st2 h2
    obtain ⟨hf2, hd2, hk2, hr2⟩ := ih st2 st1 h3
    refine ⟨startFrame_trans hf1 hf2, hd2.trans hd1, ?_, ?_⟩
    · intro v hv
      have hvb : v ≠ pick b := fun hvb => hv b (List.mem_cons_self _ _) hvb.symm
      obtain ⟨h4, h5⟩ := hk2 v (fun a ha => hv a (List.mem_cons_of_mem _ ha))
      exact ⟨h4.trans (hl1 v hvb), h5.trans (hq1 v hvb)⟩
    · intro v hv hvs
      by_cases hin : ∃ a ∈ l, pick a = v
      · rw [hr2 v hin (by rw [hf1.v_start]; exact hvs), hf1.g, hf1.weight, hd1]
      · obtain ⟨a, ha, hav⟩ := hv
        rcases List.mem_cons.mp ha with rfl | ha
        · have hnot : ∀ c ∈ l, pick c ≠ v := fun c hc hcv => hin ⟨c, hc, hcv⟩
          rw [(hk2 v hnot).1, ← hav]
          exact hr1 (by rw [hav]; exact hvs)
        · exact absurd ⟨a, ha, hav⟩ hin

end inc_bi


namespace inc_bi

/-- An expansion of the start frontier is a step of the frontier as the measure sees it,
and it keeps the start queue within the vertices of the graph. -/
theorem expand_start_sideStep {s s1 : inc_bi}
    (hg : ∀ e ∈ s.g.arcs, e.src < s.g.nv ∧ e.tgt < s.g.nv)
    (hinv : ∀ v, v < s.g.nv → StartInv s v) (hk : StartKeys s)
    (hb : ∀ v, s.start_queue.contains v = true → v < s.g.nv)
    (h : expand_start s = some s1) :
    (∃ u, SideStep s.g s.weight s.v_start s.start_distance s.start_distance_lookahead
        s1.start_distance s1.start_distance_lookahead u) ∧
      ∀ v, s1.start_queue.contains v = true → v < s.g.nv := by
  unfold expand_start at h
  simp only [Option.bind_eq_some] at h
  obtain ⟨u, hu, q, hq, h⟩ := h
  obtain ⟨e, he, hrem⟩ := HeapIndexed.remove_min_eq_some hq
  have hue : e.1 = u := by
    simp only [HeapIndexed.top_idx, he, Option.map_some', Option.some.injEq] at hu
    exact hu
  rw [hue] at hrem
  have hcont : s.start_queue.contains u = true := hue ▸ HeapIndexed.top_contains he
  have hun : u < s.g.nv := hb u hcont
  have hqd : s.start_distance u ≠ s.start_distance_lookahead u := (hinv u hun).mp hcont
  have hkey : e.2 = Weight.min (s.start_distance u) (s.start_distance_lookahead u) := by
    have := (hk e (HeapIndexed.top_mem he)).1
    rw [hue] at this
    exact this
  have hmin : ∀ v, v < s.g.nv → s.start_distance v ≠ s.start_distance_lookahead v →
      Weight.le (Weight.min (s.start_distance u) (s.start_distance_lookahead u))
        (Weight.min (s.start_distance v) (s.start_distance_lookahead v)) = true := by
    intro v hv hvq
    obtain ⟨kv, hkv⟩ := (HeapIndexed.contains_iff _ v).mp ((hinv v hv).mpr hvq)
    have h1 := (hk (v, kv) hkv).1
    have h2 := top_minimal he (v, kv) hkv
    rw [hkey] at h2
    have h3 : kv = Weight.min (s.start_distance v) (s.start_distance_lookahead v) := h1
    rw [← h3]
    unfold Weight.le
    simp only [h2, Bool.not_false]
  have hqv : ∀ v, q.contains v = true → s.start_queue.contains v = true := by
    intro v hv
    rw [HeapIndexed.contains_remove hrem v] at hv
    simp only [Bool.and_eq_true] at hv
    exact hv.1
  cases ho : Weight.lt (s.start_distance_lookahead u) (s.start_distance u) with
  | true =>
    have hgt : Weight.gt (s.start_distance u) (s.start_distance_lookahead u) = true := ho
    simp only [hgt, if_true] at h
    obtain ⟨hf, hd, hk2, hr2⟩ := foldlM_start_lookahead Arc.tgt _
      (fun _ _ _ hs => start_lower_step_lookahead hs) _ _ _ h
    dsimp only at hd hk2 hr2
    refine ⟨⟨u, ?_⟩, ?_⟩
    · refine
        { lt_nv := hun, queued := hqd, minimal := hmin, dist := ?_, rhs_src := ?_,
          rhs_touched := ?_, rhs_kept := ?_ }
      · rw [hd, ho]
        rfl
      · exact hf.lookahead_start
      · intro t hts ht
        rcases ht with ⟨a, ha, hau, hat⟩ | ⟨-, hfalse⟩
        · rw [hr2 t ⟨a, mem_out_edges.mpr ⟨ha, hau⟩, hat⟩ hts, hd]
        · rw [ho] at hfalse
          exact absurd hfalse (by simp)
      · intro t ht
        exact (hk2 t (fun a ha hat =>
          ht (Or.inl ⟨a, (mem_out_edges.mp ha).1, (mem_out_edges.mp ha).2, hat⟩))).1
    · intro v hv
      by_cases hin : ∃ a ∈ out_edges u s.g, a.tgt = v
      · obtain ⟨a, ha, rfl⟩ := hin
        exact (hg a (mem_out_edges.mp ha).1).2
      · rw [(hk2 v (fun a ha hat => hin ⟨a, ha, hat⟩)).2] at hv
        exact hb v (hqv v hv)
  | false =>
    have hgt : Weight.gt (s.start_distance u) (s.start_distance_lookahead u) = false := ho
    simp only [hgt, Bool.false_eq_true, if_false, Option.bind_eq_some] at h
    obtain ⟨s3, h3, h⟩ := h
    obtain ⟨hf3, hd3, hl3, hq3, hr3⟩ := start_update_vertex_lookahead h3
    obtain ⟨hf, hd, hk2, hr2⟩ := foldlM_start_lookahead Arc.tgt _
      (fun _ _ _ hs => start_update_vertex_lookahead hs) _ _ _ h
    dsimp only at hd3 hl3 hq3 hr3
    have hg3 : s3.g = s.g := hf3.g
    have hw3 : s3.weight = s.weight := hf3.weight
    have hv3 : s3.v_start = s.v_start := hf3.v_start
    refine ⟨⟨u, ?_⟩, ?_⟩
    · refine
        { lt_nv := hun, queued := hqd, minimal := hmin, dist := ?_, rhs_src := ?_,
          rhs_touched := ?_, rhs_kept := ?_ }
      · rw [hd, hd3, ho]
        rfl
      · have h4 := hf.lookahead_start
        have h5 := hf3.lookahead_start
        dsimp only at h5
        rw [hv3] at h4
        exact h4.trans h5
      · intro t hts ht
        by_cases hin : ∃ a ∈ out_edges u s3.g, a.tgt = t
        · rw [hr2 t hin (by rw [hv3]; exact hts), hd, hg3, hw3]
        · have hnot : ∀ a ∈ out_edges u s3.g, a.tgt ≠ t := fun a ha hat => hin ⟨a, ha, hat⟩
          rw [(hk2 t hnot).1]
          rcases ht with ⟨a, ha, hau, hat⟩ | ⟨htu, -⟩
          · exact absurd ⟨a, mem_out_edges.mpr ⟨hg3 ▸ ha, hau⟩, hat⟩ hin
          · subst htu
            rw [hr3 hts, hd, hd3]
      · intro t ht
        have hnot : ∀ a ∈ out_edges u s3.g, a.tgt ≠ t := fun a ha hat =>
          ht (Or.inl ⟨a, hg3 ▸ (mem_out_edges.mp ha).1, (mem_out_edges.mp ha).2, hat⟩)
        rw [(hk2 t hnot).1]
        exact hl3 t (fun htu => ht (Or.inr ⟨htu, ho⟩))
    · intro v hv
      by_cases hin : ∃ a ∈ out_edges u s3.g, a.tgt = v
      · obtain ⟨a, ha, rfl⟩ := hin
        exact (hg a (hg3 ▸ (mem_out_edges.mp ha).1)).2
      · rw [(hk2 v (fun a ha hat => hin ⟨a, ha, hat⟩)).2] at hv
        by_cases hvu : v = u
        · rw [hvu]
          exact hun
        · rw [hq3 v hvu] at hv
          exact hb v (hqv v hv)

end inc_bi

namespace inc_bi

/-- What one call of `goal_update_vertex(t)` does to the goal frontier: the lookahead of
`t` is recomputed unless `t` is the goal vertex, no other lookahead and no distance
changes, and no vertex other than `t` enters or leaves the goal queue. -/
theorem goal_update_vertex_lookahead {s s1 : inc_bi} {t : Nat}
    (h : goal_update_vertex s t = some s1) :
    GoalFrame s s1 ∧ s1.goal_distance = s.goal_distance ∧
      (∀ v, v ≠ t → s1.goal_distance_lookahead v = s.goal_distance_lookahead v) ∧
      (∀ v, v ≠ t → s1.goal_queue.contains v = s.goal_queue.contains v) ∧
      (t ≠ s.v_goal → s1.goal_distance_lookahead t =
        lookahead_of s.g s.weight s.goal_distance t) := by
  obtain ⟨hf, hd, -, hl, hq⟩ := goal_update_vertex_frame h
  refine ⟨hf, hd, hl, hq, ?_⟩
  intro ht
  obtain ⟨q, hc, -, -⟩ := goal_update_vertex_spec h
  obtain ⟨cq, rfl⟩ := hc
  dsimp only
  unfold goal_recompute
  simp only [ne_eq, ht, not_false_eq_true, if_true, Function.update_same]
  exact goal_rhs_loop_fst s t

theorem goal_lower_step_lookahead {x : Weight} {s s1 : inc_bi} {e : Arc}
    (h : goal_lower_step x s e = some s1) :
    GoalFrame s s1 ∧ s1.goal_distance = s.goal_distance ∧
      (∀ v, v ≠ e.src → s1.goal_distance_lookahead v = s.goal_distance_lookahead v) ∧
      (∀ v, v ≠ e.src → s1.goal_queue.contains v = s.goal_queue.contains v) ∧
      (e.src ≠ s.v_goal → s1.goal_distance_lookahead e.src =
        lookahead_of s.g s.weight s.goal_distance e.src) := by
  unfold goal_lower_step at h
  simp only [Option.bind_eq_some] at h
  obtain ⟨s2, h2, h3⟩ := h
  have hc : ConnOnly s2 s1 := by
    split at h3
    · simp only [Option.map_eq_some'] at h3
      obtain ⟨q, -, rfl⟩ := h3
      exact ⟨q, rfl⟩
    · simp only [Option.some.injEq] at h3
      exact h3 ▸ connOnly_refl s2
  obtain ⟨hf, hd, hl, hq, hr⟩ := goal_update_vertex_lookahead h2
  obtain ⟨q, rfl⟩ := hc
  exact ⟨goalFrame_trans hf (connOnly_goalFrame ⟨q, rfl⟩), hd, hl, hq, hr⟩

/-- A loop of updates of the goal frontier, one for the vertex `pick a` of each arc `a`
of the list: the lookaheads of these vertices are recomputed from the distances, which
the loop leaves alone; no other lookahead changes, and only these vertices enter or leave
the goal queue. -/
theorem foldlM_goal_lookahead (pick : Arc → Nat) (f : inc_bi → Arc → Option inc_bi)
    (hf : ∀ st a st1, f st a = some st1 →
      GoalFrame st st1 ∧ st1.goal_distance = st.goal_distance ∧
      (∀ v, v ≠ pick a → st1.goal_distance_lookahead v = st.goal_distance_lookahead v) ∧
      (∀ v, v ≠ pick a → st1.goal_queue.contains v = st.goal_queue.contains v) ∧
      (pick a ≠ st.v_goal → st1.goal_distance_lookahead (pick a) =
        lookahead_of st.g st.weight st.goal_distance (pick a))) :
    ∀ (l : List Arc) (st st1 : inc_bi), l.foldlM f st = some st1 →
      GoalFrame st st1 ∧ st1.goal_distance = st.goal_distance ∧
      (∀ v, (∀ a ∈ l, pick a ≠ v) →
        st1.goal_distance_lookahead v = st.goal_distance_lookahead v ∧
        st1.goal_queue.contains v = st.goal_queue.contains v) ∧
      (∀ v, (∃ a ∈ l, pick a = v) → v ≠ st.v_goal →
        st1.goal_distance_lookahead v = lookahead_of st.g st.weight st.goal_distance v) := by
  intro l
  induction l with
  | nil =>
    intro st st1 h
    simp only [List.foldlM, pure, Option.some.injEq] at h
    subst h
    refine ⟨goalFrame_refl _, rfl, fun _ _ => ⟨rfl, rfl⟩, ?_⟩
    rintro v ⟨a, ha, -⟩
    exact absurd ha (List.not_mem_nil _)
  | cons b l ih =>
    intro st st1 h
    simp only [List.foldlM, bind, Option.bind_eq_some] at h
    obtain ⟨st2, h2, h3⟩ := h
    obtain ⟨hf1, hd1, hl1, hq1, hr1⟩ := hf st b st2 h2
    obtain ⟨hf2, hd2, hk2, hr2⟩ := ih st2 st1 h3
    refine ⟨goalFrame_trans hf1 hf2, hd2.trans hd1, ?_, ?_⟩
    · intro v hv
      have hvb : v ≠ pick b := fun hvb => hv b (List.mem_cons_self _ _) hvb.symm
      obtain ⟨h4, h5⟩ := hk2 v (fun a ha => hv a (List.mem_cons_of_mem _ ha))
      exact ⟨h4.trans (hl1 v hvb), h5.trans (hq1 v hvb)⟩
    · intro v hv hvs
      by_cases hin : ∃ a ∈ l, pick a = v
      · rw [hr2 v hin (by rw [hf1.v_goal]; exact hvs), hf1.g, hf1.weight, hd1]
      · obtain ⟨a, ha, hav⟩ := hv
        rcases List.mem_cons.mp ha with rfl | ha
        · have hnot : ∀ c ∈ l, pick c ≠ v := fun c hc hcv => hin ⟨c, hc, hcv⟩
          rw [(hk2 v hnot).1, ← hav]
          exact hr1 (by rw [hav]; exact hvs)
        · exact absurd ⟨a, ha, hav⟩ hin

end inc_bi


namespace inc_bi

/-- An expansion of the goal frontier is a step of the frontier as the measure sees it,
on a graph whose arcs come in mirrored pairs, and it keeps the goal queue within the
vertices of the graph. -/
theorem expand_goal_sideStep {s s1 : inc_bi}
    (hg : ∀ e ∈ s.g.arcs, e.src < s.g.nv ∧ e.tgt < s.g.nv)
    (hm : ∀ e ∈ s.g.arcs, ∃ e1 ∈ s.g.arcs, e1.src = e.tgt ∧ e1.tgt = e.src)
    (hinv : ∀ v, v < s.g.nv → GoalInv s v) (hk : GoalKeys s)
    (hb : ∀ v, s.goal_queue.contains v = true → v < s.g.nv)
    (h : expand_goal s = some s1) :
    (∃ u, SideStep s.g s.weight s.v_goal s.goal_distance s.goal_distance_lookahead
        s1.goal_distance s1.goal_distance_lookahead u) ∧
      ∀ v, s1.goal_queue.contains v = true → v < s.g.nv := by
  unfold expand_goal at h
  simp only [Option.bind_eq_some] at h
  obtain ⟨u, hu, q, hq, h⟩ := h
  obtain ⟨e, he, hrem⟩ := HeapIndexed.remove_min_eq_some hq
  have hue : e.1 = u := by
    simp only [HeapIndexed.top_idx, he, Option.map_some', Option.some.injEq] at hu
    exact hu
  rw [hue] at hrem
  have hcont : s.goal_queue.contains u = true := hue ▸ HeapIndexed.top_contains he
  have hun : u < s.g.nv := hb u hcont
  have hqd : s.goal_distance u ≠ s.goal_distance_lookahead u := (hinv u hun).mp hcont
  have hkey : e.2 = Weight.min (s.goal_distance u) (s.goal_distance_lookahead u) := by
    have := (hk e (HeapIndexed.top_mem he)).1
    rw [hue] at this
    exact this
  have hmin : ∀ v, v < s.g.nv → s.goal_distance v ≠ s.goal_distance_lookahead v →
      Weight.le (Weight.min (s.goal_distance u) (s.goal_distance_lookahead u))
        (Weight.min (s.goal_distance v) (s.goal_distance_lookahead v)) = true := by
    intro v hv hvq
    obtain ⟨kv, hkv⟩ := (HeapIndexed.contains_iff _ v).mp ((hinv v hv).mpr hvq)
    have h1 := (hk (v, kv) hkv).1
    have h2 := top_minimal he (v, kv) hkv
    rw [hkey] at h2
    have h3 : kv = Weight.min (s.goal_distance v) (s.goal_distance_lookahead v) := h1
    rw [← h3]
    unfold Weight.le
    simp only [h2, Bool.not_false]
  have hqv : ∀ v, q.contains v = true → s.goal_queue.contains v = true := by
    intro v hv
    rw [HeapIndexed.contains_remove hrem v] at hv
    simp only [Bool.and_eq_true] at hv
    exact hv.1
  cases ho : Weight.lt (s.goal_distance_lookahead u) (s.goal_distance u) with
  | true =>
    have hgt : Weight.gt (s.goal_distance u) (s.goal_distance_lookahead u) = true := ho
    simp only [hgt, if_true] at h
    obtain ⟨hf, hd, hk2, hr2⟩ := foldlM_goal_lookahead Arc.src _
      (fun _ _ _ hs => goal_lower_step_lookahead hs) _ _ _ h
    dsimp only at hd hk2 hr2
    refine ⟨⟨u, ?_⟩, ?_⟩
    · refine
        { lt_nv := hun, queued := hqd, minimal := hmin, dist := ?_, rhs_src := ?_,
          rhs_touched := ?_, rhs_kept := ?_ }
      · rw [hd, ho]
        rfl
      · exact hf.lookahead_goal
      · intro t hts ht
        rcases ht with ⟨a, ha, hau, hat⟩ | ⟨-, hfalse⟩
        · obtain ⟨a1, ha1, hs1, ht1⟩ := hm a ha
          rw [hr2 t ⟨a1, mem_in_edges.mpr ⟨ha1, ht1.trans hau⟩, hs1.trans hat⟩ hts, hd]
        · rw [ho] at hfalse
          exact absurd hfalse (by simp)
      · intro t ht
        refine (hk2 t (fun a ha hat => ht (Or.inl ?_))).1
        obtain ⟨a1, ha1, hs1, ht1⟩ := hm a (mem_in_edges.mp ha).1
        exact ⟨a1, ha1, hs1.trans (mem_in_edges.mp ha).2, ht1.trans hat⟩
    · intro v hv
      by_cases hin : ∃ a ∈ in_edges u s.g, a.src = v
      · obtain ⟨a, ha, rfl⟩ := hin
        exact (hg a (mem_in_edges.mp ha).1).1
      · rw [(hk2 v (fun a ha hat => hin ⟨a, ha, hat⟩)).2] at hv
        exact hb v (hqv v hv)
  | false =>
    have hgt : Weight.gt (s.goal_distance u) (s.goal_distance_lookahead u) = false := ho
    simp only [hgt, Bool.false_eq_true, if_false, Option.bind_eq_some] at h
    obtain ⟨s3, h3, h⟩ := h
    obtain ⟨hf3, hd3, hl3, hq3, hr3⟩ := goal_update_vertex_lookahead h3
    obtain ⟨hf, hd, hk2, hr2⟩ := foldlM_goal_lookahead Arc.tgt _
      (fun _ _ _ hs => goal_update_vertex_lookahead hs) _ _ _ h
    dsimp only at hd3 hl3 hq3 hr3
    have hg3 : s3.g = s.g := hf3.g
    have hw3 : s3.weight = s.weight := hf3.weight
    have hv3 : s3.v_goal = s.v_goal := hf3.v_goal
    refine ⟨⟨u, ?_⟩, ?_⟩
    · refine
        { lt_nv := hun, queued := hqd, minimal := hmin, dist := ?_, rhs_src := ?_,
          rhs_touched := ?_, rhs_kept := ?_ }
      · rw [hd, hd3, ho]
        rfl
      · have h4 := hf.lookahead_goal
        have h5 := hf3.lookahead_goal
        dsimp only at h5
        rw [hv3] at h4
        exact h4.trans h5
      · intro t hts ht
        by_cases hin : ∃ a ∈ out_edges u s3.g, a.tgt = t
        · rw [hr2 t hin (by rw [hv3]; exact hts), hd, hg3, hw3]
        · have hnot : ∀ a ∈ out_edges u s3.g, a.tgt ≠ t := fun a ha hat => hin ⟨a, ha, hat⟩
          rw [(hk2 t hnot).1]
          rcases ht with ⟨a, ha, hau, hat⟩ | ⟨htu, -⟩
          · exact absurd ⟨a, mem_out_edges.mpr ⟨hg3 ▸ ha, hau⟩, hat⟩ hin
          · subst htu
            rw [hr3 hts, hd, hd3]
      · intro t ht
        have hnot : ∀ a ∈ out_edges u s3.g, a.tgt ≠ t := fun a ha hat =>
          ht (Or.inl ⟨a, hg3 ▸ (mem_out_edges.mp ha).1, (mem_out_edges.mp ha).2, hat⟩)
        rw [(hk2 t hnot).1]
        exact hl3 t (fun htu => ht (Or.inr ⟨htu, ho⟩))
    · intro v hv
      by_cases hin : ∃ a ∈ out_edges u s3.g, a.tgt = v
      · obtain ⟨a, ha, rfl⟩ := hin
        exact (hg a (hg3 ▸ (mem_out_edges.mp ha).1)).2
      · rw [(hk2 v (fun a ha hat => hin ⟨a, ha, hat⟩)).2] at hv
        by_cases hvu : v = u
        · rw [hvu]
          exact hun
        · rw [hq3 v hvu] at hv
          exact hb v (hqv v hv)

end inc_bi

namespace inc_bi

theorem mirrored_arcs {g : Graph} {w : Arc → Weight} (h : Mirrored g w) :
    ∀ e ∈ g.arcs, ∃ e1 ∈ g.arcs, e1.src = e.tgt ∧ e1.tgt = e.src := by
  intro e he
  obtain ⟨e1, he1, h1, h2, -⟩ := h e he
  exact ⟨e1, he1, h1, h2⟩

/-- An expansion of the start frontier keeps the start lookahead of a vertex current: the
lookahead of every target of an arc leaving the expanded vertex is recomputed. -/
theorem expand_start_startFresh {s s1 : inc_bi} (h : expand_start s = some s1) {v : Nat}
    (hf : StartFresh s v) : StartFresh s1 v := by
  have hfr := (expand_start_frame h).1
  unfold StartFresh at hf ⊢
  rw [hfr.g, hfr.weight, hfr.v_start]
  rcases hf with hf | hf
  · exact Or.inl hf
  by_cases hs : v = s.v_start
  · exact Or.inl hs
  right
  unfold expand_start at h
  simp only [Option.bind_eq_some] at h
  obtain ⟨u, hu, q, hq, h⟩ := h
  cases ho : Weight.lt (s.start_distance_lookahead u) (s.start_distance u) with
  | true =>
    have hgt : Weight.gt (s.start_distance u) (s.start_distance_lookahead u) = true := ho
    simp only [hgt, if_true] at h
    obtain ⟨-, hd, hk2, hr2⟩ := foldlM_start_lookahead Arc.tgt _
      (fun _ _ _ hs => start_lower_step_lookahead hs) _ _ _ h
    dsimp only at hd hk2 hr2
    by_cases hin : ∃ a ∈ out_edges u s.g, a.tgt = v
    · rw [hr2 v hin hs, hd]
    · rw [(hk2 v (fun a ha hat => hin ⟨a, ha, hat⟩)).1, hf, hd]
      symm
      apply lookahead_of_congr
      intro e he het
      apply Function.update_noteq
      intro hsu
      exact hin ⟨e, mem_out_edges.mpr ⟨he, hsu⟩, het⟩
  | false =>
    have hgt : Weight.gt (s.start_distance u) (s.start_distance_lookahead u) = false := ho
    simp only [hgt, Bool.false_eq_true, if_false, Option.bind_eq_some] at h
    obtain ⟨s3, h3, h⟩ := h
    obtain ⟨hf3, hd3, hl3, -, hr3⟩ := start_update_vertex_lookahead h3
    obtain ⟨-, hd, hk2, hr2⟩ := foldlM_start_lookahead Arc.tgt _
      (fun _ _ _ hs => start_update_vertex_lookahead hs) _ _ _ h
    dsimp only at hd3 hl3 hr3
    have hg3 : s3.g = s.g := hf3.g
    have hw3 : s3.weight = s.weight := hf3.weight
    have hv3 : s3.v_start = s.v_start := hf3.v_start
    by_cases hin : ∃ a ∈ out_edges u s3.g, a.tgt = v
    · rw [hr2 v hin (by rw [hv3]; exact hs), hd, hg3, hw3]
    · rw [(hk2 v (fun a ha hat => hin ⟨a, ha, hat⟩)).1]
      by_cases hvu : v = u
      · subst hvu
        rw [hr3 hs, hd, hd3]
      · rw [hl3 v hvu, hf, hd, hd3]
        symm
        apply lookahead_of_congr
        intro e he het
        apply Function.update_noteq
        intro hsu
        exact hin ⟨e, mem_out_edges.mpr ⟨hg3 ▸ he, hsu⟩, het⟩

/-- A step that leaves the goal frontier alone keeps the goal lookaheads current. -/
theorem goalFresh_of_startFrame {s s1 : inc_bi} (hf : StartFrame s s1) {v : Nat}
    (h : GoalFresh s v) : GoalFresh s1 v := by
  unfold GoalFresh at h ⊢
  rw [hf.g, hf.weight, hf.v_goal, hf.goal_distance, hf.goal_distance_lookahead]
  exact h

/-- An expansion of the goal frontier keeps the goal lookahead of a vertex current, on a
graph whose arcs come in mirrored pairs: the lookahead of every source of an arc entering
the expanded vertex is recomputed. -/
theorem expand_goal_goalFresh {s s1 : inc_bi}
    (hm : ∀ e ∈ s.g.arcs, ∃ e1 ∈ s.g.arcs, e1.src = e.tgt ∧ e1.tgt = e.src)
    (h : expand_goal s = some s1) {v : Nat}
    (hf : GoalFresh s v) : GoalFresh s1 v := by
  have hfr := (expand_goal_frame h).1
  unfold GoalFresh at hf ⊢
  rw [hfr.g, hfr.weight, hfr.v_goal]
  rcases hf with hf | hf
  · exact Or.inl hf
  by_cases hs : v = s.v_goal
  · exact Or.inl hs
  right
  unfold expand_goal at h
  simp only [Option.bind_eq_some] at h
  obtain ⟨u, hu, q, hq, h⟩ := h
  cases ho : Weight.lt (s.goal_distance_lookahead u) (s.goal_distance u) with
  | true =>
    have hgt : Weight.gt (s.goal_distance u) (s.goal_distance_lookahead u) = true := ho
    simp only [hgt, if_true] at h
    obtain ⟨-, hd, hk2, hr2⟩ := foldlM_goal_lookahead Arc.src _
      (fun _ _ _ hs => goal_lower_step_lookahead hs) _ _ _ h
    dsimp only at hd hk2 hr2
    by_cases hin : ∃ a ∈ in_edges u s.g, a.src = v
    · rw [hr2 v hin hs, hd]
    · rw [(hk2 v (fun a ha hat => hin ⟨a, ha, hat⟩)).1, hf, hd]
      symm
      apply lookahead_of_congr
      intro e he het
      apply Function.update_noteq
      intro hsu
      obtain ⟨e1, he1, hs1, ht1⟩ := hm e he
      exact hin ⟨e1, mem_in_edges.mpr ⟨he1, ht1.trans hsu⟩, hs1.trans het⟩
  | false =>
    have hgt : Weight.gt (s.goal_distance u) (s.goal_distance_lookahead u) = false := ho
    simp only [hgt, Bool.false_eq_true, if_false, Option.bind_eq_some] at h
    obtain ⟨s3, h3, h⟩ := h
    obtain ⟨hf3, hd3, hl3, -, hr3⟩ := goal_update_vertex_lookahead h3
    obtain ⟨-, hd, hk2, hr2⟩ := foldlM_goal_lookahead Arc.tgt _
      (fun _ _ _ hs => goal_update_vertex_lookahead hs) _ _ _ h
    dsimp only at hd3 hl3 hr3
    have hg3 : s3.g = s.g := hf3.g
    have hw3 : s3.weight = s.weight := hf3.weight
    have hv3 : s3.v_goal = s.v_goal := hf3.v_goal
    by_cases hin : ∃ a ∈ out_edges u s3.g, a.tgt = v
    · rw [hr2 v hin (by rw [hv3]; exact hs), hd, hg3, hw3]
    · rw [(hk2 v (fun a ha hat => hin ⟨a, ha, hat⟩)).1]
      by_cases hvu : v = u
      · subst hvu
        rw [hr3 hs, hd, hd3]
      · rw [hl3 v hvu, hf, hd, hd3]
        symm
        apply lookahead_of_congr
        intro e he het
        apply Function.update_noteq
        intro hsu
        exact hin ⟨e, mem_out_edges.mpr ⟨hg3 ▸ he, hsu⟩, het⟩

/-- A step that leaves the start frontier alone keeps the start lookaheads current. -/
theorem startFresh_of_goalFrame {s s1 : inc_bi} (hf : GoalFrame s s1) {v : Nat}
    (h : StartFresh s v) : StartFresh s1 v := by
  unfold StartFresh at h ⊢
  rw [hf.g, hf.weight, hf.v_start, hf.start_distance, hf.start_distance_lookahead]
  exact h

/-- An expansion of the start frontier keeps the invariants of a run and lowers the
measure. -/
theorem expand_start_runInv {g : Graph} (hg : g.WellFormed)
    {s s1 : inc_bi} (hI : RunInv g s) (h : expand_start s = some s1) :
    RunInv g s1 ∧ run_measure s1 < run_measure s := by
  have hsg : s.g = g := hI.conn.1
  have hf := (expand_start_frame h).1
  obtain ⟨s2, h2, hc2⟩ := expand_start_conn_of_fresh hg.2 hI.conn
    (fun e he hee => hsg ▸ (hI.self_loops e he hee).1) (expand_start_nonempty h)
  rw [h] at h2
  have hc1 : ConnInv g s1 := (Option.some.inj h2) ▸ hc2
  have harcs : ∀ e ∈ s.g.arcs, e.src < s.g.nv ∧ e.tgt < s.g.nv := by
    rw [hsg]
    exact hg.1
  obtain ⟨⟨u, hstep⟩, hb1⟩ := expand_start_sideStep harcs
    (fun v hv => (hI.open_queue v (hsg ▸ hv)).1) hI.start_keys
    (fun v hv => hsg ▸ hI.start_bound v hv) h
  refine ⟨?_, ?_⟩
  · refine
      { conn := hc1
        open_queue := fun v hv =>
          ⟨hf.inv v (hI.open_queue v hv).1, startFrame_goalInv hf v (hI.open_queue v hv).2⟩
        start_keys := expand_start_keys hI.start_keys h
        goal_keys := goalKeys_startFrame hf hI.goal_keys
        start_bound := fun v hv => hsg ▸ hb1 v hv
        goal_bound := ?_
        start_source := ?_
        goal_source := ?_
        mirrored := ?_
        self_loops := ?_ }
    · intro v hv
      rw [hf.goal_queue] at hv
      exact hI.goal_bound v hv
    · rw [hf.v_start, hf.lookahead_start]
      exact hI.start_source
    · rw [hf.v_goal, hf.goal_distance_lookahead]
      exact hI.goal_source
    · rw [hf.weight]
      exact hI.mirrored
    · intro e he hee
      exact ⟨expand_start_startFresh h (hI.self_loops e he hee).1,
        goalFresh_of_startFrame hf (hI.self_loops e he hee).2⟩
  · unfold run_measure
    rw [hf.g, hf.weight, hf.v_start, hf.v_goal, hf.goal_distance, hf.goal_distance_lookahead]
    have hm : Mirrored s.g s.weight := hsg ▸ hI.mirrored
    have := side_measure_step hm harcs hI.start_source hstep
    omega

/-- An expansion of the goal frontier keeps the invariants of a run and lowers the
measure. -/
theorem expand_goal_runInv {g : Graph} (hg : g.WellFormed)
    {s s1 : inc_bi} (hI : RunInv g s) (h : expand_goal s = some s1) :
    RunInv g s1 ∧ run_measure s1 < run_measure s := by
  have hsg : s.g = g := hI.conn.1
  have hf := (expand_goal_frame h).1
  obtain ⟨s2, h2, hc2⟩ := expand_goal_conn_of_fresh hg.2 hI.conn
    (fun e he hee => hsg ▸ (hI.self_loops e he hee).2) (expand_goal_nonempty h)
  rw [h] at h2
  have hc1 : ConnInv g s1 := (Option.some.inj h2) ▸ hc2
  have harcs : ∀ e ∈ s.g.arcs, e.src < s.g.nv ∧ e.tgt < s.g.nv := by
    rw [hsg]
    exact hg.1
  obtain ⟨⟨u, hstep⟩, hb1⟩ := expand_goal_sideStep harcs
    (hsg ▸ mirrored_arcs hI.mirrored)
    (fun v hv => (hI.open_queue v (hsg ▸ hv)).2) hI.goal_keys
    (fun v hv => hsg ▸ hI.goal_bound v hv) h
  refine ⟨?_, ?_⟩
  · refine
      { conn := hc1
        open_queue := fun v hv =>
          ⟨goalFrame_startInv hf v (hI.open_queue v hv).1, hf.inv v (hI.open_queue v hv).2⟩
        goal_keys := expand_goal_keys hI.goal_keys h
        start_keys := startKeys_goalFrame hf hI.start_keys
        goal_bound := fun v hv => hsg ▸ hb1 v hv
        start_bound := ?_
        goal_source := ?_
        start_source := ?_
        mirrored := ?_
        self_loops := ?_ }
    · intro v hv
      rw [hf.start_queue] at hv
      exact hI.start_bound v hv
    · rw [hf.v_start, hf.start_distance_lookahead]
      exact hI.start_source
    · rw [hf.v_goal, hf.lookahead_goal]
      exact hI.goal_source
    · rw [hf.weight]
      exact hI.mirrored
    · intro e he hee
      exact ⟨startFresh_of_goalFrame hf (hI.self_loops e he hee).1,
        expand_goal_goalFresh (hsg ▸ mirrored_arcs hI.mirrored) h (hI.self_loops e he hee).2⟩
  · unfold run_measure
    rw [hf.g, hf.weight, hf.v_goal, hf.v_start, hf.start_distance, hf.start_distance_lookahead]
    have hm : Mirrored s.g s.weight := hsg ▸ hI.mirrored
    have := side_measure_step hm harcs hI.goal_source hstep
    omega


/-- A run of `compute_shortest_path` returns within as many iterations as the measure of
the state it starts from, plus one. -/
theorem run_total {g : Graph} (hg : g.WellFormed) :
    ∀ (n : Nat) (s : inc_bi), RunInv g s → run_measure s < n →
      ∃ r s1, compute_shortest_path n s = Run.done (r, s1) := by
  intro n
  induction n with
  | zero =>
    intro s _ h
    exact absurd h (Nat.not_lt_zero _)
  | succ n ih =>
    intro s hI hm
    unfold compute_shortest_path
    rcases iteration_conn_of_fresh hg.2 hI.conn
      (fun e he hee => hI.conn.1 ▸ hI.self_loops e he hee) with ⟨r, hr⟩ | ⟨s1, h1, -⟩
    · rw [hr]
      exact ⟨r, s, rfl⟩
    · rw [h1]
      obtain ⟨st, hst⟩ := start_top_isSome s
      obtain ⟨gt, hgt⟩ := goal_top_isSome s
      obtain ⟨-, hcase⟩ := iteration_next_cases hst hgt h1
      rcases hcase with ⟨-, he⟩ | ⟨-, he⟩
      · obtain ⟨hI1, hlt⟩ := expand_start_runInv hg hI he
        exact ih s1 hI1 (by omega)
      · obtain ⟨hI1, hlt⟩ := expand_goal_runInv hg hI he
        exact ih s1 hI1 (by omega)

theorem run_measure_lt (s : inc_bi) : run_measure s < run_bound s.g.nv := by
  unfold run_measure run_bound
  have h1 := side_measure_le s.g s.weight s.v_start s.start_distance
    s.start_distance_lookahead
  have h2 := side_measure_le s.g s.weight s.v_goal s.goal_distance
    s.goal_distance_lookahead
  omega

theorem reachableOn_reachable {g : Graph} {s : inc_bi} (hs : ReachableOn g s) :
    Reachable s := by
  induction hs with
  | construct vs vg sp sd sl gp gd gl w m t1 t2 t3 s h =>
    exact Reachable.construct g vs vg sp sd sl gp gd gl w m t1 t2 t3 s h
  | set_weight s w _ ih => exact Reachable.set_weight s w ih
  | update_edge s s1 e _ _ h ih => exact Reachable.update_edge s s1 e ih h
  | start_update_vertex s s1 u _ h ih => exact Reachable.start_update_vertex s s1 u ih h
  | goal_update_vertex s s1 u _ h ih => exact Reachable.goal_update_vertex s s1 u ih h
  | compute_shortest_path s s1 fuel r _ h ih =>
    exact Reachable.compute_shortest_path s s1 fuel r ih h

/-- The invariants of a run hold in every state reached on a graph with distinct edge
indices and no self-loop whose queues hold vertices of the graph and whose current
weights are equal on mirrored arcs. -/
theorem reachableOn_runInv {g : Graph} (hg : g.WellFormed) (hl : g.NoSelfLoop) {s : inc_bi}
    (hs : ReachableOn g s) (hm : Mirrored g s.weight)
    (hq : ∀ v, s.start_queue.contains v = true ∨ s.goal_queue.contains v = true →
      v < g.nv) : RunInv g s := by
  have hc := reachableOn_conn hg.2 hl hs
  have hr := reachableOn_reachable hs
  exact
    { conn := hc
      open_queue := fun v hv => reachable_open_queue hr v (hc.1 ▸ hv)
      start_keys := (reachable_keys hr).1
      goal_keys := (reachable_keys hr).2
      start_bound := fun v hv => hq v (Or.inl hv)
      goal_bound := fun v hv => hq v (Or.inr hv)
      start_source := (reachable_source_lookahead hr).1
      goal_source := (reachable_source_lookahead hr).2
      mirrored := hm
      self_loops := fun e he hee => absurd hee (hl e he) }

end inc_bi

namespace inc_bi

/-- The calls that follow a change of the weight of an edge lead from a state reached on
`g` to a state reached on `g`. -/
theorem change_weight_reachableOn {g : Graph} {s s1 : inc_bi} {w : Arc → Weight}
    {e e1 : Arc} (he : e ∈ g.arcs) (he1 : e1 ∈ g.arcs) (hs : ReachableOn g s)
    (h : change_weight s w e e1 = some s1) : ReachableOn g s1 := by
  unfold change_weight at h
  simp only [Option.bind_eq_some] at h
  obtain ⟨s2, h2, s3, h3, s4, h4, s5, h5, s6, h6, h7⟩ := h
  exact ReachableOn.goal_update_vertex s6 s1 _
    (ReachableOn.goal_update_vertex s5 s6 _
      (ReachableOn.start_update_vertex s4 s5 _
        (ReachableOn.start_update_vertex s3 s4 _
          (ReachableOn.update_edge s2 s3 e1 he1
            (ReachableOn.update_edge _ s2 e he (ReachableOn.set_weight s w hs) h2) h3) h4)
        h5) h6) h7

end inc_bi

/-! ## The predecessors of a maintained engine -/

namespace inc_bi

theorem startPred_iff (s : inc_bi) : StartPred s ↔ ∀ v, StartPredAt s v := Iff.rfl

theorem goalPred_iff (s : inc_bi) : GoalPred s ↔ ∀ v, GoalPredAt s v := Iff.rfl

theorem start_recompute_predAt (s : inc_bi) (u v : Nat)
    (h : v = u ∨ StartPredAt s v) : StartPredAt (start_recompute s u) v := by
  unfold start_recompute
  by_cases hu : u = s.v_start
  · simp only [hu, ne_eq, not_true_eq_false, if_false]
    rcases h with h | h
    · intro _ hvs
      exact absurd (h.trans hu) hvs
    · exact h
  · simp only [ne_eq, hu, not_false_eq_true, if_true]
    intro hv hvs hrhs
    dsimp only at hv hvs hrhs ⊢
    obtain ⟨f1, f2⟩ := start_rhs_fold_pred s u (in_edges u s.g) (Weight.inf, s.start_predecessor)
    by_cases hvu : v = u
    · subst hvu
      rw [Function.update_same] at hrhs ⊢
      rcases f2 with h1 | ⟨e, he, h1, h2⟩
      · exact absurd h1 hrhs
      · exact ⟨e, (mem_in_edges.mp he).1, (mem_in_edges.mp he).2, h2.symm, h1⟩
    · rw [Function.update_noteq hvu] at hrhs ⊢
      rcases h with h | h
      · exact absurd h hvu
      · obtain ⟨e, he, h1, h2, h3⟩ := h hv hvs hrhs
        refine ⟨e, he, h1, ?_, h3⟩
        rw [h2]
        exact (f1 v hvu).symm

theorem start_update_vertex_predAt {s s1 : inc_bi} {u : Nat}
    (hu : start_update_vertex s u = some s1) (v : Nat) (h : v = u ∨ StartPredAt s v) :
    StartPredAt s1 v := by
  obtain ⟨q, ⟨cq, rfl⟩, -, -⟩ := start_update_vertex_spec hu
  intro hv hvs hrhs
  exact start_recompute_predAt s u v h hv hvs hrhs

theorem start_lower_step_predAt {d : Weight} {s s1 : inc_bi} {e : Arc}
    (hs : start_lower_step d s e = some s1) (v : Nat) (h : v = e.tgt ∨ StartPredAt s v) :
    StartPredAt s1 v := by
  unfold start_lower_step at hs
  simp only [Option.bind_eq_some] at hs
  obtain ⟨s2, h2, h3⟩ := hs
  have hp2 := start_update_vertex_predAt h2 v h
  split at h3
  · simp only [Option.map_eq_some'] at h3
    obtain ⟨q, -, rfl⟩ := h3
    intro hv hvs hrhs
    exact hp2 hv hvs hrhs
  · simp only [Option.some.injEq] at h3
    exact h3 ▸ hp2

theorem startPredAt_of_goalFrame {s s1 : inc_bi} (hf : GoalFrame s s1) (v : Nat)
    (h : StartPredAt s v) : StartPredAt s1 v := by
  intro hv hvs hrhs
  rw [hf.g] at hv
  rw [hf.v_start] at hvs
  rw [hf.start_distance_lookahead] at hrhs
  obtain ⟨e, he, h1, h2, h3⟩ := h hv hvs hrhs
  refine ⟨e, hf.g ▸ he, h1, ?_, ?_⟩
  · rw [hf.start_predecessor]
    exact h2
  · rw [hf.start_distance_lookahead, hf.start_distance, hf.weight]
    exact h3

theorem startPredAt_of_connOnly {s s1 : inc_bi} (hc : ConnOnly s s1) (v : Nat)
    (h : StartPredAt s v) : StartPredAt s1 v := by
  obtain ⟨q, rfl⟩ := hc
  exact h

/-- A loop of updates of the start frontier, one for the vertex `pick a` of each arc `a`
of the list, puts the predecessors of these vertices in order and keeps the others. -/
theorem foldlM_startPredAt (pick : Arc → Nat) (f : inc_bi → Arc → Option inc_bi)
    (hf : ∀ st a st1, f st a = some st1 →
      ∀ v, v = pick a ∨ StartPredAt st v → StartPredAt st1 v) :
    ∀ (l : List Arc) (st st1 : inc_bi), l.foldlM f st = some st1 →
      ∀ v, (∃ a ∈ l, pick a = v) ∨ StartPredAt st v → StartPredAt st1 v := by
  intro l
  induction l with
  | nil =>
    intro st st1 h v hv
    simp only [List.foldlM, pure, Option.some.injEq] at h
    subst h
    rcases hv with ⟨a, ha, -⟩ | hv
    · exact absurd ha (List.not_mem_nil _)
    · exact hv
  | cons b l ih =>
    intro st st1 h v hv
    simp only [List.foldlM, bind, Option.bind_eq_some] at h
    obtain ⟨st2, h2, h3⟩ := h
    by_cases hin : ∃ a ∈ l, pick a = v
    · exact ih st2 st1 h3 v (Or.inl hin)
    · refine ih st2 st1 h3 v (Or.inr (hf st b st2 h2 v ?_))
      rcases hv with ⟨a, ha, hav⟩ | hv
      · rcases List.mem_cons.mp ha with rfl | ha
        · exact Or.inl hav.symm
        · exact absurd ⟨a, ha, hav⟩ hin
      · exact Or.inr hv

/-- An expansion of the start frontier keeps the predecessors of the start frontier in
order. -/
theorem expand_start_startPred {s s1 : inc_bi} (hp : StartPred s)
    (h : expand_start s = some s1) : StartPred s1 := by
  unfold expand_start at h
  simp only [Option.bind_eq_some] at h
  obtain ⟨u, -, q, -, h⟩ := h
  have hpop : ∀ (x : Weight) (v : Nat), (∃ a ∈ out_edges u s.g, a.tgt = v) ∨
      StartPredAt { s with start_queue := q,
                           start_distance := Function.update s.start_distance u x } v := by
    intro x v
    by_cases hin : ∃ a ∈ out_edges u s.g, a.tgt = v
    · exact Or.inl hin
    · right
      intro hv hvs hrhs
      obtain ⟨e, he, h1, h2, h3⟩ := hp v hv hvs hrhs
      refine ⟨e, he, h1, h2, ?_⟩
      dsimp only
      have hsrc : e.src ≠ u := fun hsu => hin ⟨e, mem_out_edges.mpr ⟨he, hsu⟩, h1⟩
      rw [Function.update_noteq hsrc]
      exact h3
  split at h
  · intro v
    exact foldlM_startPredAt Arc.tgt _ (fun _ _ _ hs v hv => start_lower_step_predAt hs v hv)
      _ _ _ h v (hpop _ v)
  · simp only [Option.bind_eq_some] at h
    obtain ⟨s3, h3, h⟩ := h
    have hg3 : s3.g = s.g := (start_update_vertex_frame h3).1.g
    intro v
    refine foldlM_startPredAt Arc.tgt _
      (fun _ _ _ hs v hv => start_update_vertex_predAt hs v hv) _ _ _ h v ?_
    rcases hpop Weight.inf v with hin | hpv
    · left
      rw [hg3]
      exact hin
    · exact Or.inr (start_update_vertex_predAt h3 v (Or.inr hpv))

theorem goal_recompute_predAt (s : inc_bi) (u v : Nat)
    (h : v = u ∨ GoalPredAt s v) : GoalPredAt (goal_recompute s u) v := by
  unfold goal_recompute
  by_cases hu : u = s.v_goal
  · simp only [hu, ne_eq, not_true_eq_false, if_false]
    rcases h with h | h
    · intro _ hvs
      exact absurd (h.trans hu) hvs
    · exact h
  · simp only [ne_eq, hu, not_false_eq_true, if_true]
    intro hv hvs hrhs
    dsimp only at hv hvs hrhs ⊢
    obtain ⟨f1, f2⟩ := goal_rhs_fold_pred s u (in_edges u s.g) (Weight.inf, s.goal_predecessor)
    by_cases hvu : v = u
    · subst hvu
      rw [Function.update_same] at hrhs ⊢
      rcases f2 with h1 | ⟨e, he, h1, h2⟩
      · exact absurd h1 hrhs
      · exact ⟨e, (mem_in_edges.mp he).1, (mem_in_edges.mp he).2, h2.symm, h1⟩
    · rw [Function.update_noteq hvu] at hrhs ⊢
      rcases h with h | h
      · exact absurd h hvu
      · obtain ⟨e, he, h1, h2, h3⟩ := h hv hvs hrhs
        refine ⟨e, he, h1, ?_, h3⟩
        rw [h2]
        exact (f1 v hvu).symm

theorem goal_update_vertex_predAt {s s1 : inc_bi} {u : Nat}
    (hu : goal_update_vertex s u = some s1) (v : Nat) (h : v = u ∨ GoalPredAt s v) :
    GoalPredAt s1 v := by
  obtain ⟨q, ⟨cq, rfl⟩, -, -⟩ := goal_update_vertex_spec hu
  intro hv hvs hrhs
  exact goal_recompute_predAt s u v h hv hvs hrhs

theorem goal_lower_step_predAt {d : Weight} {s s1 : inc_bi} {e : Arc}
    (hs : goal_lower_step d s e = some s1) (v : Nat) (h : v = e.src ∨ GoalPredAt s v) :
    GoalPredAt s1 v := by
  unfold goal_lower_step at hs
  simp only [Option.bind_eq_some] at hs
  obtain ⟨s2, h2, h3⟩ := hs
  have hp2 := goal_update_vertex_predAt h2 v h
  split at h3
  · simp only [Option.map_eq_some'] at h3
    obtain ⟨q, -, rfl⟩ := h3
    intro hv hvs hrhs
    exact hp2 hv hvs hrhs
  · simp only [Option.some.injEq] at h3
    exact h3 ▸ hp2

theorem goalPredAt_of_startFrame {s s1 : inc_bi} (hf : StartFrame s s1) (v : Nat)
    (h : GoalPredAt s v) : GoalPredAt s1 v := by
  intro hv hvs hrhs
  rw [hf.g] at hv
  rw [hf.v_goal] at hvs
  rw [hf.goal_distance_lookahead] at hrhs
  obtain ⟨e, he, h1, h2, h3⟩ := h hv hvs hrhs
  refine ⟨e, hf.g ▸ he, h1, ?_, ?_⟩
  · rw [hf.goal_predecessor]
    exact h2
  · rw [hf.goal_distance_lookahead, hf.goal_distance, hf.weight]
    exact h3

theorem goalPredAt_of_connOnly {s s1 : inc_bi} (hc : ConnOnly s s1) (v : Nat)
    (h : GoalPredAt s v) : GoalPredAt s1 v := by
  obtain ⟨q, rfl⟩ := hc
  exact h

/-- A loop of updates of the goal frontier, one for the vertex `pick a` of each arc `a`
of the list, puts the predecessors of these vertices in order and keeps the others. -/
theorem foldlM_goalPredAt (pick : Arc → Nat) (f : inc_bi → Arc → Option inc_bi)
    (hf : ∀ st a st1, f st a = some st1 →
      ∀ v, v = pick a ∨ GoalPredAt st v → GoalPredAt st1 v) :
    ∀ (l : List Arc) (st st1 : inc_bi), l.foldlM f st = some st1 →
      ∀ v, (∃ a ∈ l, pick a = v) ∨ GoalPredAt st v → GoalPredAt st1 v := by
  intro l
  induction l with
  | nil =>
    intro st st1 h v hv
    simp only [List.foldlM, pure, Option.some.injEq] at h
    subst h
    rcases hv with ⟨a, ha, -⟩ | hv
    · exact absurd ha (List.not_mem_nil _)
    · exact hv
  | cons b l ih =>
    intro st st1 h v hv
    simp only [List.foldlM, bind, Option.bind_eq_some] at h
    obtain ⟨st2, h2, h3⟩ := h
    by_cases hin : ∃ a ∈ l, pick a = v
    · exact ih st2 st1 h3 v (Or.inl hin)
    · refine ih st2 st1 h3 v (Or.inr (hf st b st2 h2 v ?_))
      rcases hv with ⟨a, ha, hav⟩ | hv
      · rcases List.mem_cons.mp ha with rfl | ha
        · exact Or.inl hav.symm
        · exact absurd ⟨a, ha, hav⟩ hin
      · exact Or.inr hv

/-- An expansion of the goal frontier keeps the predecessors of the goal frontier in
order, on a graph whose arcs come in mirrored pairs. -/
theorem expand_goal_goalPred {s s1 : inc_bi}
    (hm : ∀ e ∈ s.g.arcs, ∃ e1 ∈ s.g.arcs, e1.src = e.tgt ∧ e1.tgt = e.src)
    (hp : GoalPred s) (h : expand_goal s = some s1) : GoalPred s1 := by
  unfold expand_goal at h
  simp only [Option.bind_eq_some] at h
  obtain ⟨u, -, q, -, h⟩ := h
  have hpop : ∀ (x : Weight) (v : Nat), (∃ a ∈ out_edges u s.g, a.tgt = v) ∨
      GoalPredAt { s with goal_queue := q,
                           goal_distance := Function.update s.goal_distance u x } v := by
    intro x v
    by_cases hin : ∃ a ∈ out_edges u s.g, a.tgt = v
    · exact Or.inl hin
    · right
      intro hv hvs hrhs
      obtain ⟨e, he, h1, h2, h3⟩ := hp v hv hvs hrhs
      refine ⟨e, he, h1, h2, ?_⟩
      dsimp only
      have hsrc : e.src ≠ u := fun hsu => hin ⟨e, mem_out_edges.mpr ⟨he, hsu⟩, h1⟩
      rw [Function.update_noteq hsrc]
      exact h3
  split at h
  · intro v
    refine foldlM_goalPredAt Arc.src _ (fun _ _ _ hs v hv => goal_lower_step_predAt hs v hv)
      _ _ _ h v ?_
    rcases hpop (s.goal_distance_lookahead u) v with ⟨a, ha, hav⟩ | hpv
    · left
      obtain ⟨a1, ha1, hs1, ht1⟩ := hm a (mem_out_edges.mp ha).1
      exact ⟨a1, mem_in_edges.mpr ⟨ha1, ht1.trans (mem_out_edges.mp ha).2⟩, hs1.trans hav⟩
    · exact Or.inr hpv
  · simp only [Option.bind_eq_some] at h
    obtain ⟨s3, h3, h⟩ := h
    have hg3 : s3.g = s.g := (goal_update_vertex_frame h3).1.g
    intro v
    refine foldlM_goalPredAt Arc.tgt _
      (fun _ _ _ hs v hv => goal_update_vertex_predAt hs v hv) _ _ _ h v ?_
    rcases hpop Weight.inf v with hin | hpv
    · left
      rw [hg3]
      exact hin
    · exact Or.inr (goal_update_vertex_predAt h3 v (Or.inr hpv))


end inc_bi

namespace inc_bi

/-- The method `update_edge` reads the weight map at its arc only. -/
theorem update_edge_weight_congr {s t : inc_bi} {w w1 : Arc → Weight} {e : Arc}
    (hw : w e = w1 e) (h : update_edge { s with weight := w1 } e = some t) :
    update_edge { s with weight := w } e = some { t with weight := w } := by
  have hv : edge_is_valid { s with weight := w } e =
      edge_is_valid { s with weight := w1 } e := by
    unfold edge_is_valid
    dsimp only
    rw [hw]
  unfold update_edge at h ⊢
  dsimp only at h ⊢
  rw [hv, hw]
  cases hb : edge_is_valid { s with weight := w1 } e with
  | false =>
    simp only [hb, Bool.not_false, if_true] at h ⊢
    by_cases hc : s.conn_queue.contains e.idx = true
    · simp only [hc, if_true, Option.map_eq_some'] at h ⊢
      obtain ⟨q, hq, rfl⟩ := h
      exact ⟨q, hq, rfl⟩
    · simp only [hc, Bool.false_eq_true, if_false, Option.some.injEq] at h ⊢
      subst h
      rfl
  | true =>
    simp only [hb, Bool.not_true, Bool.false_eq_true, if_false] at h ⊢
    by_cases hc : s.conn_queue.contains e.idx = true
    · simp only [hc, if_true, Option.map_eq_some'] at h ⊢
      obtain ⟨q, hq, rfl⟩ := h
      exact ⟨q, hq, rfl⟩
    · simp only [hc, Bool.false_eq_true, if_false, Option.map_eq_some'] at h ⊢
      obtain ⟨q, hq, rfl⟩ := h
      exact ⟨q, hq, rfl⟩

theorem update_edge_isSome_weight {s t : inc_bi} {w : Arc → Weight} {e : Arc}
    (h : update_edge { s with weight := w } e = some t) :
    ∃ t1, update_edge { s with weight := Function.update s.weight e (w e) } e = some t1 ∧
      t = { t1 with weight := w } := by
  have hw : Function.update s.weight e (w e) e = w e := Function.update_same _ _ _
  cases h1 : update_edge { s with weight := Function.update s.weight e (w e) } e with
  | none =>
    exfalso
    have h2 := update_edge_weight_congr (s := s) hw h
    rw [h1] at h2
    exact absurd h2 (by simp)
  | some t1 =>
    refine ⟨t1, rfl, ?_⟩
    have h2 := update_edge_weight_congr (s := s) hw.symm h1
    rw [h] at h2
    exact Option.some.inj h2

/-- A maintained engine changes its weights only together with `update_edge` on the
changed arc. -/
theorem reachableMaint_upd {g : Graph} {s : inc_bi} (hs : ReachableMaint g s) :
    ReachableUpd g s := by
  induction hs with
  | construct vs vg sp sd sl gp gd gl w m t1 t2 t3 s h =>
    exact ReachableUpd.construct vs vg sp sd sl gp gd gl w m t1 t2 t3 s h
  | update_edge s s1 e he _ h ih => exact ReachableUpd.update_edge s s1 e he ih h
  | change_weight s s1 w e e1 he he1 _ hw _ h ih =>
    unfold change_weight at h
    simp only [Option.bind_eq_some] at h
    obtain ⟨s2, h2, s3, h3, s4, h4, s5, h5, s6, h6, h7⟩ := h
    obtain ⟨t1, ht1, rfl⟩ := update_edge_isSome_weight h2
    have hr1 : ReachableUpd g t1 :=
      ReachableUpd.change_weight s t1 _ e he
        (fun a _ hae => Function.update_noteq hae _ _) ih ht1
    have hw1 : t1.weight = Function.update s.weight e (w e) := by
      obtain ⟨q, hq⟩ := update_edge_connOnly ht1
      rw [hq]
    have hr3 : ReachableUpd g s3 := by
      refine ReachableUpd.change_weight t1 s3 w e1 he1 ?_ hr1 h3
      intro a ha hae1
      rw [hw1]
      by_cases hae : a = e
      · rw [hae, Function.update_same]
      · rw [Function.update_noteq hae]
        exact hw a ha hae hae1
    exact ReachableUpd.goal_update_vertex s6 s1 _
      (ReachableUpd.goal_update_vertex s5 s6 _
        (ReachableUpd.start_update_vertex s4 s5 _
          (ReachableUpd.start_update_vertex s3 s4 _ hr3 h4) h5) h6) h7
  | start_update_vertex s s1 u _ h ih => exact ReachableUpd.start_update_vertex s s1 u ih h
  | goal_update_vertex s s1 u _ h ih => exact ReachableUpd.goal_update_vertex s s1 u ih h
  | compute_shortest_path s s1 fuel r _ h ih =>
    exact ReachableUpd.compute_shortest_path s s1 fuel r ih h

theorem reachableMaint_g {g : Graph} {s : inc_bi} (hs : ReachableMaint g s) : s.g = g := by
  induction hs with
  | construct vs vg sp sd sl gp gd gl w m t1 t2 t3 s h => exact (construct_spec h).1
  | update_edge s s1 e _ _ h ih =>
    obtain ⟨q, rfl⟩ := update_edge_connOnly h
    exact ih
  | change_weight s s1 w e e1 _ _ _ _ _ h ih =>
    unfold change_weight at h
    simp only [Option.bind_eq_some] at h
    obtain ⟨s2, h2, s3, h3, s4, h4, s5, h5, s6, h6, h7⟩ := h
    obtain ⟨q2, rfl⟩ := update_edge_connOnly h2
    obtain ⟨q3, rfl⟩ := update_edge_connOnly h3
    rw [(goal_update_vertex_frame h7).1.g, (goal_update_vertex_frame h6).1.g,
      (start_update_vertex_frame h5).1.g, (start_update_vertex_frame h4).1.g]
    exact ih
  | start_update_vertex s s1 u _ h ih => exact ((start_update_vertex_frame h).1.g).trans ih
  | goal_update_vertex s s1 u _ h ih => exact ((goal_update_vertex_frame h).1.g).trans ih
  | compute_shortest_path s s1 fuel r _ h ih => exact (compute_shortest_path_g h).trans ih

/-- In a maintained engine the predecessors of both frontiers are in order, on a graph
whose arcs come in mirrored pairs. -/
theorem reachableMaint_pred {g : Graph}
    (hm : ∀ e ∈ g.arcs, ∃ e1 ∈ g.arcs, e1.src = e.tgt ∧ e1.tgt = e.src) {s : inc_bi}
    (hs : ReachableMaint g s) : StartPred s ∧ GoalPred s := by
  induction hs with
  | construct vs vg sp sd sl gp gd gl w m t1 t2 t3 s h => exact construct_pred h
  | update_edge s s1 e he _ h ih =>
    obtain ⟨q, rfl⟩ := update_edge_connOnly h
    exact ⟨fun v hv hvs1 hrhs => ih.1 v hv hvs1 hrhs, fun v hv hvg1 hrhs => ih.2 v hv hvg1 hrhs⟩
  | change_weight s s1 w e e1 he he1 hrev hw hs0 h ih =>
    have hsg := reachableMaint_g hs0
    unfold change_weight at h
    simp only [Option.bind_eq_some] at h
    obtain ⟨s2, h2, s3, h3, s4, h4, s5, h5, s6, h6, h7⟩ := h
    have hc2 := update_edge_connOnly h2
    have hc3 := update_edge_connOnly h3
    have hS0 : ∀ v, v ≠ e.src → v ≠ e.tgt →
        StartPredAt { s with weight := w } v := by
      intro v h1 h2 hv hvs hrhs
      obtain ⟨a, ha, ha1, ha2, ha3⟩ := ih.1 v hv hvs hrhs
      refine ⟨a, ha, ha1, ha2, ?_⟩
      dsimp only
      rw [hw a (hsg ▸ ha) (fun hae => h2 (by rw [← ha1, hae]))
        (fun hae => h1 (by rw [← ha1, hae, hrev.2]))]
      exact ha3
    have hG0 : ∀ v, v ≠ e.src → v ≠ e.tgt →
        GoalPredAt { s with weight := w } v := by
      intro v h1 h2 hv hvs hrhs
      obtain ⟨a, ha, ha1, ha2, ha3⟩ := ih.2 v hv hvs hrhs
      refine ⟨a, ha, ha1, ha2, ?_⟩
      dsimp only
      rw [hw a (hsg ▸ ha) (fun hae => h2 (by rw [← ha1, hae]))
        (fun hae => h1 (by rw [← ha1, hae, hrev.2]))]
      exact ha3
    have hf4 := (start_update_vertex_frame h4).1
    have hf5 := (start_update_vertex_frame h5).1
    have hf6 := (goal_update_vertex_frame h6).1
    have hf7 := (goal_update_vertex_frame h7).1
    constructor
    · intro v
      apply startPredAt_of_goalFrame hf7
      apply startPredAt_of_goalFrame hf6
      by_cases hvt : v = e.tgt
      · exact start_update_vertex_predAt h5 v (Or.inl hvt)
      · refine start_update_vertex_predAt h5 v (Or.inr ?_)
        by_cases hvs : v = e.src
        · exact start_update_vertex_predAt h4 v (Or.inl hvs)
        · refine start_update_vertex_predAt h4 v (Or.inr ?_)
          exact startPredAt_of_connOnly hc3 v (startPredAt_of_connOnly hc2 v (hS0 v hvs hvt))
    · intro v
      by_cases hvt : v = e.tgt
      · exact goal_update_vertex_predAt h7 v (Or.inl hvt)
      · refine goal_update_vertex_predAt h7 v (Or.inr ?_)
        by_cases hvs : v = e.src
        · exact goal_update_vertex_predAt h6 v (Or.inl hvs)
        · refine goal_update_vertex_predAt h6 v (Or.inr ?_)
          apply goalPredAt_of_startFrame hf5
          apply goalPredAt_of_startFrame hf4
          exact goalPredAt_of_connOnly hc3 v (goalPredAt_of_connOnly hc2 v (hG0 v hvs hvt))
  | start_update_vertex s s1 u _ h ih =>
    exact ⟨start_update_vertex_pred ih.1 h,
      goalPred_of_startFrame (start_update_vertex_frame h).1 ih.2⟩
  | goal_update_vertex s s1 u _ h ih =>
    exact ⟨startPred_of_goalFrame (goal_update_vertex_frame h).1 ih.1,
      goal_update_vertex_pred ih.2 h⟩
  | compute_shortest_path s s1 fuel r hs0 h ih =>
    have hsg := reachableMaint_g hs0
    exact compute_shortest_path_inv
      (fun t => t.g = g ∧ StartPred t ∧ GoalPred t)
      (fun _ _ hP he => ⟨((expand_start_frame he).1.g).trans hP.1,
        expand_start_startPred hP.2.1 he,
        goalPred_of_startFrame (expand_start_frame he).1 hP.2.2⟩)
      (fun _ _ hP he => ⟨((expand_goal_frame he).1.g).trans hP.1,
        startPred_of_goalFrame (expand_goal_frame he).1 hP.2.1,
        expand_goal_goalPred (hP.1 ▸ hm) hP.2.2 he⟩) fuel s r s1 ⟨hsg, ih⟩ h |>.2

end inc_bi

/-! ## The connection queue holds every index once -/

namespace inc_bi

theorem conn_drop_step_nodup {s s1 : inc_bi} {e : Arc}
    (hn : (s.conn_queue.entries.map Prod.fst).Nodup) (h : conn_drop_step s e = some s1) :
    (s1.conn_queue.entries.map Prod.fst).Nodup := by
  unfold conn_drop_step at h
  split at h
  · simp only [Option.map_eq_some'] at h
    obtain ⟨q, hq, rfl⟩ := h
    exact HeapIndexed.nodup_remove hq hn
  · simp only [Option.some.injEq] at h
    exact h ▸ hn

theorem start_open_step_nodup {d : Weight} {s s1 : inc_bi} {e : Arc}
    (hn : (s.conn_queue.entries.map Prod.fst).Nodup) (h : start_open_step d s e = some s1) :
    (s1.conn_queue.entries.map Prod.fst).Nodup := by
  unfold start_open_step at h
  dsimp only at h
  split at h
  · simp only [Option.map_eq_some'] at h
    obtain ⟨q, hq, rfl⟩ := h
    exact HeapIndexed.nodup_insert hq hn
  · simp only [Option.some.injEq] at h
    exact h ▸ hn

theorem update_edge_nodup {s s1 : inc_bi} {e : Arc}
    (hn : (s.conn_queue.entries.map Prod.fst).Nodup) (h : update_edge s e = some s1) :
    (s1.conn_queue.entries.map Prod.fst).Nodup := by
  unfold update_edge at h
  dsimp only at h
  split at h
  · split at h
    · simp only [Option.map_eq_some'] at h
      obtain ⟨q, hq, rfl⟩ := h
      exact HeapIndexed.nodup_remove hq hn
    · simp only [Option.some.injEq] at h
      exact h ▸ hn
  · split at h
    · simp only [Option.map_eq_some'] at h
      obtain ⟨q, hq, rfl⟩ := h
      exact HeapIndexed.nodup_update hq hn
    · simp only [Option.map_eq_some'] at h
      obtain ⟨q, hq, rfl⟩ := h
      exact HeapIndexed.nodup_insert hq hn

theorem start_update_vertex_nodup {s s1 : inc_bi} {u : Nat}
    (hn : (s.conn_queue.entries.map Prod.fst).Nodup)
    (h : start_update_vertex s u = some s1) :
    (s1.conn_queue.entries.map Prod.fst).Nodup := by
  obtain ⟨p, l, hr, -, -⟩ := start_recompute_eq s u
  unfold start_update_vertex at h
  rw [hr] at h
  dsimp only at h
  split at h
  · split at h
    · simp only [Option.bind_eq_some] at h
      obtain ⟨q, -, h⟩ := h
      split at h
      · exact foldlM_inv (fun t => (t.conn_queue.entries.map Prod.fst).Nodup) _
          (fun _ _ _ hP ht => start_open_step_nodup hP ht) _ _ _ hn h
      · simp only [Option.some.injEq] at h
        exact h ▸ hn
    · simp only [Option.some.injEq] at h
      exact h ▸ hn
  · split at h
    · simp only [Option.map_eq_some'] at h
      obtain ⟨q, -, rfl⟩ := h
      exact hn
    · simp only [Option.bind_eq_some] at h
      obtain ⟨q, -, h⟩ := h
      exact foldlM_inv (fun t => (t.conn_queue.entries.map Prod.fst).Nodup) _
        (fun _ _ _ hP ht => conn_drop_step_nodup hP ht) _ _ _ hn h

theorem start_lower_step_nodup {d : Weight} {s s1 : inc_bi} {e : Arc}
    (hn : (s.conn_queue.entries.map Prod.fst).Nodup) (h : start_lower_step d s e = some s1) :
    (s1.conn_queue.entries.map Prod.fst).Nodup := by
  unfold start_lower_step at h
  simp only [Option.bind_eq_some] at h
  obtain ⟨s2, h2, h3⟩ := h
  have hn2 := start_update_vertex_nodup hn h2
  split at h3
  · simp only [Option.map_eq_some'] at h3
    obtain ⟨q, hq, rfl⟩ := h3
    exact HeapIndexed.nodup_insert hq hn2
  · simp only [Option.some.injEq] at h3
    exact h3 ▸ hn2

theorem expand_start_nodup {s s1 : inc_bi}
    (hn : (s.conn_queue.entries.map Prod.fst).Nodup) (h : expand_start s = some s1) :
    (s1.conn_queue.entries.map Prod.fst).Nodup := by
  unfold expand_start at h
  simp only [Option.bind_eq_some] at h
  obtain ⟨u, -, q, -, h⟩ := h
  split at h
  · exact foldlM_inv (fun t => (t.conn_queue.entries.map Prod.fst).Nodup) _
      (fun _ _ _ hP ht => start_lower_step_nodup hP ht) _ _ _ hn h
  · simp only [Option.bind_eq_some] at h
    obtain ⟨s3, h3, h⟩ := h
    exact foldlM_inv (fun t => (t.conn_queue.entries.map Prod.fst).Nodup) _
      (fun _ _ _ hP ht => start_update_vertex_nodup hP ht) _ _ _
      (start_update_vertex_nodup (by exact hn) h3) h

theorem goal_open_step_nodup {d : Weight} {s s1 : inc_bi} {e : Arc}
    (hn : (s.conn_queue.entries.map Prod.fst).Nodup) (h : goal_open_step d s e = some s1) :
    (s1.conn_queue.entries.map Prod.fst).Nodup := by
  unfold goal_open_step at h
  dsimp only at h
  split at h
  · simp only [Option.map_eq_some'] at h
    obtain ⟨q, hq, rfl⟩ := h
    exact HeapIndexed.nodup_insert hq hn
  · simp only [Option.some.injEq] at h
    exact h ▸ hn

theorem goal_update_vertex_nodup {s s1 : inc_bi} {u : Nat}
    (hn : (s.conn_queue.entries.map Prod.fst).Nodup)
    (h : goal_update_vertex s u = some s1) :
    (s1.conn_queue.entries.map Prod.fst).Nodup := by
  obtain ⟨p, l, hr, -, -⟩ := goal_recompute_eq s u
  unfold goal_update_vertex at h
  rw [hr] at h
  dsimp only at h
  split at h
  · split at h
    · simp only [Option.bind_eq_some] at h
      obtain ⟨q, -, h⟩ := h
      split at h
      · exact foldlM_inv (fun t => (t.conn_queue.entries.map Prod.fst).Nodup) _
          (fun _ _ _ hP ht => goal_open_step_nodup hP ht) _ _ _ hn h
      · simp only [Option.some.injEq] at h
        exact h ▸ hn
    · simp only [Option.some.injEq] at h
      exact h ▸ hn
  · split at h
    · simp only [Option.map_eq_some'] at h
      obtain ⟨q, -, rfl⟩ := h
      exact hn
    · simp only [Option.bind_eq_some] at h
      obtain ⟨q, -, h⟩ := h
      exact foldlM_inv (fun t => (t.conn_queue.entries.map Prod.fst).Nodup) _
        (fun _ _ _ hP ht => conn_drop_step_nodup hP ht) _ _ _ hn h

theorem goal_lower_step_nodup {d : Weight} {s s1 : inc_bi} {e : Arc}
    (hn : (s.conn_queue.entries.map Prod.fst).Nodup) (h : goal_lower_step d s e = some s1) :
    (s1.conn_queue.entries.map Prod.fst).Nodup := by
  unfold goal_lower_step at h
  simp only [Option.bind_eq_some] at h
  obtain ⟨s2, h2, h3⟩ := h
  have hn2 := goal_update_vertex_nodup hn h2
  split at h3
  · simp only [Option.map_eq_some'] at h3
    obtain ⟨q, hq, rfl⟩ := h3
    exact HeapIndexed.nodup_insert hq hn2
  · simp only [Option.some.injEq] at h3
    exact h3 ▸ hn2

theorem expand_goal_nodup {s s1 : inc_bi}
    (hn : (s.conn_queue.entries.map Prod.fst).Nodup) (h : expand_goal s = some s1) :
    (s1.conn_queue.entries.map Prod.fst).Nodup := by
  unfold expand_goal at h
  simp only [Option.bind_eq_some] at h
  obtain ⟨u, -, q, -, h⟩ := h
  split at h
  · exact foldlM_inv (fun t => (t.conn_queue.entries.map Prod.fst).Nodup) _
      (fun _ _ _ hP ht => goal_lower_step_nodup hP ht) _ _ _ hn h
  · simp only [Option.bind_eq_some] at h
    obtain ⟨s3, h3, h⟩ := h
    exact foldlM_inv (fun t => (t.conn_queue.entries.map Prod.fst).Nodup) _
      (fun _ _ _ hP ht => goal_update_vertex_nodup hP ht) _ _ _
      (goal_update_vertex_nodup (by exact hn) h3) h


/-- The connection queue holds every index once, in every state of the engine. -/
theorem reachable_conn_nodup {s : inc_bi} (hs : Reachable s) :
    (s.conn_queue.entries.map Prod.fst).Nodup := by
  induction hs with
  | construct g vs vg sp sd sl gp gd gl w m t1 t2 t3 s h =>
    obtain ⟨-, -, -, -, -, -, -, -, -, -, -, -, -, h14⟩ := construct_spec h
    rw [h14]
    simp
  | set_weight s w _ ih => exact ih
  | update_edge s s1 e _ h ih => exact update_edge_nodup ih h
  | start_update_vertex s s1 u _ h ih => exact start_update_vertex_nodup ih h
  | goal_update_vertex s s1 u _ h ih => exact goal_update_vertex_nodup ih h
  | compute_shortest_path s s1 fuel r _ h ih =>
    exact compute_shortest_path_inv (fun t => (t.conn_queue.entries.map Prod.fst).Nodup)
      (fun _ _ hP he => expand_start_nodup hP he)
      (fun _ _ hP he => expand_goal_nodup hP he) fuel s r s1 ih h

end inc_bi

/-! ## The predecessor chains of a returned arc -/

/-- On strictly positive weights the predecessors of a consistent vertex whose distance is
at most the least key of the open queue lead back to the source of the frontier, along
arcs whose weights add up to its distance; the lookaheads need not be those of a search
from scratch. -/
theorem pred_chain_top {g : Graph} {w : Arc → Weight} {src : Nat} {d r : Nat → Weight}
    {pred : Nat → Nat} (top : Weight)
    (hg : ∀ e ∈ g.arcs, e.src < g.nv ∧ e.tgt < g.nv)
    (hpos : ∀ e ∈ g.arcs, w e ≠ Weight.zero) (hsrc : r src = Weight.zero)
    (hq : ∀ v, v < g.nv → d v ≠ r v → top ≤ min (d v) (r v))
    (hpred : ∀ v, v < g.nv → v ≠ src → r v ≠ Weight.inf →
      ∃ e ∈ g.arcs, e.tgt = v ∧ e.src = pred v ∧ r v = Weight.combine (d e.src) (w e)) :
    ∀ n v, v < g.nv → d v = Weight.fin n → d v = r v → d v ≤ top →
      ∃ p, IsWalk g src v p ∧ walk_len w p = d v ∧ (∀ e ∈ p, pred e.tgt = e.src) ∧
        (pred^[p.length]) v = src := by
  intro n
  induction n using Nat.strong_induction_on with
  | _ n ih =>
    intro v hv hdv hcons htop
    have hdne : d v ≠ Weight.inf := by
      rw [hdv]
      exact fun h => Weight.noConfusion h
    by_cases hvs : v = src
    · subst hvs
      refine ⟨[], rfl, ?_, by simp, rfl⟩
      rw [hcons, hsrc]
      rfl
    · obtain ⟨e, he, het, hes, her⟩ := hpred v hv hvs (hcons ▸ hdne)
      rw [← hcons, hdv] at her
      have hwe := hpos e he
      obtain ⟨m, k, hm, hk, hmk, hk0⟩ : ∃ m k, d e.src = Weight.fin m ∧ w e = Weight.fin k ∧
          m + k = n ∧ k ≠ 0 := by
        cases hd1 : d e.src with
        | inf =>
          rw [hd1] at her
          simp [Weight.combine] at her
        | fin m =>
          cases hw1 : w e with
          | inf =>
            rw [hd1, hw1] at her
            simp [Weight.combine] at her
          | fin k =>
            rw [hd1, hw1] at her
            simp only [Weight.combine, Weight.fin.injEq] at her
            refine ⟨m, k, rfl, rfl, her.symm, ?_⟩
            intro hk0
            rw [hw1, hk0] at hwe
            exact hwe rfl
      have hlt : d e.src < d v := by
        rw [hm, hdv]
        show Weight.lt (Weight.fin m) (Weight.fin n) = true
        simp only [Weight.lt, decide_eq_true_eq]
        omega
      have hc1 : d e.src = r e.src := by
        by_contra hne
        have h1 := hq e.src (hg e he).1 hne
        exact absurd (le_trans htop (le_trans h1 (min_le_left _ _))) (not_le.mpr hlt)
      obtain ⟨p, hp, hl, hpp, hit⟩ := ih m (by omega) e.src (hg e he).1 hm hc1
        (le_trans (le_of_lt hlt) htop)
      refine ⟨p ++ [e], ?_, ?_, ?_, ?_⟩
      · have := isWalk_snoc hp he rfl
        rw [het] at this
        exact this
      · rw [walk_len_snoc, hl, hm, hk, hdv, ← hmk]
        rfl
      · intro x hx
        rcases List.mem_append.mp hx with h1 | h1
        · exact hpp x h1
        · simp only [List.mem_singleton] at h1
          rw [h1, het, hes]
      · rw [List.length_append, List.length_singleton, Function.iterate_succ_apply, ← hes]
        exact hit

namespace inc_bi

/-- The arc reported as found joins two predecessor chains, in a state whose predecessors,
keys and connection queue are in order: one chain leads from its source back to the
start, the other from its target on to the goal, and the weights along the two chains and
the arc add up to the path length of its key. -/
theorem found_chains_top {g : Graph} (hg : g.WellFormed) {s : inc_bi}
    (hmir : Mirrored g s.weight) (hpos : ∀ a ∈ g.arcs, s.weight a ≠ Weight.zero)
    (hc : ConnInv g s) (hck : ConnKeys g s)
    (hnd : (s.conn_queue.entries.map Prod.fst).Nodup)
    (hoq : ∀ v, v < g.nv → StartInv s v ∧ GoalInv s v)
    (hks : StartKeys s) (hkg : GoalKeys s)
    (hss : s.start_distance_lookahead s.v_start = Weight.zero)
    (hsg : s.goal_distance_lookahead s.v_goal = Weight.zero)
    (hp : StartPred s ∧ GoalPred s) {i : Nat} (hf : found_condition s i) :
    ∃ a ∈ g.arcs, a.idx = i ∧ ∃ k, s.conn_queue.key_of i = some k ∧ ∃ p1 p2,
      IsWalk g s.v_start a.src p1 ∧ (∀ x ∈ p1, s.start_predecessor x.tgt = x.src) ∧
      (s.start_predecessor^[p1.length]) a.src = s.v_start ∧
      IsWalk g a.tgt s.v_goal p2 ∧ (∀ x ∈ p2, s.goal_predecessor x.src = x.tgt) ∧
      (s.goal_predecessor^[p2.length]) a.tgt = s.v_goal ∧
      walk_len s.weight (p1 ++ a :: p2) = k.path_length := by
  obtain ⟨-, k, st, gt, htop, -, hst, hgt, -, -, hle2, hle3⟩ := hf
  have hmem := HeapIndexed.top_mem htop
  obtain ⟨a, ha, hidx, hok⟩ := hc.2 (i, k) hmem
  obtain ⟨a1, ha1, hidx1, hk⟩ := hck (i, k) hmem
  have haa : a1 = a := idx_inj_distinct hg.2 ha1 ha (hidx1.trans hidx.symm)
  subst haa
  dsimp only at hk hidx
  refine ⟨a1, ha, hidx, k, HeapIndexed.key_of_eq_of_mem hnd hmem, ?_⟩
  have hgeq : s.g = g := hc.1
  have hanv := (hg.1 a1 ha).1
  have hbnv := (hg.1 a1 ha).2
  have hks1 : k.start_dist = s.start_distance a1.src := by rw [hk]; rfl
  have hkg1 : k.goal_dist = s.goal_distance a1.tgt := by rw [hk]; rfl
  have hkp : k.path_length = Weight.combine
      (Weight.combine (s.start_distance a1.src) (s.weight a1)) (s.goal_distance a1.tgt) := by
    rw [hk]
    rfl
  have hds : s.start_distance a1.src ≤ st := by
    have h1 : Weight.combine k.start_dist s.goal_margin ≤ st := hle2
    rw [hks1] at h1
    exact le_trans (Weight.le_combine_order _ _) h1
  have hdg : s.goal_distance a1.tgt ≤ gt := by
    have h1 : Weight.combine k.goal_dist s.goal_margin ≤ gt := hle3
    rw [hkg1] at h1
    exact le_trans (Weight.le_combine_order _ _) h1
  have hqs : ∀ v, v < g.nv → s.start_distance v ≠ s.start_distance_lookahead v →
      st ≤ min (s.start_distance v) (s.start_distance_lookahead v) := by
    intro v hv hne
    obtain ⟨kv, hkv⟩ := (HeapIndexed.contains_iff _ v).mp ((hoq v hv).1.mpr hne)
    have h1 : kv = Weight.min (s.start_distance v) (s.start_distance_lookahead v) :=
      (hks (v, kv) hkv).1
    have h2 : st ≤ kv := start_top_le hst v kv hkv
    rw [h1] at h2
    exact h2
  have hqg : ∀ v, v < g.nv → s.goal_distance v ≠ s.goal_distance_lookahead v →
      gt ≤ min (s.goal_distance v) (s.goal_distance_lookahead v) := by
    intro v hv hne
    obtain ⟨kv, hkv⟩ := (HeapIndexed.contains_iff _ v).mp ((hoq v hv).2.mpr hne)
    have h1 : kv = Weight.min (s.goal_distance v) (s.goal_distance_lookahead v) :=
      (hkg (v, kv) hkv).1
    have h2 : gt ≤ kv := goal_top_le hgt v kv hkv
    rw [h1] at h2
    exact h2
  have hcs : s.start_distance a1.src = s.start_distance_lookahead a1.src := by
    by_contra hne
    have := (hoq a1.src hanv).1.mpr hne
    rw [hok.start_absent] at this
    exact absurd this (by simp)
  have hcg : s.goal_distance a1.tgt = s.goal_distance_lookahead a1.tgt := by
    by_contra hne
    have := (hoq a1.tgt hbnv).2.mpr hne
    rw [hok.goal_absent] at this
    exact absurd this (by simp)
  have hps : ∀ v, v < g.nv → v ≠ s.v_start → s.start_distance_lookahead v ≠ Weight.inf →
      ∃ e ∈ g.arcs, e.tgt = v ∧ e.src = s.start_predecessor v ∧
        s.start_distance_lookahead v =
          Weight.combine (s.start_distance e.src) (s.weight e) := by
    intro v hv hne hr
    have := hp.1 v (hgeq ▸ hv) hne hr
    rw [hgeq] at this
    exact this
  have hpg : ∀ v, v < g.nv → v ≠ s.v_goal → s.goal_distance_lookahead v ≠ Weight.inf →
      ∃ e ∈ g.arcs, e.tgt = v ∧ e.src = s.goal_predecessor v ∧
        s.goal_distance_lookahead v =
          Weight.combine (s.goal_distance e.src) (s.weight e) := by
    intro v hv hne hr
    have := hp.2 v (hgeq ▸ hv) hne hr
    rw [hgeq] at this
    exact this
  obtain ⟨n1, hn1⟩ : ∃ n, s.start_distance a1.src = Weight.fin n := by
    cases h : s.start_distance a1.src with
    | inf => exact absurd h hok.start_finite
    | fin n => exact ⟨n, rfl⟩
  obtain ⟨n2, hn2⟩ : ∃ n, s.goal_distance a1.tgt = Weight.fin n := by
    cases h : s.goal_distance a1.tgt with
    | inf => exact absurd h hok.goal_finite
    | fin n => exact ⟨n, rfl⟩
  obtain ⟨p1, hw1, hl1, hpp1, hit1⟩ :=
    pred_chain_top st hg.1 hpos hss hqs hps n1 a1.src hanv hn1 hcs hds
  obtain ⟨p2, hw2, hl2, hpp2, hit2⟩ :=
    pred_chain_top gt hg.1 hpos hsg hqg hpg n2 a1.tgt hbnv hn2 hcg hdg
  obtain ⟨q2, hq2, hlq, hqp, hlen⟩ := isWalk_reverse_pred hmir s.goal_predecessor hw2 hpp2
  refine ⟨p1, q2, hw1, hpp1, hit1, hq2, hqp, hlen ▸ hit2, ?_⟩
  rw [walk_len_append, hkp]
  simp only [walk_len]
  rw [hl1, hlq, hl2, Weight.combine_assoc]

end inc_bi

/-! ## The lookaheads and the connection queue of a maintained engine -/

theorem lookahead_of_weight_congr {g : Graph} {w w1 : Arc → Weight} (d : Nat → Weight)
    {t : Nat} (h : ∀ e ∈ g.arcs, e.tgt = t → w1 e = w e) :
    lookahead_of g w1 d t = lookahead_of g w d t := by
  unfold lookahead_of
  apply List.foldl_ext
  intro r e he
  rw [h e (mem_in_edges.mp he).1 (mem_in_edges.mp he).2]

namespace inc_bi

/-- The method `start_update_vertex(u)` makes the start lookahead of `u` current and keeps
the other start lookaheads current. -/
theorem start_update_vertex_startFresh {s s1 : inc_bi} {u : Nat}
    (h : start_update_vertex s u = some s1) {v : Nat} (hv : StartFresh s v ∨ v = u) :
    StartFresh s1 v := by
  obtain ⟨hf, hd, hl, -, hr⟩ := start_update_vertex_lookahead h
  unfold StartFresh at hv ⊢
  rw [hf.g, hf.weight, hf.v_start, hd]
  by_cases hs : v = s.v_start
  · exact Or.inl hs
  right
  by_cases hvu : v = u
  · rw [hvu]
    exact hr (hvu ▸ hs)
  · rcases hv with (hv | hv) | hv
    · exact absurd hv hs
    · rw [hl v hvu]
      exact hv
    · exact absurd hv hvu

/-- The method `goal_update_vertex(u)` makes the goal lookahead of `u` current and keeps
the other goal lookaheads current. -/
theorem goal_update_vertex_goalFresh {s s1 : inc_bi} {u : Nat}
    (h : goal_update_vertex s u = some s1) {v : Nat} (hv : GoalFresh s v ∨ v = u) :
    GoalFresh s1 v := by
  obtain ⟨hf, hd, hl, -, hr⟩ := goal_update_vertex_lookahead h
  unfold GoalFresh at hv ⊢
  rw [hf.g, hf.weight, hf.v_goal, hd]
  by_cases hs : v = s.v_goal
  · exact Or.inl hs
  right
  by_cases hvu : v = u
  · rw [hvu]
    exact hr (hvu ▸ hs)
  · rcases hv with (hv | hv) | hv
    · exact absurd hv hs
    · rw [hl v hvu]
      exact hv
    · exact absurd hv hvu

/-- After the constructor the lookaheads of the vertices of the graph are current: every
distance is `inf`, and so is every lookahead but those of the start and of the goal. -/
theorem construct_current {g : Graph} (hg : g.WellFormed) {vs vg : Nat} {sp : Nat → Nat}
    {sd sl : Nat → Weight} {gp : Nat → Nat} {gd gl : Nat → Weight} {w : Arc → Weight}
    {m : Weight} {t1 t2 t3 : Nat → Nat} {s : inc_bi}
    (h : construct g vs vg sp sd sl gp gd gl w m t1 t2 t3 = some s) {v : Nat}
    (hv : v < g.nv) : StartFresh s v ∧ GoalFresh s v := by
  obtain ⟨h1, h2, h3, h4, -, -, -, h8, h9, h10, h11, -⟩ := construct_spec h
  have hinf : ∀ d : Nat → Weight, (∀ x, x < g.nv → d x = Weight.inf) →
      lookahead_of g w d v = Weight.inf := by
    intro d hd
    rcases lookahead_of_attained g w d v with h5 | ⟨e, he, -, h5⟩
    · exact h5
    · rw [h5, hd e.src (hg.1 e he).1]
      rfl
  constructor
  · unfold StartFresh
    rw [h1, h2, h4]
    by_cases hs : v = vs
    · exact Or.inl hs
    · right
      rw [h9 v, if_neg hs, if_pos hv]
      exact (hinf _ (fun x hx => by rw [h8 x, if_pos hx])).symm
  · unfold GoalFresh
    rw [h1, h3, h4]
    by_cases hs : v = vg
    · exact Or.inl hs
    · right
      rw [h11 v, if_neg hs, if_pos hv]
      exact (hinf _ (fun x hx => by rw [h10 x, if_pos hx])).symm

/-- In a maintained engine the lookaheads of the vertices of the graph are current, on a
graph whose arcs join vertices of the graph and come in mirrored pairs. -/
theorem reachableMaint_current {g : Graph} (hg : g.WellFormed)
    (hm : ∀ e ∈ g.arcs, ∃ e1 ∈ g.arcs, e1.src = e.tgt ∧ e1.tgt = e.src) {s : inc_bi}
    (hs : ReachableMaint g s) : ∀ v, v < g.nv → StartFresh s v ∧ GoalFresh s v := by
  induction hs with
  | construct vs vg sp sd sl gp gd gl w m t1 t2 t3 s h =>
    intro v hv
    exact construct_current hg h hv
  | update_edge s s1 e he _ h ih =>
    obtain ⟨q, rfl⟩ := update_edge_connOnly h
    exact ih
  | change_weight s s1 w e e1 he he1 hrev hw hs0 h ih =>
    have hsg := reachableMaint_g hs0
    unfold change_weight at h
    simp only [Option.bind_eq_some] at h
    obtain ⟨s2, h2, s3, h3, s4, h4, s5, h5, s6, h6, h7⟩ := h
    obtain ⟨q2, rfl⟩ := update_edge_connOnly h2
    obtain ⟨q3, rfl⟩ := update_edge_connOnly h3
    intro v hv
    have h0 : v ≠ e.src → v ≠ e.tgt →
        StartFresh { s with weight := w } v ∧ GoalFresh { s with weight := w } v := by
      intro hv1 hv2
      have hc : ∀ d, lookahead_of s.g w d v = lookahead_of s.g s.weight d v := by
        intro d
        apply lookahead_of_weight_congr
        intro a ha hat
        rw [hsg] at ha
        exact hw a ha (fun hae => hv2 (by rw [← hat, hae]))
          (fun hae => hv1 (by rw [← hat, hae, hrev.2]))
      obtain ⟨i1, i2⟩ := ih v hv
      constructor
      · unfold StartFresh at i1 ⊢
        rcases i1 with i1 | i1
        · exact Or.inl i1
        · right
          dsimp only
          rw [hc]
          exact i1
      · unfold GoalFresh at i2 ⊢
        rcases i2 with i2 | i2
        · exact Or.inl i2
        · right
          dsimp only
          rw [hc]
          exact i2
    have hf4 := (start_update_vertex_frame h4).1
    have hf5 := (start_update_vertex_frame h5).1
    have hf6 := (goal_update_vertex_frame h6).1
    have hf7 := (goal_update_vertex_frame h7).1
    constructor
    · apply startFresh_of_goalFrame hf7
      apply startFresh_of_goalFrame hf6
      by_cases hvt : v = e.tgt
      · exact start_update_vertex_startFresh h5 (Or.inr hvt)
      · refine start_update_vertex_startFresh h5 (Or.inl ?_)
        by_cases hvs : v = e.src
        · exact start_update_vertex_startFresh h4 (Or.inr hvs)
        · refine start_update_vertex_startFresh h4 (Or.inl ?_)
          exact (h0 hvs hvt).1
    · by_cases hvt : v = e.tgt
      · exact goal_update_vertex_goalFresh h7 (Or.inr hvt)
      · refine goal_update_vertex_goalFresh h7 (Or.inl ?_)
        by_cases hvs : v = e.src
        · exact goal_update_vertex_goalFresh h6 (Or.inr hvs)
        · refine goal_update_vertex_goalFresh h6 (Or.inl ?_)
          apply goalFresh_of_startFrame hf5
          apply goalFresh_of_startFrame hf4
          exact (h0 hvs hvt).2
  | start_update_vertex s s1 u _ h ih =>
    intro v hv
    exact ⟨start_update_vertex_startFresh h (Or.inl (ih v hv).1),
      goalFresh_of_startFrame (start_update_vertex_frame h).1 (ih v hv).2⟩
  | goal_update_vertex s s1 u _ h ih =>
    intro v hv
    exact ⟨startFresh_of_goalFrame (goal_update_vertex_frame h).1 (ih v hv).1,
      goal_update_vertex_goalFresh h (Or.inl (ih v hv).2)⟩
  | compute_shortest_path s s1 fuel r hs0 h ih =>
    have hsg := reachableMaint_g hs0
    exact (compute_shortest_path_inv
      (fun t => t.g = g ∧ ∀ v, v < g.nv → StartFresh t v ∧ GoalFresh t v)
      (fun _ _ hP he => ⟨((expand_start_frame he).1.g).trans hP.1, fun v hv =>
        ⟨expand_start_startFresh he (hP.2 v hv).1,
          goalFresh_of_startFrame (expand_start_frame he).1 (hP.2 v hv).2⟩⟩)
      (fun _ _ hP he => ⟨((expand_goal_frame he).1.g).trans hP.1, fun v hv =>
        ⟨startFresh_of_goalFrame (expand_goal_frame he).1 (hP.2 v hv).1,
          expand_goal_goalFresh (hP.1 ▸ hm) he (hP.2 v hv).2⟩⟩)
      fuel s r s1 ⟨hsg, ih⟩ h).2

/-- The calls that follow a change of the weight of an edge keep the connection queue in
order. -/
theorem change_weight_conn {g : Graph} (hn : g.DistinctIdx) {s s1 : inc_bi}
    {w : Arc → Weight} {e e1 : Arc} (he : e ∈ g.arcs) (he1 : e1 ∈ g.arcs)
    (hI : ConnInv g s) (h : change_weight s w e e1 = some s1) : ConnInv g s1 := by
  unfold change_weight at h
  simp only [Option.bind_eq_some] at h
  obtain ⟨s2, h2, s3, h3, s4, h4, s5, h5, s6, h6, h7⟩ := h
  have hI0 : ConnInv g { s with weight := w } := by
    refine ⟨hI.1, ?_⟩
    intro x hx
    obtain ⟨a, ha, hidx, hok⟩ := hI.2 x hx
    exact ⟨a, ha, hidx,
      { start_absent := hok.start_absent, start_finite := hok.start_finite,
        goal_absent := hok.goal_absent, goal_finite := hok.goal_finite }⟩
  have hI2 : ConnInv g s2 := by
    obtain ⟨t, ht, hIt⟩ := update_edge_conn hI0 he
    rw [h2] at ht
    exact (Option.some.inj ht) ▸ hIt
  have hI3 : ConnInv g s3 := by
    obtain ⟨t, ht, hIt⟩ := update_edge_conn hI2 he1
    rw [h3] at ht
    exact (Option.some.inj ht) ▸ hIt
  have hI4 : ConnInv g s4 := by
    obtain ⟨t, ht, hIt, -⟩ := start_update_vertex_conn hn hI3 e.src
    rw [h4] at ht
    exact (Option.some.inj ht) ▸ hIt
  have hI5 : ConnInv g s5 := by
    obtain ⟨t, ht, hIt, -⟩ := start_update_vertex_conn hn hI4 e.tgt
    rw [h5] at ht
    exact (Option.some.inj ht) ▸ hIt
  have hI6 : ConnInv g s6 := by
    obtain ⟨t, ht, hIt, -⟩ := goal_update_vertex_conn hn hI5 e.src
    rw [h6] at ht
    exact (Option.some.inj ht) ▸ hIt
  obtain ⟨t, ht, hIt, -⟩ := goal_update_vertex_conn hn hI6 e.tgt
  rw [h7] at ht
  exact (Option.some.inj ht) ▸ hIt

/-- The calls that follow a change of the weight of an edge make the keys of the
connection queue current again. -/
theorem change_weight_connKeys {g : Graph} {s s1 : inc_bi} {w : Arc → Weight}
    {e e1 : Arc} (he : e ∈ g.arcs) (he1 : e1 ∈ g.arcs) (hsg : s.g = g)
    (hw : ∀ a ∈ g.arcs, a ≠ e → a ≠ e1 → w a = s.weight a) (hk : ConnKeys g s)
    (h : change_weight s w e e1 = some s1) : ConnKeys g s1 := by
  unfold change_weight at h
  simp only [Option.bind_eq_some] at h
  obtain ⟨s2, h2, s3, h3, s4, h4, s5, h5, s6, h6, h7⟩ := h
  obtain ⟨t1, ht1, rfl⟩ := update_edge_isSome_weight h2
  have hk1 : ConnKeys g t1 := by
    refine update_edge_connKeys he ?_ ht1
    intro x hx hne
    obtain ⟨a, ha, hidx, hkey⟩ := hk x hx
    have hae : a ≠ e := fun h2 => hne (by rw [← hidx, h2])
    refine ⟨a, ha, hidx, ?_⟩
    rw [hkey]
    unfold conn_key_of
    simp only [Function.update_noteq hae]
  obtain ⟨q1, hq1⟩ := update_edge_connOnly ht1
  have hw1 : t1.weight = Function.update s.weight e (w e) := by rw [hq1]
  have hg1 : t1.g = g := by rw [hq1]; exact hsg
  have hk3 : ConnKeys g s3 := by
    refine update_edge_connKeys he1 ?_ h3
    intro x hx hne
    obtain ⟨a, ha, hidx, hkey⟩ := hk1 x hx
    have hae1 : a ≠ e1 := fun h2 => hne (by rw [← hidx, h2])
    refine ⟨a, ha, hidx, ?_⟩
    rw [hkey]
    unfold conn_key_of
    dsimp only
    rw [hw1]
    by_cases hae : a = e
    · rw [hae, Function.update_same]
    · rw [Function.update_noteq hae, hw a ha hae hae1]
  obtain ⟨q3, hq3⟩ := update_edge_connOnly h3
  have hg3 : s3.g = g := by rw [hq3]; exact hg1
  have hk4 := start_update_vertex_connKeys hg3 hk3 h4
  have hg4 : s4.g = g := ((start_update_vertex_frame h4).1.g).trans hg3
  have hk5 := start_update_vertex_connKeys hg4 hk4 h5
  have hg5 : s5.g = g := ((start_update_vertex_frame h5).1.g).trans hg4
  have hk6 := goal_update_vertex_connKeys hg5 hk5 h6
  have hg6 : s6.g = g := ((goal_update_vertex_frame h6).1.g).trans hg5
  exact goal_update_vertex_connKeys hg6 hk6 h7

/-- In a maintained engine the connection queue is in order and its keys are current, on
a graph whose arcs join vertices of the graph, carry distinct edge indices and come in
mirrored pairs; the graph may have arcs from a vertex to itself. -/
theorem reachableMaint_conn {g : Graph} (hg : g.WellFormed)
    (hm : ∀ e ∈ g.arcs, ∃ e1 ∈ g.arcs, e1.src = e.tgt ∧ e1.tgt = e.src) {s : inc_bi}
    (hs : ReachableMaint g s) : ConnInv g s ∧ ConnKeys g s := by
  induction hs with
  | construct vs vg sp sd sl gp gd gl w m t1 t2 t3 s h =>
    obtain ⟨h1, -, -, -, -, -, -, -, -, -, -, -, -, h14⟩ := construct_spec h
    constructor
    · refine ⟨h1, ?_⟩
      intro x hx
      rw [h14] at hx
      simp at hx
    · intro x hx
      rw [h14] at hx
      simp at hx
  | update_edge s s1 e he _ h ih =>
    refine ⟨?_, update_edge_connKeys he (fun x hx _ => ih.2 x hx) h⟩
    obtain ⟨t, ht, hIt⟩ := update_edge_conn ih.1 he
    rw [h] at ht
    exact (Option.some.inj ht) ▸ hIt
  | change_weight s s1 w e e1 he he1 hrev hw hs0 h ih =>
    exact ⟨change_weight_conn hg.2 he he1 ih.1 h,
      change_weight_connKeys he he1 ih.1.1 hw ih.2 h⟩
  | start_update_vertex s s1 u _ h ih =>
    refine ⟨?_, start_update_vertex_connKeys ih.1.1 ih.2 h⟩
    obtain ⟨t, ht, hIt, -⟩ := start_update_vertex_conn hg.2 ih.1 u
    rw [h] at ht
    exact (Option.some.inj ht) ▸ hIt
  | goal_update_vertex s s1 u _ h ih =>
    refine ⟨?_, goal_update_vertex_connKeys ih.1.1 ih.2 h⟩
    obtain ⟨t, ht, hIt, -⟩ := goal_update_vertex_conn hg.2 ih.1 u
    rw [h] at ht
    exact (Option.some.inj ht) ▸ hIt
  | compute_shortest_path s s1 fuel r hs0 h ih =>
    have hc := reachableMaint_current hg hm hs0
    have hfin := compute_shortest_path_inv
      (fun t => ConnInv g t ∧ ConnKeys g t ∧
        ∀ v, v < g.nv → StartFresh t v ∧ GoalFresh t v)
      (fun t t1 hP he => by
        obtain ⟨t2, h2, hI2⟩ := expand_start_conn_of_fresh hg.2 hP.1
          (fun a ha _ => hP.1.1 ▸ (hP.2.2 a.src (hg.1 a ha).1).1) (expand_start_nonempty he)
        rw [he] at h2
        exact ⟨(Option.some.inj h2) ▸ hI2, expand_start_connKeys hg.2 hP.1 hP.2.1 he,
          fun v hv => ⟨expand_start_startFresh he (hP.2.2 v hv).1,
            goalFresh_of_startFrame (expand_start_frame he).1 (hP.2.2 v hv).2⟩⟩)
      (fun t t1 hP he => by
        obtain ⟨t2, h2, hI2⟩ := expand_goal_conn_of_fresh hg.2 hP.1
          (fun a ha _ => hP.1.1 ▸ (hP.2.2 a.src (hg.1 a ha).1).2) (expand_goal_nonempty he)
        rw [he] at h2
        exact ⟨(Option.some.inj h2) ▸ hI2, expand_goal_connKeys hg.2 hP.1 hP.2.1 he,
          fun v hv => ⟨startFresh_of_goalFrame (expand_goal_frame he).1 (hP.2.2 v hv).1,
            expand_goal_goalFresh (hP.1.1 ▸ hm) he (hP.2.2 v hv).2⟩⟩)
      fuel s r s1 ⟨ih.1, ih.2, hc⟩ h
    exact ⟨hfin.1, hfin.2.1⟩

theorem reachableMaint_on {g : Graph} {s : inc_bi} (hs : ReachableMaint g s) :
    ReachableOn g s :=
  reachableUpd_on (reachableMaint_upd hs)

/-- The invariants of a run hold in every state of a maintained engine on a graph with
distinct edge indices whose queues hold vertices of the graph and whose current weights
are equal on mirrored arcs; the graph may have arcs from a vertex to itself. -/
theorem reachableMaint_runInv {g : Graph} (hg : g.WellFormed) {s : inc_bi}
    (hs : ReachableMaint g s) (hm : Mirrored g s.weight)
    (hq : ∀ v, s.start_queue.contains v = true ∨ s.goal_queue.contains v = true →
      v < g.nv) : RunInv g s := by
  have hc := (reachableMaint_conn hg (mirrored_arcs hm) hs).1
  have hr := reachableOn_reachable (reachableMaint_on hs)
  exact
    { conn := hc
      open_queue := fun v hv => reachable_open_queue hr v (hc.1 ▸ hv)
      start_keys := (reachable_keys hr).1
      goal_keys := (reachable_keys hr).2
      start_bound := fun v hv => hq v (Or.inl hv)
      goal_bound := fun v hv => hq v (Or.inr hv)
      start_source := (reachable_source_lookahead hr).1
      goal_source := (reachable_source_lookahead hr).2
      mirrored := hm
      self_loops := fun e he _ =>
        reachableMaint_current hg (mirrored_arcs hm) hs e.src (hg.1 e he).1 }

end inc_bi

namespace inc_bi

/-- A run of `compute_shortest_path` leaves the weights, the start and the goal alone. -/
theorem compute_shortest_path_frame {fuel : Nat} {s s1 : inc_bi} {r : Nat × Bool}
    (h : compute_shortest_path fuel s = Run.done (r, s1)) :
    s1.weight = s.weight ∧ s1.v_start = s.v_start ∧ s1.v_goal = s.v_goal :=
  compute_shortest_path_inv
    (fun t => t.weight = s.weight ∧ t.v_start = s.v_start ∧ t.v_goal = s.v_goal)
    (fun _ _ hP ht => ⟨(expand_start_frame ht).1.weight.trans hP.1,
      (expand_start_frame ht).1.v_start.trans hP.2.1,
      (expand_start_frame ht).1.v_goal.trans hP.2.2⟩)
    (fun _ _ hP ht => ⟨(expand_goal_frame ht).1.weight.trans hP.1,
      (expand_goal_frame ht).1.v_start.trans hP.2.1,
      (expand_goal_frame ht).1.v_goal.trans hP.2.2⟩) fuel s r s1 ⟨rfl, rfl, rfl⟩ h

end inc_bi

/-- Why a graph with an arc from a vertex to itself asks for the update calls: on
`two_loops`, after a first search from 0 to 1, the edge 0 - 1 is set to unreachable and
only `update_edge` on the arc 0 -> 1 and `start_update_vertex` on the vertex 1 are called;
the edge is then set to 0 with no call at all. The next run, on lookaheads that are out
of date, uses a queue outside its contract, where the spec leaves the behaviour of the
queue open. -/
theorem unmaintained_self_loop_leaves_contract :
    ((inc_bi.fresh two_loops 0 1 (two_loops_weight (Weight.fin 1)) Weight.zero).bind
      fun s0 => (inc_bi.compute_shortest_path 10 s0).result.bind fun x =>
      (inc_bi.update_edge { x.2 with weight := two_loops_weight Weight.inf }
        ⟨0, 1, 2⟩).bind fun s2 =>
      (inc_bi.start_update_vertex s2 1).map fun s3 =>
      (x.1, (inc_bi.compute_shortest_path 10
        { s3 with weight := two_loops_weight (Weight.fin 0) }).faulted))
      = some ((2, true), true) ∧ Mirrored two_loops (two_loops_weight (Weight.fin 0)) ∧
      two_loops.WellFormed := by
  decide

/-- C16 (counterexample): on the path 0 - 1 - 2 - 3 whose middle edge weighs 0, a fresh
engine searching from 0 to 3 returns the arc 2 -> 3 of index 4 as found, while the start
predecessor of 2 is 1 and the start predecessor of 1 is 2: the chain from the source of
the returned arc never reaches the start vertex 0. And on the cycle, after the weight of
AB has been set to unreachable and `update_edge` called on its arcs, but neither update
method on its endpoints, a run returns the arc B -> C of index 2 with path length 2; the
chains give the path A-B-C, whose weight is `inf`. -/
theorem C16_counterexample :
    (∃ s0 s1, inc_bi.fresh path4 0 3 path4_weight Weight.zero = some s0 ∧
      inc_bi.compute_shortest_path 10 s0 = Run.done ((4, true), s1) ∧
      (⟨2, 3, 4⟩ : Arc) ∈ path4.arcs ∧ s1.start_predecessor 2 = 1 ∧
      s1.start_predecessor 1 = 2 ∧ ∀ n, (s1.start_predecessor^[n]) 2 ≠ 0) ∧
    ((scenario_A (fun _ => 0) (fun _ => 1) (fun _ => 0)).bind fun x => scenario_B x.2).map
        (fun y => (y.1, (y.2.conn_queue.key_of 2).map conn_key.path_length,
          y.2.start_predecessor 1, y.2.v_start, y.2.v_goal,
          walk_len y.2.weight [⟨0, 1, 0⟩, ⟨1, 2, 2⟩]))
      = some ((2, true), some (Weight.fin 2), 0, 0, 2, Weight.inf) := by
  refine ⟨?_, by decide⟩
  have hd : ((inc_bi.fresh path4 0 3 path4_weight Weight.zero).bind
      (fun s => (inc_bi.compute_shortest_path 10 s).result)).map
      (fun x => (x.1, x.2.start_predecessor 2, x.2.start_predecessor 1))
      = some ((4, true), 1, 2) := by decide
  obtain ⟨x, hx, hval⟩ := Option.map_eq_some'.mp hd
  obtain ⟨s0, hs0, hrun⟩ := Option.bind_eq_some.mp hx
  simp only [Prod.mk.injEq] at hval
  obtain ⟨h1, h2, h3⟩ := hval
  have hr : inc_bi.compute_shortest_path 10 s0 = Run.done ((4, true), x.2) := by
    rw [← h1]
    exact run_result_eq_some hrun
  have hcyc : ∀ n, (x.2.start_predecessor^[n]) 2 = 2 ∨ (x.2.start_predecessor^[n]) 2 = 1 := by
    intro n
    induction n with
    | zero => exact Or.inl rfl
    | succ n ih =>
      rw [Function.iterate_succ_apply']
      rcases ih with h | h
      · rw [h]
        exact Or.inr h2
      · rw [h]
        exact Or.inl h3
  refine ⟨s0, x.2, hs0, hr, by decide, h2, h3, ?_⟩
  intro n
  rcases hcyc n with h | h <;> rw [h] <;> decide

/-- C16 (amended): whenever `compute_shortest_path` returns `(e, true)` on an undirected
graph with strictly positive weights, in a state reached from construction through
`update_edge`, `start_update_vertex`, `goal_update_vertex` and `compute_shortest_path`,
every change of the weight of an edge being followed by `update_edge` on its two arcs and
by both update methods on its two endpoints, `e` is the index of an arc `a` whose key is
in the connection queue; following `start_predecessor` from the source of `a` reaches
`v_start` and following `goal_predecessor` from the target of `a` reaches `v_goal`, every
step along an arc of the graph, and the weights of the reconstructed path from `v_start`
to `v_goal` add up to the path length of the key. -/
theorem C16_predecessor_chains_reach_endpoints (g : Graph) (s s1 : inc_bi) (fuel e : Nat)
    (hg : g.WellFormed) (hs : inc_bi.ReachableMaint g s) (hmir : Mirrored g s.weight)
    (hpos : ∀ a ∈ g.arcs, s.weight a ≠ Weight.zero)
    (hr : inc_bi.compute_shortest_path fuel s = Run.done ((e, true), s1)) :
    ∃ a ∈ g.arcs, a.idx = e ∧ ∃ k, s1.conn_queue.key_of e = some k ∧ ∃ p1 p2,
      IsWalk g s.v_start a.src p1 ∧ (∀ x ∈ p1, s1.start_predecessor x.tgt = x.src) ∧
      (s1.start_predecessor^[p1.length]) a.src = s.v_start ∧
      IsWalk g a.tgt s.v_goal p2 ∧ (∀ x ∈ p2, s1.goal_predecessor x.src = x.tgt) ∧
      (s1.goal_predecessor^[p2.length]) a.tgt = s.v_goal ∧
      walk_len s.weight (p1 ++ a :: p2) = k.path_length := by
  have hs1 := inc_bi.ReachableMaint.compute_shortest_path s s1 fuel (e, true) hs hr
  obtain ⟨hw, hvs, hvg⟩ := inc_bi.compute_shortest_path_frame hr
  have hma := inc_bi.mirrored_arcs hmir
  obtain ⟨hc, hck⟩ := inc_bi.reachableMaint_conn hg hma hs1
  have hrch := inc_bi.reachableOn_reachable (inc_bi.reachableMaint_on hs1)
  rw [← hw] at hmir hpos
  rw [← hw, ← hvs, ← hvg]
  exact inc_bi.found_chains_top hg hmir hpos hc hck (inc_bi.reachable_conn_nodup hrch)
    (fun v hv => inc_bi.reachable_open_queue hrch v (hc.1 ▸ hv))
    (inc_bi.reachable_keys hrch).1 (inc_bi.reachable_keys hrch).2
    (inc_bi.reachable_source_lookahead hrch).1 (inc_bi.reachable_source_lookahead hrch).2
    (inc_bi.reachableMaint_pred hma hs1)
    ((inc_bi.iteration_found_iff s1 e).mp (inc_bi.compute_shortest_path_done hr))

/-- C16 (amended) on the path 0 - 1 - 2 with an edge from 1 to itself: after a first search
from the vertex 0 to the vertex 2 the weight of the edge 0 - 1 changes from 3 to 2, and
`update_edge` is called on its two arcs and both update methods on its two endpoints; the
next search returns the arc 0 -> 1, and the predecessor chains from its endpoints give a
path from 0 to 2 whose weight is the path length of the key. -/
theorem C16_predecessor_chains_reach_endpoints_witness :
    ∃ s0 x s2 s1, inc_bi.fresh lasso 0 2 (lasso_weight 3) Weight.zero = some s0 ∧
      inc_bi.compute_shortest_path 10 s0 = Run.done x ∧
      inc_bi.change_weight x.2 (lasso_weight 2) ⟨0, 1, 0⟩ ⟨1, 0, 1⟩ = some s2 ∧
      inc_bi.compute_shortest_path 10 s2 = Run.done ((0, true), s1) ∧
      ∃ a ∈ lasso.arcs, a.idx = 0 ∧ ∃ k, s1.conn_queue.key_of 0 = some k ∧ ∃ p1 p2,
        IsWalk lasso s2.v_start a.src p1 ∧
        (∀ x ∈ p1, s1.start_predecessor x.tgt = x.src) ∧
        (s1.start_predecessor^[p1.length]) a.src = s2.v_start ∧
        IsWalk lasso a.tgt s2.v_goal p2 ∧
        (∀ x ∈ p2, s1.goal_predecessor x.src = x.tgt) ∧
        (s1.goal_predecessor^[p2.length]) a.tgt = s2.v_goal ∧
        walk_len s2.weight (p1 ++ a :: p2) = k.path_length := by
  have hd : ((inc_bi.fresh lasso 0 2 (lasso_weight 3) Weight.zero).bind fun s0 =>
      (inc_bi.compute_shortest_path 10 s0).result.bind fun x =>
      (inc_bi.change_weight x.2 (lasso_weight 2) ⟨0, 1, 0⟩ ⟨1, 0, 1⟩).bind fun s2 =>
      (inc_bi.compute_shortest_path 10 s2).result.map fun y => (s2, y)).map
      (fun p => (p.2.1, decide (Mirrored lasso p.1.weight),
        decide (∀ a ∈ lasso.arcs, p.1.weight a ≠ Weight.zero)))
      = some ((0, true), true, true) := by decide
  obtain ⟨p, hp, hval⟩ := Option.map_eq_some'.mp hd
  obtain ⟨s0, hs0, h⟩ := Option.bind_eq_some.mp hp
  obtain ⟨x, hx, h⟩ := Option.bind_eq_some.mp h
  obtain ⟨s2, hs2, h⟩ := Option.bind_eq_some.mp h
  obtain ⟨y, hy, rfl⟩ := Option.map_eq_some'.mp h
  simp only [Prod.mk.injEq, decide_eq_true_eq] at hval
  obtain ⟨hy1, hm, hpos⟩ := hval
  have hrun : inc_bi.compute_shortest_path 10 s0 = Run.done (x.1, x.2) :=
    run_result_eq_some hx
  have hrun2 : inc_bi.compute_shortest_path 10 s2 = Run.done ((0, true), y.2) := by
    rw [← hy1]
    exact run_result_eq_some hy
  have hwx : x.2.weight = lasso_weight 3 :=
    (inc_bi.compute_shortest_path_frame hrun).1.trans (inc_bi.construct_spec hs0).2.2.2.1
  have hmaint : inc_bi.ReachableMaint lasso s2 :=
    inc_bi.ReachableMaint.change_weight x.2 s2 (lasso_weight 2) ⟨0, 1, 0⟩ ⟨1, 0, 1⟩
      (by decide) (by decide) (by decide)
      (by
        rw [hwx]
        decide)
      (inc_bi.ReachableMaint.compute_shortest_path s0 x.2 10 x.1
        (inc_bi.ReachableMaint.construct _ _ _ _ _ _ _ _ _ _ _ _ _ s0 hs0) hrun) hs2
  exact ⟨s0, x, s2, y.2, hs0, hrun, hs2, hrun2,
    C16_predecessor_chains_reach_endpoints lasso s2 y.2 10 0 (by decide) hmaint hm hpos
      hrun2⟩

end pr_bgl

namespace ompl_lemur

/-! ## The parameters of the roadmap generator -/

namespace RoadmapRGGDensConst

/-- The method `initialize()` on any state of the members: it throws exactly when a
parameter is missing, it leaves the members alone when it throws and sets `initialized`
otherwise. -/
theorem initialize_roadmap_spec (s : Params) :
    ((initialize_roadmap s).thrown ≠ none ↔
      (s.num_per_batch = 0 ∨ Double.eq s.radius (Double.zero false) = true ∨
        s.seed_set = false)) ∧
    ((initialize_roadmap s).thrown ≠ none →
      (initialize_roadmap s).state = s ∧
      (initialize_roadmap s).thrown = some ("Cannot initialize, parameters not set:"
        ++ (if s.num_per_batch = 0 then " num_per_batch" else "")
        ++ (if Double.eq s.radius (Double.zero false) then " radius" else "")
        ++ (if s.seed_set then "" else " seed"))) ∧
    ((initialize_roadmap s).thrown = none →
      (initialize_roadmap s).state = { s with initialized := true }) := by
  unfold initialize_roadmap
  by_cases h1 : s.num_per_batch = 0 <;>
  by_cases h2 : Double.eq s.radius (Double.zero false) = true <;>
  by_cases h3 : s.seed_set = true <;>
  simp [h1, h2, h3]

/-- A call keeps the members in order (an initialized object has all three parameters)
and sets `_seed_set` exactly when it is a call of `setSeed`. -/
theorem step_valid (s : Params) (c : Call)
    (hv : s.initialized = true → s.num_per_batch ≠ 0 ∧
      Double.eq s.radius (Double.zero false) = false ∧ s.seed_set = true) :
    ((step s c).state.initialized = true → (step s c).state.num_per_batch ≠ 0 ∧
      Double.eq (step s c).state.radius (Double.zero false) = false ∧
      (step s c).state.seed_set = true) ∧
    ((step s c).state.seed_set = true ↔ s.seed_set = true ∨ ∃ v, c = Call.setSeed v) := by
  cases c with
  | setNumPerBatch v =>
    simp only [step]
    unfold setNumPerBatch
    by_cases h1 : v = s.num_per_batch
    · rw [if_pos h1]
      exact ⟨hv, by simp⟩
    · by_cases h2 : s.initialized = true
      · rw [if_neg h1, if_pos h2]
        exact ⟨hv, by simp⟩
      · rw [if_neg h1, if_neg h2]
        exact ⟨fun h => absurd h h2, by simp⟩
  | setRadius v =>
    simp only [step]
    unfold setRadius
    by_cases h1 : Double.eq v s.radius = true
    · rw [if_pos h1]
      exact ⟨hv, by simp⟩
    · by_cases h2 : s.initialized = true
      · rw [if_neg h1, if_pos h2]
        exact ⟨hv, by simp⟩
      · rw [if_neg h1, if_neg h2]
        exact ⟨fun h => absurd h h2, by simp⟩
  | setSeed v =>
    simp only [step]
    unfold setSeed
    by_cases h1 : (s.seed_set && decide (v = s.seed)) = true
    · rw [if_pos h1]
      refine ⟨hv, ?_⟩
      simp only [Bool.and_eq_true] at h1
      simp [h1.1]
    · by_cases h2 : s.initialized = true
      · rw [if_neg h1, if_pos h2]
        refine ⟨hv, ?_⟩
        simp [(hv h2).2.2]
      · rw [if_neg h1, if_neg h2]
        exact ⟨fun h => absurd h h2, by simp⟩
  | initialize_roadmap =>
    obtain ⟨a1, a2, a3⟩ := initialize_roadmap_spec s
    unfold step
    simp only
    by_cases ht : (initialize_roadmap s).thrown = none
    · rw [a3 ht]
      simp only [true_implies]
      have hm := not_or.mp (fun h => (a1.mpr h) ht)
      have hm2 := not_or.mp hm.2
      refine ⟨⟨hm.1, by simpa using hm2.1, by simpa using hm2.2⟩, by simp⟩
    · rw [(a2 ht).1]
      exact ⟨hv, by simp⟩
  | other =>
    unfold step
    exact ⟨hv, by simp⟩

theorem fold_valid (cs : List Call) :
    ∀ s : Params,
      (s.initialized = true → s.num_per_batch ≠ 0 ∧
        Double.eq s.radius (Double.zero false) = false ∧ s.seed_set = true) →
      ((cs.foldl (fun s c => (step s c).state) s).initialized = true →
        (cs.foldl (fun s c => (step s c).state) s).num_per_batch ≠ 0 ∧
        Double.eq (cs.foldl (fun s c => (step s c).state) s).radius (Double.zero false)
          = false ∧
        (cs.foldl (fun s c => (step s c).state) s).seed_set = true) ∧
      ((cs.foldl (fun s c => (step s c).state) s).seed_set = true ↔
        s.seed_set = true ∨ ∃ v, Call.setSeed v ∈ cs) := by
  induction cs with
  | nil =>
    intro s hv
    exact ⟨hv, by simp⟩
  | cons c cs ih =>
    intro s hv
    obtain ⟨h1, h2⟩ := step_valid s c hv
    obtain ⟨h3, h4⟩ := ih (step s c).state h1
    simp only [List.foldl_cons]
    refine ⟨h3, ?_⟩
    rw [h4, h2]
    constructor
    · rintro ((h | ⟨v, rfl⟩) | ⟨v, hm⟩)
      · exact Or.inl h
      · exact Or.inr ⟨v, List.mem_cons_self _ _⟩
      · exact Or.inr ⟨v, List.mem_cons_of_mem _ hm⟩
    · rintro (h | ⟨v, hm⟩)
      · exact Or.inl (Or.inl h)
      · rcases List.mem_cons.mp hm with h | h
        · exact Or.inl (Or.inr ⟨v, h.symm⟩)
        · exact Or.inr ⟨v, h⟩

end RoadmapRGGDensConst

/-- C33: the method `initialize()` of a `RoadmapRGGDensConst`, called after the
constructor and any calls `cs` of its methods. It throws exactly when `num_per_batch` is 0
or `radius == 0.0` or no call of `setSeed` is among `cs`. When it throws, `initialized`
is false before and after, the members are as before, and the message is
`"Cannot initialize, parameters not set:"` followed by `" num_per_batch"`, `" radius"` and
`" seed"` for the missing parameters, in that order; the seed is missing exactly when
`setSeed` was never called. When it does not throw, `initialized` is true afterwards and
the parameters are as before. -/
theorem C33_initialize_throws_iff_missing (cs : List RoadmapRGGDensConst.Call) :
    ((RoadmapRGGDensConst.initialize_roadmap (RoadmapRGGDensConst.after cs)).thrown ≠ none ↔
      (RoadmapRGGDensConst.getNumPerBatch (RoadmapRGGDensConst.after cs) = 0 ∨
        Double.eq (RoadmapRGGDensConst.getRadius (RoadmapRGGDensConst.after cs))
          (Double.zero false) = true ∨
        ∀ v, RoadmapRGGDensConst.Call.setSeed v ∉ cs)) ∧
    ((RoadmapRGGDensConst.after cs).seed_set = false ↔
      ∀ v, RoadmapRGGDensConst.Call.setSeed v ∉ cs) ∧
    ((RoadmapRGGDensConst.initialize_roadmap (RoadmapRGGDensConst.after cs)).thrown ≠ none →
      (RoadmapRGGDensConst.after cs).initialized = false ∧
      (RoadmapRGGDensConst.initialize_roadmap (RoadmapRGGDensConst.after cs)).state
        = RoadmapRGGDensConst.after cs ∧
      (RoadmapRGGDensConst.initialize_roadmap (RoadmapRGGDensConst.after cs)).thrown
        = some ("Cannot initialize, parameters not set:"
          ++ (if (RoadmapRGGDensConst.after cs).num_per_batch = 0 then " num_per_batch"
              else "")
          ++ (if Double.eq (RoadmapRGGDensConst.after cs).radius (Double.zero false)
              then " radius" else "")
          ++ (if (RoadmapRGGDensConst.after cs).seed_set then "" else " seed"))) ∧
    ((RoadmapRGGDensConst.initialize_roadmap (RoadmapRGGDensConst.after cs)).thrown = none →
      (RoadmapRGGDensConst.initialize_roadmap (RoadmapRGGDensConst.after cs)).state
        = { RoadmapRGGDensConst.after cs with initialized := true }) := by
  obtain ⟨a1, a2, a3⟩ :=
    RoadmapRGGDensConst.initialize_roadmap_spec (RoadmapRGGDensConst.after cs)
  obtain ⟨hv, hseed⟩ := RoadmapRGGDensConst.fold_valid cs RoadmapRGGDensConst.construct
    (by simp [RoadmapRGGDensConst.construct])
  have hs : (RoadmapRGGDensConst.after cs).seed_set = false ↔
      ∀ v, RoadmapRGGDensConst.Call.setSeed v ∉ cs := by
    unfold RoadmapRGGDensConst.after
    constructor
    · intro h v hm
      have := hseed.mpr (Or.inr ⟨v, hm⟩)
      rw [h] at this
      exact absurd this (by simp)
    · intro h
      cases hc : (List.foldl (fun s c => (RoadmapRGGDensConst.step s c).state)
          RoadmapRGGDensConst.construct cs).seed_set with
      | false => rfl
      | true =>
        rcases hseed.mp hc with h1 | ⟨v, hm⟩
        · simp [RoadmapRGGDensConst.construct] at h1
        · exact absurd hm (h v)
  refine ⟨?_, hs, ?_, a3⟩
  · rw [a1, ← hs]
    rfl
  · intro ht
    refine ⟨?_, (a2 ht).1, (a2 ht).2⟩
    cases hi : (RoadmapRGGDensConst.after cs).initialized with
    | false => rfl
    | true =>
      obtain ⟨v1, v2, v3⟩ := hv hi
      rcases a1.mp ht with h | h | h
      · exact absurd h v1
      · exact absurd (h.symm.trans v2) (by simp)
      · exact absurd (h.symm.trans v3) (by simp)

/-- The method `initialize()` right after the constructor: all three parameters are
missing. -/
theorem initialize_roadmap_construct :
    RoadmapRGGDensConst.initialize_roadmap RoadmapRGGDensConst.construct
      = ⟨RoadmapRGGDensConst.construct,
          some "Cannot initialize, parameters not set: num_per_batch radius seed"⟩ := by
  decide

/-- Claim C34 as stated fails for `setRadius`, whichever way "the getter returns `v`" is
read. On a freshly constructed object, whose radius is `0.0`, `setRadius(-0.0)` finds
`-0.0 == 0.0` and returns without storing: `getRadius()` gives `0.0`, which is not the
value `-0.0`. And `setRadius(NaN)` stores the NaN, which `==` does not find equal to the
value that `getRadius()` returns. -/
theorem C34_counterexample :
    RoadmapRGGDensConst.construct.initialized = false ∧
    (RoadmapRGGDensConst.setRadius RoadmapRGGDensConst.construct (Double.zero true)).thrown
      = none ∧
    RoadmapRGGDensConst.getRadius
        (RoadmapRGGDensConst.setRadius RoadmapRGGDensConst.construct (Double.zero true)).state
      = Double.zero false ∧
    Double.zero false ≠ Double.zero true ∧
    (RoadmapRGGDensConst.setRadius RoadmapRGGDensConst.construct Double.nan).thrown = none ∧
    Double.eq Double.nan
      (RoadmapRGGDensConst.getRadius
        (RoadmapRGGDensConst.setRadius RoadmapRGGDensConst.construct Double.nan).state)
      = false := by
  decide

/-- Claim C34 as amended. Once `initialized` is true, `setNumPerBatch(n)`, `setRadius(r)`
and `setSeed(v)` throw exactly when the argument is not `==` to the stored value (for
`setSeed`: unless a seed was set and equals `v`), and whether they throw or not they leave
all members as they are. Before initialization no setter throws; each stores its argument
unless the argument is `==` to the stored value (for `setSeed`: and a seed was set), so
that the getter returns the argument or, when nothing was stored, the stored value that
compared equal to it: `getNumPerBatch()` and `getSeed()` return the argument, and
`getRadius()` returns `r` or the stored radius with `r == ` that radius. -/
theorem C34_setters_guarded_by_initialized (s : RoadmapRGGDensConst.Params) (n : Nat)
    (r : Double) (v : Nat) :
    (s.initialized = true →
      ((RoadmapRGGDensConst.setNumPerBatch s n).thrown ≠ none ↔ n ≠ s.num_per_batch) ∧
      (RoadmapRGGDensConst.setNumPerBatch s n).state = s ∧
      ((RoadmapRGGDensConst.setRadius s r).thrown ≠ none ↔ Double.eq r s.radius = false) ∧
      (RoadmapRGGDensConst.setRadius s r).state = s ∧
      ((RoadmapRGGDensConst.setSeed s v).thrown ≠ none ↔
        ¬ (s.seed_set = true ∧ v = s.seed)) ∧
      (RoadmapRGGDensConst.setSeed s v).state = s) ∧
    (s.initialized = false →
      (RoadmapRGGDensConst.setNumPerBatch s n).thrown = none ∧
      RoadmapRGGDensConst.getNumPerBatch (RoadmapRGGDensConst.setNumPerBatch s n).state = n ∧
      (RoadmapRGGDensConst.setSeed s v).thrown = none ∧
      RoadmapRGGDensConst.getSeed (RoadmapRGGDensConst.setSeed s v).state = v ∧
      (RoadmapRGGDensConst.setSeed s v).state.seed_set = true ∧
      (RoadmapRGGDensConst.setRadius s r).thrown = none ∧
      (RoadmapRGGDensConst.setRadius s r).state
        = (if Double.eq r s.radius then s else { s with radius := r }) ∧
      (RoadmapRGGDensConst.getRadius (RoadmapRGGDensConst.setRadius s r).state = r ∨
        (Double.eq r s.radius = true ∧
          RoadmapRGGDensConst.getRadius (RoadmapRGGDensConst.setRadius s r).state
            = s.radius))) := by
  constructor
  · intro hi
    refine ⟨?_, ?_, ?_, ?_, ?_, ?_⟩
    · unfold RoadmapRGGDensConst.setNumPerBatch
      by_cases h1 : n = s.num_per_batch
      · simp [h1]
      · simp [h1, hi]
    · unfold RoadmapRGGDensConst.setNumPerBatch
      by_cases h1 : n = s.num_per_batch
      · simp [h1]
      · simp [h1, hi]
    · unfold RoadmapRGGDensConst.setRadius
      by_cases h1 : Double.eq r s.radius = true
      · simp [h1]
      · simp [h1, hi]
    · unfold RoadmapRGGDensConst.setRadius
      by_cases h1 : Double.eq r s.radius = true
      · simp [h1]
      · simp [h1, hi]
    · unfold RoadmapRGGDensConst.setSeed
      by_cases h1 : s.seed_set = true
      · by_cases h2 : v = s.seed
        · simp [h1, h2]
        · simp [h1, h2, hi]
      · simp [h1, hi]
    · unfold RoadmapRGGDensConst.setSeed
      by_cases h1 : s.seed_set = true
      · by_cases h2 : v = s.seed
        · simp [h1, h2]
        · simp [h1, h2, hi]
      · simp [h1, hi]
  · intro hi
    refine ⟨?_, ?_, ?_, ?_, ?_, ?_, ?_, ?_⟩
    · unfold RoadmapRGGDensConst.setNumPerBatch
      by_cases h1 : n = s.num_per_batch
      · simp [h1]
      · simp [h1, hi]
    · unfold RoadmapRGGDensConst.setNumPerBatch RoadmapRGGDensConst.getNumPerBatch
      by_cases h1 : n = s.num_per_batch
      · simp [h1]
      · simp [h1, hi]
    · unfold RoadmapRGGDensConst.setSeed
      by_cases h1 : s.seed_set = true
      · by_cases h2 : v = s.seed
        · simp [h1, h2]
        · simp [h1, h2, hi]
      · simp [h1, hi]
    · unfold RoadmapRGGDensConst.setSeed RoadmapRGGDensConst.getSeed
      by_cases h1 : s.seed_set = true
      · by_cases h2 : v = s.seed
        · simp [h1, h2]
        · simp [h1, h2, hi]
      · simp [h1, hi]
    · unfold RoadmapRGGDensConst.setSeed
      by_cases h1 : s.seed_set = true
      · by_cases h2 : v = s.seed
        · simp [h1, h2]
        · simp [h1, h2, hi]
      · simp [h1, hi]
    · unfold RoadmapRGGDensConst.setRadius
      by_cases h1 : Double.eq r s.radius = true
      · simp [h1]
      · simp [h1, hi]
    · unfold RoadmapRGGDensConst.setRadius
      by_cases h1 : Double.eq r s.radius = true
      · simp [h1]
      · simp [h1, hi]
    · unfold RoadmapRGGDensConst.setRadius RoadmapRGGDensConst.getRadius
      by_cases h1 : Double.eq r s.radius = true
      · simp [h1]
      · simp [h1, hi]

end ompl_lemur
